import Mathlib

/-!
Argonaut: the resource tree view and its key handlers.

A shallow embedding of `pkg/tui/treeview/treeview.go` and of the handlers of
`cmd/app/input_handlers.go`.

Modelling conventions.

* Go strings are Lean strings.  `<` on Go strings is byte-wise lexicographic,
  which on valid UTF-8 coincides with the code point order used by `strLt`.
* A Go `map[string]T` is an association list (`GoMap`): `mapGet` is `m[k]` with
  the comma-ok result, `mapSet` is `m[k] = x`, `mapDelete` is `delete(m, k)`.
  Go leaves the iteration order of a map unspecified; `range` over a map is
  modelled by the order of the list, which is one admissible order.
* `*treeNode` values are addresses into an explicit heap (`TreeView.heap`), a
  list that only ever grows; allocating a node appends a cell, and an
  assignment through a pointer is `heapModify`.
* Go `int` is `Int`; every index the code computes is bounded by the length of
  a slice, so 64 bit overflow is out of reach.
* The recursive closure `walk` of `rebuildOrder` has no termination argument in
  the source: on a cyclic child graph reachable through expanded nodes it
  recurses until the Go stack overflows.  The embedding bounds the recursion
  depth by the number of heap cells plus one and returns `none` beyond it; a
  deeper path repeats a cell, hence witnesses such a cycle.
* `handleKeyMsg` reads the clock (`time.Now().UnixMilli()`): the embedding takes
  the reading as the argument `now`.  It is embedded relative to a table of
  handlers (`Dispatch`); `Model.keyHandlers` is the table with the handlers of
  `input_handlers.go`.  The functions these call that are in other files of the
  repository are fields of `Dispatch` and `Env`.
* A handler mutates the model through its pointer receiver and returns it with
  a command: the embedding returns the new model and the list of commands
  (`nil` is the empty list), and `none` where the Go code panics on an index.
* The string-set helpers of package `pkg/model` are outside the files embedded
  here and are modelled on the Go type `map[string]bool` (`NewStringSet`,
  `HasInStringSet`, `AddToStringSet`, `RemoveFromStringSet`).
-/

namespace Argonaut

/-! ## Go library functions -/

/-- Go `unicode.IsSpace`: the Unicode White_Space code points. -/
def isSpace (c : Char) : Bool :=
  let n := c.toNat
  n == 9 || n == 10 || n == 11 || n == 12 || n == 13 || n == 32 ||
  n == 0x85 || n == 0xA0 || n == 0x1680 || (0x2000 ≤ n && n ≤ 0x200a) ||
  n == 0x2028 || n == 0x2029 || n == 0x202f || n == 0x205f || n == 0x3000

/-- Go `strings.TrimSpace`: drop leading and trailing white space. -/
def TrimSpace (s : String) : String :=
  ⟨(((s.data.dropWhile isSpace).reverse).dropWhile isSpace).reverse⟩

/-- The lower-case mappings of Go `unicode.CaseRanges` above ASCII (Unicode
15.0.0), as runs `(first, last, step, image)`: the runes `first`,
`first + step`, ..., `last` have a lower-case form, that of `first + k` being
`image + k`.  Every other rune above ASCII is its own lower-case form. -/
def lowerRuns : List (Nat × Nat × Nat × Nat) :=
  [(192, 214, 1, 224), (216, 222, 1, 248), (256, 302, 2, 257), (304, 304, 1, 105),
   (306, 310, 2, 307), (313, 327, 2, 314), (330, 374, 2, 331), (376, 376, 1, 255),
   (377, 381, 2, 378), (385, 385, 1, 595), (386, 388, 2, 387), (390, 390, 1, 596),
   (391, 391, 1, 392), (393, 394, 1, 598), (395, 395, 1, 396), (398, 398, 1, 477),
   (399, 399, 1, 601), (400, 400, 1, 603), (401, 401, 1, 402), (403, 403, 1, 608),
   (404, 404, 1, 611), (406, 406, 1, 617), (407, 407, 1, 616), (408, 408, 1, 409),
   (412, 412, 1, 623), (413, 413, 1, 626), (415, 415, 1, 629), (416, 420, 2, 417),
   (422, 422, 1, 640), (423, 423, 1, 424), (425, 425, 1, 643), (428, 428, 1, 429),
   (430, 430, 1, 648), (431, 431, 1, 432), (433, 434, 1, 650), (435, 437, 2, 436),
   (439, 439, 1, 658), (440, 440, 1, 441), (444, 444, 1, 445), (452, 452, 1, 454),
   (453, 453, 1, 454), (455, 455, 1, 457), (456, 456, 1, 457), (458, 458, 1, 460),
   (459, 475, 2, 460), (478, 494, 2, 479), (497, 497, 1, 499), (498, 500, 2, 499),
   (502, 502, 1, 405), (503, 503, 1, 447), (504, 542, 2, 505), (544, 544, 1, 414),
   (546, 562, 2, 547), (570, 570, 1, 11365), (571, 571, 1, 572), (573, 573, 1, 410),
   (574, 574, 1, 11366), (577, 577, 1, 578), (579, 579, 1, 384), (580, 580, 1, 649),
   (581, 581, 1, 652), (582, 590, 2, 583), (880, 882, 2, 881), (886, 886, 1, 887),
   (895, 895, 1, 1011), (902, 902, 1, 940), (904, 906, 1, 941), (908, 908, 1, 972),
   (910, 911, 1, 973), (913, 929, 1, 945), (931, 939, 1, 963), (975, 975, 1, 983),
   (984, 1006, 2, 985), (1012, 1012, 1, 952), (1015, 1015, 1, 1016), (1017, 1017, 1, 1010),
   (1018, 1018, 1, 1019), (1021, 1023, 1, 891), (1024, 1039, 1, 1104), (1040, 1071, 1, 1072),
   (1120, 1152, 2, 1121), (1162, 1214, 2, 1163), (1216, 1216, 1, 1231), (1217, 1229, 2, 1218),
   (1232, 1326, 2, 1233), (1329, 1366, 1, 1377), (4256, 4293, 1, 11520), (4295, 4295, 1, 11559),
   (4301, 4301, 1, 11565), (5024, 5103, 1, 43888), (5104, 5109, 1, 5112), (7312, 7354, 1, 4304),
   (7357, 7359, 1, 4349), (7680, 7828, 2, 7681), (7838, 7838, 1, 223), (7840, 7934, 2, 7841),
   (7944, 7951, 1, 7936), (7960, 7965, 1, 7952), (7976, 7983, 1, 7968), (7992, 7999, 1, 7984),
   (8008, 8013, 1, 8000), (8025, 8031, 2, 8017), (8040, 8047, 1, 8032), (8072, 8079, 1, 8064),
   (8088, 8095, 1, 8080), (8104, 8111, 1, 8096), (8120, 8121, 1, 8112), (8122, 8123, 1, 8048),
   (8124, 8124, 1, 8115), (8136, 8139, 1, 8050), (8140, 8140, 1, 8131), (8152, 8153, 1, 8144),
   (8154, 8155, 1, 8054), (8168, 8169, 1, 8160), (8170, 8171, 1, 8058), (8172, 8172, 1, 8165),
   (8184, 8185, 1, 8056), (8186, 8187, 1, 8060), (8188, 8188, 1, 8179), (8486, 8486, 1, 969),
   (8490, 8490, 1, 107), (8491, 8491, 1, 229), (8498, 8498, 1, 8526), (8544, 8559, 1, 8560),
   (8579, 8579, 1, 8580), (9398, 9423, 1, 9424), (11264, 11311, 1, 11312),
   (11360, 11360, 1, 11361), (11362, 11362, 1, 619), (11363, 11363, 1, 7549),
   (11364, 11364, 1, 637), (11367, 11371, 2, 11368), (11373, 11373, 1, 593),
   (11374, 11374, 1, 625), (11375, 11375, 1, 592), (11376, 11376, 1, 594),
   (11378, 11378, 1, 11379), (11381, 11381, 1, 11382), (11390, 11391, 1, 575),
   (11392, 11490, 2, 11393), (11499, 11501, 2, 11500), (11506, 11506, 1, 11507),
   (42560, 42604, 2, 42561), (42624, 42650, 2, 42625), (42786, 42798, 2, 42787),
   (42802, 42862, 2, 42803), (42873, 42875, 2, 42874), (42877, 42877, 1, 7545),
   (42878, 42886, 2, 42879), (42891, 42891, 1, 42892), (42893, 42893, 1, 613),
   (42896, 42898, 2, 42897), (42902, 42920, 2, 42903), (42922, 42922, 1, 614),
   (42923, 42923, 1, 604), (42924, 42924, 1, 609), (42925, 42925, 1, 620),
   (42926, 42926, 1, 618), (42928, 42928, 1, 670), (42929, 42929, 1, 647),
   (42930, 42930, 1, 669), (42931, 42931, 1, 43859), (42932, 42946, 2, 42933),
   (42948, 42948, 1, 42900), (42949, 42949, 1, 642), (42950, 42950, 1, 7566),
   (42951, 42953, 2, 42952), (42960, 42960, 1, 42961), (42966, 42968, 2, 42967),
   (42997, 42997, 1, 42998), (65313, 65338, 1, 65345), (66560, 66599, 1, 66600),
   (66736, 66771, 1, 66776), (66928, 66964, 2, 66967), (66929, 66938, 1, 66968),
   (66941, 66954, 1, 66980), (66957, 66962, 1, 66996), (66965, 66965, 1, 67004),
   (68736, 68786, 1, 68800), (71840, 71871, 1, 71872), (93760, 93791, 1, 93792),
   (125184, 125217, 1, 125218)]

/-- Go `unicode.ToLower`: ASCII letters directly, other runes by the table. -/
def unicodeToLower (c : Char) : Char :=
  if c.toNat < 128 then
    if 65 ≤ c.toNat ∧ c.toNat ≤ 90 then Char.ofNat (c.toNat + 32) else c
  else
    match lowerRuns.find? (fun r =>
      decide (r.1 ≤ c.toNat ∧ c.toNat ≤ r.2.1 ∧ (c.toNat - r.1) % r.2.2.1 = 0)) with
    | some r => Char.ofNat (r.2.2.2 + (c.toNat - r.1))
    | none => c

/-- Go `strings.ToLower`: every rune is mapped by `unicode.ToLower`. -/
def ToLower (s : String) : String :=
  ⟨s.data.map unicodeToLower⟩

/-- Go `a - b` on `int64`: the difference wrapped into `[-2^63, 2^63)`. -/
def sub64 (a b : Int) : Int :=
  (a - b + 9223372036854775808) % 18446744073709551616 - 9223372036854775808

/-- Position (counted in characters) of the first occurrence of `sep` in `s`
at or after offset `i`, or `-1`: Go `strings.Index`. -/
def indexFrom (sep : List Char) : List Char → Nat → Int
  | [], i => if sep = [] then (i : Int) else -1
  | c :: cs, i => if sep.isPrefixOf (c :: cs) then (i : Int) else indexFrom sep cs (i + 1)

/-- Go `strings.Index(s, sep)`. -/
def Index (s sep : String) : Int :=
  indexFrom sep.data s.data 0

/-- Go `strings.Contains(s, sub)`. -/
def Contains (s sub : String) : Bool :=
  decide (0 ≤ Index s sub)

/-- Go slice expression `s[:idx]`. -/
def sliceTo (s : String) (idx : Int) : String :=
  ⟨s.data.take idx.toNat⟩

/-- Go `a < b` on strings. -/
def ltChars : List Char → List Char → Bool
  | _, [] => false
  | [], _ :: _ => true
  | a :: as, b :: bs =>
    if a.toNat < b.toNat then true
    else if b.toNat < a.toNat then false
    else ltChars as bs

/-- Go `a < b` on strings. -/
def strLt (a b : String) : Bool :=
  ltChars a.data b.data

/-! ## Go maps with string keys -/

/-- A Go `map[string]ν`. -/
abbrev GoMap (ν : Type) := List (String × ν)

/-- Go `v, ok := m[k]`. -/
def mapGet {ν : Type} : GoMap ν → String → Option ν
  | [], _ => none
  | (k', x) :: m, k => if k' = k then some x else mapGet m k

/-- Go `m[k] = x`. -/
def mapSet {ν : Type} : GoMap ν → String → ν → GoMap ν
  | [], k, x => [(k, x)]
  | (k', x') :: m, k, x => if k' = k then (k, x) :: m else (k', x') :: mapSet m k x

/-- Go `delete(m, k)`. -/
def mapDelete {ν : Type} (m : GoMap ν) (k : String) : GoMap ν :=
  m.filter (fun e => decide (e.1 ≠ k))

/-- Go `m[k]` on a `map[string]bool`: `false` when the key is absent. -/
def mapGetBool (m : GoMap Bool) (k : String) : Bool :=
  (mapGet m k).getD false

/-! ## The tree view: data -/

/-- Go `treeNode`; the pointers `parent` and `children` are addresses in the
heap. -/
structure treeNode where
  uid : String
  group : String
  version : String
  kind : String
  name : String
  namespace_ : String
  status : String
  health : String
  parent : Option Nat
  children : List Nat
  deriving DecidableEq, Repr, Inhabited

/-- Go `ResourceSelection`. -/
structure ResourceSelection where
  AppName : String
  Group : String
  Version : String
  Kind : String
  Namespace : String
  Name : String
  Status : String
  Health : String
  deriving DecidableEq, Repr, Inhabited

/-- Go `ResourceSelection.IsMissing`. -/
def ResourceSelection.IsMissing (r : ResourceSelection) : Bool :=
  let status := TrimSpace (ToLower r.Status)
  let health := TrimSpace (ToLower r.Health)
  status == "missing" || health == "missing"

/-- Go `api.ResourceRef`, of which the tree view reads the UID. -/
structure ResourceRef where
  UID : String
  deriving DecidableEq, Repr, Inhabited

/-- Go `api.ResourceHealth`. -/
structure ResourceHealth where
  Status : Option String
  deriving DecidableEq, Repr, Inhabited

/-- Go `api.ResourceNode`, the fields `UpsertAppTree` reads. -/
structure ResourceNode where
  UID : String
  Group : String
  Version : String
  Kind : String
  Name : String
  Namespace : Option String
  Status : String
  Health : Option ResourceHealth
  ParentRefs : List ResourceRef
  deriving DecidableEq, Repr, Inhabited

/-- Go `api.ResourceTree`. -/
structure ResourceTree where
  Nodes : List ResourceNode
  deriving DecidableEq, Repr, Inhabited

/-- Go `api.ResourceStatus`, the fields `SetResourceStatuses` reads. -/
structure ResourceStatus where
  Group : String
  Kind : String
  Namespace : String
  Name : String
  Status : String
  deriving DecidableEq, Repr, Inhabited

/-- Go `TreeView`, without the colour palette and the self reference `Model`. -/
structure TreeView where
  SelectedUID : String
  width : Int
  height : Int
  heap : List treeNode
  nodesByUID : GoMap Nat
  nodesByApp : GoMap (List String)
  rootByApp : GoMap Nat
  roots : List Nat
  expanded : GoMap Bool
  order : List Nat
  selIdx : Int
  appName : String
  appHealth : String
  appSync : String
  appMeta : GoMap (String × String)
  filterQuery : String
  matchIndices : List Int
  currentMatch : Int
  selectedUIDs : GoMap Bool
  desaturateMode : Bool
  flashAll : Bool
  deriving DecidableEq, Repr, Inhabited

/-- Messages `TreeView.Update` distinguishes: a key (by its `String()`), a
window size, anything else. -/
inductive Msg where
  | key (s : String)
  | windowSize (width height : Int)
  | other
  deriving DecidableEq, Repr, Inhabited

namespace TreeView

/-- Dereference a node pointer. -/
def node (v : TreeView) (p : Nat) : treeNode :=
  v.heap.getD p default

/-- Go `v.order[i]` for an index already checked to be in range. -/
def orderAt (v : TreeView) (i : Int) : Nat :=
  v.order.getD i.toNat 0

/-- Go `NewTreeView`. -/
def NewTreeView (width height : Int) : TreeView :=
  { SelectedUID := "", width := width, height := height, heap := [],
    nodesByUID := [], nodesByApp := [], rootByApp := [], roots := [],
    expanded := [], order := [], selIdx := 0,
    appName := "", appHealth := "", appSync := "", appMeta := [],
    filterQuery := "", matchIndices := [], currentMatch := 0,
    selectedUIDs := [], desaturateMode := false, flashAll := false }

/-- Go `TreeView.SelectedIndex`. -/
def SelectedIndex (v : TreeView) : Int := v.selIdx

/-- Go `TreeView.VisibleCount`. -/
def VisibleCount (v : TreeView) : Int := v.order.length

/-- Go `TreeView.VisibleLineCount`. -/
def VisibleLineCount (v : TreeView) : Int :=
  let roots : Int := v.order.countP (fun p => decide ((v.node p).parent = none))
  v.order.length + (if roots > 0 then roots - 1 else roots)

/-- Go `TreeView.SelectedLineIndex`. -/
def SelectedLineIndex (v : TreeView) : Int :=
  if v.selIdx ≤ 0 ∨ v.selIdx ≥ v.order.length then
    if v.selIdx < 0 then 0 else min v.selIdx (max 0 ((v.order.length : Int) - 1))
  else
    v.selIdx + (((v.order.take (v.selIdx.toNat + 1)).drop 1).countP
      (fun p => decide ((v.node p).parent = none)) : Nat)

/-- Go `TreeView.GetAppName`. -/
def GetAppName (v : TreeView) : String := v.appName

/-- Go `TreeView.SetAppMeta`. -/
def SetAppMeta (v : TreeView) (name health sync : String) : TreeView :=
  { v with appMeta := mapSet v.appMeta name (health, sync),
           appName := name, appHealth := health, appSync := sync }

/-- Go `TreeView.SetSize`. -/
def SetSize (v : TreeView) (width height : Int) : TreeView :=
  { v with width := width, height := height }

/-- Go `TreeView.SetDesaturateMode`. -/
def SetDesaturateMode (v : TreeView) (enabled : Bool) : TreeView :=
  { v with desaturateMode := enabled }

/-- Go `TreeView.SetFlashAll`. -/
def SetFlashAll (v : TreeView) (enabled : Bool) : TreeView :=
  { v with flashAll := enabled }

/-- Go `TreeView.nodeIsMissing` (the pointer is never nil at its call sites). -/
def nodeIsMissing (n : treeNode) : Bool :=
  let status := TrimSpace (ToLower n.status)
  let health := TrimSpace (ToLower n.health)
  status == "missing" || health == "missing"

/-- Go `TreeView.CurrentResourceIsMissing`. -/
def CurrentResourceIsMissing (v : TreeView) : Bool :=
  if v.selIdx < 0 ∨ v.selIdx ≥ v.order.length then false
  else nodeIsMissing (v.node (v.orderAt v.selIdx))

/-- Go `TreeView.SelectedResource`: group, kind, namespace and name of the node
under the cursor; `none` is the result with `ok == false`. -/
def SelectedResource (v : TreeView) : Option (String × String × String × String) :=
  if v.selIdx < 0 ∨ v.selIdx ≥ v.order.length then none
  else
    let node := v.node (v.orderAt v.selIdx)
    some (node.group, node.kind, node.namespace_, node.name)

/-- Go `TreeView.ToggleSelection`: the new view and the returned flag. -/
def ToggleSelection (v : TreeView) : TreeView × Bool :=
  if v.selIdx < 0 ∨ v.selIdx ≥ v.order.length then (v, false)
  else
    let node := v.node (v.orderAt v.selIdx)
    if node.kind = "Application" then (v, false)
    else if nodeIsMissing node then (v, false)
    else if mapGetBool v.selectedUIDs node.uid then
      ({ v with selectedUIDs := mapDelete v.selectedUIDs node.uid }, true)
    else
      ({ v with selectedUIDs := mapSet v.selectedUIDs node.uid true }, true)

/-- The application name the source reads off a scoped key `app::uid`, with
the legacy `appName` as fallback. -/
def appNameOf (v : TreeView) (uid : String) : String :=
  let idx := Index uid "::"
  if idx > 0 then sliceTo uid idx else v.appName

/-- The `ResourceSelection` the source builds for the node `n` under key `uid`. -/
def selectionOf (v : TreeView) (uid : String) (n : treeNode) : ResourceSelection :=
  { AppName := v.appNameOf uid, Group := n.group, Version := n.version, Kind := n.kind,
    Namespace := n.namespace_, Name := n.name, Status := n.status, Health := n.health }

/-- One iteration of the loop of `GetSelectedResources` over the selected
UIDs: the entry appended for a selected key, if its node is still indexed. -/
def selectedEntry (v : TreeView) (e : String × Bool) : Option ResourceSelection :=
  match mapGet v.nodesByUID e.1 with
  | some p => some (v.selectionOf e.1 (v.node p))
  | none => none

/-- Go `TreeView.GetSelectedResources`. -/
def GetSelectedResources (v : TreeView) : List ResourceSelection :=
  if v.selectedUIDs.length > 0 then
    v.selectedUIDs.filterMap v.selectedEntry
  else if 0 ≤ v.selIdx ∧ v.selIdx < v.order.length then
    let node := v.node (v.orderAt v.selIdx)
    if node.kind ≠ "Application" then [v.selectionOf node.uid node] else []
  else []

/-- Go `TreeView.ClearSelection`. -/
def ClearSelection (v : TreeView) : TreeView :=
  { v with selectedUIDs := [] }

/-- Go `TreeView.HasSelection`. -/
def HasSelection (v : TreeView) : Bool :=
  decide (v.selectedUIDs.length > 0)

/-- Go `TreeView.SelectionCount`. -/
def SelectionCount (v : TreeView) : Int :=
  v.selectedUIDs.length

/-- Go `TreeView.IsSelected`. -/
def IsSelected (v : TreeView) (idx : Int) : Bool :=
  if idx < 0 ∨ idx ≥ v.order.length then false
  else mapGetBool v.selectedUIDs (v.node (v.orderAt idx)).uid

/-! ## The tree view: building and walking the forest -/

/-- Assignment through a node pointer: `*p = f(*p)`. -/
def heapModify (h : List treeNode) (p : Nat) (f : treeNode → treeNode) : List treeNode :=
  h.set p (f (h.getD p default))

/-- The assignment `p.parent = x`. -/
def setParent (h : List treeNode) (p : Nat) (x : Option Nat) : List treeNode :=
  heapModify h p (fun c => { c with parent := x })

/-- The assignment `p.children = l`. -/
def setChildren (h : List treeNode) (p : Nat) (l : List Nat) : List treeNode :=
  heapModify h p (fun c => { c with children := l })

/-- The assignment `p.status = s`. -/
def setStatus (h : List treeNode) (p : Nat) (s : String) : List treeNode :=
  heapModify h p (fun c => { c with status := s })

/-- Go `fmt.Sprintf("%s/%s/%s/%s", group, kind, namespace, name)` on strings. -/
def statusKey (group kind ns name : String) : String :=
  group ++ "/" ++ kind ++ "/" ++ ns ++ "/" ++ name

/-- One iteration of the loop of `SetResourceStatuses` over the keys of the app. -/
def setNodeStatus (nodesByUID : GoMap Nat) (statusByKey : GoMap String)
    (h : List treeNode) (nodeKey : String) : List treeNode :=
  match mapGet nodesByUID nodeKey with
  | some node =>
    let n := h.getD node default
    match mapGet statusByKey (statusKey n.group n.kind n.namespace_ n.name) with
    | some status => setStatus h node status
    | none => h
  | none => h

/-- Go `TreeView.SetResourceStatuses`. -/
def SetResourceStatuses (v : TreeView) (appName : String) (resources : List ResourceStatus) :
    TreeView :=
  let statusByKey : GoMap String := resources.foldl
    (fun m r => mapSet m (statusKey r.Group r.Kind r.Namespace r.Name) r.Status) []
  match mapGet v.nodesByApp appName with
  | some keys => { v with heap := keys.foldl (setNodeStatus v.nodesByUID statusByKey) v.heap }
  | none => v

/-- A loop `for _, c := range list { step(c) }` in which every `step` appends
nodes to `v.order`: the nodes appended, or `none` when a step does not return. -/
def walkEach (step : Nat → Option (List Nat)) : List Nat → Option (List Nat)
  | [] => some []
  | c :: cs =>
    match step c with
    | none => none
    | some a =>
      match walkEach step cs with
      | none => none
      | some b => some (a ++ b)

/-- The closure `walk` of `rebuildOrder`, returning the nodes it appends to
`v.order`; `fuel` bounds the recursion depth. -/
def walk (v : TreeView) : Nat → Nat → Option (List Nat)
  | 0, _ => none
  | fuel + 1, n =>
    if mapGetBool v.expanded (v.node n).uid then
      (walkEach (walk v fuel) (v.node n).children).map (fun l => n :: l)
    else some [n]

/-- The loop `for _, r := range v.roots { walk(r, 0) }`. -/
def walkRoots (v : TreeView) : Option (List Nat) :=
  walkEach (walk v (v.heap.length + 1)) v.roots

/-- The tail of `rebuildOrder`, after `v.order` has been recomputed: clamp the
selection and record the UID under it. -/
def clampSelection (v : TreeView) : TreeView :=
  let v1 : TreeView :=
    if v.selIdx ≥ v.order.length then { v with selIdx := max 0 ((v.order.length : Int) - 1) }
    else v
  if v1.selIdx ≥ 0 ∧ v1.selIdx < v1.order.length then
    { v1 with SelectedUID := (v1.node (v1.orderAt v1.selIdx)).uid }
  else v1

/-- Go `TreeView.rebuildOrder`; `none` when the walk does not return. -/
def rebuildOrder (v : TreeView) : Option TreeView :=
  match walkRoots v with
  | none => none
  | some order => some (clampSelection { v with order := order })

/-- Go `TreeView.indexOf`. -/
def indexOfFrom (n : Nat) : List Nat → Int → Int
  | [], _ => -1
  | x :: xs, i => if x = n then i else indexOfFrom n xs (i + 1)

/-- Go `TreeView.indexOf`. -/
def indexOf (v : TreeView) (n : Nat) : Int :=
  indexOfFrom n v.order 0

/-- The assignment `v.SelectedUID = v.order[v.selIdx].uid` guarded by the
bounds check, as it ends the key branch of `Update`. -/
def syncSelectedUID (v : TreeView) : TreeView :=
  if v.selIdx ≥ 0 ∧ v.selIdx < v.order.length then
    { v with SelectedUID := (v.node (v.orderAt v.selIdx)).uid }
  else v

/-- The loops of the `H` and `L` keys: set the expansion flag of every indexed
node that has a parent. -/
def setAllExpanded (v : TreeView) (flag : Bool) : TreeView :=
  { v with expanded := v.nodesByUID.foldl (fun e kp =>
      if (v.node kp.2).parent ≠ none then mapSet e (v.node kp.2).uid flag else e) v.expanded }

/-- The key switch of `Update`, before the final `SelectedUID` assignment. -/
def updateKey (v : TreeView) (k : String) : Option TreeView :=
  if k = "up" ∨ k = "k" then
    some (if v.selIdx > 0 then { v with selIdx := v.selIdx - 1 } else v)
  else if k = "down" ∨ k = "j" then
    some (if v.selIdx < (v.order.length : Int) - 1 then { v with selIdx := v.selIdx + 1 } else v)
  else if k = "left" ∨ k = "h" then
    if v.selIdx ≥ 0 ∧ v.selIdx < v.order.length then
      let cur := v.node (v.orderAt v.selIdx)
      if mapGetBool v.expanded cur.uid ∧ cur.children.length > 0 then
        rebuildOrder { v with expanded := mapSet v.expanded cur.uid false }
      else
        match cur.parent with
        | some par =>
          let pidx := v.indexOf par
          some (if pidx ≥ 0 then { v with selIdx := pidx } else v)
        | none => some v
    else some v
  else if k = "right" ∨ k = "l" ∨ k = "enter" then
    if v.selIdx ≥ 0 ∧ v.selIdx < v.order.length then
      let cur := v.node (v.orderAt v.selIdx)
      if cur.children.length > 0 then
        rebuildOrder { v with expanded := mapSet v.expanded cur.uid true }
      else some v
    else some v
  else if k = "shift+left" ∨ k = "H" then
    rebuildOrder (v.setAllExpanded false)
  else if k = "shift+right" ∨ k = "L" then
    rebuildOrder (v.setAllExpanded true)
  else some v

/-- Go `TreeView.Update` (the returned command is always nil). -/
def Update (v : TreeView) (msg : Msg) : Option TreeView :=
  match msg with
  | Msg.key k => (v.updateKey k).map syncSelectedUID
  | Msg.windowSize w h => some { v with width := w, height := h }
  | Msg.other => some v

/-- Go `TreeView.SetSelectedIndex`. -/
def SetSelectedIndex (v : TreeView) (idx : Int) : TreeView :=
  let idx1 := if idx < 0 then 0 else idx
  let idx2 := if v.order.length > 0 ∧ idx1 ≥ v.order.length then (v.order.length : Int) - 1 else idx1
  syncSelectedUID { v with selIdx := idx2 }

/-- The closure `makeKey` of `UpsertAppTree`. -/
def makeKey (appName uid : String) : String :=
  appName ++ "::" ++ uid

/-- The comparison function of `sortNodes`: `(kind, name)` lexicographic. -/
def nodeLess (a b : treeNode) : Bool :=
  if a.kind = b.kind then strLt a.name b.name else strLt a.kind b.kind

/-- The closure `sortNodes` of `UpsertAppTree` on a slice of pointers.  Go's
`sort.Slice` may leave elements that compare equal in any order; the
embedding keeps them in their incoming order. -/
def sortNodes (h : List treeNode) (list : List Nat) : List Nat :=
  list.insertionSort (fun a b => nodeLess (h.getD b default) (h.getD a default) = false)

/-- First part of `UpsertAppTree`: forget the previous nodes, expansion flags
and root of `appName`. -/
def removeApp (v : TreeView) (appName : String) : TreeView :=
  let v1 : TreeView :=
    match mapGet v.nodesByApp appName with
    | some keys =>
      { v with nodesByUID := keys.foldl mapDelete v.nodesByUID,
               expanded := keys.foldl mapDelete v.expanded,
               nodesByApp := mapDelete v.nodesByApp appName }
    | none => v
  match mapGet v1.rootByApp appName with
  | some oldRoot =>
    { v1 with roots := v1.roots.erase oldRoot, rootByApp := mapDelete v1.rootByApp appName }
  | none => v1

/-- The locals of `UpsertAppTree` that its passes thread along: the heap, the
global node index, `nodesLocal` and `appKeys`. -/
structure Build where
  heap : List treeNode
  nodesByUID : GoMap Nat
  nodesLocal : GoMap Nat
  appKeys : List String
  deriving DecidableEq, Repr, Inhabited

/-- The node the first pass allocates for a snapshot entry. -/
def newNode (appName : String) (n : ResourceNode) : treeNode :=
  let ns := match n.Namespace with
    | some s => s
    | none => ""
  let health := match n.Health with
    | some hl => (match hl.Status with
      | some s => s
      | none => "")
    | none => ""
  { uid := makeKey appName n.UID, group := n.Group, version := n.Version, kind := n.Kind,
    name := n.Name, namespace_ := ns, status := n.Status, health := health,
    parent := none, children := [] }

/-- One iteration of the first pass of `UpsertAppTree`. -/
def allocNode (appName : String) (b : Build) (n : ResourceNode) : Build :=
  let key := makeKey appName n.UID
  let tn := b.heap.length
  { heap := b.heap ++ [newNode appName n],
    nodesByUID := mapSet b.nodesByUID key tn,
    nodesLocal := mapSet b.nodesLocal key tn,
    appKeys := b.appKeys ++ [key] }

/-- One iteration of the inner loop of the second pass: link `child` to the
parent a reference names, when that parent is in `nodesLocal`. -/
def linkParent (appName : String) (nodesLocal : GoMap Nat) (child : Nat)
    (h : List treeNode) (pref : ResourceRef) : List treeNode :=
  match mapGet nodesLocal (makeKey appName pref.UID) with
  | some p =>
    let h1 := setParent h child (some p)
    setChildren h1 p ((h1.getD p default).children ++ [child])
  | none => h

/-- One iteration of the second pass of `UpsertAppTree`. -/
def linkNode (appName : String) (nodesLocal : GoMap Nat)
    (h : List treeNode) (n : ResourceNode) : List treeNode :=
  match mapGet nodesLocal (makeKey appName n.UID) with
  | some child => n.ParentRefs.foldl (linkParent appName nodesLocal child) h
  | none => h

/-- The state of the loop that filters the duplicate Application node: the
heap, the global node index and `filtered`. -/
structure Filter where
  heap : List treeNode
  nodesByUID : GoMap Nat
  filtered : List Nat
  deriving DecidableEq, Repr, Inhabited

/-- One iteration of the loop over `tempRoots` that drops an Application node
named like the app and promotes its children. -/
def filterRoot (appName : String) (f : Filter) (p : Nat) : Filter :=
  let nd := f.heap.getD p default
  if nd.kind = "Application" ∧ nd.name = appName then
    { heap := nd.children.foldl (fun h c => setParent h c none) f.heap,
      nodesByUID := mapDelete f.nodesByUID nd.uid,
      filtered := f.filtered ++ nd.children }
  else { f with filtered := f.filtered ++ [p] }

/-- One iteration of the loop that sorts the children of every local node. -/
def sortChildren (h : List treeNode) (kp : String × Nat) : List treeNode :=
  if (h.getD kp.2 default).children.length > 0 then
    setChildren h kp.2 (sortNodes h (h.getD kp.2 default).children)
  else h

/-- The property `less` of the final `sort.SliceStable` over the roots. -/
def rootLess (h : List treeNode) (a b : Nat) : Bool :=
  strLt (h.getD a default).name (h.getD b default).name

/-- `UpsertAppTree` after its first pass: one node allocated per snapshot
entry, on top of the view with the previous entries of the app removed. -/
def upsertBuild (v : TreeView) (appName : String) (tree : ResourceTree) : Build :=
  tree.Nodes.foldl (allocNode appName)
    { heap := (v.removeApp appName).heap, nodesByUID := (v.removeApp appName).nodesByUID,
      nodesLocal := [], appKeys := [] }

/-- The heap of `UpsertAppTree` after its second pass (parent and child links). -/
def upsertLinked (v : TreeView) (appName : String) (tree : ResourceTree) : List treeNode :=
  tree.Nodes.foldl (linkNode appName (v.upsertBuild appName tree).nodesLocal)
    (v.upsertBuild appName tree).heap

/-- The slice `tempRoots` of `UpsertAppTree` as first collected: the local nodes
without a parent. -/
def upsertTempRoots (v : TreeView) (appName : String) (tree : ResourceTree) : List Nat :=
  ((v.upsertBuild appName tree).nodesLocal.map Prod.snd).filter
    (fun p => ((v.upsertLinked appName tree).getD p default).parent = none)

/-- `UpsertAppTree` after the loop that filters out the Application node
duplicating the synthetic root. -/
def upsertFilter (v : TreeView) (appName : String) (tree : ResourceTree) : Filter :=
  (v.upsertTempRoots appName tree).foldl (filterRoot appName)
    { heap := v.upsertLinked appName tree, nodesByUID := (v.upsertBuild appName tree).nodesByUID,
      filtered := [] }

/-- The slice `tempRoots` of `UpsertAppTree` after `sortNodes(tempRoots)`. -/
def upsertSortedRoots (v : TreeView) (appName : String) (tree : ResourceTree) : List Nat :=
  sortNodes (v.upsertFilter appName tree).heap (v.upsertFilter appName tree).filtered

/-- The heap of `UpsertAppTree` after the children of every local node are sorted. -/
def upsertSorted (v : TreeView) (appName : String) (tree : ResourceTree) : List treeNode :=
  (v.upsertBuild appName tree).nodesLocal.foldl sortChildren (v.upsertFilter appName tree).heap

/-- The address of the synthetic root `UpsertAppTree` allocates. -/
def upsertRoot (v : TreeView) (appName : String) (tree : ResourceTree) : Nat :=
  (v.upsertSorted appName tree).length

/-- The synthetic application root `UpsertAppTree` allocates, with the sorted
roots attached as its children. -/
def upsertRootNode (v : TreeView) (appName : String) (tree : ResourceTree) : treeNode :=
  { uid := makeKey appName "__app_root__", group := "", version := "", kind := "Application",
    name := appName, namespace_ := "",
    status := ((mapGet (v.removeApp appName).appMeta appName).getD ("", "")).2,
    health := ((mapGet (v.removeApp appName).appMeta appName).getD ("", "")).1,
    parent := none, children := v.upsertSortedRoots appName tree }

/-- The heap of `UpsertAppTree` once the roots point to the synthetic root and
the synthetic root is allocated. -/
def upsertHeap (v : TreeView) (appName : String) (tree : ResourceTree) : List treeNode :=
  (v.upsertSortedRoots appName tree).foldl
      (fun h r => setParent h r (some (v.upsertRoot appName tree)))
      (v.upsertSorted appName tree) ++
    [v.upsertRootNode appName tree]

/-- The slice `appKeys` of `UpsertAppTree`: the keys of the snapshot entries,
then the key of the synthetic root. -/
def upsertKeys (v : TreeView) (appName : String) (tree : ResourceTree) : List String :=
  (v.upsertBuild appName tree).appKeys ++ [makeKey appName "__app_root__"]

/-- Go `UpsertAppTree` up to, and excluding, its final `rebuildOrder`. -/
def upsertCore (v : TreeView) (appName : String) (tree : ResourceTree) : TreeView :=
  { v.removeApp appName with
    heap := v.upsertHeap appName tree,
    nodesByUID := mapSet (v.upsertFilter appName tree).nodesByUID
      (makeKey appName "__app_root__") (v.upsertRoot appName tree),
    rootByApp := mapSet (v.removeApp appName).rootByApp appName (v.upsertRoot appName tree),
    roots := ((v.removeApp appName).roots ++ [v.upsertRoot appName tree]).insertionSort
      (fun a b => rootLess (v.upsertHeap appName tree) b a = false),
    nodesByApp := mapSet (v.removeApp appName).nodesByApp appName (v.upsertKeys appName tree),
    expanded := (v.upsertKeys appName tree).foldl (fun e k => mapSet e k true)
      (v.removeApp appName).expanded }

/-- Go `TreeView.UpsertAppTree`; `none` when the final walk does not return. -/
def UpsertAppTree (v : TreeView) (appName : String) (tree : ResourceTree) : Option TreeView :=
  rebuildOrder (v.upsertCore appName tree)

/-- The reset that opens `SetData`: fresh maps, no roots, no visible order, the
cursor at 0. -/
def resetData (v : TreeView) : TreeView :=
  { v with nodesByUID := [], nodesByApp := [], rootByApp := [], roots := [],
           expanded := [], order := [], selIdx := 0, SelectedUID := "" }

/-- Go `TreeView.SetData`. -/
def SetData (v : TreeView) (tree : ResourceTree) : Option TreeView :=
  UpsertAppTree v.resetData v.appName tree

/-! ## The tree view: filter and matches -/

/-- Go `TreeView.nodeMatchesQuery`. -/
def nodeMatchesQuery (n : treeNode) (query : String) : Bool :=
  Contains (ToLower n.kind) query || Contains (ToLower n.name) query ||
  Contains (ToLower n.namespace_) query || Contains (ToLower n.status) query ||
  Contains (ToLower n.health) query

/-- The loop of `rebuildMatches`: the indices `i` of matching nodes, counted
from `i`. -/
def matchesFrom (v : TreeView) (query : String) : List Nat → Int → List Int
  | [], _ => []
  | p :: ps, i =>
    if nodeMatchesQuery (v.node p) query then i :: matchesFrom v query ps (i + 1)
    else matchesFrom v query ps (i + 1)

/-- Go `TreeView.rebuildMatches`. -/
def rebuildMatches (v : TreeView) : TreeView :=
  if v.filterQuery = "" then { v with matchIndices := [], currentMatch := 0 }
  else { v with matchIndices := matchesFrom v (ToLower v.filterQuery) v.order 0, currentMatch := 0 }

/-- Go `TreeView.SetFilter`. -/
def SetFilter (v : TreeView) (query : String) : TreeView :=
  rebuildMatches { v with filterQuery := TrimSpace query }

/-- Go `TreeView.ClearFilter`. -/
def ClearFilter (v : TreeView) : TreeView :=
  { v with filterQuery := "", matchIndices := [], currentMatch := 0 }

/-- Go `TreeView.MatchCount`. -/
def MatchCount (v : TreeView) : Int := v.matchIndices.length

/-- Go `TreeView.CurrentMatchIndex`. -/
def CurrentMatchIndex (v : TreeView) : Int :=
  if v.matchIndices.length = 0 then 0 else v.currentMatch + 1

/-- The common tail of `NextMatch`, `PrevMatch` and `JumpToFirstMatch`: move the
cursor onto the current match, `currentMatch` being a valid index. -/
def gotoCurrentMatch (v : TreeView) : TreeView :=
  syncSelectedUID { v with selIdx := v.matchIndices.getD v.currentMatch.toNat 0 }

/-- Go `TreeView.NextMatch`: the new view and the returned flag; `none` is the
run-time panic of indexing `matchIndices` out of range (Go `%` truncates, so a
negative `currentMatch + 1` gives a negative index). -/
def NextMatch (v : TreeView) : Option (TreeView × Bool) :=
  if v.matchIndices.length = 0 then some (v, false)
  else
    let c := Int.tmod (v.currentMatch + 1) v.matchIndices.length
    if 0 ≤ c ∧ c < v.matchIndices.length then
      some (gotoCurrentMatch { v with currentMatch := c }, true)
    else none

/-- Go `TreeView.PrevMatch`: the new view and the returned flag; `none` is the
run-time panic of indexing `matchIndices` out of range. -/
def PrevMatch (v : TreeView) : Option (TreeView × Bool) :=
  if v.matchIndices.length = 0 then some (v, false)
  else
    let c := if v.currentMatch - 1 < 0 then (v.matchIndices.length : Int) - 1
      else v.currentMatch - 1
    if 0 ≤ c ∧ c < v.matchIndices.length then
      some (gotoCurrentMatch { v with currentMatch := c }, true)
    else none

/-- Go `TreeView.JumpToFirstMatch`. -/
def JumpToFirstMatch (v : TreeView) : TreeView × Bool :=
  if v.matchIndices.length = 0 then (v, false)
  else (gotoCurrentMatch { v with currentMatch := 0 }, true)

end TreeView

/-! ## The application model and the handlers of `input_handlers.go` -/

/-- Go `model.View`. -/
inductive View where
  | Clusters | Namespaces | Projects | ApplicationSets | Apps | Tree
  deriving DecidableEq, Repr, Inhabited

/-- Go `model.Mode`. -/
inductive Mode where
  | Normal | Search | Command | Help | Theme | ConfirmSync | Rollback
  | ConfirmAppDelete | ConfirmResourceDelete | ConfirmResourceSync
  | Diff | NoDiff | K9sContextSelect | K9sError | DefaultViewWarning
  | Error | ConnectionError | AuthRequired
  | Upgrade | UpgradeError | UpgradeSuccess | CoreDetected
  deriving DecidableEq, Repr, Inhabited

/-- Go `model.App`, the fields the handlers read. -/
structure App where
  Name : String
  ClusterID : Option String
  AppNamespace : Option String
  deriving DecidableEq, Repr, Inhabited

/-- An element of the `[]interface{}` of visible items: an application, or a
value of another type (a cluster, namespace, project or application set). -/
inductive Item where
  | app (a : App)
  | other (s : String)
  deriving DecidableEq, Repr, Inhabited

/-- Go `model.ResourceDeleteTarget`. -/
structure ResourceDeleteTarget where
  AppName : String
  Group : String
  Version : String
  Kind : String
  Namespace : String
  Name : String
  deriving DecidableEq, Repr, Inhabited

/-- Go `model.ResourceSyncTarget`. -/
structure ResourceSyncTarget where
  AppName : String
  Group : String
  Kind : String
  Namespace : String
  Name : String
  deriving DecidableEq, Repr, Inhabited

/-- Go `model.NavigationState`, the fields the handlers use. -/
structure NavigationState where
  View : View
  SelectedIdx : Int
  LastEscPressed : Int
  LastZPressed : Int
  deriving DecidableEq, Repr, Inhabited

/-- Go `model.SelectionState`. -/
structure SelectionState where
  ScopeClusters : GoMap Bool
  ScopeNamespaces : GoMap Bool
  ScopeProjects : GoMap Bool
  ScopeApplicationSets : GoMap Bool
  SelectedApps : GoMap Bool
  deriving DecidableEq, Repr, Inhabited

/-- Go `model.UIState`, the fields the handlers use. -/
structure UIState where
  SearchQuery : String
  ActiveFilter : String
  Command : String
  TreeAppName : Option String
  ThemeOriginalName : String
  deriving DecidableEq, Repr, Inhabited

/-- Go `model.ModalState`, the fields the handlers use. -/
structure ModalState where
  ConfirmTarget : Option String
  ConfirmSyncSelected : Int
  ConfirmSyncPrune : Bool
  ConfirmSyncWatch : Bool
  ConfirmSyncLoading : Bool
  RollbackAppName : Option String
  DeleteAppName : Option String
  DeleteAppNamespace : Option String
  DeleteConfirmationKey : String
  DeleteError : Option String
  DeleteLoading : Bool
  DeleteCascade : Bool
  DeletePropagationPolicy : String
  K9sError : Option String
  DefaultViewWarning : Option String
  ResourceDeleteAppName : Option String
  ResourceDeleteAppNamespace : Option String
  ResourceDeleteTargets : List ResourceDeleteTarget
  ResourceDeleteConfirmationKey : String
  ResourceDeleteError : Option String
  ResourceDeleteLoading : Bool
  ResourceDeleteCascade : Bool
  ResourceDeletePropagationPolicy : String
  ResourceDeleteForce : Bool
  ResourceSyncAppName : Option String
  ResourceSyncTargets : List ResourceSyncTarget
  ResourceSyncConfirmSelected : Int
  ResourceSyncError : Option String
  ResourceSyncLoading : Bool
  ResourceSyncPrune : Bool
  ResourceSyncForce : Bool
  deriving DecidableEq, Repr, Inhabited

/-- Go `model.TerminalState`. -/
structure TerminalState where
  Rows : Int
  Cols : Int
  deriving DecidableEq, Repr, Inhabited

/-- Go `model.DiffState`, the field the handlers use. -/
structure DiffState where
  Loading : Bool
  deriving DecidableEq, Repr, Inhabited

/-- Go `model.RollbackRow`, the field the handlers use. -/
structure RollbackRow where
  ID : Int
  deriving DecidableEq, Repr, Inhabited

/-- Go `model.RollbackState`, the fields the handlers use. -/
structure RollbackState where
  AppName : String
  AppNamespace : Option String
  Rows : List RollbackRow
  SelectedIdx : Int
  Loading : Bool
  Error : String
  Mode : String
  Prune : Bool
  Watch : Bool
  DryRun : Bool
  ConfirmSelected : Int
  deriving DecidableEq, Repr, Inhabited

/-- Go `model.RollbackRequest`. -/
structure RollbackRequest where
  ID : Int
  Name : String
  AppNamespace : Option String
  Prune : Bool
  DryRun : Bool
  deriving DecidableEq, Repr, Inhabited

/-- Go `model.ErrorState`, the field the handlers use. -/
structure ErrorState where
  Current : Option String
  deriving DecidableEq, Repr, Inhabited

/-- Go `model.AppState`, the parts the handlers use. -/
structure AppState where
  Navigation : NavigationState
  Selections : SelectionState
  Mode : Mode
  Modals : ModalState
  UI : UIState
  Apps : List App
  Terminal : TerminalState
  Diff : Option DiffState
  Rollback : Option RollbackState
  CurrentError : Option String
  ErrorState : Option ErrorState
  deriving DecidableEq, Repr, Inhabited

/-- Go `m.selection`, the text selection on the screen.  Its type is declared
in another file of the repository; the embedding keeps what `handleEscape`
reads of it, whether it is empty. -/
structure Selection where
  IsEmpty : Bool
  deriving DecidableEq, Repr, Inhabited

/-- Go `Model` of `cmd/app`: the state, the tree view (nil when absent), the
tree loading flag, the text selection, the names of the theme options and the
fields of the k9s context picker. -/
structure Model where
  state : AppState
  treeView : Option TreeView
  treeLoading : Bool
  selection : Selection
  themeOptions : List String
  k9sContextOptions : List String
  k9sContextSelected : Int
  k9sPendingKind : String
  k9sPendingNamespace : String
  k9sPendingName : String
  deriving DecidableEq, Repr, Inhabited

/-- Go `ResourceIdentifier`. -/
structure ResourceIdentifier where
  AppName : String
  Group : String
  Kind : String
  Namespace : String
  Name : String
  deriving DecidableEq, Repr, Inhabited

/-- Go `K9sResourceParams`. -/
structure K9sResourceParams where
  Kind : String
  Namespace : String
  Context : String
  Name : String
  deriving DecidableEq, Repr, Inhabited

/-- Go `DeleteOptions`. -/
structure DeleteOptions where
  Cascade : Bool
  PropagationPolicy : String
  Force : Bool
  deriving DecidableEq, Repr, Inhabited

/-- Go `AppDeleteParams`. -/
structure AppDeleteParams where
  AppName : String
  Namespace : Option String
  Options : DeleteOptions
  deriving DecidableEq, Repr, Inhabited

/-- A `tea.Cmd` a handler returns, as a description of what it will do: the
message of a closure that only returns a message (`statusChange`, `quit`,
`apiError`), or the method of `Model` that builds the command, with its
arguments. -/
inductive Cmd where
  | statusChange (status : String)
  | quit
  | startLoadingResourceTree (app : App)
  | startWatchingResourceTree (app : App)
  | consumeTreeEvent
  | other (name : String)
  | apiError (message : String)
  | startRollbackSession (appName : String)
  | executeRollback (request : RollbackRequest)
  | syncSelectedApplications (prune : Bool)
  | syncSingleApplication (target : String) (prune : Bool)
  | deleteSelectedApplications (cascade : Bool) (policy : String)
  | deleteSingleApplication (params : AppDeleteParams)
  | deleteSelectedResources (targets : List ResourceDeleteTarget) (options : DeleteOptions)
  | syncSelectedResources (targets : List ResourceSyncTarget) (prune : Bool) (force : Bool)
  | openTextPager (title : String) (content : String)
  | openK9s (params : K9sResourceParams)
  | startDiffSession (appName : String)
  | startResourceDiffSession (resource : ResourceIdentifier)
  deriving DecidableEq, Repr, Inhabited

/-- Go `services.NavigationUpdate`, the result of `navigationService.DrillDown`:
a nil pointer or nil map is `none`. -/
structure NavigationUpdate where
  NewView : Option View
  ScopeClusters : Option (GoMap Bool)
  ScopeNamespaces : Option (GoMap Bool)
  ScopeProjects : Option (GoMap Bool)
  ScopeApplicationSets : Option (GoMap Bool)
  SelectedApps : Option (GoMap Bool)
  ShouldResetNavigation : Bool
  ShouldClearLowerLevelSelections : Bool

/-- The result of `navigationService.ClearLowerLevelSelections`: the entries
of the returned map under the three keys `handleDrillDown` reads, `none` when
the key is absent or its value is not a `map[string]bool`. -/
structure ClearedSelections where
  scopeNamespaces : Option (GoMap Bool)
  scopeProjects : Option (GoMap Bool)
  selectedApps : Option (GoMap Bool)

/-- A loaded kubeconfig (package `pkg/kubeconfig`), by its two methods the
handlers call: `FindContextByName` (`none` when not found) and
`GetCurrentContext`. -/
structure KubeConfig where
  FindContextByName : String → Option String
  GetCurrentContext : String

/-- Methods of `Model` and of its collaborators whose bodies are in other files
of the repository, and what the handlers read of the process environment; the
handlers are embedded relative to them.  `selectionClear` is
`m.selection.Clear`, `statusSet` is `m.statusService.Set`, `listNavReset` is
`m.listNav.Reset`, `DrillDown` and `ClearLowerLevelSelections` are the methods
of `m.navigationService`, `themeNavCursor` is `m.themeNav.Cursor`, `BlurInputs`
to `FocusSearchInput` are the methods of `m.inputComponents`, `keyCodeIsSpace`
tells whether the key printed as the given string has the code `tea.KeySpace`,
`Getenv` and `ReadFile` are those of package `os` (`none` is an error),
`kubeconfigLoad` is `kubeconfig.Load()` and `ListContextNames` is
`kubeconfig.ListContextNames()` (`none` is an error).  A method that returns a
`tea.Cmd` (`maybeRestartWatchForScope`, and the methods named by the
constructors of `Cmd`) is called for the command only. -/
structure Env where
  getVisibleItems : Model → List Item
  cleanupTreeWatchers : Model → Model
  contentInnerWidth : Model → Int
  treeNavReset : Model → Model
  SaveNavigationState : AppState → AppState
  selectionClear : Selection → Selection
  maybeRestartWatchForScope : Model → List Cmd
  statusSet : Model → String → Model
  listNavReset : Model → Model
  DrillDown : View → Item → List Item → Int → Option NavigationUpdate
  ClearLowerLevelSelections : View → ClearedSelections
  ensureThemeOptionsLoaded : Model → Model
  applyThemePreview : Model → String → Model
  handleThemeCommand : Model → String → Model × List Cmd
  themeNavCursor : Model → Int
  BlurInputs : Model → Model
  ClearCommandInput : Model → Model
  ClearSearchInput : Model → Model
  FocusSearchInput : Model → Model
  keyCodeIsSpace : String → Bool
  Getenv : String → String
  ReadFile : String → Option String
  HighlightLogLine : String → String
  readLogContent : Model → String
  kubeconfigLoad : Option KubeConfig
  ListContextNames : Option (List String)

/-- A handler `handleKeyMsg` hands a key to: the clock, the model and the key
(`msg.String()`) give the new model and the command; `none` is a run-time
panic. -/
abbrev KeyHandler := Int → Model → String → Option (Model × List Cmd)

/-- A handler that takes no key. -/
abbrev Action := Int → Model → Option (Model × List Cmd)

/-- The functions `handleKeyMsg` calls, as a table: the handlers of the modes
and of the list views, the navigation router (`isNavigationKey`,
`getNavigatorContext().SupportsNavigation`, `executeNavigation`),
`safeChangeView`, `navigationService.ValidateBounds`, the setters of the tree
navigator, and the height of the banner (`countLines(m.renderBanner())`).
`handleKeyMsg` is embedded relative to the table; `Model.keyHandlers` fills in
the handlers whose bodies are in `input_handlers.go`. -/
structure Dispatch where
  isNavigationKey : String → Bool
  supportsNavigation : Model → Bool
  executeNavigation : KeyHandler
  handleSearchModeKeys : KeyHandler
  handleCommandModeKeys : KeyHandler
  handleThemeModeKeys : KeyHandler
  handleHelpModeKeys : KeyHandler
  handleNoDiffModeKeys : KeyHandler
  handleConfirmSyncKeys : KeyHandler
  handleRollbackModeKeys : KeyHandler
  handleConfirmAppDeleteKeys : KeyHandler
  handleConfirmResourceDeleteKeys : KeyHandler
  handleConfirmResourceSyncKeys : KeyHandler
  handleDiffModeKeys : KeyHandler
  handleAuthRequiredModeKeys : KeyHandler
  handleErrorModeKeys : KeyHandler
  handleConnectionErrorModeKeys : KeyHandler
  handleCoreDetectedModeKeys : KeyHandler
  handleUpgradeModeKeys : KeyHandler
  handleUpgradeErrorModeKeys : KeyHandler
  handleUpgradeSuccessModeKeys : KeyHandler
  handleK9sContextSelectKeys : KeyHandler
  handleK9sErrorModeKeys : KeyHandler
  handleDefaultViewWarningModeKeys : KeyHandler
  safeChangeView : Model → View → Model
  ValidateBounds : Int → Int → Int
  treeNavSetCursor : Model → Int → Model
  treeNavSetItemCount : Model → Int → Model
  treeNavSetViewportHeight : Model → Int → Model
  bannerLines : Model → Int
  handleEnterSearchMode : Action
  handleEnterCommandMode : Action
  handleOpenK9s : Action
  handleResourceDiff : Action
  handleToggleSelection : Action
  handleDrillDown : Action
  handleSyncModal : Action
  handleOpenDiffForSelection : Action
  handleOpenAppK9s : Action
  handleRollback : Action
  handleAppDelete : Action
  handleEscape : Action

/-- The application a `startLoadingResourceTree` command is for. -/
def Cmd.loadedApp : Cmd → Option String
  | Cmd.startLoadingResourceTree a => some a.Name
  | _ => none

/-- The application a `startWatchingResourceTree` command is for. -/
def Cmd.watchedApp : Cmd → Option String
  | Cmd.startWatchingResourceTree a => some a.Name
  | _ => none

/-- The conversion of a selection into a `model.ResourceDeleteTarget`. -/
def toDeleteTarget (sel : ResourceSelection) : ResourceDeleteTarget :=
  { AppName := sel.AppName, Group := sel.Group, Version := sel.Version, Kind := sel.Kind,
    Namespace := sel.Namespace, Name := sel.Name }

/-- The conversion of a selection into a `model.ResourceSyncTarget`. -/
def toSyncTarget (sel : ResourceSelection) : ResourceSyncTarget :=
  { AppName := sel.AppName, Group := sel.Group, Kind := sel.Kind,
    Namespace := sel.Namespace, Name := sel.Name }

/-- Modelled from the spec: `model.NewStringSet` of package `pkg/model`, which
is outside the files embedded here.  The spec describes the scope sets and
`SelectedApps` as sets of names; the Go type is `map[string]bool`, and the new
set is the empty map. -/
def NewStringSet : GoMap Bool := []

/-- Modelled from the spec: `model.HasInStringSet` of package `pkg/model`, which
is outside the files embedded here: whether the name is in the set, the lookup
`set[item]`. -/
def HasInStringSet (set : GoMap Bool) (item : String) : Bool :=
  mapGetBool set item

/-- Modelled from the spec: `model.AddToStringSet` of package `pkg/model`, which
is outside the files embedded here: the set with the name added, mapped to
`true`. -/
def AddToStringSet (set : GoMap Bool) (item : String) : GoMap Bool :=
  mapSet set item true

/-- Modelled from the spec: `model.RemoveFromStringSet` of package `pkg/model`,
which is outside the files embedded here: the set without the name. -/
def RemoveFromStringSet (set : GoMap Bool) (item : String) : GoMap Bool :=
  mapDelete set item

/-- The number of bytes of the UTF-8 encoding of a character. -/
def charBytes (c : Char) : Nat :=
  if c.toNat < 0x80 then 1 else if c.toNat < 0x800 then 2 else if c.toNat < 0x10000 then 3 else 4

/-- Go `len(s)` of a string: its length in bytes. -/
def byteLen (s : String) : Nat :=
  (s.data.map charBytes).sum

/-- Go `s[:len(s)-1]` for a non-empty string that ends in an ASCII character
(the confirmation keys the handlers store are empty or one ASCII character).
For a string that ends in a multi-byte character the Go result is not valid
UTF-8 and is no Lean string; the embedding then drops the whole character. -/
def dropLastByte (s : String) : String :=
  ⟨s.data.dropLast⟩

namespace Model

/-- Go `Model.handleResourceDelete`: the new model and the command (always nil). -/
def handleResourceDelete (m : Model) : Model × List Cmd :=
  if m.state.Navigation.View ≠ View.Tree then (m, [])
  else
    match m.treeView with
    | none => (m, [])
    | some tv =>
      if !tv.HasSelection && tv.CurrentResourceIsMissing then (m, [])
      else
        let selections := tv.GetSelectedResources
        if selections.length = 0 then (m, [])
        else
          let validSelections := selections.filter (fun sel => !sel.IsMissing)
          if validSelections.length = 0 then (m, [])
          else
            let targets := validSelections.map toDeleteTarget
            let appName := match targets with
              | t :: _ => t.AppName
              | [] => tv.GetAppName
            ({ m with state := { m.state with
                Mode := Mode.ConfirmResourceDelete,
                Modals := { m.state.Modals with
                  ResourceDeleteAppName := some appName,
                  ResourceDeleteAppNamespace := none,
                  ResourceDeleteTargets := targets,
                  ResourceDeleteConfirmationKey := "",
                  ResourceDeleteError := none,
                  ResourceDeleteLoading := false,
                  ResourceDeleteCascade := true,
                  ResourceDeletePropagationPolicy := "foreground",
                  ResourceDeleteForce := false } } }, [])

/-- Go `Model.handleResourceSync`: the new model and the command (always nil). -/
def handleResourceSync (m : Model) : Model × List Cmd :=
  if m.state.Navigation.View ≠ View.Tree then (m, [])
  else
    match m.treeView with
    | none => (m, [])
    | some tv =>
      let selections := tv.GetSelectedResources
      if selections.length = 0 then
        let appName := tv.GetAppName
        if appName ≠ "" then
          ({ m with state := { m.state with
              Mode := Mode.ConfirmSync,
              Modals := { m.state.Modals with
                ConfirmTarget := some appName, ConfirmSyncSelected := 0 } } }, [])
        else (m, [])
      else
        let targets := selections.map toSyncTarget
        let appName := match targets with
          | t :: _ => t.AppName
          | [] => tv.GetAppName
        ({ m with state := { m.state with
            Mode := Mode.ConfirmResourceSync,
            Modals := { m.state.Modals with
              ResourceSyncAppName := some appName,
              ResourceSyncTargets := targets,
              ResourceSyncConfirmSelected := 0,
              ResourceSyncError := none,
              ResourceSyncLoading := false,
              ResourceSyncPrune := false,
              ResourceSyncForce := false } } }, [])

/-- The application object a checked name stands for: the first loaded app of
that name, or a bare `model.App{Name: name}`. -/
def appObjFor (apps : List App) (name : String) : App :=
  (apps.find? (fun a => decide (a.Name = name))).getD
    { Name := name, ClusterID := none, AppNamespace := none }

/-- The steps both branches of `handleOpenResourcesForSelection` share: stop
the watchers, install a fresh tree view, reset the tree navigator, save the
navigation state, switch to the tree view with the given `TreeAppName`. -/
def openTreeView (env : Env) (m : Model) (treeAppName : Option String) : Model :=
  let m1 := env.cleanupTreeWatchers m
  let tv := TreeView.SetSize (TreeView.NewTreeView 0 0) (env.contentInnerWidth m1) m1.state.Terminal.Rows
  let m2 : Model := { m1 with treeView := some tv }
  let m3 := env.treeNavReset m2
  let m4 : Model := { m3 with state := env.SaveNavigationState m3.state }
  { m4 with
    state := { m4.state with
      Navigation := { m4.state.Navigation with View := View.Tree },
      UI := { m4.state.UI with TreeAppName := treeAppName } },
    treeLoading := true }

/-- The local `selected` of `handleOpenResourcesForSelection`: the names that
`SelectedApps` maps to true. -/
def checkedApps (m : Model) : List String :=
  (m.state.Selections.SelectedApps.filter (fun e => e.2)).map Prod.fst

/-- Go `Model.handleOpenResourcesForSelection`; `none` is the run-time panic of
indexing the visible items with a negative cursor. -/
def handleOpenResourcesForSelection (env : Env) (m : Model) : Option (Model × List Cmd) :=
  let selected := m.checkedApps
  if selected.length > 1 then
    let m1 := openTreeView env m none
    let cmds := selected.flatMap (fun name =>
      let appObj := appObjFor m1.state.Apps name
      [Cmd.startLoadingResourceTree appObj, Cmd.startWatchingResourceTree appObj])
    some (m1, cmds ++ [Cmd.consumeTreeEvent])
  else
    let items := env.getVisibleItems m
    if items.length = 0 ∨ m.state.Navigation.SelectedIdx ≥ items.length then
      some (m, [Cmd.statusChange "No app selected for resources"])
    else if m.state.Navigation.SelectedIdx < 0 then none
    else
      match items.getD m.state.Navigation.SelectedIdx.toNat default with
      | Item.app app =>
        some (openTreeView env m (some app.Name),
          [Cmd.startLoadingResourceTree app, Cmd.startWatchingResourceTree app,
           Cmd.consumeTreeEvent])
      | Item.other _ =>
        some (m, [Cmd.statusChange "Navigate to apps view first to select an app for resources"])

/-- Go `Model.handleShowHelp`. -/
def handleShowHelp (m : Model) : Model × List Cmd :=
  ({ m with state := { m.state with Mode := Mode.Help } }, [])

/-- Go `Model.treeViewportHeight`; the number of lines of the banner is
`d.bannerLines`. -/
def treeViewportHeight (d : Dispatch) (m : Model) : Int :=
  let headerLines := d.bannerLines m
  let searchLines : Int := if m.state.Mode = Mode.Search then 1 else 0
  let commandLines : Int := if m.state.Mode = Mode.Command then 1 else 0
  let overhead := 2 + headerLines + searchLines + commandLines + 0 + 0 + 1
  let availableRows := max 0 (m.state.Terminal.Rows - overhead)
  max 0 availableRows

/-- The assignment `m.state.Navigation.SelectedIdx = i`. -/
def setSelectedIdx (m : Model) (i : Int) : Model :=
  { m with state := { m.state with Navigation := { m.state.Navigation with SelectedIdx := i } } }

/-- The assignment `m.state.Navigation.LastEscPressed = t`. -/
def setLastEscPressed (m : Model) (t : Int) : Model :=
  { m with state := { m.state with
      Navigation := { m.state.Navigation with LastEscPressed := t } } }

/-- The assignment `m.state.Navigation.LastZPressed = t`. -/
def setLastZPressed (m : Model) (t : Int) : Model :=
  { m with state := { m.state with Navigation := { m.state.Navigation with LastZPressed := t } } }

/-- The tree view keys of `handleKeyMsg`: its `switch` for Normal mode in the
view `Tree`. -/
def treeKeys (d : Dispatch) (env : Env) (now : Int) (m : Model) (key : String) :
    Option (Model × List Cmd) :=
  if key = "q" ∨ key = "esc" then
    let m1 : Model := match m.treeView with
      | some tv => { m with treeView := some tv.ClearFilter }
      | none => m
    let m2 := d.safeChangeView m1 View.Apps
    let visibleItems := env.getVisibleItems m2
    some (m2.setSelectedIdx
      (d.ValidateBounds m2.state.Navigation.SelectedIdx visibleItems.length), [])
  else if key = "/" then d.handleEnterSearchMode now m
  else if key = "n" then
    match m.treeView with
    | some tv =>
      if tv.MatchCount > 0 then
        match tv.NextMatch with
        | some r => some (d.treeNavSetCursor { m with treeView := some r.1 } r.1.SelectedIndex, [])
        | none => none
      else some (m, [])
    | none => some (m, [])
  else if key = "N" then
    match m.treeView with
    | some tv =>
      if tv.MatchCount > 0 then
        match tv.PrevMatch with
        | some r => some (d.treeNavSetCursor { m with treeView := some r.1 } r.1.SelectedIndex, [])
        | none => none
      else some (m, [])
    | none => some (m, [])
  else if key = "left" ∨ key = "h" ∨ key = "right" ∨ key = "l" ∨ key = "enter" ∨
      key = "shift+left" ∨ key = "H" ∨ key = "shift+right" ∨ key = "L" then
    match m.treeView with
    | some tv =>
      match tv.Update (Msg.key key) with
      | some tv1 =>
        let m1 : Model := { m with treeView := some tv1 }
        let newLine := tv1.SelectedLineIndex
        let m2 := d.treeNavSetItemCount m1 tv1.VisibleCount
        let m3 := d.treeNavSetViewportHeight m2 (treeViewportHeight d m2)
        some (d.treeNavSetCursor m3 newLine, [])
      | none => none
    | none => some (m, [])
  else if key = "K" then d.handleOpenK9s now m
  else if key = "d" then d.handleResourceDiff now m
  else if key = " " ∨ key = "space" then
    match m.treeView with
    | some tv =>
      let r := tv.ToggleSelection
      if !r.2 && r.1.CurrentResourceIsMissing then
        some ({ m with treeView := some r.1 },
          [Cmd.statusChange "Cannot select: resource is missing"])
      else some ({ m with treeView := some r.1 }, [])
    | none => some (m, [])
  else if key = "ctrl+d" then some m.handleResourceDelete
  else if key = "s" then some m.handleResourceSync
  else if key = ":" then d.handleEnterCommandMode now m
  else if key = "?" then some m.handleShowHelp
  else
    match m.treeView with
    | some tv =>
      match tv.Update (Msg.key key) with
      | some tv1 => some ({ m with treeView := some tv1 }, [])
      | none => none
    | none => some (m, [])

/-- The Normal-mode global keys of `handleKeyMsg`: its last `switch`. -/
def globalKeys (d : Dispatch) (env : Env) (now : Int) (m : Model) (key : String) :
    Option (Model × List Cmd) :=
  if key = "ctrl+c" then some (m, [Cmd.quit])
  else if key = " " ∨ key = "space" then d.handleToggleSelection now m
  else if key = "enter" then d.handleDrillDown now m
  else if key = "/" then d.handleEnterSearchMode now m
  else if key = ":" then d.handleEnterCommandMode now m
  else if key = "?" then some m.handleShowHelp
  else if key = "s" then
    if m.state.Navigation.View = View.Apps then d.handleSyncModal now m else some (m, [])
  else if key = "r" then
    if m.state.Navigation.View = View.Apps then handleOpenResourcesForSelection env m
    else some (m, [])
  else if key = "d" then
    if m.state.Navigation.View = View.Apps then d.handleOpenDiffForSelection now m
    else some (m, [])
  else if key = "K" then
    if m.state.Navigation.View = View.Apps then d.handleOpenAppK9s now m else some (m, [])
  else if key = "R" then
    if m.state.Navigation.View = View.Apps then d.handleRollback now m else some (m, [])
  else if key = "ctrl+d" then
    if m.state.Navigation.View = View.Apps then d.handleAppDelete now m
    else if m.state.Navigation.View = View.Tree then some m.handleResourceDelete
    else some (m, [])
  else if key = "esc" then d.handleEscape now m
  else if key = "Z" then
    if m.state.Navigation.LastZPressed > 0 ∧
        sub64 now m.state.Navigation.LastZPressed < 500 then
      some (m, [Cmd.quit])
    else some (m.setLastZPressed now, [])
  else if key = "Q" then
    if m.state.Navigation.LastZPressed > 0 ∧
        sub64 now m.state.Navigation.LastZPressed < 500 then
      some (m.setLastZPressed 0, [Cmd.quit])
    else some (m, [])
  else some (m, [])

/-- The part of `handleKeyMsg` after the kill switch and the Escape debounce:
the navigation router, then the handler of the mode, and in Normal mode the
keys of the tree view or the global keys. -/
def dispatchKey (d : Dispatch) (env : Env) (now : Int) (m : Model) (key : String) :
    Option (Model × List Cmd) :=
  if d.isNavigationKey key ∧ d.supportsNavigation m then d.executeNavigation now m key
  else
    match m.state.Mode with
    | Mode.Search => d.handleSearchModeKeys now m key
    | Mode.Command => d.handleCommandModeKeys now m key
    | Mode.Theme => d.handleThemeModeKeys now m key
    | Mode.Help => d.handleHelpModeKeys now m key
    | Mode.NoDiff => d.handleNoDiffModeKeys now m key
    | Mode.ConfirmSync => d.handleConfirmSyncKeys now m key
    | Mode.Rollback => d.handleRollbackModeKeys now m key
    | Mode.ConfirmAppDelete => d.handleConfirmAppDeleteKeys now m key
    | Mode.ConfirmResourceDelete => d.handleConfirmResourceDeleteKeys now m key
    | Mode.ConfirmResourceSync => d.handleConfirmResourceSyncKeys now m key
    | Mode.Diff => d.handleDiffModeKeys now m key
    | Mode.AuthRequired => d.handleAuthRequiredModeKeys now m key
    | Mode.Error => d.handleErrorModeKeys now m key
    | Mode.ConnectionError => d.handleConnectionErrorModeKeys now m key
    | Mode.CoreDetected => d.handleCoreDetectedModeKeys now m key
    | Mode.Upgrade => d.handleUpgradeModeKeys now m key
    | Mode.UpgradeError => d.handleUpgradeErrorModeKeys now m key
    | Mode.UpgradeSuccess => d.handleUpgradeSuccessModeKeys now m key
    | Mode.K9sContextSelect => d.handleK9sContextSelectKeys now m key
    | Mode.K9sError => d.handleK9sErrorModeKeys now m key
    | Mode.DefaultViewWarning => d.handleDefaultViewWarningModeKeys now m key
    | Mode.Normal =>
      if m.state.Navigation.View = View.Tree then treeKeys d env now m key
      else globalKeys d env now m key

/-- Go `Model.handleKeyMsg`, for the key `msg.String()` at the clock time `now`
(`time.Now().UnixMilli()`). -/
def handleKeyMsg (d : Dispatch) (env : Env) (now : Int) (m : Model) (key : String) :
    Option (Model × List Cmd) :=
  if key = "ctrl+c" then some (m, [Cmd.quit])
  else if key = "esc" then
    if sub64 now m.state.Navigation.LastEscPressed < 100 then some (m, [])
    else dispatchKey d env now (m.setLastEscPressed now) key
  else dispatchKey d env now m key

/-! ### The list handlers of `input_handlers.go` -/

/-- The assignment `m.state.Mode = x`. -/
def setMode (m : Model) (x : Mode) : Model :=
  { m with state := { m.state with Mode := x } }

/-- The assignment of the fields of `m.state.Modals`. -/
def setModals (m : Model) (x : ModalState) : Model :=
  { m with state := { m.state with Modals := x } }

/-- The assignment of the fields of `m.state.Selections`. -/
def setSelections (m : Model) (x : SelectionState) : Model :=
  { m with state := { m.state with Selections := x } }

/-- The assignment of the fields of `m.state.UI`. -/
def setUI (m : Model) (x : UIState) : Model :=
  { m with state := { m.state with UI := x } }

/-- The assignment `m.state.Rollback = x`. -/
def setRollback (m : Model) (x : Option RollbackState) : Model :=
  { m with state := { m.state with Rollback := x } }

/-- The assignment `m.state.Diff = x`. -/
def setDiff (m : Model) (x : Option DiffState) : Model :=
  { m with state := { m.state with Diff := x } }

/-- Go `Model.handleToggleSelection`; `none` is the run-time panic of indexing
the visible items with a negative cursor. -/
def handleToggleSelection (env : Env) (m : Model) : Option (Model × List Cmd) :=
  let visibleItems := env.getVisibleItems m
  if visibleItems.length = 0 ∨ m.state.Navigation.SelectedIdx ≥ visibleItems.length then
    some (m, [])
  else if m.state.Navigation.SelectedIdx < 0 then none
  else
    let selectedItem := visibleItems.getD m.state.Navigation.SelectedIdx.toNat default
    match m.state.Navigation.View, selectedItem with
    | View.Apps, Item.app app =>
      if HasInStringSet m.state.Selections.SelectedApps app.Name then
        some (m.setSelections { m.state.Selections with
          SelectedApps := RemoveFromStringSet m.state.Selections.SelectedApps app.Name }, [])
      else
        some (m.setSelections { m.state.Selections with
          SelectedApps := AddToStringSet m.state.Selections.SelectedApps app.Name }, [])
    | _, _ => some (m, [])

/-- Go `Model.handleOpenDiffForSelection`; `none` is the run-time panic of
indexing the visible items with a negative cursor. -/
def handleOpenDiffForSelection (env : Env) (m : Model) : Option (Model × List Cmd) :=
  let selected := m.checkedApps
  let start := fun (appName : String) =>
    let diff : DiffState := match m.state.Diff with
      | some x => x
      | none => { Loading := false }
    (m.setDiff (some { diff with Loading := true }), [Cmd.startDiffSession appName])
  if selected.length = 1 then some (start (selected.getD 0 default))
  else if selected.length > 1 then
    some (m, [Cmd.statusChange "Cannot show diff for multiple apps"])
  else
    let items := env.getVisibleItems m
    if items.length = 0 ∨ m.state.Navigation.SelectedIdx ≥ items.length then
      some (m, [Cmd.statusChange "No app selected for diff"])
    else if m.state.Navigation.SelectedIdx < 0 then none
    else
      match items.getD m.state.Navigation.SelectedIdx.toNat default with
      | Item.app app => some (start app.Name)
      | Item.other _ =>
        some (m, [Cmd.statusChange "Navigate to apps view first to select an app for diff"])

/-- The first updates of `handleDrillDown` for a non-nil result of
`navigationService.DrillDown`: the new view, the scope sets and the selected
applications the result carries. -/
def drillAssign (m : Model) (result : NavigationUpdate) : Model :=
  let m1 : Model := match result.NewView with
    | some w => { m with state := { m.state with
        Navigation := { m.state.Navigation with View := w } } }
    | none => m
  let m2 : Model := match result.ScopeClusters with
    | some x => m1.setSelections { m1.state.Selections with ScopeClusters := x }
    | none => m1
  let m3 : Model := match result.ScopeNamespaces with
    | some x => m2.setSelections { m2.state.Selections with ScopeNamespaces := x }
    | none => m2
  let m4 : Model := match result.ScopeProjects with
    | some x => m3.setSelections { m3.state.Selections with ScopeProjects := x }
    | none => m3
  let m5 : Model := match result.ScopeApplicationSets with
    | some x => m4.setSelections { m4.state.Selections with ScopeApplicationSets := x }
    | none => m4
  match result.SelectedApps with
  | some x => m5.setSelections { m5.state.Selections with SelectedApps := x }
  | none => m5

/-- The update of `handleDrillDown` under `result.ShouldResetNavigation`. -/
def drillReset (env : Env) (m : Model) (result : NavigationUpdate) : Model :=
  if result.ShouldResetNavigation then
    env.listNavReset
      ((m.setSelectedIdx 0).setUI { m.state.UI with ActiveFilter := "", SearchQuery := "" })
  else m

/-- The update of `handleDrillDown` under
`result.ShouldClearLowerLevelSelections`. -/
def drillClear (env : Env) (prevView : View) (m : Model) (result : NavigationUpdate) : Model :=
  if result.ShouldClearLowerLevelSelections then
    let cleared := env.ClearLowerLevelSelections prevView
    let a : Model := match cleared.scopeNamespaces with
      | some x => m.setSelections { m.state.Selections with ScopeNamespaces := x }
      | none => m
    let b : Model := match cleared.scopeProjects with
      | some x => a.setSelections { a.state.Selections with ScopeProjects := x }
      | none => a
    match cleared.selectedApps with
    | some x => b.setSelections { b.state.Selections with SelectedApps := x }
    | none => b
  else m

/-- The updates of `handleDrillDown` for a non-nil result of
`navigationService.DrillDown`, in the order of the source. -/
def applyDrillDown (env : Env) (m : Model) (result : NavigationUpdate) : Model × List Cmd :=
  let prevView := m.state.Navigation.View
  let m1 := drillClear env prevView (drillReset env (drillAssign m result) result) result
  (m1, env.maybeRestartWatchForScope m1)

/-- Go `Model.handleDrillDown`; `none` is the run-time panic of indexing the
visible items with a negative cursor. -/
def handleDrillDown (env : Env) (m : Model) : Option (Model × List Cmd) :=
  if m.state.Navigation.View = View.Apps then handleOpenResourcesForSelection env m
  else
    let visibleItems := env.getVisibleItems m
    if visibleItems.length = 0 ∨ m.state.Navigation.SelectedIdx ≥ visibleItems.length then
      some (m, [])
    else if m.state.Navigation.SelectedIdx < 0 then none
    else
      let selectedItem := visibleItems.getD m.state.Navigation.SelectedIdx.toNat default
      match env.DrillDown m.state.Navigation.View selectedItem visibleItems
          m.state.Navigation.SelectedIdx with
      | none => some (m, [])
      | some result => some (applyDrillDown env m result)

/-- The end of `handleSyncModal`: with a target, open the confirmation. -/
def openSyncModal (m : Model) : Model × List Cmd :=
  if m.state.Modals.ConfirmTarget ≠ none then
    ((m.setModals { m.state.Modals with ConfirmSyncSelected := 0 }).setMode Mode.ConfirmSync, [])
  else (m, [])

/-- Go `Model.handleSyncModal`. -/
def handleSyncModal (env : Env) (m : Model) : Model × List Cmd :=
  if m.state.Selections.SelectedApps.length = 0 then
    if m.state.Navigation.View ≠ View.Apps then
      (m, [Cmd.statusChange "Navigate to apps view to sync applications"])
    else
      let visibleItems := env.getVisibleItems m
      if visibleItems.length = 0 then
        (m, [Cmd.statusChange "No applications visible to sync"])
      else
        let selectedIdx : Int :=
          if m.state.Navigation.SelectedIdx < 0 ∨
              m.state.Navigation.SelectedIdx ≥ visibleItems.length then 0
          else m.state.Navigation.SelectedIdx
        match visibleItems.getD selectedIdx.toNat default with
        | Item.app app =>
          openSyncModal (m.setModals { m.state.Modals with ConfirmTarget := some app.Name })
        | Item.other _ => (m, [Cmd.statusChange "Selected item is not an application"])
  else
    openSyncModal (m.setModals { m.state.Modals with ConfirmTarget := some "__MULTI__" })

/-- The end of `handleRollback`, once `appName` is determined. -/
def startRollback (env : Env) (m : Model) (appName : String) : Model × List Cmd :=
  if appName = "" then (env.statusSet m "No app selected for rollback", [])
  else
    ((((m.setModals { m.state.Modals with RollbackAppName := some appName }).setMode
        Mode.Rollback).setRollback
      (some { AppName := appName, AppNamespace := none, Rows := [], SelectedIdx := 0,
              Loading := true, Error := "", Mode := "list", Prune := false, Watch := false,
              DryRun := false, ConfirmSelected := 0 })),
     [Cmd.startRollbackSession appName])

/-- Go `Model.handleRollback`; `none` is the run-time panic of indexing the
visible items with a negative cursor.  The `range` over a map of one entry
yields that entry. -/
def handleRollback (env : Env) (m : Model) : Option (Model × List Cmd) :=
  if m.state.Navigation.View ≠ View.Apps then some (m, [])
  else if m.state.Selections.SelectedApps.length = 1 then
    some (startRollback env m ((m.state.Selections.SelectedApps.map Prod.fst).getD 0 ""))
  else if m.state.Selections.SelectedApps.length = 0 then
    let visibleItems := env.getVisibleItems m
    if visibleItems.length > 0 ∧ m.state.Navigation.SelectedIdx < visibleItems.length then
      if m.state.Navigation.SelectedIdx < 0 then none
      else
        match visibleItems.getD m.state.Navigation.SelectedIdx.toNat default with
        | Item.app app => some (startRollback env m app.Name)
        | Item.other _ => some (startRollback env m "")
    else some (startRollback env m "")
  else some (env.statusSet m "Rollback not supported for multiple apps", [])

/-- Go `Model.handleAppDelete`; `none` is the run-time panic of indexing the
visible items with a negative cursor. -/
def handleAppDelete (env : Env) (m : Model) : Option (Model × List Cmd) :=
  if m.state.Navigation.View ≠ View.Apps then some (m, [])
  else if m.state.Selections.SelectedApps.length = 0 then
    let visibleItems := env.getVisibleItems m
    if visibleItems.length > 0 ∧ m.state.Navigation.SelectedIdx < visibleItems.length then
      if m.state.Navigation.SelectedIdx < 0 then none
      else
        match visibleItems.getD m.state.Navigation.SelectedIdx.toNat default with
        | Item.app app =>
          some ((m.setMode Mode.ConfirmAppDelete).setModals { m.state.Modals with
            DeleteAppName := some app.Name,
            DeleteAppNamespace := app.AppNamespace,
            DeleteConfirmationKey := "",
            DeleteError := none,
            DeleteLoading := false,
            DeleteCascade := true,
            DeletePropagationPolicy := "foreground" }, [])
        | Item.other _ => some (m, [])
    else some (m, [])
  else
    some ((m.setMode Mode.ConfirmAppDelete).setModals { m.state.Modals with
      DeleteAppName := some "__MULTI__",
      DeleteAppNamespace := none,
      DeleteConfirmationKey := "",
      DeleteError := none,
      DeleteLoading := false,
      DeleteCascade := true,
      DeletePropagationPolicy := "foreground" }, [])

/-- Go `Model.handleEscape`. -/
def handleEscape (d : Dispatch) (env : Env) (m : Model) : Model × List Cmd :=
  if !m.selection.IsEmpty then ({ m with selection := env.selectionClear m.selection }, [])
  else
    match m.state.Mode with
    | Mode.Search | Mode.Command | Mode.Theme | Mode.Help | Mode.ConfirmSync | Mode.Rollback
    | Mode.Diff | Mode.NoDiff => (m.setMode Mode.Normal, [])
    | _ =>
      let curr := m.state.Navigation.View
      if curr = View.Apps ∧ (m.state.UI.ActiveFilter ≠ "" ∨ m.state.UI.SearchQuery ≠ "") then
        (m.setUI { m.state.UI with SearchQuery := "", ActiveFilter := "" }, [])
      else
        let m1 := m.setUI { m.state.UI with SearchQuery := "", ActiveFilter := "", Command := "" }
        match curr with
        | View.Tree =>
          let m2 : Model := match m1.treeView with
            | some tv => { m1 with treeView := some tv.ClearFilter }
            | none => m1
          let m3 := d.safeChangeView m2 View.Apps
          let m4 := (m3.setUI { m3.state.UI with TreeAppName := none }).setSelectedIdx 0
          (m4, env.maybeRestartWatchForScope m4)
        | View.Apps =>
          if m1.state.Selections.ScopeApplicationSets.length > 0 then
            let m2 := m1.setSelections { m1.state.Selections with
              SelectedApps := NewStringSet, ScopeApplicationSets := NewStringSet }
            let m3 := d.safeChangeView m2 View.ApplicationSets
            (m3.setSelectedIdx 0, [])
          else
            let m2 := m1.setSelections { m1.state.Selections with
              SelectedApps := NewStringSet, ScopeProjects := NewStringSet }
            let m3 := d.safeChangeView m2 View.Projects
            let m4 := m3.setSelectedIdx 0
            (m4, env.maybeRestartWatchForScope m4)
        | View.ApplicationSets =>
          let m2 := (m1.setSelections { m1.state.Selections with
            ScopeApplicationSets := NewStringSet }).setSelectedIdx 0
          (m2, env.maybeRestartWatchForScope m2)
        | View.Projects =>
          let m2 := m1.setSelections { m1.state.Selections with
            ScopeProjects := NewStringSet, ScopeNamespaces := NewStringSet }
          let m3 := d.safeChangeView m2 View.Namespaces
          let m4 := m3.setSelectedIdx 0
          (m4, env.maybeRestartWatchForScope m4)
        | View.Namespaces =>
          let m2 := m1.setSelections { m1.state.Selections with
            ScopeNamespaces := NewStringSet, ScopeClusters := NewStringSet }
          let m3 := d.safeChangeView m2 View.Clusters
          let m4 := m3.setSelectedIdx 0
          (m4, env.maybeRestartWatchForScope m4)
        | View.Clusters =>
          let m2 := (m1.setSelections { m1.state.Selections with
            ScopeClusters := NewStringSet }).setSelectedIdx 0
          (m2, env.maybeRestartWatchForScope m2)

/-! ### The mode handlers of `input_handlers.go` -/

/-- Go `Model.handleThemeModeKeys`; `none` is the run-time panic of indexing
the theme options with the cursor of the theme navigator out of range. -/
def handleThemeModeKeys (env : Env) (m0 : Model) (key : String) : Option (Model × List Cmd) :=
  let m := env.ensureThemeOptionsLoaded m0
  if m.themeOptions.length = 0 then some (m.setMode Mode.Normal, [])
  else if key = "esc" ∨ key = "q" then
    let m1 := if m.state.UI.ThemeOriginalName ≠ "" then
      env.applyThemePreview m m.state.UI.ThemeOriginalName else m
    let m2 := env.ClearCommandInput (env.BlurInputs m1)
    some ((m2.setUI { m2.state.UI with Command := "" }).setMode Mode.Normal, [])
  else if key = "enter" then
    let cursor := env.themeNavCursor m
    if cursor < 0 ∨ cursor ≥ m.themeOptions.length then none
    else
      let selectedTheme := m.themeOptions.getD cursor.toNat ""
      let r := env.handleThemeCommand m selectedTheme
      let m2 := env.ClearCommandInput (env.BlurInputs r.1)
      some ((m2.setUI { m2.state.UI with Command := "" }).setMode Mode.Normal, r.2)
  else some (m, [])

/-- Go `Model.handleHelpModeKeys`. -/
def handleHelpModeKeys (m : Model) (key : String) : Model × List Cmd :=
  if key = "esc" ∨ key = "q" ∨ key = "?" then (m.setMode Mode.Normal, [])
  else (m, [])

/-- Go `Model.handleNoDiffModeKeys`: any key closes the modal. -/
def handleNoDiffModeKeys (m : Model) (_key : String) : Model × List Cmd :=
  (m.setMode Mode.Normal, [])

/-- Go `Model.handleK9sErrorModeKeys`. -/
def handleK9sErrorModeKeys (m : Model) (key : String) : Model × List Cmd :=
  if key = "enter" ∨ key = "esc" ∨ key = "q" then
    ((m.setMode Mode.Normal).setModals { m.state.Modals with K9sError := none }, [])
  else (m, [])

/-- Go `Model.handleDefaultViewWarningModeKeys`. -/
def handleDefaultViewWarningModeKeys (m : Model) (key : String) : Model × List Cmd :=
  if key = "enter" ∨ key = "esc" ∨ key = "q" then
    ((m.setMode Mode.Normal).setModals { m.state.Modals with DefaultViewWarning := none }, [])
  else (m, [])

/-- Go `Model.handleDiffModeKeys`. -/
def handleDiffModeKeys (env : Env) (m : Model) (key : String) : Model × List Cmd :=
  if m.state.Diff = none then (m, [])
  else if key = "q" ∨ key = "esc" then ((m.setMode Mode.Normal).setDiff none, [])
  else if key = "/" then
    ((env.FocusSearchInput (env.ClearSearchInput m)).setMode Mode.Search, [])
  else (m, [])

/-- The branch `case "y"` of `handleConfirmSyncKeys`, which `case "enter"` falls
through to. -/
def confirmSync (m : Model) : Model × List Cmd :=
  let target := m.state.Modals.ConfirmTarget
  let prune := m.state.Modals.ConfirmSyncPrune
  let m1 := (m.setModals { m.state.Modals with ConfirmSyncLoading := true }).setMode
    Mode.ConfirmSync
  match target with
  | some t =>
    if t = "__MULTI__" then (m1, [Cmd.syncSelectedApplications prune])
    else (m1, [Cmd.syncSingleApplication t prune])
  | none => (m1, [])

/-- Go `Model.handleConfirmSyncKeys`. -/
def handleConfirmSyncKeys (m : Model) (key : String) : Model × List Cmd :=
  if key = "esc" ∨ key = "q" then
    ((m.setMode Mode.Normal).setModals { m.state.Modals with ConfirmTarget := none }, [])
  else if key = "left" ∨ key = "h" then
    if m.state.Modals.ConfirmSyncSelected > 0 then
      (m.setModals { m.state.Modals with ConfirmSyncSelected := 0 }, [])
    else (m, [])
  else if key = "right" ∨ key = "l" then
    if m.state.Modals.ConfirmSyncSelected < 1 then
      (m.setModals { m.state.Modals with ConfirmSyncSelected := 1 }, [])
    else (m, [])
  else if key = "enter" then
    if m.state.Modals.ConfirmSyncSelected = 1 then
      ((m.setMode Mode.Normal).setModals { m.state.Modals with ConfirmTarget := none }, [])
    else confirmSync m
  else if key = "y" then confirmSync m
  else if key = "p" then
    (m.setModals { m.state.Modals with
      ConfirmSyncPrune := !m.state.Modals.ConfirmSyncPrune }, [])
  else if key = "w" then
    (m.setModals { m.state.Modals with
      ConfirmSyncWatch := !m.state.Modals.ConfirmSyncWatch }, [])
  else (m, [])

/-- The second `switch` of `handleRollbackModeKeys`, on a rollback state `rb`
that is present and not loading; `none` is the run-time panic of indexing the
rows with a negative index. -/
def rollbackKeys (m : Model) (rb : RollbackState) (key : String) : Option (Model × List Cmd) :=
  if key = "p" then
    if rb.Mode = "confirm" then some (m.setRollback (some { rb with Prune := !rb.Prune }), [])
    else some (m, [])
  else if key = "w" then
    if rb.Mode = "confirm" then some (m.setRollback (some { rb with Watch := !rb.Watch }), [])
    else some (m, [])
  else if key = "left" ∨ key = "h" then
    if rb.Mode = "confirm" then some (m.setRollback (some { rb with ConfirmSelected := 0 }), [])
    else some (m, [])
  else if key = "right" ∨ key = "l" then
    if rb.Mode = "confirm" then some (m.setRollback (some { rb with ConfirmSelected := 1 }), [])
    else some (m, [])
  else if key = "enter" then
    if rb.Mode = "list" then
      some (m.setRollback (some { rb with Mode := "confirm", ConfirmSelected := 0 }), [])
    else if rb.Mode = "confirm" then
      if rb.ConfirmSelected = 1 then
        some ((((m.setRollback none).setModals { m.state.Modals with
          RollbackAppName := none }).setMode Mode.Normal), [])
      else if rb.Rows.length > 0 ∧ rb.SelectedIdx < rb.Rows.length then
        if rb.SelectedIdx < 0 then none
        else
          let selectedRow := rb.Rows.getD rb.SelectedIdx.toNat default
          let request : RollbackRequest :=
            { ID := selectedRow.ID, Name := rb.AppName, AppNamespace := rb.AppNamespace,
              Prune := rb.Prune, DryRun := rb.DryRun }
          some (m.setRollback (some { rb with Loading := true, Error := "" }),
            [Cmd.executeRollback request])
      else some (m, [])
    else some (m, [])
  else if key = "d" then
    if rb.Mode = "list" ∧ rb.Rows.length > 0 ∧ rb.SelectedIdx < rb.Rows.length then
      if rb.SelectedIdx < 0 then none else some (m, [])
    else some (m, [])
  else some (m, [])

/-- Go `Model.handleRollbackModeKeys`; `none` is the run-time panic of indexing
the rows with a negative index. -/
def handleRollbackModeKeys (m : Model) (key : String) : Option (Model × List Cmd) :=
  if key = "esc" ∨ key = "q" ∨ key = "ctrl+c" then
    some ((((m.setMode Mode.Normal).setModals { m.state.Modals with
      RollbackAppName := none }).setRollback none), [])
  else
    match m.state.Rollback with
    | none => some (m, [])
    | some rb => if rb.Loading then some (m, []) else rollbackKeys m rb key

/-- The successor of a propagation policy in the cycle of the key `p`. -/
def nextPropagationPolicy (policy : String) : String :=
  if policy = "foreground" then "background"
  else if policy = "background" then "orphan"
  else if policy = "orphan" then "foreground"
  else "foreground"

/-- Go `Model.executeAppDeletion`. -/
def executeAppDeletion (m : Model) : Model × List Cmd :=
  match m.state.Modals.DeleteAppName with
  | none => (m, [])
  | some appName =>
    let m1 := m.setModals { m.state.Modals with DeleteLoading := true }
    if appName = "__MULTI__" then
      (m1, [Cmd.deleteSelectedApplications m1.state.Modals.DeleteCascade
        m1.state.Modals.DeletePropagationPolicy])
    else
      (m1, [Cmd.deleteSingleApplication
        { AppName := appName, Namespace := m1.state.Modals.DeleteAppNamespace,
          Options := { Cascade := m1.state.Modals.DeleteCascade,
                       PropagationPolicy := m1.state.Modals.DeletePropagationPolicy,
                       Force := false } }])

/-- Go `Model.handleConfirmAppDeleteKeys`. -/
def handleConfirmAppDeleteKeys (env : Env) (m : Model) (key : String) : Model × List Cmd :=
  if key = "q" ∨ key = "esc" ∨ key = "ctrl+c" then
    ((m.setMode Mode.Normal).setModals { m.state.Modals with
      DeleteAppName := none,
      DeleteAppNamespace := none,
      DeleteConfirmationKey := "",
      DeleteError := none,
      DeleteLoading := false }, [])
  else if key = "backspace" then
    if byteLen m.state.Modals.DeleteConfirmationKey > 0 then
      (m.setModals { m.state.Modals with
        DeleteConfirmationKey := dropLastByte m.state.Modals.DeleteConfirmationKey }, [])
    else (m, [])
  else if key = "c" then
    (m.setModals { m.state.Modals with DeleteCascade := !m.state.Modals.DeleteCascade }, [])
  else if key = "p" then
    (m.setModals { m.state.Modals with
      DeletePropagationPolicy :=
        nextPropagationPolicy m.state.Modals.DeletePropagationPolicy }, [])
  else if byteLen key = 1 then
    let m1 := m.setModals { m.state.Modals with DeleteConfirmationKey := key }
    if key = "y" ∨ key = "Y" then executeAppDeletion m1 else (m1, [])
  else if env.keyCodeIsSpace key ∨ key = "space" then
    (m.setModals { m.state.Modals with DeleteConfirmationKey := " " }, [])
  else (m, [])

/-- Go `Model.executeResourceDeletion`. -/
def executeResourceDeletion (m : Model) : Model × List Cmd :=
  if m.state.Modals.ResourceDeleteAppName = none ∨
      m.state.Modals.ResourceDeleteTargets.length = 0 then (m, [])
  else
    let m1 := m.setModals { m.state.Modals with ResourceDeleteLoading := true }
    (m1, [Cmd.deleteSelectedResources m1.state.Modals.ResourceDeleteTargets
      { Cascade := m1.state.Modals.ResourceDeleteCascade,
        PropagationPolicy := m1.state.Modals.ResourceDeletePropagationPolicy,
        Force := m1.state.Modals.ResourceDeleteForce }])

/-- Go `Model.handleConfirmResourceDeleteKeys`. -/
def handleConfirmResourceDeleteKeys (m : Model) (key : String) : Model × List Cmd :=
  if key = "q" ∨ key = "esc" ∨ key = "ctrl+c" then
    ((m.setMode Mode.Normal).setModals { m.state.Modals with
      ResourceDeleteAppName := none,
      ResourceDeleteTargets := [],
      ResourceDeleteConfirmationKey := "",
      ResourceDeleteError := none,
      ResourceDeleteLoading := false }, [])
  else if key = "backspace" then
    if byteLen m.state.Modals.ResourceDeleteConfirmationKey > 0 then
      (m.setModals { m.state.Modals with
        ResourceDeleteConfirmationKey :=
          dropLastByte m.state.Modals.ResourceDeleteConfirmationKey }, [])
    else (m, [])
  else if key = "c" then
    (m.setModals { m.state.Modals with
      ResourceDeleteCascade := !m.state.Modals.ResourceDeleteCascade }, [])
  else if key = "p" then
    (m.setModals { m.state.Modals with
      ResourceDeletePropagationPolicy :=
        nextPropagationPolicy m.state.Modals.ResourceDeletePropagationPolicy }, [])
  else if key = "f" then
    (m.setModals { m.state.Modals with
      ResourceDeleteForce := !m.state.Modals.ResourceDeleteForce }, [])
  else if byteLen key = 1 then
    let m1 := m.setModals { m.state.Modals with ResourceDeleteConfirmationKey := key }
    if key = "y" ∨ key = "Y" then executeResourceDeletion m1 else (m1, [])
  else (m, [])

/-- Go `Model.executeResourceSync`. -/
def executeResourceSync (m : Model) : Model × List Cmd :=
  if m.state.Modals.ResourceSyncAppName = none ∨
      m.state.Modals.ResourceSyncTargets.length = 0 then (m, [])
  else
    let m1 := m.setModals { m.state.Modals with ResourceSyncLoading := true }
    (m1, [Cmd.syncSelectedResources m1.state.Modals.ResourceSyncTargets
      m1.state.Modals.ResourceSyncPrune m1.state.Modals.ResourceSyncForce])

/-- Go `Model.handleConfirmResourceSyncKeys`. -/
def handleConfirmResourceSyncKeys (m : Model) (key : String) : Model × List Cmd :=
  if key = "q" ∨ key = "esc" ∨ key = "ctrl+c" then
    ((m.setMode Mode.Normal).setModals { m.state.Modals with
      ResourceSyncAppName := none,
      ResourceSyncTargets := [],
      ResourceSyncError := none,
      ResourceSyncLoading := false }, [])
  else if key = "left" ∨ key = "h" then
    if m.state.Modals.ResourceSyncConfirmSelected > 0 then
      (m.setModals { m.state.Modals with ResourceSyncConfirmSelected := 0 }, [])
    else (m, [])
  else if key = "right" ∨ key = "l" then
    if m.state.Modals.ResourceSyncConfirmSelected < 1 then
      (m.setModals { m.state.Modals with ResourceSyncConfirmSelected := 1 }, [])
    else (m, [])
  else if key = "enter" then
    if m.state.Modals.ResourceSyncConfirmSelected = 1 then
      ((m.setMode Mode.Normal).setModals { m.state.Modals with
        ResourceSyncAppName := none,
        ResourceSyncTargets := [] }, [])
    else executeResourceSync m
  else if key = "y" then executeResourceSync m
  else if key = "p" then
    (m.setModals { m.state.Modals with
      ResourceSyncPrune := !m.state.Modals.ResourceSyncPrune }, [])
  else if key = "f" then
    (m.setModals { m.state.Modals with
      ResourceSyncForce := !m.state.Modals.ResourceSyncForce }, [])
  else (m, [])

/-- The log lines joined again, each passed through `HighlightLogLine`; with
`skipBlank` the lines that are blank after trimming are left as they are. -/
def highlightLog (env : Env) (skipBlank : Bool) (content : String) : String :=
  let lines := content.splitOn "\n"
  "\n".intercalate (lines.map (fun line : String =>
    if skipBlank ∧ TrimSpace line = "" then line else env.HighlightLogLine line))

/-- Go `Model.handleAuthRequiredModeKeys`. -/
def handleAuthRequiredModeKeys (env : Env) (m : Model) (key : String) : Model × List Cmd :=
  if key = "q" ∨ key = "ctrl+c" then (m, [Cmd.quit])
  else if key = "l" then
    let logFile := env.Getenv "ARGONAUT_LOG_FILE"
    if TrimSpace logFile = "" then (m, [Cmd.apiError "No logs available"])
    else
      match env.ReadFile logFile with
      | none => (m, [Cmd.apiError "No logs available"])
      | some data => (m, [Cmd.openTextPager "Logs" (highlightLog env true data)])
  else (m, [])

/-- The statements of `handleErrorModeKeys` that clear the error state. -/
def clearError (m : Model) : Model :=
  { m with state := { m.state with
      CurrentError := none,
      ErrorState := m.state.ErrorState.map (fun e => { e with Current := none }) } }

/-- Go `Model.handleErrorModeKeys`. -/
def handleErrorModeKeys (env : Env) (m : Model) (key : String) : Model × List Cmd :=
  if key = "q" ∨ key = "esc" then
    if m.state.Apps.length = 0 then (m, [Cmd.quit])
    else (m.clearError.setMode Mode.Normal, [])
  else if key = "l" then
    let m1 := m.clearError
    (m1, [Cmd.openTextPager "Logs" (highlightLog env false (env.readLogContent m1))])
  else (m, [])

/-- Go `Model.handleConnectionErrorModeKeys`. -/
def handleConnectionErrorModeKeys (env : Env) (m : Model) (key : String) : Model × List Cmd :=
  if key = "q" ∨ key = "ctrl+c" then (m, [Cmd.quit])
  else if key = "esc" then (m.setMode Mode.Normal, [])
  else if key = "l" then
    (m, [Cmd.openTextPager "Logs" (highlightLog env false (env.readLogContent m))])
  else (m, [])

/-- Go `Model.handleCoreDetectedModeKeys`. -/
def handleCoreDetectedModeKeys (m : Model) (key : String) : Model × List Cmd :=
  if key = "q" ∨ key = "ctrl+c" ∨ key = "esc" then (m, [Cmd.quit])
  else (m, [])

/-! ### The k9s handlers of `input_handlers.go` -/

/-- Go `Model.findK9sContext`: the context, or `none` for an error. -/
def findK9sContext (env : Env) (clusterID : String) : Option String :=
  match env.kubeconfigLoad with
  | none => none
  | some kc =>
    if clusterID = "in-cluster" then none
    else kc.FindContextByName clusterID

/-- The context `showK9sContextPicker` selects beforehand: the index of the
current context among `contexts`, else 0. -/
def preselectedContext (env : Env) (contexts : List String) : Int :=
  match env.kubeconfigLoad with
  | some kc =>
    let current := kc.GetCurrentContext
    if current ≠ "" ∧ current ∈ contexts then (contexts.indexOf current : Nat) else 0
  | none => 0

/-- Go `Model.showK9sContextPicker`. -/
def showK9sContextPicker (env : Env) (m : Model) (kind ns name : String) : Model × List Cmd :=
  match env.ListContextNames with
  | none => (m, [Cmd.openK9s { Kind := kind, Namespace := ns, Context := "", Name := name }])
  | some contexts =>
    if contexts.length = 0 then
      (m, [Cmd.openK9s { Kind := kind, Namespace := ns, Context := "", Name := name }])
    else
      ({ m with
        k9sContextOptions := contexts,
        k9sContextSelected := preselectedContext env contexts,
        k9sPendingKind := kind,
        k9sPendingNamespace := ns,
        k9sPendingName := name }.setMode Mode.K9sContextSelect, [])

/-- Go `Model.openK9sForApplicationCR`. -/
def openK9sForApplicationCR (env : Env) (m : Model) (appName : String) : Model × List Cmd :=
  let ns := match m.state.Apps.find? (fun a => decide (a.Name = appName)) with
    | some a => a.AppNamespace.getD "argocd"
    | none => "argocd"
  showK9sContextPicker env m "Application" ns appName

/-- Go `Model.handleOpenAppK9s`. -/
def handleOpenAppK9s (env : Env) (m : Model) : Model × List Cmd :=
  if m.state.Navigation.View ≠ View.Apps then (m, [])
  else
    let visibleItems := env.getVisibleItems m
    if visibleItems.length = 0 then (m, [Cmd.statusChange "No applications visible"])
    else
      let idx := m.state.Navigation.SelectedIdx
      if idx < 0 ∨ idx ≥ visibleItems.length then
        (m, [Cmd.statusChange "No application selected"])
      else
        match visibleItems.getD idx.toNat default with
        | Item.app app => openK9sForApplicationCR env m app.Name
        | Item.other _ => (m, [Cmd.statusChange "Selected item is not an application"])

/-- The context `handleOpenK9s` detects from the cluster of the application
shown in the tree: `none` when it cannot. -/
def detectK9sContext (env : Env) (m : Model) : Option String :=
  match m.state.UI.TreeAppName with
  | none => none
  | some treeApp =>
    match m.state.Apps.find? (fun a => decide (a.Name = treeApp)) with
    | none => none
    | some app =>
      match app.ClusterID with
      | none => none
      | some clusterID => findK9sContext env clusterID

/-- Go `Model.handleOpenK9s`. -/
def handleOpenK9s (env : Env) (m : Model) : Model × List Cmd :=
  match m.treeView with
  | none => (m, [Cmd.statusChange "No resource selected"])
  | some tv =>
    match tv.SelectedResource with
    | none => (m, [Cmd.statusChange "No resource selected"])
    | some (_, kind, ns, name) =>
      if kind = "Application" then openK9sForApplicationCR env m name
      else
        match detectK9sContext env m with
        | none => showK9sContextPicker env m kind ns name
        | some context =>
          (m, [Cmd.openK9s { Kind := kind, Namespace := ns, Context := context, Name := name }])

/-- Go `Model.handleK9sContextSelectKeys`; `none` is the run-time panic of
indexing the contexts with the selected index out of range. -/
def handleK9sContextSelectKeys (m : Model) (key : String) : Option (Model × List Cmd) :=
  if m.k9sContextOptions.length = 0 then some (m.setMode Mode.Normal, [])
  else if key = "q" ∨ key = "esc" then
    some ({ m with
      k9sContextOptions := [],
      k9sPendingKind := "",
      k9sPendingNamespace := "",
      k9sPendingName := "" }.setMode Mode.Normal, [])
  else if key = "up" ∨ key = "k" then
    if m.k9sContextSelected > 0 then
      some ({ m with k9sContextSelected := m.k9sContextSelected - 1 }, [])
    else some (m, [])
  else if key = "down" ∨ key = "j" then
    if m.k9sContextSelected < (m.k9sContextOptions.length : Int) - 1 then
      some ({ m with k9sContextSelected := m.k9sContextSelected + 1 }, [])
    else some (m, [])
  else if key = "enter" then
    if m.k9sContextSelected < 0 ∨ m.k9sContextSelected ≥ m.k9sContextOptions.length then none
    else
      let selectedContext := m.k9sContextOptions.getD m.k9sContextSelected.toNat ""
      some ({ m with
        k9sContextOptions := [],
        k9sPendingKind := "",
        k9sPendingNamespace := "",
        k9sPendingName := "" }.setMode Mode.Normal,
        [Cmd.openK9s { Kind := m.k9sPendingKind, Namespace := m.k9sPendingNamespace,
                       Context := selectedContext, Name := m.k9sPendingName }])
  else some (m, [])

/-- Go `Model.handleResourceDiff`. -/
def handleResourceDiff (m : Model) : Model × List Cmd :=
  match m.treeView with
  | none => (m, [])
  | some tv =>
    match tv.SelectedResource with
    | none => (m, [])
    | some (group, kind, ns, name) =>
      let diff : DiffState := match m.state.Diff with
        | some x => x
        | none => { Loading := false }
      let loading := m.setDiff (some { diff with Loading := true })
      if kind = "Application" then (loading, [Cmd.startDiffSession name])
      else
        let appName := match m.state.UI.TreeAppName with
          | some x => x
          | none => tv.GetAppName
        if appName = "" then (m, [Cmd.statusChange "Could not determine application name"])
        else
          (loading, [Cmd.startResourceDiffSession
            { AppName := appName, Group := group, Kind := kind, Namespace := ns, Name := name }])

/-- The table of `handleKeyMsg` with the handlers of `input_handlers.go` filled
in; the handlers of the search, command and upgrade modes, the two handlers
that enter the search and command modes, the navigation router and the other
functions of `d` are in other files of the repository and stay as `d` has
them. -/
def keyHandlers (env : Env) (d : Dispatch) : Dispatch :=
  { d with
    handleThemeModeKeys := fun _ m key => handleThemeModeKeys env m key,
    handleHelpModeKeys := fun _ m key => some (handleHelpModeKeys m key),
    handleNoDiffModeKeys := fun _ m key => some (handleNoDiffModeKeys m key),
    handleConfirmSyncKeys := fun _ m key => some (handleConfirmSyncKeys m key),
    handleRollbackModeKeys := fun _ m key => handleRollbackModeKeys m key,
    handleConfirmAppDeleteKeys := fun _ m key => some (handleConfirmAppDeleteKeys env m key),
    handleConfirmResourceDeleteKeys := fun _ m key =>
      some (handleConfirmResourceDeleteKeys m key),
    handleConfirmResourceSyncKeys := fun _ m key => some (handleConfirmResourceSyncKeys m key),
    handleDiffModeKeys := fun _ m key => some (handleDiffModeKeys env m key),
    handleAuthRequiredModeKeys := fun _ m key => some (handleAuthRequiredModeKeys env m key),
    handleErrorModeKeys := fun _ m key => some (handleErrorModeKeys env m key),
    handleConnectionErrorModeKeys := fun _ m key =>
      some (handleConnectionErrorModeKeys env m key),
    handleCoreDetectedModeKeys := fun _ m key => some (handleCoreDetectedModeKeys m key),
    handleK9sContextSelectKeys := fun _ m key => handleK9sContextSelectKeys m key,
    handleK9sErrorModeKeys := fun _ m key => some (handleK9sErrorModeKeys m key),
    handleDefaultViewWarningModeKeys := fun _ m key =>
      some (handleDefaultViewWarningModeKeys m key),
    handleOpenK9s := fun _ m => some (handleOpenK9s env m),
    handleResourceDiff := fun _ m => some (handleResourceDiff m),
    handleToggleSelection := fun _ m => handleToggleSelection env m,
    handleDrillDown := fun _ m => handleDrillDown env m,
    handleSyncModal := fun _ m => some (handleSyncModal env m),
    handleOpenDiffForSelection := fun _ m => handleOpenDiffForSelection env m,
    handleOpenAppK9s := fun _ m => some (handleOpenAppK9s env m),
    handleRollback := fun _ m => handleRollback env m,
    handleAppDelete := fun _ m => handleAppDelete env m,
    handleEscape := fun _ m => some (handleEscape d env m) }

end Model

end Argonaut

namespace Argonaut

/-! ## Concrete inputs used by the witnesses and counterexamples -/

namespace Examples

open TreeView

/-- A snapshot entry with the given UID, kind, name, health and parent UIDs. -/
def res (uid kind name health : String) (parents : List String) : ResourceNode :=
  { UID := uid, Group := "apps", Version := "v1", Kind := kind, Name := name,
    Namespace := some "default", Status := "Synced",
    Health := some { Status := some health }, ParentRefs := parents.map ResourceRef.mk }

/-- The result of a step that is known to return. -/
def get (o : Option TreeView) : TreeView :=
  o.getD (NewTreeView 0 0)

/-- Scenario 3 of the specification: `R1` (Healthy), `R2` (Missing), `R3` (Healthy). -/
def threeResources : ResourceTree :=
  { Nodes := [res "1" "Pod" "r1" "Healthy" [], res "2" "Pod" "r2" "Missing" [],
              res "3" "Pod" "r3" "Healthy" []] }

/-- The tree of scenario 3 after `Space` on `R1`, on `R2` and on `R3`. -/
def threeSelected : TreeView :=
  let v0 := get (UpsertAppTree (NewTreeView 80 24) "demo" threeResources)
  let v1 := (v0.SetSelectedIndex 1).ToggleSelection.1
  let v2 := (v1.SetSelectedIndex 2).ToggleSelection.1
  (v2.SetSelectedIndex 3).ToggleSelection.1

/-- An application model with every field at its zero value. -/
def emptyModel : Model :=
  { state :=
      { Navigation := { View := View.Apps, SelectedIdx := 0, LastEscPressed := 0, LastZPressed := 0 },
        Selections := { ScopeClusters := [], ScopeNamespaces := [], ScopeProjects := [],
                        ScopeApplicationSets := [], SelectedApps := [] },
        Mode := Mode.Normal,
        Modals := { ConfirmTarget := none, ConfirmSyncSelected := 0,
                    ConfirmSyncPrune := false, ConfirmSyncWatch := false,
                    ConfirmSyncLoading := false, RollbackAppName := none,
                    DeleteAppName := none, DeleteAppNamespace := none,
                    DeleteConfirmationKey := "", DeleteError := none,
                    DeleteLoading := false, DeleteCascade := false,
                    DeletePropagationPolicy := "", K9sError := none,
                    DefaultViewWarning := none,
                    ResourceDeleteAppName := none, ResourceDeleteAppNamespace := none,
                    ResourceDeleteTargets := [], ResourceDeleteConfirmationKey := "",
                    ResourceDeleteError := none, ResourceDeleteLoading := false,
                    ResourceDeleteCascade := false, ResourceDeletePropagationPolicy := "",
                    ResourceDeleteForce := false,
                    ResourceSyncAppName := none, ResourceSyncTargets := [],
                    ResourceSyncConfirmSelected := 0, ResourceSyncError := none,
                    ResourceSyncLoading := false, ResourceSyncPrune := false,
                    ResourceSyncForce := false },
        UI := { SearchQuery := "", ActiveFilter := "", Command := "", TreeAppName := none,
                ThemeOriginalName := "" },
        Apps := [],
        Terminal := { Rows := 24, Cols := 80 },
        Diff := none,
        Rollback := none,
        CurrentError := none,
        ErrorState := none },
    treeView := none,
    treeLoading := false,
    selection := { IsEmpty := true },
    themeOptions := [],
    k9sContextOptions := [],
    k9sContextSelected := 0,
    k9sPendingKind := "",
    k9sPendingNamespace := "",
    k9sPendingName := "" }

/-- The model showing the tree `tv` in Normal mode. -/
def treeModel (tv : TreeView) : Model :=
  { emptyModel with
    state := { emptyModel.state with
      Navigation := { emptyModel.state.Navigation with View := View.Tree } },
    treeView := some tv }

end Examples

end Argonaut

namespace Argonaut

namespace Examples

open TreeView

/-- A view in which a selected resource has been removed by a later snapshot:
upsert `demo` with `R1`, select `R1`, upsert `demo` with an empty snapshot. -/
def staleSelection : Option TreeView :=
  let v0 := get (UpsertAppTree (NewTreeView 80 24) "demo" { Nodes := [res "1" "Pod" "r1" "Healthy" []] })
  let v1 := (v0.SetSelectedIndex 1).ToggleSelection.1
  UpsertAppTree v1 "demo" { Nodes := [] }

/-- The identity environment showing the given visible items. -/
def envOf (items : List Item) : Env :=
  { getVisibleItems := fun _ => items,
    cleanupTreeWatchers := fun m => m,
    contentInnerWidth := fun _ => 80,
    treeNavReset := fun m => m,
    SaveNavigationState := fun s => s,
    selectionClear := fun _ => { IsEmpty := true },
    maybeRestartWatchForScope := fun _ => [],
    statusSet := fun m _ => m,
    listNavReset := fun m => m,
    DrillDown := fun _ _ _ _ => none,
    ClearLowerLevelSelections := fun _ =>
      { scopeNamespaces := none, scopeProjects := none, selectedApps := none },
    ensureThemeOptionsLoaded := fun m => m,
    applyThemePreview := fun m _ => m,
    handleThemeCommand := fun m _ => (m, []),
    themeNavCursor := fun _ => 0,
    BlurInputs := fun m => m,
    ClearCommandInput := fun m => m,
    ClearSearchInput := fun m => m,
    FocusSearchInput := fun m => m,
    keyCodeIsSpace := fun k => decide (k = " " ∨ k = "space"),
    Getenv := fun _ => "",
    ReadFile := fun _ => none,
    HighlightLogLine := fun line => line,
    readLogContent := fun _ => "",
    kubeconfigLoad := none,
    ListContextNames := none }

/-- The application named `name`. -/
def appNamed (name : String) : App :=
  { Name := name, ClusterID := none, AppNamespace := none }

/-- Apps view listing `x` and `y`, the cursor on `x`, with exactly `y` checked. -/
def oneChecked : Model :=
  { emptyModel with
    state := { emptyModel.state with
      Apps := [appNamed "x", appNamed "y"],
      Selections := { emptyModel.state.Selections with SelectedApps := [("y", true)] } } }

/-- Apps view listing `x` and `y`, the cursor on `x`, with `x` and `y` checked. -/
def twoChecked : Model :=
  { emptyModel with
    state := { emptyModel.state with
      Apps := [appNamed "x", appNamed "y"],
      Selections := { emptyModel.state.Selections with
        SelectedApps := [("x", true), ("y", true)] } } }

/-- A two application overlay: the metadata and tree of `x`, then those of `y`;
the cursor stays on the first row, the synthetic root of `x`. -/
def overlay : TreeView :=
  let v0 := (NewTreeView 80 24).SetAppMeta "x" "Healthy" "Synced"
  let v1 := get (UpsertAppTree v0 "x" { Nodes := [res "1" "Pod" "p" "Healthy" []] })
  let v2 := v1.SetAppMeta "y" "Healthy" "Synced"
  get (UpsertAppTree v2 "y" { Nodes := [res "1" "Pod" "q" "Healthy" []] })

/-- A tree with a filter whose only match is the third row, collapsed at the
root afterwards, followed by `n` (`NextMatch`). -/
def staleMatch : Option TreeView :=
  let v0 := get (UpsertAppTree (NewTreeView 80 24) "demo"
    { Nodes := [res "1" "Pod" "a" "Healthy" [], res "2" "Pod" "b" "Healthy" []] })
  let v1 := v0.SetFilter "b"
  (v1.Update (Msg.key "h")).bind (fun v2 => v2.NextMatch.map Prod.fst)

/-- A snapshot of `demo` holding the single resource `b`. -/
def snapshotB : ResourceTree :=
  { Nodes := [res "2" "Pod" "b" "Healthy" []] }

/-- A view on `demo` showing the single resource `b`, the cursor on it. -/
def cursorOnB : TreeView :=
  (get (UpsertAppTree (NewTreeView 80 24) "demo" snapshotB)).SetSelectedIndex 1

/-- The next snapshot of `demo`: `b` is still there, and `a` sorts before it. -/
def snapshotAB : ResourceTree :=
  { Nodes := [res "2" "Pod" "b" "Healthy" [], res "1" "Pod" "a" "Healthy" []] }

/-- A snapshot holding the Application CR `demo` and, as its child, another
Application node named `demo`. -/
def nestedApplication : ResourceTree :=
  { Nodes := [res "1" "Application" "demo" "Healthy" [],
              res "2" "Application" "demo" "Healthy" ["1"]] }

/-- A snapshot holding the Application CR `demo` with a Deployment under it. -/
def withApplicationCR : ResourceTree :=
  { Nodes := [res "1" "Application" "demo" "Healthy" [],
              res "2" "Deployment" "web" "Healthy" ["1"]] }

/-- A view holding the application `a` with one resource of UID `b::c`. -/
def clashBefore : TreeView :=
  get (UpsertAppTree (NewTreeView 80 24) "a" { Nodes := [res "b::c" "Pod" "p" "Healthy" []] })

/-- The snapshot of the application `a::b`: one resource of UID `c`. -/
def clashSnapshot : ResourceTree :=
  { Nodes := [res "c" "Pod" "q" "Healthy" []] }

/-- A snapshot of the application `x`: a Deployment and its ReplicaSet. -/
def snapshotX : ResourceTree :=
  { Nodes := [res "1" "Deployment" "web" "Healthy" [],
              res "2" "ReplicaSet" "web-1" "Healthy" ["1"]] }

/-- A snapshot of the application `y`: one Service. -/
def snapshotY : ResourceTree :=
  { Nodes := [res "1" "Service" "api" "Healthy" []] }

/-- A view holding the application `y`. -/
def oneAppY : TreeView :=
  get (UpsertAppTree (NewTreeView 80 24) "y" snapshotY)

/-- A snapshot whose parent references form a cycle below a top-level node:
`a` names `r` and `b` as parents, `b` names `a`. -/
def cyclicRefs : ResourceTree :=
  { Nodes := [res "r" "Deployment" "r" "Healthy" [],
              res "a" "ReplicaSet" "a" "Healthy" ["r", "b"],
              res "b" "Pod" "b" "Healthy" ["a"]] }

end Examples

end Argonaut

namespace Argonaut

/-! ## Notions used to state the properties of `UpsertAppTree` -/

/-- The part of a node that is fixed when it is allocated: every field but the
parent and children links. -/
def treeNode.label (n : treeNode) : treeNode :=
  { n with parent := none, children := [] }

/-- A heap `h` that a pass of `UpsertAppTree` reaches from the heap `h1` left by
the first pass: no cell is allocated or freed, the cells below `base` (those
that existed before the call) are untouched, and no label is changed. -/
structure HeapExt (base : Nat) (h1 h : List treeNode) : Prop where
  length : h.length = h1.length
  old : ∀ p, p < base → h.getD p default = h1.getD p default
  label : ∀ p, (h.getD p default).label = (h1.getD p default).label

/-- A parent reference of the snapshot entry `nd` that names an entry of the
snapshot: the references the second pass of `UpsertAppTree` follows. -/
def hasSnapshotParent (tree : ResourceTree) (nd : ResourceNode) : Prop :=
  ∃ r ∈ nd.ParentRefs, ∃ nd' ∈ tree.Nodes, nd'.UID = r.UID

instance hasSnapshotParent.decidable (tree : ResourceTree) (nd : ResourceNode) :
    Decidable (hasSnapshotParent tree nd) :=
  inferInstanceAs (Decidable (∃ r ∈ nd.ParentRefs, ∃ nd' ∈ tree.Nodes, nd'.UID = r.UID))

/-- The links the second pass of `UpsertAppTree` has set up among the cells
from `base` on: every child is a local node that has a parent, only local nodes
have children, and a node has a parent only if `origin` holds of it. -/
structure Linked (nodesLocal : GoMap Nat) (origin : Nat → Prop) (base : Nat)
    (h : List treeNode) : Prop where
  children : ∀ p c, base ≤ p → c ∈ (h.getD p default).children →
    (∃ k, (k, c) ∈ nodesLocal) ∧ (h.getD c default).parent ≠ none
  owner : ∀ p c, base ≤ p → c ∈ (h.getD p default).children → ∃ k, (k, p) ∈ nodesLocal
  parent : ∀ p, base ≤ p → (h.getD p default).parent ≠ none → origin p

/-- A node the second pass gives a parent: some snapshot entry with its key has a
parent reference that the snapshot resolves. -/
def linkOrigin (v : TreeView) (appName : String) (tree : ResourceTree) (p : Nat) : Prop :=
  ∃ nd ∈ tree.Nodes,
    mapGet (v.upsertBuild appName tree).nodesLocal (TreeView.makeKey appName nd.UID) = some p ∧
    ∃ r ∈ nd.ParentRefs,
      mapGet (v.upsertBuild appName tree).nodesLocal (TreeView.makeKey appName r.UID) ≠ none

end Argonaut

namespace Argonaut

/-- The node at `p` in the heap `h` is an Application node named like the app:
the test of the loop of `UpsertAppTree` that drops the duplicate of the
synthetic root. -/
def isAppNode (appName : String) (h : List treeNode) (p : Nat) : Prop :=
  (h.getD p default).kind = "Application" ∧ (h.getD p default).name = appName

/-- What the filter loop of `UpsertAppTree` maintains, relative to the heap
`h2` after the second pass, the index `idx` before the loop and the roots
`roots` it ranges over. -/
structure Filtered (appName : String) (base : Nat) (h1 h2 : List treeNode)
    (idx : GoMap Nat) (roots : List Nat) (f : TreeView.Filter) : Prop where
  ext : HeapExt base h1 f.heap
  children : ∀ q, (f.heap.getD q default).children = (h2.getD q default).children
  filtered : ∀ c ∈ f.filtered,
    (c ∈ roots ∧ ¬ isAppNode appName h2 c) ∨
    (∃ q ∈ roots, isAppNode appName h2 q ∧ c ∈ (h2.getD q default).children)
  index : ∀ k x, mapGet f.nodesByUID k = some x → mapGet idx k = some x
  frame : ∀ k, (∀ q ∈ roots, isAppNode appName h2 q → (h2.getD q default).uid ≠ k) →
    mapGet f.nodesByUID k = mapGet idx k

end Argonaut

namespace Argonaut

/-! ## Reachable views and their invariants -/

/-- The views reachable from `NewTreeView` by the operations of the tree view
embedded here, together with the application names upserted since the view was
created or last reset by `SetData`, most recent first. -/
inductive Reached : List String → TreeView → Prop where
  | new (width height : Int) : Reached [] (TreeView.NewTreeView width height)
  | upsert {names : List String} {v v' : TreeView} (appName : String) (tree : ResourceTree) :
      Reached names v → v.UpsertAppTree appName tree = some v' → Reached (appName :: names) v'
  | update {names : List String} {v v' : TreeView} (msg : Msg) :
      Reached names v → v.Update msg = some v' → Reached names v'
  | setSelectedIndex {names : List String} {v : TreeView} (idx : Int) :
      Reached names v → Reached names (v.SetSelectedIndex idx)
  | toggleSelection {names : List String} {v : TreeView} :
      Reached names v → Reached names v.ToggleSelection.1
  | clearSelection {names : List String} {v : TreeView} :
      Reached names v → Reached names v.ClearSelection
  | setFilter {names : List String} {v : TreeView} (query : String) :
      Reached names v → Reached names (v.SetFilter query)
  | clearFilter {names : List String} {v : TreeView} :
      Reached names v → Reached names v.ClearFilter
  | nextMatch {names : List String} {v v' : TreeView} {moved : Bool} :
      Reached names v → v.NextMatch = some (v', moved) → Reached names v'
  | prevMatch {names : List String} {v v' : TreeView} {moved : Bool} :
      Reached names v → v.PrevMatch = some (v', moved) → Reached names v'
  | jumpToFirstMatch {names : List String} {v : TreeView} :
      Reached names v → Reached names v.JumpToFirstMatch.1
  | setAppMeta {names : List String} {v : TreeView} (name health sync : String) :
      Reached names v → Reached names (v.SetAppMeta name health sync)
  | setSize {names : List String} {v : TreeView} (width height : Int) :
      Reached names v → Reached names (v.SetSize width height)
  | setDesaturateMode {names : List String} {v : TreeView} (enabled : Bool) :
      Reached names v → Reached names (v.SetDesaturateMode enabled)
  | setFlashAll {names : List String} {v : TreeView} (enabled : Bool) :
      Reached names v → Reached names (v.SetFlashAll enabled)
  | setData {names : List String} {v v' : TreeView} (tree : ResourceTree) :
      Reached names v → v.SetData tree = some v' → Reached [v.appName] v'
  | setResourceStatuses {names : List String} {v : TreeView} (appName : String)
      (resources : List ResourceStatus) :
      Reached names v → Reached names (v.SetResourceStatuses appName resources)

/-- Two views hold the same forest: the same heap, node index, per-app keys,
per-app roots and root list. -/
structure SameForest (v v' : TreeView) : Prop where
  heap : v'.heap = v.heap
  nodesByUID : v'.nodesByUID = v.nodesByUID
  nodesByApp : v'.nodesByApp = v.nodesByApp
  rootByApp : v'.rootByApp = v.rootByApp
  roots : v'.roots = v.roots

/-- Two views hold the same links: as many nodes, the same children of every
node, and the same node index, per-app keys, per-app roots and root list. -/
structure SameLinks (v v' : TreeView) : Prop where
  length : v'.heap.length = v.heap.length
  children : ∀ p, (v'.node p).children = (v.node p).children
  nodesByUID : v'.nodesByUID = v.nodesByUID
  nodesByApp : v'.nodesByApp = v.nodesByApp
  rootByApp : v'.rootByApp = v.rootByApp
  roots : v'.roots = v.roots

/-- Every pointer a view holds refers to an allocated node. -/
structure Closed (v : TreeView) : Prop where
  children : ∀ p, p < v.heap.length → ∀ c ∈ (v.node p).children, c < v.heap.length
  roots : ∀ r ∈ v.roots, r < v.heap.length
  index : ∀ k p, mapGet v.nodesByUID k = some p → p < v.heap.length
  rootByApp : ∀ a r, mapGet v.rootByApp a = some r → r < v.heap.length

end Argonaut

namespace Argonaut

/-- The keys registered for an application: `v.nodesByApp[appName]`, empty when
the application is not in the view. -/
def TreeView.oldKeys (v : TreeView) (appName : String) : List String :=
  (mapGet v.nodesByApp appName).getD []

end Argonaut

namespace Argonaut

/-- The node allocated for a snapshot entry that is an Application node named
like the app and, with every entry sharing its UID, without a parent reference
into the snapshot. -/
structure Duplicate (v : TreeView) (appName : String) (tree : ResourceTree) (x : Nat) :
    Prop where
  base : v.heap.length ≤ x
  app : isAppNode appName (v.upsertLinked appName tree) x
  parentless : ((v.upsertLinked appName tree).getD x default).parent = none

end Argonaut

namespace Argonaut

/-- The scoped keys of distinct applications of `names` never coincide.  This
holds when no name contains a colon, as for Kubernetes object names. -/
def NoClash (names : List String) : Prop :=
  ∀ a ∈ names, ∀ b ∈ names, a ≠ b → ∀ u u', TreeView.makeKey a u ≠ TreeView.makeKey b u'

/-- The node at `p` is registered for `appName` in the view: it is indexed under
one of the keys of the application, or it is the root of the application. -/
def TreeView.isNodeOf (v : TreeView) (appName : String) (p : Nat) : Prop :=
  (∃ k ∈ v.oldKeys appName, mapGet v.nodesByUID k = some p) ∨
  mapGet v.rootByApp appName = some p

/-- The bookkeeping of a view is consistent with an assignment `owner` of an
application to every node: links stay inside an application, every root is the
root of the application it is registered for and conversely, and every index
entry is registered, under a key scoped by its application, for the owner of
its node; the applications with a root are those of `names`. -/
structure OwnedBy (owner : Nat → String) (names : List String) (v : TreeView) : Prop where
  child : ∀ p, p < v.heap.length → ∀ c ∈ (v.node p).children, owner c = owner p
  root : ∀ a r, mapGet v.rootByApp a = some r → owner r = a
  rootsFrom : ∀ r ∈ v.roots, ∃ a, mapGet v.rootByApp a = some r
  rootsTo : ∀ a r, mapGet v.rootByApp a = some r → r ∈ v.roots
  rootsNodup : v.roots.Nodup
  rootKeys : (v.rootByApp.map Prod.fst).Nodup
  count : v.roots.length = v.rootByApp.length
  upserted : ∀ a, a ∈ names ↔ mapGet v.rootByApp a ≠ none
  index : ∀ a k p, k ∈ v.oldKeys a → mapGet v.nodesByUID k = some p → owner p = a
  indexed : ∀ k p, mapGet v.nodesByUID k = some p → ∃ a, k ∈ v.oldKeys a
  keys : ∀ a k, k ∈ v.oldKeys a → ∃ u, k = TreeView.makeKey a u
  apps : ∀ a, v.oldKeys a ≠ [] → a ∈ names

end Argonaut

namespace Argonaut

/-! ## Notions used to state when the walk of `rebuildOrder` returns -/

/-- Every chain of child links of the heap `h` that starts at `p` has at most
`d` nodes: the recursion of `walk` from `p` is at most `d` calls deep, whatever
the expansion flags. -/
inductive Shallow (h : List treeNode) : Nat → Nat → Prop where
  | node (d p : Nat) :
      (∀ c ∈ (h.getD p default).children, Shallow h d c) → Shallow h (d + 1) p

/-- The forest below every root of the view is finite: no chain of child links
from a root is longer than the number of allocated nodes. -/
def Shallowed (v : TreeView) : Prop :=
  ∀ r ∈ v.roots, Shallow v.heap (v.heap.length + 1) r

/-- The parent references of the snapshot that name an entry of the snapshot
are acyclic: some rank on UIDs strictly increases from every entry to each such
parent. -/
def Acyclic (tree : ResourceTree) : Prop :=
  ∃ rank : String → Nat, ∀ nd ∈ tree.Nodes, ∀ ref ∈ nd.ParentRefs,
    (∃ nd' ∈ tree.Nodes, nd'.UID = ref.UID) → rank nd.UID < rank ref.UID

/-- The child links the second pass of `UpsertAppTree` creates: `c` is the node
of an entry one of whose parent references names the entry of `p`. -/
def linkEdge (v : TreeView) (appName : String) (tree : ResourceTree) (p c : Nat) : Prop :=
  ∃ nd ∈ tree.Nodes, ∃ r ∈ nd.ParentRefs,
    mapGet (v.upsertBuild appName tree).nodesLocal (TreeView.makeKey appName nd.UID) = some c ∧
    mapGet (v.upsertBuild appName tree).nodesLocal (TreeView.makeKey appName r.UID) = some p

end Argonaut

namespace Argonaut

namespace Examples

open TreeView

/-- Handlers that leave the model alone and produce no command, with the
navigation keys the source lists for the router. -/
def keys : Dispatch :=
  { isNavigationKey := fun k =>
      decide (k ∈ ["up", "k", "down", "j", "pgup", "pgdown", "g", "G"]),
    supportsNavigation := fun _ => true,
    executeNavigation := fun _ m _ => some (m, []),
    handleSearchModeKeys := fun _ m _ => some (m, []),
    handleCommandModeKeys := fun _ m _ => some (m, []),
    handleThemeModeKeys := fun _ m _ => some (m, []),
    handleHelpModeKeys := fun _ m _ => some (m, []),
    handleNoDiffModeKeys := fun _ m _ => some (m, []),
    handleConfirmSyncKeys := fun _ m _ => some (m, []),
    handleRollbackModeKeys := fun _ m _ => some (m, []),
    handleConfirmAppDeleteKeys := fun _ m _ => some (m, []),
    handleConfirmResourceDeleteKeys := fun _ m _ => some (m, []),
    handleConfirmResourceSyncKeys := fun _ m _ => some (m, []),
    handleDiffModeKeys := fun _ m _ => some (m, []),
    handleAuthRequiredModeKeys := fun _ m _ => some (m, []),
    handleErrorModeKeys := fun _ m _ => some (m, []),
    handleConnectionErrorModeKeys := fun _ m _ => some (m, []),
    handleCoreDetectedModeKeys := fun _ m _ => some (m, []),
    handleUpgradeModeKeys := fun _ m _ => some (m, []),
    handleUpgradeErrorModeKeys := fun _ m _ => some (m, []),
    handleUpgradeSuccessModeKeys := fun _ m _ => some (m, []),
    handleK9sContextSelectKeys := fun _ m _ => some (m, []),
    handleK9sErrorModeKeys := fun _ m _ => some (m, []),
    handleDefaultViewWarningModeKeys := fun _ m _ => some (m, []),
    safeChangeView := fun m w =>
      { m with state := { m.state with Navigation := { m.state.Navigation with View := w } } },
    ValidateBounds := fun i n => if n = 0 then 0 else max 0 (min i (n - 1)),
    treeNavSetCursor := fun m _ => m,
    treeNavSetItemCount := fun m _ => m,
    treeNavSetViewportHeight := fun m _ => m,
    bannerLines := fun _ => 1,
    handleEnterSearchMode := fun _ m => some (m, []),
    handleEnterCommandMode := fun _ m => some (m, []),
    handleOpenK9s := fun _ m => some (m, []),
    handleResourceDiff := fun _ m => some (m, []),
    handleToggleSelection := fun _ m => some (m, []),
    handleDrillDown := fun _ m => some (m, []),
    handleSyncModal := fun _ m => some (m, []),
    handleOpenDiffForSelection := fun _ m => some (m, []),
    handleOpenAppK9s := fun _ m => some (m, []),
    handleRollback := fun _ m => some (m, []),
    handleAppDelete := fun _ m => some (m, []),
    handleEscape := fun _ m => some (m, []) }

/-- A snapshot whose only entry lists its own UID as a parent reference. -/
def selfParent : ResourceTree :=
  { Nodes := [res "1" "Pod" "a" "Healthy" ["1"]] }

/-- A snapshot of two entries that name each other as parent. -/
def mutualParents : ResourceTree :=
  { Nodes := [res "1" "Pod" "a" "Healthy" ["2"], res "2" "Pod" "b" "Healthy" ["1"]] }

/-- A snapshot of the application `x` whose three parentless entries come in
decreasing `(kind, name)` order. -/
def unsortedX : ResourceTree :=
  { Nodes := [res "1" "Pod" "b" "Healthy" [], res "2" "Pod" "a" "Healthy" [],
              res "3" "ConfigMap" "z" "Healthy" []] }

/-- A view holding the applications `y` and `x`, upserted in that order. -/
def twoApps : TreeView :=
  get (UpsertAppTree oneAppY "x" snapshotX)

/-- The view of `y` and `x` with the cursor on the Deployment of `x`. -/
def cursorOnDeployment : TreeView :=
  twoApps.SetSelectedIndex 1

/-- The view of `y` and `x` after the Deployment of `x` is collapsed with `h`:
its ReplicaSet is hidden. -/
def collapsedDeployment : TreeView :=
  get (cursorOnDeployment.Update (Msg.key "h"))

/-- A snapshot of two parentless Pods `a` and `b`. -/
def twoPods : ResourceTree :=
  { Nodes := [res "1" "Pod" "a" "Healthy" [], res "2" "Pod" "b" "Healthy" []] }

/-- The tree of `demo` with the Pods `a` and `b`, filtered by `b`: the only
match is the third row, and the cursor is still on the first row. -/
def filteredB : TreeView :=
  (get (UpsertAppTree (NewTreeView 80 24) "demo" twoPods)).SetFilter "b"

/-- The tree of `demo` with the Pods `a` and `b`, filtered by `pod`: both Pods
match; the cursor is on the first match. -/
def filteredPods : TreeView :=
  ((get (UpsertAppTree (NewTreeView 80 24) "demo" twoPods)).SetFilter "pod").JumpToFirstMatch.1

/-- The tree of `demo` with the Pods `a` and `b` after `h` on the synthetic
root: the root is collapsed and alone in the visible order. -/
def collapsedRoot : TreeView :=
  get ((get (UpsertAppTree (NewTreeView 80 24) "demo" twoPods)).Update (Msg.key "h"))

/-- A snapshot of `demo` in which the ReplicaSet `c` names both Deployments `a`
and `b` as parents; the Pod `d` is below `c`. -/
def sharedChild : ResourceTree :=
  { Nodes := [res "1" "Deployment" "a" "Healthy" [], res "2" "Deployment" "b" "Healthy" [],
              res "3" "ReplicaSet" "c" "Healthy" ["1", "2"], res "4" "Pod" "d" "Healthy" ["3"],
              res "5" "Service" "e" "Healthy" []] }

/-- The tree of `sharedChild`: the ReplicaSet and its Pod are visible below
both Deployments. -/
def sharedView : TreeView :=
  get (UpsertAppTree (NewTreeView 80 24) "demo" sharedChild)

/-- The tree of `sharedChild` with the ReplicaSet collapsed from its first
occurrence, the cursor still on it. -/
def sharedCollapsed : TreeView :=
  get ((sharedView.SetSelectedIndex 2).Update (Msg.key "h"))

end Examples

end Argonaut

namespace Argonaut

/-! ## Notions used to state the properties of the filter -/

/-- The lower-cased query `t` is a substring of the lower-cased `field`. -/
def fieldMatches (t field : String) : Prop :=
  (ToLower t).data <:+: (ToLower field).data

instance fieldMatches.decidable (t field : String) : Decidable (fieldMatches t field) :=
  inferInstanceAs (Decidable ((ToLower t).data <:+: (ToLower field).data))

/-- The query `t` matches the node: it is, case-insensitively, a substring of
the kind, name, namespace, status or health of the node. -/
def nodeMatches (t : String) (n : treeNode) : Prop :=
  fieldMatches t n.kind ∨ fieldMatches t n.name ∨ fieldMatches t n.namespace_ ∨
  fieldMatches t n.status ∨ fieldMatches t n.health

instance nodeMatches.decidable (t : String) (n : treeNode) : Decidable (nodeMatches t n) :=
  inferInstanceAs (Decidable (fieldMatches t n.kind ∨ fieldMatches t n.name ∨
    fieldMatches t n.namespace_ ∨ fieldMatches t n.status ∨ fieldMatches t n.health))

/-- The current match is a valid position of the match list, and 0 when the
list is empty. -/
def MatchRange (v : TreeView) : Prop :=
  0 ≤ v.currentMatch ∧ (v.currentMatch = 0 ∨ v.currentMatch < v.matchIndices.length)

/-- The match list is current: `rebuildMatches` would compute the same list from
the filter and the visible order. -/
def MatchesCurrent (v : TreeView) : Prop :=
  v.matchIndices = (TreeView.rebuildMatches v).matchIndices

instance MatchesCurrent.decidable (v : TreeView) : Decidable (MatchesCurrent v) :=
  inferInstanceAs (Decidable (v.matchIndices = (TreeView.rebuildMatches v).matchIndices))

/-- The view `w` is `v` moved to the match at position `c`: `c` is a valid
position, the current match is `c`, the cursor is on the visible index the match
list holds at `c`, `SelectedUID` is the UID of the node there when that index
is in the visible range, and nothing else differs. -/
def MovedTo (v w : TreeView) (c : Int) : Prop :=
  0 ≤ c ∧ c < v.matchIndices.length ∧
  w = { v with currentMatch := c, selIdx := v.matchIndices.getD c.toNat 0,
               SelectedUID := w.SelectedUID } ∧
  (0 ≤ w.selIdx ∧ w.selIdx < w.order.length →
    w.SelectedUID = (w.node (w.orderAt w.selIdx)).uid)

/-- Go `n` successive calls of `NextMatch`. -/
def TreeView.nextMatches : Nat → TreeView → Option TreeView
  | 0, v => some v
  | n + 1, v => v.NextMatch.bind (fun r => TreeView.nextMatches n r.1)

end Argonaut

namespace Argonaut

/-! ## Notions used to state the ordering of siblings and roots -/

/-- The order `(kind, name)` lexicographic, non-strict: `a` does not come after
`b`. -/
def kindNameLe (a b : treeNode) : Prop :=
  strLt a.kind b.kind = true ∨
    (a.kind = b.kind ∧ (strLt a.name b.name = true ∨ a.name = b.name))

instance kindNameLe.decidable (a b : treeNode) : Decidable (kindNameLe a b) :=
  inferInstanceAs (Decidable (strLt a.kind b.kind = true ∨
    (a.kind = b.kind ∧ (strLt a.name b.name = true ∨ a.name = b.name))))

/-- The list of pointers `l` is in non-decreasing `(kind, name)` order in the
heap `h`. -/
def SortedNodes (h : List treeNode) (l : List Nat) : Prop :=
  l.Pairwise (fun a b => kindNameLe (h.getD a default) (h.getD b default))

/-- The list of pointers `l` is in strictly increasing name order in the heap
`h`. -/
def SortedNames (h : List treeNode) (l : List Nat) : Prop :=
  l.Pairwise (fun a b => strLt (h.getD a default).name (h.getD b default).name = true)

/-- The ordering a view keeps: the children of every node are in
non-decreasing `(kind, name)` order, the roots are in strictly increasing name
order, and the roots are exactly the entries of `rootByApp`, each under its own
name. -/
structure Ordered (v : TreeView) : Prop where
  children : ∀ p, SortedNodes v.heap (v.node p).children
  roots : SortedNames v.heap v.roots
  rootIndexed : ∀ r ∈ v.roots, mapGet v.rootByApp (v.node r).name = some r
  rootListed : ∀ k r, mapGet v.rootByApp k = some r → r ∈ v.roots ∧ (v.node r).name = k

/-- The part of a node that `SetResourceStatuses` leaves alone: every field but
the status. -/
def treeNode.shape (n : treeNode) : treeNode :=
  { n with status := "" }

/-- Two views hold the same forest up to the statuses of the nodes. -/
structure SameShape (v v' : TreeView) : Prop where
  length : v'.heap.length = v.heap.length
  shape : ∀ p, (v'.node p).shape = (v.node p).shape
  nodesByUID : v'.nodesByUID = v.nodesByUID
  nodesByApp : v'.nodesByApp = v.nodesByApp
  rootByApp : v'.rootByApp = v.rootByApp
  roots : v'.roots = v.roots

end Argonaut

namespace Argonaut

/-! ## Notions used to state the properties of the visible order -/

/-- The parent links a view keeps: every child has a parent, no root has one,
and `rootByApp` holds each application once. -/
structure Rooted (v : TreeView) : Prop where
  childParent : ∀ p c, c ∈ (v.node p).children → (v.node c).parent ≠ none
  rootParent : ∀ r ∈ v.roots, (v.node r).parent = none
  rootKeys : (v.rootByApp.map Prod.fst).Nodup

/-- The visible order is the one `rebuildOrder` computes from the roots and the
expansion flags the view holds. -/
def OrderCurrent (v : TreeView) : Prop :=
  TreeView.walkRoots v = some v.order

/-- When the cursor is in the visible range, `SelectedUID` is the UID of the
node under it. -/
def Synced (v : TreeView) : Prop :=
  0 ≤ v.selIdx ∧ v.selIdx < v.order.length →
    v.SelectedUID = (v.node (v.orderAt v.selIdx)).uid

/-- Two views show the same tree: the same forest, the same expansion flags and
the same visible order. -/
structure SameTree (v v' : TreeView) : Prop where
  forest : SameForest v v'
  expanded : v'.expanded = v.expanded
  order : v'.order = v.order

/-- The node `q` is `p` or below `p`: it is reached from `p` by child links. -/
inductive Below (v : TreeView) (p : Nat) : Nat → Prop where
  | self : Below v p p
  | child {q c : Nat} : Below v p q → c ∈ (v.node q).children → Below v p c

/-- Every child node is in the node index. -/
def ChildrenIndexed (v : TreeView) : Prop :=
  ∀ p, p < v.heap.length → ∀ c ∈ (v.node p).children, ∃ kp ∈ v.nodesByUID, kp.2 = c

instance ChildrenIndexed.decidable (v : TreeView) : Decidable (ChildrenIndexed v) :=
  inferInstanceAs (Decidable (∀ p, p < v.heap.length → ∀ c ∈ (v.node p).children,
    ∃ kp ∈ v.nodesByUID, kp.2 = c))

/-- Every child link agrees with the parent pointer of the child: no node is
a child of two nodes. -/
def ParentsAgree (v : TreeView) : Prop :=
  ∀ p, p < v.heap.length → ∀ c ∈ (v.node p).children, (v.node c).parent = some p

instance ParentsAgree.decidable (v : TreeView) : Decidable (ParentsAgree v) :=
  inferInstanceAs (Decidable (∀ p, p < v.heap.length → ∀ c ∈ (v.node p).children,
    (v.node c).parent = some p))

end Argonaut

namespace Argonaut

/-! ## Notions for the list handlers and the Escape key -/

/-- The sets `a` and `b` have the same members. -/
def SameMembers (a b : GoMap Bool) : Prop :=
  ∀ k : String, HasInStringSet a k = HasInStringSet b k

/-- What the claims about Escape assume of `safeChangeView`, whose body is in
another file of the repository: it sets the view, and leaves the mode, the
scope sets and selected applications, the inputs of the UI state, the two key
timestamps and the text selection as they are. -/
structure ViewChange (d : Dispatch) : Prop where
  view : ∀ (m : Model) (w : View), (d.safeChangeView m w).state.Navigation.View = w
  mode : ∀ (m : Model) (w : View), (d.safeChangeView m w).state.Mode = m.state.Mode
  selections : ∀ (m : Model) (w : View),
    (d.safeChangeView m w).state.Selections = m.state.Selections
  ui : ∀ (m : Model) (w : View), (d.safeChangeView m w).state.UI = m.state.UI
  lastEsc : ∀ (m : Model) (w : View),
    (d.safeChangeView m w).state.Navigation.LastEscPressed = m.state.Navigation.LastEscPressed
  selection : ∀ (m : Model) (w : View), (d.safeChangeView m w).selection = m.selection

/-- The scope sets are nested: no namespace scope without a cluster scope, no
project scope without a namespace scope. -/
def ScopesNested (s : SelectionState) : Prop :=
  (s.ScopeClusters.length = 0 → s.ScopeNamespaces.length = 0) ∧
  (s.ScopeNamespaces.length = 0 → s.ScopeProjects.length = 0)

instance ScopesNested.decidable (s : SelectionState) : Decidable (ScopesNested s) := by
  unfold ScopesNested
  infer_instance

/-- The top of the hierarchy: the view Clusters with the four scope sets and
`SelectedApps` empty. -/
def AtTop (m : Model) : Prop :=
  m.state.Navigation.View = View.Clusters ∧
  m.state.Selections.ScopeClusters.length = 0 ∧
  m.state.Selections.ScopeNamespaces.length = 0 ∧
  m.state.Selections.ScopeProjects.length = 0 ∧
  m.state.Selections.ScopeApplicationSets.length = 0 ∧
  m.state.Selections.SelectedApps.length = 0

instance AtTop.decidable (m : Model) : Decidable (AtTop m) := by
  unfold AtTop
  infer_instance

/-- The clock reading `t` is at least 100 ms after `last`, and by less than
`2^63` ms, so that the `int64` difference of the two is their difference. -/
def Apart (last t : Int) : Prop :=
  last + 100 ≤ t ∧ t - last < 9223372036854775808

instance Apart.decidable (last t : Int) : Decidable (Apart last t) := by
  unfold Apart
  infer_instance

/-- The clock times of successive Escape keystrokes are at least 100 ms apart,
the first one at least 100 ms after `last`. -/
def Spaced (last : Int) : List Int → Prop
  | [] => True
  | t :: ts => Apart last t ∧ Spaced t ts

/-- Escape pressed at each of the clock times, each keystroke handled by
`handleKeyMsg` with the handlers of `input_handlers.go`: the model after the
last one; `none` when a keystroke panics. -/
def pressEscape (d : Dispatch) (env : Env) : Model → List Int → Option Model
  | m, [] => some m
  | m, t :: ts =>
    match Model.handleKeyMsg (Model.keyHandlers env d) env t m "esc" with
    | some r => pressEscape d env r.1 ts
    | none => none

/-- A keystroke: the reading of the clock when `handleKeyMsg` handles it, and
the key. -/
structure Keystroke where
  time : Int
  key : String
  deriving DecidableEq, Repr, Inhabited

/-- A sequence of keystrokes handled in Normal mode by `handleKeyMsg` with the
handlers of `input_handlers.go`: the model after the last one; `none` when a
keystroke finds the model in another mode, or panics. -/
def runNormal (d : Dispatch) (env : Env) : Model → List Keystroke → Option Model
  | m, [] => some m
  | m, k :: ks =>
    if m.state.Mode = Mode.Normal then
      match Model.handleKeyMsg (Model.keyHandlers env d) env k.time m k.key with
      | some r => runNormal d env r.1 ks
      | none => none
    else none

/-- What the claim about the quit chord assumes of the functions that are in
other files of the repository and run in Normal mode: none of them writes
`LastZPressed` (in `input_handlers.go` only `handleKeyMsg` does). -/
structure KeepsLastZ (d : Dispatch) (env : Env) : Prop where
  executeNavigation : ∀ (now : Int) (m : Model) (key : String) (r : Model × List Cmd),
    d.executeNavigation now m key = some r →
    r.1.state.Navigation.LastZPressed = m.state.Navigation.LastZPressed
  handleEnterSearchMode : ∀ (now : Int) (m : Model) (r : Model × List Cmd),
    d.handleEnterSearchMode now m = some r →
    r.1.state.Navigation.LastZPressed = m.state.Navigation.LastZPressed
  handleEnterCommandMode : ∀ (now : Int) (m : Model) (r : Model × List Cmd),
    d.handleEnterCommandMode now m = some r →
    r.1.state.Navigation.LastZPressed = m.state.Navigation.LastZPressed
  safeChangeView : ∀ (m : Model) (w : View),
    (d.safeChangeView m w).state.Navigation.LastZPressed = m.state.Navigation.LastZPressed
  treeNavSetCursor : ∀ (m : Model) (i : Int),
    (d.treeNavSetCursor m i).state.Navigation.LastZPressed = m.state.Navigation.LastZPressed
  treeNavSetItemCount : ∀ (m : Model) (i : Int),
    (d.treeNavSetItemCount m i).state.Navigation.LastZPressed =
      m.state.Navigation.LastZPressed
  treeNavSetViewportHeight : ∀ (m : Model) (i : Int),
    (d.treeNavSetViewportHeight m i).state.Navigation.LastZPressed =
      m.state.Navigation.LastZPressed
  cleanupTreeWatchers : ∀ m : Model,
    (env.cleanupTreeWatchers m).state.Navigation.LastZPressed = m.state.Navigation.LastZPressed
  treeNavReset : ∀ m : Model,
    (env.treeNavReset m).state.Navigation.LastZPressed = m.state.Navigation.LastZPressed
  SaveNavigationState : ∀ s : AppState,
    (env.SaveNavigationState s).Navigation.LastZPressed = s.Navigation.LastZPressed
  listNavReset : ∀ m : Model,
    (env.listNavReset m).state.Navigation.LastZPressed = m.state.Navigation.LastZPressed
  statusSet : ∀ (m : Model) (s : String),
    (env.statusSet m s).state.Navigation.LastZPressed = m.state.Navigation.LastZPressed

namespace Examples

/-- The environment whose visible list is the applications `x` and `y`. -/
def twoAppsEnv : Env :=
  envOf [Item.app (appNamed "x"), Item.app (appNamed "y")]

/-- The model `emptyModel` in the view `w`. -/
def inView (w : View) : Model :=
  { emptyModel with
    state := { emptyModel.state with
      Navigation := { emptyModel.state.Navigation with View := w } } }

/-- The model `emptyModel` in the mode `md`. -/
def inMode (md : Mode) : Model :=
  { emptyModel with state := { emptyModel.state with Mode := md } }

/-- A rollback modal for `x` with two loaded rows, the cursor on the second,
in the sub-mode `mode` with the button `sel` selected. -/
def rollbackModal (mode : String) (sel : Int) : Model :=
  { emptyModel with
    state := { emptyModel.state with
      Mode := Mode.Rollback,
      Modals := { emptyModel.state.Modals with RollbackAppName := some "x" },
      Rollback := some
        { AppName := "x", AppNamespace := none, Rows := [{ ID := 7 }, { ID := 8 }],
          SelectedIdx := 1, Loading := false, Error := "old", Mode := mode, Prune := true,
          Watch := false, DryRun := false, ConfirmSelected := sel } } }

/-- The Apps view with the filter `web` applied and a text selection on the
screen. -/
def filteredSelected : Model :=
  { emptyModel with
    state := { emptyModel.state with
      UI := { emptyModel.state.UI with ActiveFilter := "web", SearchQuery := "web" } },
    selection := { IsEmpty := false } }

/-- The Apps view with the filter `web` applied and the command buffer `ns`. -/
def filteredApps : Model :=
  { emptyModel with
    state := { emptyModel.state with
      UI := { emptyModel.state.UI with
        ActiveFilter := "web", SearchQuery := "web", Command := "ns" } } }

/-- The view `w` scoped by the cluster `c`, the namespace `n` and the project
`p`, with the application `x` checked. -/
def scopedView (w : View) : Model :=
  { emptyModel with
    state := { emptyModel.state with
      Navigation := { emptyModel.state.Navigation with View := w, SelectedIdx := 1 },
      Selections := { emptyModel.state.Selections with
        ScopeClusters := [("c", true)], ScopeNamespaces := [("n", true)],
        ScopeProjects := [("p", true)], SelectedApps := [("x", true)] } } }

end Examples

end Argonaut

namespace Argonaut

/-- Modelled from the spec: the kubeconfig of package `pkg/kubeconfig`, whose
source is in another file of the repository, as a set of context names with a
current context; the exact-name lookup `FindContextByName` finds a context, the
name itself, exactly when the name is in the set. -/
def kubeconfigOfNames (names : List String) (current : String) : KubeConfig :=
  { FindContextByName := fun name => if name ∈ names then some name else none,
    GetCurrentContext := current }

/-! ### Fixtures of the modal handlers -/

namespace Examples

/-- The Error mode with the application `x` loaded and the error `boom`
current. -/
def errorLoaded : Model :=
  { emptyModel with
    state := { emptyModel.state with
      Mode := Mode.Error,
      Apps := [appNamed "x"],
      CurrentError := some "boom",
      ErrorState := some { Current := some "boom" } } }

/-- The application delete confirmation for `x` with the propagation policy
`policy`. -/
def appDeleteModal (policy : String) : Model :=
  { emptyModel with
    state := { emptyModel.state with
      Mode := Mode.ConfirmAppDelete,
      Modals := { emptyModel.state.Modals with
        DeleteAppName := some "x", DeleteCascade := true,
        DeletePropagationPolicy := policy } } }

/-- The resource delete confirmation of the application `x` with the
propagation policy `policy`. -/
def resourceDeleteModal (policy : String) : Model :=
  { emptyModel with
    state := { emptyModel.state with
      Mode := Mode.ConfirmResourceDelete,
      Modals := { emptyModel.state.Modals with
        ResourceDeleteAppName := some "x", ResourceDeleteCascade := true,
        ResourceDeletePropagationPolicy := policy } } }

/-- The rollback modal of `rollbackModal` in its confirmation view, while a
rollback request is running (`Loading` set). -/
def rollbackLoading : Model :=
  { emptyModel with
    state := { emptyModel.state with
      Mode := Mode.Rollback,
      Modals := { emptyModel.state.Modals with RollbackAppName := some "x" },
      Rollback := some
        { AppName := "x", AppNamespace := none, Rows := [{ ID := 7 }, { ID := 8 }],
          SelectedIdx := 1, Loading := true, Error := "", Mode := "confirm", Prune := true,
          Watch := false, DryRun := false, ConfirmSelected := 0 } } }

/-- The context names `staging`, `prod-east` and `prod-west`. -/
def prodContexts : List String := ["staging", "prod-east", "prod-west"]

/-- The application `x` of the cluster `prod-east`. -/
def prodApp : App :=
  { Name := "x", ClusterID := some "prod-east", AppNamespace := none }

/-- The environment listing the application `x`, with a kubeconfig of the
contexts `prodContexts` whose current context is `staging`. -/
def k9sEnv : Env :=
  { envOf [Item.app prodApp] with
    kubeconfigLoad := some (kubeconfigOfNames prodContexts "staging"),
    ListContextNames := some prodContexts }

/-- The Apps view with the application `x` of `prod-east` loaded, the cursor
on it. -/
def prodApps : Model :=
  { emptyModel with state := { emptyModel.state with Apps := [prodApp] } }

/-- The tree of the application `x` of `prod-east`, the cursor on the
Deployment `web`. -/
def prodTree : Model :=
  { emptyModel with
    state := { emptyModel.state with
      Navigation := { emptyModel.state.Navigation with View := View.Tree },
      UI := { emptyModel.state.UI with TreeAppName := some "x" },
      Apps := [prodApp] },
    treeView := (((TreeView.NewTreeView 80 24).UpsertAppTree "x"
      { Nodes := [res "1" "Deployment" "web" "Healthy" []] }).bind
        (fun v => v.Update (Msg.key "down"))) }

end Examples

end Argonaut

namespace Argonaut

/-! ### The line structure of `Render` -/

namespace TreeView

/-- The loop `for i, n := range v.order` of `Render` from the index `i` on, as
the text it writes to the builder: a line break before a node without a parent
that is not the first row, the text `line i n` of the row (the statements that
build it use the styles of other packages), and a line break after every row
but the last. -/
def renderRows (v : TreeView) (line : Int → Nat → String) : List Nat → Int → String
  | [], _ => ""
  | n :: rest, i =>
    (if (v.node n).parent = none ∧ i > 0 then "\n" else "") ++ line i n ++
      (if i < (v.order.length : Int) - 1 then "\n" else "") ++
      renderRows v line rest (i + 1)

/-- Go `TreeView.Render`, relative to the text `line i n` of the row of the
node `n` at the index `i`. -/
def Render (v : TreeView) (line : Int → Nat → String) : String :=
  if v.order.length = 0 then "(no resources)" else renderRows v line v.order 0

/-- What `Render` has written when it writes the text of the row `k`: the rows
before it and the line break that separates an application from the rows
above. -/
def renderedBefore (v : TreeView) (line : Int → Nat → String) (k : Nat) : String :=
  renderRows v line (v.order.take k) 0 ++
    (if (v.node (v.order.getD k 0)).parent = none ∧ (k : Int) > 0 then "\n" else "")

/-- What `Render` writes after the text of the row `k`. -/
def renderedAfter (v : TreeView) (line : Int → Nat → String) (k : Nat) : String :=
  (if (k : Int) < (v.order.length : Int) - 1 then "\n" else "") ++
    renderRows v line (v.order.drop (k + 1)) ((k : Int) + 1)

end TreeView

/-- The number of line breaks of a text: the 0-based line on which a text
written after it starts. -/
def lineBreaks (s : String) : Nat :=
  s.data.count (Char.ofNat 10)

/-! ### Notions used to state the effect of `SetResourceStatuses` -/

/-- The text holds no `/`. -/
def NoSlash (s : String) : Prop :=
  '/' ∉ s.data

instance NoSlash.decidable (s : String) : Decidable (NoSlash s) :=
  inferInstanceAs (Decidable ('/' ∉ s.data))

/-- The resource `r` has the group, kind, namespace and name of the node `n`. -/
def SameResource (n : treeNode) (r : ResourceStatus) : Prop :=
  r.Group = n.group ∧ r.Kind = n.kind ∧ r.Namespace = n.namespace_ ∧ r.Name = n.name

instance SameResource.decidable (n : treeNode) (r : ResourceStatus) :
    Decidable (SameResource n r) :=
  inferInstanceAs (Decidable (r.Group = n.group ∧ r.Kind = n.kind ∧
    r.Namespace = n.namespace_ ∧ r.Name = n.name))

/-- The node at `p` is indexed for `appName`: the node index holds it under one
of the keys registered for the application. -/
def TreeView.indexedFor (v : TreeView) (appName : String) (p : Nat) : Prop :=
  ∃ k ∈ v.oldKeys appName, mapGet v.nodesByUID k = some p

instance TreeView.indexedFor.decidable (v : TreeView) (appName : String) (p : Nat) :
    Decidable (v.indexedFor appName p) :=
  inferInstanceAs (Decidable (∃ k ∈ v.oldKeys appName, mapGet v.nodesByUID k = some p))

/-- Group, kind, namespace and name of every node of the index and of every
resource hold no `/`. -/
def SlashFree (v : TreeView) (resources : List ResourceStatus) : Prop :=
  (∀ e ∈ v.nodesByUID, NoSlash (v.node e.2).group ∧ NoSlash (v.node e.2).kind ∧
    NoSlash (v.node e.2).namespace_ ∧ NoSlash (v.node e.2).name) ∧
  (∀ r ∈ resources,
    NoSlash r.Group ∧ NoSlash r.Kind ∧ NoSlash r.Namespace ∧ NoSlash r.Name)

instance SlashFree.decidable (v : TreeView) (resources : List ResourceStatus) :
    Decidable (SlashFree v resources) :=
  inferInstanceAs (Decidable (
    (∀ e ∈ v.nodesByUID, NoSlash (v.node e.2).group ∧ NoSlash (v.node e.2).kind ∧
      NoSlash (v.node e.2).namespace_ ∧ NoSlash (v.node e.2).name) ∧
    (∀ r ∈ resources,
      NoSlash r.Group ∧ NoSlash r.Kind ∧ NoSlash r.Namespace ∧ NoSlash r.Name)))

/-- The UID of every node in the tree of an application is a key scoped by the
name of that application. -/
def TreeScoped (v : TreeView) : Prop :=
  ∀ a r, mapGet v.rootByApp a = some r → ∀ p, Below v r p →
    ∃ u, (v.node p).uid = TreeView.makeKey a u

/-- The node at `p` belongs to the application `a`: it is indexed for `a`, or
it is in the tree below the root of `a`. -/
def TreeView.inApp (v : TreeView) (a : String) (p : Nat) : Prop :=
  v.indexedFor a p ∨ ∃ r, mapGet v.rootByApp a = some r ∧ Below v r p

/-! ### Notions used to state the properties of the walk on trees -/

/-- The node at `p` is in the forest of the view: it is reached from a root by
child links. -/
def TreeView.inForest (v : TreeView) (p : Nat) : Prop :=
  ∃ r ∈ v.roots, Below v r p

/-- The node `p` is shown from `n`: it is `n`, or a child of an expanded node
shown from `n`. -/
inductive Shown (v : TreeView) (n : Nat) : Nat → Prop where
  | self : Shown v n n
  | child {q c : Nat} : Shown v n q → mapGetBool v.expanded (v.node q).uid = true →
      c ∈ (v.node q).children → Shown v n c

/-- In the forest of the view no node is a child of two nodes, nor twice the
child of one: every children list is duplicate-free and every child link agrees
with the parent pointer of the child. -/
def SingleParented (v : TreeView) : Prop :=
  ∀ p, v.inForest p →
    (v.node p).children.Nodup ∧ ∀ c ∈ (v.node p).children, (v.node c).parent = some p

/-- The snapshot has distinct UIDs and each of its entries has at most one
parent reference that names an entry of the snapshot. -/
def SingleParent (tree : ResourceTree) : Prop :=
  (tree.Nodes.map (fun (nd : ResourceNode) => nd.UID)).Nodup ∧
  ∀ nd ∈ tree.Nodes,
    (nd.ParentRefs.filter
      (fun r => decide (∃ nd' ∈ tree.Nodes, nd'.UID = r.UID))).length ≤ 1

instance SingleParent.decidable (tree : ResourceTree) : Decidable (SingleParent tree) :=
  inferInstanceAs (Decidable ((tree.Nodes.map (fun (nd : ResourceNode) => nd.UID)).Nodup ∧
    ∀ nd ∈ tree.Nodes,
      (nd.ParentRefs.filter
        (fun r => decide (∃ nd' ∈ tree.Nodes, nd'.UID = r.UID))).length ≤ 1))

/-- What the second pass of `UpsertAppTree` keeps on a single-parent snapshot,
for the cells from `base` on: a child link agrees with the parent pointer of
the child, and no children list holds a node twice. -/
structure Agreed (base : Nat) (h : List treeNode) : Prop where
  agree : ∀ p c, base ≤ p → c ∈ (h.getD p default).children →
    (h.getD c default).parent = some p
  nodup : ∀ p, base ≤ p → (h.getD p default).children.Nodup

/-- What the filter loop of `UpsertAppTree` appends to `filtered` for the root
`p`: the children of an Application node named like the app, else the root. -/
def promoted (appName : String) (h : List treeNode) (p : Nat) : List Nat :=
  if (h.getD p default).kind = "Application" ∧ (h.getD p default).name = appName then
    (h.getD p default).children
  else [p]

/-- The assignment of `SetResourceStatuses` to one node. -/
def statusUpdate (statusByKey : GoMap String) (n : treeNode) : treeNode :=
  match mapGet statusByKey (TreeView.statusKey n.group n.kind n.namespace_ n.name) with
  | some status => { n with status := status }
  | none => n

/-- The visible order of `v` is that of a forest: no node is met twice, a node
with a parent pointer comes after the node the pointer names, and the visible
nodes are the nodes below a root all of whose ancestors are expanded. -/
structure TreeOrder (v : TreeView) : Prop where
  nodup : v.order.Nodup
  parentFirst : ∀ pre x post par, v.order = pre ++ x :: post →
    (v.node x).parent = some par → par ∈ pre
  visible : ∀ p, p ∈ v.order ↔ v.inForest p ∧
    ∀ a, v.inForest a → ∀ c ∈ (v.node a).children, Below v c p →
      mapGetBool v.expanded (v.node a).uid = true

namespace Examples

/-- The view of `clashBefore` after the upsert of the application `a::b`: the
key `a::b::c`, registered for both applications, is bound to the Pod `q` of
`a::b` (node 2, below the root 3 of `a::b`); the Pod `p` of `a` is node 0. -/
def clashAfter : TreeView :=
  get (clashBefore.UpsertAppTree "a::b" clashSnapshot)

/-- The status `s` for the Pod named `name`. -/
def podStatus (name s : String) : ResourceStatus :=
  { Group := "apps", Kind := "Pod", Namespace := "default", Name := name, Status := s }

/-- The status `s` for the Deployment `web`. -/
def webStatus (s : String) : ResourceStatus :=
  { Group := "apps", Kind := "Deployment", Namespace := "default", Name := "web", Status := s }

/-- The view of `y` and `x` with the cursor on the last row, the Service of
`y`. -/
def cursorOnService : TreeView :=
  twoApps.SetSelectedIndex 4

/-- A snapshot with two entries of UID `3`, each with one parent reference. -/
def repeatedUID : ResourceTree :=
  { Nodes := [res "1" "Deployment" "a" "Healthy" [], res "2" "Deployment" "b" "Healthy" [],
              res "3" "Pod" "p" "Healthy" ["1"], res "3" "Pod" "p" "Healthy" ["2"]] }

/-- A snapshot with a Deployment over a ReplicaSet and, beside them, two Pods
that name each other as parent. -/
def cycleBeside : ResourceTree :=
  { Nodes := [res "1" "Deployment" "web" "Healthy" [],
              res "2" "ReplicaSet" "web-1" "Healthy" ["1"],
              res "3" "Pod" "a" "Healthy" ["4"], res "4" "Pod" "b" "Healthy" ["3"]] }

/-- A snapshot whose Pod reports the health `MISSING` written with the dotted
capital I (U+0130), beside a ConfigMap named `Ecole` with a capital E acute
(U+00C9). -/
def dottedMissing : ResourceTree :=
  { Nodes := [res "1" "Pod" "r1" "M\u0130SSING" [],
              res "2" "ConfigMap" "\u00c9cole" "Healthy" []] }

/-- The view of `dottedMissing` upserted as `demo` (rows: root, ConfigMap,
Pod), the cursor on the Pod. -/
def dottedView : TreeView :=
  (get (TreeView.UpsertAppTree (TreeView.NewTreeView 80 24) "demo"
    dottedMissing)).SetSelectedIndex 2

end Examples

end Argonaut

namespace Argonaut

/-! ## Lemmas on Go maps -/

section GoMapLemmas

variable {ν : Type}

theorem mapGet_mapSet_self (m : GoMap ν) (k : String) (x : ν) :
    mapGet (mapSet m k x) k = some x := by
  induction m with
  | nil => simp [mapSet, mapGet]
  | cons e m ih =>
    obtain ⟨k', x'⟩ := e
    by_cases h : k' = k
    · simp [mapSet, mapGet, h]
    · simp [mapSet, mapGet, h, ih]

theorem mapGet_mapSet_ne (m : GoMap ν) (k k' : String) (x : ν) (h : k' ≠ k) :
    mapGet (mapSet m k x) k' = mapGet m k' := by
  induction m with
  | nil => simp [mapSet, mapGet, Ne.symm h]
  | cons e m ih =>
    obtain ⟨k'', x''⟩ := e
    by_cases h1 : k'' = k
    · subst h1
      simp [mapSet, mapGet, Ne.symm h]
    · by_cases h2 : k'' = k'
      · subst h2
        simp [mapSet, mapGet, h1]
      · simp [mapSet, mapGet, h1, h2, ih]

theorem mapGet_mapDelete_self (m : GoMap ν) (k : String) :
    mapGet (mapDelete m k) k = none := by
  induction m with
  | nil => simp [mapDelete, mapGet]
  | cons e m ih =>
    obtain ⟨k', x'⟩ := e
    by_cases h : k' = k
    · simpa [mapDelete, List.filter, h] using ih
    · simpa [mapDelete, List.filter, h, mapGet] using ih

theorem mapGet_mapDelete_ne (m : GoMap ν) (k k' : String) (h : k' ≠ k) :
    mapGet (mapDelete m k) k' = mapGet m k' := by
  induction m with
  | nil => simp [mapDelete, mapGet]
  | cons e m ih =>
    obtain ⟨k'', x''⟩ := e
    by_cases h1 : k'' = k
    · subst h1
      have : ¬ k'' = k' := fun e => h e.symm
      simpa [mapDelete, List.filter, mapGet, this] using ih
    · by_cases h2 : k'' = k'
      · subst h2
        simp [mapDelete, List.filter, h1, mapGet]
      · simpa [mapDelete, List.filter, h1, mapGet, h2] using ih

end GoMapLemmas

/-! ## Selection -/

theorem selectionOf_IsMissing (v : TreeView) (uid : String) (n : treeNode) :
    (v.selectionOf uid n).IsMissing = TreeView.nodeIsMissing n := rfl

/-- With no explicit selection and a Missing node under the cursor, every
resource `GetSelectedResources` returns is Missing. -/
theorem filter_valid_eq_nil_of_cursor_missing (tv : TreeView)
    (hsel : tv.HasSelection = false) (hmiss : tv.CurrentResourceIsMissing = true) :
    tv.GetSelectedResources.filter (fun sel => !sel.IsMissing) = [] := by
  have hlen : ¬ tv.selectedUIDs.length > 0 := by
    simpa [TreeView.HasSelection] using hsel
  unfold TreeView.CurrentResourceIsMissing at hmiss
  by_cases hr : tv.selIdx < 0 ∨ tv.selIdx ≥ tv.order.length
  · simp [hr] at hmiss
  · rw [if_neg hr] at hmiss
    have hr' : 0 ≤ tv.selIdx ∧ tv.selIdx < tv.order.length := by
      constructor <;> [exact not_lt.mp (fun h => hr (Or.inl h)); exact not_le.mp (fun h => hr (Or.inr h))]
    unfold TreeView.GetSelectedResources
    rw [if_neg hlen, if_pos hr']
    by_cases hk : (tv.node (tv.orderAt tv.selIdx)).kind = "Application"
    · simp [hk]
    · simp [hk, selectionOf_IsMissing, hmiss]

end Argonaut

namespace Argonaut

/-- The resources `handleResourceDelete` keeps: the selected ones that are not Missing. -/
theorem mem_valid_iff (tv : TreeView) (r : ResourceSelection) :
    r ∈ tv.GetSelectedResources.filter (fun sel => !sel.IsMissing) ↔
      r ∈ tv.GetSelectedResources ∧ r.IsMissing = false := by
  simp [List.mem_filter]

theorem handleResourceDelete_of_valid_nil (m : Model) (tv : TreeView)
    (hview : m.state.Navigation.View = View.Tree) (htv : m.treeView = some tv)
    (h : tv.GetSelectedResources.filter (fun sel => !sel.IsMissing) = []) :
    m.handleResourceDelete = (m, []) := by
  unfold Model.handleResourceDelete
  simp only [hview, htv, ne_eq, not_true_eq_false, if_false]
  split
  · rfl
  · split
    · rfl
    · simp [h]

theorem handleResourceDelete_of_valid_ne_nil (m : Model) (tv : TreeView)
    (hview : m.state.Navigation.View = View.Tree) (htv : m.treeView = some tv)
    (h : tv.GetSelectedResources.filter (fun sel => !sel.IsMissing) ≠ []) :
    m.handleResourceDelete =
      ({ m with state := { m.state with
          Mode := Mode.ConfirmResourceDelete,
          Modals := { m.state.Modals with
            ResourceDeleteAppName := some
              (match (tv.GetSelectedResources.filter (fun sel => !sel.IsMissing)).map toDeleteTarget with
                | t :: _ => t.AppName
                | [] => tv.GetAppName),
            ResourceDeleteAppNamespace := none,
            ResourceDeleteTargets :=
              (tv.GetSelectedResources.filter (fun sel => !sel.IsMissing)).map toDeleteTarget,
            ResourceDeleteConfirmationKey := "",
            ResourceDeleteError := none,
            ResourceDeleteLoading := false,
            ResourceDeleteCascade := true,
            ResourceDeletePropagationPolicy := "foreground",
            ResourceDeleteForce := false } } }, []) := by
  have hearly : ¬ ((!tv.HasSelection && tv.CurrentResourceIsMissing) = true) := by
    intro hc
    simp only [Bool.and_eq_true, Bool.not_eq_true'] at hc
    exact h (filter_valid_eq_nil_of_cursor_missing tv hc.1 hc.2)
  have hsel : ¬ tv.GetSelectedResources.length = 0 := by
    intro hc
    have : tv.GetSelectedResources = [] := List.length_eq_zero.mp hc
    rw [this] at h
    exact h rfl
  have hval : ¬ (tv.GetSelectedResources.filter (fun sel => !sel.IsMissing)).length = 0 := by
    intro hc
    exact h (List.length_eq_zero.mp hc)
  unfold Model.handleResourceDelete
  simp only [hview, htv, ne_eq, not_true_eq_false, if_false]
  rw [if_neg hearly, if_neg hsel, if_neg hval]

end Argonaut

namespace Argonaut

/-- C1. `handleResourceDelete` in Tree view: when some resource returned by
`GetSelectedResources()` is not Missing, the mode becomes ConfirmResourceDelete,
`ResourceDeleteTargets` is exactly the list of non-Missing selected resources
(field by field, no Missing entry), cascade is true, the policy is "foreground",
force is false, and with no explicit selection the cursor node is not Missing;
when no such resource exists the model is unchanged.  Hence the mode becomes
ConfirmResourceDelete if and only if a non-Missing selected resource exists.
No command is returned. -/
theorem handleResourceDelete_spec (m : Model) (tv : TreeView)
    (hview : m.state.Navigation.View = View.Tree) (htv : m.treeView = some tv) :
    ((∃ r ∈ tv.GetSelectedResources, r.IsMissing = false) →
        m.handleResourceDelete.1.state.Mode = Mode.ConfirmResourceDelete ∧
        m.handleResourceDelete.1.state.Modals.ResourceDeleteTargets =
          (tv.GetSelectedResources.filter (fun sel => !sel.IsMissing)).map toDeleteTarget ∧
        (∀ t ∈ m.handleResourceDelete.1.state.Modals.ResourceDeleteTargets,
          ∃ r ∈ tv.GetSelectedResources, r.IsMissing = false ∧ t = toDeleteTarget r) ∧
        m.handleResourceDelete.1.state.Modals.ResourceDeleteCascade = true ∧
        m.handleResourceDelete.1.state.Modals.ResourceDeletePropagationPolicy = "foreground" ∧
        m.handleResourceDelete.1.state.Modals.ResourceDeleteForce = false ∧
        (tv.HasSelection = false → tv.CurrentResourceIsMissing = false)) ∧
    ((¬ ∃ r ∈ tv.GetSelectedResources, r.IsMissing = false) →
        m.handleResourceDelete.1 = m) ∧
    (m.state.Mode ≠ Mode.ConfirmResourceDelete →
        (m.handleResourceDelete.1.state.Mode = Mode.ConfirmResourceDelete ↔
          ∃ r ∈ tv.GetSelectedResources, r.IsMissing = false)) ∧
    m.handleResourceDelete.2 = [] := by
  have hne_of : (∃ r ∈ tv.GetSelectedResources, r.IsMissing = false) →
      tv.GetSelectedResources.filter (fun sel => !sel.IsMissing) ≠ [] := by
    rintro ⟨r, hr, hm⟩ hnil
    have : r ∈ tv.GetSelectedResources.filter (fun sel => !sel.IsMissing) :=
      (mem_valid_iff tv r).2 ⟨hr, hm⟩
    rw [hnil] at this
    exact List.not_mem_nil _ this
  have hnil_of : (¬ ∃ r ∈ tv.GetSelectedResources, r.IsMissing = false) →
      tv.GetSelectedResources.filter (fun sel => !sel.IsMissing) = [] := by
    intro hno
    apply List.eq_nil_iff_forall_not_mem.2
    intro r hr
    exact hno ⟨r, ((mem_valid_iff tv r).1 hr).1, ((mem_valid_iff tv r).1 hr).2⟩
  have hpos : (∃ r ∈ tv.GetSelectedResources, r.IsMissing = false) →
      m.handleResourceDelete.1.state.Mode = Mode.ConfirmResourceDelete := by
    intro hex
    rw [handleResourceDelete_of_valid_ne_nil m tv hview htv (hne_of hex)]
  refine ⟨?_, ?_, ?_, ?_⟩
  · intro hex
    have hne := hne_of hex
    refine ⟨hpos hex, ?_, ?_, ?_, ?_, ?_, ?_⟩
    · rw [handleResourceDelete_of_valid_ne_nil m tv hview htv hne]
    · rw [handleResourceDelete_of_valid_ne_nil m tv hview htv hne]
      intro t ht
      obtain ⟨r, hr, rfl⟩ := List.mem_map.1 ht
      exact ⟨r, ((mem_valid_iff tv r).1 hr).1, ((mem_valid_iff tv r).1 hr).2, rfl⟩
    · rw [handleResourceDelete_of_valid_ne_nil m tv hview htv hne]
    · rw [handleResourceDelete_of_valid_ne_nil m tv hview htv hne]
    · rw [handleResourceDelete_of_valid_ne_nil m tv hview htv hne]
    · intro hsel
      by_contra hmiss
      exact hne (filter_valid_eq_nil_of_cursor_missing tv hsel (by simpa using hmiss))
  · intro hno
    rw [handleResourceDelete_of_valid_nil m tv hview htv (hnil_of hno)]
  · intro hmode
    constructor
    · intro hres
      by_contra hno
      rw [handleResourceDelete_of_valid_nil m tv hview htv (hnil_of hno)] at hres
      exact hmode hres
    · exact hpos
  · by_cases hex : ∃ r ∈ tv.GetSelectedResources, r.IsMissing = false
    · rw [handleResourceDelete_of_valid_ne_nil m tv hview htv (hne_of hex)]
    · rw [handleResourceDelete_of_valid_nil m tv hview htv (hnil_of hex)]

/-- Witness for C1 on scenario 3 of the specification: after `Space` on `R1`,
`R2` (Missing, refused) and `R3`, `Ctrl+D` opens the confirmation for exactly
`R1` and `R3`. -/
theorem handleResourceDelete_spec_witness :
    (Examples.treeModel Examples.threeSelected).state.Navigation.View = View.Tree ∧
    (Examples.treeModel Examples.threeSelected).treeView = some Examples.threeSelected ∧
    (Examples.treeModel Examples.threeSelected).handleResourceDelete.1.state.Mode =
      Mode.ConfirmResourceDelete ∧
    ((Examples.treeModel Examples.threeSelected).handleResourceDelete.1.state.Modals.ResourceDeleteTargets).map
      (fun t => t.Name) = ["r1", "r3"] :=
  ⟨rfl, rfl,
    ((handleResourceDelete_spec (Examples.treeModel Examples.threeSelected) Examples.threeSelected
      rfl rfl).1 ⟨Examples.threeSelected.selectionOf "demo::1"
        (Examples.threeSelected.node 0), by decide, by decide⟩).1,
    by decide⟩

/-- C2. `ToggleSelection`: if the cursor is out of range, or the cursor node has
kind "Application", or its status or health is "missing" once lower-cased and
trimmed, the call returns false and changes nothing; otherwise it returns true,
flips the membership of the cursor node's UID in the selected set and leaves the
membership of every other UID as it was. -/
theorem ToggleSelection_spec (v : TreeView) :
    ((v.selIdx < 0 ∨ v.selIdx ≥ v.order.length ∨
        (v.node (v.orderAt v.selIdx)).kind = "Application" ∨
        TrimSpace (ToLower (v.node (v.orderAt v.selIdx)).status) = "missing" ∨
        TrimSpace (ToLower (v.node (v.orderAt v.selIdx)).health) = "missing") →
      v.ToggleSelection.2 = false ∧ v.ToggleSelection.1.selectedUIDs = v.selectedUIDs ∧
        v.ToggleSelection.1 = v) ∧
    (¬ (v.selIdx < 0 ∨ v.selIdx ≥ v.order.length ∨
        (v.node (v.orderAt v.selIdx)).kind = "Application" ∨
        TrimSpace (ToLower (v.node (v.orderAt v.selIdx)).status) = "missing" ∨
        TrimSpace (ToLower (v.node (v.orderAt v.selIdx)).health) = "missing") →
      v.ToggleSelection.2 = true ∧
      mapGetBool v.ToggleSelection.1.selectedUIDs (v.node (v.orderAt v.selIdx)).uid =
        !mapGetBool v.selectedUIDs (v.node (v.orderAt v.selIdx)).uid ∧
      (∀ u, u ≠ (v.node (v.orderAt v.selIdx)).uid →
        mapGet v.ToggleSelection.1.selectedUIDs u = mapGet v.selectedUIDs u)) := by
  have hmiss : TreeView.nodeIsMissing (v.node (v.orderAt v.selIdx)) = true ↔
      (TrimSpace (ToLower (v.node (v.orderAt v.selIdx)).status) = "missing" ∨
       TrimSpace (ToLower (v.node (v.orderAt v.selIdx)).health) = "missing") := by
    simp [TreeView.nodeIsMissing]
  constructor
  · intro h
    have : v.ToggleSelection = (v, false) := by
      unfold TreeView.ToggleSelection
      by_cases hr : v.selIdx < 0 ∨ v.selIdx ≥ v.order.length
      · rw [if_pos hr]
      · rw [if_neg hr]
        by_cases hk : (v.node (v.orderAt v.selIdx)).kind = "Application"
        · simp only [hk, if_true]
        · have hm : TreeView.nodeIsMissing (v.node (v.orderAt v.selIdx)) = true := by
            rw [hmiss]
            rcases h with h | h | h | h | h
            · exact absurd (Or.inl h) hr
            · exact absurd (Or.inr h) hr
            · exact absurd h hk
            · exact Or.inl h
            · exact Or.inr h
          simp only [hk, if_false, hm, if_true]
    rw [this]
    exact ⟨rfl, rfl, rfl⟩
  · intro h
    have hr : ¬ (v.selIdx < 0 ∨ v.selIdx ≥ v.order.length) := by
      rintro (h1 | h1)
      · exact h (Or.inl h1)
      · exact h (Or.inr (Or.inl h1))
    have hk : ¬ (v.node (v.orderAt v.selIdx)).kind = "Application" :=
      fun hk => h (Or.inr (Or.inr (Or.inl hk)))
    have hm : ¬ TreeView.nodeIsMissing (v.node (v.orderAt v.selIdx)) = true := by
      rw [hmiss]
      rintro (h1 | h1)
      · exact h (Or.inr (Or.inr (Or.inr (Or.inl h1))))
      · exact h (Or.inr (Or.inr (Or.inr (Or.inr h1))))
    by_cases hs : mapGetBool v.selectedUIDs (v.node (v.orderAt v.selIdx)).uid = true
    · have : v.ToggleSelection =
          ({ v with
              selectedUIDs := mapDelete v.selectedUIDs (v.node (v.orderAt v.selIdx)).uid },
            true) := by
        unfold TreeView.ToggleSelection
        rw [if_neg hr]
        simp [hk, hm, hs]
      rw [this]
      refine ⟨rfl, ?_, ?_⟩
      · rw [hs]
        simp [mapGetBool, mapGet_mapDelete_self]
      · intro u hu
        exact mapGet_mapDelete_ne _ _ _ hu
    · have : v.ToggleSelection =
          ({ v with
              selectedUIDs := mapSet v.selectedUIDs (v.node (v.orderAt v.selIdx)).uid true },
            true) := by
        unfold TreeView.ToggleSelection
        rw [if_neg hr]
        simp [hk, hm, hs]
      rw [this]
      refine ⟨rfl, ?_, ?_⟩
      · simp only [Bool.not_eq_true] at hs
        rw [hs]
        simp [mapGetBool, mapGet_mapSet_self]
      · intro u hu
        exact mapGet_mapSet_ne _ _ _ _ hu

end Argonaut

namespace Argonaut

theorem mem_of_mapGet {ν : Type} (m : GoMap ν) (k : String) (x : ν)
    (h : mapGet m k = some x) : (k, x) ∈ m := by
  induction m with
  | nil => simp [mapGet] at h
  | cons e m ih =>
    obtain ⟨k', x'⟩ := e
    by_cases hk : k' = k
    · subst hk
      simp [mapGet] at h
      simp [h]
    · simp [mapGet, hk] at h
      exact List.mem_cons_of_mem _ (ih h)

theorem GetSelectedResources_of_selection (v : TreeView) (h : v.selectedUIDs ≠ []) :
    v.GetSelectedResources = v.selectedUIDs.filterMap v.selectedEntry := by
  have hl : v.selectedUIDs.length > 0 := List.length_pos.2 h
  unfold TreeView.GetSelectedResources
  rw [if_pos hl]

theorem GetSelectedResources_of_no_selection (v : TreeView) (h : v.selectedUIDs = []) :
    v.GetSelectedResources =
      if 0 ≤ v.selIdx ∧ v.selIdx < v.order.length then
        (if (v.node (v.orderAt v.selIdx)).kind ≠ "Application" then
          [v.selectionOf (v.node (v.orderAt v.selIdx)).uid (v.node (v.orderAt v.selIdx))]
        else [])
      else [] := by
  unfold TreeView.GetSelectedResources
  simp [h]

end Argonaut

namespace Argonaut

/-- C3 fails as stated: in a state reached by upserting `R1`, selecting it and
upserting an empty snapshot, one resource is explicitly selected
(`SelectionCount() = 1`) and `GetSelectedResources()` is empty. -/
theorem GetSelectedResources_stale_counterexample :
    Examples.staleSelection.map
        (fun v => (v.HasSelection, v.SelectionCount, v.GetSelectedResources.length)) =
      some (true, 1, 0) := by
  decide

/-- C3, amended. `GetSelectedResources`: when at least one UID is explicitly
selected it returns one entry for each selected UID that is still in the node
index, in the order of the selected set and skipping the selected UIDs whose
node is gone, so its length is at most `SelectionCount()` and equals it when
every selected UID is indexed; when nothing is selected it returns exactly the
cursor node, unless the cursor is out of range or on a node of kind
"Application", in which case it returns the empty list. -/
theorem GetSelectedResources_spec (v : TreeView) :
    (v.selectedUIDs ≠ [] →
      v.GetSelectedResources = v.selectedUIDs.filterMap v.selectedEntry ∧
      (∀ r, r ∈ v.GetSelectedResources ↔
        ∃ e ∈ v.selectedUIDs, ∃ p, mapGet v.nodesByUID e.1 = some p ∧
          r = v.selectionOf e.1 (v.node p)) ∧
      (v.GetSelectedResources.length : Int) ≤ v.SelectionCount ∧
      ((∀ e ∈ v.selectedUIDs, mapGet v.nodesByUID e.1 ≠ none) →
        (v.GetSelectedResources.length : Int) = v.SelectionCount)) ∧
    (v.selectedUIDs = [] →
      ((0 ≤ v.selIdx ∧ v.selIdx < v.order.length ∧
          (v.node (v.orderAt v.selIdx)).kind ≠ "Application") →
        v.GetSelectedResources =
          [v.selectionOf (v.node (v.orderAt v.selIdx)).uid (v.node (v.orderAt v.selIdx))]) ∧
      (¬ (0 ≤ v.selIdx ∧ v.selIdx < v.order.length ∧
          (v.node (v.orderAt v.selIdx)).kind ≠ "Application") →
        v.GetSelectedResources = [])) := by
  constructor
  · intro h
    rw [GetSelectedResources_of_selection v h]
    refine ⟨rfl, ?_, ?_, ?_⟩
    · intro r
      rw [List.mem_filterMap]
      constructor
      · rintro ⟨e, he, hr⟩
        unfold TreeView.selectedEntry at hr
        cases hp : mapGet v.nodesByUID e.1 with
        | none => rw [hp] at hr; cases hr
        | some p =>
          rw [hp] at hr
          exact ⟨e, he, p, hp, (Option.some.inj hr).symm⟩
      · rintro ⟨e, he, p, hp, hr⟩
        refine ⟨e, he, ?_⟩
        unfold TreeView.selectedEntry
        rw [hp, hr]
    · have := List.length_filterMap_le v.selectedEntry v.selectedUIDs
      simp only [TreeView.SelectionCount]
      exact_mod_cast this
    · intro hall
      simp only [TreeView.SelectionCount]
      have : (v.selectedUIDs.filterMap v.selectedEntry).length = v.selectedUIDs.length := by
        generalize v.selectedUIDs = l at hall
        induction l with
        | nil => rfl
        | cons e l ih =>
          have he := hall e (List.mem_cons_self _ _)
          cases hp : mapGet v.nodesByUID e.1 with
          | none => exact absurd hp he
          | some p =>
            have : v.selectedEntry e = some (v.selectionOf e.1 (v.node p)) := by
              unfold TreeView.selectedEntry
              rw [hp]
            rw [List.filterMap_cons_some this, List.length_cons, List.length_cons,
              ih (fun e' he' => hall e' (List.mem_cons_of_mem _ he'))]
      exact_mod_cast this
  · intro h
    rw [GetSelectedResources_of_no_selection v h]
    constructor
    · rintro ⟨h0, h1, hk⟩
      rw [if_pos ⟨h0, h1⟩, if_pos hk]
    · intro hn
      by_cases hr : 0 ≤ v.selIdx ∧ v.selIdx < v.order.length
      · rw [if_pos hr]
        have hk : ¬ (v.node (v.orderAt v.selIdx)).kind ≠ "Application" :=
          fun hk => hn ⟨hr.1, hr.2, hk⟩
        rw [if_neg hk]
      · rw [if_neg hr]

end Argonaut

namespace Argonaut

theorem appObjFor_Name (apps : List App) (name : String) :
    (Model.appObjFor apps name).Name = name := by
  unfold Model.appObjFor
  cases h : apps.find? (fun a => decide (a.Name = name)) with
  | none => rfl
  | some a =>
    have := List.find?_some h
    simpa using this

theorem openTreeView_View (env : Env) (m : Model) (t : Option String) :
    (Model.openTreeView env m t).state.Navigation.View = View.Tree := rfl

theorem openTreeView_TreeAppName (env : Env) (m : Model) (t : Option String) :
    (Model.openTreeView env m t).state.UI.TreeAppName = t := rfl

theorem loadedApp_flatMap (apps : List App) (names : List String) :
    ((names.flatMap (fun name =>
        [Cmd.startLoadingResourceTree (Model.appObjFor apps name),
         Cmd.startWatchingResourceTree (Model.appObjFor apps name)])) ++
      [Cmd.consumeTreeEvent]).filterMap Cmd.loadedApp = names := by
  induction names with
  | nil => rfl
  | cons n ns ih =>
    simp only [List.flatMap_cons, List.cons_append, List.nil_append, List.append_assoc]
    simp only [List.filterMap_cons, Cmd.loadedApp, appObjFor_Name]
    rw [ih]

theorem watchedApp_flatMap (apps : List App) (names : List String) :
    ((names.flatMap (fun name =>
        [Cmd.startLoadingResourceTree (Model.appObjFor apps name),
         Cmd.startWatchingResourceTree (Model.appObjFor apps name)])) ++
      [Cmd.consumeTreeEvent]).filterMap Cmd.watchedApp = names := by
  induction names with
  | nil => rfl
  | cons n ns ih =>
    simp only [List.flatMap_cons, List.cons_append, List.nil_append, List.append_assoc]
    simp only [List.filterMap_cons, Cmd.watchedApp, appObjFor_Name]
    rw [ih]

/-- C4, the code at the failing input: in the Apps view listing `x` and `y`,
with the single app `y` checked and the cursor on `x`,
`handleOpenResourcesForSelection` opens the tree view for `x`: the view becomes
Tree, `TreeAppName` is `x` and the tree of `x` is loaded, where the claim (and
the sibling handlers, which take the single checked app) asks for `y`. -/
theorem handleOpenResourcesForSelection_single_checked :
    Examples.oneChecked.state.Navigation.View = View.Apps ∧
    Examples.oneChecked.checkedApps = ["y"] ∧
    Examples.oneChecked.state.Navigation.SelectedIdx = 0 ∧
    (Model.handleOpenResourcesForSelection
        (Examples.envOf [Item.app (Examples.appNamed "x"), Item.app (Examples.appNamed "y")])
        Examples.oneChecked).map
      (fun r => (r.1.state.Navigation.View, r.1.state.UI.TreeAppName,
        r.2.filterMap Cmd.loadedApp)) =
      some (View.Tree, some "x", ["x"]) := by
  decide

/-- The branches of `handleOpenResourcesForSelection` as the code has them:
the branch of the checked apps is taken when two or more apps are checked;
with at most one app checked the handler goes to the app under the cursor, or
reports that no app is selected when the cursor is on none. -/
theorem handleOpenResourcesForSelection_branches (env : Env) (m : Model) :
    (1 < m.checkedApps.length →
      ∃ m' cmds, Model.handleOpenResourcesForSelection env m = some (m', cmds) ∧
        m'.state.Navigation.View = View.Tree ∧ m'.state.UI.TreeAppName = none ∧
        cmds.filterMap Cmd.loadedApp = m.checkedApps ∧
        cmds.filterMap Cmd.watchedApp = m.checkedApps) ∧
    (m.checkedApps.length ≤ 1 →
      ∀ app, 0 ≤ m.state.Navigation.SelectedIdx →
        m.state.Navigation.SelectedIdx < (env.getVisibleItems m).length →
        (env.getVisibleItems m).getD m.state.Navigation.SelectedIdx.toNat default = Item.app app →
        ∃ m', Model.handleOpenResourcesForSelection env m =
            some (m', [Cmd.startLoadingResourceTree app, Cmd.startWatchingResourceTree app,
              Cmd.consumeTreeEvent]) ∧
          m'.state.Navigation.View = View.Tree ∧ m'.state.UI.TreeAppName = some app.Name) ∧
    (m.checkedApps.length ≤ 1 →
      ((env.getVisibleItems m).length = 0 ∨
        m.state.Navigation.SelectedIdx ≥ (env.getVisibleItems m).length) →
      Model.handleOpenResourcesForSelection env m =
        some (m, [Cmd.statusChange "No app selected for resources"])) := by
  refine ⟨?_, ?_, ?_⟩
  · intro h
    refine ⟨Model.openTreeView env m none,
      (m.checkedApps.flatMap (fun name =>
        [Cmd.startLoadingResourceTree
            (Model.appObjFor (Model.openTreeView env m none).state.Apps name),
         Cmd.startWatchingResourceTree
            (Model.appObjFor (Model.openTreeView env m none).state.Apps name)])) ++
        [Cmd.consumeTreeEvent], ?_, rfl, rfl, ?_, ?_⟩
    · unfold Model.handleOpenResourcesForSelection
      simp only [gt_iff_lt, h, if_true]
    · exact loadedApp_flatMap _ _
    · exact watchedApp_flatMap _ _
  · intro h app h0 h1 hitem
    have hn : ¬ m.checkedApps.length > 1 := not_lt.mpr h
    have hr : ¬ ((env.getVisibleItems m).length = 0 ∨
        m.state.Navigation.SelectedIdx ≥ (env.getVisibleItems m).length) := by
      rintro (hz | hge)
      · rw [hz] at h1
        exact absurd h0 (not_le.mpr (by exact_mod_cast h1))
      · exact absurd h1 (not_lt.mpr hge)
    refine ⟨Model.openTreeView env m (some app.Name), ?_, rfl, rfl⟩
    unfold Model.handleOpenResourcesForSelection
    simp only [hn, if_false, hr, not_lt.mpr h0, hitem]
  · intro h hr
    have hn : ¬ m.checkedApps.length > 1 := not_lt.mpr h
    unfold Model.handleOpenResourcesForSelection
    simp only [hn, if_false, hr, if_true]

/-- C5, the code at the failing input: in an overlay of the applications `x`
and `y` (metadata and tree of `x` delivered first) nothing is selected and the
cursor is on the synthetic Application root of `x`, yet `handleResourceSync`
enters ConfirmSync with `ConfirmTarget` `y`. -/
theorem handleResourceSync_overlay_target :
    Examples.overlay.selectedUIDs = [] ∧
    (Examples.overlay.node (Examples.overlay.orderAt Examples.overlay.selIdx)).kind =
      "Application" ∧
    (Examples.overlay.node (Examples.overlay.orderAt Examples.overlay.selIdx)).name = "x" ∧
    (Examples.treeModel Examples.overlay).handleResourceSync.1.state.Mode = Mode.ConfirmSync ∧
    (Examples.treeModel Examples.overlay).handleResourceSync.1.state.Modals.ConfirmSyncSelected = 0 ∧
    (Examples.treeModel Examples.overlay).handleResourceSync.1.state.Modals.ConfirmTarget =
      some "y" := by
  decide

/-- C6, the code at two failing inputs: after a filter whose only match is the
third row, a collapse of the root and `NextMatch`, the tree shows one row and
`SelectedIndex()` is 2; and on a fresh, empty view `SetSelectedIndex(5)` leaves
`SelectedIndex()` at 5 with `VisibleCount()` 0. -/
theorem cursor_out_of_range :
    Examples.staleMatch.map (fun v => (v.SelectedIndex, v.VisibleCount)) = some (2, 1) ∧
    ((TreeView.NewTreeView 80 24).SetSelectedIndex 5).SelectedIndex = 5 ∧
    ((TreeView.NewTreeView 80 24).SetSelectedIndex 5).VisibleCount = 0 := by
  decide

end Argonaut

namespace Argonaut

/-! ## `rebuildOrder` and the parts of the view `UpsertAppTree` leaves alone -/

theorem clampSelection_selIdx (v : TreeView) :
    (TreeView.clampSelection v).selIdx =
      if v.selIdx ≥ v.order.length then max 0 ((v.order.length : Int) - 1) else v.selIdx := by
  unfold TreeView.clampSelection
  by_cases h : v.selIdx ≥ v.order.length
  · simp only [h, if_true]
    split <;> rfl
  · simp only [h, if_false]
    split <;> rfl

theorem clampSelection_order (v : TreeView) :
    (TreeView.clampSelection v).order = v.order := by
  unfold TreeView.clampSelection
  by_cases h : v.selIdx ≥ v.order.length
  · simp only [h, if_true]
    split <;> rfl
  · simp only [h, if_false]
    split <;> rfl

theorem clampSelection_heap (v : TreeView) :
    (TreeView.clampSelection v).heap = v.heap := by
  unfold TreeView.clampSelection
  by_cases h : v.selIdx ≥ v.order.length
  · simp only [h, if_true]
    split <;> rfl
  · simp only [h, if_false]
    split <;> rfl

theorem clampSelection_selectedUIDs (v : TreeView) :
    (TreeView.clampSelection v).selectedUIDs = v.selectedUIDs := by
  unfold TreeView.clampSelection
  by_cases h : v.selIdx ≥ v.order.length
  · simp only [h, if_true]
    split <;> rfl
  · simp only [h, if_false]
    split <;> rfl

theorem clampSelection_nodesByUID (v : TreeView) :
    (TreeView.clampSelection v).nodesByUID = v.nodesByUID := by
  unfold TreeView.clampSelection
  by_cases h : v.selIdx ≥ v.order.length
  · simp only [h, if_true]
    split <;> rfl
  · simp only [h, if_false]
    split <;> rfl

theorem clampSelection_SelectedUID (v : TreeView)
    (h : 0 ≤ (TreeView.clampSelection v).selIdx ∧
      (TreeView.clampSelection v).selIdx < (TreeView.clampSelection v).order.length) :
    (TreeView.clampSelection v).SelectedUID =
      ((TreeView.clampSelection v).node
        ((TreeView.clampSelection v).orderAt (TreeView.clampSelection v).selIdx)).uid := by
  have hi := clampSelection_selIdx v
  have ho := clampSelection_order v
  rw [hi, ho] at h
  unfold TreeView.clampSelection
  by_cases hc : v.selIdx ≥ v.order.length
  · simp only [hc, if_true] at h ⊢
    have h' : max 0 ((v.order.length : Int) - 1) ≥ 0 ∧
        max 0 ((v.order.length : Int) - 1) < v.order.length := ⟨h.1, h.2⟩
    simp only [h', and_self, if_true]
    rfl
  · simp only [hc, if_false] at h ⊢
    have h' : v.selIdx ≥ 0 ∧ v.selIdx < v.order.length := ⟨h.1, h.2⟩
    simp only [h', and_self, if_true]
    rfl

theorem rebuildOrder_eq_some (v v' : TreeView) (h : TreeView.rebuildOrder v = some v') :
    ∃ order, TreeView.walkRoots v = some order ∧
      v' = TreeView.clampSelection { v with order := order } := by
  unfold TreeView.rebuildOrder at h
  cases hw : TreeView.walkRoots v with
  | none => rw [hw] at h; cases h
  | some order =>
    rw [hw] at h
    exact ⟨order, rfl, (Option.some.inj h).symm⟩

/-- What `rebuildOrder` does when it returns: the order is the walk of the
roots, the cursor is clamped, `SelectedUID` follows the cursor, and the heap,
the maps and the selection are untouched. -/
theorem rebuildOrder_spec (v v' : TreeView) (h : TreeView.rebuildOrder v = some v') :
    TreeView.walkRoots v = some v'.order ∧
    v'.selIdx = (if v.selIdx ≥ v'.order.length then max 0 ((v'.order.length : Int) - 1)
      else v.selIdx) ∧
    ((0 ≤ v'.selIdx ∧ v'.selIdx < v'.order.length) →
      v'.SelectedUID = (v'.node (v'.orderAt v'.selIdx)).uid) ∧
    v'.heap = v.heap ∧ v'.nodesByUID = v.nodesByUID ∧ v'.selectedUIDs = v.selectedUIDs := by
  obtain ⟨order, hw, hv'⟩ := rebuildOrder_eq_some v v' h
  have hsel : ({ v with order := order } : TreeView).selIdx = v.selIdx := rfl
  have hord : ({ v with order := order } : TreeView).order = order := rfl
  have hheap : ({ v with order := order } : TreeView).heap = v.heap := rfl
  have hidx : ({ v with order := order } : TreeView).nodesByUID = v.nodesByUID := rfl
  have hsu : ({ v with order := order } : TreeView).selectedUIDs = v.selectedUIDs := rfl
  generalize ({ v with order := order } : TreeView) = w at hv' hsel hord hheap hidx hsu
  subst hv'
  refine ⟨?_, ?_, ?_, ?_, ?_, ?_⟩
  · rw [clampSelection_order, hord]
    exact hw
  · rw [clampSelection_selIdx, clampSelection_order, hsel]
  · exact clampSelection_SelectedUID w
  · rw [clampSelection_heap, hheap]
  · rw [clampSelection_nodesByUID, hidx]
  · rw [clampSelection_selectedUIDs, hsu]

theorem removeApp_selectedUIDs (v : TreeView) (appName : String) :
    (v.removeApp appName).selectedUIDs = v.selectedUIDs := by
  unfold TreeView.removeApp
  cases mapGet v.nodesByApp appName <;> simp only <;> split <;> rfl

theorem removeApp_selIdx (v : TreeView) (appName : String) :
    (v.removeApp appName).selIdx = v.selIdx := by
  unfold TreeView.removeApp
  cases mapGet v.nodesByApp appName <;> simp only <;> split <;> rfl

theorem removeApp_heap (v : TreeView) (appName : String) :
    (v.removeApp appName).heap = v.heap := by
  unfold TreeView.removeApp
  cases mapGet v.nodesByApp appName <;> simp only <;> split <;> rfl

theorem upsertCore_selectedUIDs (v : TreeView) (appName : String) (tree : ResourceTree) :
    (v.upsertCore appName tree).selectedUIDs = v.selectedUIDs :=
  removeApp_selectedUIDs v appName

theorem upsertCore_selIdx (v : TreeView) (appName : String) (tree : ResourceTree) :
    (v.upsertCore appName tree).selIdx = v.selIdx :=
  removeApp_selIdx v appName

theorem UpsertAppTree_selectedUIDs (v v' : TreeView) (appName : String) (tree : ResourceTree)
    (h : v.UpsertAppTree appName tree = some v') : v'.selectedUIDs = v.selectedUIDs := by
  rw [(rebuildOrder_spec _ _ h).2.2.2.2.2]
  exact upsertCore_selectedUIDs v appName tree

/-! ## What the walk visits -/

theorem walk_head (v : TreeView) (fuel : Nat) (n : Nat) (l : List Nat)
    (h : TreeView.walk v fuel n = some l) : ∃ t, l = n :: t := by
  cases fuel with
  | zero => simp [TreeView.walk] at h
  | succ fuel =>
    unfold TreeView.walk at h
    split at h
    · cases hw : TreeView.walkEach (TreeView.walk v fuel) (v.node n).children with
      | none => rw [hw] at h; cases h
      | some t =>
        rw [hw] at h
        exact ⟨t, (Option.some.inj h).symm⟩
    · exact ⟨[], (Option.some.inj h).symm⟩

theorem walkEach_mem_of_head (step : Nat → Option (List Nat))
    (hstep : ∀ n l, step n = some l → n ∈ l) (rs : List Nat) (l : List Nat)
    (h : TreeView.walkEach step rs = some l) : ∀ r ∈ rs, r ∈ l := by
  induction rs generalizing l with
  | nil => intro r hr; cases hr
  | cons c cs ih =>
    unfold TreeView.walkEach at h
    cases hc : step c with
    | none => rw [hc] at h; cases h
    | some a =>
      rw [hc] at h
      cases hcs : TreeView.walkEach step cs with
      | none => rw [hcs] at h; cases h
      | some b =>
        rw [hcs] at h
        have hl : l = a ++ b := (Option.some.inj h).symm
        intro r hr
        rw [hl]
        rcases List.mem_cons.1 hr with rfl | hr
        · exact List.mem_append_left _ (hstep _ _ hc)
        · exact List.mem_append_right _ (ih b hcs r hr)

theorem walkRoots_mem_root (v : TreeView) (order : List Nat)
    (h : TreeView.walkRoots v = some order) : ∀ r ∈ v.roots, r ∈ order := by
  apply walkEach_mem_of_head _ _ _ _ h
  intro n l hl
  obtain ⟨t, rfl⟩ := walk_head v _ n l hl
  exact List.mem_cons_self _ _

theorem upsertCore_root_mem (v : TreeView) (appName : String) (tree : ResourceTree) :
    v.upsertRoot appName tree ∈ (v.upsertCore appName tree).roots := by
  have hp := List.perm_insertionSort
    (fun a b => TreeView.rootLess (v.upsertHeap appName tree) b a = false)
    ((v.removeApp appName).roots ++ [v.upsertRoot appName tree])
  exact hp.symm.subset (List.mem_append_right _ (List.mem_singleton_self _))

end Argonaut

namespace Argonaut

theorem UpsertAppTree_order_ne_nil (v v' : TreeView) (appName : String) (tree : ResourceTree)
    (h : v.UpsertAppTree appName tree = some v') : v'.order ≠ [] := by
  have hw := (rebuildOrder_spec _ _ h).1
  have hmem : v.upsertRoot appName tree ∈ v'.order :=
    walkRoots_mem_root _ _ hw _ (upsertCore_root_mem v appName tree)
  exact List.ne_nil_of_mem hmem

end Argonaut

namespace Argonaut

/-! ## The heap under assignments through pointers -/

theorem foldl_inv {σ α : Type} (P : σ → Prop) (f : σ → α → σ) (l : List α) (s : σ)
    (h0 : P s) (hstep : ∀ s a, a ∈ l → P s → P (f s a)) : P (l.foldl f s) := by
  induction l generalizing s with
  | nil => exact h0
  | cons a l ih =>
    rw [List.foldl_cons]
    apply ih
    · exact hstep s a (List.mem_cons_self _ _) h0
    · intro s' a' ha' hs'
      exact hstep s' a' (List.mem_cons_of_mem _ ha') hs'

theorem heapModify_length (h : List treeNode) (q : Nat) (f : treeNode → treeNode) :
    (TreeView.heapModify h q f).length = h.length := by
  simp [TreeView.heapModify]

theorem heapModify_getD_self (h : List treeNode) (q : Nat) (f : treeNode → treeNode)
    (hq : q < h.length) :
    (TreeView.heapModify h q f).getD q default = f (h.getD q default) := by
  simp [TreeView.heapModify, List.getD_eq_getElem?_getD, List.getElem?_set, hq]

theorem heapModify_getD_ne (h : List treeNode) (q p : Nat) (f : treeNode → treeNode)
    (hpq : p ≠ q) :
    (TreeView.heapModify h q f).getD p default = h.getD p default := by
  simp [TreeView.heapModify, List.getD_eq_getElem?_getD, List.getElem?_set, Ne.symm hpq]

theorem heapModify_of_length_le (h : List treeNode) (q : Nat) (f : treeNode → treeNode)
    (hq : h.length ≤ q) : TreeView.heapModify h q f = h := by
  simp [TreeView.heapModify, List.set_eq_of_length_le hq]

/-- A property of nodes that holds of a cell after `heapModify` when it held
before and the assignment preserves it. -/
theorem heapModify_getD_cases (h : List treeNode) (q p : Nat) (f : treeNode → treeNode) :
    (TreeView.heapModify h q f).getD p default = h.getD p default ∨
    (p = q ∧ q < h.length ∧
      (TreeView.heapModify h q f).getD p default = f (h.getD q default)) := by
  by_cases hpq : p = q
  · subst hpq
    by_cases hq : p < h.length
    · exact Or.inr ⟨rfl, hq, heapModify_getD_self h p f hq⟩
    · left
      rw [heapModify_of_length_le h p f (not_lt.mp hq)]
  · exact Or.inl (heapModify_getD_ne h q p f hpq)

end Argonaut

namespace Argonaut

/-! ## More on Go maps: entries and keys -/

section GoMapEntries

variable {ν : Type}

theorem mem_mapSet (m : GoMap ν) (k : String) (x : ν) (e : String × ν)
    (h : e ∈ mapSet m k x) : e = (k, x) ∨ e ∈ m := by
  induction m with
  | nil =>
    simp only [mapSet, List.mem_singleton] at h
    exact Or.inl h
  | cons a m ih =>
    obtain ⟨k', x'⟩ := a
    by_cases hk : k' = k
    · simp only [mapSet, hk, if_true, List.mem_cons] at h
      rcases h with h | h
      · exact Or.inl h
      · exact Or.inr (List.mem_cons_of_mem _ h)
    · simp only [mapSet, hk, if_false, List.mem_cons] at h
      rcases h with h | h
      · exact Or.inr (h ▸ List.mem_cons_self _ _)
      · rcases ih h with h | h
        · exact Or.inl h
        · exact Or.inr (List.mem_cons_of_mem _ h)

theorem mapGet_eq_none_iff (m : GoMap ν) (k : String) :
    mapGet m k = none ↔ ∀ x, (k, x) ∉ m := by
  induction m with
  | nil => simp [mapGet]
  | cons a m ih =>
    obtain ⟨k', x'⟩ := a
    by_cases hk : k' = k
    · subst hk
      simp only [mapGet, if_true]
      constructor
      · intro h
        cases h
      · intro h
        exact absurd (List.mem_cons_self _ _) (h x')
    · simp only [mapGet, hk, if_false, ih, List.mem_cons, Prod.mk.injEq, not_or, not_and]
      constructor
      · intro h x
        exact ⟨fun hkk => absurd hkk.symm hk, h x⟩
      · intro h x
        exact (h x).2

theorem mapGet_of_mem (m : GoMap ν) (hm : (m.map Prod.fst).Nodup) (k : String) (x : ν)
    (h : (k, x) ∈ m) : mapGet m k = some x := by
  induction m with
  | nil => cases h
  | cons a m ih =>
    obtain ⟨k', x'⟩ := a
    simp only [List.map_cons, List.nodup_cons] at hm
    rcases List.mem_cons.1 h with h | h
    · cases h
      simp [mapGet]
    · have hk : k' ≠ k := by
        intro hkk
        subst hkk
        exact hm.1 (List.mem_map.2 ⟨(k', x), h, rfl⟩)
      simp only [mapGet, hk, if_false]
      exact ih hm.2 h

theorem mapSet_keys (m : GoMap ν) (k : String) (x : ν) :
    (mapSet m k x).map Prod.fst =
      if k ∈ m.map Prod.fst then m.map Prod.fst else m.map Prod.fst ++ [k] := by
  induction m with
  | nil => simp [mapSet]
  | cons a m ih =>
    obtain ⟨k', x'⟩ := a
    by_cases hk : k' = k
    · subst hk
      simp [mapSet]
    · have hk' : ¬ k = k' := fun h => hk h.symm
      simp only [mapSet, hk, if_false, List.map_cons, ih, List.mem_cons, hk', false_or]
      split <;> simp

theorem mapSet_keys_nodup (m : GoMap ν) (k : String) (x : ν)
    (hm : (m.map Prod.fst).Nodup) : ((mapSet m k x).map Prod.fst).Nodup := by
  rw [mapSet_keys]
  split
  · exact hm
  · rename_i hk
    exact List.Nodup.append hm (List.nodup_singleton _) (by
      intro a ha hb
      rw [List.mem_singleton] at hb
      subst hb
      exact hk ha)

theorem mapDelete_keys (m : GoMap ν) (k : String) :
    (mapDelete m k).map Prod.fst = (m.map Prod.fst).filter (fun k' => decide (k' ≠ k)) := by
  induction m with
  | nil => rfl
  | cons a m ih =>
    obtain ⟨k', x'⟩ := a
    by_cases hk : k' = k
    · simp only [mapDelete, List.filter, hk, ne_eq, not_true_eq_false, decide_False,
        List.map_cons]
      exact ih
    · simp only [mapDelete, List.filter, hk, ne_eq, not_false_eq_true, decide_True,
        List.map_cons]
      exact congrArg _ ih

theorem mapDelete_keys_nodup (m : GoMap ν) (k : String)
    (hm : (m.map Prod.fst).Nodup) : ((mapDelete m k).map Prod.fst).Nodup := by
  rw [mapDelete_keys]
  exact hm.filter _

theorem mapGet_mapDelete_some (m : GoMap ν) (k k' : String) (x : ν)
    (h : mapGet (mapDelete m k) k' = some x) : k' ≠ k ∧ mapGet m k' = some x := by
  by_cases hk : k' = k
  · subst hk
    rw [mapGet_mapDelete_self] at h
    cases h
  · rw [mapGet_mapDelete_ne m k k' hk] at h
    exact ⟨hk, h⟩

theorem mapGet_mapSet (m : GoMap ν) (k k' : String) (x : ν) :
    mapGet (mapSet m k x) k' = if k' = k then some x else mapGet m k' := by
  by_cases hk : k' = k
  · subst hk
    simp [mapGet_mapSet_self]
  · simp [hk, mapGet_mapSet_ne m k k' x hk]

theorem mapGet_mapDelete (m : GoMap ν) (k k' : String) :
    mapGet (mapDelete m k) k' = if k' = k then none else mapGet m k' := by
  by_cases hk : k' = k
  · subst hk
    simp [mapGet_mapDelete_self]
  · simp [hk, mapGet_mapDelete_ne m k k' hk]

end GoMapEntries

end Argonaut

namespace Argonaut

/-! ## `UpsertAppTree`, first pass -/

theorem foldl_allocNode_heap (appName : String) (ns : List ResourceNode) (b : TreeView.Build) :
    (ns.foldl (TreeView.allocNode appName) b).heap =
      b.heap ++ ns.map (TreeView.newNode appName) := by
  induction ns generalizing b with
  | nil => simp
  | cons a l ih =>
    rw [List.foldl_cons, ih]
    simp [TreeView.allocNode]

theorem foldl_allocNode_appKeys (appName : String) (ns : List ResourceNode)
    (b : TreeView.Build) :
    (ns.foldl (TreeView.allocNode appName) b).appKeys =
      b.appKeys ++ ns.map (fun n => TreeView.makeKey appName n.UID) := by
  induction ns generalizing b with
  | nil => simp
  | cons a l ih =>
    rw [List.foldl_cons, ih]
    simp [TreeView.allocNode]

theorem foldl_allocNode_mem_nodesLocal (appName : String) (ns : List ResourceNode)
    (b : TreeView.Build) (k : String) (p : Nat)
    (h : (k, p) ∈ (ns.foldl (TreeView.allocNode appName) b).nodesLocal) :
    (k, p) ∈ b.nodesLocal ∨
      ∃ i nd, ns[i]? = some nd ∧ p = b.heap.length + i ∧ TreeView.makeKey appName nd.UID = k := by
  induction ns generalizing b with
  | nil => exact Or.inl h
  | cons a l ih =>
    rw [List.foldl_cons] at h
    rcases ih _ h with h1 | ⟨i, nd, hi, hp, hk⟩
    · rcases mem_mapSet _ _ _ _ h1 with h2 | h2
      · right
        refine ⟨0, a, by simp, ?_, ?_⟩
        · exact (Prod.mk.inj h2).2
        · exact ((Prod.mk.inj h2).1).symm
      · exact Or.inl h2
    · right
      refine ⟨i + 1, nd, ?_, ?_, hk⟩
      · simpa using hi
      · simp only [TreeView.allocNode, List.length_append, List.length_singleton] at hp
        omega

theorem foldl_allocNode_nodesLocal_nodup (appName : String) (ns : List ResourceNode)
    (b : TreeView.Build) (hb : (b.nodesLocal.map Prod.fst).Nodup) :
    ((ns.foldl (TreeView.allocNode appName) b).nodesLocal.map Prod.fst).Nodup := by
  apply foldl_inv (fun b : TreeView.Build => (b.nodesLocal.map Prod.fst).Nodup) _ _ _ hb
  intro s a _ hs
  exact mapSet_keys_nodup _ _ _ hs

theorem foldl_allocNode_nodesLocal_some (appName : String) (ns : List ResourceNode)
    (b : TreeView.Build) (k : String)
    (h : mapGet b.nodesLocal k ≠ none ∨ ∃ nd ∈ ns, TreeView.makeKey appName nd.UID = k) :
    mapGet (ns.foldl (TreeView.allocNode appName) b).nodesLocal k ≠ none := by
  induction ns generalizing b with
  | nil =>
    rcases h with h | ⟨nd, hnd, _⟩
    · exact h
    · cases hnd
  | cons a l ih =>
    rw [List.foldl_cons]
    apply ih
    rcases h with h | ⟨nd, hnd, hk⟩
    · left
      simp only [TreeView.allocNode, mapGet_mapSet]
      split
      · simp
      · exact h
    · rcases List.mem_cons.1 hnd with rfl | hnd
      · left
        simp only [TreeView.allocNode, mapGet_mapSet, hk, if_true]
        simp
      · exact Or.inr ⟨nd, hnd, hk⟩

theorem foldl_allocNode_nodesByUID (appName : String) (ns : List ResourceNode)
    (b : TreeView.Build) (idx : GoMap Nat)
    (hb : ∀ k, mapGet b.nodesByUID k =
      match mapGet b.nodesLocal k with
      | some p => some p
      | none => mapGet idx k) :
    ∀ k, mapGet (ns.foldl (TreeView.allocNode appName) b).nodesByUID k =
      match mapGet (ns.foldl (TreeView.allocNode appName) b).nodesLocal k with
      | some p => some p
      | none => mapGet idx k := by
  apply foldl_inv (fun b : TreeView.Build => ∀ k, mapGet b.nodesByUID k =
      match mapGet b.nodesLocal k with
      | some p => some p
      | none => mapGet idx k) _ _ _ hb
  intro s a _ hs k
  simp only [TreeView.allocNode, mapGet_mapSet]
  split
  · rfl
  · exact hs k

/-! ### The first pass of `UpsertAppTree` on a view -/

theorem upsertBuild_heap (v : TreeView) (appName : String) (tree : ResourceTree) :
    (v.upsertBuild appName tree).heap = v.heap ++ tree.Nodes.map (TreeView.newNode appName) := by
  unfold TreeView.upsertBuild
  rw [foldl_allocNode_heap, removeApp_heap]

theorem upsertBuild_heap_length (v : TreeView) (appName : String) (tree : ResourceTree) :
    (v.upsertBuild appName tree).heap.length = v.heap.length + tree.Nodes.length := by
  rw [upsertBuild_heap]
  simp

theorem upsertBuild_appKeys (v : TreeView) (appName : String) (tree : ResourceTree) :
    (v.upsertBuild appName tree).appKeys =
      tree.Nodes.map (fun n => TreeView.makeKey appName n.UID) := by
  unfold TreeView.upsertBuild
  rw [foldl_allocNode_appKeys]
  rfl

/-- Every entry of `nodesLocal` is the key and the address of a snapshot entry. -/
theorem upsertBuild_mem_nodesLocal (v : TreeView) (appName : String) (tree : ResourceTree)
    (k : String) (p : Nat) (h : (k, p) ∈ (v.upsertBuild appName tree).nodesLocal) :
    ∃ i nd, tree.Nodes[i]? = some nd ∧ p = v.heap.length + i ∧
      TreeView.makeKey appName nd.UID = k := by
  unfold TreeView.upsertBuild at h
  rcases foldl_allocNode_mem_nodesLocal _ _ _ _ _ h with h | h
  · cases h
  · simpa [removeApp_heap] using h

theorem upsertBuild_nodesLocal_nodup (v : TreeView) (appName : String) (tree : ResourceTree) :
    ((v.upsertBuild appName tree).nodesLocal.map Prod.fst).Nodup := by
  unfold TreeView.upsertBuild
  exact foldl_allocNode_nodesLocal_nodup _ _ _ List.nodup_nil

theorem upsertBuild_nodesLocal_some (v : TreeView) (appName : String) (tree : ResourceTree)
    (nd : ResourceNode) (hnd : nd ∈ tree.Nodes) :
    mapGet (v.upsertBuild appName tree).nodesLocal (TreeView.makeKey appName nd.UID) ≠ none := by
  unfold TreeView.upsertBuild
  exact foldl_allocNode_nodesLocal_some _ _ _ _ (Or.inr ⟨nd, hnd, rfl⟩)

theorem upsertBuild_nodesByUID (v : TreeView) (appName : String) (tree : ResourceTree)
    (k : String) :
    mapGet (v.upsertBuild appName tree).nodesByUID k =
      match mapGet (v.upsertBuild appName tree).nodesLocal k with
      | some p => some p
      | none => mapGet (v.removeApp appName).nodesByUID k := by
  unfold TreeView.upsertBuild
  apply foldl_allocNode_nodesByUID
  intro k
  rfl

/-- A local pointer lies in the block the first pass allocated. -/
theorem upsertBuild_local_range (v : TreeView) (appName : String) (tree : ResourceTree)
    (k : String) (p : Nat) (h : (k, p) ∈ (v.upsertBuild appName tree).nodesLocal) :
    v.heap.length ≤ p ∧ p < v.heap.length + tree.Nodes.length := by
  obtain ⟨i, nd, hi, hp, _⟩ := upsertBuild_mem_nodesLocal v appName tree k p h
  obtain ⟨hlt, _⟩ := List.getElem?_eq_some_iff.1 hi
  omega

theorem upsertBuild_getD_new (v : TreeView) (appName : String) (tree : ResourceTree)
    (i : Nat) (nd : ResourceNode) (hi : tree.Nodes[i]? = some nd) :
    (v.upsertBuild appName tree).heap.getD (v.heap.length + i) default =
      TreeView.newNode appName nd := by
  rw [upsertBuild_heap, List.getD_eq_getElem?_getD, List.getElem?_append_right (by omega)]
  simp [hi]

theorem upsertBuild_getD_old (v : TreeView) (appName : String) (tree : ResourceTree)
    (p : Nat) (hp : p < v.heap.length) :
    (v.upsertBuild appName tree).heap.getD p default = v.heap.getD p default := by
  rw [upsertBuild_heap, List.getD_eq_getElem?_getD, List.getD_eq_getElem?_getD,
    List.getElem?_append_left hp]

end Argonaut

namespace Argonaut

/-! ## Assignments to the links of a node -/

theorem kind_of_label {a b : treeNode} (h : a.label = b.label) : a.kind = b.kind :=
  show a.label.kind = b.label.kind from congrArg treeNode.kind h

theorem name_of_label {a b : treeNode} (h : a.label = b.label) : a.name = b.name :=
  show a.label.name = b.label.name from congrArg treeNode.name h

theorem uid_of_label {a b : treeNode} (h : a.label = b.label) : a.uid = b.uid :=
  show a.label.uid = b.label.uid from congrArg treeNode.uid h

theorem label_default : (default : treeNode).label = default := rfl

theorem getD_setParent (h : List treeNode) (q : Nat) (x : Option Nat) (p : Nat) :
    (TreeView.setParent h q x).getD p default =
      if p = q ∧ q < h.length then { h.getD p default with parent := x }
      else h.getD p default := by
  unfold TreeView.setParent
  rcases heapModify_getD_cases h q p (fun c => { c with parent := x }) with hc | ⟨rfl, hq, hc⟩
  · rw [hc]
    split
    · rename_i hpq
      obtain ⟨rfl, hq⟩ := hpq
      have := heapModify_getD_self h p (fun c => { c with parent := x }) hq
      rw [this] at hc
      exact hc.symm
    · rfl
  · rw [hc, if_pos ⟨rfl, hq⟩]

theorem getD_setChildren (h : List treeNode) (q : Nat) (l : List Nat) (p : Nat) :
    (TreeView.setChildren h q l).getD p default =
      if p = q ∧ q < h.length then { h.getD p default with children := l }
      else h.getD p default := by
  unfold TreeView.setChildren
  rcases heapModify_getD_cases h q p (fun c => { c with children := l }) with
    hc | ⟨rfl, hq, hc⟩
  · rw [hc]
    split
    · rename_i hpq
      obtain ⟨rfl, hq⟩ := hpq
      have := heapModify_getD_self h p (fun c => { c with children := l }) hq
      rw [this] at hc
      exact hc.symm
    · rfl
  · rw [hc, if_pos ⟨rfl, hq⟩]

theorem setParent_length (h : List treeNode) (q : Nat) (x : Option Nat) :
    (TreeView.setParent h q x).length = h.length :=
  heapModify_length _ _ _

theorem setChildren_length (h : List treeNode) (q : Nat) (l : List Nat) :
    (TreeView.setChildren h q l).length = h.length :=
  heapModify_length _ _ _

theorem setParent_children (h : List treeNode) (q : Nat) (x : Option Nat) (p : Nat) :
    ((TreeView.setParent h q x).getD p default).children = (h.getD p default).children := by
  rw [getD_setParent]
  split <;> rfl

theorem setParent_label (h : List treeNode) (q : Nat) (x : Option Nat) (p : Nat) :
    ((TreeView.setParent h q x).getD p default).label = (h.getD p default).label := by
  rw [getD_setParent]
  split <;> rfl

theorem setParent_parent (h : List treeNode) (q : Nat) (x : Option Nat) (p : Nat) :
    ((TreeView.setParent h q x).getD p default).parent =
      if p = q ∧ q < h.length then x else (h.getD p default).parent := by
  rw [getD_setParent]
  split <;> rfl

theorem setChildren_parent (h : List treeNode) (q : Nat) (l : List Nat) (p : Nat) :
    ((TreeView.setChildren h q l).getD p default).parent = (h.getD p default).parent := by
  rw [getD_setChildren]
  split <;> rfl

theorem setChildren_label (h : List treeNode) (q : Nat) (l : List Nat) (p : Nat) :
    ((TreeView.setChildren h q l).getD p default).label = (h.getD p default).label := by
  rw [getD_setChildren]
  split <;> rfl

theorem setChildren_children (h : List treeNode) (q : Nat) (l : List Nat) (p : Nat) :
    ((TreeView.setChildren h q l).getD p default).children =
      if p = q ∧ q < h.length then l else (h.getD p default).children := by
  rw [getD_setChildren]
  split <;> rfl

theorem HeapExt.ext_refl (base : Nat) (h1 : List treeNode) : HeapExt base h1 h1 :=
  ⟨rfl, fun _ _ => rfl, fun _ => rfl⟩

theorem HeapExt.setParent {base : Nat} {h1 h : List treeNode} (hx : HeapExt base h1 h)
    (q : Nat) (x : Option Nat) (hq : base ≤ q) :
    HeapExt base h1 (TreeView.setParent h q x) := by
  refine ⟨?_, ?_, ?_⟩
  · rw [setParent_length, hx.length]
  · intro p hp
    rw [getD_setParent, if_neg (by omega), hx.old p hp]
  · intro p
    rw [setParent_label, hx.label]

theorem HeapExt.setChildren {base : Nat} {h1 h : List treeNode} (hx : HeapExt base h1 h)
    (q : Nat) (l : List Nat) (hq : base ≤ q) :
    HeapExt base h1 (TreeView.setChildren h q l) := by
  refine ⟨?_, ?_, ?_⟩
  · rw [setChildren_length, hx.length]
  · intro p hp
    rw [getD_setChildren, if_neg (by omega), hx.old p hp]
  · intro p
    rw [setChildren_label, hx.label]

theorem HeapExt.ext_trans {base : Nat} {h1 h2 h3 : List treeNode} (h12 : HeapExt base h1 h2)
    (h23 : HeapExt base h2 h3) : HeapExt base h1 h3 :=
  ⟨h23.length.trans h12.length, fun p hp => (h23.old p hp).trans (h12.old p hp),
    fun p => (h23.label p).trans (h12.label p)⟩

end Argonaut

namespace Argonaut

/-! ## `UpsertAppTree`, second pass -/

theorem linkParent_inv (appName : String) (nodesLocal : GoMap Nat) (origin : Nat → Prop)
    (base : Nat) (h1 h : List treeNode) (child : Nat) (r : ResourceRef)
    (hlocal : ∀ k p, mapGet nodesLocal k = some p → base ≤ p ∧ p < h1.length)
    (hchild : ∃ k, mapGet nodesLocal k = some child)
    (horigin : mapGet nodesLocal (TreeView.makeKey appName r.UID) ≠ none → origin child)
    (hx : HeapExt base h1 h) (hl : Linked nodesLocal origin base h) :
    HeapExt base h1 (TreeView.linkParent appName nodesLocal child h r) ∧
    Linked nodesLocal origin base (TreeView.linkParent appName nodesLocal child h r) := by
  unfold TreeView.linkParent
  cases hp : mapGet nodesLocal (TreeView.makeKey appName r.UID) with
  | none => exact ⟨hx, hl⟩
  | some p =>
    simp only
    obtain ⟨kc, hkc⟩ := hchild
    have hcr := hlocal _ _ hkc
    have hpr := hlocal _ _ hp
    have hclen : child < h.length := by rw [hx.length]; exact hcr.2
    have hx1 := hx.setParent child (some p) hcr.1
    have hx2 := hx1.setChildren p
      (((TreeView.setParent h child (some p)).getD p default).children ++ [child]) hpr.1
    refine ⟨hx2, ?_, ?_, ?_⟩
    · intro p0 c hp0 hc
      rw [setChildren_children] at hc
      rw [setChildren_parent, setParent_parent]
      have hcase : c ∈ (h.getD p0 default).children ∨ c = child := by
        split at hc
        · rename_i hpp
          rw [setParent_children, ← hpp.1] at hc
          rcases List.mem_append.1 hc with hc | hc
          · exact Or.inl hc
          · exact Or.inr (List.mem_singleton.1 hc)
        · rw [setParent_children] at hc
          exact Or.inl hc
      rcases hcase with hc | rfl
      · obtain ⟨hloc, hpar⟩ := hl.children p0 c hp0 hc
        refine ⟨hloc, ?_⟩
        split
        · simp
        · exact hpar
      · refine ⟨⟨kc, mem_of_mapGet _ _ _ hkc⟩, ?_⟩
        rw [if_pos ⟨rfl, hclen⟩]
        simp
    · intro p0 c hp0 hc
      rw [setChildren_children] at hc
      split at hc
      · rename_i hpp
        rw [hpp.1]
        exact ⟨_, mem_of_mapGet _ _ _ hp⟩
      · rw [setParent_children] at hc
        exact hl.owner p0 c hp0 hc
    · intro p0 hp0 hpar
      rw [setChildren_parent, setParent_parent] at hpar
      split at hpar
      · rename_i hpc
        rw [hpc.1]
        apply horigin
        rw [hp]
        simp
      · exact hl.parent p0 hp0 hpar

theorem linkNode_inv (appName : String) (nodesLocal : GoMap Nat) (origin : Nat → Prop)
    (base : Nat) (h1 h : List treeNode) (nd : ResourceNode)
    (hlocal : ∀ k p, mapGet nodesLocal k = some p → base ≤ p ∧ p < h1.length)
    (horigin : ∀ child, mapGet nodesLocal (TreeView.makeKey appName nd.UID) = some child →
      ∀ r ∈ nd.ParentRefs, mapGet nodesLocal (TreeView.makeKey appName r.UID) ≠ none →
        origin child)
    (hx : HeapExt base h1 h) (hl : Linked nodesLocal origin base h) :
    HeapExt base h1 (TreeView.linkNode appName nodesLocal h nd) ∧
    Linked nodesLocal origin base (TreeView.linkNode appName nodesLocal h nd) := by
  unfold TreeView.linkNode
  cases hc : mapGet nodesLocal (TreeView.makeKey appName nd.UID) with
  | none => exact ⟨hx, hl⟩
  | some child =>
    simp only
    apply foldl_inv (fun h => HeapExt base h1 h ∧ Linked nodesLocal origin base h) _ _ _
      ⟨hx, hl⟩
    intro s r hr hs
    exact linkParent_inv appName nodesLocal origin base h1 s child r hlocal ⟨_, hc⟩
      (horigin child hc r hr) hs.1 hs.2

theorem upsertBuild_local_bounds (v : TreeView) (appName : String) (tree : ResourceTree)
    (k : String) (p : Nat) (h : mapGet (v.upsertBuild appName tree).nodesLocal k = some p) :
    v.heap.length ≤ p ∧ p < (v.upsertBuild appName tree).heap.length := by
  have := upsertBuild_local_range v appName tree k p (mem_of_mapGet _ _ _ h)
  rw [upsertBuild_heap_length]
  exact this

theorem upsertBuild_linked (v : TreeView) (appName : String) (tree : ResourceTree) :
    Linked (v.upsertBuild appName tree).nodesLocal (linkOrigin v appName tree) v.heap.length
      (v.upsertBuild appName tree).heap := by
  have hnew : ∀ p, v.heap.length ≤ p →
      ((v.upsertBuild appName tree).heap.getD p default).children = [] ∧
      ((v.upsertBuild appName tree).heap.getD p default).parent = none := by
    intro p hp
    by_cases hlt : p < v.heap.length + tree.Nodes.length
    · obtain ⟨i, rfl⟩ : ∃ i, p = v.heap.length + i := ⟨p - v.heap.length, by omega⟩
      have hi : i < tree.Nodes.length := by omega
      rw [upsertBuild_getD_new v appName tree i tree.Nodes[i] (List.getElem?_eq_getElem hi)]
      exact ⟨rfl, rfl⟩
    · have : (v.upsertBuild appName tree).heap.length ≤ p := by
        rw [upsertBuild_heap_length]; omega
      rw [List.getD_eq_default _ _ this]
      exact ⟨rfl, rfl⟩
  refine ⟨?_, ?_, ?_⟩
  · intro p c hp hc
    rw [(hnew p hp).1] at hc
    cases hc
  · intro p c hp hc
    rw [(hnew p hp).1] at hc
    cases hc
  · intro p hp hpar
    exact absurd (hnew p hp).2 hpar

theorem upsertLinked_inv (v : TreeView) (appName : String) (tree : ResourceTree) :
    HeapExt v.heap.length (v.upsertBuild appName tree).heap (v.upsertLinked appName tree) ∧
    Linked (v.upsertBuild appName tree).nodesLocal (linkOrigin v appName tree) v.heap.length
      (v.upsertLinked appName tree) := by
  unfold TreeView.upsertLinked
  apply foldl_inv (fun h => HeapExt v.heap.length (v.upsertBuild appName tree).heap h ∧
    Linked (v.upsertBuild appName tree).nodesLocal (linkOrigin v appName tree) v.heap.length h)
    _ _ _ ⟨HeapExt.ext_refl _ _, upsertBuild_linked v appName tree⟩
  intro s nd hnd hs
  apply linkNode_inv appName _ _ _ _ s nd (upsertBuild_local_bounds v appName tree) _ hs.1 hs.2
  intro child hchild r hr hres
  exact ⟨nd, hnd, hchild, r, hr, hres⟩

end Argonaut

namespace Argonaut

/-! ## `UpsertAppTree`, the filter loop -/

theorem HeapExt.kind {base : Nat} {h1 h : List treeNode} (hx : HeapExt base h1 h) (p : Nat) :
    (h.getD p default).kind = (h1.getD p default).kind :=
  show ((h.getD p default).label).kind = ((h1.getD p default).label).kind from
    congrArg treeNode.kind (hx.label p)

theorem HeapExt.name {base : Nat} {h1 h : List treeNode} (hx : HeapExt base h1 h) (p : Nat) :
    (h.getD p default).name = (h1.getD p default).name :=
  show ((h.getD p default).label).name = ((h1.getD p default).label).name from
    congrArg treeNode.name (hx.label p)

theorem HeapExt.uid {base : Nat} {h1 h : List treeNode} (hx : HeapExt base h1 h) (p : Nat) :
    (h.getD p default).uid = (h1.getD p default).uid :=
  show ((h.getD p default).label).uid = ((h1.getD p default).label).uid from
    congrArg treeNode.uid (hx.label p)

theorem HeapExt.isAppNode {base : Nat} {h1 h : List treeNode} (hx : HeapExt base h1 h)
    (appName : String) (p : Nat) : isAppNode appName h p ↔ isAppNode appName h1 p := by
  unfold Argonaut.isAppNode
  rw [hx.kind, hx.name]

/-- Clearing the parent of a list of nodes from `base` on. -/
theorem foldl_setParent_ext {base : Nat} {h1 : List treeNode} (x : Option Nat)
    (cs : List Nat) (h : List treeNode) (hx : HeapExt base h1 h) (hcs : ∀ c ∈ cs, base ≤ c) :
    HeapExt base h1 (cs.foldl (fun h c => TreeView.setParent h c x) h) ∧
    (∀ q, ((cs.foldl (fun h c => TreeView.setParent h c x) h).getD q default).children =
      (h.getD q default).children) ∧
    (∀ q, q ∉ cs → ((cs.foldl (fun h c => TreeView.setParent h c x) h).getD q default).parent =
      (h.getD q default).parent) ∧
    (∀ q ∈ cs, q < h.length →
      ((cs.foldl (fun h c => TreeView.setParent h c x) h).getD q default).parent = x) := by
  induction cs generalizing h with
  | nil =>
    refine ⟨hx, fun _ => rfl, fun _ _ => rfl, ?_⟩
    intro q hq
    cases hq
  | cons c cs ih =>
    have hc : base ≤ c := hcs c (List.mem_cons_self _ _)
    obtain ⟨i1, i2, i3, i4⟩ := ih (TreeView.setParent h c x) (hx.setParent c x hc)
      (fun c' hc' => hcs c' (List.mem_cons_of_mem _ hc'))
    rw [List.foldl_cons]
    refine ⟨i1, ?_, ?_, ?_⟩
    · intro q
      rw [i2, setParent_children]
    · intro q hq
      rw [i3 q (fun hm => hq (List.mem_cons_of_mem _ hm)), setParent_parent, if_neg]
      rintro ⟨rfl, _⟩
      exact hq (List.mem_cons_self _ _)
    · intro q hq hlt
      by_cases hmem : q ∈ cs
      · exact i4 q hmem (by rw [setParent_length]; exact hlt)
      · have hqc : q = c := by
          rcases List.mem_cons.1 hq with h' | h'
          · exact h'
          · exact absurd h' hmem
        rw [i3 q hmem, setParent_parent, if_pos ⟨hqc, hqc ▸ hlt⟩]

theorem filterRoot_inv (appName : String) (base : Nat) (h1 h2 : List treeNode)
    (idx : GoMap Nat) (roots : List Nat) (f : TreeView.Filter) (p : Nat)
    (hp : p ∈ roots) (h12 : HeapExt base h1 h2)
    (hchild : ∀ c ∈ (h2.getD p default).children, base ≤ c)
    (hf : Filtered appName base h1 h2 idx roots f) :
    Filtered appName base h1 h2 idx roots (TreeView.filterRoot appName f p) := by
  have happ : (f.heap.getD p default).kind = "Application" ∧
      (f.heap.getD p default).name = appName ↔ isAppNode appName h2 p := by
    unfold isAppNode
    rw [hf.ext.kind, hf.ext.name, h12.kind, h12.name]
  unfold TreeView.filterRoot
  simp only
  by_cases ha : (f.heap.getD p default).kind = "Application" ∧
      (f.heap.getD p default).name = appName
  · rw [if_pos ha]
    have ha2 := happ.1 ha
    have hch : (f.heap.getD p default).children = (h2.getD p default).children :=
      hf.children p
    obtain ⟨e1, e2, _, _⟩ := foldl_setParent_ext none (f.heap.getD p default).children f.heap
      hf.ext (by rw [hch]; exact hchild)
    refine ⟨e1, ?_, ?_, ?_, ?_⟩
    · intro q
      rw [e2, hf.children]
    · intro c hc
      rcases List.mem_append.1 hc with hc | hc
      · exact hf.filtered c hc
      · right
        exact ⟨p, hp, ha2, hch ▸ hc⟩
    · intro k x hk
      exact hf.index k x (mapGet_mapDelete_some _ _ _ _ hk).2
    · intro k hk
      have hne : k ≠ (f.heap.getD p default).uid := by
        rw [hf.ext.uid, ← h12.uid]
        exact fun e => hk p hp ha2 e.symm
      show mapGet (mapDelete f.nodesByUID (f.heap.getD p default).uid) k = mapGet idx k
      rw [mapGet_mapDelete_ne _ _ _ hne]
      exact hf.frame k hk
  · rw [if_neg ha]
    refine ⟨hf.ext, hf.children, ?_, hf.index, hf.frame⟩
    intro c hc
    rcases List.mem_append.1 hc with hc | hc
    · exact hf.filtered c hc
    · left
      rw [List.mem_singleton.1 hc]
      exact ⟨hp, fun h => ha (happ.2 h)⟩

/-- The filter loop only appends to `filtered` and only deletes from the index. -/
theorem foldl_filterRoot_mono (appName : String) (l : List Nat) (f : TreeView.Filter) :
    (∀ c ∈ f.filtered, c ∈ (l.foldl (TreeView.filterRoot appName) f).filtered) ∧
    (∀ k, mapGet f.nodesByUID k = none →
      mapGet (l.foldl (TreeView.filterRoot appName) f).nodesByUID k = none) := by
  induction l generalizing f with
  | nil => exact ⟨fun _ h => h, fun _ h => h⟩
  | cons p l ih =>
    rw [List.foldl_cons]
    obtain ⟨i1, i2⟩ := ih (TreeView.filterRoot appName f p)
    constructor
    · intro c hc
      apply i1
      unfold TreeView.filterRoot
      simp only
      split <;> exact List.mem_append_left _ hc
    · intro k hk
      apply i2
      unfold TreeView.filterRoot
      simp only
      split
      · show mapGet (mapDelete f.nodesByUID _) k = none
        rw [mapGet_mapDelete]
        split
        · rfl
        · exact hk
      · exact hk

/-- What the filter loop has done for every root it has visited. -/
theorem foldl_filterRoot_done (appName : String) (base : Nat) (h1 h2 : List treeNode)
    (idx : GoMap Nat) (roots : List Nat) (h12 : HeapExt base h1 h2)
    (hchild : ∀ p ∈ roots, ∀ c ∈ (h2.getD p default).children, base ≤ c)
    (l : List Nat) (hl : ∀ p ∈ l, p ∈ roots) (f : TreeView.Filter)
    (hf : Filtered appName base h1 h2 idx roots f) :
    ∀ p ∈ l,
      (isAppNode appName h2 p →
        mapGet (l.foldl (TreeView.filterRoot appName) f).nodesByUID (h2.getD p default).uid =
          none ∧
        ∀ c ∈ (h2.getD p default).children,
          c ∈ (l.foldl (TreeView.filterRoot appName) f).filtered) ∧
      (¬ isAppNode appName h2 p → p ∈ (l.foldl (TreeView.filterRoot appName) f).filtered) := by
  induction l generalizing f with
  | nil => intro p hp; cases hp
  | cons a l ih =>
    intro p hp
    rw [List.foldl_cons]
    have ha : a ∈ roots := hl a (List.mem_cons_self _ _)
    have hf' := filterRoot_inv appName base h1 h2 idx roots f a ha h12 (hchild a ha) hf
    rcases List.mem_cons.1 hp with rfl | hp
    · have happ : (f.heap.getD p default).kind = "Application" ∧
          (f.heap.getD p default).name = appName ↔ isAppNode appName h2 p := by
        unfold isAppNode
        rw [hf.ext.kind, hf.ext.name, h12.kind, h12.name]
      obtain ⟨m1, m2⟩ := foldl_filterRoot_mono appName l (TreeView.filterRoot appName f p)
      constructor
      · intro hap
        constructor
        · apply m2
          unfold TreeView.filterRoot
          simp only
          rw [if_pos (happ.2 hap)]
          show mapGet (mapDelete f.nodesByUID (f.heap.getD p default).uid) _ = none
          rw [hf.ext.uid, ← h12.uid]
          exact mapGet_mapDelete_self _ _
        · intro c hc
          apply m1
          unfold TreeView.filterRoot
          simp only
          rw [if_pos (happ.2 hap)]
          apply List.mem_append_right
          rw [hf.children]
          exact hc
      · intro hnap
        apply m1
        unfold TreeView.filterRoot
        simp only
        rw [if_neg (fun h => hnap (happ.1 h))]
        exact List.mem_append_right _ (List.mem_singleton_self _)
    · exact ih (fun q hq => hl q (List.mem_cons_of_mem _ hq)) _ hf' p hp

end Argonaut

namespace Argonaut

/-! ## `UpsertAppTree`: the passes on a view -/

theorem mem_upsertTempRoots (v : TreeView) (appName : String) (tree : ResourceTree) (p : Nat) :
    p ∈ v.upsertTempRoots appName tree ↔
      (∃ k, (k, p) ∈ (v.upsertBuild appName tree).nodesLocal) ∧
      ((v.upsertLinked appName tree).getD p default).parent = none := by
  unfold TreeView.upsertTempRoots
  rw [List.mem_filter, List.mem_map]
  constructor
  · rintro ⟨⟨⟨k, p'⟩, hm, rfl⟩, hpar⟩
    exact ⟨⟨k, hm⟩, by simpa using hpar⟩
  · rintro ⟨⟨k, hm⟩, hpar⟩
    exact ⟨⟨(k, p), hm, rfl⟩, by simpa using hpar⟩

theorem upsertLinked_children_local (v : TreeView) (appName : String) (tree : ResourceTree)
    (p c : Nat) (hp : v.heap.length ≤ p)
    (hc : c ∈ ((v.upsertLinked appName tree).getD p default).children) :
    v.heap.length ≤ c ∧ c < v.heap.length + tree.Nodes.length ∧
    ((v.upsertLinked appName tree).getD c default).parent ≠ none := by
  obtain ⟨⟨k, hk⟩, hpar⟩ := (upsertLinked_inv v appName tree).2.children p c hp hc
  have := upsertBuild_local_range v appName tree k c hk
  exact ⟨this.1, this.2, hpar⟩

theorem upsertFilter_inv (v : TreeView) (appName : String) (tree : ResourceTree) :
    Filtered appName v.heap.length (v.upsertBuild appName tree).heap
      (v.upsertLinked appName tree) (v.upsertBuild appName tree).nodesByUID
      (v.upsertTempRoots appName tree) (v.upsertFilter appName tree) := by
  unfold TreeView.upsertFilter
  apply foldl_inv (Filtered appName v.heap.length (v.upsertBuild appName tree).heap
      (v.upsertLinked appName tree) (v.upsertBuild appName tree).nodesByUID
      (v.upsertTempRoots appName tree))
  · exact ⟨(upsertLinked_inv v appName tree).1, fun _ => rfl,
      fun c hc => (by cases hc), fun _ _ h => h, fun _ _ => rfl⟩
  · intro s p hp hs
    apply filterRoot_inv appName _ _ _ _ _ s p hp (upsertLinked_inv v appName tree).1 _ hs
    intro c hc
    obtain ⟨⟨k, hk⟩, _⟩ := (mem_upsertTempRoots v appName tree p).1 hp
    have hpb := (upsertBuild_local_range v appName tree k p hk).1
    exact (upsertLinked_children_local v appName tree p c hpb hc).1

theorem upsertFilter_done (v : TreeView) (appName : String) (tree : ResourceTree) (p : Nat)
    (hp : p ∈ v.upsertTempRoots appName tree) :
    (isAppNode appName (v.upsertLinked appName tree) p →
      mapGet (v.upsertFilter appName tree).nodesByUID
          ((v.upsertLinked appName tree).getD p default).uid = none ∧
      ∀ c ∈ ((v.upsertLinked appName tree).getD p default).children,
        c ∈ (v.upsertFilter appName tree).filtered) ∧
    (¬ isAppNode appName (v.upsertLinked appName tree) p →
      p ∈ (v.upsertFilter appName tree).filtered) := by
  unfold TreeView.upsertFilter
  apply foldl_filterRoot_done appName v.heap.length (v.upsertBuild appName tree).heap
    (v.upsertLinked appName tree) (v.upsertBuild appName tree).nodesByUID
    (v.upsertTempRoots appName tree) (upsertLinked_inv v appName tree).1 _
    (v.upsertTempRoots appName tree) (fun _ h => h) _ _ p hp
  · intro q hq c hc
    obtain ⟨⟨k, hk⟩, _⟩ := (mem_upsertTempRoots v appName tree q).1 hq
    have hpb := (upsertBuild_local_range v appName tree k q hk).1
    exact (upsertLinked_children_local v appName tree q c hpb hc).1
  · exact ⟨(upsertLinked_inv v appName tree).1, fun _ => rfl,
      fun c hc => (by cases hc), fun _ _ h => h, fun _ _ => rfl⟩

/-- Every filtered root is a local node. -/
theorem upsertFilter_filtered_local (v : TreeView) (appName : String) (tree : ResourceTree)
    (c : Nat) (hc : c ∈ (v.upsertFilter appName tree).filtered) :
    v.heap.length ≤ c ∧ c < v.heap.length + tree.Nodes.length := by
  rcases (upsertFilter_inv v appName tree).filtered c hc with ⟨hr, _⟩ | ⟨q, hq, _, hcq⟩
  · obtain ⟨⟨k, hk⟩, _⟩ := (mem_upsertTempRoots v appName tree c).1 hr
    exact upsertBuild_local_range v appName tree k c hk
  · obtain ⟨⟨k, hk⟩, _⟩ := (mem_upsertTempRoots v appName tree q).1 hq
    have hpb := (upsertBuild_local_range v appName tree k q hk).1
    have := upsertLinked_children_local v appName tree q c hpb hcq
    exact ⟨this.1, this.2.1⟩

theorem mem_sortNodes (h : List treeNode) (l : List Nat) (c : Nat) :
    c ∈ TreeView.sortNodes h l ↔ c ∈ l :=
  (List.perm_insertionSort _ l).mem_iff

theorem mem_upsertSortedRoots (v : TreeView) (appName : String) (tree : ResourceTree)
    (c : Nat) :
    c ∈ v.upsertSortedRoots appName tree ↔ c ∈ (v.upsertFilter appName tree).filtered :=
  mem_sortNodes _ _ c

/-! ### Sorting the children -/

theorem sortChildren_inv (base : Nat) (h1 h0 h : List treeNode) (kp : String × Nat)
    (hkp : base ≤ kp.2)
    (hx : HeapExt base h1 h ∧
      (∀ q, (h.getD q default).parent = (h0.getD q default).parent) ∧
      (∀ q c, c ∈ (h.getD q default).children ↔ c ∈ (h0.getD q default).children)) :
    HeapExt base h1 (TreeView.sortChildren h kp) ∧
      (∀ q, ((TreeView.sortChildren h kp).getD q default).parent =
        (h0.getD q default).parent) ∧
      (∀ q c, c ∈ ((TreeView.sortChildren h kp).getD q default).children ↔
        c ∈ (h0.getD q default).children) := by
  unfold TreeView.sortChildren
  split
  · refine ⟨hx.1.setChildren kp.2 _ hkp, ?_, ?_⟩
    · intro q
      rw [setChildren_parent, hx.2.1]
    · intro q c
      rw [setChildren_children]
      split
      · rename_i hq
        rw [mem_sortNodes, ← hq.1]
        exact hx.2.2 q c
      · exact hx.2.2 q c
  · exact hx

theorem upsertSorted_inv (v : TreeView) (appName : String) (tree : ResourceTree) :
    HeapExt v.heap.length (v.upsertBuild appName tree).heap (v.upsertSorted appName tree) ∧
    (∀ q, ((v.upsertSorted appName tree).getD q default).parent =
      ((v.upsertFilter appName tree).heap.getD q default).parent) ∧
    (∀ q c, c ∈ ((v.upsertSorted appName tree).getD q default).children ↔
      c ∈ ((v.upsertLinked appName tree).getD q default).children) := by
  have key : HeapExt v.heap.length (v.upsertBuild appName tree).heap
        (v.upsertSorted appName tree) ∧
      (∀ q, ((v.upsertSorted appName tree).getD q default).parent =
        ((v.upsertFilter appName tree).heap.getD q default).parent) ∧
      (∀ q c, c ∈ ((v.upsertSorted appName tree).getD q default).children ↔
        c ∈ ((v.upsertFilter appName tree).heap.getD q default).children) := by
    unfold TreeView.upsertSorted
    apply foldl_inv (fun h => HeapExt v.heap.length (v.upsertBuild appName tree).heap h ∧
      (∀ q, (h.getD q default).parent =
        ((v.upsertFilter appName tree).heap.getD q default).parent) ∧
      (∀ q c, c ∈ (h.getD q default).children ↔
        c ∈ ((v.upsertFilter appName tree).heap.getD q default).children))
    · exact ⟨(upsertFilter_inv v appName tree).ext, fun _ => rfl, fun _ _ => Iff.rfl⟩
    · intro s kp hkp hs
      exact sortChildren_inv _ _ _ s kp
        (upsertBuild_local_range v appName tree kp.1 kp.2 hkp).1 hs
  refine ⟨key.1, key.2.1, ?_⟩
  intro q c
  rw [key.2.2, (upsertFilter_inv v appName tree).children]

theorem upsertSorted_length (v : TreeView) (appName : String) (tree : ResourceTree) :
    (v.upsertSorted appName tree).length = v.heap.length + tree.Nodes.length := by
  rw [(upsertSorted_inv v appName tree).1.length, upsertBuild_heap_length]

theorem upsertRoot_eq (v : TreeView) (appName : String) (tree : ResourceTree) :
    v.upsertRoot appName tree = v.heap.length + tree.Nodes.length :=
  upsertSorted_length v appName tree

end Argonaut

namespace Argonaut

/-! ## `UpsertAppTree`: the heap it leaves -/

theorem upsertSortedRoots_local (v : TreeView) (appName : String) (tree : ResourceTree)
    (c : Nat) (hc : c ∈ v.upsertSortedRoots appName tree) :
    v.heap.length ≤ c ∧ c < v.heap.length + tree.Nodes.length :=
  upsertFilter_filtered_local v appName tree c ((mem_upsertSortedRoots v appName tree c).1 hc)

theorem upsertHeap_parts (v : TreeView) (appName : String) (tree : ResourceTree) :
    ∃ h4 : List treeNode,
      v.upsertHeap appName tree = h4 ++ [v.upsertRootNode appName tree] ∧
      HeapExt v.heap.length (v.upsertBuild appName tree).heap h4 ∧
      (∀ q, (h4.getD q default).children =
        ((v.upsertSorted appName tree).getD q default).children) ∧
      (∀ q, q ∉ v.upsertSortedRoots appName tree →
        (h4.getD q default).parent = ((v.upsertSorted appName tree).getD q default).parent) ∧
      (∀ q ∈ v.upsertSortedRoots appName tree,
        (h4.getD q default).parent = some (v.upsertRoot appName tree)) := by
  obtain ⟨e1, e2, e3, e4⟩ := foldl_setParent_ext (some (v.upsertRoot appName tree))
    (v.upsertSortedRoots appName tree) (v.upsertSorted appName tree)
    (upsertSorted_inv v appName tree).1
    (fun c hc => (upsertSortedRoots_local v appName tree c hc).1)
  refine ⟨_, rfl, e1, e2, e3, ?_⟩
  intro q hq
  apply e4 q hq
  rw [upsertSorted_length]
  exact (upsertSortedRoots_local v appName tree q hq).2

theorem upsertHeap_length (v : TreeView) (appName : String) (tree : ResourceTree) :
    (v.upsertHeap appName tree).length = v.heap.length + tree.Nodes.length + 1 := by
  obtain ⟨h4, he, hx, _⟩ := upsertHeap_parts v appName tree
  rw [he, List.length_append, hx.length, upsertBuild_heap_length]
  rfl

theorem getD_append_singleton_lt (h : List treeNode) (x : treeNode) (p : Nat)
    (hp : p < h.length) : (h ++ [x]).getD p default = h.getD p default := by
  rw [List.getD_eq_getElem?_getD, List.getD_eq_getElem?_getD, List.getElem?_append_left hp]

theorem getD_append_singleton_eq (h : List treeNode) (x : treeNode) :
    (h ++ [x]).getD h.length default = x := by
  rw [List.getD_eq_getElem?_getD, List.getElem?_append_right (le_refl _)]
  simp

theorem upsertHeap_root (v : TreeView) (appName : String) (tree : ResourceTree) :
    (v.upsertHeap appName tree).getD (v.heap.length + tree.Nodes.length) default =
      v.upsertRootNode appName tree := by
  obtain ⟨h4, he, hx, _⟩ := upsertHeap_parts v appName tree
  have hl : h4.length = v.heap.length + tree.Nodes.length := by
    rw [hx.length, upsertBuild_heap_length]
  rw [he, ← hl]
  exact getD_append_singleton_eq _ _

theorem upsertHeap_old (v : TreeView) (appName : String) (tree : ResourceTree) (p : Nat)
    (hp : p < v.heap.length) :
    (v.upsertHeap appName tree).getD p default = v.heap.getD p default := by
  obtain ⟨h4, he, hx, _⟩ := upsertHeap_parts v appName tree
  have hl : h4.length = v.heap.length + tree.Nodes.length := by
    rw [hx.length, upsertBuild_heap_length]
  rw [he, getD_append_singleton_lt _ _ _ (by omega), hx.old p hp,
    upsertBuild_getD_old v appName tree p hp]

theorem upsertHeap_label (v : TreeView) (appName : String) (tree : ResourceTree) (i : Nat)
    (nd : ResourceNode) (hi : tree.Nodes[i]? = some nd) :
    ((v.upsertHeap appName tree).getD (v.heap.length + i) default).label =
      (TreeView.newNode appName nd).label := by
  obtain ⟨h4, he, hx, _⟩ := upsertHeap_parts v appName tree
  have hl : h4.length = v.heap.length + tree.Nodes.length := by
    rw [hx.length, upsertBuild_heap_length]
  obtain ⟨hlt, _⟩ := List.getElem?_eq_some_iff.1 hi
  rw [he, getD_append_singleton_lt _ _ _ (by omega), hx.label,
    upsertBuild_getD_new v appName tree i nd hi]

theorem upsertHeap_children (v : TreeView) (appName : String) (tree : ResourceTree) (p c : Nat)
    (hp : p < v.heap.length + tree.Nodes.length) :
    c ∈ ((v.upsertHeap appName tree).getD p default).children ↔
      c ∈ ((v.upsertLinked appName tree).getD p default).children := by
  obtain ⟨h4, he, hx, hc, _⟩ := upsertHeap_parts v appName tree
  have hl : h4.length = v.heap.length + tree.Nodes.length := by
    rw [hx.length, upsertBuild_heap_length]
  rw [he, getD_append_singleton_lt _ _ _ (by omega), hc]
  exact (upsertSorted_inv v appName tree).2.2 p c

theorem upsertHeap_parent_of_root (v : TreeView) (appName : String) (tree : ResourceTree)
    (c : Nat) (hc : c ∈ v.upsertSortedRoots appName tree) :
    ((v.upsertHeap appName tree).getD c default).parent =
      some (v.heap.length + tree.Nodes.length) := by
  obtain ⟨h4, he, hx, _, _, hpar⟩ := upsertHeap_parts v appName tree
  have hl : h4.length = v.heap.length + tree.Nodes.length := by
    rw [hx.length, upsertBuild_heap_length]
  have := (upsertSortedRoots_local v appName tree c hc).2
  rw [he, getD_append_singleton_lt _ _ _ (by omega), hpar c hc, upsertRoot_eq]

/-- The children of a node allocated by this call are local nodes that had a
parent after the second pass. -/
theorem upsertHeap_children_local (v : TreeView) (appName : String) (tree : ResourceTree)
    (p c : Nat) (hp0 : v.heap.length ≤ p) (hp : p < v.heap.length + tree.Nodes.length)
    (hc : c ∈ ((v.upsertHeap appName tree).getD p default).children) :
    v.heap.length ≤ c ∧ c < v.heap.length + tree.Nodes.length ∧
    ((v.upsertLinked appName tree).getD c default).parent ≠ none :=
  upsertLinked_children_local v appName tree p c hp0
    ((upsertHeap_children v appName tree p c hp).1 hc)

end Argonaut

namespace Argonaut

/-! ## Keys -/

theorem makeKey_data (a u : String) :
    (TreeView.makeKey a u).data = a.data ++ (':' :: ':' :: u.data) := by
  simp [TreeView.makeKey, String.data_append]

theorem makeKey_inj (a u u' : String) (h : TreeView.makeKey a u = TreeView.makeKey a u') :
    u = u' := by
  have hd := congrArg String.data h
  rw [makeKey_data, makeKey_data] at hd
  have := List.append_cancel_left hd
  simp only [List.cons.injEq, true_and] at this
  exact String.ext this

/-! ## What the walk can reach -/

theorem walkEach_closed (S : Nat → Prop) (step : Nat → Option (List Nat))
    (hstep : ∀ c l, S c → step c = some l → ∀ q ∈ l, S q)
    (cs : List Nat) (l : List Nat) (h : TreeView.walkEach step cs = some l)
    (hcs : ∀ c ∈ cs, S c) : ∀ q ∈ l, S q := by
  induction cs generalizing l with
  | nil =>
    simp only [TreeView.walkEach, Option.some.injEq] at h
    subst h
    intro q hq
    cases hq
  | cons c cs ih =>
    unfold TreeView.walkEach at h
    cases hc : step c with
    | none => rw [hc] at h; cases h
    | some a =>
      rw [hc] at h
      cases hr : TreeView.walkEach step cs with
      | none => rw [hr] at h; cases h
      | some b =>
        rw [hr] at h
        simp only [Option.some.injEq] at h
        subst h
        intro q hq
        rcases List.mem_append.1 hq with hq | hq
        · exact hstep c a (hcs c (List.mem_cons_self _ _)) hc q hq
        · exact ih b hr (fun c' hc' => hcs c' (List.mem_cons_of_mem _ hc')) q hq

/-- The walk stays inside any set of nodes that is closed under children. -/
theorem walk_closed (v : TreeView) (S : Nat → Prop)
    (hS : ∀ p, S p → ∀ c ∈ (v.node p).children, S c) (fuel : Nat) :
    ∀ n l, S n → TreeView.walk v fuel n = some l → ∀ q ∈ l, S q := by
  induction fuel with
  | zero =>
    intro n l _ h
    simp [TreeView.walk] at h
  | succ fuel ih =>
    intro n l hn h
    unfold TreeView.walk at h
    split at h
    · cases hw : TreeView.walkEach (TreeView.walk v fuel) (v.node n).children with
      | none => rw [hw] at h; cases h
      | some t =>
        rw [hw] at h
        simp only [Option.map_some', Option.some.injEq] at h
        subst h
        intro q hq
        rcases List.mem_cons.1 hq with rfl | hq
        · exact hn
        · exact walkEach_closed S _ ih _ t hw (hS n hn) q hq
    · simp only [Option.some.injEq] at h
      subst h
      intro q hq
      rw [List.mem_singleton.1 hq]
      exact hn

theorem walkRoots_closed (v : TreeView) (S : Nat → Prop)
    (hS : ∀ p, S p → ∀ c ∈ (v.node p).children, S c) (hroots : ∀ r ∈ v.roots, S r)
    (order : List Nat) (h : TreeView.walkRoots v = some order) : ∀ q ∈ order, S q :=
  walkEach_closed S _ (walk_closed v S hS _) _ order h hroots

/-- Apart from the node it starts at, the walk only visits children. -/
theorem walk_tail_children (v : TreeView) (fuel : Nat) :
    ∀ n l, TreeView.walk v fuel n = some l →
      ∃ t, l = n :: t ∧ ∀ q ∈ t, ∃ p, q ∈ (v.node p).children := by
  induction fuel with
  | zero =>
    intro n l h
    simp [TreeView.walk] at h
  | succ fuel ih =>
    intro n l h
    unfold TreeView.walk at h
    split at h
    · cases hw : TreeView.walkEach (TreeView.walk v fuel) (v.node n).children with
      | none => rw [hw] at h; cases h
      | some t =>
        rw [hw] at h
        simp only [Option.map_some', Option.some.injEq] at h
        subst h
        refine ⟨t, rfl, ?_⟩
        apply walkEach_closed (fun q => ∃ p, q ∈ (v.node p).children) _ _ _ t hw
        · intro c hc
          exact ⟨n, hc⟩
        · intro c l' hc hl' q hq
          obtain ⟨t', rfl, ht'⟩ := ih c l' hl'
          rcases List.mem_cons.1 hq with rfl | hq
          · exact hc
          · exact ht' q hq
    · simp only [Option.some.injEq] at h
      subst h
      exact ⟨[], rfl, fun q hq => by cases hq⟩

theorem walkRoots_mem (v : TreeView) (order : List Nat)
    (h : TreeView.walkRoots v = some order) :
    ∀ q ∈ order, q ∈ v.roots ∨ ∃ p, q ∈ (v.node p).children := by
  apply walkEach_closed (fun q => q ∈ v.roots ∨ ∃ p, q ∈ (v.node p).children) _ _ _ order h
  · intro r hr
    exact Or.inl hr
  · intro c l hc hl q hq
    obtain ⟨t, rfl, ht⟩ := walk_tail_children v _ c l hl
    rcases List.mem_cons.1 hq with rfl | hq
    · exact hc
    · exact Or.inr (ht q hq)

theorem walkEach_count (x : Nat) (step : Nat → Option (List Nat))
    (hx : ∀ l, step x = some l → l.count x = 1)
    (hne : ∀ c l, c ≠ x → step c = some l → x ∉ l)
    (cs : List Nat) (l : List Nat) (h : TreeView.walkEach step cs = some l) :
    l.count x = cs.count x := by
  induction cs generalizing l with
  | nil =>
    simp only [TreeView.walkEach, Option.some.injEq] at h
    subst h
    rfl
  | cons c cs ih =>
    unfold TreeView.walkEach at h
    cases hc : step c with
    | none => rw [hc] at h; cases h
    | some a =>
      rw [hc] at h
      cases hr : TreeView.walkEach step cs with
      | none => rw [hr] at h; cases h
      | some b =>
        rw [hr] at h
        simp only [Option.some.injEq] at h
        subst h
        rw [List.count_append, ih b hr, List.count_cons]
        by_cases hcx : c = x
        · subst hcx
          rw [hx a hc]
          simp
          omega
        · rw [List.count_eq_zero_of_not_mem (hne c a hcx hc)]
          simp [hcx]

end Argonaut

namespace Argonaut

/-! ## Operations that keep the forest -/

theorem SameForest.forest_refl (v : TreeView) : SameForest v v := ⟨rfl, rfl, rfl, rfl, rfl⟩

theorem SameForest.forest_trans {a b c : TreeView} (h1 : SameForest a b) (h2 : SameForest b c) :
    SameForest a c :=
  ⟨h2.heap.trans h1.heap, h2.nodesByUID.trans h1.nodesByUID, h2.nodesByApp.trans h1.nodesByApp,
    h2.rootByApp.trans h1.rootByApp, h2.roots.trans h1.roots⟩

theorem clampSelection_sameForest (v : TreeView) : SameForest v (TreeView.clampSelection v) := by
  unfold TreeView.clampSelection
  by_cases h : v.selIdx ≥ v.order.length
  · simp only [h, if_true]
    split <;> exact ⟨rfl, rfl, rfl, rfl, rfl⟩
  · simp only [h, if_false]
    split <;> exact ⟨rfl, rfl, rfl, rfl, rfl⟩

theorem rebuildOrder_sameForest (v v' : TreeView) (h : TreeView.rebuildOrder v = some v') :
    SameForest v v' := by
  obtain ⟨order, _, rfl⟩ := rebuildOrder_eq_some v v' h
  exact SameForest.forest_trans (by exact ⟨rfl, rfl, rfl, rfl, rfl⟩) (clampSelection_sameForest _)

theorem syncSelectedUID_sameForest (v : TreeView) : SameForest v (TreeView.syncSelectedUID v) := by
  unfold TreeView.syncSelectedUID
  split <;> exact ⟨rfl, rfl, rfl, rfl, rfl⟩

theorem updateKey_sameForest (v v' : TreeView) (k : String)
    (h : TreeView.updateKey v k = some v') : SameForest v v' := by
  unfold TreeView.updateKey at h
  split at h
  · simp only [Option.some.injEq] at h
    subst h
    split <;> exact ⟨rfl, rfl, rfl, rfl, rfl⟩
  · split at h
    · simp only [Option.some.injEq] at h
      subst h
      split <;> exact ⟨rfl, rfl, rfl, rfl, rfl⟩
    · split at h
      · split at h
        · simp only at h
          split at h
          · exact SameForest.forest_trans (by exact ⟨rfl, rfl, rfl, rfl, rfl⟩) (rebuildOrder_sameForest _ _ h)
          · split at h
            · simp only [Option.some.injEq] at h
              subst h
              split <;> exact ⟨rfl, rfl, rfl, rfl, rfl⟩
            · simp only [Option.some.injEq] at h
              subst h
              exact SameForest.forest_refl _
        · simp only [Option.some.injEq] at h
          subst h
          exact SameForest.forest_refl _
      · split at h
        · split at h
          · simp only at h
            split at h
            · exact SameForest.forest_trans (by exact ⟨rfl, rfl, rfl, rfl, rfl⟩) (rebuildOrder_sameForest _ _ h)
            · simp only [Option.some.injEq] at h
              subst h
              exact SameForest.forest_refl _
          · simp only [Option.some.injEq] at h
            subst h
            exact SameForest.forest_refl _
        · split at h
          · exact SameForest.forest_trans (by exact ⟨rfl, rfl, rfl, rfl, rfl⟩) (rebuildOrder_sameForest _ _ h)
          · split at h
            · exact SameForest.forest_trans (by exact ⟨rfl, rfl, rfl, rfl, rfl⟩) (rebuildOrder_sameForest _ _ h)
            · simp only [Option.some.injEq] at h
              subst h
              exact SameForest.forest_refl _

theorem Update_sameForest (v v' : TreeView) (msg : Msg) (h : v.Update msg = some v') :
    SameForest v v' := by
  unfold TreeView.Update at h
  cases msg with
  | key k =>
    simp only at h
    cases hk : TreeView.updateKey v k with
    | none => rw [hk] at h; cases h
    | some w =>
      rw [hk] at h
      simp only [Option.map_some', Option.some.injEq] at h
      subst h
      exact SameForest.forest_trans (updateKey_sameForest v w k hk) (syncSelectedUID_sameForest w)
  | windowSize w hgt =>
    simp only [Option.some.injEq] at h
    subst h
    exact ⟨rfl, rfl, rfl, rfl, rfl⟩
  | other =>
    simp only [Option.some.injEq] at h
    subst h
    exact SameForest.forest_refl _

theorem SetSelectedIndex_sameForest (v : TreeView) (idx : Int) :
    SameForest v (v.SetSelectedIndex idx) := by
  unfold TreeView.SetSelectedIndex
  exact SameForest.forest_trans (by exact ⟨rfl, rfl, rfl, rfl, rfl⟩) (syncSelectedUID_sameForest _)

theorem ToggleSelection_sameForest (v : TreeView) : SameForest v v.ToggleSelection.1 := by
  unfold TreeView.ToggleSelection
  split
  · exact SameForest.forest_refl _
  · simp only
    split
    · exact SameForest.forest_refl _
    · split
      · exact SameForest.forest_refl _
      · split <;> exact ⟨rfl, rfl, rfl, rfl, rfl⟩

theorem SetFilter_sameForest (v : TreeView) (q : String) : SameForest v (v.SetFilter q) := by
  unfold TreeView.SetFilter TreeView.rebuildMatches
  split <;> exact ⟨rfl, rfl, rfl, rfl, rfl⟩

theorem gotoCurrentMatch_sameForest (v : TreeView) :
    SameForest v (TreeView.gotoCurrentMatch v) := by
  unfold TreeView.gotoCurrentMatch
  exact SameForest.forest_trans (by exact ⟨rfl, rfl, rfl, rfl, rfl⟩) (syncSelectedUID_sameForest _)

theorem gotoMatch_sameForest (v v' : TreeView) (c : Int) (moved : Bool) (g : Prop)
    [Decidable g]
    (h : (if g then some (TreeView.gotoCurrentMatch { v with currentMatch := c }, true)
      else none) = some (v', moved)) : SameForest v v' := by
  split at h
  · simp only [Option.some.injEq, Prod.mk.injEq] at h
    rw [← h.1]
    exact SameForest.forest_trans (by exact ⟨rfl, rfl, rfl, rfl, rfl⟩)
      (gotoCurrentMatch_sameForest _)
  · cases h

theorem NextMatch_sameForest (v v' : TreeView) (moved : Bool)
    (h : v.NextMatch = some (v', moved)) : SameForest v v' := by
  unfold TreeView.NextMatch at h
  by_cases h0 : v.matchIndices.length = 0
  · rw [if_pos h0] at h
    simp only [Option.some.injEq, Prod.mk.injEq] at h
    rw [← h.1]
    exact SameForest.forest_refl _
  · rw [if_neg h0] at h
    exact gotoMatch_sameForest v v' _ moved _ h

theorem PrevMatch_sameForest (v v' : TreeView) (moved : Bool)
    (h : v.PrevMatch = some (v', moved)) : SameForest v v' := by
  unfold TreeView.PrevMatch at h
  by_cases h0 : v.matchIndices.length = 0
  · rw [if_pos h0] at h
    simp only [Option.some.injEq, Prod.mk.injEq] at h
    rw [← h.1]
    exact SameForest.forest_refl _
  · rw [if_neg h0] at h
    exact gotoMatch_sameForest v v' _ moved _ h

theorem JumpToFirstMatch_sameForest (v : TreeView) : SameForest v v.JumpToFirstMatch.1 := by
  unfold TreeView.JumpToFirstMatch
  split
  · exact SameForest.forest_refl _
  · exact SameForest.forest_trans (by exact ⟨rfl, rfl, rfl, rfl, rfl⟩) (gotoCurrentMatch_sameForest _)

theorem ClearSelection_sameForest (v : TreeView) : SameForest v v.ClearSelection :=
  ⟨rfl, rfl, rfl, rfl, rfl⟩

theorem ClearFilter_sameForest (v : TreeView) : SameForest v v.ClearFilter :=
  ⟨rfl, rfl, rfl, rfl, rfl⟩

theorem SetAppMeta_sameForest (v : TreeView) (name health sync : String) :
    SameForest v (v.SetAppMeta name health sync) :=
  ⟨rfl, rfl, rfl, rfl, rfl⟩

theorem SetSize_sameForest (v : TreeView) (width height : Int) :
    SameForest v (v.SetSize width height) :=
  ⟨rfl, rfl, rfl, rfl, rfl⟩

theorem SetDesaturateMode_sameForest (v : TreeView) (enabled : Bool) :
    SameForest v (v.SetDesaturateMode enabled) :=
  ⟨rfl, rfl, rfl, rfl, rfl⟩

theorem SetFlashAll_sameForest (v : TreeView) (enabled : Bool) :
    SameForest v (v.SetFlashAll enabled) :=
  ⟨rfl, rfl, rfl, rfl, rfl⟩

theorem SameForest.sameLinks {v v' : TreeView} (hs : SameForest v v') : SameLinks v v' :=
  ⟨by rw [hs.heap], fun p => by unfold TreeView.node; rw [hs.heap], hs.nodesByUID,
    hs.nodesByApp, hs.rootByApp, hs.roots⟩

theorem setStatus_length (h : List treeNode) (q : Nat) (s : String) :
    (TreeView.setStatus h q s).length = h.length :=
  heapModify_length _ _ _

theorem setStatus_children (h : List treeNode) (q : Nat) (s : String) (p : Nat) :
    ((TreeView.setStatus h q s).getD p default).children = (h.getD p default).children := by
  unfold TreeView.setStatus
  rcases heapModify_getD_cases h q p (fun c => { c with status := s }) with hc | ⟨rfl, _, hc⟩
  · rw [hc]
  · rw [hc]

theorem setNodeStatus_links (nodesByUID : GoMap Nat) (statusByKey : GoMap String)
    (h : List treeNode) (nodeKey : String) :
    (TreeView.setNodeStatus nodesByUID statusByKey h nodeKey).length = h.length ∧
    ∀ p, ((TreeView.setNodeStatus nodesByUID statusByKey h nodeKey).getD p default).children =
      (h.getD p default).children := by
  unfold TreeView.setNodeStatus
  split
  · simp only
    split
    · exact ⟨setStatus_length _ _ _, setStatus_children _ _ _⟩
    · exact ⟨rfl, fun _ => rfl⟩
  · exact ⟨rfl, fun _ => rfl⟩

/-- `SetResourceStatuses` rewrites statuses only: every link stays. -/
theorem SetResourceStatuses_sameLinks (v : TreeView) (appName : String)
    (resources : List ResourceStatus) :
    SameLinks v (v.SetResourceStatuses appName resources) := by
  unfold TreeView.SetResourceStatuses
  simp only
  split
  · rename_i keys _
    have hfold : ∀ (m : GoMap String) (h0 : List treeNode),
        (keys.foldl (TreeView.setNodeStatus v.nodesByUID m) h0).length = h0.length ∧
        ∀ p, ((keys.foldl (TreeView.setNodeStatus v.nodesByUID m) h0).getD p default).children =
          (h0.getD p default).children := by
      intro m h0
      apply foldl_inv (fun h : List treeNode => h.length = h0.length ∧
        ∀ p, (h.getD p default).children = (h0.getD p default).children) _ _ _
        ⟨rfl, fun _ => rfl⟩
      intro s k _ hs
      obtain ⟨h1, h2⟩ := setNodeStatus_links v.nodesByUID m s k
      exact ⟨h1.trans hs.1, fun p => (h2 p).trans (hs.2 p)⟩
    exact ⟨(hfold _ _).1, (hfold _ _).2, rfl, rfl, rfl, rfl⟩
  · exact ⟨rfl, fun _ => rfl, rfl, rfl, rfl, rfl⟩

theorem Closed.closed_of_sameLinks {v v' : TreeView} (hs : SameLinks v v') (hc : Closed v) :
    Closed v' := by
  refine ⟨?_, ?_, ?_, ?_⟩
  · intro p hp c hcm
    rw [hs.children] at hcm
    rw [hs.length] at hp ⊢
    exact hc.children p hp c hcm
  · intro r hr
    rw [hs.roots] at hr
    rw [hs.length]
    exact hc.roots r hr
  · intro k p hk
    rw [hs.nodesByUID] at hk
    rw [hs.length]
    exact hc.index k p hk
  · intro a r hr
    rw [hs.rootByApp] at hr
    rw [hs.length]
    exact hc.rootByApp a r hr

theorem Closed.closed_of_sameForest {v v' : TreeView} (hs : SameForest v v') (hc : Closed v) :
    Closed v' := by
  refine ⟨?_, ?_, ?_, ?_⟩
  · intro p hp c hcm
    unfold TreeView.node at hcm
    rw [hs.heap] at hp hcm ⊢
    exact hc.children p hp c hcm
  · intro r hr
    rw [hs.roots] at hr
    rw [hs.heap]
    exact hc.roots r hr
  · intro k p hk
    rw [hs.nodesByUID] at hk
    rw [hs.heap]
    exact hc.index k p hk
  · intro a r hr
    rw [hs.rootByApp] at hr
    rw [hs.heap]
    exact hc.rootByApp a r hr

end Argonaut

namespace Argonaut

/-! ## Removing the previous entries of an application -/

theorem mapGet_foldl_mapDelete {ν : Type} (keys : List String) (m : GoMap ν) (k : String) :
    mapGet (keys.foldl mapDelete m) k = if k ∈ keys then none else mapGet m k := by
  induction keys generalizing m with
  | nil => simp
  | cons a keys ih =>
    rw [List.foldl_cons, ih, mapGet_mapDelete]
    by_cases hk : k ∈ keys
    · simp [hk]
    · by_cases hka : k = a
      · simp [hka]
      · simp [hk, hka]

theorem mapDelete_eq_self {ν : Type} (m : GoMap ν) (k : String) (h : mapGet m k = none) :
    mapDelete m k = m := by
  unfold mapDelete
  rw [List.filter_eq_self]
  intro e he
  have := (mapGet_eq_none_iff m k).1 h e.2
  simp only [ne_eq, decide_eq_true_eq]
  intro hk
  apply this
  rw [← hk]
  exact he

theorem removeApp_nodesByUID (v : TreeView) (appName : String) (k : String) :
    mapGet (v.removeApp appName).nodesByUID k =
      if k ∈ v.oldKeys appName then none else mapGet v.nodesByUID k := by
  unfold TreeView.removeApp TreeView.oldKeys
  cases hk : mapGet v.nodesByApp appName with
  | none =>
    simp only [Option.getD_none, List.not_mem_nil, if_false]
    split <;> rfl
  | some keys =>
    simp only [Option.getD_some]
    rw [← mapGet_foldl_mapDelete]
    split <;> rfl

theorem removeApp_expanded (v : TreeView) (appName : String) (k : String) :
    mapGet (v.removeApp appName).expanded k =
      if k ∈ v.oldKeys appName then none else mapGet v.expanded k := by
  unfold TreeView.removeApp TreeView.oldKeys
  cases hk : mapGet v.nodesByApp appName with
  | none =>
    simp only [Option.getD_none, List.not_mem_nil, if_false]
    split <;> rfl
  | some keys =>
    simp only [Option.getD_some]
    rw [← mapGet_foldl_mapDelete]
    split <;> rfl

theorem removeApp_nodesByApp (v : TreeView) (appName : String) :
    (v.removeApp appName).nodesByApp = mapDelete v.nodesByApp appName := by
  unfold TreeView.removeApp
  cases hk : mapGet v.nodesByApp appName with
  | none =>
    rw [mapDelete_eq_self _ _ hk]
    simp only
    split <;> rfl
  | some keys =>
    simp only
    split <;> rfl

theorem removeApp_rootByApp (v : TreeView) (appName : String) :
    (v.removeApp appName).rootByApp = mapDelete v.rootByApp appName := by
  have h1 : ∀ w : TreeView, w.rootByApp = v.rootByApp →
      (match mapGet w.rootByApp appName with
        | some oldRoot =>
          ({ w with roots := w.roots.erase oldRoot,
                    rootByApp := mapDelete w.rootByApp appName } : TreeView)
        | none => w).rootByApp = mapDelete v.rootByApp appName := by
    intro w hw
    cases hr : mapGet w.rootByApp appName with
    | none =>
      simp only
      rw [hw] at hr
      rw [mapDelete_eq_self _ _ hr, hw]
    | some r =>
      simp only
      rw [hw]
  unfold TreeView.removeApp
  apply h1
  split <;> rfl

theorem removeApp_roots (v : TreeView) (appName : String) :
    (v.removeApp appName).roots =
      match mapGet v.rootByApp appName with
      | some oldRoot => v.roots.erase oldRoot
      | none => v.roots := by
  have h1 : ∀ w : TreeView, w.rootByApp = v.rootByApp → w.roots = v.roots →
      (match mapGet w.rootByApp appName with
        | some oldRoot =>
          ({ w with roots := w.roots.erase oldRoot,
                    rootByApp := mapDelete w.rootByApp appName } : TreeView)
        | none => w).roots =
      match mapGet v.rootByApp appName with
      | some oldRoot => v.roots.erase oldRoot
      | none => v.roots := by
    intro w hw hwr
    rw [hw]
    cases hr : mapGet v.rootByApp appName with
    | none => exact hwr
    | some r =>
      simp only
      rw [hwr]
  unfold TreeView.removeApp
  apply h1 <;> split <;> rfl

theorem removeApp_roots_subset (v : TreeView) (appName : String) (r : Nat)
    (h : r ∈ (v.removeApp appName).roots) : r ∈ v.roots := by
  rw [removeApp_roots] at h
  split at h
  · exact List.mem_of_mem_erase h
  · exact h

theorem removeApp_appMeta (v : TreeView) (appName : String) :
    (v.removeApp appName).appMeta = v.appMeta := by
  unfold TreeView.removeApp
  cases mapGet v.nodesByApp appName <;> simp only <;> split <;> rfl

/-! ## The fields of the view after `UpsertAppTree` -/

theorem UpsertAppTree_sameForest (v v' : TreeView) (appName : String) (tree : ResourceTree)
    (h : v.UpsertAppTree appName tree = some v') :
    SameForest (v.upsertCore appName tree) v' :=
  rebuildOrder_sameForest _ _ h

theorem UpsertAppTree_heap (v v' : TreeView) (appName : String) (tree : ResourceTree)
    (h : v.UpsertAppTree appName tree = some v') : v'.heap = v.upsertHeap appName tree :=
  (UpsertAppTree_sameForest v v' appName tree h).heap

theorem UpsertAppTree_nodesByUID (v v' : TreeView) (appName : String) (tree : ResourceTree)
    (h : v.UpsertAppTree appName tree = some v') :
    v'.nodesByUID = mapSet (v.upsertFilter appName tree).nodesByUID
      (TreeView.makeKey appName "__app_root__") (v.upsertRoot appName tree) :=
  (UpsertAppTree_sameForest v v' appName tree h).nodesByUID

theorem UpsertAppTree_roots (v v' : TreeView) (appName : String) (tree : ResourceTree)
    (h : v.UpsertAppTree appName tree = some v') :
    v'.roots = ((v.removeApp appName).roots ++ [v.upsertRoot appName tree]).insertionSort
      (fun a b => TreeView.rootLess (v.upsertHeap appName tree) b a = false) :=
  (UpsertAppTree_sameForest v v' appName tree h).roots

theorem UpsertAppTree_rootByApp (v v' : TreeView) (appName : String) (tree : ResourceTree)
    (h : v.UpsertAppTree appName tree = some v') :
    v'.rootByApp = mapSet (v.removeApp appName).rootByApp appName (v.upsertRoot appName tree) :=
  (UpsertAppTree_sameForest v v' appName tree h).rootByApp

theorem UpsertAppTree_nodesByApp (v v' : TreeView) (appName : String) (tree : ResourceTree)
    (h : v.UpsertAppTree appName tree = some v') :
    v'.nodesByApp = mapSet (v.removeApp appName).nodesByApp appName (v.upsertKeys appName tree) :=
  (UpsertAppTree_sameForest v v' appName tree h).nodesByApp

theorem mem_UpsertAppTree_roots (v v' : TreeView) (appName : String) (tree : ResourceTree)
    (h : v.UpsertAppTree appName tree = some v') (r : Nat) :
    r ∈ v'.roots ↔ r ∈ (v.removeApp appName).roots ∨ r = v.heap.length + tree.Nodes.length := by
  rw [UpsertAppTree_roots v v' appName tree h, (List.perm_insertionSort _ _).mem_iff,
    List.mem_append, List.mem_singleton, upsertRoot_eq]

/-- An index entry after `UpsertAppTree` is the synthetic root, a local node under
its own key, or an entry of the previous index. -/
theorem UpsertAppTree_index_cases (v v' : TreeView) (appName : String) (tree : ResourceTree)
    (h : v.UpsertAppTree appName tree = some v') (k : String) (p : Nat)
    (hk : mapGet v'.nodesByUID k = some p) :
    (k = TreeView.makeKey appName "__app_root__" ∧ p = v.heap.length + tree.Nodes.length) ∨
    (k ≠ TreeView.makeKey appName "__app_root__" ∧
      mapGet (v.upsertFilter appName tree).nodesByUID k = some p ∧
      (k, p) ∈ (v.upsertBuild appName tree).nodesLocal) ∨
    (k ≠ TreeView.makeKey appName "__app_root__" ∧
      mapGet (v.upsertBuild appName tree).nodesLocal k = none ∧
      k ∉ v.oldKeys appName ∧ mapGet v.nodesByUID k = some p) := by
  rw [UpsertAppTree_nodesByUID v v' appName tree h, mapGet_mapSet] at hk
  split at hk
  · rename_i hkr
    left
    simp only [Option.some.injEq] at hk
    rw [upsertRoot_eq] at hk
    exact ⟨hkr, hk.symm⟩
  · rename_i hkr
    right
    have hb := (upsertFilter_inv v appName tree).index k p hk
    rw [upsertBuild_nodesByUID] at hb
    cases hl : mapGet (v.upsertBuild appName tree).nodesLocal k with
    | some q =>
      rw [hl] at hb
      simp only [Option.some.injEq] at hb
      subst hb
      exact Or.inl ⟨hkr, hk, mem_of_mapGet _ _ _ hl⟩
    | none =>
      rw [hl] at hb
      simp only at hb
      rw [removeApp_nodesByUID] at hb
      split at hb
      · cases hb
      · rename_i hold
        exact Or.inr ⟨hkr, rfl, hold, hb⟩

/-! ## Closed views -/

theorem Closed.closed_new (width height : Int) : Closed (TreeView.NewTreeView width height) := by
  refine ⟨?_, ?_, ?_, ?_⟩
  · intro p hp
    simp [TreeView.NewTreeView] at hp
  · intro r hr
    simp [TreeView.NewTreeView] at hr
  · intro k p hk
    simp [TreeView.NewTreeView, mapGet] at hk
  · intro a r hr
    simp [TreeView.NewTreeView, mapGet] at hr

theorem Closed.closed_reset {v : TreeView} (hc : Closed v) : Closed v.resetData := by
  refine ⟨fun p hp c hcm => hc.children p hp c hcm, ?_, ?_, ?_⟩
  · intro r hr
    cases hr
  · intro k p hk
    simp [TreeView.resetData, mapGet] at hk
  · intro a r hr
    simp [TreeView.resetData, mapGet] at hr

theorem Closed.closed_upsert {v v' : TreeView} (hc : Closed v) (appName : String) (tree : ResourceTree)
    (h : v.UpsertAppTree appName tree = some v') : Closed v' := by
  have hheap := UpsertAppTree_heap v v' appName tree h
  have hlen : v'.heap.length = v.heap.length + tree.Nodes.length + 1 := by
    rw [hheap, upsertHeap_length]
  refine ⟨?_, ?_, ?_, ?_⟩
  · intro p hp c hcm
    unfold TreeView.node at hcm
    rw [hheap] at hcm
    rw [hlen] at hp ⊢
    by_cases h1 : p < v.heap.length
    · rw [upsertHeap_old v appName tree p h1] at hcm
      have := hc.children p h1 c hcm
      omega
    · by_cases h2 : p < v.heap.length + tree.Nodes.length
      · have := upsertHeap_children_local v appName tree p c (not_lt.mp h1) h2 hcm
        omega
      · have hp' : p = v.heap.length + tree.Nodes.length := by omega
        rw [hp', upsertHeap_root] at hcm
        have := upsertSortedRoots_local v appName tree c hcm
        omega
  · intro r hr
    rw [hlen]
    rcases (mem_UpsertAppTree_roots v v' appName tree h r).1 hr with hr | hr
    · have := hc.roots r (removeApp_roots_subset v appName r hr)
      omega
    · omega
  · intro k p hk
    rw [hlen]
    rcases UpsertAppTree_index_cases v v' appName tree h k p hk with ⟨_, hp⟩ | ⟨_, _, hm⟩ |
      ⟨_, _, _, hold⟩
    · omega
    · have := upsertBuild_local_range v appName tree k p hm
      omega
    · have := hc.index k p hold
      omega
  · intro a r hr
    rw [hlen]
    rw [UpsertAppTree_rootByApp v v' appName tree h, mapGet_mapSet] at hr
    split at hr
    · simp only [Option.some.injEq] at hr
      rw [upsertRoot_eq] at hr
      omega
    · rw [removeApp_rootByApp, mapGet_mapDelete] at hr
      split at hr
      · cases hr
      · have := hc.rootByApp a r hr
        omega

theorem Reached.closed {names : List String} {v : TreeView} (h : Reached names v) :
    Closed v := by
  induction h with
  | new width height => exact Closed.closed_new width height
  | upsert appName tree _ hu ih => exact ih.closed_upsert appName tree hu
  | update msg _ hu ih => exact Closed.closed_of_sameForest (Update_sameForest _ _ msg hu) ih
  | setSelectedIndex idx _ ih => exact Closed.closed_of_sameForest (SetSelectedIndex_sameForest _ idx) ih
  | toggleSelection _ ih => exact Closed.closed_of_sameForest (ToggleSelection_sameForest _) ih
  | clearSelection _ ih => exact Closed.closed_of_sameForest (ClearSelection_sameForest _) ih
  | setFilter q _ ih => exact Closed.closed_of_sameForest (SetFilter_sameForest _ q) ih
  | clearFilter _ ih => exact Closed.closed_of_sameForest (ClearFilter_sameForest _) ih
  | nextMatch _ hu ih => exact Closed.closed_of_sameForest (NextMatch_sameForest _ _ _ hu) ih
  | prevMatch _ hu ih => exact Closed.closed_of_sameForest (PrevMatch_sameForest _ _ _ hu) ih
  | jumpToFirstMatch _ ih => exact Closed.closed_of_sameForest (JumpToFirstMatch_sameForest _) ih
  | setAppMeta name health sync _ ih =>
    exact Closed.closed_of_sameForest (SetAppMeta_sameForest _ name health sync) ih
  | setSize width height _ ih =>
    exact Closed.closed_of_sameForest (SetSize_sameForest _ width height) ih
  | setDesaturateMode enabled _ ih =>
    exact Closed.closed_of_sameForest (SetDesaturateMode_sameForest _ enabled) ih
  | setFlashAll enabled _ ih =>
    exact Closed.closed_of_sameForest (SetFlashAll_sameForest _ enabled) ih
  | setData tree _ hu ih => exact ih.closed_reset.closed_upsert _ tree hu
  | setResourceStatuses appName resources _ ih =>
    exact Closed.closed_of_sameLinks (SetResourceStatuses_sameLinks _ appName resources) ih

end Argonaut

namespace Argonaut

/-! ## The duplicate of the synthetic root -/

theorem walk_tail_closed (v : TreeView) (S : Nat → Prop)
    (hS : ∀ p, S p → ∀ c ∈ (v.node p).children, S c) (fuel : Nat) (n : Nat) (l : List Nat)
    (hn : ∀ c ∈ (v.node n).children, S c) (h : TreeView.walk v fuel n = some l) :
    ∃ t, l = n :: t ∧ ∀ q ∈ t, S q := by
  cases fuel with
  | zero => simp [TreeView.walk] at h
  | succ fuel =>
    unfold TreeView.walk at h
    split at h
    · cases hw : TreeView.walkEach (TreeView.walk v fuel) (v.node n).children with
      | none => rw [hw] at h; cases h
      | some t =>
        rw [hw] at h
        simp only [Option.map_some', Option.some.injEq] at h
        subst h
        exact ⟨t, rfl, walkEach_closed S _ (walk_closed v S hS fuel) _ t hw hn⟩
    · simp only [Option.some.injEq] at h
      subst h
      exact ⟨[], rfl, fun q hq => by cases hq⟩

theorem node_upsertCore (v : TreeView) (appName : String) (tree : ResourceTree) (p : Nat) :
    (v.upsertCore appName tree).node p = (v.upsertHeap appName tree).getD p default := rfl

theorem node_UpsertAppTree (v v' : TreeView) (appName : String) (tree : ResourceTree)
    (h : v.UpsertAppTree appName tree = some v') (p : Nat) :
    v'.node p = (v.upsertHeap appName tree).getD p default := by
  unfold TreeView.node
  rw [UpsertAppTree_heap v v' appName tree h]

/-- The children of any node after `UpsertAppTree`: below `base` for an old
node, local nodes for a node of this call. -/
theorem upsertHeap_children_cases (v : TreeView) (hc : Closed v) (appName : String)
    (tree : ResourceTree) (p c : Nat)
    (hcm : c ∈ ((v.upsertHeap appName tree).getD p default).children) :
    (p < v.heap.length ∧ c < v.heap.length) ∨
    (v.heap.length ≤ p ∧ p < v.heap.length + tree.Nodes.length ∧
      c ∈ ((v.upsertLinked appName tree).getD p default).children) ∨
    (p = v.heap.length + tree.Nodes.length ∧ c ∈ (v.upsertFilter appName tree).filtered) := by
  by_cases h1 : p < v.heap.length
  · rw [upsertHeap_old v appName tree p h1] at hcm
    exact Or.inl ⟨h1, hc.children p h1 c hcm⟩
  · by_cases h2 : p < v.heap.length + tree.Nodes.length
    · exact Or.inr (Or.inl ⟨not_lt.mp h1, h2, (upsertHeap_children v appName tree p c h2).1 hcm⟩)
    · by_cases h3 : p = v.heap.length + tree.Nodes.length
      · rw [h3, upsertHeap_root] at hcm
        exact Or.inr (Or.inr ⟨h3, (mem_upsertSortedRoots v appName tree c).1 hcm⟩)
      · have : (v.upsertHeap appName tree).length ≤ p := by
          rw [upsertHeap_length]; omega
        rw [List.getD_eq_default _ _ this] at hcm
        cases hcm

/-- A child, after `UpsertAppTree`, of a node of this call is a local node that
the second pass gave a parent, or -- under the synthetic root -- a local node
without a parent that is not an Application node named like the app. -/
theorem upsertHeap_new_child (v : TreeView) (hc : Closed v) (appName : String)
    (tree : ResourceTree) (p c : Nat) (hp : v.heap.length ≤ p)
    (hcm : c ∈ ((v.upsertHeap appName tree).getD p default).children) :
    (∃ k, (k, c) ∈ (v.upsertBuild appName tree).nodesLocal) ∧
    (((v.upsertLinked appName tree).getD c default).parent ≠ none ∨
      ¬ isAppNode appName (v.upsertLinked appName tree) c) := by
  rcases upsertHeap_children_cases v hc appName tree p c hcm with ⟨h1, _⟩ | ⟨h1, _, h3⟩ |
    ⟨_, h2⟩
  · omega
  · obtain ⟨hk, hpar⟩ := (upsertLinked_inv v appName tree).2.children p c h1 h3
    exact ⟨hk, Or.inl hpar⟩
  · rcases (upsertFilter_inv v appName tree).filtered c h2 with ⟨hr, hna⟩ | ⟨q, hq, _, hcq⟩
    · exact ⟨((mem_upsertTempRoots v appName tree c).1 hr).1, Or.inr hna⟩
    · obtain ⟨⟨k, hk⟩, _⟩ := (mem_upsertTempRoots v appName tree q).1 hq
      have hqb := (upsertBuild_local_range v appName tree k q hk).1
      obtain ⟨hk', hpar⟩ := (upsertLinked_inv v appName tree).2.children q c hqb hcq
      exact ⟨hk', Or.inl hpar⟩

/-- A local node that the second pass gave a parent comes from a snapshot entry
with a parent reference into the snapshot. -/
theorem linked_parent_origin (v : TreeView) (appName : String) (tree : ResourceTree) (p : Nat)
    (hp : v.heap.length ≤ p)
    (hpar : ((v.upsertLinked appName tree).getD p default).parent ≠ none) :
    ∃ j ndj, tree.Nodes[j]? = some ndj ∧ p = v.heap.length + j ∧
      ∃ nd' ∈ tree.Nodes, nd'.UID = ndj.UID ∧ hasSnapshotParent tree nd' := by
  obtain ⟨nd', hnd', hget, r, hr, hres⟩ := (upsertLinked_inv v appName tree).2.parent p hp hpar
  obtain ⟨j, ndj, hj, hpj, hkey⟩ :=
    upsertBuild_mem_nodesLocal v appName tree _ p (mem_of_mapGet _ _ _ hget)
  refine ⟨j, ndj, hj, hpj, nd', hnd', (makeKey_inj _ _ _ hkey).symm, r, hr, ?_⟩
  cases hq : mapGet (v.upsertBuild appName tree).nodesLocal (TreeView.makeKey appName r.UID) with
  | none => exact absurd hq hres
  | some q =>
    obtain ⟨j3, nd3, hj3, _, hkey3⟩ :=
      upsertBuild_mem_nodesLocal v appName tree _ q (mem_of_mapGet _ _ _ hq)
    exact ⟨nd3, List.getElem?_mem hj3, makeKey_inj _ _ _ hkey3⟩

theorem duplicate_of_entry (v : TreeView) (appName : String) (tree : ResourceTree)
    (i : Nat) (nd : ResourceNode) (hi : tree.Nodes[i]? = some nd)
    (hkind : nd.Kind = "Application") (hname : nd.Name = appName)
    (hparentless : ∀ nd' ∈ tree.Nodes, nd'.UID = nd.UID → ¬ hasSnapshotParent tree nd') :
    Duplicate v appName tree (v.heap.length + i) := by
  refine ⟨by omega, ?_, ?_⟩
  · unfold isAppNode
    rw [(upsertLinked_inv v appName tree).1.kind, (upsertLinked_inv v appName tree).1.name,
      upsertBuild_getD_new v appName tree i nd hi]
    exact ⟨hkind, hname⟩
  · by_contra hpar
    obtain ⟨j, ndj, hj, hpj, nd', hnd', huid, hsp⟩ :=
      linked_parent_origin v appName tree _ (by omega) hpar
    have hji : j = i := by omega
    subst hji
    rw [hi] at hj
    simp only [Option.some.injEq] at hj
    subst hj
    exact hparentless nd' hnd' huid hsp

theorem Duplicate.not_child {v : TreeView} {appName : String} {tree : ResourceTree} {x : Nat}
    (hd : Duplicate v appName tree x) (hc : Closed v) (p : Nat) :
    x ∉ ((v.upsertHeap appName tree).getD p default).children := by
  intro hcm
  rcases upsertHeap_children_cases v hc appName tree p x hcm with ⟨_, h2⟩ | ⟨h1, _, _⟩ | ⟨h1, _⟩
  · have := hd.base
    omega
  · rcases (upsertHeap_new_child v hc appName tree p x h1 hcm).2 with h | h
    · exact h hd.parentless
    · exact h hd.app
  · rcases (upsertHeap_new_child v hc appName tree p x (by omega) hcm).2 with h | h
    · exact h hd.parentless
    · exact h hd.app

end Argonaut

namespace Argonaut

theorem upsertHeap_label_lt (v : TreeView) (appName : String) (tree : ResourceTree) (p : Nat)
    (hp : p < v.heap.length + tree.Nodes.length) :
    ((v.upsertHeap appName tree).getD p default).label =
      ((v.upsertLinked appName tree).getD p default).label := by
  obtain ⟨h4, he, hx, _⟩ := upsertHeap_parts v appName tree
  have hl : h4.length = v.heap.length + tree.Nodes.length := by
    rw [hx.length, upsertBuild_heap_length]
  rw [he, getD_append_singleton_lt _ _ _ (by omega), hx.label,
    (upsertLinked_inv v appName tree).1.label]

theorem upsertHeap_isAppNode (v : TreeView) (appName : String) (tree : ResourceTree) (p : Nat)
    (hp : p < v.heap.length + tree.Nodes.length) :
    isAppNode appName (v.upsertHeap appName tree) p ↔
      isAppNode appName (v.upsertLinked appName tree) p := by
  have h := upsertHeap_label_lt v appName tree p hp
  have hk : ((v.upsertHeap appName tree).getD p default).kind =
      ((v.upsertLinked appName tree).getD p default).kind := kind_of_label h
  have hn : ((v.upsertHeap appName tree).getD p default).name =
      ((v.upsertLinked appName tree).getD p default).name := name_of_label h
  unfold isAppNode
  rw [hk, hn]

theorem removeApp_roots_lt (v : TreeView) (hc : Closed v) (appName : String) (r : Nat)
    (hr : r ∈ (v.removeApp appName).roots) : r < v.heap.length :=
  hc.roots r (removeApp_roots_subset v appName r hr)

/-- The synthetic root is not a child of any node. -/
theorem upsertRoot_not_child (v : TreeView) (hc : Closed v) (appName : String)
    (tree : ResourceTree) (p : Nat) :
    v.heap.length + tree.Nodes.length ∉
      ((v.upsertHeap appName tree).getD p default).children := by
  intro hcm
  rcases upsertHeap_children_cases v hc appName tree p _ hcm with ⟨_, h2⟩ | ⟨h1, _, h3⟩ |
    ⟨_, h2⟩
  · omega
  · have := upsertLinked_children_local v appName tree p _ h1 h3
    omega
  · have := upsertFilter_filtered_local v appName tree _ h2
    omega

theorem UpsertAppTree_count_root (v v' : TreeView) (hc : Closed v) (appName : String)
    (tree : ResourceTree) (h : v.UpsertAppTree appName tree = some v') :
    v'.order.count (v.heap.length + tree.Nodes.length) = 1 := by
  have hw := (rebuildOrder_spec _ _ h).1
  have hclosed : ∀ p, p ≠ v.heap.length + tree.Nodes.length →
      ∀ c ∈ ((v.upsertCore appName tree).node p).children,
        c ≠ v.heap.length + tree.Nodes.length := by
    intro p _ c hcm hceq
    rw [node_upsertCore, hceq] at hcm
    exact upsertRoot_not_child v hc appName tree p hcm
  have hcount := walkEach_count (v.heap.length + tree.Nodes.length)
    (TreeView.walk (v.upsertCore appName tree) ((v.upsertCore appName tree).heap.length + 1))
    ?_ ?_ _ _ hw
  · rw [hcount]
    have hperm := List.perm_insertionSort
      (fun a b => TreeView.rootLess (v.upsertHeap appName tree) b a = false)
      ((v.removeApp appName).roots ++ [v.upsertRoot appName tree])
    have : (v.upsertCore appName tree).roots.count (v.heap.length + tree.Nodes.length) =
        ((v.removeApp appName).roots ++ [v.upsertRoot appName tree]).count
          (v.heap.length + tree.Nodes.length) := hperm.count_eq _
    rw [this, List.count_append, upsertRoot_eq]
    have h0 : (v.removeApp appName).roots.count (v.heap.length + tree.Nodes.length) = 0 := by
      apply List.count_eq_zero_of_not_mem
      intro hm
      have := removeApp_roots_lt v hc appName _ hm
      omega
    rw [h0]
    simp
  · intro l hl
    have hn : ∀ c ∈ ((v.upsertCore appName tree).node
        (v.heap.length + tree.Nodes.length)).children,
        c ≠ v.heap.length + tree.Nodes.length := by
      intro c hcm hceq
      rw [node_upsertCore, hceq] at hcm
      exact upsertRoot_not_child v hc appName tree _ hcm
    obtain ⟨t, rfl, ht⟩ := walk_tail_closed (v.upsertCore appName tree)
      (fun p => p ≠ v.heap.length + tree.Nodes.length) hclosed _ _ l hn hl
    rw [List.count_cons_self, List.count_eq_zero_of_not_mem]
    intro hm
    exact ht _ hm rfl
  · intro c l hcne hl hm
    exact walk_closed (v.upsertCore appName tree)
      (fun p => p ≠ v.heap.length + tree.Nodes.length) hclosed _ c l hcne hl _ hm rfl

end Argonaut

namespace Argonaut

/-! ## Ownership of nodes by applications -/

theorem mapDelete_cons {ν : Type} (m : GoMap ν) (k k' : String) (x' : ν) :
    mapDelete ((k', x') :: m) k = if k' = k then mapDelete m k else (k', x') :: mapDelete m k := by
  by_cases hk : k' = k
  · simp [mapDelete, List.filter, hk]
  · simp [mapDelete, List.filter, hk]

theorem length_mapDelete_of_some {ν : Type} (m : GoMap ν) (k : String) (x : ν)
    (hm : (m.map Prod.fst).Nodup) (h : mapGet m k = some x) :
    (mapDelete m k).length + 1 = m.length := by
  induction m with
  | nil => simp [mapGet] at h
  | cons e m ih =>
    obtain ⟨k', x'⟩ := e
    simp only [List.map_cons, List.nodup_cons] at hm
    rw [mapDelete_cons]
    by_cases hk : k' = k
    · subst hk
      have hnone : mapGet m k' = none := by
        rw [mapGet_eq_none_iff]
        intro y hy
        exact hm.1 (List.mem_map.2 ⟨(k', y), hy, rfl⟩)
      rw [if_pos rfl, mapDelete_eq_self m k' hnone]
      rfl
    · simp only [mapGet, hk, if_false] at h
      rw [if_neg hk, List.length_cons, List.length_cons, ih hm.2 h]

theorem length_mapSet_of_none {ν : Type} (m : GoMap ν) (k : String) (x : ν)
    (h : mapGet m k = none) : (mapSet m k x).length = m.length + 1 := by
  induction m with
  | nil => rfl
  | cons e m ih =>
    obtain ⟨k', x'⟩ := e
    by_cases hk : k' = k
    · simp [mapGet, hk] at h
    · simp only [mapGet, hk, if_false] at h
      simp only [mapSet, hk, if_false, List.length_cons, ih h]

theorem mapGet_ne_none_iff_mem_keys {ν : Type} (m : GoMap ν) (k : String) :
    mapGet m k ≠ none ↔ k ∈ m.map Prod.fst := by
  rw [Ne, mapGet_eq_none_iff, List.mem_map]
  constructor
  · intro h
    by_contra hn
    apply h
    intro x hx
    exact hn ⟨(k, x), hx, rfl⟩
  · rintro ⟨⟨k', x⟩, hx, rfl⟩ h
    exact h x hx

theorem oldKeys_of_sameForest {v v' : TreeView} (hs : SameForest v v') (a : String) :
    v'.oldKeys a = v.oldKeys a := by
  unfold TreeView.oldKeys
  rw [hs.nodesByApp]

theorem OwnedBy.owned_of_sameForest {owner : Nat → String} {names : List String} {v v' : TreeView}
    (hs : SameForest v v') (ho : OwnedBy owner names v) : OwnedBy owner names v' := by
  have hk := oldKeys_of_sameForest hs
  refine ⟨?_, ?_, ?_, ?_, ?_, ?_, ?_, ?_, ?_, ?_, ?_, ?_⟩
  · intro p hp c hc
    unfold TreeView.node at hc
    rw [hs.heap] at hp hc
    exact ho.child p hp c hc
  · intro a r hr
    rw [hs.rootByApp] at hr
    exact ho.root a r hr
  · intro r hr
    rw [hs.roots] at hr
    rw [hs.rootByApp]
    exact ho.rootsFrom r hr
  · intro a r hr
    rw [hs.rootByApp] at hr
    rw [hs.roots]
    exact ho.rootsTo a r hr
  · rw [hs.roots]
    exact ho.rootsNodup
  · rw [hs.rootByApp]
    exact ho.rootKeys
  · rw [hs.roots, hs.rootByApp]
    exact ho.count
  · intro a
    rw [hs.rootByApp]
    exact ho.upserted a
  · intro a k p hka hkp
    rw [hk] at hka
    rw [hs.nodesByUID] at hkp
    exact ho.index a k p hka hkp
  · intro k p hkp
    rw [hs.nodesByUID] at hkp
    obtain ⟨a, ha⟩ := ho.indexed k p hkp
    exact ⟨a, by rw [hk]; exact ha⟩
  · intro a k hka
    rw [hk] at hka
    exact ho.keys a k hka
  · intro a ha
    rw [hk] at ha
    exact ho.apps a ha

theorem OwnedBy.owned_of_sameLinks {owner : Nat → String} {names : List String}
    {v v' : TreeView} (hs : SameLinks v v') (ho : OwnedBy owner names v) :
    OwnedBy owner names v' := by
  have hk : ∀ a, v'.oldKeys a = v.oldKeys a := by
    intro a
    unfold TreeView.oldKeys
    rw [hs.nodesByApp]
  refine ⟨?_, ?_, ?_, ?_, ?_, ?_, ?_, ?_, ?_, ?_, ?_, ?_⟩
  · intro p hp c hc
    rw [hs.children] at hc
    rw [hs.length] at hp
    exact ho.child p hp c hc
  · intro a r hr
    rw [hs.rootByApp] at hr
    exact ho.root a r hr
  · intro r hr
    rw [hs.roots] at hr
    rw [hs.rootByApp]
    exact ho.rootsFrom r hr
  · intro a r hr
    rw [hs.rootByApp] at hr
    rw [hs.roots]
    exact ho.rootsTo a r hr
  · rw [hs.roots]
    exact ho.rootsNodup
  · rw [hs.rootByApp]
    exact ho.rootKeys
  · rw [hs.roots, hs.rootByApp]
    exact ho.count
  · intro a
    rw [hs.rootByApp]
    exact ho.upserted a
  · intro a k p hka hkp
    rw [hk] at hka
    rw [hs.nodesByUID] at hkp
    exact ho.index a k p hka hkp
  · intro k p hkp
    rw [hs.nodesByUID] at hkp
    obtain ⟨a, ha⟩ := ho.indexed k p hkp
    exact ⟨a, by rw [hk]; exact ha⟩
  · intro a k hka
    rw [hk] at hka
    exact ho.keys a k hka
  · intro a ha
    rw [hk] at ha
    exact ho.apps a ha

theorem OwnedBy.owned_new (owner : Nat → String) (width height : Int) :
    OwnedBy owner [] (TreeView.NewTreeView width height) := by
  refine ⟨?_, ?_, ?_, ?_, ?_, ?_, ?_, ?_, ?_, ?_, ?_, ?_⟩
  · intro p hp
    simp [TreeView.NewTreeView] at hp
  · intro a r hr
    simp [TreeView.NewTreeView, mapGet] at hr
  · intro r hr
    simp [TreeView.NewTreeView] at hr
  · intro a r hr
    simp [TreeView.NewTreeView, mapGet] at hr
  · simp [TreeView.NewTreeView]
  · simp [TreeView.NewTreeView]
  · rfl
  · intro a
    simp [TreeView.NewTreeView, mapGet]
  · intro a k p hka
    simp [TreeView.NewTreeView, TreeView.oldKeys, mapGet] at hka
  · intro k p hkp
    simp [TreeView.NewTreeView, mapGet] at hkp
  · intro a k hka
    simp [TreeView.NewTreeView, TreeView.oldKeys, mapGet] at hka
  · intro a ha
    simp [TreeView.NewTreeView, TreeView.oldKeys, mapGet] at ha

theorem OwnedBy.owned_reset (v : TreeView) : OwnedBy (fun _ => "") [] v.resetData := by
  refine ⟨?_, ?_, ?_, ?_, ?_, ?_, ?_, ?_, ?_, ?_, ?_, ?_⟩
  · intro p _ c _
    rfl
  · intro a r hr
    simp [TreeView.resetData, mapGet] at hr
  · intro r hr
    cases hr
  · intro a r hr
    simp [TreeView.resetData, mapGet] at hr
  · exact List.nodup_nil
  · exact List.nodup_nil
  · rfl
  · intro a
    simp [TreeView.resetData, mapGet]
  · intro a k p hka
    simp [TreeView.resetData, TreeView.oldKeys, mapGet] at hka
  · intro k p hkp
    simp [TreeView.resetData, mapGet] at hkp
  · intro a k hka
    simp [TreeView.resetData, TreeView.oldKeys, mapGet] at hka
  · intro a ha
    simp [TreeView.resetData, TreeView.oldKeys, mapGet] at ha

/-! ### The keys of an application after `UpsertAppTree` -/

theorem oldKeys_UpsertAppTree (v v' : TreeView) (appName : String) (tree : ResourceTree)
    (h : v.UpsertAppTree appName tree = some v') (a : String) :
    v'.oldKeys a = if a = appName then v.upsertKeys appName tree else v.oldKeys a := by
  unfold TreeView.oldKeys
  rw [UpsertAppTree_nodesByApp v v' appName tree h, mapGet_mapSet]
  split
  · rfl
  · rename_i hne
    rw [removeApp_nodesByApp, mapGet_mapDelete, if_neg hne]

theorem mem_upsertKeys (v : TreeView) (appName : String) (tree : ResourceTree) (k : String) :
    k ∈ v.upsertKeys appName tree ↔
      (∃ nd ∈ tree.Nodes, TreeView.makeKey appName nd.UID = k) ∨
      k = TreeView.makeKey appName "__app_root__" := by
  unfold TreeView.upsertKeys
  rw [List.mem_append, upsertBuild_appKeys, List.mem_map, List.mem_singleton]

theorem rootByApp_UpsertAppTree (v v' : TreeView) (appName : String) (tree : ResourceTree)
    (h : v.UpsertAppTree appName tree = some v') (a : String) :
    mapGet v'.rootByApp a =
      if a = appName then some (v.heap.length + tree.Nodes.length) else mapGet v.rootByApp a := by
  rw [UpsertAppTree_rootByApp v v' appName tree h, mapGet_mapSet, upsertRoot_eq]
  split
  · rfl
  · rename_i hne
    rw [removeApp_rootByApp, mapGet_mapDelete, if_neg hne]

end Argonaut

namespace Argonaut

/-- The roots left once the previous root of the application is removed: they
are roots of the view, and none is the root of the application. -/
theorem mem_removeApp_roots {owner : Nat → String} {names : List String} {v : TreeView}
    (ho : OwnedBy owner names v) (appName : String) (r : Nat) :
    r ∈ (v.removeApp appName).roots ↔ r ∈ v.roots ∧ mapGet v.rootByApp appName ≠ some r := by
  rw [removeApp_roots]
  cases hr : mapGet v.rootByApp appName with
  | none => simp
  | some r0 =>
    simp only [ne_eq, Option.some.injEq]
    rw [ho.rootsNodup.mem_erase_iff]
    constructor
    · rintro ⟨h1, h2⟩
      exact ⟨h2, fun e => h1 e.symm⟩
    · rintro ⟨h1, h2⟩
      exact ⟨fun e => h2 e.symm, h1⟩

theorem removeApp_roots_nodup {owner : Nat → String} {names : List String} {v : TreeView}
    (ho : OwnedBy owner names v) (appName : String) : (v.removeApp appName).roots.Nodup := by
  rw [removeApp_roots]
  split
  · exact ho.rootsNodup.erase _
  · exact ho.rootsNodup

theorem removeApp_count {owner : Nat → String} {names : List String} {v : TreeView}
    (ho : OwnedBy owner names v) (appName : String) :
    (v.removeApp appName).roots.length = (mapDelete v.rootByApp appName).length := by
  rw [removeApp_roots]
  cases hr : mapGet v.rootByApp appName with
  | none =>
    simp only
    rw [mapDelete_eq_self _ _ hr]
    exact ho.count
  | some r0 =>
    simp only
    have h1 := length_mapDelete_of_some _ _ _ ho.rootKeys hr
    have h2 := List.length_erase_of_mem (ho.rootsTo appName r0 hr)
    have h3 := ho.count
    have h4 : 0 < v.roots.length := List.length_pos_of_mem (ho.rootsTo appName r0 hr)
    omega

theorem OwnedBy.owned_upsert {owner : Nat → String} {names : List String} {v v' : TreeView}
    (hc : Closed v) (ho : OwnedBy owner names v) (appName : String) (tree : ResourceTree)
    (hclash : NoClash (appName :: names)) (h : v.UpsertAppTree appName tree = some v') :
    OwnedBy (fun p => if v.heap.length ≤ p then appName else owner p) (appName :: names) v' := by
  have hnode := node_UpsertAppTree v v' appName tree h
  have hlen : v'.heap.length = v.heap.length + tree.Nodes.length + 1 := by
    rw [UpsertAppTree_heap v v' appName tree h, upsertHeap_length]
  have hkeys := oldKeys_UpsertAppTree v v' appName tree h
  have hrba := rootByApp_UpsertAppTree v v' appName tree h
  have hroots := mem_UpsertAppTree_roots v v' appName tree h
  have hother : ∀ a k, a ≠ appName → k ∈ v.oldKeys a →
      ∀ u, k ≠ TreeView.makeKey appName u := by
    intro a k ha hk u hku
    obtain ⟨u', rfl⟩ := ho.keys a k hk
    have hmem : a ∈ names := ho.apps a (List.ne_nil_of_mem hk)
    exact hclash a (List.mem_cons_of_mem _ hmem) appName (List.mem_cons_self _ _) ha u' u hku
  refine ⟨?_, ?_, ?_, ?_, ?_, ?_, ?_, ?_, ?_, ?_, ?_, ?_⟩
  · intro p hp c hcm
    rw [hnode] at hcm
    rcases upsertHeap_children_cases v hc appName tree p c hcm with ⟨h1, h2⟩ | ⟨h1, _, h3⟩ |
      ⟨h1, h2⟩
    · rw [upsertHeap_old v appName tree p h1] at hcm
      simp only [not_le.mpr h1, not_le.mpr h2, if_false]
      exact ho.child p h1 c hcm
    · have := (upsertLinked_children_local v appName tree p c h1 h3).1
      simp only [h1, this, if_true]
    · have := (upsertFilter_filtered_local v appName tree c h2).1
      have hp' : v.heap.length ≤ p := by omega
      simp only [hp', this, if_true]
  · intro a r hr
    rw [hrba] at hr
    split at hr
    · rename_i ha
      simp only [Option.some.injEq] at hr
      subst hr
      simp only [Nat.le_add_right, if_true]
      exact ha.symm
    · have := hc.rootByApp a r hr
      simp only [not_le.mpr this, if_false]
      exact ho.root a r hr
  · intro r hr
    rcases (hroots r).1 hr with hr1 | hr1
    · obtain ⟨hr2, hne⟩ := (mem_removeApp_roots ho appName r).1 hr1
      obtain ⟨a, ha⟩ := ho.rootsFrom r hr2
      refine ⟨a, ?_⟩
      rw [hrba, if_neg]
      · exact ha
      · intro e
        subst e
        exact hne ha
    · exact ⟨appName, by rw [hrba, if_pos rfl, hr1]⟩
  · intro a r hr
    rw [hrba] at hr
    rw [hroots]
    split at hr
    · simp only [Option.some.injEq] at hr
      exact Or.inr hr.symm
    · rename_i ha
      left
      rw [mem_removeApp_roots ho]
      refine ⟨ho.rootsTo a r hr, ?_⟩
      intro hr0
      exact ha ((ho.root a r hr).symm.trans (ho.root appName r hr0))
  · rw [UpsertAppTree_roots v v' appName tree h]
    apply (List.perm_insertionSort _ _).nodup_iff.2
    apply List.Nodup.append (removeApp_roots_nodup ho appName) (List.nodup_singleton _)
    intro r hr1 hr2
    rw [List.mem_singleton, upsertRoot_eq] at hr2
    have := removeApp_roots_lt v hc appName r hr1
    omega
  · rw [UpsertAppTree_rootByApp v v' appName tree h, removeApp_rootByApp]
    exact mapSet_keys_nodup _ _ _ (mapDelete_keys_nodup _ _ ho.rootKeys)
  · rw [UpsertAppTree_roots v v' appName tree h, UpsertAppTree_rootByApp v v' appName tree h,
      removeApp_rootByApp, List.length_insertionSort, List.length_append,
      length_mapSet_of_none _ _ _ (mapGet_mapDelete_self _ _), removeApp_count ho]
    rfl
  · intro a
    rw [hrba, List.mem_cons]
    by_cases ha : a = appName
    · simp [ha]
    · simp only [ha, false_or, if_false]
      exact ho.upserted a
  · intro a k p hka hkp
    rw [hkeys] at hka
    rcases UpsertAppTree_index_cases v v' appName tree h k p hkp with ⟨hk, hp⟩ | ⟨_, _, hm⟩ |
      ⟨hkr, hnl, hold, hkv⟩
    · have ha : a = appName := by
        by_contra ha
        rw [if_neg ha] at hka
        exact hother a k ha hka _ hk
      simp only [hp, Nat.le_add_right, if_true]
      exact ha.symm
    · obtain ⟨j, ndj, _, _, hkey⟩ := upsertBuild_mem_nodesLocal v appName tree k p hm
      have ha : a = appName := by
        by_contra ha
        rw [if_neg ha] at hka
        exact hother a k ha hka _ hkey.symm
      have := (upsertBuild_local_range v appName tree k p hm).1
      simp only [this, if_true]
      exact ha.symm
    · have hlt := hc.index k p hkv
      simp only [not_le.mpr hlt, if_false]
      by_cases ha : a = appName
      · rw [if_pos ha] at hka
        rcases (mem_upsertKeys v appName tree k).1 hka with ⟨nd, hnd, hkey⟩ | hk
        · have := upsertBuild_nodesLocal_some v appName tree nd hnd
          rw [hkey] at this
          exact absurd hnl this
        · exact absurd hk hkr
      · rw [if_neg ha] at hka
        exact ho.index a k p hka hkv
  · intro k p hkp
    rcases UpsertAppTree_index_cases v v' appName tree h k p hkp with ⟨hk, _⟩ | ⟨_, _, hm⟩ |
      ⟨_, _, hold, hkv⟩
    · refine ⟨appName, ?_⟩
      rw [hkeys, if_pos rfl, mem_upsertKeys]
      exact Or.inr hk
    · obtain ⟨j, ndj, hj, _, hkey⟩ := upsertBuild_mem_nodesLocal v appName tree k p hm
      refine ⟨appName, ?_⟩
      rw [hkeys, if_pos rfl, mem_upsertKeys]
      exact Or.inl ⟨ndj, List.getElem?_mem hj, hkey⟩
    · obtain ⟨a, ha⟩ := ho.indexed k p hkv
      refine ⟨a, ?_⟩
      rw [hkeys, if_neg]
      · exact ha
      · intro e
        subst e
        exact hold ha
  · intro a k hka
    rw [hkeys] at hka
    split at hka
    · rename_i ha
      subst ha
      rcases (mem_upsertKeys v a tree k).1 hka with ⟨nd, _, hkey⟩ | hk
      · exact ⟨nd.UID, hkey.symm⟩
      · exact ⟨"__app_root__", hk⟩
    · exact ho.keys a k hka
  · intro a ha
    rw [hkeys] at ha
    split at ha
    · rename_i hap
      rw [hap]
      exact List.mem_cons_self _ _
    · exact List.mem_cons_of_mem _ (ho.apps a ha)

/-- In every reachable view whose applications have keys that do not clash, the
bookkeeping is consistent with some assignment of an application to every
node. -/
theorem Reached.owned {names : List String} {v : TreeView} (h : Reached names v)
    (hclash : NoClash names) : ∃ owner, OwnedBy owner names v := by
  induction h with
  | new width height => exact ⟨fun _ => "", OwnedBy.owned_new _ width height⟩
  | @upsert names v v' appName tree hr hu ih =>
    have hsub : NoClash names := fun a ha b hb hab =>
      hclash a (List.mem_cons_of_mem _ ha) b (List.mem_cons_of_mem _ hb) hab
    obtain ⟨owner, ho⟩ := ih hsub
    exact ⟨_, ho.owned_upsert hr.closed appName tree hclash hu⟩
  | update msg _ hu ih =>
    obtain ⟨owner, ho⟩ := ih hclash
    exact ⟨owner, ho.owned_of_sameForest (Update_sameForest _ _ msg hu)⟩
  | setSelectedIndex idx _ ih =>
    obtain ⟨owner, ho⟩ := ih hclash
    exact ⟨owner, ho.owned_of_sameForest (SetSelectedIndex_sameForest _ idx)⟩
  | toggleSelection _ ih =>
    obtain ⟨owner, ho⟩ := ih hclash
    exact ⟨owner, ho.owned_of_sameForest (ToggleSelection_sameForest _)⟩
  | clearSelection _ ih =>
    obtain ⟨owner, ho⟩ := ih hclash
    exact ⟨owner, ho.owned_of_sameForest (ClearSelection_sameForest _)⟩
  | setFilter q _ ih =>
    obtain ⟨owner, ho⟩ := ih hclash
    exact ⟨owner, ho.owned_of_sameForest (SetFilter_sameForest _ q)⟩
  | clearFilter _ ih =>
    obtain ⟨owner, ho⟩ := ih hclash
    exact ⟨owner, ho.owned_of_sameForest (ClearFilter_sameForest _)⟩
  | nextMatch _ hu ih =>
    obtain ⟨owner, ho⟩ := ih hclash
    exact ⟨owner, ho.owned_of_sameForest (NextMatch_sameForest _ _ _ hu)⟩
  | prevMatch _ hu ih =>
    obtain ⟨owner, ho⟩ := ih hclash
    exact ⟨owner, ho.owned_of_sameForest (PrevMatch_sameForest _ _ _ hu)⟩
  | jumpToFirstMatch _ ih =>
    obtain ⟨owner, ho⟩ := ih hclash
    exact ⟨owner, ho.owned_of_sameForest (JumpToFirstMatch_sameForest _)⟩
  | setAppMeta name health sync _ ih =>
    obtain ⟨owner, ho⟩ := ih hclash
    exact ⟨owner, ho.owned_of_sameForest (SetAppMeta_sameForest _ name health sync)⟩
  | setSize width height _ ih =>
    obtain ⟨owner, ho⟩ := ih hclash
    exact ⟨owner, ho.owned_of_sameForest (SetSize_sameForest _ width height)⟩
  | setDesaturateMode enabled _ ih =>
    obtain ⟨owner, ho⟩ := ih hclash
    exact ⟨owner, ho.owned_of_sameForest (SetDesaturateMode_sameForest _ enabled)⟩
  | setFlashAll enabled _ ih =>
    obtain ⟨owner, ho⟩ := ih hclash
    exact ⟨owner, ho.owned_of_sameForest (SetFlashAll_sameForest _ enabled)⟩
  | @setData names v v' tree hr hu ih =>
    exact ⟨_, (OwnedBy.owned_reset v).owned_upsert hr.closed.closed_reset v.appName tree
      hclash hu⟩
  | setResourceStatuses appName resources _ ih =>
    obtain ⟨owner, ho⟩ := ih hclash
    exact ⟨owner, ho.owned_of_sameLinks (SetResourceStatuses_sameLinks _ appName resources)⟩

end Argonaut

namespace Argonaut

/-! ## The second pass gives a parent to every node that has one in the snapshot -/

theorem linkParent_length (appName : String) (nodesLocal : GoMap Nat) (child : Nat)
    (h : List treeNode) (r : ResourceRef) :
    (TreeView.linkParent appName nodesLocal child h r).length = h.length := by
  unfold TreeView.linkParent
  split
  · simp only [setChildren_length, setParent_length]
  · rfl

theorem linkParent_parent_mono (appName : String) (nodesLocal : GoMap Nat) (child : Nat)
    (h : List treeNode) (r : ResourceRef) (c : Nat)
    (hc : (h.getD c default).parent ≠ none) :
    ((TreeView.linkParent appName nodesLocal child h r).getD c default).parent ≠ none := by
  unfold TreeView.linkParent
  split
  · simp only
    rw [setChildren_parent, setParent_parent]
    split
    · simp
    · exact hc
  · exact hc

theorem linkParent_sets (appName : String) (nodesLocal : GoMap Nat) (child : Nat)
    (h : List treeNode) (r : ResourceRef) (hlt : child < h.length)
    (hr : mapGet nodesLocal (TreeView.makeKey appName r.UID) ≠ none) :
    ((TreeView.linkParent appName nodesLocal child h r).getD child default).parent ≠ none := by
  unfold TreeView.linkParent
  split
  · simp only
    rw [setChildren_parent, setParent_parent, if_pos ⟨rfl, hlt⟩]
    simp
  · rename_i hn
    exact absurd hn hr

theorem foldl_linkParent_length (appName : String) (nodesLocal : GoMap Nat) (child : Nat)
    (rs : List ResourceRef) (h : List treeNode) :
    (rs.foldl (TreeView.linkParent appName nodesLocal child) h).length = h.length := by
  induction rs generalizing h with
  | nil => rfl
  | cons r rs ih => rw [List.foldl_cons, ih, linkParent_length]

theorem foldl_linkParent_mono (appName : String) (nodesLocal : GoMap Nat) (child : Nat)
    (rs : List ResourceRef) (h : List treeNode) (c : Nat)
    (hc : (h.getD c default).parent ≠ none) :
    ((rs.foldl (TreeView.linkParent appName nodesLocal child) h).getD c default).parent ≠
      none := by
  induction rs generalizing h with
  | nil => exact hc
  | cons r rs ih =>
    rw [List.foldl_cons]
    exact ih _ (linkParent_parent_mono appName nodesLocal child h r c hc)

theorem foldl_linkParent_sets (appName : String) (nodesLocal : GoMap Nat) (child : Nat)
    (rs : List ResourceRef) (h : List treeNode) (hlt : child < h.length)
    (hr : ∃ r ∈ rs, mapGet nodesLocal (TreeView.makeKey appName r.UID) ≠ none) :
    ((rs.foldl (TreeView.linkParent appName nodesLocal child) h).getD child default).parent ≠
      none := by
  induction rs generalizing h with
  | nil =>
    obtain ⟨r, hr, _⟩ := hr
    cases hr
  | cons a rs ih =>
    rw [List.foldl_cons]
    obtain ⟨r, hmem, hres⟩ := hr
    rcases List.mem_cons.1 hmem with rfl | hmem
    · exact foldl_linkParent_mono _ _ _ _ _ _ (linkParent_sets appName nodesLocal child h r hlt hres)
    · exact ih _ (by rw [linkParent_length]; exact hlt) ⟨r, hmem, hres⟩

theorem linkNode_length (appName : String) (nodesLocal : GoMap Nat) (h : List treeNode)
    (nd : ResourceNode) : (TreeView.linkNode appName nodesLocal h nd).length = h.length := by
  unfold TreeView.linkNode
  split
  · exact foldl_linkParent_length _ _ _ _ _
  · rfl

theorem linkNode_parent_mono (appName : String) (nodesLocal : GoMap Nat) (h : List treeNode)
    (nd : ResourceNode) (c : Nat) (hc : (h.getD c default).parent ≠ none) :
    ((TreeView.linkNode appName nodesLocal h nd).getD c default).parent ≠ none := by
  unfold TreeView.linkNode
  split
  · exact foldl_linkParent_mono _ _ _ _ _ _ hc
  · exact hc

theorem foldl_linkNode_mono (appName : String) (nodesLocal : GoMap Nat) (ns : List ResourceNode)
    (h : List treeNode) (c : Nat) (hc : (h.getD c default).parent ≠ none) :
    ((ns.foldl (TreeView.linkNode appName nodesLocal) h).getD c default).parent ≠ none := by
  induction ns generalizing h with
  | nil => exact hc
  | cons n ns ih =>
    rw [List.foldl_cons]
    exact ih _ (linkNode_parent_mono appName nodesLocal h n c hc)

theorem foldl_linkNode_sets (appName : String) (nodesLocal : GoMap Nat) (ns : List ResourceNode)
    (h : List treeNode) (x : Nat) (hlt : x < h.length)
    (hx : ∃ nd ∈ ns, mapGet nodesLocal (TreeView.makeKey appName nd.UID) = some x ∧
      ∃ r ∈ nd.ParentRefs, mapGet nodesLocal (TreeView.makeKey appName r.UID) ≠ none) :
    ((ns.foldl (TreeView.linkNode appName nodesLocal) h).getD x default).parent ≠ none := by
  induction ns generalizing h with
  | nil =>
    obtain ⟨nd, hnd, _⟩ := hx
    cases hnd
  | cons a ns ih =>
    rw [List.foldl_cons]
    obtain ⟨nd, hmem, hget, hr⟩ := hx
    rcases List.mem_cons.1 hmem with rfl | hmem
    · apply foldl_linkNode_mono
      unfold TreeView.linkNode
      rw [hget]
      exact foldl_linkParent_sets _ _ _ _ _ hlt hr
    · exact ih _ (by rw [linkNode_length]; exact hlt) ⟨nd, hmem, hget, hr⟩

/-- A snapshot entry with a parent reference into the snapshot: the node
indexed under its key has a parent after the second pass. -/
theorem upsertLinked_parent_of_ref (v : TreeView) (appName : String) (tree : ResourceTree)
    (nd : ResourceNode) (hnd : nd ∈ tree.Nodes) (x : Nat)
    (hx : mapGet (v.upsertBuild appName tree).nodesLocal (TreeView.makeKey appName nd.UID) =
      some x)
    (hp : hasSnapshotParent tree nd) :
    ((v.upsertLinked appName tree).getD x default).parent ≠ none := by
  obtain ⟨r, hr, nd', hnd', huid⟩ := hp
  unfold TreeView.upsertLinked
  apply foldl_linkNode_sets
  · exact (upsertBuild_local_bounds v appName tree _ x hx).2
  · refine ⟨nd, hnd, hx, r, hr, ?_⟩
    rw [← huid]
    exact upsertBuild_nodesLocal_some v appName tree nd' hnd'

/-! ## Snapshots with distinct UIDs -/

theorem nodes_index_of_uid (tree : ResourceTree)
    (hnodup : (tree.Nodes.map (fun n => n.UID)).Nodup) (i j : Nat) (a b : ResourceNode)
    (hi : tree.Nodes[i]? = some a) (hj : tree.Nodes[j]? = some b) (huid : a.UID = b.UID) :
    i = j := by
  have h1 : (tree.Nodes.map (fun n => n.UID))[i]? = some a.UID := by
    rw [List.getElem?_map, hi]
    rfl
  have h2 : (tree.Nodes.map (fun n => n.UID))[j]? = some a.UID := by
    rw [List.getElem?_map, hj, huid]
    rfl
  obtain ⟨hlt, _⟩ := List.getElem?_eq_some_iff.1 h1
  exact List.getElem?_inj hlt hnodup (h1.trans h2.symm)

theorem upsertBuild_nodesLocal_distinct (v : TreeView) (appName : String) (tree : ResourceTree)
    (hnodup : (tree.Nodes.map (fun n => n.UID)).Nodup) (i : Nat) (nd : ResourceNode)
    (hi : tree.Nodes[i]? = some nd) :
    mapGet (v.upsertBuild appName tree).nodesLocal (TreeView.makeKey appName nd.UID) =
      some (v.heap.length + i) := by
  cases hp : mapGet (v.upsertBuild appName tree).nodesLocal (TreeView.makeKey appName nd.UID) with
  | none => exact absurd hp (upsertBuild_nodesLocal_some v appName tree nd (List.getElem?_mem hi))
  | some p =>
    obtain ⟨j, ndj, hj, hpj, hkey⟩ :=
      upsertBuild_mem_nodesLocal v appName tree _ p (mem_of_mapGet _ _ _ hp)
    have := nodes_index_of_uid tree hnodup j i ndj nd hj hi (makeKey_inj _ _ _ hkey)
    rw [hpj, this]

/-! ## The expansion flags -/

theorem mapGet_foldl_mapSet_true (keys : List String) (e : GoMap Bool) (k : String) :
    mapGet (keys.foldl (fun e k => mapSet e k true) e) k =
      if k ∈ keys then some true else mapGet e k := by
  induction keys generalizing e with
  | nil => simp
  | cons a keys ih =>
    rw [List.foldl_cons, ih, mapGet_mapSet]
    by_cases hk : k ∈ keys
    · simp [hk]
    · by_cases hka : k = a
      · simp [hka]
      · simp [hk, hka]

theorem clampSelection_expanded (v : TreeView) :
    (TreeView.clampSelection v).expanded = v.expanded := by
  unfold TreeView.clampSelection
  by_cases h : v.selIdx ≥ v.order.length
  · simp only [h, if_true]
    split <;> rfl
  · simp only [h, if_false]
    split <;> rfl

theorem UpsertAppTree_expanded (v v' : TreeView) (appName : String) (tree : ResourceTree)
    (h : v.UpsertAppTree appName tree = some v') (k : String) :
    mapGet v'.expanded k =
      if k ∈ v.upsertKeys appName tree then some true
      else if k ∈ v.oldKeys appName then none else mapGet v.expanded k := by
  obtain ⟨order, _, rfl⟩ := rebuildOrder_eq_some _ _ h
  rw [clampSelection_expanded]
  show mapGet ((v.upsertKeys appName tree).foldl (fun e k => mapSet e k true)
    (v.removeApp appName).expanded) k = _
  rw [mapGet_foldl_mapSet_true, removeApp_expanded]

end Argonaut

namespace Argonaut

/-! ## `UpsertAppTree` replaces the tree of one application -/

/-- The entry of a snapshot with distinct UIDs that `UpsertAppTree` drops from
the index: an Application node named like the app without a parent reference
into the snapshot. -/
theorem dropped_iff (v : TreeView) (appName : String) (tree : ResourceTree)
    (hnodup : (tree.Nodes.map (fun n => n.UID)).Nodup) (i : Nat) (nd : ResourceNode)
    (hi : tree.Nodes[i]? = some nd) :
    (v.heap.length + i ∈ v.upsertTempRoots appName tree ∧
      isAppNode appName (v.upsertLinked appName tree) (v.heap.length + i)) ↔
    (nd.Kind = "Application" ∧ nd.Name = appName ∧ ¬ hasSnapshotParent tree nd) := by
  have hloc := upsertBuild_nodesLocal_distinct v appName tree hnodup i nd hi
  have happ : isAppNode appName (v.upsertLinked appName tree) (v.heap.length + i) ↔
      (nd.Kind = "Application" ∧ nd.Name = appName) := by
    unfold isAppNode
    rw [(upsertLinked_inv v appName tree).1.kind, (upsertLinked_inv v appName tree).1.name,
      upsertBuild_getD_new v appName tree i nd hi]
    exact Iff.rfl
  constructor
  · rintro ⟨htemp, ha⟩
    refine ⟨(happ.1 ha).1, (happ.1 ha).2, ?_⟩
    intro hp
    exact upsertLinked_parent_of_ref v appName tree nd (List.getElem?_mem hi) _ hloc hp
      ((mem_upsertTempRoots v appName tree _).1 htemp).2
  · rintro ⟨hk, hn, hp⟩
    have hd := duplicate_of_entry v appName tree i nd hi hk hn (by
      intro nd' hnd' huid
      have : nd' = nd := List.inj_on_of_nodup_map hnodup hnd' (List.getElem?_mem hi) huid
      rw [this]
      exact hp)
    exact ⟨(mem_upsertTempRoots v appName tree _).2 ⟨⟨_, mem_of_mapGet _ _ _ hloc⟩,
      hd.parentless⟩, hd.app⟩

/-- The index entry of a snapshot node after `UpsertAppTree`, for a snapshot
with distinct UIDs none of which is `__app_root__`. -/
theorem UpsertAppTree_index_of_entry (v v' : TreeView) (appName : String)
    (tree : ResourceTree) (hnodup : (tree.Nodes.map (fun n => n.UID)).Nodup)
    (hnoroot : ∀ nd ∈ tree.Nodes, nd.UID ≠ "__app_root__")
    (h : v.UpsertAppTree appName tree = some v') (i : Nat) (nd : ResourceNode)
    (hi : tree.Nodes[i]? = some nd) :
    ((nd.Kind = "Application" ∧ nd.Name = appName ∧ ¬ hasSnapshotParent tree nd) →
      mapGet v'.nodesByUID (TreeView.makeKey appName nd.UID) = none) ∧
    (¬ (nd.Kind = "Application" ∧ nd.Name = appName ∧ ¬ hasSnapshotParent tree nd) →
      mapGet v'.nodesByUID (TreeView.makeKey appName nd.UID) = some (v.heap.length + i)) := by
  have hloc := upsertBuild_nodesLocal_distinct v appName tree hnodup i nd hi
  have hkr : TreeView.makeKey appName nd.UID ≠ TreeView.makeKey appName "__app_root__" :=
    fun e => hnoroot nd (List.getElem?_mem hi) (makeKey_inj _ _ _ e)
  have huid2 : ((v.upsertLinked appName tree).getD (v.heap.length + i) default).uid =
      TreeView.makeKey appName nd.UID := by
    rw [(upsertLinked_inv v appName tree).1.uid, upsertBuild_getD_new v appName tree i nd hi]
    rfl
  rw [UpsertAppTree_nodesByUID v v' appName tree h, mapGet_mapSet, if_neg hkr]
  constructor
  · intro hdrop
    obtain ⟨htemp, ha⟩ := (dropped_iff v appName tree hnodup i nd hi).2 hdrop
    have := ((upsertFilter_done v appName tree _ htemp).1 ha).1
    rw [huid2] at this
    exact this
  · intro hkeep
    rw [(upsertFilter_inv v appName tree).frame, upsertBuild_nodesByUID, hloc]
    intro q hq haq huq
    obtain ⟨⟨k, hk⟩, _⟩ := (mem_upsertTempRoots v appName tree q).1 hq
    obtain ⟨j, ndj, hj, hqj, hkey⟩ := upsertBuild_mem_nodesLocal v appName tree k q hk
    have huidq : ((v.upsertLinked appName tree).getD q default).uid =
        TreeView.makeKey appName ndj.UID := by
      rw [hqj, (upsertLinked_inv v appName tree).1.uid,
        upsertBuild_getD_new v appName tree j ndj hj]
      rfl
    rw [huidq] at huq
    have hji := nodes_index_of_uid tree hnodup j i ndj nd hj hi (makeKey_inj _ _ _ huq)
    subst hji
    rw [hqj] at hq haq
    exact hkeep ((dropped_iff v appName tree hnodup j nd hi).1 ⟨hq, haq⟩)

/-- The keys of another application are not keys of `appName`. -/
theorem other_keys_apart {owner : Nat → String} {names : List String} {v : TreeView}
    (ho : OwnedBy owner names v) (appName : String) (hclash : NoClash (appName :: names))
    (b k : String) (hb : b ≠ appName) (hk : k ∈ v.oldKeys b) (u : String) :
    k ≠ TreeView.makeKey appName u := by
  intro hku
  obtain ⟨u', rfl⟩ := ho.keys b k hk
  have hmem : b ∈ names := ho.apps b (List.ne_nil_of_mem hk)
  exact hclash b (List.mem_cons_of_mem _ hmem) appName (List.mem_cons_self _ _) hb u' u hku

/-- The index entries and expansion flags under the keys of another application
are unchanged by `UpsertAppTree`. -/
theorem UpsertAppTree_frame_key {owner : Nat → String} {names : List String} {v v' : TreeView}
    (ho : OwnedBy owner names v) (appName : String) (tree : ResourceTree)
    (hclash : NoClash (appName :: names)) (h : v.UpsertAppTree appName tree = some v')
    (b k : String) (hb : b ≠ appName) (hk : k ∈ v.oldKeys b) :
    mapGet v'.nodesByUID k = mapGet v.nodesByUID k ∧
    mapGet v'.expanded k = mapGet v.expanded k := by
  have hapart := other_keys_apart ho appName hclash b k hb hk
  have hold : k ∉ v.oldKeys appName := by
    intro hm
    obtain ⟨u, hu⟩ := ho.keys appName k hm
    exact hapart u hu
  have hnew : k ∉ v.upsertKeys appName tree := by
    intro hm
    rcases (mem_upsertKeys v appName tree k).1 hm with ⟨nd, _, hkey⟩ | hkr
    · exact hapart _ hkey.symm
    · exact hapart _ hkr
  constructor
  · rw [UpsertAppTree_nodesByUID v v' appName tree h, mapGet_mapSet, if_neg (hapart _),
      (upsertFilter_inv v appName tree).frame, upsertBuild_nodesByUID]
    · cases hl : mapGet (v.upsertBuild appName tree).nodesLocal k with
      | some p =>
        obtain ⟨j, ndj, _, _, hkey⟩ :=
          upsertBuild_mem_nodesLocal v appName tree k p (mem_of_mapGet _ _ _ hl)
        exact absurd hkey.symm (hapart _)
      | none =>
        simp only
        rw [removeApp_nodesByUID, if_neg hold]
    · intro q hq _ huq
      obtain ⟨⟨k', hk'⟩, _⟩ := (mem_upsertTempRoots v appName tree q).1 hq
      obtain ⟨j, ndj, hj, hqj, _⟩ := upsertBuild_mem_nodesLocal v appName tree k' q hk'
      rw [hqj, (upsertLinked_inv v appName tree).1.uid,
        upsertBuild_getD_new v appName tree j ndj hj] at huq
      exact hapart _ huq.symm
  · rw [UpsertAppTree_expanded v v' appName tree h, if_neg hnew, if_neg hold]

/-- No node registered for the application before the call is indexed or
visible after it. -/
theorem UpsertAppTree_old_gone {owner : Nat → String} {names : List String} {v v' : TreeView}
    (hc : Closed v) (ho : OwnedBy owner names v) (appName : String) (tree : ResourceTree)
    (h : v.UpsertAppTree appName tree = some v') (p : Nat) (hp : v.isNodeOf appName p) :
    (∀ k, mapGet v'.nodesByUID k ≠ some p) ∧ p ∉ v'.order := by
  have hown : owner p = appName ∧ p < v.heap.length := by
    rcases hp with ⟨k, hk, hkp⟩ | hr
    · exact ⟨ho.index appName k p hk hkp, hc.index k p hkp⟩
    · exact ⟨ho.root appName p hr, hc.rootByApp appName p hr⟩
  constructor
  · intro k hk
    rcases UpsertAppTree_index_cases v v' appName tree h k p hk with ⟨_, hpr⟩ | ⟨_, _, hm⟩ |
      ⟨_, _, hold, hkv⟩
    · omega
    · have := (upsertBuild_local_range v appName tree k p hm).1
      omega
    · obtain ⟨a, ha⟩ := ho.indexed k p hkv
      have hne : a ≠ appName := by
        intro e
        subst e
        exact hold ha
      exact hne ((ho.index a k p ha hkv).symm.trans hown.1)
  · intro hmem
    have hw := (rebuildOrder_spec _ _ h).1
    have := walkRoots_closed (v.upsertCore appName tree)
      (fun q => v.heap.length ≤ q ∨ owner q ≠ appName) ?_ ?_ _ hw p hmem
    · rcases this with h1 | h1
      · omega
      · exact h1 hown.1
    · intro q hq c hcm
      rw [node_upsertCore] at hcm
      rcases upsertHeap_children_cases v hc appName tree q c hcm with ⟨h1, h2⟩ | ⟨h1, _, h3⟩ |
        ⟨h1, h2⟩
      · right
        rw [upsertHeap_old v appName tree q h1] at hcm
        rw [ho.child q h1 c hcm]
        rcases hq with hq | hq
        · omega
        · exact hq
      · exact Or.inl (upsertLinked_children_local v appName tree q c h1 h3).1
      · exact Or.inl (upsertFilter_filtered_local v appName tree c h2).1
    · intro r hr
      have hr' : r ∈ v'.roots := by
        rw [(UpsertAppTree_sameForest v v' appName tree h).roots]
        exact hr
      rcases (mem_UpsertAppTree_roots v v' appName tree h r).1 hr' with hr1 | hr1
      · right
        obtain ⟨hr2, hne⟩ := (mem_removeApp_roots ho appName r).1 hr1
        obtain ⟨a, ha⟩ := ho.rootsFrom r hr2
        rw [ho.root a r ha]
        intro e
        subst e
        exact hne ha
      · left
        omega

/-- The number of roots is the number of distinct applications upserted. -/
theorem OwnedBy.roots_length {owner : Nat → String} {names : List String} {v : TreeView}
    (ho : OwnedBy owner names v) : v.roots.length = names.dedup.length := by
  rw [ho.count, ← List.length_map v.rootByApp Prod.fst]
  apply List.Perm.length_eq
  rw [List.perm_ext_iff_of_nodup ho.rootKeys (List.nodup_dedup names)]
  intro a
  rw [List.mem_dedup, ho.upserted a, mapGet_ne_none_iff_mem_keys]

end Argonaut

namespace Argonaut

/-! ## When the walk of `rebuildOrder` returns -/

theorem walkEach_returns (step : Nat → Option (List Nat)) (cs : List Nat)
    (h : ∀ c ∈ cs, ∃ l, step c = some l) : ∃ l, TreeView.walkEach step cs = some l := by
  induction cs with
  | nil => exact ⟨[], rfl⟩
  | cons c cs ih =>
    obtain ⟨a, ha⟩ := h c (List.mem_cons_self _ _)
    obtain ⟨b, hb⟩ := ih (fun c' hc' => h c' (List.mem_cons_of_mem _ hc'))
    exact ⟨a ++ b, by simp only [TreeView.walkEach, ha, hb]⟩

theorem walkEach_step_returns (step : Nat → Option (List Nat)) (cs l : List Nat)
    (h : TreeView.walkEach step cs = some l) : ∀ c ∈ cs, ∃ a, step c = some a := by
  induction cs generalizing l with
  | nil => intro c hc; cases hc
  | cons c cs ih =>
    simp only [TreeView.walkEach] at h
    cases ha : step c with
    | none => rw [ha] at h; cases h
    | some a =>
      rw [ha] at h
      cases hb : TreeView.walkEach step cs with
      | none => rw [hb] at h; cases h
      | some b =>
        intro c' hc'
        rcases List.mem_cons.1 hc' with rfl | hc'
        · exact ⟨a, ha⟩
        · exact ih b hb c' hc'

theorem Shallow.mono {h : List treeNode} {d p : Nat} (hs : Shallow h d p) :
    ∀ d', d ≤ d' → Shallow h d' p := by
  induction hs with
  | node d p _ ih =>
    intro d' hd
    obtain ⟨e, rfl⟩ : ∃ e, d' = e + 1 := ⟨d' - 1, by omega⟩
    exact Shallow.node e p (fun c hc => ih c hc e (by omega))

/-- Shallowness only depends on the cells that can be reached. -/
theorem Shallow.frame {h h' : List treeNode} (S : Nat → Prop)
    (hS : ∀ q, S q → (h'.getD q default).children = (h.getD q default).children ∧
      ∀ c ∈ (h.getD q default).children, S c)
    {d p : Nat} (hs : Shallow h d p) : S p → Shallow h' d p := by
  induction hs with
  | node d p _ ih =>
    intro hp
    refine Shallow.node d p (fun c hc => ?_)
    rw [(hS p hp).1] at hc
    exact ih c hc ((hS p hp).2 c hc)

/-- A rank that decreases along the child links bounds the depth. -/
theorem shallow_of_rank (h : List treeNode) (S : Nat → Prop) (rank : Nat → Nat)
    (hS : ∀ q, S q → ∀ c ∈ (h.getD q default).children, S c ∧ rank c < rank q) :
    ∀ d p, S p → rank p < d → Shallow h d p := by
  intro d
  induction d with
  | zero => intro p _ hr; omega
  | succ d ih =>
    intro p hp hr
    refine Shallow.node d p (fun c hc => ?_)
    obtain ⟨hc1, hc2⟩ := hS p hp c hc
    exact ih c hc1 (by omega)

/-- The walk returns from a node below which the heap is shallow. -/
theorem walk_returns (v : TreeView) {d p : Nat} (hs : Shallow v.heap d p) :
    ∀ fuel, d ≤ fuel → ∃ l, TreeView.walk v fuel p = some l := by
  induction hs with
  | node d p _ ih =>
    intro fuel hf
    obtain ⟨f, rfl⟩ : ∃ f, fuel = f + 1 := ⟨fuel - 1, by omega⟩
    simp only [TreeView.walk]
    split
    · obtain ⟨l, hl⟩ := walkEach_returns (TreeView.walk v f) (v.node p).children
        (fun c hc => ih c hc f (by omega))
      exact ⟨p :: l, by rw [hl]; rfl⟩
    · exact ⟨[p], rfl⟩

/-- Where every node is expanded, a walk that returns bounds the depth. -/
theorem shallow_of_walk (v : TreeView) (S : Nat → Prop)
    (hS : ∀ q, S q → mapGetBool v.expanded (v.node q).uid = true ∧
      ∀ c ∈ (v.node q).children, S c) :
    ∀ fuel p l, S p → TreeView.walk v fuel p = some l → Shallow v.heap fuel p := by
  intro fuel
  induction fuel with
  | zero => intro p l _ h; simp [TreeView.walk] at h
  | succ f ih =>
    intro p l hp h
    simp only [TreeView.walk, (hS p hp).1, if_true] at h
    cases hw : TreeView.walkEach (TreeView.walk v f) (v.node p).children with
    | none => rw [hw] at h; cases h
    | some t =>
      refine Shallow.node f p (fun c hc => ?_)
      obtain ⟨a, ha⟩ := walkEach_step_returns _ _ t hw c hc
      exact ih c a ((hS p hp).2 c hc) ha

theorem walkRoots_returns (v : TreeView)
    (h : ∀ r ∈ v.roots, Shallow v.heap (v.heap.length + 1) r) :
    ∃ l, TreeView.walkRoots v = some l :=
  walkEach_returns _ _ (fun r hr => walk_returns v (h r hr) _ (le_refl _))

theorem rebuildOrder_returns (v : TreeView)
    (h : ∀ r ∈ v.roots, Shallow v.heap (v.heap.length + 1) r) :
    ∃ v', TreeView.rebuildOrder v = some v' := by
  obtain ⟨l, hl⟩ := walkRoots_returns v h
  exact ⟨_, by unfold TreeView.rebuildOrder; rw [hl]⟩

theorem Shallowed.shallowed_of_sameForest {v v2 : TreeView} (h : Shallowed v)
    (hs : SameForest v v2) : Shallowed v2 := by
  intro r hr
  rw [hs.heap]
  rw [hs.roots] at hr
  exact h r hr

theorem Shallowed.shallowed_of_sameLinks {v v2 : TreeView} (h : Shallowed v)
    (hs : SameLinks v v2) : Shallowed v2 := by
  intro r hr
  rw [hs.roots] at hr
  rw [hs.length]
  exact (h r hr).frame (fun _ => True) (fun q _ => ⟨hs.children q, fun _ _ => trivial⟩) trivial

theorem Shallowed.shallowed_new (width height : Int) :
    Shallowed (TreeView.NewTreeView width height) := by
  intro r hr
  simp [TreeView.NewTreeView] at hr

/-- `Update` returns on every view whose forest is finite. -/
theorem Update_returns (v : TreeView) (hs : Shallowed v) (msg : Msg) :
    ∃ v', v.Update msg = some v' := by
  have hre : ∀ e : GoMap Bool, ∃ w, TreeView.rebuildOrder { v with expanded := e } = some w :=
    fun e => rebuildOrder_returns _ hs
  cases msg with
  | windowSize w h => exact ⟨_, rfl⟩
  | other => exact ⟨_, rfl⟩
  | key k =>
    have hk : ∃ w, v.updateKey k = some w := by
      unfold TreeView.updateKey
      split
      · exact ⟨_, rfl⟩
      · split
        · exact ⟨_, rfl⟩
        · split
          · split
            · simp only
              split
              · exact hre _
              · split
                · exact ⟨_, rfl⟩
                · exact ⟨_, rfl⟩
            · exact ⟨_, rfl⟩
          · split
            · split
              · simp only
                split
                · exact hre _
                · exact ⟨_, rfl⟩
              · exact ⟨_, rfl⟩
            · split
              · exact hre _
              · split
                · exact hre _
                · exact ⟨_, rfl⟩
    obtain ⟨w, hw⟩ := hk
    exact ⟨w.syncSelectedUID, by simp only [TreeView.Update, hw, Option.map_some']⟩

end Argonaut

namespace Argonaut

/-! ## `UpsertAppTree` returns on acyclic snapshots -/

theorem linkParent_edges (appName : String) (nodesLocal : GoMap Nat) (edge : Nat → Nat → Prop)
    (base : Nat) (h : List treeNode) (child : Nat) (r : ResourceRef)
    (hnew : ∀ p, mapGet nodesLocal (TreeView.makeKey appName r.UID) = some p → edge p child)
    (hl : ∀ p c, base ≤ p → c ∈ (h.getD p default).children → edge p c) :
    ∀ p c, base ≤ p →
      c ∈ ((TreeView.linkParent appName nodesLocal child h r).getD p default).children →
      edge p c := by
  unfold TreeView.linkParent
  cases hp : mapGet nodesLocal (TreeView.makeKey appName r.UID) with
  | none => exact hl
  | some p =>
    simp only
    intro p0 c hp0 hc
    rw [setChildren_children] at hc
    split at hc
    · rename_i hpp
      rw [setParent_children, ← hpp.1] at hc
      rcases List.mem_append.1 hc with hc | hc
      · exact hl p0 c hp0 hc
      · rw [List.mem_singleton.1 hc, hpp.1]
        exact hnew p hp
    · rw [setParent_children] at hc
      exact hl p0 c hp0 hc

theorem linkNode_edges (appName : String) (nodesLocal : GoMap Nat) (edge : Nat → Nat → Prop)
    (base : Nat) (h : List treeNode) (nd : ResourceNode)
    (hnew : ∀ child p, mapGet nodesLocal (TreeView.makeKey appName nd.UID) = some child →
      ∀ r ∈ nd.ParentRefs, mapGet nodesLocal (TreeView.makeKey appName r.UID) = some p →
        edge p child)
    (hl : ∀ p c, base ≤ p → c ∈ (h.getD p default).children → edge p c) :
    ∀ p c, base ≤ p →
      c ∈ ((TreeView.linkNode appName nodesLocal h nd).getD p default).children → edge p c := by
  unfold TreeView.linkNode
  cases hc : mapGet nodesLocal (TreeView.makeKey appName nd.UID) with
  | none => exact hl
  | some child =>
    simp only
    apply foldl_inv (fun h : List treeNode => ∀ p c, base ≤ p → c ∈ (h.getD p default).children → edge p c)
      _ _ _ hl
    intro s r hr hs
    exact linkParent_edges appName nodesLocal edge base s child r
      (fun p hp => hnew child p hc r hr hp) hs

/-- Every child link among the nodes of the call comes from a parent reference
of the snapshot. -/
theorem upsertLinked_edges (v : TreeView) (appName : String) (tree : ResourceTree) :
    ∀ p c, v.heap.length ≤ p →
      c ∈ ((v.upsertLinked appName tree).getD p default).children →
      linkEdge v appName tree p c := by
  unfold TreeView.upsertLinked
  apply foldl_inv (fun h : List treeNode => ∀ p c, v.heap.length ≤ p → c ∈ (h.getD p default).children →
    linkEdge v appName tree p c)
  · intro p c hp hc
    obtain ⟨⟨k, hk⟩, hpar⟩ := (upsertBuild_linked v appName tree).children p c hp hc
    obtain ⟨i, ndi, hi, rfl, _⟩ := upsertBuild_mem_nodesLocal v appName tree k c hk
    rw [upsertBuild_getD_new v appName tree i ndi hi] at hpar
    exact absurd rfl hpar
  · intro s nd hnd hs
    apply linkNode_edges appName _ _ _ s nd _ hs
    intro child p hchild r hr hp
    exact ⟨nd, hnd, r, hr, hchild, hp⟩

/-! ### A rank below the number of entries -/

theorem countP_lt_of_mem {α : Type} (p q : α → Bool) (l : List α)
    (hpq : ∀ x ∈ l, p x = true → q x = true) (a : α) (ha : a ∈ l) (hqa : q a = true)
    (hpa : p a = false) : l.countP p < l.countP q := by
  induction l with
  | nil => cases ha
  | cons x l ih =>
    have hle : l.countP p ≤ l.countP q :=
      List.countP_mono_left (fun y hy => hpq y (List.mem_cons_of_mem _ hy))
    rcases List.mem_cons.1 ha with rfl | ha'
    · rw [List.countP_cons_of_pos _ _ hqa, List.countP_cons_of_neg _ _ (by simp [hpa])]
      omega
    · have hlt := ih (fun y hy => hpq y (List.mem_cons_of_mem _ hy)) ha'
      by_cases hx : p x = true
      · rw [List.countP_cons_of_pos _ _ hx,
          List.countP_cons_of_pos _ _ (hpq x (List.mem_cons_self _ _) hx)]
        omega
      · rw [List.countP_cons_of_neg _ _ hx]
        by_cases hqx : q x = true
        · rw [List.countP_cons_of_pos _ _ hqx]
          omega
        · rw [List.countP_cons_of_neg _ _ hqx]
          exact hlt

/-- An acyclic snapshot has a rank with values below its number of entries. -/
theorem Acyclic.bounded {tree : ResourceTree} (h : Acyclic tree) :
    ∃ rank : String → Nat, (∀ nd ∈ tree.Nodes, rank nd.UID < tree.Nodes.length) ∧
      ∀ nd ∈ tree.Nodes, ∀ ref ∈ nd.ParentRefs,
        (∃ nd' ∈ tree.Nodes, nd'.UID = ref.UID) → rank nd.UID < rank ref.UID := by
  obtain ⟨r, hr⟩ := h
  refine ⟨fun u => tree.Nodes.countP (fun m => decide (r m.UID < r u)), ?_, ?_⟩
  · intro nd hnd
    have := countP_lt_of_mem (fun m => decide (r m.UID < r nd.UID)) (fun _ => true)
      tree.Nodes (fun _ _ _ => rfl) nd hnd rfl (by simp)
    rw [List.countP_true] at this
    exact this
  · intro nd hnd ref href hres
    have hlt := hr nd hnd ref href hres
    apply countP_lt_of_mem _ _ tree.Nodes _ nd hnd
    · simpa using hlt
    · simp
    · intro x _ hx
      simp only [decide_eq_true_eq] at hx ⊢
      omega

/-! ### The forest stays finite -/

theorem mem_upsertCore_roots (v : TreeView) (appName : String) (tree : ResourceTree) (r : Nat) :
    r ∈ (v.upsertCore appName tree).roots ↔
      r ∈ (v.removeApp appName).roots ∨ r = v.heap.length + tree.Nodes.length := by
  show r ∈ ((v.removeApp appName).roots ++ [v.upsertRoot appName tree]).insertionSort
      (fun a b => TreeView.rootLess (v.upsertHeap appName tree) b a = false) ↔ _
  rw [(List.perm_insertionSort _ _).mem_iff, List.mem_append, List.mem_singleton, upsertRoot_eq]

/-- The forest below a previous root is not touched by `UpsertAppTree`. -/
theorem upsertHeap_shallow_old (v : TreeView) (hc : Closed v) (appName : String)
    (tree : ResourceTree) (d r : Nat) (hr : r < v.heap.length) (hs : Shallow v.heap d r) :
    Shallow (v.upsertHeap appName tree) d r :=
  hs.frame (fun q => q < v.heap.length)
    (fun q hq => ⟨congrArg treeNode.children (upsertHeap_old v appName tree q hq),
      fun c hcm => hc.children q hq c hcm⟩) hr

theorem upsertCore_shallow_old (v : TreeView) (hc : Closed v) (hs : Shallowed v)
    (appName : String) (tree : ResourceTree) (r : Nat)
    (hr : r ∈ (v.removeApp appName).roots) :
    Shallow (v.upsertHeap appName tree) ((v.upsertHeap appName tree).length + 1) r := by
  have hmem := removeApp_roots_subset v appName r hr
  apply (upsertHeap_shallow_old v hc appName tree _ r (hc.roots r hmem) (hs r hmem)).mono
  rw [upsertHeap_length]
  omega

theorem upsertCore_expanded_new (v : TreeView) (appName : String) (tree : ResourceTree)
    (q : Nat) (hq : v.heap.length ≤ q) (hq' : q ≤ v.heap.length + tree.Nodes.length) :
    mapGetBool (v.upsertCore appName tree).expanded ((v.upsertCore appName tree).node q).uid =
      true := by
  have hkey : ((v.upsertCore appName tree).node q).uid ∈ v.upsertKeys appName tree := by
    rw [node_upsertCore, mem_upsertKeys]
    by_cases hroot : q = v.heap.length + tree.Nodes.length
    · right
      rw [hroot, upsertHeap_root]
      rfl
    · left
      obtain ⟨i, rfl⟩ : ∃ i, q = v.heap.length + i := ⟨q - v.heap.length, by omega⟩
      have hi : i < tree.Nodes.length := by omega
      refine ⟨tree.Nodes[i], List.getElem_mem _, ?_⟩
      rw [uid_of_label (upsertHeap_label v appName tree i _ (List.getElem?_eq_getElem hi))]
      rfl
  unfold mapGetBool
  show (mapGet ((v.upsertKeys appName tree).foldl (fun e k => mapSet e k true)
    (v.removeApp appName).expanded) _).getD false = true
  rw [mapGet_foldl_mapSet_true, if_pos hkey]
  rfl

theorem Shallowed.shallowed_reset (v : TreeView) : Shallowed v.resetData := by
  intro r hr
  cases hr

/-- A call of `UpsertAppTree` that returns leaves a finite forest. -/
theorem Shallowed.shallowed_upsert {v v' : TreeView} (hc : Closed v) (hs : Shallowed v)
    (appName : String) (tree : ResourceTree) (h : v.UpsertAppTree appName tree = some v') :
    Shallowed v' := by
  have hheap := UpsertAppTree_heap v v' appName tree h
  intro r hr
  rw [hheap]
  rcases (mem_UpsertAppTree_roots v v' appName tree h r).1 hr with hr | hr
  · exact upsertCore_shallow_old v hc hs appName tree r hr
  · have hw := (rebuildOrder_spec _ _ h).1
    obtain ⟨a, ha⟩ := walkEach_step_returns _ _ _ hw _ (upsertCore_root_mem v appName tree)
    rw [upsertRoot_eq] at ha
    rw [hr]
    refine shallow_of_walk (v.upsertCore appName tree)
      (fun q => v.heap.length ≤ q ∧ q ≤ v.heap.length + tree.Nodes.length) ?_ _ _ a
      ⟨by omega, le_refl _⟩ ha
    intro q hq
    refine ⟨upsertCore_expanded_new v appName tree q hq.1 hq.2, ?_⟩
    intro c hcm
    rw [node_upsertCore] at hcm
    rcases upsertHeap_children_cases v hc appName tree q c hcm with ⟨h1, _⟩ | ⟨h1, _, h3⟩ |
      ⟨_, h2⟩
    · omega
    · have := upsertLinked_children_local v appName tree q c h1 h3
      omega
    · have := upsertFilter_filtered_local v appName tree c h2
      omega

/-- Every view reached from `NewTreeView` has a finite forest. -/
theorem Reached.shallowed {names : List String} {v : TreeView} (h : Reached names v) :
    Shallowed v := by
  induction h with
  | new width height => exact Shallowed.shallowed_new width height
  | upsert appName tree hr hu ih => exact ih.shallowed_upsert hr.closed appName tree hu
  | update msg _ hu ih => exact ih.shallowed_of_sameForest (Update_sameForest _ _ msg hu)
  | setSelectedIndex idx _ ih =>
    exact ih.shallowed_of_sameForest (SetSelectedIndex_sameForest _ idx)
  | toggleSelection _ ih => exact ih.shallowed_of_sameForest (ToggleSelection_sameForest _)
  | clearSelection _ ih => exact ih.shallowed_of_sameForest (ClearSelection_sameForest _)
  | setFilter q _ ih => exact ih.shallowed_of_sameForest (SetFilter_sameForest _ q)
  | clearFilter _ ih => exact ih.shallowed_of_sameForest (ClearFilter_sameForest _)
  | nextMatch _ hu ih => exact ih.shallowed_of_sameForest (NextMatch_sameForest _ _ _ hu)
  | prevMatch _ hu ih => exact ih.shallowed_of_sameForest (PrevMatch_sameForest _ _ _ hu)
  | jumpToFirstMatch _ ih => exact ih.shallowed_of_sameForest (JumpToFirstMatch_sameForest _)
  | setAppMeta name health sync _ ih =>
    exact ih.shallowed_of_sameForest (SetAppMeta_sameForest _ name health sync)
  | setSize width height _ ih =>
    exact ih.shallowed_of_sameForest (SetSize_sameForest _ width height)
  | setDesaturateMode enabled _ ih =>
    exact ih.shallowed_of_sameForest (SetDesaturateMode_sameForest _ enabled)
  | setFlashAll enabled _ ih =>
    exact ih.shallowed_of_sameForest (SetFlashAll_sameForest _ enabled)
  | @setData names v v' tree hr hu ih =>
    exact (Shallowed.shallowed_reset v).shallowed_upsert hr.closed.closed_reset _ tree hu
  | setResourceStatuses appName resources _ ih =>
    exact ih.shallowed_of_sameLinks (SetResourceStatuses_sameLinks _ appName resources)

/-- The nodes of an acyclic snapshot form a finite forest below the synthetic
root. -/
theorem upsertHeap_shallow_root (v : TreeView) (hc : Closed v) (appName : String)
    (tree : ResourceTree) (hacyc : Acyclic tree) :
    Shallow (v.upsertHeap appName tree) (tree.Nodes.length + 1)
      (v.heap.length + tree.Nodes.length) := by
  obtain ⟨r, hbound, hmono⟩ := hacyc.bounded
  have hrank : ∀ j nd, tree.Nodes[j]? = some nd →
      (match tree.Nodes[v.heap.length + j - v.heap.length]? with
        | some nd => r nd.UID
        | none => tree.Nodes.length) = r nd.UID := by
    intro j nd hj
    rw [Nat.add_sub_cancel_left, hj]
  apply shallow_of_rank (v.upsertHeap appName tree) (fun q => v.heap.length ≤ q)
    (fun q => match tree.Nodes[q - v.heap.length]? with
      | some nd => r nd.UID
      | none => tree.Nodes.length)
  · intro q hq c hcm
    rcases upsertHeap_children_cases v hc appName tree q c hcm with ⟨h1, _⟩ | ⟨h1, _, h3⟩ |
      ⟨h1, h2⟩
    · omega
    · obtain ⟨nd, hnd, ref, href, hcl, hql⟩ := upsertLinked_edges v appName tree q c h1 h3
      obtain ⟨j, ndj, hj, rfl, hkj⟩ :=
        upsertBuild_mem_nodesLocal v appName tree _ c (mem_of_mapGet _ _ _ hcl)
      obtain ⟨i, ndi, hi, rfl, hki⟩ :=
        upsertBuild_mem_nodesLocal v appName tree _ q (mem_of_mapGet _ _ _ hql)
      refine ⟨by omega, ?_⟩
      rw [hrank j ndj hj, hrank i ndi hi, makeKey_inj _ _ _ hkj, makeKey_inj _ _ _ hki]
      exact hmono nd hnd ref href ⟨ndi, List.getElem?_mem hi, makeKey_inj _ _ _ hki⟩
    · obtain ⟨hc1, hc2⟩ := upsertFilter_filtered_local v appName tree c h2
      refine ⟨hc1, ?_⟩
      obtain ⟨j, rfl⟩ : ∃ j, c = v.heap.length + j := ⟨c - v.heap.length, by omega⟩
      have hj : j < tree.Nodes.length := by omega
      rw [hrank j _ (List.getElem?_eq_getElem hj), h1, Nat.add_sub_cancel_left,
        List.getElem?_eq_none (le_refl _)]
      exact hbound _ (List.getElem_mem _)
  · exact Nat.le_add_right _ _
  · rw [Nat.add_sub_cancel_left, List.getElem?_eq_none (le_refl _)]
    exact Nat.lt_succ_self _

/-- `Update` returns on every view reached from `NewTreeView`. -/
theorem Reached.update_returns {names : List String} {v : TreeView} (h : Reached names v)
    (msg : Msg) : ∃ v', v.Update msg = some v' :=
  Update_returns v h.shallowed msg

/-- `UpsertAppTree` returns on every view with a finite forest and every
acyclic snapshot. -/
theorem UpsertAppTree_returns (v : TreeView) (hc : Closed v) (hs : Shallowed v)
    (appName : String) (tree : ResourceTree) (hacyc : Acyclic tree) :
    ∃ v', v.UpsertAppTree appName tree = some v' := by
  apply rebuildOrder_returns
  intro r hr
  show Shallow (v.upsertHeap appName tree) ((v.upsertHeap appName tree).length + 1) r
  rcases (mem_upsertCore_roots v appName tree r).1 hr with hr | hr
  · exact upsertCore_shallow_old v hc hs appName tree r hr
  · rw [hr]
    apply (upsertHeap_shallow_root v hc appName tree hacyc).mono
    rw [upsertHeap_length]
    omega

/-- `SetData` returns on every view reached from `NewTreeView` and every acyclic
snapshot. -/
theorem Reached.setData_returns {names : List String} {v : TreeView} (h : Reached names v)
    (tree : ResourceTree) (hacyc : Acyclic tree) : ∃ v', v.SetData tree = some v' :=
  UpsertAppTree_returns v.resetData h.closed.closed_reset (Shallowed.shallowed_reset v)
    v.appName tree hacyc

end Argonaut

namespace Argonaut

/-! ## C10 -/

/-- C10 fails as stated: the snapshot holds the parentless Application node
`demo` and, as its child, a second Application node named `demo`; after the
upsert the visible order holds two Application nodes named `demo`. -/
theorem UpsertAppTree_dedup_counterexample :
    ((TreeView.NewTreeView 80 24).UpsertAppTree "demo" Examples.nestedApplication).map
        (fun v => v.order.map (fun p => ((v.node p).uid, (v.node p).kind, (v.node p).name))) =
      some [("demo::__app_root__", "Application", "demo"),
            ("demo::2", "Application", "demo")] := by
  decide

/-- C10, amended. `UpsertAppTree` de-duplicates the Application CR at the top
level only. For every reachable view and every snapshot entry of kind
"Application" named like the app such that no entry with its UID has a parent
reference into the snapshot: the call returns when the parent references of the
snapshot are acyclic; and after every call that returns, the node allocated for
that entry (it carries the entry's key, kind and name) is in no entry of the
node index and not in the visible order, and each of its children is a child of
the synthetic root and has the synthetic root as parent; the synthetic root
(kind "Application", named like the app) occurs exactly once in the visible
order, and every other visible node of this call of kind "Application" named
like the app is the node of a snapshot entry that has a parent reference into
the snapshot. -/
theorem UpsertAppTree_dedup (names : List String) (v : TreeView) (hreach : Reached names v)
    (appName : String) (tree : ResourceTree)
    (i : Nat) (nd : ResourceNode) (hi : tree.Nodes[i]? = some nd)
    (hkind : nd.Kind = "Application") (hname : nd.Name = appName)
    (hparentless : ∀ nd' ∈ tree.Nodes, nd'.UID = nd.UID → ¬ hasSnapshotParent tree nd') :
    (Acyclic tree → ∃ v', v.UpsertAppTree appName tree = some v') ∧
    ∀ v', v.UpsertAppTree appName tree = some v' →
    ((v'.node (v.heap.length + i)).uid = TreeView.makeKey appName nd.UID ∧
      (v'.node (v.heap.length + i)).kind = nd.Kind ∧
      (v'.node (v.heap.length + i)).name = nd.Name) ∧
    (∀ k, mapGet v'.nodesByUID k ≠ some (v.heap.length + i)) ∧
    v.heap.length + i ∉ v'.order ∧
    (∀ c ∈ (v'.node (v.heap.length + i)).children,
      c ∈ (v'.node (v.heap.length + tree.Nodes.length)).children ∧
      (v'.node c).parent = some (v.heap.length + tree.Nodes.length)) ∧
    ((v'.node (v.heap.length + tree.Nodes.length)).kind = "Application" ∧
      (v'.node (v.heap.length + tree.Nodes.length)).name = appName ∧
      (v'.node (v.heap.length + tree.Nodes.length)).uid =
        TreeView.makeKey appName "__app_root__" ∧
      (v'.node (v.heap.length + tree.Nodes.length)).parent = none) ∧
    v'.order.count (v.heap.length + tree.Nodes.length) = 1 ∧
    (∀ p ∈ v'.order, v.heap.length ≤ p → (v'.node p).kind = "Application" →
      (v'.node p).name = appName →
      p = v.heap.length + tree.Nodes.length ∨
      ∃ j ndj, tree.Nodes[j]? = some ndj ∧ p = v.heap.length + j ∧
        ∃ nd' ∈ tree.Nodes, nd'.UID = ndj.UID ∧ hasSnapshotParent tree nd') := by
  refine ⟨UpsertAppTree_returns v hreach.closed hreach.shallowed appName tree, fun v' h => ?_⟩
  have hc := hreach.closed
  have hd := duplicate_of_entry v appName tree i nd hi hkind hname hparentless
  obtain ⟨hilt, _⟩ := List.getElem?_eq_some_iff.1 hi
  have hw := (rebuildOrder_spec _ _ h).1
  have hnode := node_UpsertAppTree v v' appName tree h
  have huid2 : ((v.upsertLinked appName tree).getD (v.heap.length + i) default).uid =
      TreeView.makeKey appName nd.UID := by
    rw [(upsertLinked_inv v appName tree).1.uid, upsertBuild_getD_new v appName tree i nd hi]
    rfl
  have htemp : ∀ k, (k, v.heap.length + i) ∈ (v.upsertBuild appName tree).nodesLocal →
      v.heap.length + i ∈ v.upsertTempRoots appName tree := fun k hk =>
    (mem_upsertTempRoots v appName tree _).2 ⟨⟨k, hk⟩, hd.parentless⟩
  refine ⟨?_, ?_, ?_, ?_, ?_, UpsertAppTree_count_root v v' hc appName tree h, ?_⟩
  · have hl := upsertHeap_label v appName tree i nd hi
    rw [hnode]
    exact ⟨uid_of_label hl, kind_of_label hl, name_of_label hl⟩
  · intro k hk
    rcases UpsertAppTree_index_cases v v' appName tree h k _ hk with ⟨_, hp⟩ | ⟨_, hf, hm⟩ |
      ⟨_, _, _, hold⟩
    · omega
    · obtain ⟨j, ndj, hj, hpj, hkey⟩ := upsertBuild_mem_nodesLocal v appName tree k _ hm
      have hji : j = i := by omega
      subst hji
      rw [hi] at hj
      simp only [Option.some.injEq] at hj
      subst hj
      have := ((upsertFilter_done v appName tree _ (htemp k hm)).1 hd.app).1
      rw [huid2, hkey, hf] at this
      cases this
    · have := hc.index k _ hold
      omega
  · intro hmem
    have := walkRoots_closed (v.upsertCore appName tree) (fun p => p ≠ v.heap.length + i) ?_ ?_
      _ hw _ hmem
    · exact this rfl
    · intro p _ c hcm hcx
      rw [node_upsertCore, hcx] at hcm
      exact hd.not_child hc p hcm
    · intro r hr hrx
      have hr' : r ∈ v'.roots := by
        rw [(UpsertAppTree_sameForest v v' appName tree h).roots]
        exact hr
      rcases (mem_UpsertAppTree_roots v v' appName tree h r).1 hr' with hr1 | hr1
      · have := removeApp_roots_lt v hc appName r hr1
        omega
      · omega
  · intro c hcm
    rw [hnode] at hcm
    have hcm2 := (upsertHeap_children v appName tree _ c (by omega)).1 hcm
    obtain ⟨k, hk⟩ := (upsertLinked_inv v appName tree).2.owner _ c hd.base hcm2
    have hfil := ((upsertFilter_done v appName tree _ (htemp k hk)).1 hd.app).2 c hcm2
    have hsr := (mem_upsertSortedRoots v appName tree c).2 hfil
    rw [hnode, hnode, upsertHeap_root]
    exact ⟨hsr, upsertHeap_parent_of_root v appName tree c hsr⟩
  · rw [hnode, upsertHeap_root]
    exact ⟨rfl, rfl, rfl, rfl⟩
  · intro p hp hpb hpk hpn
    by_cases hroot : p = v.heap.length + tree.Nodes.length
    · exact Or.inl hroot
    · right
      rw [hnode] at hpk hpn
      rcases walkRoots_mem _ _ hw p hp with hr | ⟨p0, hp0⟩
      · have hr' : p ∈ v'.roots := by
          rw [(UpsertAppTree_sameForest v v' appName tree h).roots]
          exact hr
        rcases (mem_UpsertAppTree_roots v v' appName tree h p).1 hr' with hr1 | hr1
        · have := removeApp_roots_lt v hc appName p hr1
          omega
        · exact absurd hr1 hroot
      · rw [node_upsertCore] at hp0
        have hp0b : v.heap.length ≤ p0 := by
          rcases upsertHeap_children_cases v hc appName tree p0 p hp0 with ⟨_, h2⟩ | ⟨h1, _⟩ |
            ⟨h1, _⟩ <;> omega
        obtain ⟨⟨k, hk⟩, hcase⟩ := upsertHeap_new_child v hc appName tree p0 p hp0b hp0
        have hpr := upsertBuild_local_range v appName tree k p hk
        rcases hcase with hpar | hna
        · exact linked_parent_origin v appName tree p hpb hpar
        · exact absurd ((upsertHeap_isAppNode v appName tree p hpr.2).1 ⟨hpk, hpn⟩) hna

end Argonaut

namespace Argonaut

/-! ## Keys of distinct applications -/

theorem append_sep_inj (c : Char) :
    ∀ (l1 l2 r1 r2 : List Char), c ∉ l1 → c ∉ l2 → l1 ++ c :: r1 = l2 ++ c :: r2 → l1 = l2
  | [], [], _, _, _, _, _ => rfl
  | [], y :: l2, r1, r2, _, h2, h => by
    simp only [List.nil_append, List.cons_append, List.cons.injEq] at h
    exact absurd (List.mem_cons.2 (Or.inl h.1)) h2
  | x :: l1, [], r1, r2, h1, _, h => by
    simp only [List.nil_append, List.cons_append, List.cons.injEq] at h
    exact absurd (List.mem_cons.2 (Or.inl h.1.symm)) h1
  | x :: l1, y :: l2, r1, r2, h1, h2, h => by
    simp only [List.cons_append, List.cons.injEq] at h
    rw [h.1, append_sep_inj c l1 l2 r1 r2 (fun hm => h1 (List.mem_cons_of_mem _ hm))
      (fun hm => h2 (List.mem_cons_of_mem _ hm)) h.2]

/-- Application names without a colon have keys that never clash. -/
theorem noClash_of_no_colon (names : List String) (h : ∀ a ∈ names, ':' ∉ a.data) :
    NoClash names := by
  intro a ha b hb hab u u' hk
  have hd := congrArg String.data hk
  rw [makeKey_data, makeKey_data] at hd
  exact hab (String.ext (append_sep_inj ':' a.data b.data _ _ (h a ha) (h b hb) hd))

/-! ## C9 -/

/-- The walk of `rebuildOrder` has no visited set: on a snapshot whose parent
references form a cycle reachable from a top-level node, `UpsertAppTree` does
not return. -/
theorem UpsertAppTree_cyclic_refs :
    (TreeView.NewTreeView 80 24).UpsertAppTree "demo" Examples.cyclicRefs = none := by
  decide

/-- C9 fails as stated: the view holds the application `a` with a resource of
UID `b::c`, registered under the key `a::b::c` for node 0; the upsert of the
application `a::b` with a resource of UID `c` rebinds that key, so the index
entry of the other application `a` now points to node 2. -/
theorem UpsertAppTree_replaces_counterexample :
    "a::b::c" ∈ Examples.clashBefore.oldKeys "a" ∧
    mapGet Examples.clashBefore.nodesByUID "a::b::c" = some 0 ∧
    (Examples.clashBefore.UpsertAppTree "a::b" Examples.clashSnapshot).map
      (fun v => (mapGet v.nodesByUID "a::b::c", (v.node 2).name)) =
        some (some 2, "q") := by
  decide

/-- C9, amended. `UpsertAppTree` replaces rather than accumulates. For every
view reached from `NewTreeView` in which the keys of distinct applications do
not clash, and every snapshot with distinct UIDs none of which is
`__app_root__`: the call returns when the parent references of the snapshot are
acyclic; and after every call that returns, the keys registered for the app are
exactly the snapshot's keys followed by the key of the synthetic root; the node
allocated for each snapshot entry carries the entry's fields and is indexed
under its key, unless it is a top-level Application node named like the app,
whose key is left unbound; the synthetic root (kind "Application", named like
the app) is indexed under the root key, is the root of the app and is in the
root list; no other node allocated by the call is indexed; every registered key
is marked expanded; no node registered for the app before the call is in the
node index or in the visible order; for every other application the registered
keys, the root, and the index entries and expansion flags under its keys are
unchanged, as is every node allocated before the call; and the number of roots
is the number of distinct application names upserted so far. -/
theorem UpsertAppTree_replaces (names : List String) (v : TreeView)
    (hreach : Reached names v) (appName : String) (tree : ResourceTree)
    (hclash : NoClash (appName :: names))
    (hnodup : (tree.Nodes.map (fun n => n.UID)).Nodup)
    (hnoroot : ∀ nd ∈ tree.Nodes, nd.UID ≠ "__app_root__") :
    (Acyclic tree → ∃ v', v.UpsertAppTree appName tree = some v') ∧
    ∀ v', v.UpsertAppTree appName tree = some v' →
    mapGet v'.nodesByApp appName =
      some (tree.Nodes.map (fun n => TreeView.makeKey appName n.UID) ++
        [TreeView.makeKey appName "__app_root__"]) ∧
    (∀ i nd, tree.Nodes[i]? = some nd →
      (v'.node (v.heap.length + i)).label = (TreeView.newNode appName nd).label ∧
      ((nd.Kind = "Application" ∧ nd.Name = appName ∧ ¬ hasSnapshotParent tree nd) →
        mapGet v'.nodesByUID (TreeView.makeKey appName nd.UID) = none) ∧
      (¬ (nd.Kind = "Application" ∧ nd.Name = appName ∧ ¬ hasSnapshotParent tree nd) →
        mapGet v'.nodesByUID (TreeView.makeKey appName nd.UID) =
          some (v.heap.length + i))) ∧
    (mapGet v'.nodesByUID (TreeView.makeKey appName "__app_root__") =
        some (v.heap.length + tree.Nodes.length) ∧
      mapGet v'.rootByApp appName = some (v.heap.length + tree.Nodes.length) ∧
      v.heap.length + tree.Nodes.length ∈ v'.roots ∧
      (v'.node (v.heap.length + tree.Nodes.length)).kind = "Application" ∧
      (v'.node (v.heap.length + tree.Nodes.length)).name = appName ∧
      (v'.node (v.heap.length + tree.Nodes.length)).uid =
        TreeView.makeKey appName "__app_root__") ∧
    (∀ k p, mapGet v'.nodesByUID k = some p → v.heap.length ≤ p →
      (k = TreeView.makeKey appName "__app_root__" ∧ p = v.heap.length + tree.Nodes.length) ∨
      ∃ i nd, tree.Nodes[i]? = some nd ∧ p = v.heap.length + i ∧
        k = TreeView.makeKey appName nd.UID) ∧
    (∀ k, mapGet v'.nodesByApp appName = some k → ∀ key ∈ k,
      mapGetBool v'.expanded key = true) ∧
    (∀ p, v.isNodeOf appName p → (∀ k, mapGet v'.nodesByUID k ≠ some p) ∧ p ∉ v'.order) ∧
    (∀ b, b ≠ appName →
      mapGet v'.nodesByApp b = mapGet v.nodesByApp b ∧
      mapGet v'.rootByApp b = mapGet v.rootByApp b ∧
      ∀ k ∈ v.oldKeys b, mapGet v'.nodesByUID k = mapGet v.nodesByUID k ∧
        mapGet v'.expanded k = mapGet v.expanded k) ∧
    (∀ p, p < v.heap.length → v'.node p = v.node p) ∧
    v'.roots.length = (appName :: names).dedup.length := by
  refine ⟨UpsertAppTree_returns v hreach.closed hreach.shallowed appName tree, fun v' h => ?_⟩
  have hc := hreach.closed
  have hsub : NoClash names := fun a ha b hb hab =>
    hclash a (List.mem_cons_of_mem _ ha) b (List.mem_cons_of_mem _ hb) hab
  obtain ⟨owner, ho⟩ := hreach.owned hsub
  have hnode := node_UpsertAppTree v v' appName tree h
  have hkeys : mapGet v'.nodesByApp appName = some (v.upsertKeys appName tree) := by
    rw [UpsertAppTree_nodesByApp v v' appName tree h, mapGet_mapSet_self]
  have hkeys' : v.upsertKeys appName tree =
      tree.Nodes.map (fun n => TreeView.makeKey appName n.UID) ++
        [TreeView.makeKey appName "__app_root__"] := by
    unfold TreeView.upsertKeys
    rw [upsertBuild_appKeys]
  refine ⟨hkeys' ▸ hkeys, ?_, ⟨?_, ?_, ?_, ?_, ?_, ?_⟩, ?_, ?_, ?_, ?_, ?_, ?_⟩
  · intro i nd hi
    refine ⟨?_, UpsertAppTree_index_of_entry v v' appName tree hnodup hnoroot h i nd hi⟩
    rw [hnode]
    exact upsertHeap_label v appName tree i nd hi
  · rw [UpsertAppTree_nodesByUID v v' appName tree h, mapGet_mapSet_self, upsertRoot_eq]
  · rw [rootByApp_UpsertAppTree v v' appName tree h, if_pos rfl]
  · exact (mem_UpsertAppTree_roots v v' appName tree h _).2 (Or.inr rfl)
  · rw [hnode, upsertHeap_root]
    rfl
  · rw [hnode, upsertHeap_root]
    rfl
  · rw [hnode, upsertHeap_root]
    rfl
  · intro k p hk hp
    rcases UpsertAppTree_index_cases v v' appName tree h k p hk with ⟨h1, h2⟩ | ⟨_, _, hm⟩ |
      ⟨_, _, _, hkv⟩
    · exact Or.inl ⟨h1, h2⟩
    · obtain ⟨j, ndj, hj, hpj, hkey⟩ := upsertBuild_mem_nodesLocal v appName tree k p hm
      exact Or.inr ⟨j, ndj, hj, hpj, hkey.symm⟩
    · have := hc.index k p hkv
      omega
  · intro ks hks key hkey
    rw [hkeys] at hks
    simp only [Option.some.injEq] at hks
    subst hks
    unfold mapGetBool
    rw [UpsertAppTree_expanded v v' appName tree h, if_pos hkey]
    rfl
  · intro p hp
    exact UpsertAppTree_old_gone hc ho appName tree h p hp
  · intro b hb
    refine ⟨?_, ?_, ?_⟩
    · rw [UpsertAppTree_nodesByApp v v' appName tree h, mapGet_mapSet, if_neg hb,
        removeApp_nodesByApp, mapGet_mapDelete, if_neg hb]
    · rw [rootByApp_UpsertAppTree v v' appName tree h, if_neg hb]
    · intro k hk
      exact UpsertAppTree_frame_key ho appName tree hclash h b k hb hk
  · intro p hp
    rw [hnode, upsertHeap_old v appName tree p hp]
    rfl
  · exact (ho.owned_upsert hc appName tree hclash h).roots_length

/-- Witness for C9 (amended): the view holds the application `y`; the snapshot
of `x` is acyclic (the Deployment ranks above its ReplicaSet), so the upsert of
`x` returns; it registers the keys of both entries and the root key for `x`. -/
theorem UpsertAppTree_replaces_witness :
    (∃ v', Examples.oneAppY.UpsertAppTree "x" Examples.snapshotX = some v') ∧
    ∃ v', Examples.oneAppY.UpsertAppTree "x" Examples.snapshotX = some v' ∧
      mapGet v'.nodesByApp "x" =
        some (Examples.snapshotX.Nodes.map (fun n => TreeView.makeKey "x" n.UID) ++
          [TreeView.makeKey "x" "__app_root__"]) ∧
      mapGet v'.nodesByApp "y" = some ["y::1", "y::__app_root__"] ∧
      v'.roots = [4, 1] :=
  ⟨(UpsertAppTree_replaces ["y"] Examples.oneAppY
      (Reached.upsert "y" Examples.snapshotY (Reached.new 80 24) (by decide)) "x"
      Examples.snapshotX (noClash_of_no_colon _ (by decide)) (by decide) (by decide)).1
      ⟨fun u => if u = "1" then 1 else 0, by decide⟩,
    Examples.get (Examples.oneAppY.UpsertAppTree "x" Examples.snapshotX), by decide,
    ((UpsertAppTree_replaces ["y"] Examples.oneAppY
      (Reached.upsert "y" Examples.snapshotY (Reached.new 80 24) (by decide)) "x"
      Examples.snapshotX (noClash_of_no_colon _ (by decide)) (by decide) (by decide)).2
      (Examples.get (Examples.oneAppY.UpsertAppTree "x" Examples.snapshotX)) (by decide)).1,
    by decide, by decide⟩

/-- Witness for C10 (amended): the snapshot `withApplicationCR` holds the
top-level Application node `demo` and is acyclic, so the upsert returns; the
node of the Application entry, at address 0, is not in the visible order. -/
theorem UpsertAppTree_dedup_witness :
    (∃ v', (TreeView.NewTreeView 80 24).UpsertAppTree "demo" Examples.withApplicationCR =
        some v') ∧
    ∃ v', (TreeView.NewTreeView 80 24).UpsertAppTree "demo" Examples.withApplicationCR =
        some v' ∧
      v'.order = [2, 1] ∧ 0 ∉ v'.order :=
  ⟨(UpsertAppTree_dedup [] (TreeView.NewTreeView 80 24) (Reached.new 80 24) "demo"
      Examples.withApplicationCR 0 (Examples.res "1" "Application" "demo" "Healthy" [])
      rfl rfl rfl (by decide)).1 ⟨fun u => if u = "1" then 1 else 0, by decide⟩,
    Examples.get ((TreeView.NewTreeView 80 24).UpsertAppTree "demo" Examples.withApplicationCR),
    by decide, by decide,
    ((UpsertAppTree_dedup [] (TreeView.NewTreeView 80 24) (Reached.new 80 24) "demo"
      Examples.withApplicationCR 0 (Examples.res "1" "Application" "demo" "Healthy" [])
      rfl rfl rfl (by decide)).2
      (Examples.get ((TreeView.NewTreeView 80 24).UpsertAppTree "demo"
        Examples.withApplicationCR)) (by decide)).2.2.1⟩

end Argonaut

namespace Argonaut

/-! ## C7 and C8 -/

/-- C7 fails as stated: the cursor is on `b` (UID `demo::2`); after an upsert
whose snapshot still holds `b`, and in which `b` is visible, the node under the
cursor is `a` (UID `demo::1`). -/
theorem UpsertAppTree_cursor_counterexample :
    Examples.cursorOnB.SelectedUID = "demo::2" ∧
    (Examples.cursorOnB.UpsertAppTree "demo" Examples.snapshotAB).map
        (fun v => (v.order.map (fun p => (v.node p).uid),
          (v.node (v.orderAt v.SelectedIndex)).uid, v.SelectedUID)) =
      some (["demo::__app_root__", "demo::1", "demo::2"], "demo::1", "demo::1") := by
  decide

/-- C7, amended. `UpsertAppTree` keeps the cursor by index, not by UID. For every
view reached from `NewTreeView`: the call returns when the parent references of
the snapshot are acyclic; and after every call that returns at least one row is
visible, `SelectedIndex()` is the previous index when that is still below
`VisibleCount()` and `VisibleCount() - 1` otherwise, and `SelectedUID` is
overwritten with the UID of the node now at that index. -/
theorem UpsertAppTree_cursor (names : List String) (v : TreeView) (hreach : Reached names v)
    (appName : String) (tree : ResourceTree) :
    (Acyclic tree → ∃ v', v.UpsertAppTree appName tree = some v') ∧
    ∀ v', v.UpsertAppTree appName tree = some v' →
    0 < v'.VisibleCount ∧
    v'.SelectedIndex =
      (if v.SelectedIndex ≥ v'.VisibleCount then v'.VisibleCount - 1 else v.SelectedIndex) ∧
    (0 ≤ v.SelectedIndex → 0 ≤ v'.SelectedIndex ∧ v'.SelectedIndex < v'.VisibleCount) ∧
    (0 ≤ v'.SelectedIndex → v'.SelectedUID = (v'.node (v'.orderAt v'.SelectedIndex)).uid) := by
  refine ⟨UpsertAppTree_returns v hreach.closed hreach.shallowed appName tree, fun v' h => ?_⟩
  have hne := UpsertAppTree_order_ne_nil v v' appName tree h
  have hpos : 0 < v'.order.length := List.length_pos.2 hne
  obtain ⟨_, hidx, huid, _⟩ := rebuildOrder_spec _ _ h
  rw [upsertCore_selIdx] at hidx
  have hmax : max 0 ((v'.order.length : Int) - 1) = (v'.order.length : Int) - 1 := by
    apply max_eq_right
    omega
  rw [hmax] at hidx
  simp only [TreeView.SelectedIndex, TreeView.VisibleCount]
  have hrange : 0 ≤ v'.selIdx → v'.selIdx < v'.order.length := by
    intro h0
    rw [hidx] at h0 ⊢
    split
    · omega
    · rename_i hlt
      exact not_le.mp hlt
  refine ⟨by exact_mod_cast hpos, hidx, ?_, ?_⟩
  · intro h0
    have h1 : 0 ≤ v'.selIdx := by
      rw [hidx]
      split
      · omega
      · exact h0
    exact ⟨h1, hrange h1⟩
  · intro h0
    exact huid ⟨h0, hrange h0⟩

theorem cursorOnB_reached : Reached ["demo"] Examples.cursorOnB :=
  Reached.setSelectedIndex 1
    (Reached.upsert "demo" Examples.snapshotB (Reached.new 80 24) (by decide))

/-- Witness for C7 (amended): the snapshot `snapshotAB` is acyclic, so its upsert
over `cursorOnB` returns; the cursor stays at index 1. -/
theorem UpsertAppTree_cursor_witness :
    (∃ v', Examples.cursorOnB.UpsertAppTree "demo" Examples.snapshotAB = some v') ∧
    ∃ v', Examples.cursorOnB.UpsertAppTree "demo" Examples.snapshotAB = some v' ∧
      v'.SelectedIndex = 1 ∧ 0 < v'.VisibleCount :=
  ⟨(UpsertAppTree_cursor ["demo"] Examples.cursorOnB cursorOnB_reached "demo"
      Examples.snapshotAB).1 ⟨fun _ => 0, by decide⟩,
    Examples.get (Examples.cursorOnB.UpsertAppTree "demo" Examples.snapshotAB), by decide,
    by decide,
    ((UpsertAppTree_cursor ["demo"] Examples.cursorOnB cursorOnB_reached "demo"
      Examples.snapshotAB).2
      (Examples.get (Examples.cursorOnB.UpsertAppTree "demo" Examples.snapshotAB))
      (by decide)).1⟩

/-- C8. Multi-selection survives rebuilds. For every view reached from
`NewTreeView`: `UpsertAppTree` returns when the parent references of the
snapshot are acyclic; and every call that returns leaves the selected set as it
is (so it adds no UID), and every UID that was selected is still selected after
the call: `IsSelected` is true at every visible index whose node has that UID,
and if the UID is in the node index, `GetSelectedResources()` contains the
entry of its node. -/
theorem UpsertAppTree_selection_survives (names : List String) (v : TreeView)
    (hreach : Reached names v) (appName : String) (tree : ResourceTree) :
    (Acyclic tree → ∃ v', v.UpsertAppTree appName tree = some v') ∧
    ∀ v', v.UpsertAppTree appName tree = some v' →
    v'.selectedUIDs = v.selectedUIDs ∧
    (∀ uid, mapGetBool v'.selectedUIDs uid = true → mapGetBool v.selectedUIDs uid = true) ∧
    (∀ uid, mapGetBool v.selectedUIDs uid = true →
      (∀ idx : Int, 0 ≤ idx → idx < v'.VisibleCount →
        (v'.node (v'.orderAt idx)).uid = uid → v'.IsSelected idx = true) ∧
      (∀ p, mapGet v'.nodesByUID uid = some p →
        v'.selectionOf uid (v'.node p) ∈ v'.GetSelectedResources)) := by
  refine ⟨UpsertAppTree_returns v hreach.closed hreach.shallowed appName tree, fun v' h => ?_⟩
  have hs := UpsertAppTree_selectedUIDs v v' appName tree h
  refine ⟨hs, ?_, ?_⟩
  · intro uid hu
    rw [hs] at hu
    exact hu
  · intro uid hu
    rw [← hs] at hu
    constructor
    · intro idx h0 h1 huid
      have hr : ¬ (idx < 0 ∨ idx ≥ v'.order.length) := by
        simp only [TreeView.VisibleCount] at h1
        rintro (hc | hc) <;> omega
      unfold TreeView.IsSelected
      rw [if_neg hr, huid]
      exact hu
    · intro p hp
      have hget : mapGet v'.selectedUIDs uid = some true := by
        unfold mapGetBool at hu
        cases hg : mapGet v'.selectedUIDs uid with
        | none => rw [hg] at hu; cases hu
        | some b =>
          rw [hg] at hu
          simp only [Option.getD_some] at hu
          rw [hu]
      have hmem : (uid, true) ∈ v'.selectedUIDs := mem_of_mapGet _ _ _ hget
      have hne : v'.selectedUIDs ≠ [] := List.ne_nil_of_mem hmem
      rw [GetSelectedResources_of_selection v' hne, List.mem_filterMap]
      refine ⟨(uid, true), hmem, ?_⟩
      unfold TreeView.selectedEntry
      simp only [hp]

theorem threeSelected_reached : Reached ["demo"] Examples.threeSelected :=
  Reached.toggleSelection (Reached.setSelectedIndex 3
    (Reached.toggleSelection (Reached.setSelectedIndex 2
      (Reached.toggleSelection (Reached.setSelectedIndex 1
        (Reached.upsert "demo" Examples.threeResources (Reached.new 80 24) (by decide)))))))

/-- Witness for C8 on scenario 3: with `R1` and `R3` selected, a further upsert
of the same (acyclic) snapshot returns and keeps both selected. -/
theorem UpsertAppTree_selection_survives_witness :
    (∃ v', Examples.threeSelected.UpsertAppTree "demo" Examples.threeResources = some v') ∧
    ∃ v', Examples.threeSelected.UpsertAppTree "demo" Examples.threeResources = some v' ∧
      v'.selectedUIDs = Examples.threeSelected.selectedUIDs ∧
      v'.IsSelected 1 = true ∧ v'.IsSelected 3 = true :=
  ⟨(UpsertAppTree_selection_survives ["demo"] Examples.threeSelected threeSelected_reached
      "demo" Examples.threeResources).1 ⟨fun _ => 0, by decide⟩,
    Examples.get (Examples.threeSelected.UpsertAppTree "demo" Examples.threeResources),
    by decide,
    ((UpsertAppTree_selection_survives ["demo"] Examples.threeSelected threeSelected_reached
      "demo" Examples.threeResources).2
      (Examples.get (Examples.threeSelected.UpsertAppTree "demo" Examples.threeResources))
      (by decide)).1,
    by decide, by decide⟩

end Argonaut

namespace Argonaut

/-! ## The mode dispatcher: kill switch, Escape debounce, quit chord -/

/-- C18. Kill switch: for every mode, view and model state, whatever the
handlers and the clock, `handleKeyMsg` on the key `ctrl+c` returns the model
unchanged together with the command that yields `QuitMsg`. -/
theorem handleKeyMsg_kill_switch (d : Dispatch) (env : Env) (now : Int) (m : Model) :
    Model.handleKeyMsg d env now m "ctrl+c" = some (m, [Cmd.quit]) := by
  unfold Model.handleKeyMsg
  rw [if_pos rfl]

/-- The `int64` difference of two clock readings is their difference whenever
that fits `int64`. -/
theorem sub64_of_fits (a b : Int) (h1 : -9223372036854775808 ≤ a - b)
    (h2 : a - b < 9223372036854775808) : sub64 a b = a - b := by
  unfold sub64
  omega

/-- C19. Escape debounce: for every mode, `handleKeyMsg` on Escape at the clock
time `now` returns the model unchanged with no command when
`now - LastEscPressed < 100`, the difference being that of the code on `int64`
(`sub64`, which is the difference of the two readings whenever that fits
`int64`); otherwise it sets `LastEscPressed = now` and dispatches the key.
Hence, when the Escape at `now` is accepted and `m1` is the model its dispatch
returns, with `LastEscPressed` still `now`, an Escape at `now + 50` is dropped,
and an Escape at `now + 150`, or exactly at `now + 100`, is dispatched. -/
theorem handleKeyMsg_escape_debounce (d : Dispatch) (env : Env) (now : Int) (m : Model) :
    (sub64 now m.state.Navigation.LastEscPressed < 100 →
      Model.handleKeyMsg d env now m "esc" = some (m, [])) ∧
    (¬ sub64 now m.state.Navigation.LastEscPressed < 100 →
      Model.handleKeyMsg d env now m "esc" =
        Model.dispatchKey d env now (m.setLastEscPressed now) "esc" ∧
      (m.setLastEscPressed now).state.Navigation.LastEscPressed = now) ∧
    (-9223372036854775808 ≤ now - m.state.Navigation.LastEscPressed →
      now - m.state.Navigation.LastEscPressed < 9223372036854775808 →
      sub64 now m.state.Navigation.LastEscPressed =
        now - m.state.Navigation.LastEscPressed) ∧
    (∀ (m1 : Model) (cmds : List Cmd),
      ¬ sub64 now m.state.Navigation.LastEscPressed < 100 →
      Model.dispatchKey d env now (m.setLastEscPressed now) "esc" = some (m1, cmds) →
      m1.state.Navigation.LastEscPressed = now →
      Model.handleKeyMsg d env now m "esc" = some (m1, cmds) ∧
      Model.handleKeyMsg d env (now + 50) m1 "esc" = some (m1, []) ∧
      Model.handleKeyMsg d env (now + 150) m1 "esc" =
        Model.dispatchKey d env (now + 150) (m1.setLastEscPressed (now + 150)) "esc" ∧
      Model.handleKeyMsg d env (now + 100) m1 "esc" =
        Model.dispatchKey d env (now + 100) (m1.setLastEscPressed (now + 100)) "esc") := by
  have hesc : ∀ (t : Int) (x : Model), Model.handleKeyMsg d env t x "esc" =
      if sub64 t x.state.Navigation.LastEscPressed < 100 then some (x, [])
      else Model.dispatchKey d env t (x.setLastEscPressed t) "esc" := by
    intro t x
    unfold Model.handleKeyMsg
    rw [if_neg (by decide), if_pos rfl]
  refine ⟨?_, ?_, ?_, ?_⟩
  · intro h
    rw [hesc, if_pos h]
  · intro h
    rw [hesc, if_neg h]
    exact ⟨rfl, rfl⟩
  · exact sub64_of_fits now m.state.Navigation.LastEscPressed
  · intro m1 cmds h hd hlast
    refine ⟨?_, ?_, ?_, ?_⟩
    · rw [hesc, if_neg h, hd]
    · rw [hesc, hlast, if_pos (by unfold sub64; omega)]
    · rw [hesc, hlast, if_neg (by unfold sub64; omega)]
    · rw [hesc, hlast, if_neg (by unfold sub64; omega)]

/-- The key `Z` in the Normal mode of a list view. -/
theorem handleKeyMsg_Z (d : Dispatch) (env : Env) (now : Int) (m : Model)
    (hmode : m.state.Mode = Mode.Normal) (hview : m.state.Navigation.View ≠ View.Tree)
    (hnav : d.isNavigationKey "Z" = false) :
    Model.handleKeyMsg d env now m "Z" =
      if m.state.Navigation.LastZPressed > 0 ∧
          sub64 now m.state.Navigation.LastZPressed < 500 then
        some (m, [Cmd.quit])
      else some (m.setLastZPressed now, []) := by
  unfold Model.handleKeyMsg
  rw [if_neg (by decide), if_neg (by decide)]
  unfold Model.dispatchKey
  rw [if_neg (by simp [hnav]), hmode]
  simp only
  rw [if_neg hview]
  unfold Model.globalKeys
  simp only [String.reduceEq, false_or, if_false, if_true]

/-- The key `Q` in the Normal mode of a list view. -/
theorem handleKeyMsg_Q (d : Dispatch) (env : Env) (now : Int) (m : Model)
    (hmode : m.state.Mode = Mode.Normal) (hview : m.state.Navigation.View ≠ View.Tree)
    (hnav : d.isNavigationKey "Q" = false) :
    Model.handleKeyMsg d env now m "Q" =
      if m.state.Navigation.LastZPressed > 0 ∧
          sub64 now m.state.Navigation.LastZPressed < 500 then
        some (m.setLastZPressed 0, [Cmd.quit])
      else some (m, []) := by
  unfold Model.handleKeyMsg
  rw [if_neg (by decide), if_neg (by decide)]
  unfold Model.dispatchKey
  rw [if_neg (by simp [hnav]), hmode]
  simp only
  rw [if_neg hview]
  unfold Model.globalKeys
  simp only [String.reduceEq, false_or, if_false, if_true]

/-- A key that is neither a navigation key nor a key of the tree view `switch`
goes, in the Normal mode of the tree view, to `TreeView.Update` and produces no
command. -/
theorem handleKeyMsg_tree_default (d : Dispatch) (env : Env) (now : Int) (m : Model)
    (key : String) (hkey : key = "Z" ∨ key = "Q")
    (hmode : m.state.Mode = Mode.Normal) (hview : m.state.Navigation.View = View.Tree)
    (hnav : d.isNavigationKey key = false) :
    ∃ m', Model.handleKeyMsg d env now m key = some (m', []) ∧
      m'.state = m.state := by
  have hupd : ∀ tv : TreeView, tv.Update (Msg.key key) = some tv.syncSelectedUID := by
    intro tv
    rcases hkey with rfl | rfl <;>
      simp [TreeView.Update, TreeView.updateKey]
  have hd : Model.handleKeyMsg d env now m key =
      match m.treeView with
      | some tv =>
        match tv.Update (Msg.key key) with
        | some tv1 => some ({ m with treeView := some tv1 }, [])
        | none => none
      | none => some (m, []) := by
    unfold Model.handleKeyMsg
    rcases hkey with rfl | rfl
    all_goals
      rw [if_neg (by decide), if_neg (by decide)]
      unfold Model.dispatchKey
      rw [if_neg (by simp [hnav]), hmode]
      simp only
      rw [if_pos hview]
      unfold Model.treeKeys
      simp only [String.reduceEq, false_or, or_false, if_false]
      try rfl
  rw [hd]
  cases htv : m.treeView with
  | none => exact ⟨m, rfl, rfl⟩
  | some tv =>
    simp only [hupd]
    exact ⟨_, rfl, rfl⟩

/-- C20 fails as stated: in the Normal mode of the tree view, `Z` at 1000 ms
followed by `Z` (or by `Q`) 100 ms later produces no `QuitMsg`. -/
theorem quit_chord_tree_counterexample :
    (Model.handleKeyMsg Examples.keys (Examples.envOf []) 1000
        (Examples.treeModel Examples.threeSelected) "Z").map Prod.snd = some [] ∧
    ((Model.handleKeyMsg Examples.keys (Examples.envOf []) 1000
        (Examples.treeModel Examples.threeSelected) "Z").bind
      (fun r => Model.handleKeyMsg Examples.keys (Examples.envOf []) 1100 r.1 "Z")).map
        Prod.snd = some [] ∧
    ((Model.handleKeyMsg Examples.keys (Examples.envOf []) 1000
        (Examples.treeModel Examples.threeSelected) "Z").bind
      (fun r => Model.handleKeyMsg Examples.keys (Examples.envOf []) 1100 r.1 "Q")).map
        Prod.snd = some [] := by
  decide

/-- C20, amended. Quit chord: in Normal mode in a list view (Clusters,
Namespaces, Projects, ApplicationSets, Apps), `Z` and `Q` not being navigation
keys, a `Z` keystroke at a clock time `t1 > 0` either completes a chord and
produces `QuitMsg`, or records `t1` and leaves the mode and view as they are,
after which a `Z` keystroke and a `Q` keystroke at any `t2` with
`t2 - t1 < 500` each produce `QuitMsg` (`t2 - t1` fitting `int64`, as the
difference of two clock readings does).  In the tree view the keys `Z` and `Q`
go to the tree view and produce no command, whatever the clock, and leave the
state (with its mode, view and timestamps) unchanged, so no chord ever
fires. -/
theorem quit_chord (d : Dispatch) (env : Env) (m : Model) (t1 t2 : Int)
    (hmode : m.state.Mode = Mode.Normal)
    (hZ : d.isNavigationKey "Z" = false) (hQ : d.isNavigationKey "Q" = false)
    (ht1 : 0 < t1) (ht2 : t2 - t1 < 500) (hfit : -9223372036854775808 ≤ t2 - t1) :
    (m.state.Navigation.View ≠ View.Tree →
      Model.handleKeyMsg d env t1 m "Z" = some (m, [Cmd.quit]) ∨
      (Model.handleKeyMsg d env t1 m "Z" = some (m.setLastZPressed t1, []) ∧
        (m.setLastZPressed t1).state.Mode = Mode.Normal ∧
        (m.setLastZPressed t1).state.Navigation.View = m.state.Navigation.View ∧
        Model.handleKeyMsg d env t2 (m.setLastZPressed t1) "Z" =
          some (m.setLastZPressed t1, [Cmd.quit]) ∧
        Model.handleKeyMsg d env t2 (m.setLastZPressed t1) "Q" =
          some ((m.setLastZPressed t1).setLastZPressed 0, [Cmd.quit]))) ∧
    (m.state.Navigation.View = View.Tree →
      ∀ now, ∀ key, key = "Z" ∨ key = "Q" →
        ∃ m', Model.handleKeyMsg d env now m key = some (m', []) ∧ m'.state = m.state) := by
  constructor
  · intro hview
    rw [handleKeyMsg_Z d env t1 m hmode hview hZ]
    by_cases hc : m.state.Navigation.LastZPressed > 0 ∧
        sub64 t1 m.state.Navigation.LastZPressed < 500
    · left
      rw [if_pos hc]
    · right
      rw [if_neg hc]
      have hlast : (m.setLastZPressed t1).state.Navigation.LastZPressed = t1 := rfl
      have hmode1 : (m.setLastZPressed t1).state.Mode = Mode.Normal := hmode
      have hview1 : (m.setLastZPressed t1).state.Navigation.View ≠ View.Tree := hview
      have hsub : sub64 t2 t1 < 500 := by
        rw [sub64_of_fits t2 t1 hfit (by omega)]
        exact ht2
      refine ⟨rfl, hmode, rfl, ?_, ?_⟩
      · rw [handleKeyMsg_Z d env t2 (m.setLastZPressed t1) hmode1 hview1 hZ, hlast,
          if_pos ⟨ht1, hsub⟩]
      · rw [handleKeyMsg_Q d env t2 (m.setLastZPressed t1) hmode1 hview1 hQ, hlast,
          if_pos ⟨ht1, hsub⟩]
  · intro hview now key hkey
    have hnav : d.isNavigationKey key = false := by
      rcases hkey with rfl | rfl
      · exact hZ
      · exact hQ
    exact handleKeyMsg_tree_default d env now m key hkey hmode hview hnav

/-- Witness for C20 (amended): in the Apps view, `Z` at 1000 ms records the
time, and `Z` at 1400 ms quits. -/
theorem quit_chord_witness :
    Model.handleKeyMsg Examples.keys (Examples.envOf []) 1000 Examples.emptyModel "Z" =
      some (Examples.emptyModel.setLastZPressed 1000, []) ∧
    Model.handleKeyMsg Examples.keys (Examples.envOf []) 1400
      (Examples.emptyModel.setLastZPressed 1000) "Z" =
        some (Examples.emptyModel.setLastZPressed 1000, [Cmd.quit]) :=
  ((quit_chord Examples.keys (Examples.envOf []) Examples.emptyModel 1000 1400 rfl rfl rfl
    (by decide) (by decide) (by decide)).1 (by decide)).elim
    (fun h => absurd h (by decide))
    (fun h => ⟨h.1, h.2.2.2.1⟩)

end Argonaut

namespace Argonaut

/-! ## C12: snapshots with cyclic parent references -/

/-- C12, the code at three failing inputs: for a snapshot whose entry names
itself as parent, and for one whose two entries name each other, the call
returns but the only visible row is the synthetic root, which has no children,
so the entries on the cycle are not shown at all; for a snapshot in which a
cycle hangs below a top-level entry, the call does not return. -/
theorem UpsertAppTree_cycle_not_flattened :
    ((TreeView.NewTreeView 80 24).UpsertAppTree "demo" Examples.selfParent).map
        (fun v => (v.order.map (fun p => (v.node p).uid), (v.node 1).children,
          (v.node 0).uid, (v.node 0).parent)) =
      some (["demo::__app_root__"], [], "demo::1", some 0) ∧
    ((TreeView.NewTreeView 80 24).UpsertAppTree "demo" Examples.mutualParents).map
        (fun v => (v.order.map (fun p => (v.node p).uid), (v.node 2).children)) =
      some (["demo::__app_root__"], []) ∧
    (TreeView.NewTreeView 80 24).UpsertAppTree "demo" Examples.cyclicRefs = none := by
  decide

/-! ## C13: the matches of a filter -/

theorem indexFrom_nonneg_iff (sep : List Char) :
    ∀ (l : List Char) (i : Nat), 0 ≤ indexFrom sep l i ↔ sep <:+: l
  | [], i => by
    unfold indexFrom
    by_cases h : sep = []
    · simp [h]
    · simp [h, List.infix_nil]
  | c :: cs, i => by
    unfold indexFrom
    by_cases h : sep.isPrefixOf (c :: cs) = true
    · rw [if_pos h]
      have hp : sep <+: c :: cs := List.isPrefixOf_iff_prefix.1 h
      exact ⟨fun _ => hp.isInfix, fun _ => Int.natCast_nonneg _⟩
    · rw [if_neg h, indexFrom_nonneg_iff sep cs (i + 1), List.infix_cons_iff]
      have hp : ¬ sep <+: c :: cs := fun hp => h (List.isPrefixOf_iff_prefix.2 hp)
      exact ⟨Or.inr, fun hx => hx.resolve_left hp⟩

/-- `strings.Contains` is the substring relation. -/
theorem Contains_iff (s sub : String) : Contains s sub = true ↔ sub.data <:+: s.data := by
  unfold Contains Index
  rw [decide_eq_true_eq, indexFrom_nonneg_iff]

theorem nodeMatchesQuery_iff (n : treeNode) (t : String) :
    TreeView.nodeMatchesQuery n (ToLower t) = true ↔ nodeMatches t n := by
  unfold TreeView.nodeMatchesQuery nodeMatches fieldMatches
  simp only [Bool.or_eq_true, Contains_iff, or_assoc]

theorem range_filter_cons (f : Nat → Bool) (n : Nat) :
    (List.range (n + 1)).filter f =
      (if f 0 then [0] else []) ++ ((List.range n).filter (fun j => f (j + 1))).map Nat.succ := by
  rw [List.range_succ_eq_map, List.filter_cons, List.filter_map]
  split <;> rfl

theorem matchesFrom_eq (v : TreeView) (q : String) :
    ∀ (ps : List Nat) (i : Int), TreeView.matchesFrom v q ps i =
      ((List.range ps.length).filter
        (fun j => TreeView.nodeMatchesQuery (v.node (ps.getD j 0)) q)).map
          (fun j : Nat => i + (j : Int))
  | [], i => rfl
  | p :: ps, i => by
    unfold TreeView.matchesFrom
    rw [matchesFrom_eq v q ps (i + 1), List.length_cons, range_filter_cons, List.map_append,
      List.map_map]
    have hmap : ((fun j : Nat => i + (j : Int)) ∘ Nat.succ) = (fun j : Nat => i + 1 + (j : Int)) := by
      funext j
      simp only [Function.comp, Nat.succ_eq_add_one, Nat.cast_add, Nat.cast_one]
      omega
    rw [hmap]
    simp only [List.getD_cons_zero, List.getD_cons_succ]
    split
    · simp
    · simp

/-- The match list `rebuildMatches` computes for a non-empty filter. -/
theorem rebuildMatches_matchIndices (v : TreeView) (ht : v.filterQuery ≠ "") :
    (TreeView.rebuildMatches v).matchIndices =
      ((List.range v.order.length).filter
        (fun i => decide (nodeMatches v.filterQuery (v.node (v.order.getD i 0))))).map
          Int.ofNat := by
  unfold TreeView.rebuildMatches
  rw [if_neg ht]
  show TreeView.matchesFrom _ (ToLower v.filterQuery) v.order 0 = _
  rw [matchesFrom_eq]
  apply congr
  · apply congrArg
    funext j
    simp
  · apply List.filter_congr
    intro i _
    show TreeView.nodeMatchesQuery (v.node (v.order.getD i 0)) (ToLower v.filterQuery) = _
    by_cases hm : nodeMatches v.filterQuery (v.node (v.order.getD i 0))
    · rw [(nodeMatchesQuery_iff _ _).2 hm, decide_eq_true hm]
    · rw [decide_eq_false hm]
      cases hb : TreeView.nodeMatchesQuery (v.node (v.order.getD i 0)) (ToLower v.filterQuery)
      · rfl
      · exact absurd ((nodeMatchesQuery_iff _ _).1 hb) hm

/-- C13. Tree filter matching: after `SetFilter(q)`, with `t` the query trimmed
of surrounding white space, the filter is `t`, the visible order and the cursor
are as before and the current match is reset to the first one; if `t` is empty
`MatchCount()` is 0; otherwise the match list is exactly the list, in increasing
order, of the visible indices `i` such that lower-cased `t` is a substring of
the lower-cased kind, name, namespace, status or health of the node at `i`.  The
match list is strictly increasing and within the visible range, and the query
`missing` matches every visible node whose status or health is `Missing`. -/
theorem SetFilter_matches (v : TreeView) (q : String) :
    (v.SetFilter q).filterQuery = TrimSpace q ∧
    (v.SetFilter q).order = v.order ∧ (v.SetFilter q).selIdx = v.selIdx ∧
    (v.SetFilter q).currentMatch = 0 ∧
    (TrimSpace q = "" → (v.SetFilter q).MatchCount = 0) ∧
    (TrimSpace q ≠ "" → (v.SetFilter q).matchIndices =
      ((List.range v.order.length).filter
        (fun i => decide (nodeMatches (TrimSpace q) (v.node (v.order.getD i 0))))).map
          Int.ofNat) ∧
    (v.SetFilter q).matchIndices.Pairwise (fun a b => a < b) ∧
    (∀ i ∈ (v.SetFilter q).matchIndices, 0 ≤ i ∧ i < v.VisibleCount) ∧
    (∀ i : Nat, i < v.order.length →
      ((v.node (v.order.getD i 0)).status = "Missing" ∨
        (v.node (v.order.getD i 0)).health = "Missing") →
      (i : Int) ∈ (v.SetFilter "missing").matchIndices) := by
  have hlist : ∀ t : String, t ≠ "" →
      (TreeView.rebuildMatches { v with filterQuery := t }).matchIndices =
      ((List.range v.order.length).filter
        (fun i => decide (nodeMatches t (v.node (v.order.getD i 0))))).map Int.ofNat :=
    fun t ht => rebuildMatches_matchIndices { v with filterQuery := t } ht
  have hall : ∀ t : String, (TreeView.rebuildMatches { v with filterQuery := t }).matchIndices =
      [] ∨ (TreeView.rebuildMatches { v with filterQuery := t }).matchIndices =
      ((List.range v.order.length).filter
        (fun i => decide (nodeMatches t (v.node (v.order.getD i 0))))).map Int.ofNat := by
    intro t
    by_cases ht : t = ""
    · left
      unfold TreeView.rebuildMatches
      rw [if_pos ht]
    · exact Or.inr (hlist t ht)
  have hfields : (v.SetFilter q).filterQuery = TrimSpace q ∧
      (v.SetFilter q).order = v.order ∧ (v.SetFilter q).selIdx = v.selIdx ∧
      (v.SetFilter q).currentMatch = 0 := by
    unfold TreeView.SetFilter TreeView.rebuildMatches
    split <;> exact ⟨rfl, rfl, rfl, rfl⟩
  refine ⟨hfields.1, hfields.2.1, hfields.2.2.1, hfields.2.2.2, ?_, ?_, ?_, ?_, ?_⟩
  · intro ht
    unfold TreeView.MatchCount TreeView.SetFilter TreeView.rebuildMatches
    rw [if_pos ht]
    rfl
  · intro ht
    exact hlist _ ht
  · rcases hall (TrimSpace q) with h | h
    · unfold TreeView.SetFilter
      rw [h]
      exact List.Pairwise.nil
    · unfold TreeView.SetFilter
      rw [h]
      apply List.Pairwise.map _ _ ((List.pairwise_lt_range _).filter _)
      intro a b hab
      exact Int.ofNat_lt.2 hab
  · intro i hi
    rcases hall (TrimSpace q) with h | h
    · unfold TreeView.SetFilter at hi
      rw [h] at hi
      cases hi
    · unfold TreeView.SetFilter at hi
      rw [h, List.mem_map] at hi
      obtain ⟨j, hj, rfl⟩ := hi
      have hjr := List.mem_range.1 (List.mem_filter.1 hj).1
      unfold TreeView.VisibleCount
      exact ⟨Int.natCast_nonneg _, Int.ofNat_lt.2 hjr⟩
  · intro i hi hmiss
    have ht : TrimSpace "missing" = "missing" := by decide
    unfold TreeView.SetFilter
    rw [ht, hlist "missing" (by decide), List.mem_map]
    refine ⟨i, List.mem_filter.2 ⟨List.mem_range.2 hi, ?_⟩, rfl⟩
    apply decide_eq_true
    rcases hmiss with h | h
    · right; right; right; left
      unfold fieldMatches
      rw [h]
      decide
    · right; right; right; right
      unfold fieldMatches
      rw [h]
      decide

end Argonaut

namespace Argonaut

/-! ## The fields an operation can change -/

theorem clampSelection_shape (v : TreeView) :
    ∃ s u, TreeView.clampSelection v = { v with selIdx := s, SelectedUID := u } := by
  unfold TreeView.clampSelection
  by_cases h : v.selIdx ≥ v.order.length
  · simp only [h, if_true]
    split
    · exact ⟨_, _, rfl⟩
    · exact ⟨_, _, rfl⟩
  · simp only [h, if_false]
    split
    · exact ⟨_, _, rfl⟩
    · exact ⟨_, _, rfl⟩

theorem rebuildOrder_shape (v v' : TreeView) (h : TreeView.rebuildOrder v = some v') :
    ∃ o s u, v' = { v with order := o, selIdx := s, SelectedUID := u } := by
  obtain ⟨order, _, rfl⟩ := rebuildOrder_eq_some v v' h
  obtain ⟨s, u, hs⟩ := clampSelection_shape { v with order := order }
  exact ⟨order, s, u, hs⟩

theorem syncSelectedUID_shape (v : TreeView) :
    ∃ u, TreeView.syncSelectedUID v = { v with SelectedUID := u } := by
  unfold TreeView.syncSelectedUID
  split
  · exact ⟨_, rfl⟩
  · exact ⟨_, rfl⟩

theorem rebuildOrder_expanded_shape (v v' : TreeView) (e : GoMap Bool)
    (h : TreeView.rebuildOrder { v with expanded := e } = some v') :
    ∃ e o s u, v' = { v with expanded := e, order := o, selIdx := s, SelectedUID := u } := by
  obtain ⟨o, s, u, rfl⟩ := rebuildOrder_shape _ _ h
  exact ⟨e, o, s, u, rfl⟩

theorem updateKey_shape (v v' : TreeView) (k : String)
    (h : TreeView.updateKey v k = some v') :
    ∃ e o s u, v' = { v with expanded := e, order := o, selIdx := s, SelectedUID := u } := by
  have hself : ∀ w : TreeView, w = v →
      ∃ e o s u, w = { v with expanded := e, order := o, selIdx := s, SelectedUID := u } :=
    fun w hw => ⟨_, _, _, _, hw⟩
  have hsel : ∀ i : Int,
      ∃ e o s u, ({ v with selIdx := i } : TreeView) =
        { v with expanded := e, order := o, selIdx := s, SelectedUID := u } :=
    fun i => ⟨_, _, _, _, rfl⟩
  unfold TreeView.updateKey at h
  split at h
  · simp only [Option.some.injEq] at h
    subst h
    split
    · exact hsel _
    · exact hself _ rfl
  · split at h
    · simp only [Option.some.injEq] at h
      subst h
      split
      · exact hsel _
      · exact hself _ rfl
    · split at h
      · split at h
        · simp only at h
          split at h
          · exact rebuildOrder_expanded_shape v v' _ h
          · split at h
            · simp only [Option.some.injEq] at h
              subst h
              split
              · exact hsel _
              · exact hself _ rfl
            · simp only [Option.some.injEq] at h
              exact hself _ h.symm
        · simp only [Option.some.injEq] at h
          exact hself _ h.symm
      · split at h
        · split at h
          · simp only at h
            split at h
            · exact rebuildOrder_expanded_shape v v' _ h
            · simp only [Option.some.injEq] at h
              exact hself _ h.symm
          · simp only [Option.some.injEq] at h
            exact hself _ h.symm
        · split at h
          · exact rebuildOrder_expanded_shape v v' _ h
          · split at h
            · exact rebuildOrder_expanded_shape v v' _ h
            · simp only [Option.some.injEq] at h
              exact hself _ h.symm

/-- `Update` changes at most the expansion flags, the visible order, the cursor
and the size. -/
theorem Update_shape (v v' : TreeView) (msg : Msg) (h : v.Update msg = some v') :
    ∃ e o s u w hgt, v' = { v with
      expanded := e, order := o, selIdx := s, SelectedUID := u, width := w, height := hgt } := by
  unfold TreeView.Update at h
  cases msg with
  | key k =>
    simp only at h
    cases hk : TreeView.updateKey v k with
    | none => rw [hk] at h; cases h
    | some w =>
      rw [hk] at h
      simp only [Option.map_some', Option.some.injEq] at h
      subst h
      obtain ⟨e, o, s, u, rfl⟩ := updateKey_shape v w k hk
      obtain ⟨u', hu⟩ := syncSelectedUID_shape
        ({ v with expanded := e, order := o, selIdx := s, SelectedUID := u } : TreeView)
      exact ⟨e, o, s, u', v.width, v.height, hu⟩
  | windowSize w hgt =>
    simp only [Option.some.injEq] at h
    subst h
    exact ⟨_, _, _, _, w, hgt, rfl⟩
  | other =>
    simp only [Option.some.injEq] at h
    subst h
    exact ⟨_, _, _, _, _, _, rfl⟩

theorem removeApp_shape (v : TreeView) (appName : String) :
    ∃ i e a r b, v.removeApp appName =
      { v with nodesByUID := i, expanded := e, nodesByApp := a, roots := r, rootByApp := b } := by
  unfold TreeView.removeApp
  cases mapGet v.nodesByApp appName <;> simp only <;> split <;> exact ⟨_, _, _, _, _, rfl⟩

/-- `UpsertAppTree` changes at most the forest, the expansion flags, the visible
order and the cursor. -/
theorem UpsertAppTree_shape (v v' : TreeView) (appName : String) (tree : ResourceTree)
    (h : v.UpsertAppTree appName tree = some v') :
    ∃ hp i e a r b o s u, v' = { v with
      heap := hp, nodesByUID := i, expanded := e, nodesByApp := a, roots := r, rootByApp := b,
      order := o, selIdx := s, SelectedUID := u } := by
  obtain ⟨o, s, u, rfl⟩ := rebuildOrder_shape _ _ h
  obtain ⟨i, e, a, r, b, hr⟩ := removeApp_shape v appName
  unfold TreeView.upsertCore
  rw [hr]
  exact ⟨_, _, _, _, _, _, o, s, u, rfl⟩

theorem SetResourceStatuses_shape (v : TreeView) (appName : String)
    (resources : List ResourceStatus) :
    ∃ hp, v.SetResourceStatuses appName resources = { v with heap := hp } := by
  unfold TreeView.SetResourceStatuses
  simp only
  split
  · exact ⟨_, rfl⟩
  · exact ⟨_, rfl⟩

theorem ToggleSelection_shape (v : TreeView) :
    ∃ s, v.ToggleSelection.1 = { v with selectedUIDs := s } := by
  unfold TreeView.ToggleSelection
  split
  · exact ⟨_, rfl⟩
  · simp only
    split
    · exact ⟨_, rfl⟩
    · split
      · exact ⟨_, rfl⟩
      · split <;> exact ⟨_, rfl⟩

theorem syncSelectedUID_eq (v : TreeView) :
    TreeView.syncSelectedUID v = { v with SelectedUID :=
      if v.selIdx ≥ 0 ∧ v.selIdx < v.order.length then (v.node (v.orderAt v.selIdx)).uid
      else v.SelectedUID } := by
  unfold TreeView.syncSelectedUID
  split <;> rfl

theorem gotoCurrentMatch_shape (v : TreeView) :
    ∃ u, TreeView.gotoCurrentMatch v =
        { v with selIdx := v.matchIndices.getD v.currentMatch.toNat 0, SelectedUID := u } ∧
      (0 ≤ v.matchIndices.getD v.currentMatch.toNat 0 ∧
        v.matchIndices.getD v.currentMatch.toNat 0 < v.order.length →
        u = (v.node (v.orderAt (v.matchIndices.getD v.currentMatch.toNat 0))).uid) := by
  unfold TreeView.gotoCurrentMatch
  rw [syncSelectedUID_eq]
  refine ⟨_, rfl, ?_⟩
  intro h
  exact if_pos h

/-! ## The current match stays in range -/

theorem MatchRange.of_eq {v v' : TreeView} (h : MatchRange v)
    (h1 : v'.matchIndices = v.matchIndices) (h2 : v'.currentMatch = v.currentMatch) :
    MatchRange v' := by
  unfold MatchRange
  rw [h1, h2]
  exact h

/-- `NextMatch` on a view whose current match is in range. -/
theorem NextMatch_spec (v : TreeView) (hr : MatchRange v) (hk : v.matchIndices ≠ []) :
    ∃ u, v.NextMatch = some ({ v with
        currentMatch := (v.currentMatch + 1) % v.matchIndices.length,
        selIdx := v.matchIndices.getD ((v.currentMatch + 1) % v.matchIndices.length).toNat 0,
        SelectedUID := u }, true) ∧
      (0 ≤ v.matchIndices.getD ((v.currentMatch + 1) % v.matchIndices.length).toNat 0 ∧
        v.matchIndices.getD ((v.currentMatch + 1) % v.matchIndices.length).toNat 0 <
          v.order.length →
        u = (v.node (v.orderAt
          (v.matchIndices.getD ((v.currentMatch + 1) % v.matchIndices.length).toNat 0))).uid) := by
  have hlen : 0 < v.matchIndices.length := List.length_pos.2 hk
  have hmod : Int.tmod (v.currentMatch + 1) v.matchIndices.length =
      (v.currentMatch + 1) % v.matchIndices.length :=
    Int.tmod_eq_emod (by have := hr.1; omega) (Int.natCast_nonneg _)
  have h1 : 0 ≤ (v.currentMatch + 1) % (v.matchIndices.length : Int) :=
    Int.emod_nonneg _ (by omega)
  have h2 : (v.currentMatch + 1) % (v.matchIndices.length : Int) < v.matchIndices.length :=
    Int.emod_lt_of_pos _ (by omega)
  unfold TreeView.NextMatch
  rw [if_neg (by omega)]
  simp only [hmod]
  rw [if_pos ⟨h1, h2⟩]
  obtain ⟨u, hu, huid⟩ := gotoCurrentMatch_shape
    { v with currentMatch := (v.currentMatch + 1) % v.matchIndices.length }
  exact ⟨u, by rw [hu], huid⟩

/-- `PrevMatch` on a view whose current match is in range. -/
theorem PrevMatch_spec (v : TreeView) (hr : MatchRange v) (hk : v.matchIndices ≠ []) :
    ∃ u, v.PrevMatch = some ({ v with
        currentMatch := (v.currentMatch - 1) % v.matchIndices.length,
        selIdx := v.matchIndices.getD ((v.currentMatch - 1) % v.matchIndices.length).toNat 0,
        SelectedUID := u }, true) ∧
      (0 ≤ v.matchIndices.getD ((v.currentMatch - 1) % v.matchIndices.length).toNat 0 ∧
        v.matchIndices.getD ((v.currentMatch - 1) % v.matchIndices.length).toNat 0 <
          v.order.length →
        u = (v.node (v.orderAt
          (v.matchIndices.getD ((v.currentMatch - 1) % v.matchIndices.length).toNat 0))).uid) := by
  have hlen : 0 < v.matchIndices.length := List.length_pos.2 hk
  have hlt : v.currentMatch < v.matchIndices.length := by
    rcases hr.2 with h | h
    · omega
    · exact h
  have hc : (if v.currentMatch - 1 < 0 then (v.matchIndices.length : Int) - 1
      else v.currentMatch - 1) = (v.currentMatch - 1) % v.matchIndices.length := by
    split
    · have h0 : v.currentMatch = 0 := by have := hr.1; omega
      rw [h0]
      have : ((0 : Int) - 1) % (v.matchIndices.length : Int) =
          ((0 - 1 + (v.matchIndices.length : Int)) % (v.matchIndices.length : Int)) := by
        rw [Int.add_emod_self]
      rw [this, Int.emod_eq_of_lt (by omega) (by omega)]
      omega
    · rw [Int.emod_eq_of_lt (by omega) (by omega)]
  have h1 : 0 ≤ (v.currentMatch - 1) % (v.matchIndices.length : Int) :=
    Int.emod_nonneg _ (by omega)
  have h2 : (v.currentMatch - 1) % (v.matchIndices.length : Int) < v.matchIndices.length :=
    Int.emod_lt_of_pos _ (by omega)
  unfold TreeView.PrevMatch
  rw [if_neg (by omega)]
  simp only [hc]
  rw [if_pos ⟨h1, h2⟩]
  obtain ⟨u, hu, huid⟩ := gotoCurrentMatch_shape
    { v with currentMatch := (v.currentMatch - 1) % v.matchIndices.length }
  exact ⟨u, by rw [hu], huid⟩

theorem MatchRange.nextMatch {v v' : TreeView} {moved : Bool} (hr : MatchRange v)
    (h : v.NextMatch = some (v', moved)) : MatchRange v' := by
  by_cases hk : v.matchIndices = []
  · unfold TreeView.NextMatch at h
    rw [if_pos (by rw [hk]; rfl)] at h
    simp only [Option.some.injEq, Prod.mk.injEq] at h
    rw [← h.1]
    exact hr
  · obtain ⟨u, hu, _⟩ := NextMatch_spec v hr hk
    rw [hu] at h
    simp only [Option.some.injEq, Prod.mk.injEq] at h
    rw [← h.1]
    have hlen : 0 < v.matchIndices.length := List.length_pos.2 hk
    exact ⟨Int.emod_nonneg _ (by omega), Or.inr (Int.emod_lt_of_pos _ (by omega))⟩

theorem MatchRange.prevMatch {v v' : TreeView} {moved : Bool} (hr : MatchRange v)
    (h : v.PrevMatch = some (v', moved)) : MatchRange v' := by
  by_cases hk : v.matchIndices = []
  · unfold TreeView.PrevMatch at h
    rw [if_pos (by rw [hk]; rfl)] at h
    simp only [Option.some.injEq, Prod.mk.injEq] at h
    rw [← h.1]
    exact hr
  · obtain ⟨u, hu, _⟩ := PrevMatch_spec v hr hk
    rw [hu] at h
    simp only [Option.some.injEq, Prod.mk.injEq] at h
    rw [← h.1]
    have hlen : 0 < v.matchIndices.length := List.length_pos.2 hk
    exact ⟨Int.emod_nonneg _ (by omega), Or.inr (Int.emod_lt_of_pos _ (by omega))⟩

theorem MatchRange.jumpToFirstMatch {v : TreeView} (hr : MatchRange v) :
    MatchRange v.JumpToFirstMatch.1 := by
  unfold TreeView.JumpToFirstMatch
  split
  · exact hr
  · obtain ⟨u, hu, _⟩ := gotoCurrentMatch_shape { v with currentMatch := 0 }
    simp only
    rw [hu]
    exact ⟨le_refl _, Or.inl rfl⟩

theorem MatchRange.setFilter (v : TreeView) (q : String) : MatchRange (v.SetFilter q) := by
  unfold TreeView.SetFilter TreeView.rebuildMatches
  split <;> exact ⟨le_refl _, Or.inl rfl⟩

/-- In every view reached from `NewTreeView` the current match is in range. -/
theorem Reached.matchRange {names : List String} {v : TreeView} (h : Reached names v) :
    MatchRange v := by
  induction h with
  | new width height => exact ⟨le_refl _, Or.inl rfl⟩
  | upsert appName tree _ hu ih =>
    obtain ⟨hp, i, e, a, r, b, o, s, u, rfl⟩ := UpsertAppTree_shape _ _ appName tree hu
    exact ih
  | update msg _ hu ih =>
    obtain ⟨e, o, s, u, w, hgt, rfl⟩ := Update_shape _ _ msg hu
    exact ih
  | setSelectedIndex idx _ ih =>
    unfold TreeView.SetSelectedIndex
    obtain ⟨u, hu⟩ := syncSelectedUID_shape _
    rw [hu]
    exact ih
  | toggleSelection _ ih =>
    obtain ⟨s, hs⟩ := ToggleSelection_shape _
    rw [hs]
    exact ih
  | clearSelection _ ih => exact ih
  | setFilter q _ _ => exact MatchRange.setFilter _ q
  | clearFilter _ _ => exact ⟨le_refl _, Or.inl rfl⟩
  | nextMatch _ hu ih => exact ih.nextMatch hu
  | prevMatch _ hu ih => exact ih.prevMatch hu
  | jumpToFirstMatch _ ih => exact ih.jumpToFirstMatch
  | setAppMeta name health sync _ ih => exact ih
  | setSize width height _ ih => exact ih
  | setDesaturateMode enabled _ ih => exact ih
  | setFlashAll enabled _ ih => exact ih
  | @setData names v v' tree _ hu ih =>
    obtain ⟨hp, i, e, a, r, b, o, s, u, rfl⟩ := UpsertAppTree_shape _ _ _ tree hu
    exact ih
  | setResourceStatuses appName resources _ ih =>
    obtain ⟨hp, hh⟩ := SetResourceStatuses_shape _ appName resources
    rw [hh]
    exact ih

end Argonaut

namespace Argonaut

/-! ## C14: cycling through the matches -/

theorem MovedTo.matchIndices {v w : TreeView} {c : Int} (h : MovedTo v w c) :
    w.matchIndices = v.matchIndices := by
  rw [h.2.2.1]

theorem MovedTo.currentMatch {v w : TreeView} {c : Int} (h : MovedTo v w c) :
    w.currentMatch = c := by
  rw [h.2.2.1]

theorem MovedTo.moved_matchRange {v w : TreeView} {c : Int} (h : MovedTo v w c) : MatchRange w := by
  unfold MatchRange
  rw [h.matchIndices, h.currentMatch]
  exact ⟨h.1, Or.inr h.2.1⟩

theorem MovedTo.comp {v a b : TreeView} {c1 c2 : Int} (h1 : MovedTo v a c1)
    (h2 : MovedTo a b c2) : MovedTo v b c2 := by
  obtain ⟨h20, h21, h22, h23⟩ := h2
  rw [h1.matchIndices] at h21
  refine ⟨h20, h21, ?_, h23⟩
  rw [h22, h1.2.2.1]

theorem NextMatch_movedTo (v : TreeView) (hr : MatchRange v) (hk : v.matchIndices ≠ []) :
    ∃ w, v.NextMatch = some (w, true) ∧
      MovedTo v w ((v.currentMatch + 1) % v.matchIndices.length) := by
  have hlen : 0 < v.matchIndices.length := List.length_pos.2 hk
  obtain ⟨u, hu, huid⟩ := NextMatch_spec v hr hk
  exact ⟨_, hu, Int.emod_nonneg _ (by omega), Int.emod_lt_of_pos _ (by omega), rfl, huid⟩

theorem PrevMatch_movedTo (v : TreeView) (hr : MatchRange v) (hk : v.matchIndices ≠ []) :
    ∃ w, v.PrevMatch = some (w, true) ∧
      MovedTo v w ((v.currentMatch - 1) % v.matchIndices.length) := by
  have hlen : 0 < v.matchIndices.length := List.length_pos.2 hk
  obtain ⟨u, hu, huid⟩ := PrevMatch_spec v hr hk
  exact ⟨_, hu, Int.emod_nonneg _ (by omega), Int.emod_lt_of_pos _ (by omega), rfl, huid⟩

theorem nextMatches_movedTo (j : Nat) :
    ∀ v : TreeView, MatchRange v → v.matchIndices ≠ [] →
      ∃ w, TreeView.nextMatches (j + 1) v = some w ∧
        MovedTo v w ((v.currentMatch + ((j + 1 : Nat) : Int)) % v.matchIndices.length) := by
  induction j with
  | zero =>
    intro v hr hk
    obtain ⟨w, hw, hm⟩ := NextMatch_movedTo v hr hk
    refine ⟨w, ?_, ?_⟩
    · simp only [TreeView.nextMatches, hw, Option.bind_some, Option.bind]
    · simpa using hm
  | succ j ih =>
    intro v hr hk
    obtain ⟨a, ha, hm⟩ := NextMatch_movedTo v hr hk
    have hka : a.matchIndices ≠ [] := by rw [hm.matchIndices]; exact hk
    obtain ⟨w, hw, hmw⟩ := ih a hm.moved_matchRange hka
    refine ⟨w, ?_, ?_⟩
    · rw [TreeView.nextMatches, ha]
      exact hw
    · have := hm.comp hmw
      rw [hm.matchIndices, hm.currentMatch] at this
      have he : ((v.currentMatch + 1) % (v.matchIndices.length : Int) + ((j + 1 : Nat) : Int)) %
          (v.matchIndices.length : Int) =
          (v.currentMatch + ((j + 1 + 1 : Nat) : Int)) % (v.matchIndices.length : Int) := by
        rw [Int.add_emod, Int.emod_emod_of_dvd _ (dvd_refl _), ← Int.add_emod]
        congr 1
        push_cast
        ring
      rw [he] at this
      exact this

/-- C14 fails as stated: in the tree of `demo` filtered by `b` the match list
(one match, the third row) is current and the cursor is on the first row;
`NextMatch` followed by `PrevMatch` leaves the current match where it was but
the cursor on the third row. -/
theorem match_cycling_counterexample :
    Examples.filteredB.MatchCount = 1 ∧ MatchesCurrent Examples.filteredB ∧
    (Examples.filteredB.currentMatch, Examples.filteredB.SelectedIndex) = (0, 0) ∧
    (Examples.filteredB.NextMatch.bind (fun r => r.1.PrevMatch)).map
      (fun r => (r.1.currentMatch, r.1.SelectedIndex, r.2)) = some (0, 2, true) := by
  decide

/-- C14, amended. Match cycling, in every view reached from `NewTreeView`, with
`k = MatchCount()`.  When `k = 0`, `NextMatch`, `PrevMatch` and
`JumpToFirstMatch` return false and change nothing, and `CurrentMatchIndex()` is
0.  When `k > 0`, `CurrentMatchIndex()` lies in `[1, k]`; `NextMatch` returns
true and moves the current match forward by one modulo `k`, `PrevMatch` returns
true and moves it backward by one modulo `k`, each putting the cursor on the
visible index of that match and changing nothing else but `SelectedUID`;
`PrevMatch` after `NextMatch`, `NextMatch` after `PrevMatch`, and `k` successive
`NextMatch` calls return to the starting match with the cursor on it, which is
the previous cursor exactly when the cursor was on the current match.  When the
match list is current, the cursor so placed is in the visible range and the node
under it matches the filter. -/
theorem match_cycling (names : List String) (v : TreeView) (hreach : Reached names v) :
    (v.MatchCount = 0 →
      v.NextMatch = some (v, false) ∧ v.PrevMatch = some (v, false) ∧
      v.JumpToFirstMatch = (v, false) ∧ v.CurrentMatchIndex = 0) ∧
    (v.MatchCount > 0 →
      (1 ≤ v.CurrentMatchIndex ∧ v.CurrentMatchIndex ≤ v.MatchCount) ∧
      (∃ vn, v.NextMatch = some (vn, true) ∧
        MovedTo v vn ((v.currentMatch + 1) % v.MatchCount) ∧
        ∃ w, vn.PrevMatch = some (w, true) ∧ MovedTo v w v.currentMatch) ∧
      (∃ vp, v.PrevMatch = some (vp, true) ∧
        MovedTo v vp ((v.currentMatch - 1) % v.MatchCount) ∧
        ∃ w, vp.NextMatch = some (w, true) ∧ MovedTo v w v.currentMatch) ∧
      (∃ w, TreeView.nextMatches v.matchIndices.length v = some w ∧
        MovedTo v w v.currentMatch) ∧
      (∀ w, MovedTo v w v.currentMatch →
        (w.SelectedIndex = v.SelectedIndex ↔
          v.SelectedIndex = v.matchIndices.getD v.currentMatch.toNat 0)) ∧
      (MatchesCurrent v → ∀ w c, MovedTo v w c →
        0 ≤ w.SelectedIndex ∧ w.SelectedIndex < w.VisibleCount ∧
        nodeMatches v.filterQuery (w.node (w.orderAt w.SelectedIndex)))) := by
  have hr := hreach.matchRange
  unfold TreeView.MatchCount
  constructor
  · intro h0
    have h0' : v.matchIndices.length = 0 := by exact_mod_cast h0
    refine ⟨?_, ?_, ?_, ?_⟩
    · unfold TreeView.NextMatch
      rw [if_pos h0']
    · unfold TreeView.PrevMatch
      rw [if_pos h0']
    · unfold TreeView.JumpToFirstMatch
      rw [if_pos h0']
    · unfold TreeView.CurrentMatchIndex
      rw [if_pos h0']
  · intro hpos
    have hlen : 0 < v.matchIndices.length := by exact_mod_cast hpos
    have hk : v.matchIndices ≠ [] := List.length_pos.1 hlen
    have hlt : v.currentMatch < v.matchIndices.length := by
      rcases hr.2 with h | h
      · omega
      · exact h
    have hc0 := hr.1
    have hback : ∀ c : Int, (c - 1 + 1) % (v.matchIndices.length : Int) = c %
        (v.matchIndices.length : Int) := by
      intro c
      rw [Int.sub_add_cancel]
    have hcur : v.currentMatch % (v.matchIndices.length : Int) = v.currentMatch :=
      Int.emod_eq_of_lt hc0 hlt
    refine ⟨?_, ?_, ?_, ?_, ?_, ?_⟩
    · unfold TreeView.CurrentMatchIndex
      rw [if_neg (by omega)]
      constructor <;> omega
    · obtain ⟨vn, hn, hm⟩ := NextMatch_movedTo v hr hk
      refine ⟨vn, hn, hm, ?_⟩
      have hkn : vn.matchIndices ≠ [] := by rw [hm.matchIndices]; exact hk
      obtain ⟨w, hw, hmw⟩ := PrevMatch_movedTo vn hm.moved_matchRange hkn
      refine ⟨w, hw, ?_⟩
      have := hm.comp hmw
      rw [hm.matchIndices, hm.currentMatch] at this
      have he : ((v.currentMatch + 1) % (v.matchIndices.length : Int) - 1) %
          (v.matchIndices.length : Int) = v.currentMatch := by
        rw [Int.sub_emod, Int.emod_emod_of_dvd _ (dvd_refl _), ← Int.sub_emod,
          Int.add_sub_cancel, hcur]
      rw [he] at this
      exact this
    · obtain ⟨vp, hp, hm⟩ := PrevMatch_movedTo v hr hk
      refine ⟨vp, hp, hm, ?_⟩
      have hkp : vp.matchIndices ≠ [] := by rw [hm.matchIndices]; exact hk
      obtain ⟨w, hw, hmw⟩ := NextMatch_movedTo vp hm.moved_matchRange hkp
      refine ⟨w, hw, ?_⟩
      have := hm.comp hmw
      rw [hm.matchIndices, hm.currentMatch] at this
      have he : ((v.currentMatch - 1) % (v.matchIndices.length : Int) + 1) %
          (v.matchIndices.length : Int) = v.currentMatch := by
        rw [Int.add_emod, Int.emod_emod_of_dvd _ (dvd_refl _), ← Int.add_emod,
          Int.sub_add_cancel, hcur]
      rw [he] at this
      exact this
    · obtain ⟨j, hj⟩ : ∃ j, v.matchIndices.length = j + 1 := ⟨v.matchIndices.length - 1, by omega⟩
      obtain ⟨w, hw, hm⟩ := nextMatches_movedTo j v hr hk
      refine ⟨w, by rw [hj]; exact hw, ?_⟩
      have he : (v.currentMatch + ((j + 1 : Nat) : Int)) % (v.matchIndices.length : Int) =
          v.currentMatch := by
        rw [← hj, Int.add_emod_self, hcur]
      rw [he] at hm
      exact hm
    · intro w hm
      unfold TreeView.SelectedIndex
      have : w.selIdx = v.matchIndices.getD v.currentMatch.toNat 0 := by
        rw [hm.2.2.1]
      rw [this]
      exact eq_comm
    · intro hcurr w c hm
      unfold TreeView.SelectedIndex TreeView.VisibleCount
      have hq : v.filterQuery ≠ "" := by
        intro hq
        unfold MatchesCurrent TreeView.rebuildMatches at hcurr
        rw [if_pos hq] at hcurr
        exact hk hcurr
      have hsel : w.selIdx = v.matchIndices.getD c.toNat 0 := by
        rw [hm.2.2.1]
      have hord : w.order = v.order := by
        rw [hm.2.2.1]
      have hnode : ∀ p, w.node p = v.node p := by
        intro p
        rw [hm.2.2.1]
        rfl
      have hcn : c.toNat < v.matchIndices.length := by
        have := hm.1
        have := hm.2.1
        omega
      have hmem : w.selIdx ∈ v.matchIndices := by
        rw [hsel, List.getD_eq_getElem _ _ hcn]
        exact List.getElem_mem _
      unfold MatchesCurrent at hcurr
      rw [hcurr, rebuildMatches_matchIndices v hq, List.mem_map] at hmem
      obtain ⟨i, hi, hiw⟩ := hmem
      obtain ⟨hir, him⟩ := List.mem_filter.1 hi
      have hir' := List.mem_range.1 hir
      rw [hord, hnode]
      refine ⟨by rw [← hiw]; exact Int.natCast_nonneg _, by rw [← hiw]; exact Int.ofNat_lt.2 hir',
        ?_⟩
      unfold TreeView.orderAt
      rw [hord, ← hiw]
      exact of_decide_eq_true him

/-- Witness for C14 (amended): in the tree of `demo` filtered by `pod`, with the
cursor on the first of the two matches, `NextMatch` moves to the second match
and `PrevMatch` after it returns to the first. -/
theorem match_cycling_witness :
    ∃ vn, Examples.filteredPods.NextMatch = some (vn, true) ∧
      (vn.currentMatch, vn.SelectedIndex) = (1, 2) ∧
      MovedTo Examples.filteredPods vn
        ((Examples.filteredPods.currentMatch + 1) % Examples.filteredPods.MatchCount) ∧
      ∃ w, vn.PrevMatch = some (w, true) ∧
        MovedTo Examples.filteredPods w Examples.filteredPods.currentMatch :=
  have hreach : Reached ["demo"] Examples.filteredPods :=
    Reached.jumpToFirstMatch (Reached.setFilter "pod"
      (Reached.upsert "demo" Examples.twoPods (Reached.new 80 24) (by decide)))
  have h := ((match_cycling ["demo"] Examples.filteredPods hreach).2 (by decide)).2.1
  have hn : Examples.filteredPods.NextMatch =
      some ((Examples.get (Examples.filteredPods.NextMatch.map Prod.fst)), true) := by decide
  match h with
  | ⟨vn, hvn, hm, hw⟩ =>
    ⟨vn, hvn, by
      rw [hn] at hvn
      simp only [Option.some.injEq, Prod.mk.injEq, and_true] at hvn
      rw [← hvn]
      decide, hm, hw⟩

end Argonaut

namespace Argonaut

/-! ## The order of Go strings -/

theorem ltChars_irrefl (a : List Char) : ltChars a a = false := by
  induction a with
  | nil => rfl
  | cons x xs ih => simp [ltChars, ih]

theorem ltChars_asymm : ∀ a b : List Char, ltChars a b = true → ltChars b a = false
  | _, [], h => by simp [ltChars] at h
  | [], _ :: _, _ => by simp [ltChars]
  | a :: as, b :: bs, h => by
    unfold ltChars at h ⊢
    by_cases h1 : a.toNat < b.toNat
    · rw [if_neg (by omega), if_pos h1]
    · rw [if_neg h1] at h
      by_cases h2 : b.toNat < a.toNat
      · rw [if_pos h2] at h
        exact absurd h (by simp)
      · rw [if_neg h2] at h
        rw [if_neg h2, if_neg h1]
        exact ltChars_asymm as bs h

theorem ltChars_trans : ∀ a b c : List Char, ltChars a b = true → ltChars b c = true →
    ltChars a c = true
  | _, [], [], _, h2 => by simp [ltChars] at h2
  | _, _ :: _, [], _, h2 => by simp [ltChars] at h2
  | _, [], _ :: _, h1, _ => by simp [ltChars] at h1
  | [], _ :: _, _ :: _, _, _ => by simp [ltChars]
  | a :: as, b :: bs, c :: cs, h1, h2 => by
    unfold ltChars at h1 h2 ⊢
    by_cases hab : a.toNat < b.toNat
    · by_cases hbc : b.toNat < c.toNat
      · rw [if_pos (by omega)]
      · rw [if_neg hbc] at h2
        by_cases hcb : c.toNat < b.toNat
        · rw [if_pos hcb] at h2
          exact absurd h2 (by simp)
        · rw [if_pos (by omega)]
    · rw [if_neg hab] at h1
      by_cases hba : b.toNat < a.toNat
      · rw [if_pos hba] at h1
        exact absurd h1 (by simp)
      · rw [if_neg hba] at h1
        by_cases hbc : b.toNat < c.toNat
        · rw [if_pos (by omega)]
        · rw [if_neg hbc] at h2
          by_cases hcb : c.toNat < b.toNat
          · rw [if_pos hcb] at h2
            exact absurd h2 (by simp)
          · rw [if_neg hcb] at h2
            rw [if_neg (by omega), if_neg (by omega)]
            exact ltChars_trans as bs cs h1 h2

theorem ltChars_total : ∀ a b : List Char, ltChars a b = false → ltChars b a = false → a = b
  | [], [], _, _ => rfl
  | [], _ :: _, h, _ => by simp [ltChars] at h
  | _ :: _, [], _, h => by simp [ltChars] at h
  | a :: as, b :: bs, h1, h2 => by
    unfold ltChars at h1 h2
    by_cases hab : a.toNat < b.toNat
    · rw [if_pos hab] at h1
      exact absurd h1 (by simp)
    · rw [if_neg hab] at h1 h2
      by_cases hba : b.toNat < a.toNat
      · rw [if_pos hba] at h2
        exact absurd h2 (by simp)
      · rw [if_neg hba] at h1 h2
        have hc : a = b := by
          apply Char.ext
          apply UInt32.ext
          have : a.toNat = b.toNat := by omega
          exact this
        rw [hc, ltChars_total as bs h1 h2]

theorem strLt_irrefl (a : String) : strLt a a = false :=
  ltChars_irrefl a.data

theorem strLt_asymm (a b : String) (h : strLt a b = true) : strLt b a = false :=
  ltChars_asymm a.data b.data h

theorem strLt_trans (a b c : String) (h1 : strLt a b = true) (h2 : strLt b c = true) :
    strLt a c = true :=
  ltChars_trans a.data b.data c.data h1 h2

theorem strLt_total (a b : String) (h1 : strLt a b = false) (h2 : strLt b a = false) :
    a = b :=
  String.ext (ltChars_total a.data b.data h1 h2)

theorem strLt_ne (a b : String) (h : strLt a b = true) : a ≠ b := by
  rintro rfl
  rw [strLt_irrefl] at h
  exact absurd h (by simp)

/-! ## The order of siblings -/

/-- The comparison of `sortNodes` is the strict part of `(kind, name)`
lexicographic order: `b` is not less than `a` exactly when `a` does not come
after `b`. -/
theorem nodeLess_eq_false_iff (a b : treeNode) :
    TreeView.nodeLess b a = false ↔ kindNameLe a b := by
  unfold TreeView.nodeLess kindNameLe
  by_cases hk : b.kind = a.kind
  · rw [if_pos hk]
    constructor
    · intro h
      right
      refine ⟨hk.symm, ?_⟩
      by_cases hn : strLt a.name b.name = true
      · exact Or.inl hn
      · exact Or.inr (strLt_total _ _ (by simpa using hn) h)
    · rintro (h | ⟨_, h | h⟩)
      · rw [hk, strLt_irrefl] at h
        exact absurd h (by simp)
      · exact strLt_asymm _ _ h
      · rw [h]
        exact strLt_irrefl _
  · rw [if_neg hk]
    constructor
    · intro h
      left
      by_cases hn : strLt a.kind b.kind = true
      · exact hn
      · exact absurd (strLt_total _ _ (by simpa using hn) h).symm hk
    · rintro (h | ⟨h, _⟩)
      · exact strLt_asymm _ _ h
      · exact absurd h.symm hk

theorem kindNameLe_total (a b : treeNode) : kindNameLe a b ∨ kindNameLe b a := by
  rw [← nodeLess_eq_false_iff, ← nodeLess_eq_false_iff]
  unfold TreeView.nodeLess
  by_cases hk : b.kind = a.kind
  · rw [if_pos hk, if_pos hk.symm]
    by_cases hn : strLt b.name a.name = true
    · exact Or.inr (strLt_asymm _ _ hn)
    · exact Or.inl (by simpa using hn)
  · rw [if_neg hk, if_neg (fun h => hk h.symm)]
    by_cases hn : strLt b.kind a.kind = true
    · exact Or.inr (strLt_asymm _ _ hn)
    · exact Or.inl (by simpa using hn)

theorem kindNameLe_trans (a b c : treeNode) (h1 : kindNameLe a b) (h2 : kindNameLe b c) :
    kindNameLe a c := by
  unfold kindNameLe at *
  rcases h1 with h1 | ⟨e1, h1⟩
  · rcases h2 with h2 | ⟨e2, _⟩
    · exact Or.inl (strLt_trans _ _ _ h1 h2)
    · rw [e2] at h1
      exact Or.inl h1
  · rcases h2 with h2 | ⟨e2, h2⟩
    · rw [← e1] at h2
      exact Or.inl h2
    · refine Or.inr ⟨e1.trans e2, ?_⟩
      rcases h1 with h1 | h1
      · rcases h2 with h2 | h2
        · exact Or.inl (strLt_trans _ _ _ h1 h2)
        · rw [h2] at h1
          exact Or.inl h1
      · rw [h1]
        exact h2

theorem kindNameLe_of_label {a a' b b' : treeNode} (ha : a.label = a'.label)
    (hb : b.label = b'.label) (h : kindNameLe a b) : kindNameLe a' b' := by
  unfold kindNameLe at *
  rw [← kind_of_label ha, ← kind_of_label hb, ← name_of_label ha, ← name_of_label hb]
  exact h

/-- The closure `sortNodes` leaves the slice in non-decreasing `(kind, name)`
order. -/
theorem sortNodes_sorted (h : List treeNode) (l : List Nat) :
    SortedNodes h (TreeView.sortNodes h l) := by
  unfold SortedNodes TreeView.sortNodes
  have ht : IsTotal Nat (fun a b =>
      TreeView.nodeLess (h.getD b default) (h.getD a default) = false) :=
    ⟨fun a b => by
      rw [nodeLess_eq_false_iff, nodeLess_eq_false_iff]
      exact kindNameLe_total _ _⟩
  have htr : IsTrans Nat (fun a b =>
      TreeView.nodeLess (h.getD b default) (h.getD a default) = false) :=
    ⟨fun a b c h1 h2 => by
      rw [nodeLess_eq_false_iff] at h1 h2 ⊢
      exact kindNameLe_trans _ _ _ h1 h2⟩
  have hs := List.sorted_insertionSort (fun a b =>
      TreeView.nodeLess (h.getD b default) (h.getD a default) = false) l
  exact List.Pairwise.imp (fun hab => (nodeLess_eq_false_iff _ _).1 hab) hs

theorem SortedNodes.nodes_of_label {h h' : List treeNode} {l : List Nat}
    (hl : ∀ p ∈ l, (h'.getD p default).label = (h.getD p default).label)
    (hs : SortedNodes h l) : SortedNodes h' l := by
  unfold SortedNodes at *
  apply List.Pairwise.imp_of_mem _ hs
  intro a b ha hb hab
  exact kindNameLe_of_label (hl a ha).symm (hl b hb).symm hab

theorem SortedNames.names_of_label {h h' : List treeNode} {l : List Nat}
    (hl : ∀ p ∈ l, (h'.getD p default).label = (h.getD p default).label)
    (hs : SortedNames h l) : SortedNames h' l := by
  unfold SortedNames at *
  apply List.Pairwise.imp_of_mem _ hs
  intro a b ha hb hab
  rw [name_of_label (hl a ha), name_of_label (hl b hb)]
  exact hab

end Argonaut

namespace Argonaut

/-! ## `UpsertAppTree` sorts the children of every node -/

theorem sortChildren_label (h : List treeNode) (kp : String × Nat) (q : Nat) :
    ((TreeView.sortChildren h kp).getD q default).label = (h.getD q default).label := by
  unfold TreeView.sortChildren
  split
  · exact setChildren_label _ _ _ _
  · rfl

theorem sortChildren_sorted (h : List treeNode) (kp : String × Nat) (q : Nat)
    (hq : q = kp.2 ∨ SortedNodes h (h.getD q default).children) :
    SortedNodes (TreeView.sortChildren h kp)
      ((TreeView.sortChildren h kp).getD q default).children := by
  have hlab : ∀ l : List Nat, SortedNodes h l → SortedNodes (TreeView.sortChildren h kp) l :=
    fun l hl => SortedNodes.nodes_of_label (fun p _ => sortChildren_label h kp p) hl
  by_cases hlen : (h.getD kp.2 default).children.length > 0
  · have he : TreeView.sortChildren h kp =
        TreeView.setChildren h kp.2 (TreeView.sortNodes h (h.getD kp.2 default).children) := by
      unfold TreeView.sortChildren
      rw [if_pos hlen]
    by_cases hqk : q = kp.2 ∧ kp.2 < h.length
    · apply SortedNodes.nodes_of_label (fun p _ => sortChildren_label h kp p)
      rw [he, setChildren_children, if_pos hqk]
      exact sortNodes_sorted _ _
    · have hch : ((TreeView.sortChildren h kp).getD q default).children =
          (h.getD q default).children := by
        rw [he, setChildren_children, if_neg hqk]
      rw [hch]
      apply hlab
      rcases hq with hq | hq
      · have : h.length ≤ q := by
          rw [hq]
          by_contra hcon
          exact hqk ⟨hq, by omega⟩
        rw [List.getD_eq_default _ _ this]
        exact List.Pairwise.nil
      · exact hq
  · have he : TreeView.sortChildren h kp = h := by
      unfold TreeView.sortChildren
      rw [if_neg hlen]
    rw [he]
    rcases hq with hq | hq
    · have : (h.getD q default).children = [] := by
        rw [hq]
        exact List.length_eq_zero.1 (by omega)
      rw [this]
      exact List.Pairwise.nil
    · exact hq

theorem foldl_sortChildren_sorted (L : List (String × Nat)) :
    ∀ (h : List treeNode) (q : Nat),
      (q ∈ L.map Prod.snd ∨ SortedNodes h (h.getD q default).children) →
      SortedNodes (L.foldl TreeView.sortChildren h)
        ((L.foldl TreeView.sortChildren h).getD q default).children := by
  induction L with
  | nil =>
    intro h q hq
    rcases hq with hq | hq
    · cases hq
    · exact hq
  | cons kp L ih =>
    intro h q hq
    rw [List.foldl_cons]
    apply ih
    rcases hq with hq | hq
    · rw [List.map_cons, List.mem_cons] at hq
      rcases hq with hq | hq
      · exact Or.inr (sortChildren_sorted h kp q (Or.inl hq))
      · exact Or.inl hq
    · exact Or.inr (sortChildren_sorted h kp q (Or.inr hq))

theorem upsertFilter_getD_old (v : TreeView) (appName : String) (tree : ResourceTree) (p : Nat)
    (hp : p < v.heap.length) :
    (v.upsertFilter appName tree).heap.getD p default = v.heap.getD p default := by
  rw [(upsertFilter_inv v appName tree).ext.old p hp, upsertBuild_getD_old v appName tree p hp]

theorem upsertSorted_sorted (v : TreeView) (hc : Closed v)
    (ho : ∀ p, SortedNodes v.heap (v.node p).children) (appName : String)
    (tree : ResourceTree) (q : Nat) :
    SortedNodes (v.upsertSorted appName tree)
      ((v.upsertSorted appName tree).getD q default).children := by
  unfold TreeView.upsertSorted
  apply foldl_sortChildren_sorted
  by_cases hmem : q ∈ (v.upsertBuild appName tree).nodesLocal.map Prod.snd
  · exact Or.inl hmem
  · right
    by_cases hq : q < v.heap.length
    · rw [upsertFilter_getD_old v appName tree q hq]
      apply SortedNodes.nodes_of_label _ (ho q)
      intro c hcm
      rw [upsertFilter_getD_old v appName tree c (hc.children q hq c hcm)]
    · have : ((v.upsertFilter appName tree).heap.getD q default).children = [] := by
        rw [(upsertFilter_inv v appName tree).children]
        rw [List.eq_nil_iff_forall_not_mem]
        intro c hcm
        obtain ⟨k, hk⟩ := (upsertLinked_inv v appName tree).2.owner q c (not_lt.mp hq) hcm
        exact hmem (List.mem_map.2 ⟨(k, q), hk, rfl⟩)
      rw [this]
      exact List.Pairwise.nil

theorem upsertHeap_label_eq (v : TreeView) (appName : String) (tree : ResourceTree) (p : Nat)
    (hp : p < v.heap.length + tree.Nodes.length) :
    ((v.upsertHeap appName tree).getD p default).label =
      ((v.upsertBuild appName tree).heap.getD p default).label := by
  obtain ⟨h4, he, hx, _⟩ := upsertHeap_parts v appName tree
  have hl : h4.length = v.heap.length + tree.Nodes.length := by
    rw [hx.length, upsertBuild_heap_length]
  rw [he, getD_append_singleton_lt _ _ _ (by omega), hx.label]

theorem upsertHeap_children_eq (v : TreeView) (appName : String) (tree : ResourceTree) (p : Nat)
    (hp : p < v.heap.length + tree.Nodes.length) :
    ((v.upsertHeap appName tree).getD p default).children =
      ((v.upsertSorted appName tree).getD p default).children := by
  obtain ⟨h4, he, hx, hch, _⟩ := upsertHeap_parts v appName tree
  have hl : h4.length = v.heap.length + tree.Nodes.length := by
    rw [hx.length, upsertBuild_heap_length]
  rw [he, getD_append_singleton_lt _ _ _ (by omega), hch]

/-- After `UpsertAppTree` the children of every node of the heap are in
non-decreasing `(kind, name)` order. -/
theorem upsertHeap_sorted (v : TreeView) (hc : Closed v)
    (ho : ∀ p, SortedNodes v.heap (v.node p).children) (appName : String)
    (tree : ResourceTree) (q : Nat) :
    SortedNodes (v.upsertHeap appName tree)
      ((v.upsertHeap appName tree).getD q default).children := by
  have hrange : ∀ c ∈ ((v.upsertHeap appName tree).getD q default).children,
      c < v.heap.length + tree.Nodes.length := by
    intro c hcm
    rcases upsertHeap_children_cases v hc appName tree q c hcm with h | h | h
    · omega
    · exact (upsertLinked_children_local v appName tree q c h.1 h.2.2).2.1
    · exact (upsertFilter_filtered_local v appName tree c h.2).2
  by_cases h2 : q < v.heap.length + tree.Nodes.length
  · apply SortedNodes.nodes_of_label _
      (show SortedNodes (v.upsertSorted appName tree)
        ((v.upsertHeap appName tree).getD q default).children from by
          rw [upsertHeap_children_eq v appName tree q h2]
          exact upsertSorted_sorted v hc ho appName tree q)
    intro c hcm
    rw [upsertHeap_label_eq v appName tree c (hrange c hcm),
      (upsertSorted_inv v appName tree).1.label]
  · by_cases h3 : q = v.heap.length + tree.Nodes.length
    · apply SortedNodes.nodes_of_label _
        (show SortedNodes (v.upsertFilter appName tree).heap
          ((v.upsertHeap appName tree).getD q default).children from by
            rw [h3, upsertHeap_root]
            exact sortNodes_sorted _ _)
      intro c hcm
      rw [upsertHeap_label_eq v appName tree c (hrange c hcm),
        (upsertFilter_inv v appName tree).ext.label]
    · have : (v.upsertHeap appName tree).length ≤ q := by
        rw [upsertHeap_length]; omega
      rw [List.getD_eq_default _ _ this]
      exact List.Pairwise.nil

/-! ## `UpsertAppTree` keeps the roots in name order -/

theorem upsertHeap_root_name (v : TreeView) (appName : String) (tree : ResourceTree) :
    ((v.upsertHeap appName tree).getD (v.heap.length + tree.Nodes.length) default).name =
      appName := by
  rw [upsertHeap_root]
  rfl

theorem removeApp_roots_name (v : TreeView) (ho : Ordered v) (appName : String) (r : Nat)
    (hr : r ∈ (v.removeApp appName).roots) :
    r ∈ v.roots ∧ (v.heap.getD r default).name ≠ appName := by
  have hnd : v.roots.Nodup := by
    have := ho.roots
    unfold SortedNames at this
    exact List.Pairwise.imp (fun hab hh => by
      rw [hh, strLt_irrefl] at hab
      exact absurd hab (by simp)) this
  rw [removeApp_roots] at hr
  cases hold : mapGet v.rootByApp appName with
  | none =>
    rw [hold] at hr
    refine ⟨hr, fun hn => ?_⟩
    have := ho.rootIndexed r hr
    unfold TreeView.node at this
    rw [hn, hold] at this
    cases this
  | some old =>
    rw [hold] at hr
    have hr2 := (hnd.mem_erase_iff).1 hr
    refine ⟨hr2.2, fun hn => ?_⟩
    have := ho.rootIndexed r hr2.2
    unfold TreeView.node at this
    rw [hn, hold] at this
    exact hr2.1 (Option.some.inj this).symm

theorem mem_removeApp_roots_of_ne (v : TreeView) (appName : String) (r : Nat)
    (hr : r ∈ v.roots) (hne : mapGet v.rootByApp appName ≠ some r) :
    r ∈ (v.removeApp appName).roots := by
  rw [removeApp_roots]
  cases hold : mapGet v.rootByApp appName with
  | none => exact hr
  | some old =>
    simp only
    rw [hold] at hne
    exact (List.mem_erase_of_ne (fun h => hne (by rw [h]))).2 hr

theorem removeApp_roots_sublist (v : TreeView) (appName : String) :
    List.Sublist (v.removeApp appName).roots v.roots := by
  rw [removeApp_roots]
  split
  · exact List.erase_sublist _ _
  · exact List.Sublist.refl _

theorem Ordered.ordered_upsert {v v' : TreeView} (hc : Closed v) (ho : Ordered v)
    (appName : String) (tree : ResourceTree) (h : v.UpsertAppTree appName tree = some v') :
    Ordered v' := by
  have hheap := UpsertAppTree_heap v v' appName tree h
  have hold : ∀ r ∈ (v.removeApp appName).roots,
      (v.upsertHeap appName tree).getD r default = v.heap.getD r default := by
    intro r hr
    exact upsertHeap_old v appName tree r
      (hc.roots r (removeApp_roots_subset v appName r hr))
  have hnames : ((v.removeApp appName).roots ++ [v.upsertRoot appName tree]).Pairwise
      (fun a b => ((v.upsertHeap appName tree).getD a default).name ≠
        ((v.upsertHeap appName tree).getD b default).name) := by
    rw [List.pairwise_append]
    refine ⟨?_, List.pairwise_singleton _ _, ?_⟩
    · have := List.Pairwise.sublist (removeApp_roots_sublist v appName) ho.roots
      apply List.Pairwise.imp_of_mem _ this
      intro a b ha hb hab
      rw [hold a ha, hold b hb]
      exact strLt_ne _ _ hab
    · intro a ha b hb
      rw [List.mem_singleton] at hb
      rw [hb, upsertRoot_eq, upsertHeap_root_name, hold a ha]
      exact (removeApp_roots_name v ho appName a ha).2
  have hsym : Symmetric (fun a b : Nat => ((v.upsertHeap appName tree).getD a default).name ≠
      ((v.upsertHeap appName tree).getD b default).name) := fun a b hab => hab.symm
  refine ⟨?_, ?_, ?_, ?_⟩
  · intro p
    unfold TreeView.node
    rw [hheap]
    exact upsertHeap_sorted v hc ho.children appName tree p
  · unfold SortedNames
    rw [hheap, UpsertAppTree_roots v v' appName tree h]
    have ht : IsTotal Nat (fun a b =>
        TreeView.rootLess (v.upsertHeap appName tree) b a = false) :=
      ⟨fun a b => by
        unfold TreeView.rootLess
        by_cases hn : strLt ((v.upsertHeap appName tree).getD b default).name
            ((v.upsertHeap appName tree).getD a default).name = true
        · exact Or.inr (strLt_asymm _ _ hn)
        · exact Or.inl (by simpa using hn)⟩
    have htr : IsTrans Nat (fun a b =>
        TreeView.rootLess (v.upsertHeap appName tree) b a = false) :=
      ⟨fun a b c h1 h2 => by
        unfold TreeView.rootLess at *
        by_contra hcon
        have hca : strLt ((v.upsertHeap appName tree).getD c default).name
            ((v.upsertHeap appName tree).getD a default).name = true := by simpa using hcon
        by_cases hab : strLt ((v.upsertHeap appName tree).getD a default).name
            ((v.upsertHeap appName tree).getD b default).name = true
        · have := strLt_trans _ _ _ hca hab
          rw [h2] at this
          exact absurd this (by simp)
        · have hEq := strLt_total _ _ (by simpa using hab) h1
          rw [hEq, h2] at hca
          exact absurd hca (by simp)⟩
    have hs := List.sorted_insertionSort (fun a b =>
        TreeView.rootLess (v.upsertHeap appName tree) b a = false)
        ((v.removeApp appName).roots ++ [v.upsertRoot appName tree])
    have hn := ((List.perm_insertionSort (fun a b =>
        TreeView.rootLess (v.upsertHeap appName tree) b a = false)
        ((v.removeApp appName).roots ++ [v.upsertRoot appName tree])).pairwise_iff
        (fun {a b} hab => hsym hab)).2 hnames
    apply List.Pairwise.imp _ (List.Pairwise.and hs hn)
    intro a b hab
    unfold TreeView.rootLess at hab
    by_contra hcon
    exact hab.2 (strLt_total _ _ (by simpa using hcon) hab.1)
  · intro r hr
    rw [rootByApp_UpsertAppTree v v' appName tree h, node_UpsertAppTree v v' appName tree h]
    rcases (mem_UpsertAppTree_roots v v' appName tree h r).1 hr with hr | hr
    · obtain ⟨hr1, hr2⟩ := removeApp_roots_name v ho appName r hr
      rw [hold r hr, if_neg hr2]
      exact ho.rootIndexed r hr1
    · rw [hr, upsertHeap_root_name, if_pos rfl]
  · intro k r hk
    rw [rootByApp_UpsertAppTree v v' appName tree h] at hk
    rw [mem_UpsertAppTree_roots v v' appName tree h, node_UpsertAppTree v v' appName tree h]
    split at hk
    · rename_i hka
      have hr := (Option.some.inj hk).symm
      rw [hr, upsertHeap_root_name]
      exact ⟨Or.inr rfl, hka.symm⟩
    · rename_i hka
      obtain ⟨hr1, hr2⟩ := ho.rootListed k r hk
      have hmem : r ∈ (v.removeApp appName).roots := by
        apply mem_removeApp_roots_of_ne v appName r hr1
        intro hcon
        have := (ho.rootListed appName r hcon).2
        exact hka (hr2.symm.trans this)
      rw [hold r hmem]
      exact ⟨Or.inl hmem, hr2⟩

end Argonaut

namespace Argonaut

/-! ## Invariants of the forest: a common induction -/

theorem kind_of_shape {a b : treeNode} (h : a.shape = b.shape) : a.kind = b.kind :=
  show a.shape.kind = b.shape.kind from congrArg treeNode.kind h

theorem name_of_shape {a b : treeNode} (h : a.shape = b.shape) : a.name = b.name :=
  show a.shape.name = b.shape.name from congrArg treeNode.name h

theorem uid_of_shape {a b : treeNode} (h : a.shape = b.shape) : a.uid = b.uid :=
  show a.shape.uid = b.shape.uid from congrArg treeNode.uid h

theorem parent_of_shape {a b : treeNode} (h : a.shape = b.shape) : a.parent = b.parent :=
  show a.shape.parent = b.shape.parent from congrArg treeNode.parent h

theorem children_of_shape {a b : treeNode} (h : a.shape = b.shape) :
    a.children = b.children :=
  show a.shape.children = b.shape.children from congrArg treeNode.children h

theorem SameForest.sameShape {v v' : TreeView} (hs : SameForest v v') : SameShape v v' :=
  ⟨by rw [hs.heap], fun p => by unfold TreeView.node; rw [hs.heap], hs.nodesByUID,
    hs.nodesByApp, hs.rootByApp, hs.roots⟩

theorem setStatus_shape (h : List treeNode) (q : Nat) (s : String) (p : Nat) :
    ((TreeView.setStatus h q s).getD p default).shape = (h.getD p default).shape := by
  unfold TreeView.setStatus
  rcases heapModify_getD_cases h q p (fun c => { c with status := s }) with hc | ⟨rfl, _, hc⟩
  · rw [hc]
  · rw [hc]
    rfl

theorem setNodeStatus_shape (nodesByUID : GoMap Nat) (statusByKey : GoMap String)
    (h : List treeNode) (nodeKey : String) (p : Nat) :
    ((TreeView.setNodeStatus nodesByUID statusByKey h nodeKey).getD p default).shape =
      (h.getD p default).shape := by
  unfold TreeView.setNodeStatus
  split
  · simp only
    split
    · exact setStatus_shape _ _ _ _
    · rfl
  · rfl

/-- `SetResourceStatuses` rewrites statuses only. -/
theorem SetResourceStatuses_sameShape (v : TreeView) (appName : String)
    (resources : List ResourceStatus) :
    SameShape v (v.SetResourceStatuses appName resources) := by
  have hl := SetResourceStatuses_sameLinks v appName resources
  refine ⟨hl.length, ?_, hl.nodesByUID, hl.nodesByApp, hl.rootByApp, hl.roots⟩
  unfold TreeView.SetResourceStatuses
  simp only
  split
  · rename_i keys _
    intro p
    unfold TreeView.node
    simp only
    apply foldl_inv (fun h : List treeNode =>
      (h.getD p default).shape = (v.heap.getD p default).shape) _ _ _ rfl
    intro s k _ hs
    rw [setNodeStatus_shape, hs]
  · intro p
    rfl

theorem SameShape.links_of_sameShape {v v' : TreeView} (hs : SameShape v v') : SameLinks v v' :=
  ⟨hs.length, fun p => children_of_shape (hs.shape p), hs.nodesByUID, hs.nodesByApp,
    hs.rootByApp, hs.roots⟩

/-- A property of views that holds of a new view and is kept by the reset of
`SetData`, by `UpsertAppTree` and by every change that leaves the forest alone
up to statuses holds of every reachable view. -/
theorem Reached.forest_induction {P : TreeView → Prop}
    (hnew : ∀ width height, P (TreeView.NewTreeView width height))
    (hreset : ∀ v, Closed v → P v → P v.resetData)
    (hupsert : ∀ (v v' : TreeView) (appName : String) (tree : ResourceTree), Closed v → P v →
      v.UpsertAppTree appName tree = some v' → P v')
    (hshape : ∀ v v', SameShape v v' → P v → P v')
    {names : List String} {v : TreeView} (h : Reached names v) : P v := by
  induction h with
  | new width height => exact hnew width height
  | upsert appName tree hr hu ih => exact hupsert _ _ appName tree hr.closed ih hu
  | update msg _ hu ih => exact hshape _ _ (Update_sameForest _ _ msg hu).sameShape ih
  | setSelectedIndex idx _ ih =>
    exact hshape _ _ (SetSelectedIndex_sameForest _ idx).sameShape ih
  | toggleSelection _ ih => exact hshape _ _ (ToggleSelection_sameForest _).sameShape ih
  | clearSelection _ ih => exact hshape _ _ (ClearSelection_sameForest _).sameShape ih
  | setFilter q _ ih => exact hshape _ _ (SetFilter_sameForest _ q).sameShape ih
  | clearFilter _ ih => exact hshape _ _ (ClearFilter_sameForest _).sameShape ih
  | nextMatch _ hu ih => exact hshape _ _ (NextMatch_sameForest _ _ _ hu).sameShape ih
  | prevMatch _ hu ih => exact hshape _ _ (PrevMatch_sameForest _ _ _ hu).sameShape ih
  | jumpToFirstMatch _ ih => exact hshape _ _ (JumpToFirstMatch_sameForest _).sameShape ih
  | setAppMeta name health sync _ ih =>
    exact hshape _ _ (SetAppMeta_sameForest _ name health sync).sameShape ih
  | setSize width height _ ih =>
    exact hshape _ _ (SetSize_sameForest _ width height).sameShape ih
  | setDesaturateMode enabled _ ih =>
    exact hshape _ _ (SetDesaturateMode_sameForest _ enabled).sameShape ih
  | setFlashAll enabled _ ih =>
    exact hshape _ _ (SetFlashAll_sameForest _ enabled).sameShape ih
  | setData tree hr hu ih =>
    exact hupsert _ _ _ tree hr.closed.closed_reset (hreset _ hr.closed ih) hu
  | setResourceStatuses appName resources _ ih =>
    exact hshape _ _ (SetResourceStatuses_sameShape _ appName resources) ih

/-! ## The ordering of siblings and roots in every reachable view -/

theorem kindNameLe_of_shape {a a' b b' : treeNode} (ha : a.shape = a'.shape)
    (hb : b.shape = b'.shape) (h : kindNameLe a b) : kindNameLe a' b' := by
  unfold kindNameLe at *
  rw [← kind_of_shape ha, ← kind_of_shape hb, ← name_of_shape ha, ← name_of_shape hb]
  exact h

theorem Ordered.ordered_of_sameShape {v v' : TreeView} (hs : SameShape v v') (ho : Ordered v) :
    Ordered v' := by
  refine ⟨?_, ?_, ?_, ?_⟩
  · intro p
    rw [children_of_shape (hs.shape p)]
    exact List.Pairwise.imp
      (fun hab => kindNameLe_of_shape (hs.shape _).symm (hs.shape _).symm hab) (ho.children p)
  · have := ho.roots
    unfold SortedNames at *
    rw [hs.roots]
    apply List.Pairwise.imp _ this
    intro a b hab
    have ha := name_of_shape (hs.shape a)
    have hb := name_of_shape (hs.shape b)
    unfold TreeView.node at ha hb
    rw [ha, hb]
    exact hab
  · intro r hr
    rw [hs.roots] at hr
    rw [hs.rootByApp, name_of_shape (hs.shape r)]
    exact ho.rootIndexed r hr
  · intro k r hk
    rw [hs.rootByApp] at hk
    rw [hs.roots, name_of_shape (hs.shape r)]
    exact ho.rootListed k r hk

theorem Ordered.ordered_new (width height : Int) :
    Ordered (TreeView.NewTreeView width height) := by
  refine ⟨?_, List.Pairwise.nil, ?_, ?_⟩
  · intro p
    exact List.Pairwise.nil
  · intro r hr
    cases hr
  · intro k r hk
    simp [TreeView.NewTreeView, mapGet] at hk

theorem Ordered.ordered_reset {v : TreeView} (ho : Ordered v) : Ordered v.resetData := by
  refine ⟨fun p => ho.children p, List.Pairwise.nil, ?_, ?_⟩
  · intro r hr
    cases hr
  · intro k r hk
    simp [TreeView.resetData, mapGet] at hk

theorem Reached.ordered {names : List String} {v : TreeView} (h : Reached names v) :
    Ordered v :=
  Reached.forest_induction Ordered.ordered_new (fun _ _ ho => ho.ordered_reset)
    (fun _ _ appName tree hc ho hu => ho.ordered_upsert hc appName tree hu)
    (fun _ _ hs ho => ho.ordered_of_sameShape hs) h

end Argonaut

namespace Argonaut

/-! ## C11: ordering after `UpsertAppTree` -/

/-- C11. Ordering after `UpsertAppTree`, in every view reached from
`NewTreeView` and for every snapshot (the call returns when the snapshot is
acyclic): the children list of every node, the synthetic root included, is in
non-decreasing `(kind, name)` lexicographic order; the list of synthetic roots
is in strictly increasing application-name order, whatever the order in which
the applications were upserted; every root is the root registered for the
application it is named after, and the root of the upserted application is
among them. -/
theorem UpsertAppTree_ordered (names : List String) (v : TreeView)
    (hreach : Reached names v) (appName : String) (tree : ResourceTree) :
    (Acyclic tree → ∃ v', v.UpsertAppTree appName tree = some v') ∧
    ∀ v', v.UpsertAppTree appName tree = some v' →
      (∀ p, (v'.node p).children.Pairwise
        (fun a b => kindNameLe (v'.node a) (v'.node b))) ∧
      v'.roots.Pairwise (fun a b => strLt (v'.node a).name (v'.node b).name = true) ∧
      (∀ r ∈ v'.roots, mapGet v'.rootByApp (v'.node r).name = some r) ∧
      (∃ r ∈ v'.roots, mapGet v'.rootByApp appName = some r ∧ (v'.node r).name = appName ∧
        (v'.node r).uid = TreeView.makeKey appName "__app_root__") := by
  refine ⟨fun hacyc => UpsertAppTree_returns v hreach.closed hreach.shallowed appName tree hacyc,
    ?_⟩
  intro v' h
  have ho := hreach.ordered.ordered_upsert hreach.closed appName tree h
  refine ⟨ho.children, ho.roots, ho.rootIndexed, ?_⟩
  have hr : mapGet v'.rootByApp appName = some (v.heap.length + tree.Nodes.length) := by
    rw [rootByApp_UpsertAppTree v v' appName tree h, if_pos rfl]
  refine ⟨_, (ho.rootListed _ _ hr).1, hr, (ho.rootListed _ _ hr).2, ?_⟩
  rw [node_UpsertAppTree v v' appName tree h, upsertHeap_root]
  rfl

/-- Witness for C11: the view holds the application `y`; the snapshot of `x`
lists a Pod `b`, a Pod `a` and a ConfigMap `z`; after the upsert the root of `x`
holds them as ConfigMap `z`, Pod `a`, Pod `b`, and the root of `x` precedes the
root of `y`. -/
theorem UpsertAppTree_ordered_witness :
    (∃ v', Examples.oneAppY.UpsertAppTree "x" Examples.unsortedX = some v') ∧
    ∃ v', Examples.oneAppY.UpsertAppTree "x" Examples.unsortedX = some v' ∧
      v'.roots.map (fun r => (v'.node r).name) = ["x", "y"] ∧
      (v'.node 5).children.map (fun c => ((v'.node c).kind, (v'.node c).name)) =
        [("ConfigMap", "z"), ("Pod", "a"), ("Pod", "b")] ∧
      (∀ p, (v'.node p).children.Pairwise
        (fun a b => kindNameLe (v'.node a) (v'.node b))) ∧
      v'.roots.Pairwise (fun a b => strLt (v'.node a).name (v'.node b).name = true) :=
  ⟨(UpsertAppTree_ordered ["y"] Examples.oneAppY
      (Reached.upsert "y" Examples.snapshotY (Reached.new 80 24) (by decide)) "x"
      Examples.unsortedX).1 ⟨fun _ => 0, by decide⟩,
    Examples.get (Examples.oneAppY.UpsertAppTree "x" Examples.unsortedX), by decide,
    by decide, by decide,
    ((UpsertAppTree_ordered ["y"] Examples.oneAppY
      (Reached.upsert "y" Examples.snapshotY (Reached.new 80 24) (by decide)) "x"
      Examples.unsortedX).2
      (Examples.get (Examples.oneAppY.UpsertAppTree "x" Examples.unsortedX)) (by decide)).1,
    ((UpsertAppTree_ordered ["y"] Examples.oneAppY
      (Reached.upsert "y" Examples.snapshotY (Reached.new 80 24) (by decide)) "x"
      Examples.unsortedX).2
      (Examples.get (Examples.oneAppY.UpsertAppTree "x" Examples.unsortedX))
      (by decide)).2.1⟩

end Argonaut

namespace Argonaut

/-! ## Parent links after `UpsertAppTree` -/

theorem foldl_setParent_parent_of_not_mem (x : Option Nat) (cs : List Nat) :
    ∀ (h : List treeNode) (q : Nat), q ∉ cs →
      ((cs.foldl (fun h c => TreeView.setParent h c x) h).getD q default).parent =
        (h.getD q default).parent := by
  induction cs with
  | nil =>
    intro h q _
    rfl
  | cons c cs ih =>
    intro h q hq
    rw [List.foldl_cons, ih _ q (fun hm => hq (List.mem_cons_of_mem _ hm)), setParent_parent,
      if_neg (fun hh => hq (by rw [hh.1]; exact List.mem_cons_self _ _))]

theorem filterRoot_parent (appName : String) (h2 : List treeNode) (f : TreeView.Filter)
    (p : Nat)
    (hf : ∀ q, q ∈ f.filtered ∨ (f.heap.getD q default).parent = (h2.getD q default).parent) :
    ∀ q, q ∈ (TreeView.filterRoot appName f p).filtered ∨
      ((TreeView.filterRoot appName f p).heap.getD q default).parent =
        (h2.getD q default).parent := by
  intro q
  unfold TreeView.filterRoot
  simp only
  split
  · simp only
    by_cases hq : q ∈ (f.heap.getD p default).children
    · exact Or.inl (List.mem_append_right _ hq)
    · rcases hf q with h | h
      · exact Or.inl (List.mem_append_left _ h)
      · right
        rw [foldl_setParent_parent_of_not_mem none _ _ q hq]
        exact h
  · simp only
    rcases hf q with h | h
    · exact Or.inl (List.mem_append_left _ h)
    · exact Or.inr h

/-- The filter loop clears the parent of the nodes it promotes only. -/
theorem upsertFilter_parent (v : TreeView) (appName : String) (tree : ResourceTree) (q : Nat) :
    q ∈ (v.upsertFilter appName tree).filtered ∨
      ((v.upsertFilter appName tree).heap.getD q default).parent =
        ((v.upsertLinked appName tree).getD q default).parent := by
  have key : ∀ q, q ∈ (v.upsertFilter appName tree).filtered ∨
      ((v.upsertFilter appName tree).heap.getD q default).parent =
        ((v.upsertLinked appName tree).getD q default).parent := by
    unfold TreeView.upsertFilter
    apply foldl_inv (fun f : TreeView.Filter => ∀ q, q ∈ f.filtered ∨
      (f.heap.getD q default).parent = ((v.upsertLinked appName tree).getD q default).parent)
    · intro q
      exact Or.inr rfl
    · intro s p _ hs
      exact filterRoot_parent appName _ s p hs
  exact key q

theorem upsertHeap_parent_eq (v : TreeView) (appName : String) (tree : ResourceTree) (q : Nat)
    (hq : q < v.heap.length + tree.Nodes.length) (hn : q ∉ v.upsertSortedRoots appName tree) :
    ((v.upsertHeap appName tree).getD q default).parent =
      ((v.upsertFilter appName tree).heap.getD q default).parent := by
  obtain ⟨h4, he, hx, _, hpar, _⟩ := upsertHeap_parts v appName tree
  have hl : h4.length = v.heap.length + tree.Nodes.length := by
    rw [hx.length, upsertBuild_heap_length]
  rw [he, getD_append_singleton_lt _ _ _ (by omega), hpar q hn,
    (upsertSorted_inv v appName tree).2.1]

/-- After `UpsertAppTree` every child has a parent. -/
theorem upsertHeap_child_parent (v : TreeView) (hc : Closed v)
    (hold : ∀ p c, c ∈ (v.node p).children → (v.node c).parent ≠ none)
    (appName : String) (tree : ResourceTree) (p c : Nat)
    (hcm : c ∈ ((v.upsertHeap appName tree).getD p default).children) :
    ((v.upsertHeap appName tree).getD c default).parent ≠ none := by
  have hroot : c ∈ v.upsertSortedRoots appName tree →
      ((v.upsertHeap appName tree).getD c default).parent ≠ none := by
    intro hr
    rw [upsertHeap_parent_of_root v appName tree c hr]
    simp
  rcases upsertHeap_children_cases v hc appName tree p c hcm with ⟨h1, h2⟩ | ⟨h1, h2, h3⟩ |
    ⟨_, h2⟩
  · rw [upsertHeap_old v appName tree c h2]
    rw [upsertHeap_old v appName tree p h1] at hcm
    exact hold p c hcm
  · by_cases hr : c ∈ v.upsertSortedRoots appName tree
    · exact hroot hr
    · obtain ⟨_, hc2, hpar⟩ := upsertLinked_children_local v appName tree p c h1 h3
      rw [upsertHeap_parent_eq v appName tree c hc2 hr]
      rcases upsertFilter_parent v appName tree c with hf | hf
      · exact absurd ((mem_upsertSortedRoots v appName tree c).2 hf) hr
      · rw [hf]
        exact hpar
  · exact hroot ((mem_upsertSortedRoots v appName tree c).2 h2)

theorem upsertHeap_root_parent (v : TreeView) (appName : String) (tree : ResourceTree) :
    ((v.upsertHeap appName tree).getD (v.heap.length + tree.Nodes.length) default).parent =
      none := by
  rw [upsertHeap_root]
  rfl

theorem Rooted.rooted_upsert {v v' : TreeView} (hc : Closed v) (hr : Rooted v)
    (appName : String) (tree : ResourceTree) (h : v.UpsertAppTree appName tree = some v') :
    Rooted v' := by
  refine ⟨?_, ?_, ?_⟩
  · intro p c hcm
    rw [node_UpsertAppTree v v' appName tree h] at hcm ⊢
    exact upsertHeap_child_parent v hc hr.childParent appName tree p c hcm
  · intro r hrm
    rw [node_UpsertAppTree v v' appName tree h]
    rcases (mem_UpsertAppTree_roots v v' appName tree h r).1 hrm with hrm | hrm
    · have hr1 := removeApp_roots_subset v appName r hrm
      rw [upsertHeap_old v appName tree r (hc.roots r hr1)]
      exact hr.rootParent r hr1
    · rw [hrm]
      exact upsertHeap_root_parent v appName tree
  · rw [UpsertAppTree_rootByApp v v' appName tree h, removeApp_rootByApp]
    exact mapSet_keys_nodup _ _ _ (mapDelete_keys_nodup _ _ hr.rootKeys)

theorem Rooted.rooted_of_sameShape {v v' : TreeView} (hs : SameShape v v') (hr : Rooted v) :
    Rooted v' := by
  refine ⟨?_, ?_, ?_⟩
  · intro p c hcm
    rw [children_of_shape (hs.shape p)] at hcm
    rw [parent_of_shape (hs.shape c)]
    exact hr.childParent p c hcm
  · intro r hrm
    rw [hs.roots] at hrm
    rw [parent_of_shape (hs.shape r)]
    exact hr.rootParent r hrm
  · rw [hs.rootByApp]
    exact hr.rootKeys

theorem Rooted.rooted_new (width height : Int) :
    Rooted (TreeView.NewTreeView width height) := by
  refine ⟨?_, ?_, List.nodup_nil⟩
  · intro p c hcm
    simp [TreeView.NewTreeView, TreeView.node] at hcm
    cases hcm
  · intro r hr
    cases hr

theorem Rooted.rooted_reset {v : TreeView} (hr : Rooted v) : Rooted v.resetData := by
  refine ⟨fun p c hcm => hr.childParent p c hcm, ?_, List.nodup_nil⟩
  intro r hrm
  cases hrm

theorem Reached.rooted {names : List String} {v : TreeView} (h : Reached names v) :
    Rooted v :=
  Reached.forest_induction Rooted.rooted_new (fun _ _ hr => hr.rooted_reset)
    (fun _ _ appName tree hc hr hu => hr.rooted_upsert hc appName tree hu)
    (fun _ _ hs hr => hr.rooted_of_sameShape hs) h

/-- In a reachable view there are as many roots as applications in
`rootByApp`. -/
theorem roots_length_eq (v : TreeView) (ho : Ordered v) (hr : Rooted v) :
    v.roots.length = v.rootByApp.length := by
  have hnames : (v.roots.map (fun r => (v.node r).name)).Nodup := by
    unfold List.Nodup
    rw [List.pairwise_map]
    exact List.Pairwise.imp (fun hab => strLt_ne _ _ hab) ho.roots
  have hperm : List.Perm (v.roots.map (fun r => (v.node r).name))
      (v.rootByApp.map Prod.fst) := by
    rw [List.perm_ext_iff_of_nodup hnames hr.rootKeys]
    intro a
    constructor
    · intro ha
      obtain ⟨r, hrm, rfl⟩ := List.mem_map.1 ha
      have := ho.rootIndexed r hrm
      exact List.mem_map.2 ⟨(_, r), mem_of_mapGet _ _ _ this, rfl⟩
    · intro ha
      have hne : mapGet v.rootByApp a ≠ none := (mapGet_ne_none_iff_mem_keys _ _).2 ha
      cases hg : mapGet v.rootByApp a with
      | none => exact absurd hg hne
      | some r =>
        obtain ⟨h1, h2⟩ := ho.rootListed a r hg
        exact List.mem_map.2 ⟨r, h1, h2⟩
  have := hperm.length_eq
  rw [List.length_map, List.length_map] at this
  exact this

end Argonaut

namespace Argonaut

/-! ## The visible order is current and the cursor is synced in every reachable view -/

theorem walk_congr {v v' : TreeView} (hs : ∀ p, (v'.node p).shape = (v.node p).shape)
    (he : v'.expanded = v.expanded) (fuel : Nat) :
    ∀ n, TreeView.walk v' fuel n = TreeView.walk v fuel n := by
  induction fuel with
  | zero =>
    intro n
    rfl
  | succ fuel ih =>
    intro n
    have hf : TreeView.walk v' fuel = TreeView.walk v fuel := funext ih
    unfold TreeView.walk
    rw [he, uid_of_shape (hs n), children_of_shape (hs n), hf]

theorem walkRoots_congr {v v' : TreeView} (hs : SameShape v v')
    (he : v'.expanded = v.expanded) : TreeView.walkRoots v' = TreeView.walkRoots v := by
  unfold TreeView.walkRoots
  rw [hs.roots, hs.length, funext (walk_congr hs.shape he _)]

theorem Synced.sync (w : TreeView) : Synced (TreeView.syncSelectedUID w) := by
  unfold TreeView.syncSelectedUID
  split
  · intro _
    rfl
  · rename_i h
    intro hc
    exact absurd ⟨hc.1, hc.2⟩ h

theorem viewed_transfer {v v' : TreeView} (h : OrderCurrent v ∧ Synced v)
    (hs : SameShape v v') (he : v'.expanded = v.expanded) (ho : v'.order = v.order)
    (hsel : v'.selIdx = v.selIdx) (hu : v'.SelectedUID = v.SelectedUID) :
    OrderCurrent v' ∧ Synced v' := by
  constructor
  · unfold OrderCurrent
    rw [walkRoots_congr hs he, ho]
    exact h.1
  · unfold Synced TreeView.orderAt
    rw [hsel, ho, hu, uid_of_shape (hs.shape _)]
    exact h.2

theorem viewed_sync {v w : TreeView} (h : OrderCurrent v) (hs : SameShape v w)
    (he : w.expanded = v.expanded) (ho : w.order = v.order) :
    OrderCurrent (TreeView.syncSelectedUID w) ∧ Synced (TreeView.syncSelectedUID w) := by
  refine ⟨?_, Synced.sync w⟩
  obtain ⟨u, hu⟩ := syncSelectedUID_shape w
  rw [hu]
  unfold OrderCurrent
  have hs2 : SameShape v ({ w with SelectedUID := u } : TreeView) :=
    ⟨hs.length, hs.shape, hs.nodesByUID, hs.nodesByApp, hs.rootByApp, hs.roots⟩
  rw [walkRoots_congr hs2 he]
  exact h.trans (by rw [← ho])

theorem viewed_rebuildOrder (w v' : TreeView) (h : TreeView.rebuildOrder w = some v') :
    OrderCurrent v' ∧ Synced v' := by
  obtain ⟨hw, _, hsync, _⟩ := rebuildOrder_spec w v' h
  refine ⟨?_, hsync⟩
  obtain ⟨o, s, u, rfl⟩ := rebuildOrder_shape w v' h
  unfold OrderCurrent
  have hs2 : SameShape w ({ w with order := o, selIdx := s, SelectedUID := u } : TreeView) :=
    ⟨rfl, fun _ => rfl, rfl, rfl, rfl, rfl⟩
  rw [walkRoots_congr hs2 rfl]
  exact hw

/-- The key switch of `Update` either moves the cursor or changes expansion
flags and rebuilds the order. -/
theorem updateKey_cases (v v' : TreeView) (k : String)
    (h : TreeView.updateKey v k = some v') :
    (∃ s, v' = { v with selIdx := s }) ∨
    (∃ e, TreeView.rebuildOrder { v with expanded := e } = some v') := by
  have hself : ∀ w : TreeView, w = v → ∃ s, w = { v with selIdx := s } :=
    fun w hw => ⟨v.selIdx, hw⟩
  unfold TreeView.updateKey at h
  split at h
  · simp only [Option.some.injEq] at h
    subst h
    left
    split
    · exact ⟨_, rfl⟩
    · exact hself _ rfl
  · split at h
    · simp only [Option.some.injEq] at h
      subst h
      left
      split
      · exact ⟨_, rfl⟩
      · exact hself _ rfl
    · split at h
      · split at h
        · simp only at h
          split at h
          · exact Or.inr ⟨_, h⟩
          · split at h
            · simp only [Option.some.injEq] at h
              subst h
              left
              split
              · exact ⟨_, rfl⟩
              · exact hself _ rfl
            · simp only [Option.some.injEq] at h
              exact Or.inl (hself _ h.symm)
        · simp only [Option.some.injEq] at h
          exact Or.inl (hself _ h.symm)
      · split at h
        · split at h
          · simp only at h
            split at h
            · exact Or.inr ⟨_, h⟩
            · simp only [Option.some.injEq] at h
              exact Or.inl (hself _ h.symm)
          · simp only [Option.some.injEq] at h
            exact Or.inl (hself _ h.symm)
        · split at h
          · exact Or.inr ⟨_, h⟩
          · split at h
            · exact Or.inr ⟨_, h⟩
            · simp only [Option.some.injEq] at h
              exact Or.inl (hself _ h.symm)

theorem viewed_update (v v' : TreeView) (msg : Msg) (h : v.Update msg = some v')
    (hv : OrderCurrent v ∧ Synced v) : OrderCurrent v' ∧ Synced v' := by
  unfold TreeView.Update at h
  cases msg with
  | key k =>
    simp only at h
    cases hk : TreeView.updateKey v k with
    | none => rw [hk] at h; cases h
    | some w =>
      rw [hk] at h
      simp only [Option.map_some', Option.some.injEq] at h
      subst h
      rcases updateKey_cases v w k hk with ⟨s, rfl⟩ | ⟨e, he⟩
      · exact viewed_sync hv.1 ⟨rfl, fun _ => rfl, rfl, rfl, rfl, rfl⟩ rfl rfl
      · have := viewed_rebuildOrder _ w he
        exact viewed_sync this.1 ⟨rfl, fun _ => rfl, rfl, rfl, rfl, rfl⟩ rfl rfl
  | windowSize w hgt =>
    simp only [Option.some.injEq] at h
    subst h
    exact viewed_transfer hv ⟨rfl, fun _ => rfl, rfl, rfl, rfl, rfl⟩ rfl rfl rfl rfl
  | other =>
    simp only [Option.some.injEq] at h
    subst h
    exact hv

theorem NextMatch_cases (v v' : TreeView) (moved : Bool) (h : v.NextMatch = some (v', moved)) :
    v' = v ∨ ∃ c s, v' = TreeView.syncSelectedUID { v with currentMatch := c, selIdx := s } := by
  unfold TreeView.NextMatch at h
  by_cases h0 : v.matchIndices.length = 0
  · rw [if_pos h0] at h
    simp only [Option.some.injEq, Prod.mk.injEq] at h
    exact Or.inl h.1.symm
  · rw [if_neg h0] at h
    simp only at h
    split at h
    · simp only [Option.some.injEq, Prod.mk.injEq] at h
      exact Or.inr ⟨_, _, h.1.symm⟩
    · cases h

theorem PrevMatch_cases (v v' : TreeView) (moved : Bool) (h : v.PrevMatch = some (v', moved)) :
    v' = v ∨ ∃ c s, v' = TreeView.syncSelectedUID { v with currentMatch := c, selIdx := s } := by
  unfold TreeView.PrevMatch at h
  by_cases h0 : v.matchIndices.length = 0
  · rw [if_pos h0] at h
    simp only [Option.some.injEq, Prod.mk.injEq] at h
    exact Or.inl h.1.symm
  · rw [if_neg h0] at h
    simp only at h
    by_cases hc : 0 ≤ (if v.currentMatch - 1 < 0 then (v.matchIndices.length : Int) - 1
        else v.currentMatch - 1) ∧
        (if v.currentMatch - 1 < 0 then (v.matchIndices.length : Int) - 1
        else v.currentMatch - 1) < v.matchIndices.length
    · rw [if_pos hc] at h
      simp only [Option.some.injEq, Prod.mk.injEq] at h
      exact Or.inr ⟨_, _, h.1.symm⟩
    · rw [if_neg hc] at h
      cases h

theorem JumpToFirstMatch_cases (v : TreeView) :
    v.JumpToFirstMatch.1 = v ∨
      ∃ c s, v.JumpToFirstMatch.1 =
        TreeView.syncSelectedUID { v with currentMatch := c, selIdx := s } := by
  unfold TreeView.JumpToFirstMatch
  split
  · exact Or.inl rfl
  · exact Or.inr ⟨_, _, rfl⟩

theorem rebuildMatches_shape (v : TreeView) :
    ∃ m c, TreeView.rebuildMatches v = { v with matchIndices := m, currentMatch := c } := by
  unfold TreeView.rebuildMatches
  split
  · exact ⟨_, _, rfl⟩
  · exact ⟨_, _, rfl⟩

theorem Reached.viewed {names : List String} {v : TreeView} (h : Reached names v) :
    OrderCurrent v ∧ Synced v := by
  induction h with
  | new width height =>
    refine ⟨rfl, ?_⟩
    intro hc
    simp [TreeView.NewTreeView] at hc
  | upsert appName tree _ hu _ => exact viewed_rebuildOrder _ _ hu
  | update msg _ hu ih => exact viewed_update _ _ msg hu ih
  | setSelectedIndex idx _ ih =>
    unfold TreeView.SetSelectedIndex
    exact viewed_sync ih.1 ⟨rfl, fun _ => rfl, rfl, rfl, rfl, rfl⟩ rfl rfl
  | toggleSelection _ ih =>
    obtain ⟨s, hs⟩ := ToggleSelection_shape _
    rw [hs]
    exact viewed_transfer ih ⟨rfl, fun _ => rfl, rfl, rfl, rfl, rfl⟩ rfl rfl rfl rfl
  | clearSelection _ ih =>
    exact viewed_transfer ih ⟨rfl, fun _ => rfl, rfl, rfl, rfl, rfl⟩ rfl rfl rfl rfl
  | setFilter q _ ih =>
    unfold TreeView.SetFilter
    obtain ⟨m, c, hs⟩ := rebuildMatches_shape _
    rw [hs]
    exact viewed_transfer ih ⟨rfl, fun _ => rfl, rfl, rfl, rfl, rfl⟩ rfl rfl rfl rfl
  | clearFilter _ ih =>
    exact viewed_transfer ih ⟨rfl, fun _ => rfl, rfl, rfl, rfl, rfl⟩ rfl rfl rfl rfl
  | nextMatch _ hu ih =>
    rcases NextMatch_cases _ _ _ hu with rfl | ⟨c, s, rfl⟩
    · exact ih
    · exact viewed_sync ih.1 ⟨rfl, fun _ => rfl, rfl, rfl, rfl, rfl⟩ rfl rfl
  | prevMatch _ hu ih =>
    rcases PrevMatch_cases _ _ _ hu with rfl | ⟨c, s, rfl⟩
    · exact ih
    · exact viewed_sync ih.1 ⟨rfl, fun _ => rfl, rfl, rfl, rfl, rfl⟩ rfl rfl
  | jumpToFirstMatch _ ih =>
    rcases JumpToFirstMatch_cases _ with hj | ⟨c, s, hj⟩
    · rw [hj]
      exact ih
    · rw [hj]
      exact viewed_sync ih.1 ⟨rfl, fun _ => rfl, rfl, rfl, rfl, rfl⟩ rfl rfl
  | setAppMeta name health sync _ ih =>
    exact viewed_transfer ih ⟨rfl, fun _ => rfl, rfl, rfl, rfl, rfl⟩ rfl rfl rfl rfl
  | setSize width height _ ih =>
    exact viewed_transfer ih ⟨rfl, fun _ => rfl, rfl, rfl, rfl, rfl⟩ rfl rfl rfl rfl
  | setDesaturateMode enabled _ ih =>
    exact viewed_transfer ih ⟨rfl, fun _ => rfl, rfl, rfl, rfl, rfl⟩ rfl rfl rfl rfl
  | setFlashAll enabled _ ih =>
    exact viewed_transfer ih ⟨rfl, fun _ => rfl, rfl, rfl, rfl, rfl⟩ rfl rfl rfl rfl
  | setData tree _ hu _ => exact viewed_rebuildOrder _ _ hu
  | @setResourceStatuses names v appName resources _ ih =>
    have hs := SetResourceStatuses_sameShape v appName resources
    obtain ⟨hp, hh⟩ := SetResourceStatuses_shape v appName resources
    refine viewed_transfer ih hs ?_ ?_ ?_ ?_ <;> rw [hh]

end Argonaut

namespace Argonaut

/-! ## C17: line counts -/

theorem walkEach_countP (f : Nat → Bool) (step : Nat → Option (List Nat)) (cs : List Nat)
    (hstep : ∀ c ∈ cs, ∀ l, step c = some l → l.countP f = 1) :
    ∀ l, TreeView.walkEach step cs = some l → l.countP f = cs.length := by
  induction cs with
  | nil =>
    intro l h
    simp only [TreeView.walkEach, Option.some.injEq] at h
    subst h
    rfl
  | cons c cs ih =>
    intro l h
    unfold TreeView.walkEach at h
    cases hc : step c with
    | none => rw [hc] at h; cases h
    | some a =>
      rw [hc] at h
      simp only at h
      cases hcs : TreeView.walkEach step cs with
      | none => rw [hcs] at h; cases h
      | some b =>
        rw [hcs] at h
        simp only [Option.some.injEq] at h
        subst h
        rw [List.countP_append, hstep c (List.mem_cons_self _ _) a hc,
          ih (fun c' hc' => hstep c' (List.mem_cons_of_mem _ hc')) b hcs, List.length_cons]
        omega

/-- The walk from a root meets one node without a parent: the root. -/
theorem walk_countP_parentless (v : TreeView) (hr : Rooted v) (fuel n : Nat) (l : List Nat)
    (hn : (v.node n).parent = none) (h : TreeView.walk v fuel n = some l) :
    l.countP (fun p => decide ((v.node p).parent = none)) = 1 := by
  obtain ⟨t, rfl, ht⟩ := walk_tail_children v fuel n l h
  have h0 : t.countP (fun p => decide ((v.node p).parent = none)) = 0 := by
    rw [List.countP_eq_zero]
    intro q hq
    obtain ⟨p, hp⟩ := ht q hq
    simpa using hr.childParent p q hp
  rw [List.countP_cons, h0]
  simp [hn]

theorem order_countP_parentless (v : TreeView) (hr : Rooted v) (ho : OrderCurrent v) :
    v.order.countP (fun p => decide ((v.node p).parent = none)) = v.roots.length := by
  apply walkEach_countP _ _ v.roots _ v.order ho
  intro r hrm l hl
  exact walk_countP_parentless v hr _ r l (hr.rootParent r hrm) hl

/-- C17. Line counts, in every view reached from `NewTreeView`: the visible
nodes without a parent are exactly the synthetic application roots, which are
all visible, one per application of `rootByApp`; with `k` the number of
applications, `VisibleLineCount()` is 0 (and the view empty) when `k = 0`, it is
`VisibleCount() + (k - 1)` when `k ≥ 1`, and `VisibleCount() + 1` with two
applications.  The applications of `rootByApp` are the upserted ones when the
scoped keys of distinct applications do not coincide. -/
theorem VisibleLineCount_spec (names : List String) (v : TreeView)
    (hreach : Reached names v) :
    (∀ p ∈ v.order, (v.node p).parent = none ↔ p ∈ v.roots) ∧
    (∀ r ∈ v.roots, r ∈ v.order) ∧
    v.roots.length = v.rootByApp.length ∧
    (v.rootByApp.length = 0 → v.VisibleCount = 0 ∧ v.VisibleLineCount = 0) ∧
    (1 ≤ v.rootByApp.length →
      v.VisibleLineCount = v.VisibleCount + ((v.rootByApp.length : Int) - 1)) ∧
    (v.rootByApp.length = 2 → v.VisibleLineCount = v.VisibleCount + 1) ∧
    (NoClash names → ∀ a, a ∈ names ↔ mapGet v.rootByApp a ≠ none) := by
  have hr := hreach.rooted
  have ho := hreach.viewed.1
  have hlen := roots_length_eq v hreach.ordered hr
  have hcount := order_countP_parentless v hr ho
  have hline : ∀ k : Nat, 1 ≤ k → v.rootByApp.length = k →
      v.VisibleLineCount = v.VisibleCount + ((k : Int) - 1) := by
    intro k hk hkk
    unfold TreeView.VisibleLineCount TreeView.VisibleCount
    simp only
    rw [hcount, hlen, hkk, if_pos (by omega)]
  refine ⟨?_, walkRoots_mem_root v v.order ho, hlen, ?_, ?_, ?_, ?_⟩
  · intro p hp
    constructor
    · intro hpar
      rcases walkRoots_mem v v.order ho p hp with h | ⟨q, hq⟩
      · exact h
      · exact absurd hpar (hr.childParent q p hq)
    · exact hr.rootParent p
  · intro h0
    have hroots : v.roots = [] := List.length_eq_zero.1 (hlen.trans h0)
    have hord : v.order = [] := by
      have := ho
      unfold OrderCurrent TreeView.walkRoots at this
      rw [hroots] at this
      simp only [TreeView.walkEach, Option.some.injEq] at this
      exact this.symm
    unfold TreeView.VisibleLineCount TreeView.VisibleCount
    rw [hord]
    exact ⟨rfl, rfl⟩
  · intro hk
    exact hline _ hk rfl
  · intro hk
    rw [hline 2 (by omega) hk]
    norm_num
  · intro hclash
    obtain ⟨owner, hown⟩ := hreach.owned hclash
    exact hown.upserted

/-- Witness for C17: the view holding the applications `y` and `x` shows five
nodes on six lines. -/
theorem VisibleLineCount_spec_witness :
    Examples.twoApps.rootByApp.length = 2 ∧
    (Examples.twoApps.VisibleCount, Examples.twoApps.VisibleLineCount) = (5, 6) ∧
    Examples.twoApps.VisibleLineCount = Examples.twoApps.VisibleCount + 1 :=
  have h1 : Reached ["y"] Examples.oneAppY :=
    Reached.upsert "y" Examples.snapshotY (Reached.new 80 24) (by decide)
  have h2 : Reached ["x", "y"] Examples.twoApps :=
    Reached.upsert "x" Examples.snapshotX h1 (by decide)
  ⟨by decide, by decide,
    (VisibleLineCount_spec ["x", "y"] Examples.twoApps h2).2.2.2.2.2.1 (by decide)⟩

end Argonaut

namespace Argonaut

/-! ## The structure of the visible order -/

/-- A loop of walks returns the concatenation of what its steps return. -/
theorem walkEach_eq_some (step : Nat → Option (List Nat)) (cs : List Nat) :
    ∀ l, TreeView.walkEach step cs = some l ↔
      ∃ ls, List.Forall₂ (fun c lc => step c = some lc) cs ls ∧ l = ls.flatten := by
  induction cs with
  | nil =>
    intro l
    simp only [TreeView.walkEach, Option.some.injEq]
    constructor
    · intro h
      exact ⟨[], List.Forall₂.nil, h.symm⟩
    · rintro ⟨ls, hf, rfl⟩
      cases hf
      rfl
  | cons c cs ih =>
    intro l
    unfold TreeView.walkEach
    constructor
    · intro h
      cases hc : step c with
      | none => rw [hc] at h; cases h
      | some a =>
        rw [hc] at h
        simp only at h
        cases hcs : TreeView.walkEach step cs with
        | none => rw [hcs] at h; cases h
        | some b =>
          rw [hcs] at h
          simp only [Option.some.injEq] at h
          obtain ⟨ls, hf, rfl⟩ := (ih b).1 hcs
          exact ⟨a :: ls, List.Forall₂.cons hc hf, by rw [← h, List.flatten_cons]⟩
    · rintro ⟨ls, hf, rfl⟩
      cases hf with
      | cons hc hf =>
        rename_i a ls
        rw [hc]
        simp only
        rw [(ih ls.flatten).2 ⟨ls, hf, rfl⟩]
        simp only [List.flatten_cons]

theorem forall₂_mem_right {α β : Type} {R : α → β → Prop} {l1 : List α} {l2 : List β}
    (h : List.Forall₂ R l1 l2) : ∀ b ∈ l2, ∃ a ∈ l1, R a b := by
  induction h with
  | nil =>
    intro b hb
    cases hb
  | cons hr _ ih =>
    intro b hb
    rcases List.mem_cons.1 hb with rfl | hb
    · exact ⟨_, List.mem_cons_self _ _, hr⟩
    · obtain ⟨a, ha, hab⟩ := ih b hb
      exact ⟨a, List.mem_cons_of_mem _ ha, hab⟩

theorem forall₂_mem_left {α β : Type} {R : α → β → Prop} {l1 : List α} {l2 : List β}
    (h : List.Forall₂ R l1 l2) : ∀ a ∈ l1, ∃ b ∈ l2, R a b := by
  induction h with
  | nil =>
    intro a ha
    cases ha
  | cons hr _ ih =>
    intro a ha
    rcases List.mem_cons.1 ha with rfl | ha
    · exact ⟨_, List.mem_cons_self _ _, hr⟩
    · obtain ⟨b, hb, hab⟩ := ih a ha
      exact ⟨b, List.mem_cons_of_mem _ hb, hab⟩

theorem mem_walkEach (step : Nat → Option (List Nat)) (cs l : List Nat)
    (h : TreeView.walkEach step cs = some l) (q : Nat) :
    q ∈ l ↔ ∃ c ∈ cs, ∃ lc, step c = some lc ∧ q ∈ lc := by
  obtain ⟨ls, hf, rfl⟩ := (walkEach_eq_some step cs l).1 h
  rw [List.mem_flatten]
  constructor
  · rintro ⟨lc, hlc, hq⟩
    obtain ⟨c, hc, hs⟩ := forall₂_mem_right hf lc hlc
    exact ⟨c, hc, lc, hs, hq⟩
  · rintro ⟨c, hc, lc, hs, hq⟩
    obtain ⟨lc', hlc', hs'⟩ := forall₂_mem_left hf c hc
    rw [hs] at hs'
    cases hs'
    exact ⟨lc, hlc', hq⟩

/-- What a walk returns: the node alone when it is collapsed, the node followed
by the walks of its children when it is expanded. -/
theorem walk_eq_some (v : TreeView) (fuel n : Nat) (l : List Nat)
    (h : TreeView.walk v (fuel + 1) n = some l) :
    (mapGetBool v.expanded (v.node n).uid = false ∧ l = [n]) ∨
    (mapGetBool v.expanded (v.node n).uid = true ∧
      ∃ t, TreeView.walkEach (TreeView.walk v fuel) (v.node n).children = some t ∧
        l = n :: t) := by
  unfold TreeView.walk at h
  split at h
  · rename_i he
    right
    refine ⟨he, ?_⟩
    cases hw : TreeView.walkEach (TreeView.walk v fuel) (v.node n).children with
    | none => rw [hw] at h; cases h
    | some t =>
      rw [hw] at h
      simp only [Option.map_some', Option.some.injEq] at h
      exact ⟨t, rfl, h.symm⟩
  · rename_i he
    left
    simp only [Option.some.injEq] at h
    exact ⟨by simpa using he, h.symm⟩

/-- The children of an expanded node the walk visits are visited. -/
theorem walk_children_mem (v : TreeView) (fuel : Nat) :
    ∀ n l, TreeView.walk v fuel n = some l → ∀ p ∈ l,
      mapGetBool v.expanded (v.node p).uid = true → ∀ c ∈ (v.node p).children, c ∈ l := by
  induction fuel with
  | zero =>
    intro n l h
    simp [TreeView.walk] at h
  | succ fuel ih =>
    intro n l h p hp he c hc
    rcases walk_eq_some v fuel n l h with ⟨hn, rfl⟩ | ⟨_, t, ht, rfl⟩
    · rw [List.mem_singleton] at hp
      rw [hp, hn] at he
      cases he
    · have hin : ∀ c' ∈ (v.node n).children, ∀ lc, TreeView.walk v fuel c' = some lc →
          ∀ q ∈ lc, q ∈ n :: t := by
        intro c' hc' lc hlc q hq
        exact List.mem_cons_of_mem _ ((mem_walkEach _ _ t ht q).2 ⟨c', hc', lc, hlc, hq⟩)
      rcases List.mem_cons.1 hp with rfl | hp
      · obtain ⟨ls, hf, _⟩ := (walkEach_eq_some _ _ t).1 ht
        obtain ⟨lc, _, hlc⟩ := forall₂_mem_left hf c hc
        obtain ⟨t', rfl⟩ := walk_head v fuel c lc hlc
        exact hin c hc _ hlc c (List.mem_cons_self _ _)
      · obtain ⟨c', hc', lc, hlc, hq⟩ := (mem_walkEach _ _ t ht p).1 hp
        exact hin c' hc' lc hlc c (ih c' lc hlc p hq he c hc)

/-- In a current visible order the children of a visible expanded node are
visible. -/
theorem order_children_mem (v : TreeView) (ho : OrderCurrent v) (p : Nat) (hp : p ∈ v.order)
    (he : mapGetBool v.expanded (v.node p).uid = true) :
    ∀ c ∈ (v.node p).children, c ∈ v.order := by
  intro c hc
  obtain ⟨r, hr, lr, hlr, hq⟩ := (mem_walkEach _ _ v.order ho p).1 hp
  exact (mem_walkEach _ _ v.order ho c).2
    ⟨r, hr, lr, hlr, walk_children_mem v _ r lr hlr p hq he c hc⟩

/-! ## C16: expand all -/

theorem foldl_expand_mono (nodes : Nat → treeNode) (l : GoMap Nat) :
    ∀ (e : GoMap Bool) (u : String), mapGetBool e u = true →
      mapGetBool (l.foldl (fun e kp =>
        if (nodes kp.2).parent ≠ none then mapSet e (nodes kp.2).uid true else e) e) u =
        true := by
  induction l with
  | nil =>
    intro e u h
    exact h
  | cons kp l ih =>
    intro e u h
    rw [List.foldl_cons]
    apply ih
    split
    · unfold mapGetBool
      rw [mapGet_mapSet]
      split
      · rfl
      · exact h
    · exact h

theorem foldl_expand_set (nodes : Nat → treeNode) (l : GoMap Nat) :
    ∀ (e : GoMap Bool), ∀ kp ∈ l, (nodes kp.2).parent ≠ none →
      mapGetBool (l.foldl (fun e kp =>
        if (nodes kp.2).parent ≠ none then mapSet e (nodes kp.2).uid true else e) e)
        (nodes kp.2).uid = true := by
  induction l with
  | nil =>
    intro e kp hkp
    cases hkp
  | cons kp0 l ih =>
    intro e kp hkp hpar
    rw [List.foldl_cons]
    rcases List.mem_cons.1 hkp with rfl | hkp
    · apply foldl_expand_mono
      rw [if_pos hpar]
      unfold mapGetBool
      rw [mapGet_mapSet_self]
      rfl
    · exact ih _ kp hkp hpar

theorem foldl_expand_frame (nodes : Nat → treeNode) (flag : Bool) (u : String)
    (l : GoMap Nat) :
    ∀ (e : GoMap Bool), (∀ kp ∈ l, (nodes kp.2).parent ≠ none → (nodes kp.2).uid ≠ u) →
      mapGet (l.foldl (fun e kp =>
        if (nodes kp.2).parent ≠ none then mapSet e (nodes kp.2).uid flag else e) e) u =
        mapGet e u := by
  induction l with
  | nil =>
    intro e _
    rfl
  | cons kp0 l ih =>
    intro e hu
    rw [List.foldl_cons, ih _ (fun kp hkp => hu kp (List.mem_cons_of_mem _ hkp))]
    split
    · rename_i hpar
      rw [mapGet_mapSet, if_neg (fun h => hu kp0 (List.mem_cons_self _ _) hpar h.symm)]
    · rfl

theorem Update_expand_all (v v' : TreeView) (k : String)
    (hk : k = "L" ∨ k = "shift+right") (h : v.Update (Msg.key k) = some v') :
    ∃ w, TreeView.rebuildOrder (v.setAllExpanded true) = some w ∧
      v' = TreeView.syncSelectedUID w := by
  have hu : v.updateKey k = TreeView.rebuildOrder (v.setAllExpanded true) := by
    rcases hk with rfl | rfl <;> rfl
  unfold TreeView.Update at h
  simp only at h
  rw [hu] at h
  cases hw : TreeView.rebuildOrder (v.setAllExpanded true) with
  | none => rw [hw] at h; cases h
  | some w =>
    rw [hw] at h
    simp only [Option.map_some', Option.some.injEq] at h
    exact ⟨w, rfl, h.symm⟩

theorem Update_expand_all_expanded (v v' : TreeView) (k : String)
    (hk : k = "L" ∨ k = "shift+right") (h : v.Update (Msg.key k) = some v') :
    v'.expanded = (v.setAllExpanded true).expanded := by
  obtain ⟨w, hw, rfl⟩ := Update_expand_all v v' k hk h
  obtain ⟨o, s, u, rfl⟩ := rebuildOrder_shape _ _ hw
  obtain ⟨u', hu'⟩ := syncSelectedUID_shape
    ({ v.setAllExpanded true with order := o, selIdx := s, SelectedUID := u } : TreeView)
  rw [hu']

/-- C16 fails as stated: in the tree of `demo` with two Pods, after `h` on the
synthetic root the root is collapsed; Shift+L leaves it collapsed, so one node
of the three in the forest is visible. -/
theorem shift_L_expands_counterexample :
    Examples.collapsedRoot.VisibleCount = 1 ∧
    (Examples.collapsedRoot.Update (Msg.key "L")).map
      (fun v => (v.VisibleCount, v.heap.length, v.order)) = some (1, 3, [2]) := by
  decide

/-- C16, amended. Expand all, in every view reached from `NewTreeView`: the key
Shift+L (`L`, like `shift+right`) returns, leaves the forest alone, sets the
expansion flag of every indexed node that has a parent, clears no flag and
changes no flag of another UID: a collapsed synthetic root stays collapsed.
The visible order then holds every root and every child of a visible expanded
node; so when every root is expanded and every child node is indexed, every
node below a root is visible. -/
theorem shift_L_expands (names : List String) (v : TreeView) (hreach : Reached names v) :
    (∃ v', v.Update (Msg.key "L") = some v') ∧
    ∀ v', v.Update (Msg.key "L") = some v' →
      v.Update (Msg.key "shift+right") = some v' ∧
      SameForest v v' ∧
      (∀ kp ∈ v.nodesByUID, (v.node kp.2).parent ≠ none →
        mapGetBool v'.expanded (v.node kp.2).uid = true) ∧
      (∀ u, mapGetBool v.expanded u = true → mapGetBool v'.expanded u = true) ∧
      (∀ u, (∀ kp ∈ v.nodesByUID, (v.node kp.2).parent ≠ none → (v.node kp.2).uid ≠ u) →
        mapGet v'.expanded u = mapGet v.expanded u) ∧
      (∀ r ∈ v.roots, r ∈ v'.order) ∧
      (∀ p ∈ v'.order, mapGetBool v'.expanded (v.node p).uid = true →
        ∀ c ∈ (v.node p).children, c ∈ v'.order) ∧
      ((∀ r ∈ v.roots, mapGetBool v.expanded (v.node r).uid = true) → ChildrenIndexed v →
        ∀ r ∈ v.roots, ∀ q, Below v r q → q ∈ v'.order) := by
  refine ⟨hreach.update_returns _, ?_⟩
  intro v' h
  have hreach' : Reached names v' := Reached.update _ hreach h
  have ho := hreach'.viewed.1
  have hsf := Update_sameForest v v' _ h
  have hexp := Update_expand_all_expanded v v' "L" (Or.inl rfl) h
  have hnode : ∀ p, v'.node p = v.node p := by
    intro p
    unfold TreeView.node
    rw [hsf.heap]
  have hset : ∀ kp ∈ v.nodesByUID, (v.node kp.2).parent ≠ none →
      mapGetBool v'.expanded (v.node kp.2).uid = true := by
    intro kp hkp hpar
    rw [hexp]
    exact foldl_expand_set v.node v.nodesByUID v.expanded kp hkp hpar
  have hmono : ∀ u, mapGetBool v.expanded u = true → mapGetBool v'.expanded u = true := by
    intro u hu
    rw [hexp]
    exact foldl_expand_mono v.node v.nodesByUID v.expanded u hu
  have hroots : ∀ r ∈ v.roots, r ∈ v'.order := by
    intro r hr
    exact walkRoots_mem_root v' v'.order ho r (by rw [hsf.roots]; exact hr)
  have hclosed : ∀ p ∈ v'.order, mapGetBool v'.expanded (v.node p).uid = true →
      ∀ c ∈ (v.node p).children, c ∈ v'.order := by
    intro p hp he c hc
    rw [← hnode p] at he hc
    exact order_children_mem v' ho p hp he c hc
  refine ⟨h, hsf, hset, hmono, ?_, hroots, hclosed, ?_⟩
  · intro u hu
    rw [hexp]
    exact foldl_expand_frame v.node true u v.nodesByUID v.expanded hu
  · intro hre hidx r hr q hq
    have key : q ∈ v'.order ∧ mapGetBool v'.expanded (v.node q).uid = true := by
      induction hq with
      | self => exact ⟨hroots r hr, hmono _ (hre r hr)⟩
      | @child q c _ hc ih =>
        refine ⟨hclosed q ih.1 ih.2 c hc, ?_⟩
        have hq : q < v.heap.length := by
          by_contra hcon
          unfold TreeView.node at hc
          rw [List.getD_eq_default _ _ (not_lt.mp hcon)] at hc
          cases hc
        obtain ⟨kp, hkp, rfl⟩ := hidx q hq c hc
        exact hset kp hkp (hreach.rooted.childParent q _ hc)
    exact key.1

/-- Witness for C16 (amended): in the view of `y` and `x` with the Deployment
of `x` collapsed, four nodes are visible; Shift+L returns, and the ReplicaSet
below the root of `x` is visible again, with all five nodes. -/
theorem shift_L_expands_witness :
    Examples.collapsedDeployment.VisibleCount = 4 ∧
    (∃ v', Examples.collapsedDeployment.Update (Msg.key "L") = some v') ∧
    ∃ v', Examples.collapsedDeployment.Update (Msg.key "L") = some v' ∧
      v'.VisibleCount = 5 ∧ 3 ∈ v'.order :=
  have h1 : Reached ["y"] Examples.oneAppY :=
    Reached.upsert "y" Examples.snapshotY (Reached.new 80 24) (by decide)
  have h2 : Reached ["x", "y"] Examples.twoApps :=
    Reached.upsert "x" Examples.snapshotX h1 (by decide)
  have h3 : Reached ["x", "y"] Examples.collapsedDeployment :=
    Reached.update (Msg.key "h") (Reached.setSelectedIndex 1 h2) (by decide)
  ⟨by decide, (shift_L_expands ["x", "y"] Examples.collapsedDeployment h3).1,
    Examples.get (Examples.collapsedDeployment.Update (Msg.key "L")), by decide, by decide,
    ((shift_L_expands ["x", "y"] Examples.collapsedDeployment h3).2
      (Examples.get (Examples.collapsedDeployment.Update (Msg.key "L")))
      (by decide)).2.2.2.2.2.2.2 (by decide) (by decide) 4 (by decide) 3
      (@Below.child _ 4 2 3 (@Below.child _ 4 4 2 Below.self (by decide)) (by decide))⟩

end Argonaut

namespace Argonaut

/-! ## Walks under changed expansion flags -/

theorem walkEach_congr (step step' : Nat → Option (List Nat)) (S : Nat → Prop)
    (hstep : ∀ c l, step c = some l → (∀ q ∈ l, S q) → step' c = some l) :
    ∀ cs l, TreeView.walkEach step cs = some l → (∀ q ∈ l, S q) →
      TreeView.walkEach step' cs = some l := by
  intro cs
  induction cs with
  | nil =>
    intro l h _
    simp only [TreeView.walkEach] at h ⊢
    exact h
  | cons c cs ih =>
    intro l h hS
    unfold TreeView.walkEach at h ⊢
    cases hc : step c with
    | none => rw [hc] at h; cases h
    | some a =>
      rw [hc] at h
      simp only at h
      cases hcs : TreeView.walkEach step cs with
      | none => rw [hcs] at h; cases h
      | some b =>
        rw [hcs] at h
        simp only [Option.some.injEq] at h
        subst h
        rw [hstep c a hc (fun q hq => hS q (List.mem_append_left _ hq)),
          ih b hcs (fun q hq => hS q (List.mem_append_right _ hq))]

/-- More fuel does not change what a walk returns. -/
theorem walk_succ (v : TreeView) (fuel : Nat) :
    ∀ n l, TreeView.walk v fuel n = some l → TreeView.walk v (fuel + 1) n = some l := by
  induction fuel with
  | zero =>
    intro n l h
    simp [TreeView.walk] at h
  | succ fuel ih =>
    intro n l h
    rcases walk_eq_some v fuel n l h with ⟨hn, rfl⟩ | ⟨hn, t, ht, rfl⟩
    · unfold TreeView.walk
      rw [hn]
      rfl
    · have := walkEach_congr (TreeView.walk v fuel) (TreeView.walk v (fuel + 1))
        (fun _ => True) (fun c l hl _ => ih c l hl) _ t ht (fun _ _ => trivial)
      unfold TreeView.walk
      rw [hn, if_pos rfl, this]
      rfl

theorem walk_mono (v : TreeView) (f f' : Nat) (hf : f ≤ f') (n : Nat) (l : List Nat)
    (h : TreeView.walk v f n = some l) : TreeView.walk v f' n = some l := by
  induction f' with
  | zero =>
    have : f = 0 := by omega
    subst this
    exact h
  | succ f' ih =>
    by_cases hff : f = f' + 1
    · subst hff
      exact h
    · exact walk_succ v f' n l (ih (by omega))

/-- The view with the node of UID `u` collapsed. -/
theorem walk_agree (v : TreeView) (u : String) (fuel : Nat) :
    ∀ n l, TreeView.walk v fuel n = some l → (∀ q ∈ l, (v.node q).uid ≠ u) →
      TreeView.walk { v with expanded := mapSet v.expanded u false } fuel n = some l := by
  induction fuel with
  | zero =>
    intro n l h
    simp [TreeView.walk] at h
  | succ fuel ih =>
    intro n l h hu
    have hflag : ∀ q, (v.node q).uid ≠ u →
        mapGetBool (mapSet v.expanded u false) (v.node q).uid =
          mapGetBool v.expanded (v.node q).uid := by
      intro q hq
      unfold mapGetBool
      rw [mapGet_mapSet, if_neg hq]
    rcases walk_eq_some v fuel n l h with ⟨hn, rfl⟩ | ⟨hn, t, ht, rfl⟩
    · unfold TreeView.walk
      show (if mapGetBool (mapSet v.expanded u false) (v.node n).uid = true then _ else _) = _
      rw [hflag n (hu n (List.mem_singleton_self _)), hn]
      rfl
    · have := walkEach_congr (TreeView.walk v fuel)
        (TreeView.walk { v with expanded := mapSet v.expanded u false } fuel)
        (fun q => (v.node q).uid ≠ u) (fun c l hl hS => ih c l hl hS) _ t ht
        (fun q hq => hu q (List.mem_cons_of_mem _ hq))
      unfold TreeView.walk
      show (if mapGetBool (mapSet v.expanded u false) (v.node n).uid = true then
        Option.map (fun l => n :: l) (TreeView.walkEach
          (TreeView.walk { v with expanded := mapSet v.expanded u false } fuel)
          (v.node n).children) else _) = _
      rw [hflag n (hu n (List.mem_cons_self _ _)), hn, if_pos rfl, this]
      rfl

theorem countP_eq_zero_of_append_left {f : Nat → Bool} {a b : List Nat}
    (h : (a ++ b).countP f = 0) : a.countP f = 0 ∧ b.countP f = 0 := by
  rw [List.countP_append] at h
  omega

/-- Collapsing the one step that meets the marked node collapses the loop. -/
theorem walkEach_collapse (step step' : Nat → Option (List Nat)) (f : Nat → Bool)
    (D : Nat → List Nat → Prop)
    (hagree : ∀ c l, step c = some l → l.countP f = 0 → step' c = some l)
    (hcoll : ∀ c l, step c = some l → l.countP f = 1 →
      ∃ pre x desc post, l = pre ++ x :: desc ++ post ∧ f x = true ∧ D x desc ∧
        step' c = some (pre ++ x :: post)) :
    ∀ cs l, TreeView.walkEach step cs = some l → l.countP f = 1 →
      ∃ pre x desc post, l = pre ++ x :: desc ++ post ∧ f x = true ∧ D x desc ∧
        TreeView.walkEach step' cs = some (pre ++ x :: post) := by
  have hagreeEach : ∀ cs l, TreeView.walkEach step cs = some l → l.countP f = 0 →
      TreeView.walkEach step' cs = some l := by
    intro cs l h h0
    apply walkEach_congr step step' (fun q => f q = false) _ cs l h
    · intro q hq
      have := (List.countP_eq_zero.1 h0) q hq
      simpa using this
    · intro c lc hlc hS
      apply hagree c lc hlc
      rw [List.countP_eq_zero]
      intro q hq
      simp [hS q hq]
  intro cs
  induction cs with
  | nil =>
    intro l h h1
    simp only [TreeView.walkEach, Option.some.injEq] at h
    subst h
    simp at h1
  | cons c cs ih =>
    intro l h h1
    unfold TreeView.walkEach at h
    cases hc : step c with
    | none => rw [hc] at h; cases h
    | some a =>
      rw [hc] at h
      simp only at h
      cases hcs : TreeView.walkEach step cs with
      | none => rw [hcs] at h; cases h
      | some b =>
        rw [hcs] at h
        simp only [Option.some.injEq] at h
        subst h
        rw [List.countP_append] at h1
        by_cases ha : a.countP f = 0
        · have hb : b.countP f = 1 := by omega
          obtain ⟨pre, x, desc, post, hl, hx, hD, hw⟩ := ih b hcs hb
          refine ⟨a ++ pre, x, desc, post, ?_, hx, hD, ?_⟩
          · rw [hl]
            simp only [List.append_assoc]
          · unfold TreeView.walkEach
            rw [hagree c a hc ha, hw]
            simp only [List.append_assoc]
        · have ha1 : a.countP f = 1 := by omega
          have hb : b.countP f = 0 := by omega
          obtain ⟨pre, x, desc, post, hl, hx, hD, hw⟩ := hcoll c a hc ha1
          refine ⟨pre, x, desc, post ++ b, ?_, hx, hD, ?_⟩
          · rw [hl]
            simp only [List.append_assoc, List.cons_append]
          · unfold TreeView.walkEach
            rw [hw, hagreeEach cs b hcs hb]
            simp only [List.append_assoc, List.cons_append]

theorem countP_uid_eq_zero (v : TreeView) (u : String) (l : List Nat)
    (h : l.countP (fun p => decide ((v.node p).uid = u)) = 0) :
    ∀ q ∈ l, (v.node q).uid ≠ u := by
  intro q hq
  have := (List.countP_eq_zero.1 h) q hq
  simpa using this

/-- The walk from `n`, when it meets the UID `u` once, loses under the flags
with `u` collapsed exactly the nodes visited below the node of UID `u`. -/
theorem walk_collapse (v : TreeView) (u : String) (fuel : Nat) :
    ∀ n l, TreeView.walk v fuel n = some l →
      l.countP (fun p => decide ((v.node p).uid = u)) = 1 →
      ∃ pre x desc post, l = pre ++ x :: desc ++ post ∧
        decide ((v.node x).uid = u) = true ∧
        (∃ f, f ≤ fuel ∧ TreeView.walk v f x = some (x :: desc)) ∧
        TreeView.walk { v with expanded := mapSet v.expanded u false } fuel n =
          some (pre ++ x :: post) := by
  induction fuel with
  | zero =>
    intro n l h
    simp [TreeView.walk] at h
  | succ fuel ih =>
    intro n l h h1
    by_cases hn : (v.node n).uid = u
    · obtain ⟨t, rfl⟩ := walk_head v _ n l h
      refine ⟨[], n, t, [], by simp, by simpa using hn, ⟨fuel + 1, le_refl _, h⟩, ?_⟩
      unfold TreeView.walk
      show (if mapGetBool (mapSet v.expanded u false) (v.node n).uid = true then _ else _) = _
      have : mapGetBool (mapSet v.expanded u false) (v.node n).uid = false := by
        unfold mapGetBool
        rw [hn, mapGet_mapSet_self]
        rfl
      rw [this]
      rfl
    · have hflag : mapGetBool (mapSet v.expanded u false) (v.node n).uid =
          mapGetBool v.expanded (v.node n).uid := by
        unfold mapGetBool
        rw [mapGet_mapSet, if_neg hn]
      rcases walk_eq_some v fuel n l h with ⟨_, rfl⟩ | ⟨he, t, ht, rfl⟩
      · simp [hn] at h1
      · have ht1 : t.countP (fun p => decide ((v.node p).uid = u)) = 1 := by
          rw [List.countP_cons] at h1
          simpa [hn] using h1
        obtain ⟨pre, x, desc, post, hl, hx, hD, hw⟩ :=
          walkEach_collapse (TreeView.walk v fuel)
            (TreeView.walk { v with expanded := mapSet v.expanded u false } fuel)
            (fun p => decide ((v.node p).uid = u))
            (fun x desc => ∃ f, f ≤ fuel ∧ TreeView.walk v f x = some (x :: desc))
            (fun c lc hlc h0 => walk_agree v u fuel c lc hlc (countP_uid_eq_zero v u lc h0))
            (fun c lc hlc h1 => ih c lc hlc h1) _ t ht ht1
        obtain ⟨f, hf, hfw⟩ := hD
        refine ⟨n :: pre, x, desc, post, by rw [hl]; rfl, hx, ⟨f, by omega, hfw⟩, ?_⟩
        unfold TreeView.walk
        show (if mapGetBool (mapSet v.expanded u false) (v.node n).uid = true then
          Option.map (fun l => n :: l) (TreeView.walkEach
            (TreeView.walk { v with expanded := mapSet v.expanded u false } fuel)
            (v.node n).children) else _) = _
        rw [hflag, he, if_pos rfl, hw]
        rfl

/-- The visible order, when it meets the UID `u` once, loses under the flags
with `u` collapsed exactly the nodes visited below the node of UID `u`. -/
theorem walkRoots_collapse (v : TreeView) (u : String) (order : List Nat)
    (h : TreeView.walkRoots v = some order)
    (h1 : order.countP (fun p => decide ((v.node p).uid = u)) = 1) :
    ∃ pre x desc post, order = pre ++ x :: desc ++ post ∧ (v.node x).uid = u ∧
      TreeView.walk v (v.heap.length + 1) x = some (x :: desc) ∧
      TreeView.walkRoots { v with expanded := mapSet v.expanded u false } =
        some (pre ++ x :: post) := by
  obtain ⟨pre, x, desc, post, hl, hx, hD, hw⟩ :=
    walkEach_collapse (TreeView.walk v (v.heap.length + 1))
      (TreeView.walk { v with expanded := mapSet v.expanded u false } (v.heap.length + 1))
      (fun p => decide ((v.node p).uid = u))
      (fun x desc => ∃ f, f ≤ v.heap.length + 1 ∧ TreeView.walk v f x = some (x :: desc))
      (fun c lc hlc h0 => walk_agree v u _ c lc hlc (countP_uid_eq_zero v u lc h0))
      (fun c lc hlc h1 => walk_collapse v u _ c lc hlc h1) _ order h h1
  obtain ⟨f, hf, hfw⟩ := hD
  exact ⟨pre, x, desc, post, hl, by simpa using hx, walk_mono v f _ hf x _ hfw, hw⟩

end Argonaut

namespace Argonaut

/-! ## The visible order is a pre-order -/

theorem flatten_eq_append_cons (ls : List (List Nat)) :
    ∀ (pre : List Nat) (x : Nat) (post : List Nat), ls.flatten = pre ++ x :: post →
      ∃ ls1 a b ls2, ls = ls1 ++ (a ++ x :: b) :: ls2 ∧ pre = ls1.flatten ++ a ∧
        post = b ++ ls2.flatten := by
  induction ls with
  | nil =>
    intro pre x post h
    simp at h
  | cons l ls ih =>
    intro pre x post h
    rw [List.flatten_cons, List.append_eq_append_iff] at h
    rcases h with ⟨a', hpre, hrest⟩ | ⟨c', hl, hrest⟩
    · obtain ⟨ls1, a, b, ls2, hls, ha, hb⟩ := ih a' x post hrest
      refine ⟨l :: ls1, a, b, ls2, by rw [hls]; rfl, ?_, hb⟩
      rw [hpre, ha, List.flatten_cons, List.append_assoc]
    · cases c' with
      | nil =>
        simp only [List.nil_append] at hrest
        obtain ⟨ls1, a, b, ls2, hls, ha, hb⟩ := ih [] x post hrest.symm
        refine ⟨l :: ls1, a, b, ls2, by rw [hls]; rfl, ?_, hb⟩
        rw [List.flatten_cons, List.append_assoc, ← ha, hl]
        simp
      | cons y c'' =>
        simp only [List.cons_append, List.cons.injEq] at hrest
        refine ⟨[], pre, c'', ls, ?_, by simp, hrest.2⟩
        rw [hl, hrest.1]
        rfl

/-- Apart from the node it starts at, every node a walk visits is the child
of a node visited before it. -/
theorem walk_preorder (v : TreeView) (fuel : Nat) :
    ∀ n l, TreeView.walk v fuel n = some l → ∀ pre x post, l = pre ++ x :: post →
      (pre = [] ∧ x = n) ∨ ∃ p ∈ pre, x ∈ (v.node p).children := by
  induction fuel with
  | zero =>
    intro n l h
    simp [TreeView.walk] at h
  | succ fuel ih =>
    intro n l h pre x post hl
    rcases walk_eq_some v fuel n l h with ⟨_, rfl⟩ | ⟨_, t, ht, rfl⟩
    · cases pre with
      | nil =>
        simp only [List.nil_append, List.cons.injEq] at hl
        exact Or.inl ⟨rfl, hl.1.symm⟩
      | cons y pre' =>
        simp only [List.cons_append, List.cons.injEq] at hl
        have := hl.2
        simp at this
    · cases pre with
      | nil =>
        simp only [List.nil_append, List.cons.injEq] at hl
        exact Or.inl ⟨rfl, hl.1.symm⟩
      | cons y pre' =>
        simp only [List.cons_append, List.cons.injEq] at hl
        obtain ⟨hy, ht'⟩ := hl
        subst hy
        right
        obtain ⟨ls, hf, rfl⟩ := (walkEach_eq_some _ _ t).1 ht
        obtain ⟨ls1, a, b, ls2, hls, ha, _⟩ := flatten_eq_append_cons ls pre' x post ht'
        obtain ⟨c, hc, hlc⟩ := forall₂_mem_right hf (a ++ x :: b) (by rw [hls]; simp)
        rcases ih c _ hlc a x b rfl with ⟨_, hx⟩ | ⟨p, hp, hxp⟩
        · exact ⟨n, List.mem_cons_self _ _, by rw [hx]; exact hc⟩
        · refine ⟨p, List.mem_cons_of_mem _ ?_, hxp⟩
          rw [ha]
          exact List.mem_append_right _ hp

/-- Every visible node is a root or the child of a node visible before it. -/
theorem order_preorder (v : TreeView) (ho : OrderCurrent v) (pre : List Nat) (x : Nat)
    (post : List Nat) (hl : v.order = pre ++ x :: post) :
    x ∈ v.roots ∨ ∃ p ∈ pre, x ∈ (v.node p).children := by
  obtain ⟨ls, hf, hord⟩ := (walkEach_eq_some _ _ v.order).1 ho
  rw [hl] at hord
  obtain ⟨ls1, a, b, ls2, hls, ha, _⟩ := flatten_eq_append_cons ls pre x post hord.symm
  obtain ⟨r, hr, hlr⟩ := forall₂_mem_right hf (a ++ x :: b) (by rw [hls]; simp)
  rcases walk_preorder v _ r _ hlr a x b rfl with ⟨_, hx⟩ | ⟨p, hp, hxp⟩
  · exact Or.inl (by rw [hx]; exact hr)
  · refine Or.inr ⟨p, ?_, hxp⟩
    rw [ha]
    exact List.mem_append_right _ hp

/-! ## `indexOf` -/

theorem indexOfFrom_of_mem (n : Nat) (l : List Nat) :
    ∀ i : Int, n ∈ l →
      i ≤ TreeView.indexOfFrom n l i ∧ TreeView.indexOfFrom n l i < i + l.length ∧
      l.getD (TreeView.indexOfFrom n l i - i).toNat 0 = n := by
  induction l with
  | nil =>
    intro i h
    cases h
  | cons y l ih =>
    intro i h
    unfold TreeView.indexOfFrom
    by_cases hy : y = n
    · rw [if_pos hy]
      refine ⟨le_refl _, ?_, ?_⟩
      · rw [List.length_cons]
        push_cast
        omega
      · simp [hy]
    · rw [if_neg hy]
      have hm : n ∈ l := by
        rcases List.mem_cons.1 h with h | h
        · exact absurd h.symm hy
        · exact h
      obtain ⟨h1, h2, h3⟩ := ih (i + 1) hm
      refine ⟨by omega, ?_, ?_⟩
      · rw [List.length_cons]
        push_cast
        omega
      · have : (TreeView.indexOfFrom n l (i + 1) - i).toNat =
            (TreeView.indexOfFrom n l (i + 1) - (i + 1)).toNat + 1 := by omega
        rw [this, List.getD_cons_succ]
        exact h3

theorem indexOfFrom_of_not_mem (n : Nat) (l : List Nat) :
    ∀ i : Int, n ∉ l → TreeView.indexOfFrom n l i = -1 := by
  induction l with
  | nil =>
    intro i _
    rfl
  | cons y l ih =>
    intro i h
    unfold TreeView.indexOfFrom
    rw [if_neg (fun hy => h (by rw [hy]; exact List.mem_cons_self _ _))]
    exact ih (i + 1) (fun hm => h (List.mem_cons_of_mem _ hm))

theorem indexOfFrom_le (n : Nat) (pre post : List Nat) :
    ∀ i : Int, TreeView.indexOfFrom n (pre ++ n :: post) i ≤ i + pre.length := by
  induction pre with
  | nil =>
    intro i
    simp [TreeView.indexOfFrom]
  | cons y pre ih =>
    intro i
    rw [List.cons_append]
    unfold TreeView.indexOfFrom
    split
    · rw [List.length_cons]
      push_cast
      omega
    · have := ih (i + 1)
      rw [List.length_cons]
      push_cast
      omega

/-! ## C15: the key `h` -/

theorem updateKey_left (v : TreeView) (k : String) (hk : k = "h" ∨ k = "left") :
    v.updateKey k =
      if v.selIdx ≥ 0 ∧ v.selIdx < v.order.length then
        if mapGetBool v.expanded (v.node (v.orderAt v.selIdx)).uid ∧
            (v.node (v.orderAt v.selIdx)).children.length > 0 then
          TreeView.rebuildOrder { v with
            expanded := mapSet v.expanded (v.node (v.orderAt v.selIdx)).uid false }
        else
          match (v.node (v.orderAt v.selIdx)).parent with
          | some par => some (if v.indexOf par ≥ 0 then { v with selIdx := v.indexOf par } else v)
          | none => some v
      else some v := by
  rcases hk with rfl | rfl <;> rfl

theorem Update_left_collapse (v : TreeView) (k : String) (hk : k = "h" ∨ k = "left")
    (hsel : 0 ≤ v.selIdx ∧ v.selIdx < v.order.length)
    (hexp : mapGetBool v.expanded (v.node (v.orderAt v.selIdx)).uid = true ∧
      (v.node (v.orderAt v.selIdx)).children ≠ []) :
    v.Update (Msg.key k) = (TreeView.rebuildOrder { v with
      expanded := mapSet v.expanded (v.node (v.orderAt v.selIdx)).uid false }).map
        TreeView.syncSelectedUID := by
  unfold TreeView.Update
  simp only
  rw [updateKey_left v k hk, if_pos ⟨hsel.1, hsel.2⟩,
    if_pos ⟨hexp.1, List.length_pos.2 hexp.2⟩]

theorem Update_left_parent (v : TreeView) (k : String) (hk : k = "h" ∨ k = "left")
    (hsel : 0 ≤ v.selIdx ∧ v.selIdx < v.order.length)
    (hexp : ¬ (mapGetBool v.expanded (v.node (v.orderAt v.selIdx)).uid = true ∧
      (v.node (v.orderAt v.selIdx)).children ≠ [])) (par : Nat)
    (hpar : (v.node (v.orderAt v.selIdx)).parent = some par) :
    v.Update (Msg.key k) = some (TreeView.syncSelectedUID
      (if v.indexOf par ≥ 0 then { v with selIdx := v.indexOf par } else v)) := by
  unfold TreeView.Update
  simp only
  rw [updateKey_left v k hk, if_pos ⟨hsel.1, hsel.2⟩,
    if_neg (fun h => hexp ⟨h.1, List.length_pos.1 h.2⟩), hpar]
  rfl

theorem Update_left_none (v : TreeView) (k : String) (hk : k = "h" ∨ k = "left")
    (hsel : 0 ≤ v.selIdx ∧ v.selIdx < v.order.length)
    (hexp : ¬ (mapGetBool v.expanded (v.node (v.orderAt v.selIdx)).uid = true ∧
      (v.node (v.orderAt v.selIdx)).children ≠ []))
    (hpar : (v.node (v.orderAt v.selIdx)).parent = none) :
    v.Update (Msg.key k) = some (TreeView.syncSelectedUID v) := by
  unfold TreeView.Update
  simp only
  rw [updateKey_left v k hk, if_pos ⟨hsel.1, hsel.2⟩,
    if_neg (fun h => hexp ⟨h.1, List.length_pos.1 h.2⟩), hpar]
  rfl

theorem Update_left_same (v : TreeView) : v.Update (Msg.key "left") = v.Update (Msg.key "h") :=
  rfl

theorem order_split (v : TreeView) (hsel : 0 ≤ v.selIdx ∧ v.selIdx < v.order.length) :
    v.order = v.order.take v.selIdx.toNat ++ v.orderAt v.selIdx ::
      v.order.drop (v.selIdx.toNat + 1) ∧
    (v.order.take v.selIdx.toNat).length = v.selIdx.toNat := by
  have hi : v.selIdx.toNat < v.order.length := by omega
  constructor
  · unfold TreeView.orderAt
    rw [List.getD_eq_getElem _ _ hi, ← List.drop_eq_getElem_cons hi,
      List.take_append_drop]
  · rw [List.length_take]
    omega

theorem synced_self (v : TreeView) (hs : Synced v) : TreeView.syncSelectedUID v = v := by
  rw [syncSelectedUID_eq]
  split
  · rename_i h
    have := hs ⟨h.1, h.2⟩
    rw [← this]
  · rfl

end Argonaut

namespace Argonaut

/-! ## C15: the key `h`, continued -/

theorem clampSelection_in_range (w : TreeView)
    (h : 0 ≤ w.selIdx ∧ w.selIdx < w.order.length) :
    TreeView.clampSelection w = { w with SelectedUID := (w.node (w.orderAt w.selIdx)).uid } := by
  have hn : ¬ (w.selIdx ≥ w.order.length) := by omega
  unfold TreeView.clampSelection
  simp only [hn, if_false]
  rw [if_pos ⟨h.1, h.2⟩]

theorem walk_expanded_ne_nil (v : TreeView) (fuel c : Nat) (desc : List Nat)
    (hexp : mapGetBool v.expanded (v.node c).uid = true ∧ (v.node c).children ≠ [])
    (h : TreeView.walk v (fuel + 1) c = some (c :: desc)) : desc ≠ [] := by
  rcases walk_eq_some v fuel c _ h with ⟨hn, _⟩ | ⟨_, t, ht, hl⟩
  · rw [hexp.1] at hn
    cases hn
  · simp only [List.cons.injEq, true_and] at hl
    subst hl
    obtain ⟨ch, hch⟩ := List.exists_mem_of_ne_nil _ hexp.2
    obtain ⟨r, hr, lr, hlr, hq⟩ : ∃ r ∈ (v.node c).children, ∃ lr,
        TreeView.walk v fuel r = some lr ∧ r ∈ lr := by
      obtain ⟨ls, hf, _⟩ := (walkEach_eq_some _ _ desc).1 ht
      obtain ⟨lc, _, hlc⟩ := forall₂_mem_left hf ch hch
      obtain ⟨t', rfl⟩ := walk_head v _ _ _ hlc
      exact ⟨ch, hch, _, hlc, List.mem_cons_self _ _⟩
    exact List.ne_nil_of_mem ((mem_walkEach _ _ desc ht r).2 ⟨r, hr, lr, hlr, hq⟩)

theorem split_unique (f : Nat → Bool) (T S pre R : List Nat) (c x : Nat)
    (heq : T ++ c :: S = pre ++ x :: R) (hc : f c = true) (hpre : pre.countP f = 0)
    (hR : R.countP f = 0) : T = pre ∧ c = x := by
  have hnot : ∀ l : List Nat, l.countP f = 0 → c ∉ l := by
    intro l hl hm
    have := (List.countP_eq_zero.1 hl) c hm
    exact this hc
  rw [List.append_eq_append_iff] at heq
  rcases heq with ⟨a', hT, hRR⟩ | ⟨c', hP, hS⟩
  · cases a' with
    | nil =>
      simp only [List.nil_append, List.cons.injEq] at hRR
      exact ⟨by rw [hT]; simp, hRR.1⟩
    | cons y a'' =>
      simp only [List.cons_append, List.cons.injEq] at hRR
      exfalso
      apply hnot pre hpre
      rw [hT, hRR.1]
      simp
  · cases c' with
    | nil =>
      simp only [List.nil_append, List.cons.injEq] at hS
      exact ⟨by rw [hP]; simp, hS.1.symm⟩
    | cons y c'' =>
      simp only [List.cons_append, List.cons.injEq] at hS
      exfalso
      apply hnot R hR
      rw [hS.2]
      simp

theorem rebuildOrder_in_range (w : TreeView) (o : List Nat)
    (hw : TreeView.walkRoots w = some o) (hin : 0 ≤ w.selIdx ∧ w.selIdx < o.length) :
    TreeView.rebuildOrder w =
      some { w with order := o, SelectedUID := (w.node (o.getD w.selIdx.toNat 0)).uid } := by
  unfold TreeView.rebuildOrder
  rw [hw]
  simp only
  rw [clampSelection_in_range ({ w with order := o } : TreeView) hin]
  rfl

/-- The key `h` on an expanded node with children whose UID is met once in the
visible order: the node is collapsed, the nodes visited below it leave the
order, and the cursor stays on it. -/
theorem Update_left_collapse_unique (v v' : TreeView) (ho : OrderCurrent v)
    (hsel : 0 ≤ v.selIdx ∧ v.selIdx < v.order.length)
    (hexp : mapGetBool v.expanded (v.node (v.orderAt v.selIdx)).uid = true ∧
      (v.node (v.orderAt v.selIdx)).children ≠ [])
    (h1 : v.order.countP
      (fun p => decide ((v.node p).uid = (v.node (v.orderAt v.selIdx)).uid)) = 1)
    (h : v.Update (Msg.key "h") = some v') :
    ∃ pre desc post, v.order = pre ++ v.orderAt v.selIdx :: desc ++ post ∧
      (pre.length : Int) = v.selIdx ∧
      TreeView.walk v (v.heap.length + 1) (v.orderAt v.selIdx) =
        some (v.orderAt v.selIdx :: desc) ∧
      desc ≠ [] ∧
      v' = { v with
        expanded := mapSet v.expanded (v.node (v.orderAt v.selIdx)).uid false,
        order := pre ++ v.orderAt v.selIdx :: post,
        SelectedUID := (v.node (v.orderAt v.selIdx)).uid } := by
  obtain ⟨pre, x, desc, post, hord, hux, hwx, hw2⟩ :=
    walkRoots_collapse v (v.node (v.orderAt v.selIdx)).uid v.order ho h1
  obtain ⟨hsplit, hlen⟩ := order_split v hsel
  have hcount := h1
  rw [hord] at hcount
  simp only [List.countP_append, List.countP_cons, hux, decide_True, if_true] at hcount
  have hpos := split_unique
    (fun p => decide ((v.node p).uid = (v.node (v.orderAt v.selIdx)).uid))
    (List.take v.selIdx.toNat v.order) (List.drop (v.selIdx.toNat + 1) v.order) pre
    (desc ++ post) (v.orderAt v.selIdx) x
    (by rw [← hsplit, hord]; simp only [List.append_assoc, List.cons_append])
    (by simp) (by omega) (by rw [List.countP_append]; omega)
  obtain ⟨hT, hx⟩ := hpos
  subst hx
  have hprelen : (pre.length : Int) = v.selIdx := by
    rw [← hT, hlen]
    omega
  refine ⟨pre, desc, post, hord, hprelen, hwx, walk_expanded_ne_nil v _ _ desc hexp hwx, ?_⟩
  have hat : (pre ++ v.orderAt v.selIdx :: post).getD v.selIdx.toNat 0 =
      v.orderAt v.selIdx := by
    have : v.selIdx.toNat = pre.length := by omega
    rw [this, List.getD_eq_getElem?_getD, List.getElem?_append_right (le_refl _)]
    simp
  have hrb := rebuildOrder_in_range
    ({ v with expanded := mapSet v.expanded (v.node (v.orderAt v.selIdx)).uid false } : TreeView)
    (pre ++ v.orderAt v.selIdx :: post) hw2
    (by
      refine ⟨hsel.1, ?_⟩
      show v.selIdx < ((pre ++ v.orderAt v.selIdx :: post).length : Int)
      rw [List.length_append, List.length_cons]
      push_cast
      omega)
  rw [Update_left_collapse v "h" (Or.inl rfl) hsel hexp, hrb] at h
  simp only [Option.map_some', Option.some.injEq] at h
  rw [← h, synced_self _ (fun _ => rfl)]
  show ({ v with
      expanded := mapSet v.expanded (v.node (v.orderAt v.selIdx)).uid false,
      order := pre ++ v.orderAt v.selIdx :: post,
      SelectedUID := (v.node ((pre ++ v.orderAt v.selIdx :: post).getD v.selIdx.toNat 0)).uid } :
        TreeView) = _
  rw [hat]

/-- The key `h` on a node that is collapsed or childless and has a parent: the
cursor moves to the first visible index of the parent, when there is one. -/
theorem Update_left_to_parent (v v' : TreeView)
    (hsel : 0 ≤ v.selIdx ∧ v.selIdx < v.order.length)
    (hexp : ¬ (mapGetBool v.expanded (v.node (v.orderAt v.selIdx)).uid = true ∧
      (v.node (v.orderAt v.selIdx)).children ≠ [])) (par : Nat)
    (hpar : (v.node (v.orderAt v.selIdx)).parent = some par)
    (h : v.Update (Msg.key "h") = some v') :
    v'.expanded = v.expanded ∧ v'.order = v.order ∧
    (par ∈ v.order → v'.selIdx = v.indexOf par ∧ 0 ≤ v'.selIdx ∧
      v'.selIdx < v'.order.length ∧ v'.orderAt v'.selIdx = par) ∧
    (par ∉ v.order → v'.selIdx = v.selIdx) := by
  rw [Update_left_parent v "h" (Or.inl rfl) hsel hexp par hpar] at h
  simp only [Option.some.injEq] at h
  subst h
  by_cases hm : par ∈ v.order
  · obtain ⟨h1, h2, h3⟩ := indexOfFrom_of_mem par v.order 0 hm
    have hge : v.indexOf par ≥ 0 := h1
    rw [if_pos hge]
    obtain ⟨u, hu⟩ := syncSelectedUID_shape ({ v with selIdx := v.indexOf par } : TreeView)
    rw [hu]
    refine ⟨rfl, rfl, fun _ => ⟨rfl, h1, ?_, ?_⟩, fun hn => absurd hm hn⟩
    · simpa using h2
    · unfold TreeView.orderAt
      simpa using h3
  · have hneg : v.indexOf par = -1 := indexOfFrom_of_not_mem par v.order 0 hm
    rw [if_neg (by rw [hneg]; decide)]
    obtain ⟨u, hu⟩ := syncSelectedUID_shape v
    rw [hu]
    exact ⟨rfl, rfl, fun h => absurd h hm, fun _ => rfl⟩

/-- In a view without shared children the parent of a visible node is visible
before it. -/
theorem parent_before (v : TreeView) (ho : OrderCurrent v) (hr : Rooted v)
    (hpa : ParentsAgree v) (hsel : 0 ≤ v.selIdx ∧ v.selIdx < v.order.length) (par : Nat)
    (hpar : (v.node (v.orderAt v.selIdx)).parent = some par) :
    par ∈ v.order ∧ v.indexOf par < v.selIdx := by
  obtain ⟨hsplit, hlen⟩ := order_split v hsel
  rcases order_preorder v ho _ _ _ hsplit with hroot | ⟨p, hp, hc⟩
  · rw [hr.rootParent _ hroot] at hpar
    cases hpar
  · have hplt : p < v.heap.length := by
      by_contra hcon
      unfold TreeView.node at hc
      rw [List.getD_eq_default _ _ (not_lt.mp hcon)] at hc
      cases hc
    have := hpa p hplt _ hc
    rw [hpar] at this
    have hpp : par = p := Option.some.inj this
    subst hpp
    obtain ⟨a, b, hab⟩ := List.append_of_mem hp
    have hmem : par ∈ v.order := by
      rw [hsplit]
      exact List.mem_append_left _ hp
    refine ⟨hmem, ?_⟩
    have hle : v.indexOf par ≤ (0 : Int) + a.length := by
      unfold TreeView.indexOf
      have hord : v.order = a ++ par :: (b ++ v.orderAt v.selIdx ::
          List.drop (v.selIdx.toNat + 1) v.order) := by
        conv_lhs => rw [hsplit, hab]
        simp only [List.append_assoc, List.cons_append]
      rw [hord]
      exact indexOfFrom_le par a _ 0
    have hal : a.length < v.selIdx.toNat := by
      have := congrArg List.length hab
      rw [hlen, List.length_append, List.length_cons] at this
      omega
    omega

/-- C15 fails as stated: in the tree of `sharedChild` the ReplicaSet is visible
below both Deployments.  With the cursor on its second occurrence (index 5),
`h` collapses it and leaves the cursor at index 5, now on the Service; with the
ReplicaSet collapsed and the cursor on its first occurrence (index 2), `h`
moves the cursor to index 3, the Deployment its parent pointer names. -/
theorem collapse_or_parent_counterexample :
    ((Examples.sharedView.SetSelectedIndex 5).order = [5, 0, 2, 3, 1, 2, 3, 4] ∧
      (Examples.sharedView.SetSelectedIndex 5).orderAt 5 = 2 ∧
      ((Examples.sharedView.SetSelectedIndex 5).Update (Msg.key "h")).map
        (fun v => (v.order, v.selIdx, v.orderAt v.selIdx)) =
        some ([5, 0, 2, 1, 2, 4], 5, 4)) ∧
    ((Examples.sharedCollapsed.order, Examples.sharedCollapsed.selIdx) =
        ([5, 0, 2, 1, 2, 4], 2) ∧
      (Examples.sharedCollapsed.Update (Msg.key "h")).map
        (fun v => (v.order, v.selIdx, v.orderAt v.selIdx)) =
        some ([5, 0, 2, 1, 2, 4], 3, 1)) := by
  decide

/-- C15, amended. The key `h` (like `left`) with a valid cursor, in every view
reached from `NewTreeView`; the call returns and leaves the forest alone.
If the cursor node is expanded and has a child, its flag is cleared; when its
UID is met once in the visible order, the order loses exactly the nodes that
were visited below it, and nothing else changes: the cursor stays on the node
at the same index.  Otherwise, if the node has a parent, no flag and no visible
node changes, and the cursor moves to the first visible index of the parent
when it is visible and stays otherwise; in a view without shared children the
parent is visible at a strictly smaller index.  If the node has no parent,
nothing changes. -/
theorem collapse_or_parent (names : List String) (v : TreeView) (hreach : Reached names v)
    (hsel : 0 ≤ v.selIdx ∧ v.selIdx < v.order.length) :
    (∃ v', v.Update (Msg.key "h") = some v') ∧
    ∀ v', v.Update (Msg.key "h") = some v' →
      v.Update (Msg.key "left") = some v' ∧
      SameForest v v' ∧
      (mapGetBool v.expanded (v.node (v.orderAt v.selIdx)).uid = true ∧
          (v.node (v.orderAt v.selIdx)).children ≠ [] →
        v'.expanded = mapSet v.expanded (v.node (v.orderAt v.selIdx)).uid false ∧
        (v.order.countP
            (fun p => decide ((v.node p).uid = (v.node (v.orderAt v.selIdx)).uid)) = 1 →
          ∃ pre desc post, v.order = pre ++ v.orderAt v.selIdx :: desc ++ post ∧
            (pre.length : Int) = v.selIdx ∧
            TreeView.walk v (v.heap.length + 1) (v.orderAt v.selIdx) =
              some (v.orderAt v.selIdx :: desc) ∧
            desc ≠ [] ∧
            v' = { v with
              expanded := mapSet v.expanded (v.node (v.orderAt v.selIdx)).uid false,
              order := pre ++ v.orderAt v.selIdx :: post,
              SelectedUID := (v.node (v.orderAt v.selIdx)).uid } ∧
            v'.selIdx = v.selIdx ∧ v'.orderAt v'.selIdx = v.orderAt v.selIdx)) ∧
      (¬ (mapGetBool v.expanded (v.node (v.orderAt v.selIdx)).uid = true ∧
          (v.node (v.orderAt v.selIdx)).children ≠ []) →
        (∀ par, (v.node (v.orderAt v.selIdx)).parent = some par →
          v'.expanded = v.expanded ∧ v'.order = v.order ∧
          (par ∈ v.order → v'.selIdx = v.indexOf par ∧ 0 ≤ v'.selIdx ∧
            v'.selIdx < v'.order.length ∧ v'.orderAt v'.selIdx = par) ∧
          (par ∉ v.order → v'.selIdx = v.selIdx) ∧
          (ParentsAgree v → par ∈ v.order ∧ v'.selIdx < v.selIdx)) ∧
        ((v.node (v.orderAt v.selIdx)).parent = none → v' = v)) := by
  refine ⟨hreach.update_returns _, ?_⟩
  intro v' h
  have hv := hreach.viewed
  refine ⟨h, Update_sameForest v v' _ h, ?_, ?_⟩
  · intro hexp
    constructor
    · have h2 := h
      rw [Update_left_collapse v "h" (Or.inl rfl) hsel hexp] at h2
      cases hw : TreeView.rebuildOrder { v with
          expanded := mapSet v.expanded (v.node (v.orderAt v.selIdx)).uid false } with
      | none => rw [hw] at h2; cases h2
      | some w =>
        rw [hw] at h2
        simp only [Option.map_some', Option.some.injEq] at h2
        obtain ⟨o, s, u, rfl⟩ := rebuildOrder_shape _ _ hw
        obtain ⟨u', hu'⟩ := syncSelectedUID_shape ({ ({ v with
          expanded := mapSet v.expanded (v.node (v.orderAt v.selIdx)).uid false } : TreeView)
            with order := o, selIdx := s, SelectedUID := u } : TreeView)
        rw [← h2, hu']
    · intro h1
      obtain ⟨pre, desc, post, hord, hlen, hwalk, hdesc, hv'⟩ :=
        Update_left_collapse_unique v v' hv.1 hsel hexp h1 h
      refine ⟨pre, desc, post, hord, hlen, hwalk, hdesc, hv', by rw [hv'], ?_⟩
      rw [hv']
      unfold TreeView.orderAt
      simp only
      have : v.selIdx.toNat = pre.length := by omega
      rw [this, List.getD_eq_getElem?_getD, List.getElem?_append_right (le_refl _)]
      simp
  · intro hexp
    constructor
    · intro par hpar
      obtain ⟨h1, h2, h3, h4⟩ := Update_left_to_parent v v' hsel hexp par hpar h
      refine ⟨h1, h2, h3, h4, ?_⟩
      intro hpa
      obtain ⟨hm, hlt⟩ := parent_before v hv.1 hreach.rooted hpa hsel par hpar
      exact ⟨hm, by rw [(h3 hm).1]; exact hlt⟩
    · intro hpar
      rw [Update_left_none v "h" (Or.inl rfl) hsel hexp hpar] at h
      simp only [Option.some.injEq] at h
      rw [← h]
      exact synced_self v hv.2

/-- Witness for C15 (amended): in the view of `y` and `x` with the cursor on the
Deployment of `x` (index 1), `h` returns; the Deployment is expanded, has a
child and is met once, so the order `[4, 2, 3, 1, 0]` loses the ReplicaSet and
the cursor stays at index 1 on the Deployment. -/
theorem collapse_or_parent_witness :
    (0 ≤ Examples.cursorOnDeployment.selIdx ∧
      Examples.cursorOnDeployment.selIdx < Examples.cursorOnDeployment.order.length) ∧
    Examples.cursorOnDeployment.order = [4, 2, 3, 1, 0] ∧
    (∃ v', Examples.cursorOnDeployment.Update (Msg.key "h") = some v') ∧
    ∃ v', Examples.cursorOnDeployment.Update (Msg.key "h") = some v' ∧
      v'.order = [4, 2, 1, 0] ∧
      SameForest Examples.cursorOnDeployment v' ∧
      v'.expanded = mapSet Examples.cursorOnDeployment.expanded "x::1" false :=
  have h1 : Reached ["y"] Examples.oneAppY :=
    Reached.upsert "y" Examples.snapshotY (Reached.new 80 24) (by decide)
  have h2 : Reached ["x", "y"] Examples.twoApps :=
    Reached.upsert "x" Examples.snapshotX h1 (by decide)
  have h3 : Reached ["x", "y"] Examples.cursorOnDeployment := Reached.setSelectedIndex 1 h2
  ⟨by decide, by decide,
    (collapse_or_parent ["x", "y"] Examples.cursorOnDeployment h3 (by decide)).1,
    Examples.get (Examples.cursorOnDeployment.Update (Msg.key "h")), by decide, by decide,
    ((collapse_or_parent ["x", "y"] Examples.cursorOnDeployment h3 (by decide)).2
      (Examples.get (Examples.cursorOnDeployment.Update (Msg.key "h"))) (by decide)).2.1,
    (((collapse_or_parent ["x", "y"] Examples.cursorOnDeployment h3 (by decide)).2
      (Examples.get (Examples.cursorOnDeployment.Update (Msg.key "h"))) (by decide)).2.2.1
      (by decide)).1⟩

end Argonaut

namespace Argonaut

open Model

/-! ## The list handlers: selection, sync and rollback -/

/-- Case analysis on a conditional that yields an optional result. -/
theorem ite_some_cases {α : Type} (c : Prop) [Decidable c] (a b : Option α) (P : α → Prop)
    (ha : c → ∀ r, a = some r → P r) (hb : ¬ c → ∀ r, b = some r → P r) :
    ∀ r, (if c then a else b) = some r → P r := by
  intro r h
  by_cases hc : c
  · rw [if_pos hc] at h; exact ha hc r h
  · rw [if_neg hc] at h; exact hb hc r h

/-- Case analysis on a conditional. -/
theorem ite_eq_cases {α : Type} (c : Prop) [Decidable c] (a b : α) (P : α → Prop)
    (ha : c → ∀ r, a = r → P r) (hb : ¬ c → ∀ r, b = r → P r) :
    ∀ r, (if c then a else b) = r → P r := by
  intro r h
  by_cases hc : c
  · rw [if_pos hc] at h; exact ha hc r h
  · rw [if_neg hc] at h; exact hb hc r h

theorem hasIn_add (s : GoMap Bool) (k k' : String) :
    HasInStringSet (AddToStringSet s k) k' = if k' = k then true else HasInStringSet s k' := by
  unfold HasInStringSet AddToStringSet mapGetBool
  rw [mapGet_mapSet]
  split <;> rfl

theorem hasIn_remove (s : GoMap Bool) (k k' : String) :
    HasInStringSet (RemoveFromStringSet s k) k' =
      if k' = k then false else HasInStringSet s k' := by
  unfold HasInStringSet RemoveFromStringSet mapGetBool
  rw [mapGet_mapDelete]
  split <;> rfl

/-- Toggling a name twice gives back the members of the set. -/
theorem toggle_twice_members (s : GoMap Bool) (k k' : String) :
    HasInStringSet
      (if HasInStringSet (if HasInStringSet s k then RemoveFromStringSet s k
          else AddToStringSet s k) k then
        RemoveFromStringSet (if HasInStringSet s k then RemoveFromStringSet s k
          else AddToStringSet s k) k
      else
        AddToStringSet (if HasInStringSet s k then RemoveFromStringSet s k
          else AddToStringSet s k) k) k' = HasInStringSet s k' := by
  by_cases hin : HasInStringSet s k = true
  · have h1 : HasInStringSet (RemoveFromStringSet s k) k = false := by
      rw [hasIn_remove, if_pos rfl]
    rw [if_pos hin, if_neg (by rw [h1]; decide), hasIn_add]
    by_cases hk : k' = k
    · rw [if_pos hk, hk, hin]
    · rw [if_neg hk, hasIn_remove, if_neg hk]
  · have h1 : HasInStringSet (AddToStringSet s k) k = true := by
      rw [hasIn_add, if_pos rfl]
    rw [if_neg hin, if_pos h1, hasIn_remove]
    simp only [Bool.not_eq_true] at hin
    by_cases hk : k' = k
    · rw [if_pos hk, hk, hin]
    · rw [if_neg hk, hasIn_add, if_neg hk]

/-- One application of `handleToggleSelection` in the Apps view with the cursor
on the application `app`. -/
theorem handleToggleSelection_app (env : Env) (m : Model) (app : App)
    (hview : m.state.Navigation.View = View.Apps)
    (h0 : 0 ≤ m.state.Navigation.SelectedIdx)
    (hlt : m.state.Navigation.SelectedIdx < (env.getVisibleItems m).length)
    (hcur : (env.getVisibleItems m).getD m.state.Navigation.SelectedIdx.toNat default =
      Item.app app) :
    Model.handleToggleSelection env m =
      some (m.setSelections { m.state.Selections with
        SelectedApps :=
          if HasInStringSet m.state.Selections.SelectedApps app.Name then
            RemoveFromStringSet m.state.Selections.SelectedApps app.Name
          else AddToStringSet m.state.Selections.SelectedApps app.Name }, []) := by
  unfold Model.handleToggleSelection
  have hne : ¬ ((env.getVisibleItems m).length = 0 ∨
      m.state.Navigation.SelectedIdx ≥ (env.getVisibleItems m).length) := by
    intro h
    rcases h with h | h
    · rw [h] at hlt; omega
    · omega
  simp only [hne, if_false, not_lt.mpr h0, hview, hcur]
  split <;> rfl

/-- C27. Space is an involution on `SelectedApps`.  In the Apps view with the
cursor on an in-range application, `handleToggleSelection` returns a model that
differs from the old one in `SelectedApps` only: the application under the
cursor is a member afterwards exactly when it was not before, and the
membership of every other name is unchanged; when the visible list is the same
afterwards, a second application returns a model that again differs in
`SelectedApps` only, and that set has the members it had at the start.  In
every view other than Apps, and when the visible list is empty or the cursor is
past its end, a call that returns leaves the whole model unchanged and produces
no command, and the call returns whenever the cursor is not negative, the list
is empty or the cursor is past its end (a negative cursor on a non-empty list
makes the indexing panic). -/
theorem handleToggleSelection_twice (env : Env) (m : Model) :
    (∀ app : App, m.state.Navigation.View = View.Apps →
      0 ≤ m.state.Navigation.SelectedIdx →
      m.state.Navigation.SelectedIdx < (env.getVisibleItems m).length →
      (env.getVisibleItems m).getD m.state.Navigation.SelectedIdx.toNat default =
        Item.app app →
      ∃ m1, Model.handleToggleSelection env m = some (m1, []) ∧
        m1 = m.setSelections { m.state.Selections with
          SelectedApps := m1.state.Selections.SelectedApps } ∧
        HasInStringSet m1.state.Selections.SelectedApps app.Name =
          !HasInStringSet m.state.Selections.SelectedApps app.Name ∧
        (∀ k : String, k ≠ app.Name →
          HasInStringSet m1.state.Selections.SelectedApps k =
            HasInStringSet m.state.Selections.SelectedApps k) ∧
        (env.getVisibleItems m1 = env.getVisibleItems m →
          ∃ m2, Model.handleToggleSelection env m1 = some (m2, []) ∧
            m2 = m.setSelections { m.state.Selections with
              SelectedApps := m2.state.Selections.SelectedApps } ∧
            SameMembers m2.state.Selections.SelectedApps m.state.Selections.SelectedApps)) ∧
    ((m.state.Navigation.View ≠ View.Apps ∨ (env.getVisibleItems m).length = 0 ∨
        m.state.Navigation.SelectedIdx ≥ (env.getVisibleItems m).length) →
      (∀ r, Model.handleToggleSelection env m = some r → r = (m, [])) ∧
      ((0 ≤ m.state.Navigation.SelectedIdx ∨ (env.getVisibleItems m).length = 0 ∨
          m.state.Navigation.SelectedIdx ≥ (env.getVisibleItems m).length) →
        Model.handleToggleSelection env m = some (m, []))) := by
  refine ⟨?_, ?_⟩
  · intro app hview h0 hlt hcur
    have h1 := handleToggleSelection_app env m app hview h0 hlt hcur
    refine ⟨_, h1, rfl, ?_, ?_, ?_⟩
    · show HasInStringSet (if _ then _ else _) app.Name = _
      by_cases hin : HasInStringSet m.state.Selections.SelectedApps app.Name = true
      · rw [if_pos hin, hasIn_remove, if_pos rfl, hin]; rfl
      · rw [if_neg hin, hasIn_add, if_pos rfl]
        simp only [Bool.not_eq_true] at hin
        rw [hin]; rfl
    · intro k hk
      show HasInStringSet (if _ then _ else _) k = _
      split
      · rw [hasIn_remove, if_neg hk]
      · rw [hasIn_add, if_neg hk]
    · intro hvis
      have h2 := handleToggleSelection_app env
        (m.setSelections { m.state.Selections with
          SelectedApps :=
            if HasInStringSet m.state.Selections.SelectedApps app.Name then
              RemoveFromStringSet m.state.Selections.SelectedApps app.Name
            else AddToStringSet m.state.Selections.SelectedApps app.Name }) app
        hview h0 (by rw [hvis]; exact hlt) (by rw [hvis]; exact hcur)
      refine ⟨_, h2, rfl, ?_⟩
      intro k
      exact toggle_twice_members _ _ k
  · intro hcase
    have hother : ∀ r, Model.handleToggleSelection env m = some r → r = (m, []) := by
      intro r hr
      unfold Model.handleToggleSelection at hr
      simp only at hr
      split at hr
      · exact (Option.some.inj hr).symm
      · split at hr
        · exact absurd hr (by simp)
        · rename_i hne _
          have hview : m.state.Navigation.View ≠ View.Apps := by
            rcases hcase with h | h | h
            · exact h
            · exact absurd (Or.inl h) hne
            · exact absurd (Or.inr h) hne
          split at hr
          · rename_i hv _
            exact absurd hv hview
          · exact (Option.some.inj hr).symm
    refine ⟨hother, ?_⟩
    intro hret
    unfold Model.handleToggleSelection
    simp only
    by_cases hne : (env.getVisibleItems m).length = 0 ∨
        m.state.Navigation.SelectedIdx ≥ (env.getVisibleItems m).length
    · rw [if_pos hne]
    · have h0 : 0 ≤ m.state.Navigation.SelectedIdx := by
        rcases hret with h | h | h
        · exact h
        · exact absurd (Or.inl h) hne
        · exact absurd (Or.inr h) hne
      have hview : m.state.Navigation.View ≠ View.Apps := by
        rcases hcase with h | h | h
        · exact h
        · exact absurd (Or.inl h) hne
        · exact absurd (Or.inr h) hne
      rw [if_neg hne, if_neg (not_lt.mpr h0)]
      split
      · rename_i hv _
        exact absurd hv hview
      · rfl

/-- With `y` checked and the cursor on `x`, Space checks `x` as well, and a
second Space leaves `y` alone checked. -/
theorem toggle_example :
    (Model.handleToggleSelection Examples.twoAppsEnv Examples.oneChecked).map
      (fun r => r.1.state.Selections.SelectedApps) = some [("y", true), ("x", true)] ∧
    ((Model.handleToggleSelection Examples.twoAppsEnv Examples.oneChecked).bind
      (fun r => Model.handleToggleSelection Examples.twoAppsEnv r.1)).map
      (fun r => r.1.state.Selections.SelectedApps) = some [("y", true)] := by
  decide

end Argonaut

namespace Argonaut

open Model

/-- C28. Sync target selection in `handleSyncModal`.  When `SelectedApps` is
not empty, `ConfirmTarget` becomes `"__MULTI__"`; when it is empty, the view is
Apps and the cursor is on an application of the visible list, `ConfirmTarget`
becomes the name of that application; in both cases the mode becomes
ConfirmSync, `ConfirmSyncSelected` becomes 0, nothing else changes and no
command is produced.  When `SelectedApps` is empty and the view is not Apps or
the visible list is empty, the model is unchanged and the command is one status
message. -/
theorem handleSyncModal_target (env : Env) (m : Model) :
    (m.state.Selections.SelectedApps.length ≠ 0 →
      Model.handleSyncModal env m =
        ((m.setModals { m.state.Modals with
            ConfirmTarget := some "__MULTI__", ConfirmSyncSelected := 0 }).setMode
          Mode.ConfirmSync, [])) ∧
    (∀ app : App, m.state.Selections.SelectedApps.length = 0 →
      m.state.Navigation.View = View.Apps →
      0 ≤ m.state.Navigation.SelectedIdx →
      m.state.Navigation.SelectedIdx < (env.getVisibleItems m).length →
      (env.getVisibleItems m).getD m.state.Navigation.SelectedIdx.toNat default =
        Item.app app →
      Model.handleSyncModal env m =
        ((m.setModals { m.state.Modals with
            ConfirmTarget := some app.Name, ConfirmSyncSelected := 0 }).setMode
          Mode.ConfirmSync, [])) ∧
    (m.state.Selections.SelectedApps.length = 0 →
      (m.state.Navigation.View ≠ View.Apps ∨ (env.getVisibleItems m).length = 0) →
      ∃ status : String, Model.handleSyncModal env m = (m, [Cmd.statusChange status])) := by
  refine ⟨?_, ?_, ?_⟩
  · intro hsel
    unfold Model.handleSyncModal
    rw [if_neg hsel]
    rfl
  · intro app hsel hview h0 hlt hcur
    unfold Model.handleSyncModal
    have hne : (env.getVisibleItems m).length ≠ 0 := by
      intro h
      rw [h] at hlt
      omega
    have hin : ¬ (m.state.Navigation.SelectedIdx < 0 ∨
        m.state.Navigation.SelectedIdx ≥ (env.getVisibleItems m).length) := by
      intro h
      rcases h with h | h <;> omega
    simp only [hsel, if_true, hview, ne_eq, not_true_eq_false, if_false, hne, hin, hcur]
    rfl
  · intro hsel hcase
    unfold Model.handleSyncModal
    rw [if_pos hsel]
    by_cases hview : m.state.Navigation.View ≠ View.Apps
    · rw [if_pos hview]
      exact ⟨_, rfl⟩
    · rw [if_neg hview]
      have hlen : (env.getVisibleItems m).length = 0 := by
        rcases hcase with h | h
        · exact absurd h hview
        · exact h
      simp only [hlen, if_true]
      exact ⟨_, rfl⟩

/-- With nothing checked the sync target is the application under the cursor,
with `y` checked it is the token for several applications. -/
theorem sync_target_example :
    (Model.handleSyncModal Examples.twoAppsEnv Examples.emptyModel).1.state.Modals.ConfirmTarget =
      some "x" ∧
    (Model.handleSyncModal Examples.twoAppsEnv Examples.emptyModel).1.state.Mode =
      Mode.ConfirmSync ∧
    (Model.handleSyncModal Examples.twoAppsEnv Examples.oneChecked).1.state.Modals.ConfirmTarget =
      some "__MULTI__" ∧
    Model.handleSyncModal (Examples.envOf []) Examples.emptyModel =
      (Examples.emptyModel, [Cmd.statusChange "No applications visible to sync"]) := by
  decide

/-- The model `handleRollback` returns for the target `appName`. -/
theorem startRollback_of_ne (env : Env) (m : Model) (appName : String) (h : appName ≠ "") :
    Model.startRollback env m appName =
      ((((m.setModals { m.state.Modals with RollbackAppName := some appName }).setMode
          Mode.Rollback).setRollback
        (some { AppName := appName, AppNamespace := none, Rows := [], SelectedIdx := 0,
                Loading := true, Error := "", Mode := "list", Prune := false, Watch := false,
                DryRun := false, ConfirmSelected := 0 })),
       [Cmd.startRollbackSession appName]) := by
  unfold Model.startRollback
  rw [if_neg h]

/-- C29. Rollback target selection in `handleRollback`, for a status service
whose `Set` leaves the state alone.  In the Apps view, when `SelectedApps` holds
exactly one name, that name is the target whatever the cursor and the visible
list are; when it holds none, the target is the application under the in-range
cursor.  For a target with a non-empty name the mode becomes Rollback,
`RollbackAppName` becomes the target, the rollback state becomes the state with
`AppName` the target, `Loading` true, `Mode` `"list"` and every other field
zero, nothing else changes, and the command starts the rollback session of the
target.  In the other cases the call returns with the state unchanged and no
command: outside the Apps view, with two or more names in `SelectedApps`, and
when no target is determined (the one name or the cursor application has the
empty name, the list is empty, the cursor is past its end or on an item that is
no application). -/
theorem handleRollback_target (env : Env) (m : Model)
    (hstatus : ∀ (x : Model) (s : String), (env.statusSet x s).state = x.state) :
    (∀ (name : String) (b : Bool), m.state.Navigation.View = View.Apps →
      m.state.Selections.SelectedApps = [(name, b)] → name ≠ "" →
      Model.handleRollback env m =
        some ((((m.setModals { m.state.Modals with RollbackAppName := some name }).setMode
            Mode.Rollback).setRollback
          (some { AppName := name, AppNamespace := none, Rows := [], SelectedIdx := 0,
                  Loading := true, Error := "", Mode := "list", Prune := false,
                  Watch := false, DryRun := false, ConfirmSelected := 0 })),
         [Cmd.startRollbackSession name])) ∧
    (∀ app : App, m.state.Navigation.View = View.Apps →
      m.state.Selections.SelectedApps = [] →
      0 ≤ m.state.Navigation.SelectedIdx →
      m.state.Navigation.SelectedIdx < (env.getVisibleItems m).length →
      (env.getVisibleItems m).getD m.state.Navigation.SelectedIdx.toNat default =
        Item.app app →
      app.Name ≠ "" →
      Model.handleRollback env m =
        some ((((m.setModals { m.state.Modals with RollbackAppName := some app.Name }).setMode
            Mode.Rollback).setRollback
          (some { AppName := app.Name, AppNamespace := none, Rows := [], SelectedIdx := 0,
                  Loading := true, Error := "", Mode := "list", Prune := false,
                  Watch := false, DryRun := false, ConfirmSelected := 0 })),
         [Cmd.startRollbackSession app.Name])) ∧
    ((m.state.Navigation.View ≠ View.Apps ∨
      2 ≤ m.state.Selections.SelectedApps.length ∨
      (∃ b : Bool, m.state.Selections.SelectedApps = [("", b)]) ∨
      (m.state.Selections.SelectedApps = [] ∧
        ((env.getVisibleItems m).length = 0 ∨
         m.state.Navigation.SelectedIdx ≥ (env.getVisibleItems m).length ∨
         (0 ≤ m.state.Navigation.SelectedIdx ∧
          ((∃ s : String,
              (env.getVisibleItems m).getD m.state.Navigation.SelectedIdx.toNat default =
                Item.other s) ∨
           (∃ app : App,
              (env.getVisibleItems m).getD m.state.Navigation.SelectedIdx.toNat default =
                Item.app app ∧ app.Name = "")))))) →
      ∃ m' : Model, Model.handleRollback env m = some (m', []) ∧ m'.state = m.state) := by
  refine ⟨?_, ?_, ?_⟩
  · intro name b hview hsel hname
    unfold Model.handleRollback
    simp only [hview, ne_eq, not_true_eq_false, if_false, hsel, List.length_singleton, if_true,
      List.map_cons, List.map_nil, List.getD_cons_zero]
    rw [startRollback_of_ne env m name hname]
  · intro app hview hsel h0 hlt hcur hname
    unfold Model.handleRollback
    have hpos : (env.getVisibleItems m).length > 0 ∧
        m.state.Navigation.SelectedIdx < (env.getVisibleItems m).length := by
      refine ⟨?_, hlt⟩
      omega
    simp only [hview, ne_eq, not_true_eq_false, if_false, hsel, List.length_nil, if_true,
      hpos, and_self, not_lt.mpr h0, hcur]
    simp only [show (0 : Nat) = 1 ↔ False from by decide, if_false]
    rw [startRollback_of_ne env m app.Name hname]
  · intro hcase
    have hstart : ∃ m' : Model, Model.startRollback env m "" = (m', []) ∧ m'.state = m.state := by
      unfold Model.startRollback
      rw [if_pos rfl]
      exact ⟨_, rfl, hstatus _ _⟩
    unfold Model.handleRollback
    by_cases hview : m.state.Navigation.View ≠ View.Apps
    · rw [if_pos hview]
      exact ⟨m, rfl, rfl⟩
    · rw [if_neg hview]
      rcases hcase with h | h | h | h
      · exact absurd h hview
      · rw [if_neg (by omega), if_neg (by omega)]
        exact ⟨_, rfl, hstatus _ _⟩
      · obtain ⟨b, hb⟩ := h
        simp only [hb, List.length_singleton, if_true, List.map_cons, List.map_nil,
          List.getD_cons_zero]
        obtain ⟨m', h1, h2⟩ := hstart
        exact ⟨m', by rw [h1], h2⟩
      · obtain ⟨hsel, hrest⟩ := h
        simp only [hsel, List.length_nil, show (0 : Nat) = 1 ↔ False from by decide, if_false,
          if_true]
        obtain ⟨m', h1, h2⟩ := hstart
        by_cases hpos : (env.getVisibleItems m).length > 0 ∧
            m.state.Navigation.SelectedIdx < (env.getVisibleItems m).length
        · rw [if_pos hpos]
          rcases hrest with h | h | h
          · omega
          · omega
          · obtain ⟨h0, hitem⟩ := h
            rw [if_neg (not_lt.mpr h0)]
            rcases hitem with ⟨s, hs⟩ | ⟨app, happ, hname⟩
            · rw [hs]
              exact ⟨m', by simp only [h1], h2⟩
            · rw [happ]
              simp only [hname]
              exact ⟨m', by rw [h1], h2⟩
        · rw [if_neg hpos]
          exact ⟨m', by rw [h1], h2⟩

/-- The status service of the example environments stores nothing in the
state, and with `y` alone checked and the cursor on `x` the rollback is for
`y`. -/
theorem handleRollback_target_witness :
    (Model.handleRollback Examples.twoAppsEnv Examples.oneChecked).map
      (fun r => (r.1.state.Mode, r.1.state.Modals.RollbackAppName, r.2)) =
      some (Mode.Rollback, some "y", [Cmd.startRollbackSession "y"]) := by
  rw [(handleRollback_target Examples.twoAppsEnv Examples.oneChecked
    (fun _ _ => rfl)).1 "y" true rfl rfl (by decide)]
  rfl

end Argonaut

namespace Argonaut

open Model

/-- `handleRollbackModeKeys` on a key other than the exit keys, with a rollback
state that is not loading. -/
theorem handleRollbackModeKeys_ready (m : Model) (rb : RollbackState) (key : String)
    (hrb : m.state.Rollback = some rb) (hload : rb.Loading = false)
    (hkey : ¬ (key = "esc" ∨ key = "q" ∨ key = "ctrl+c")) :
    Model.handleRollbackModeKeys m key = Model.rollbackKeys m rb key := by
  unfold Model.handleRollbackModeKeys
  rw [if_neg hkey, hrb]
  simp only [hload]
  rfl

/-- C30. Rollback confirmation flow in `handleRollbackModeKeys`, for a rollback
state `rb` with `Loading = false`.  Enter in the sub-mode `"list"` switches to
`"confirm"` with `ConfirmSelected = 0`.  In `"confirm"`, Left or `h` sets
`ConfirmSelected` to 0 and Right or `l` sets it to 1; after any key the handler
returns for, `ConfirmSelected` is its old value, 0 or 1.  Enter in `"confirm"`
with `ConfirmSelected = 0` and `SelectedIdx` within the rows sets `Loading`,
clears `Error` and issues the rollback request with the ID of the selected row,
the application name and namespace and the current `Prune` and `DryRun` flags.
Enter in `"confirm"` with `ConfirmSelected = 1` sets the mode to Normal and
releases the rollback state and `RollbackAppName`.  Each of these steps changes
nothing else. -/
theorem handleRollbackModeKeys_flow (m : Model) (rb : RollbackState)
    (hrb : m.state.Rollback = some rb) (hload : rb.Loading = false) :
    (rb.Mode = "list" →
      Model.handleRollbackModeKeys m "enter" =
        some (m.setRollback (some { rb with Mode := "confirm", ConfirmSelected := 0 }), [])) ∧
    (rb.Mode = "confirm" → ∀ key : String,
      ((key = "left" ∨ key = "h") →
        Model.handleRollbackModeKeys m key =
          some (m.setRollback (some { rb with ConfirmSelected := 0 }), [])) ∧
      ((key = "right" ∨ key = "l") →
        Model.handleRollbackModeKeys m key =
          some (m.setRollback (some { rb with ConfirmSelected := 1 }), []))) ∧
    (∀ (key : String) (r : Model × List Cmd) (rb' : RollbackState),
      Model.handleRollbackModeKeys m key = some r → r.1.state.Rollback = some rb' →
      rb'.ConfirmSelected = rb.ConfirmSelected ∨ rb'.ConfirmSelected = 0 ∨
        rb'.ConfirmSelected = 1) ∧
    (rb.Mode = "confirm" → rb.ConfirmSelected = 0 →
      0 ≤ rb.SelectedIdx → rb.SelectedIdx < rb.Rows.length →
      Model.handleRollbackModeKeys m "enter" =
        some (m.setRollback (some { rb with Loading := true, Error := "" }),
          [Cmd.executeRollback
            { ID := (rb.Rows.getD rb.SelectedIdx.toNat default).ID, Name := rb.AppName,
              AppNamespace := rb.AppNamespace, Prune := rb.Prune, DryRun := rb.DryRun }])) ∧
    (rb.Mode = "confirm" → rb.ConfirmSelected = 1 →
      Model.handleRollbackModeKeys m "enter" =
        some ((((m.setRollback none).setModals { m.state.Modals with
          RollbackAppName := none }).setMode Mode.Normal), [])) := by
  refine ⟨?_, ?_, ?_, ?_, ?_⟩
  · intro hmode
    rw [handleRollbackModeKeys_ready m rb "enter" hrb hload (by decide)]
    unfold Model.rollbackKeys
    simp +decide [hmode]
  · intro hmode key
    refine ⟨?_, ?_⟩
    · intro hk
      rw [handleRollbackModeKeys_ready m rb key hrb hload
        (by rcases hk with rfl | rfl <;> decide)]
      unfold Model.rollbackKeys
      rcases hk with rfl | rfl <;> simp +decide [hmode]
    · intro hk
      rw [handleRollbackModeKeys_ready m rb key hrb hload
        (by rcases hk with rfl | rfl <;> decide)]
      unfold Model.rollbackKeys
      rcases hk with rfl | rfl <;> simp +decide [hmode]
  · intro key r rb' hr hrb'
    by_cases hkey : key = "esc" ∨ key = "q" ∨ key = "ctrl+c"
    · unfold Model.handleRollbackModeKeys at hr
      rw [if_pos hkey] at hr
      have := Option.some.inj hr
      subst this
      simp [Model.setRollback] at hrb'
    · rw [handleRollbackModeKeys_ready m rb key hrb hload hkey] at hr
      revert rb'
      revert r
      unfold Model.rollbackKeys
      repeat' refine ite_some_cases _ _ _ _ (fun _ => ?_) (fun _ => ?_)
      all_goals
        intro r hr rb' hrb'
        first
        | (have h1 := Option.some.inj hr
           subst h1
           simp only [Model.setRollback, Model.setModals, Model.setMode, hrb,
             Option.some.injEq] at hrb'
           first
             | (subst hrb'; simp)
             | exact absurd hrb' (by simp))
        | cases hr
  · intro hmode hsel h0 hlt
    rw [handleRollbackModeKeys_ready m rb "enter" hrb hload (by decide)]
    unfold Model.rollbackKeys
    have hpos : rb.Rows.length > 0 ∧ rb.SelectedIdx < rb.Rows.length := ⟨by omega, hlt⟩
    simp +decide [hmode, hsel, hpos, not_lt.mpr h0]
  · intro hmode hsel
    rw [handleRollbackModeKeys_ready m rb "enter" hrb hload (by decide)]
    unfold Model.rollbackKeys
    simp +decide [hmode, hsel]

/-- In the example modal, Enter on the first button issues the rollback to the
revision of the second row. -/
theorem handleRollbackModeKeys_flow_witness :
    (Model.handleRollbackModeKeys (Examples.rollbackModal "confirm" 0) "enter").map Prod.snd =
      some [Cmd.executeRollback
        { ID := 8, Name := "x", AppNamespace := none, Prune := true, DryRun := false }] := by
  rw [(handleRollbackModeKeys_flow (Examples.rollbackModal "confirm" 0) _ rfl rfl).2.2.2.1
    rfl rfl (by decide) (by decide)]
  rfl

end Argonaut

namespace Argonaut

open Model

/-! ## Escape in Normal mode -/

/-- The example table of handlers changes the view as `ViewChange` asks. -/
theorem keys_viewChange : ViewChange Examples.keys :=
  { view := fun _ _ => rfl, mode := fun _ _ => rfl, selections := fun _ _ => rfl,
    ui := fun _ _ => rfl, lastEsc := fun _ _ => rfl, selection := fun _ _ => rfl }

/-- `handleEscape` in Normal mode without a text selection, when the filter
test of the Apps view fails: the drill-up branch. -/
theorem handleEscape_drill (d : Dispatch) (env : Env) (m : Model)
    (hmode : m.state.Mode = Mode.Normal) (hsel : m.selection.IsEmpty = true)
    (hfilter : m.state.Navigation.View = View.Apps →
      m.state.UI.ActiveFilter = "" ∧ m.state.UI.SearchQuery = "") :
    Model.handleEscape d env m =
      (let m1 := m.setUI { m.state.UI with SearchQuery := "", ActiveFilter := "", Command := "" }
       match m.state.Navigation.View with
       | View.Tree =>
         let m2 : Model := match m1.treeView with
           | some tv => { m1 with treeView := some tv.ClearFilter }
           | none => m1
         let m3 := d.safeChangeView m2 View.Apps
         let m4 := (m3.setUI { m3.state.UI with TreeAppName := none }).setSelectedIdx 0
         (m4, env.maybeRestartWatchForScope m4)
       | View.Apps =>
         if m1.state.Selections.ScopeApplicationSets.length > 0 then
           let m2 := m1.setSelections { m1.state.Selections with
             SelectedApps := NewStringSet, ScopeApplicationSets := NewStringSet }
           let m3 := d.safeChangeView m2 View.ApplicationSets
           (m3.setSelectedIdx 0, [])
         else
           let m2 := m1.setSelections { m1.state.Selections with
             SelectedApps := NewStringSet, ScopeProjects := NewStringSet }
           let m3 := d.safeChangeView m2 View.Projects
           let m4 := m3.setSelectedIdx 0
           (m4, env.maybeRestartWatchForScope m4)
       | View.ApplicationSets =>
         let m2 := (m1.setSelections { m1.state.Selections with
           ScopeApplicationSets := NewStringSet }).setSelectedIdx 0
         (m2, env.maybeRestartWatchForScope m2)
       | View.Projects =>
         let m2 := m1.setSelections { m1.state.Selections with
           ScopeProjects := NewStringSet, ScopeNamespaces := NewStringSet }
         let m3 := d.safeChangeView m2 View.Namespaces
         let m4 := m3.setSelectedIdx 0
         (m4, env.maybeRestartWatchForScope m4)
       | View.Namespaces =>
         let m2 := m1.setSelections { m1.state.Selections with
           ScopeNamespaces := NewStringSet, ScopeClusters := NewStringSet }
         let m3 := d.safeChangeView m2 View.Clusters
         let m4 := m3.setSelectedIdx 0
         (m4, env.maybeRestartWatchForScope m4)
       | View.Clusters =>
         let m2 := (m1.setSelections { m1.state.Selections with
           ScopeClusters := NewStringSet }).setSelectedIdx 0
         (m2, env.maybeRestartWatchForScope m2)) := by
  unfold Model.handleEscape
  have hno : ¬ (m.state.Navigation.View = View.Apps ∧
      (m.state.UI.ActiveFilter ≠ "" ∨ m.state.UI.SearchQuery ≠ "")) := by
    intro h
    obtain ⟨h1, h2⟩ := hfilter h.1
    rcases h.2 with h3 | h3
    · exact h3 h1
    · exact h3 h2
  simp only [hsel, Bool.not_true, Bool.false_eq_true, if_false, hmode, hno]

/-- C23. Escape-up transitions of `handleEscape` in Normal mode with no active
filter (in the Apps view `ActiveFilter` and `SearchQuery` are empty, the two
fields the code tests) and no text selection, for a `safeChangeView` that sets
the view and leaves the selections.  From Apps with a non-empty
`ScopeApplicationSets`, that scope and `SelectedApps` become empty and the view
becomes ApplicationSets; from Apps otherwise, `SelectedApps` and
`ScopeProjects` become empty and the view becomes Projects; from Projects,
`ScopeProjects` and `ScopeNamespaces` become empty and the view becomes
Namespaces; from Namespaces, `ScopeNamespaces` and `ScopeClusters` become empty
and the view becomes Clusters; from Clusters, `ScopeClusters` becomes empty and
the view stays Clusters.  The other scope sets and `SelectedApps` are as
before, and `SelectedIdx` becomes 0 in every case. -/
theorem handleEscape_up (d : Dispatch) (env : Env) (m : Model) (hd : ViewChange d)
    (hmode : m.state.Mode = Mode.Normal) (hsel : m.selection.IsEmpty = true)
    (hfilter : m.state.Navigation.View = View.Apps →
      m.state.UI.ActiveFilter = "" ∧ m.state.UI.SearchQuery = "") :
    (m.state.Navigation.View = View.Apps →
      m.state.Selections.ScopeApplicationSets.length > 0 →
      (Model.handleEscape d env m).1.state.Selections =
        { m.state.Selections with SelectedApps := [], ScopeApplicationSets := [] } ∧
      (Model.handleEscape d env m).1.state.Navigation.View = View.ApplicationSets ∧
      (Model.handleEscape d env m).1.state.Navigation.SelectedIdx = 0) ∧
    (m.state.Navigation.View = View.Apps →
      m.state.Selections.ScopeApplicationSets.length = 0 →
      (Model.handleEscape d env m).1.state.Selections =
        { m.state.Selections with SelectedApps := [], ScopeProjects := [] } ∧
      (Model.handleEscape d env m).1.state.Navigation.View = View.Projects ∧
      (Model.handleEscape d env m).1.state.Navigation.SelectedIdx = 0) ∧
    (m.state.Navigation.View = View.Projects →
      (Model.handleEscape d env m).1.state.Selections =
        { m.state.Selections with ScopeProjects := [], ScopeNamespaces := [] } ∧
      (Model.handleEscape d env m).1.state.Navigation.View = View.Namespaces ∧
      (Model.handleEscape d env m).1.state.Navigation.SelectedIdx = 0) ∧
    (m.state.Navigation.View = View.Namespaces →
      (Model.handleEscape d env m).1.state.Selections =
        { m.state.Selections with ScopeNamespaces := [], ScopeClusters := [] } ∧
      (Model.handleEscape d env m).1.state.Navigation.View = View.Clusters ∧
      (Model.handleEscape d env m).1.state.Navigation.SelectedIdx = 0) ∧
    (m.state.Navigation.View = View.Clusters →
      (Model.handleEscape d env m).1.state.Selections =
        { m.state.Selections with ScopeClusters := [] } ∧
      (Model.handleEscape d env m).1.state.Navigation.View = View.Clusters ∧
      (Model.handleEscape d env m).1.state.Navigation.SelectedIdx = 0) := by
  rw [handleEscape_drill d env m hmode hsel hfilter]
  refine ⟨?_, ?_, ?_, ?_, ?_⟩
  · intro hview hsets
    simp only [hview]
    rw [if_pos (by simpa [Model.setUI] using hsets)]
    refine ⟨?_, ?_, rfl⟩
    · show (d.safeChangeView _ _).state.Selections = _
      rw [hd.selections]
      rfl
    · show (d.safeChangeView _ _).state.Navigation.View = _
      rw [hd.view]
  · intro hview hsets
    simp only [hview]
    rw [if_neg (by simp [Model.setUI, hsets])]
    refine ⟨?_, ?_, rfl⟩
    · show (d.safeChangeView _ _).state.Selections = _
      rw [hd.selections]
      rfl
    · show (d.safeChangeView _ _).state.Navigation.View = _
      rw [hd.view]
  · intro hview
    simp only [hview]
    refine ⟨?_, ?_, rfl⟩
    · show (d.safeChangeView _ _).state.Selections = _
      rw [hd.selections]
      rfl
    · show (d.safeChangeView _ _).state.Navigation.View = _
      rw [hd.view]
  · intro hview
    simp only [hview]
    refine ⟨?_, ?_, rfl⟩
    · show (d.safeChangeView _ _).state.Selections = _
      rw [hd.selections]
      rfl
    · show (d.safeChangeView _ _).state.Navigation.View = _
      rw [hd.view]
  · intro hview
    simp only [hview]
    exact ⟨rfl, hview, rfl⟩

/-- From the scoped Apps view of the examples, Escape leads to Projects with
the project scope and the checked applications cleared. -/
theorem handleEscape_up_witness :
    (Model.handleEscape Examples.keys Examples.twoAppsEnv
        (Examples.scopedView View.Apps)).1.state.Selections =
      { (Examples.scopedView View.Apps).state.Selections with
        SelectedApps := [], ScopeProjects := [] } ∧
    (Model.handleEscape Examples.keys Examples.twoAppsEnv
        (Examples.scopedView View.Apps)).1.state.Navigation.View = View.Projects ∧
    (Model.handleEscape Examples.keys Examples.twoAppsEnv
        (Examples.scopedView View.Apps)).1.state.Navigation.SelectedIdx = 0 :=
  (handleEscape_up Examples.keys Examples.twoAppsEnv (Examples.scopedView View.Apps)
    keys_viewChange rfl rfl (fun _ => ⟨rfl, rfl⟩)).2.1 rfl rfl

/-- Escape in the filtered Apps view with a text selection on the screen: the
selection is cleared and the filter stays. -/
theorem handleEscape_filter_counterexample :
    Examples.filteredSelected.state.Mode = Mode.Normal ∧
    Examples.filteredSelected.state.Navigation.View = View.Apps ∧
    Examples.filteredSelected.state.UI.ActiveFilter = "web" ∧
    (Model.handleEscape Examples.keys Examples.twoAppsEnv
      Examples.filteredSelected).1.state.UI.ActiveFilter = "web" ∧
    (Model.handleEscape Examples.keys Examples.twoAppsEnv
      Examples.filteredSelected).1.state.UI.SearchQuery = "web" := by
  decide

/-- C24. First Escape in a filtered Apps view only clears the filter: for
`handleEscape` in Normal mode with the view Apps, a non-empty `ActiveFilter`
and no text selection, the model returned is the old one with `ActiveFilter`
and `SearchQuery` empty, so the view, `SelectedIdx`, every scope set,
`SelectedApps` and the command buffer are unchanged, and no command is
produced. -/
theorem handleEscape_filter (d : Dispatch) (env : Env) (m : Model)
    (hmode : m.state.Mode = Mode.Normal) (hview : m.state.Navigation.View = View.Apps)
    (hfilter : m.state.UI.ActiveFilter ≠ "") (hsel : m.selection.IsEmpty = true) :
    Model.handleEscape d env m =
      (m.setUI { m.state.UI with SearchQuery := "", ActiveFilter := "" }, []) := by
  unfold Model.handleEscape
  have hyes : m.state.Navigation.View = View.Apps ∧
      (m.state.UI.ActiveFilter ≠ "" ∨ m.state.UI.SearchQuery ≠ "") := ⟨hview, Or.inl hfilter⟩
  simp only [hsel, Bool.not_true, Bool.false_eq_true, if_false, hmode, hyes, and_self, if_true]

/-- In the filtered Apps view of the examples, Escape clears the filter and
the search query and keeps the command buffer. -/
theorem handleEscape_filter_witness :
    Model.handleEscape Examples.keys Examples.twoAppsEnv Examples.filteredApps =
      (Examples.filteredApps.setUI { Examples.filteredApps.state.UI with
        SearchQuery := "", ActiveFilter := "" }, []) ∧
    (Model.handleEscape Examples.keys Examples.twoAppsEnv
      Examples.filteredApps).1.state.UI.Command = "ns" :=
  ⟨handleEscape_filter Examples.keys Examples.twoAppsEnv Examples.filteredApps rfl rfl
    (by decide) rfl, by decide⟩

/-- Escape in the Clusters view with a cluster scope and a namespace scope:
the scopes are nested before, and afterwards the namespace scope is left
without a cluster scope. -/
theorem handleEscape_nesting_counterexample :
    (Examples.scopedView View.Clusters).state.Mode = Mode.Normal ∧
    ScopesNested (Examples.scopedView View.Clusters).state.Selections ∧
    ¬ ScopesNested (Model.handleEscape Examples.keys Examples.twoAppsEnv
      (Examples.scopedView View.Clusters)).1.state.Selections := by
  decide

/-- C26. The nesting of the scope sets is preserved by Escape from the states
whose deeper scopes are already clear: for every Normal-mode model in a list
view in which the scope sets are nested, `ScopeProjects` is empty if the view
is Namespaces, and `ScopeNamespaces` is empty if the view is Clusters, the
scope sets after `handleEscape` are nested, for a `safeChangeView` that leaves
the selections. -/
theorem handleEscape_nesting (d : Dispatch) (env : Env) (m : Model) (hd : ViewChange d)
    (hmode : m.state.Mode = Mode.Normal) (hview : m.state.Navigation.View ≠ View.Tree)
    (hnested : ScopesNested m.state.Selections)
    (hns : m.state.Navigation.View = View.Namespaces →
      m.state.Selections.ScopeProjects.length = 0)
    (hcl : m.state.Navigation.View = View.Clusters →
      m.state.Selections.ScopeNamespaces.length = 0) :
    ScopesNested (Model.handleEscape d env m).1.state.Selections := by
  by_cases hsel : m.selection.IsEmpty = true
  · by_cases hfilter : m.state.Navigation.View = View.Apps ∧
        (m.state.UI.ActiveFilter ≠ "" ∨ m.state.UI.SearchQuery ≠ "")
    · have h : Model.handleEscape d env m =
          (m.setUI { m.state.UI with SearchQuery := "", ActiveFilter := "" }, []) := by
        unfold Model.handleEscape
        simp only [hsel, Bool.not_true, Bool.false_eq_true, if_false, hmode, hfilter, and_self,
          if_true]
      rw [h]
      exact hnested
    · have hf : m.state.Navigation.View = View.Apps →
          m.state.UI.ActiveFilter = "" ∧ m.state.UI.SearchQuery = "" := by
        intro hv
        by_contra hne
        apply hfilter
        refine ⟨hv, ?_⟩
        by_contra hno
        apply hne
        simp only [not_or, ne_eq, not_not] at hno
        exact hno
      rw [handleEscape_drill d env m hmode hsel hf]
      obtain ⟨h1, h2⟩ := hnested
      cases hv : m.state.Navigation.View with
      | Tree => exact absurd hv hview
      | Apps =>
        simp only
        split
        · show ScopesNested (d.safeChangeView _ _).state.Selections
          rw [hd.selections]
          exact ⟨h1, h2⟩
        · show ScopesNested (d.safeChangeView _ _).state.Selections
          rw [hd.selections]
          exact ⟨h1, fun _ => rfl⟩
      | ApplicationSets => exact ⟨h1, h2⟩
      | Projects =>
        show ScopesNested (d.safeChangeView _ _).state.Selections
        rw [hd.selections]
        exact ⟨fun _ => rfl, fun _ => rfl⟩
      | Namespaces =>
        show ScopesNested (d.safeChangeView _ _).state.Selections
        rw [hd.selections]
        exact ⟨fun _ => rfl, fun _ => hns hv⟩
      | Clusters => exact ⟨fun _ => hcl hv, h2⟩
  · have h : Model.handleEscape d env m =
        ({ m with selection := env.selectionClear m.selection }, []) := by
      unfold Model.handleEscape
      simp only [Bool.not_eq_true] at hsel
      simp only [hsel, Bool.not_false, if_true]
    rw [h]
    exact hnested

/-- From the scoped Projects view of the examples the scopes stay nested. -/
theorem handleEscape_nesting_witness :
    ScopesNested (Model.handleEscape Examples.keys Examples.twoAppsEnv
      (Examples.scopedView View.Projects)).1.state.Selections :=
  handleEscape_nesting Examples.keys Examples.twoAppsEnv (Examples.scopedView View.Projects)
    keys_viewChange rfl (by decide) (by decide) (fun h => absurd h (by decide))
    (fun h => absurd h (by decide))

end Argonaut

namespace Argonaut

open Model

/-! ## Escape in the modal modes -/

/-- An Escape that is not debounced (the test of the code on the `int64`
difference, `sub64`) goes to the handler of the mode, with the time of the
keystroke stored, when the router does not take the key. -/
theorem handleKeyMsg_esc (d : Dispatch) (env : Env) (now : Int) (m : Model)
    (hnav : d.isNavigationKey "esc" = false)
    (hdeb : ¬ sub64 now m.state.Navigation.LastEscPressed < 100) :
    Model.handleKeyMsg (Model.keyHandlers env d) env now m "esc" =
      match m.state.Mode with
      | Mode.Search => d.handleSearchModeKeys now (m.setLastEscPressed now) "esc"
      | Mode.Command => d.handleCommandModeKeys now (m.setLastEscPressed now) "esc"
      | Mode.Theme => Model.handleThemeModeKeys env (m.setLastEscPressed now) "esc"
      | Mode.Help => some (Model.handleHelpModeKeys (m.setLastEscPressed now) "esc")
      | Mode.NoDiff => some (Model.handleNoDiffModeKeys (m.setLastEscPressed now) "esc")
      | Mode.ConfirmSync => some (Model.handleConfirmSyncKeys (m.setLastEscPressed now) "esc")
      | Mode.Rollback => Model.handleRollbackModeKeys (m.setLastEscPressed now) "esc"
      | Mode.ConfirmAppDelete =>
        some (Model.handleConfirmAppDeleteKeys env (m.setLastEscPressed now) "esc")
      | Mode.ConfirmResourceDelete =>
        some (Model.handleConfirmResourceDeleteKeys (m.setLastEscPressed now) "esc")
      | Mode.ConfirmResourceSync =>
        some (Model.handleConfirmResourceSyncKeys (m.setLastEscPressed now) "esc")
      | Mode.Diff => some (Model.handleDiffModeKeys env (m.setLastEscPressed now) "esc")
      | Mode.AuthRequired =>
        some (Model.handleAuthRequiredModeKeys env (m.setLastEscPressed now) "esc")
      | Mode.Error => some (Model.handleErrorModeKeys env (m.setLastEscPressed now) "esc")
      | Mode.ConnectionError =>
        some (Model.handleConnectionErrorModeKeys env (m.setLastEscPressed now) "esc")
      | Mode.CoreDetected =>
        some (Model.handleCoreDetectedModeKeys (m.setLastEscPressed now) "esc")
      | Mode.Upgrade => d.handleUpgradeModeKeys now (m.setLastEscPressed now) "esc"
      | Mode.UpgradeError => d.handleUpgradeErrorModeKeys now (m.setLastEscPressed now) "esc"
      | Mode.UpgradeSuccess =>
        d.handleUpgradeSuccessModeKeys now (m.setLastEscPressed now) "esc"
      | Mode.K9sContextSelect =>
        Model.handleK9sContextSelectKeys (m.setLastEscPressed now) "esc"
      | Mode.K9sError => some (Model.handleK9sErrorModeKeys (m.setLastEscPressed now) "esc")
      | Mode.DefaultViewWarning =>
        some (Model.handleDefaultViewWarningModeKeys (m.setLastEscPressed now) "esc")
      | Mode.Normal =>
        if m.state.Navigation.View = View.Tree then
          Model.treeKeys (Model.keyHandlers env d) env now (m.setLastEscPressed now) "esc"
        else some (Model.handleEscape d env (m.setLastEscPressed now)) := by
  unfold Model.handleKeyMsg
  rw [if_neg (by decide), if_pos rfl, if_neg hdeb]
  unfold Model.dispatchKey
  have hn : (Model.keyHandlers env d).isNavigationKey "esc" = false := hnav
  rw [if_neg (by simp [hn])]
  have hm : (m.setLastEscPressed now).state.Mode = m.state.Mode := rfl
  have hv : (m.setLastEscPressed now).state.Navigation.View = m.state.Navigation.View := rfl
  rw [hm, hv]
  cases m.state.Mode <;> rfl

/-- Escape in the mode CoreDetected: the command is `QuitMsg` and the mode
stays CoreDetected. -/
theorem escape_core_detected_counterexample :
    (Examples.inMode Mode.CoreDetected).state.Mode = Mode.CoreDetected ∧
    ¬ (sub64 1000
      (Examples.inMode Mode.CoreDetected).state.Navigation.LastEscPressed < 100) ∧
    (Model.handleKeyMsg (Model.keyHandlers Examples.twoAppsEnv Examples.keys)
        Examples.twoAppsEnv 1000 (Examples.inMode Mode.CoreDetected) "esc").map
      (fun r => (r.1.state.Mode, r.2)) = some (Mode.CoreDetected, [Cmd.quit]) := by
  decide

/-- C22. Escape leaves the modals that have an exit to Normal mode.  For an
Escape that is not debounced (the test of the code, on the `int64` difference
of the clock reading and `LastEscPressed`) and that the navigation router does
not take:
in each of the modes Theme, Help, NoDiff, ConfirmSync, Rollback,
ConfirmAppDelete, ConfirmResourceDelete, ConfirmResourceSync, K9sContextSelect,
K9sError, DefaultViewWarning and ConnectionError, in the mode Diff with a diff
state and in the mode Error with applications loaded, `handleKeyMsg` returns a
model in Normal mode.  In the mode CoreDetected it returns the command
`QuitMsg` and in the mode Error without applications loaded as well, in the
mode AuthRequired and in the mode Diff without a diff state it returns no
command; in these four cases the model is the old one with the time of the
keystroke stored, so the mode is unchanged. -/
theorem escape_leaves_modal (d : Dispatch) (env : Env) (now : Int) (m : Model)
    (hnav : d.isNavigationKey "esc" = false)
    (hdeb : ¬ sub64 now m.state.Navigation.LastEscPressed < 100) :
    (m.state.Mode ∈ [Mode.Theme, Mode.Help, Mode.NoDiff, Mode.Diff, Mode.ConfirmSync,
        Mode.Rollback, Mode.ConfirmAppDelete, Mode.ConfirmResourceDelete,
        Mode.ConfirmResourceSync, Mode.K9sContextSelect, Mode.K9sError,
        Mode.DefaultViewWarning, Mode.Error, Mode.ConnectionError] →
      (m.state.Mode = Mode.Diff → m.state.Diff ≠ none) →
      (m.state.Mode = Mode.Error → m.state.Apps.length ≠ 0) →
      ∃ r, Model.handleKeyMsg (Model.keyHandlers env d) env now m "esc" = some r ∧
        r.1.state.Mode = Mode.Normal) ∧
    (m.state.Mode = Mode.CoreDetected →
      Model.handleKeyMsg (Model.keyHandlers env d) env now m "esc" =
        some (m.setLastEscPressed now, [Cmd.quit])) ∧
    (m.state.Mode = Mode.Error → m.state.Apps.length = 0 →
      Model.handleKeyMsg (Model.keyHandlers env d) env now m "esc" =
        some (m.setLastEscPressed now, [Cmd.quit])) ∧
    (m.state.Mode = Mode.AuthRequired →
      Model.handleKeyMsg (Model.keyHandlers env d) env now m "esc" =
        some (m.setLastEscPressed now, [])) ∧
    (m.state.Mode = Mode.Diff → m.state.Diff = none →
      Model.handleKeyMsg (Model.keyHandlers env d) env now m "esc" =
        some (m.setLastEscPressed now, [])) := by
  have hkey := handleKeyMsg_esc d env now m hnav hdeb
  refine ⟨?_, ?_, ?_, ?_, ?_⟩
  · intro hmem hdiff happs
    simp only [List.mem_cons, List.mem_singleton, List.not_mem_nil, or_false] at hmem
    rcases hmem with h | h | h | h | h | h | h | h | h | h | h | h | h | h
    · rw [hkey, h]
      simp only
      unfold Model.handleThemeModeKeys
      by_cases h0 : (env.ensureThemeOptionsLoaded (m.setLastEscPressed now)).themeOptions.length = 0
      · simp only [h0, if_true]
        exact ⟨_, rfl, rfl⟩
      · simp only [h0, if_false, true_or, if_true]
        exact ⟨_, rfl, rfl⟩
    · rw [hkey, h]
      exact ⟨_, rfl, rfl⟩
    · rw [hkey, h]
      exact ⟨_, rfl, rfl⟩
    · rw [hkey, h]
      refine ⟨_, rfl, ?_⟩
      unfold Model.handleDiffModeKeys
      have hd' : ¬ (m.setLastEscPressed now).state.Diff = none := hdiff h
      rw [if_neg hd', if_pos (Or.inr rfl)]
      rfl
    · rw [hkey, h]
      exact ⟨_, rfl, rfl⟩
    · rw [hkey, h]
      exact ⟨_, rfl, rfl⟩
    · rw [hkey, h]
      exact ⟨_, rfl, rfl⟩
    · rw [hkey, h]
      exact ⟨_, rfl, rfl⟩
    · rw [hkey, h]
      exact ⟨_, rfl, rfl⟩
    · rw [hkey, h]
      simp only
      unfold Model.handleK9sContextSelectKeys
      by_cases h0 : (m.setLastEscPressed now).k9sContextOptions.length = 0
      · simp only [h0, if_true]
        exact ⟨_, rfl, rfl⟩
      · simp only [h0, if_false, or_true, if_true]
        exact ⟨_, rfl, rfl⟩
    · rw [hkey, h]
      exact ⟨_, rfl, rfl⟩
    · rw [hkey, h]
      exact ⟨_, rfl, rfl⟩
    · rw [hkey, h]
      refine ⟨_, rfl, ?_⟩
      unfold Model.handleErrorModeKeys
      have ha' : ¬ (m.setLastEscPressed now).state.Apps.length = 0 := happs h
      rw [if_pos (Or.inr rfl), if_neg ha']
      rfl
    · rw [hkey, h]
      exact ⟨_, rfl, rfl⟩
  · intro h
    rw [hkey, h]
    rfl
  · intro h happs
    rw [hkey, h]
    simp only
    unfold Model.handleErrorModeKeys
    have ha' : (m.setLastEscPressed now).state.Apps.length = 0 := happs
    rw [if_pos (Or.inr rfl), if_pos ha']
  · intro h
    rw [hkey, h]
    rfl
  · intro h hdiff
    rw [hkey, h]
    simp only
    unfold Model.handleDiffModeKeys
    have hd' : (m.setLastEscPressed now).state.Diff = none := hdiff
    rw [if_pos hd']

/-- In the rollback modal of the examples, Escape at the clock time 1000
leads to Normal mode. -/
theorem escape_leaves_modal_witness :
    ∃ r, Model.handleKeyMsg (Model.keyHandlers Examples.twoAppsEnv Examples.keys)
        Examples.twoAppsEnv 1000 (Examples.rollbackModal "list" 0) "esc" = some r ∧
      r.1.state.Mode = Mode.Normal :=
  (escape_leaves_modal Examples.keys Examples.twoAppsEnv 1000 (Examples.rollbackModal "list" 0)
    rfl (by decide)).1 (by decide) (fun h => absurd h (by decide))
    (fun h => absurd h (by decide))

end Argonaut

namespace Argonaut

open Model

/-! ## Repeated Escape -/

/-- What `handleEscape` leaves outside the selections when it drills up from a
list view. -/
theorem handleEscape_frame (d : Dispatch) (env : Env) (m : Model) (hd : ViewChange d)
    (hmode : m.state.Mode = Mode.Normal) (hsel : m.selection.IsEmpty = true)
    (hfilter : m.state.Navigation.View = View.Apps →
      m.state.UI.ActiveFilter = "" ∧ m.state.UI.SearchQuery = "")
    (hview : m.state.Navigation.View ≠ View.Tree) :
    (Model.handleEscape d env m).1.state.Mode = Mode.Normal ∧
    (Model.handleEscape d env m).1.selection.IsEmpty = true ∧
    (Model.handleEscape d env m).1.state.Navigation.LastEscPressed =
      m.state.Navigation.LastEscPressed ∧
    (Model.handleEscape d env m).1.state.UI.ActiveFilter = "" ∧
    (Model.handleEscape d env m).1.state.UI.SearchQuery = "" := by
  rw [handleEscape_drill d env m hmode hsel hfilter]
  cases hv : m.state.Navigation.View with
  | Tree => exact absurd hv hview
  | Apps =>
    simp only
    split
    · refine ⟨?_, ?_, ?_, ?_, ?_⟩
      · show (d.safeChangeView _ _).state.Mode = _
        rw [hd.mode]; exact hmode
      · show (d.safeChangeView _ _).selection.IsEmpty = _
        rw [hd.selection]; exact hsel
      · show (d.safeChangeView _ _).state.Navigation.LastEscPressed = _
        rw [hd.lastEsc]; rfl
      · show (d.safeChangeView _ _).state.UI.ActiveFilter = _
        rw [hd.ui]; rfl
      · show (d.safeChangeView _ _).state.UI.SearchQuery = _
        rw [hd.ui]; rfl
    · refine ⟨?_, ?_, ?_, ?_, ?_⟩
      · show (d.safeChangeView _ _).state.Mode = _
        rw [hd.mode]; exact hmode
      · show (d.safeChangeView _ _).selection.IsEmpty = _
        rw [hd.selection]; exact hsel
      · show (d.safeChangeView _ _).state.Navigation.LastEscPressed = _
        rw [hd.lastEsc]; rfl
      · show (d.safeChangeView _ _).state.UI.ActiveFilter = _
        rw [hd.ui]; rfl
      · show (d.safeChangeView _ _).state.UI.SearchQuery = _
        rw [hd.ui]; rfl
  | ApplicationSets => exact ⟨hmode, hsel, rfl, rfl, rfl⟩
  | Projects =>
    refine ⟨?_, ?_, ?_, ?_, ?_⟩
    · show (d.safeChangeView _ _).state.Mode = _
      rw [hd.mode]; exact hmode
    · show (d.safeChangeView _ _).selection.IsEmpty = _
      rw [hd.selection]; exact hsel
    · show (d.safeChangeView _ _).state.Navigation.LastEscPressed = _
      rw [hd.lastEsc]; rfl
    · show (d.safeChangeView _ _).state.UI.ActiveFilter = _
      rw [hd.ui]; rfl
    · show (d.safeChangeView _ _).state.UI.SearchQuery = _
      rw [hd.ui]; rfl
  | Namespaces =>
    refine ⟨?_, ?_, ?_, ?_, ?_⟩
    · show (d.safeChangeView _ _).state.Mode = _
      rw [hd.mode]; exact hmode
    · show (d.safeChangeView _ _).selection.IsEmpty = _
      rw [hd.selection]; exact hsel
    · show (d.safeChangeView _ _).state.Navigation.LastEscPressed = _
      rw [hd.lastEsc]; rfl
    · show (d.safeChangeView _ _).state.UI.ActiveFilter = _
      rw [hd.ui]; rfl
    · show (d.safeChangeView _ _).state.UI.SearchQuery = _
      rw [hd.ui]; rfl
  | Clusters => exact ⟨hmode, hsel, rfl, rfl, rfl⟩

/-- The views and selections `handleEscape` leaves when it drills up from the
views Apps (not scoped by an application set), Projects, Namespaces and
Clusters. -/
theorem handleEscape_moves (d : Dispatch) (env : Env) (m : Model) (hd : ViewChange d)
    (hmode : m.state.Mode = Mode.Normal) (hsel : m.selection.IsEmpty = true)
    (hfilter : m.state.Navigation.View = View.Apps →
      m.state.UI.ActiveFilter = "" ∧ m.state.UI.SearchQuery = "") :
    (m.state.Navigation.View = View.Apps →
      m.state.Selections.ScopeApplicationSets.length = 0 →
      (Model.handleEscape d env m).1.state.Selections =
        { m.state.Selections with SelectedApps := [], ScopeProjects := [] } ∧
      (Model.handleEscape d env m).1.state.Navigation.View = View.Projects) ∧
    (m.state.Navigation.View = View.Projects →
      (Model.handleEscape d env m).1.state.Selections =
        { m.state.Selections with ScopeProjects := [], ScopeNamespaces := [] } ∧
      (Model.handleEscape d env m).1.state.Navigation.View = View.Namespaces) ∧
    (m.state.Navigation.View = View.Namespaces →
      (Model.handleEscape d env m).1.state.Selections =
        { m.state.Selections with ScopeNamespaces := [], ScopeClusters := [] } ∧
      (Model.handleEscape d env m).1.state.Navigation.View = View.Clusters) ∧
    (m.state.Navigation.View = View.Clusters →
      (Model.handleEscape d env m).1.state.Selections =
        { m.state.Selections with ScopeClusters := [] } ∧
      (Model.handleEscape d env m).1.state.Navigation.View = View.Clusters) := by
  rw [handleEscape_drill d env m hmode hsel hfilter]
  refine ⟨?_, ?_, ?_, ?_⟩
  · intro hview hsets
    simp only [hview]
    rw [if_neg (by simp [Model.setUI, hsets])]
    refine ⟨?_, ?_⟩
    · show (d.safeChangeView _ _).state.Selections = _
      rw [hd.selections]
      rfl
    · show (d.safeChangeView _ _).state.Navigation.View = _
      rw [hd.view]
  · intro hview
    simp only [hview]
    refine ⟨?_, ?_⟩
    · show (d.safeChangeView _ _).state.Selections = _
      rw [hd.selections]
      rfl
    · show (d.safeChangeView _ _).state.Navigation.View = _
      rw [hd.view]
  · intro hview
    simp only [hview]
    refine ⟨?_, ?_⟩
    · show (d.safeChangeView _ _).state.Selections = _
      rw [hd.selections]
      rfl
    · show (d.safeChangeView _ _).state.Navigation.View = _
      rw [hd.view]
  · intro hview
    simp only [hview]
    exact ⟨rfl, hview⟩

/-- An Escape keystroke in Normal mode in a list view that is not debounced
and not taken by the router is handled by `handleEscape`. -/
theorem handleKeyMsg_esc_list (d : Dispatch) (env : Env) (now : Int) (m : Model)
    (hnav : d.isNavigationKey "esc" = false)
    (hdeb : Apart m.state.Navigation.LastEscPressed now)
    (hmode : m.state.Mode = Mode.Normal) (hview : m.state.Navigation.View ≠ View.Tree) :
    Model.handleKeyMsg (Model.keyHandlers env d) env now m "esc" =
      some (Model.handleEscape d env (m.setLastEscPressed now)) := by
  have hsub : ¬ sub64 now m.state.Navigation.LastEscPressed < 100 := by
    rw [sub64_of_fits now m.state.Navigation.LastEscPressed (by have := hdeb.1; omega) hdeb.2]
    have := hdeb.1
    omega
  rw [handleKeyMsg_esc d env now m hnav hsub, hmode]
  simp only
  rw [if_neg hview]

/-- At the top of the hierarchy further Escapes change neither the view nor the
selections. -/
theorem pressEscape_top (d : Dispatch) (env : Env) (hd : ViewChange d)
    (hnav : d.isNavigationKey "esc" = false) (times : List Int) :
    ∀ m : Model, m.state.Mode = Mode.Normal → m.selection.IsEmpty = true → AtTop m →
      Spaced m.state.Navigation.LastEscPressed times →
      ∃ m', pressEscape d env m times = some m' ∧ AtTop m' := by
  induction times with
  | nil =>
    intro m _ _ htop _
    exact ⟨m, rfl, htop⟩
  | cons t ts ih =>
    intro m hmode hsel htop hsp
    obtain ⟨hv, hc, hn, hp, ha, hs⟩ := htop
    have hlist : m.state.Navigation.View ≠ View.Tree := by rw [hv]; decide
    have hstep := handleKeyMsg_esc_list d env t m hnav hsp.1 hmode hlist
    have hf : (m.setLastEscPressed t).state.Navigation.View = View.Apps →
        (m.setLastEscPressed t).state.UI.ActiveFilter = "" ∧
        (m.setLastEscPressed t).state.UI.SearchQuery = "" := by
      intro h
      have h' : m.state.Navigation.View = View.Apps := h
      rw [hv] at h'
      exact absurd h' (by decide)
    have hframe := handleEscape_frame d env (m.setLastEscPressed t) hd hmode hsel hf hlist
    have hmoves := (handleEscape_moves d env (m.setLastEscPressed t) hd hmode hsel hf).2.2.2 hv
    unfold pressEscape
    rw [hstep]
    simp only
    apply ih
    · exact hframe.1
    · exact hframe.2.1
    · refine ⟨hmoves.2, ?_, ?_, ?_, ?_, ?_⟩
      · rw [hmoves.1]; rfl
      · rw [hmoves.1]; exact hn
      · rw [hmoves.1]; exact hp
      · rw [hmoves.1]; exact ha
      · rw [hmoves.1]; exact hs
    · rw [hframe.2.2.1]
      exact hsp.2

/-- From the Apps view without a filter, three Escapes or more lead to the
top. -/
theorem pressEscape_three (d : Dispatch) (env : Env) (hd : ViewChange d)
    (hnav : d.isNavigationKey "esc" = false) (m : Model)
    (hmode : m.state.Mode = Mode.Normal) (hsel : m.selection.IsEmpty = true)
    (hview : m.state.Navigation.View = View.Apps)
    (hsets : m.state.Selections.ScopeApplicationSets.length = 0)
    (hfilter : m.state.UI.ActiveFilter = "" ∧ m.state.UI.SearchQuery = "")
    (t1 t2 t3 : Int) (rest : List Int)
    (hsp : Spaced m.state.Navigation.LastEscPressed (t1 :: t2 :: t3 :: rest)) :
    ∃ m', pressEscape d env m (t1 :: t2 :: t3 :: rest) = some m' ∧ AtTop m' := by
  obtain ⟨h1, h2, h3, hrest⟩ := hsp
  -- first Escape: Apps to Projects
  have hl1 : m.state.Navigation.View ≠ View.Tree := by rw [hview]; decide
  have s1 := handleKeyMsg_esc_list d env t1 m hnav h1 hmode hl1
  have f1 := handleEscape_frame d env (m.setLastEscPressed t1) hd hmode hsel (fun _ => hfilter) hl1
  have v1 := (handleEscape_moves d env (m.setLastEscPressed t1) hd hmode hsel
    (fun _ => hfilter)).1 hview hsets
  generalize (Model.handleEscape d env (m.setLastEscPressed t1)) = r1 at s1 f1 v1
  -- second Escape: Projects to Namespaces
  have hl2 : r1.1.state.Navigation.View ≠ View.Tree := by rw [v1.2]; decide
  have hf2 : r1.1.state.Navigation.View = View.Apps →
      r1.1.state.UI.ActiveFilter = "" ∧ r1.1.state.UI.SearchQuery = "" :=
    fun _ => ⟨f1.2.2.2.1, f1.2.2.2.2⟩
  have s2 := handleKeyMsg_esc_list d env t2 r1.1 hnav (by rw [f1.2.2.1]; exact h2) f1.1 hl2
  have f2 := handleEscape_frame d env (r1.1.setLastEscPressed t2) hd f1.1 f1.2.1 hf2 hl2
  have v2 := (handleEscape_moves d env (r1.1.setLastEscPressed t2) hd f1.1 f1.2.1 hf2).2.1 v1.2
  generalize (Model.handleEscape d env (r1.1.setLastEscPressed t2)) = r2 at s2 f2 v2
  -- third Escape: Namespaces to Clusters
  have hl3 : r2.1.state.Navigation.View ≠ View.Tree := by rw [v2.2]; decide
  have hf3 : r2.1.state.Navigation.View = View.Apps →
      r2.1.state.UI.ActiveFilter = "" ∧ r2.1.state.UI.SearchQuery = "" :=
    fun _ => ⟨f2.2.2.2.1, f2.2.2.2.2⟩
  have s3 := handleKeyMsg_esc_list d env t3 r2.1 hnav (by rw [f2.2.2.1]; exact h3) f2.1 hl3
  have f3 := handleEscape_frame d env (r2.1.setLastEscPressed t3) hd f2.1 f2.2.1 hf3 hl3
  have v3 := (handleEscape_moves d env (r2.1.setLastEscPressed t3) hd f2.1 f2.2.1 hf3).2.2.1 v2.2
  generalize (Model.handleEscape d env (r2.1.setLastEscPressed t3)) = r3 at s3 f3 v3
  have htop : AtTop r3.1 := by
    refine ⟨v3.2, ?_, ?_, ?_, ?_, ?_⟩
    · rw [v3.1]; rfl
    · rw [v3.1]; rfl
    · rw [v3.1]
      show r2.1.state.Selections.ScopeProjects.length = 0
      rw [v2.1]; rfl
    · rw [v3.1]
      show r2.1.state.Selections.ScopeApplicationSets.length = 0
      rw [v2.1]
      show r1.1.state.Selections.ScopeApplicationSets.length = 0
      rw [v1.1]
      exact hsets
    · rw [v3.1]
      show r2.1.state.Selections.SelectedApps.length = 0
      rw [v2.1]
      show r1.1.state.Selections.SelectedApps.length = 0
      rw [v1.1]; rfl
  obtain ⟨m', hm', htop'⟩ := pressEscape_top d env hd hnav rest r3.1 f3.1 f3.2.1 htop
    (by rw [f3.2.2.1]; exact hrest)
  refine ⟨m', ?_, htop'⟩
  unfold pressEscape
  rw [s1]
  simp only
  unfold pressEscape
  rw [s2]
  simp only
  unfold pressEscape
  rw [s3]
  simp only
  exact hm'

/-- C25. Repeated Escape reaches the top.  Starting from a Normal-mode state
in the view Apps with `ScopeApplicationSets` empty and no text selection,
Escape keystrokes at least 100 ms apart (the first one at least 100 ms after
the last Escape before them; and less than `2^63` ms apart, as clock readings
are, so that the `int64` difference of the code does not wrap), none taken by
the navigation router, and a
`safeChangeView` that sets the view and leaves the rest: after three keystrokes
or more, when no filter is active (`ActiveFilter` and `SearchQuery` are empty),
and after four or more in any case, the view is Clusters and `ScopeClusters`,
`ScopeNamespaces`, `ScopeProjects`, `ScopeApplicationSets` and `SelectedApps`
are all empty. -/
theorem pressEscape_reaches_top (d : Dispatch) (env : Env) (m : Model) (times : List Int)
    (hd : ViewChange d) (hnav : d.isNavigationKey "esc" = false)
    (hmode : m.state.Mode = Mode.Normal) (hsel : m.selection.IsEmpty = true)
    (hview : m.state.Navigation.View = View.Apps)
    (hsets : m.state.Selections.ScopeApplicationSets.length = 0)
    (hsp : Spaced m.state.Navigation.LastEscPressed times) :
    (m.state.UI.ActiveFilter = "" ∧ m.state.UI.SearchQuery = "" → 3 ≤ times.length →
      ∃ m', pressEscape d env m times = some m' ∧ AtTop m') ∧
    (4 ≤ times.length → ∃ m', pressEscape d env m times = some m' ∧ AtTop m') := by
  refine ⟨?_, ?_⟩
  · intro hfilter hlen
    match times, hsp, hlen with
    | t1 :: t2 :: t3 :: rest, hsp, _ =>
      exact pressEscape_three d env hd hnav m hmode hsel hview hsets hfilter t1 t2 t3 rest hsp
  · intro hlen
    by_cases hfilter : m.state.UI.ActiveFilter = "" ∧ m.state.UI.SearchQuery = ""
    · match times, hsp, hlen with
      | t1 :: t2 :: t3 :: rest, hsp, _ =>
        exact pressEscape_three d env hd hnav m hmode hsel hview hsets hfilter t1 t2 t3 rest hsp
    · match times, hsp, hlen with
      | t0 :: t1 :: t2 :: t3 :: rest, hsp, _ =>
        have hl : m.state.Navigation.View ≠ View.Tree := by rw [hview]; decide
        have s0 := handleKeyMsg_esc_list d env t0 m hnav hsp.1 hmode hl
        have hact : (m.setLastEscPressed t0).state.UI.ActiveFilter ≠ "" ∨
            (m.setLastEscPressed t0).state.UI.SearchQuery ≠ "" := by
          by_contra hno
          apply hfilter
          simp only [not_or, ne_eq, not_not] at hno
          exact hno
        have e0 : Model.handleEscape d env (m.setLastEscPressed t0) =
            ((m.setLastEscPressed t0).setUI { (m.setLastEscPressed t0).state.UI with
              SearchQuery := "", ActiveFilter := "" }, []) := by
          unfold Model.handleEscape
          have hsel' : (m.setLastEscPressed t0).selection.IsEmpty = true := hsel
          have hmode' : (m.setLastEscPressed t0).state.Mode = Mode.Normal := hmode
          have hyes : (m.setLastEscPressed t0).state.Navigation.View = View.Apps ∧
              ((m.setLastEscPressed t0).state.UI.ActiveFilter ≠ "" ∨
               (m.setLastEscPressed t0).state.UI.SearchQuery ≠ "") := ⟨hview, hact⟩
          simp only [hsel', Bool.not_true, Bool.false_eq_true, if_false, hmode', hyes, and_self,
            if_true]
        obtain ⟨m', hm', htop⟩ := pressEscape_three d env hd hnav
          ((m.setLastEscPressed t0).setUI { (m.setLastEscPressed t0).state.UI with
              SearchQuery := "", ActiveFilter := "" })
          hmode hsel hview hsets ⟨rfl, rfl⟩ t1 t2 t3 rest hsp.2
        refine ⟨m', ?_, htop⟩
        unfold pressEscape
        rw [s0, e0]
        exact hm'

/-- From the scoped Apps view of the examples, Escape at the clock times 1000,
1200 and 1400 ends at the top. -/
theorem pressEscape_reaches_top_witness :
    ∃ m', pressEscape Examples.keys Examples.twoAppsEnv (Examples.scopedView View.Apps)
        [1000, 1200, 1400] = some m' ∧ AtTop m' :=
  (pressEscape_reaches_top Examples.keys Examples.twoAppsEnv (Examples.scopedView View.Apps)
    [1000, 1200, 1400] keys_viewChange rfl rfl rfl rfl rfl
    ⟨by decide, by decide, by decide, trivial⟩).1 ⟨rfl, rfl⟩ (by decide)

end Argonaut

namespace Argonaut

open Model

/-! ## The quit chord over sequences of keystrokes -/

theorem handleToggleSelection_lastZ (env : Env) (m : Model) (r : Model × List Cmd)
    (h : Model.handleToggleSelection env m = some r) :
    r.1.state.Navigation.LastZPressed = m.state.Navigation.LastZPressed := by
  unfold Model.handleToggleSelection at h
  simp only at h
  repeat' split at h
  all_goals first
    | (have h1 := Option.some.inj h; subst h1; rfl)
    | cases h

theorem handleSyncModal_lastZ (env : Env) (m : Model) :
    (Model.handleSyncModal env m).1.state.Navigation.LastZPressed =
      m.state.Navigation.LastZPressed := by
  unfold Model.handleSyncModal Model.openSyncModal
  simp only
  repeat' split
  all_goals rfl

theorem handleOpenDiffForSelection_lastZ (env : Env) (m : Model) (r : Model × List Cmd)
    (h : Model.handleOpenDiffForSelection env m = some r) :
    r.1.state.Navigation.LastZPressed = m.state.Navigation.LastZPressed := by
  unfold Model.handleOpenDiffForSelection at h
  simp only at h
  repeat' split at h
  all_goals first
    | (have h1 := Option.some.inj h; subst h1; rfl)
    | cases h

theorem handleAppDelete_lastZ (env : Env) (m : Model) (r : Model × List Cmd)
    (h : Model.handleAppDelete env m = some r) :
    r.1.state.Navigation.LastZPressed = m.state.Navigation.LastZPressed := by
  unfold Model.handleAppDelete at h
  simp only at h
  repeat' split at h
  all_goals first
    | (have h1 := Option.some.inj h; subst h1; rfl)
    | cases h

theorem handleRollback_lastZ (d : Dispatch) (env : Env) (hz : KeepsLastZ d env) (m : Model)
    (r : Model × List Cmd) (h : Model.handleRollback env m = some r) :
    r.1.state.Navigation.LastZPressed = m.state.Navigation.LastZPressed := by
  have hstart : ∀ name : String,
      (Model.startRollback env m name).1.state.Navigation.LastZPressed =
        m.state.Navigation.LastZPressed := by
    intro name
    unfold Model.startRollback
    split
    · exact hz.statusSet _ _
    · rfl
  unfold Model.handleRollback at h
  simp only at h
  repeat' split at h
  all_goals first
    | (have h1 := Option.some.inj h; subst h1; first | rfl | exact hstart _ | exact hz.statusSet _ _)
    | cases h

theorem showK9sContextPicker_lastZ (env : Env) (m : Model) (kind ns name : String) :
    (Model.showK9sContextPicker env m kind ns name).1.state.Navigation.LastZPressed =
      m.state.Navigation.LastZPressed := by
  unfold Model.showK9sContextPicker
  repeat' split
  all_goals rfl

theorem handleOpenAppK9s_lastZ (env : Env) (m : Model) :
    (Model.handleOpenAppK9s env m).1.state.Navigation.LastZPressed =
      m.state.Navigation.LastZPressed := by
  unfold Model.handleOpenAppK9s Model.openK9sForApplicationCR
  simp only
  repeat' split
  all_goals first
    | rfl
    | exact showK9sContextPicker_lastZ _ _ _ _ _

theorem handleOpenK9s_lastZ (env : Env) (m : Model) :
    (Model.handleOpenK9s env m).1.state.Navigation.LastZPressed =
      m.state.Navigation.LastZPressed := by
  unfold Model.handleOpenK9s Model.openK9sForApplicationCR
  repeat' split
  all_goals first
    | rfl
    | exact showK9sContextPicker_lastZ _ _ _ _ _

theorem handleResourceDiff_lastZ (m : Model) :
    (Model.handleResourceDiff m).1.state.Navigation.LastZPressed =
      m.state.Navigation.LastZPressed := by
  unfold Model.handleResourceDiff
  simp only
  repeat' split
  all_goals rfl

theorem handleResourceDelete_lastZ (m : Model) :
    (Model.handleResourceDelete m).1.state.Navigation.LastZPressed =
      m.state.Navigation.LastZPressed := by
  unfold Model.handleResourceDelete
  simp only
  repeat' split
  all_goals rfl

theorem handleResourceSync_lastZ (m : Model) :
    (Model.handleResourceSync m).1.state.Navigation.LastZPressed =
      m.state.Navigation.LastZPressed := by
  unfold Model.handleResourceSync
  simp only
  repeat' split
  all_goals rfl

theorem openTreeView_lastZ (d : Dispatch) (env : Env) (hz : KeepsLastZ d env) (m : Model)
    (name : Option String) :
    (Model.openTreeView env m name).state.Navigation.LastZPressed =
      m.state.Navigation.LastZPressed := by
  unfold Model.openTreeView
  show (env.SaveNavigationState (env.treeNavReset _).state).Navigation.LastZPressed = _
  rw [hz.SaveNavigationState, hz.treeNavReset]
  exact hz.cleanupTreeWatchers m

theorem handleOpenResourcesForSelection_lastZ (d : Dispatch) (env : Env) (hz : KeepsLastZ d env)
    (m : Model) (r : Model × List Cmd)
    (h : Model.handleOpenResourcesForSelection env m = some r) :
    r.1.state.Navigation.LastZPressed = m.state.Navigation.LastZPressed := by
  unfold Model.handleOpenResourcesForSelection at h
  simp only at h
  repeat' split at h
  all_goals first
    | (have h1 := Option.some.inj h; subst h1; first | rfl | exact openTreeView_lastZ d env hz _ _)
    | cases h

theorem drillAssign_lastZ (m : Model) (result : NavigationUpdate) :
    (Model.drillAssign m result).state.Navigation.LastZPressed =
      m.state.Navigation.LastZPressed := by
  obtain ⟨nv, sc, sn, sp, sa, sel, reset, clear⟩ := result
  cases nv <;> cases sc <;> cases sn <;> cases sp <;> cases sa <;> cases sel <;> rfl

theorem drillReset_lastZ (d : Dispatch) (env : Env) (hz : KeepsLastZ d env) (m : Model)
    (result : NavigationUpdate) :
    (Model.drillReset env m result).state.Navigation.LastZPressed =
      m.state.Navigation.LastZPressed := by
  unfold Model.drillReset
  split
  · rw [hz.listNavReset]
    rfl
  · rfl

theorem drillClear_lastZ (env : Env) (w : View) (m : Model) (result : NavigationUpdate) :
    (Model.drillClear env w m result).state.Navigation.LastZPressed =
      m.state.Navigation.LastZPressed := by
  unfold Model.drillClear
  split
  · generalize env.ClearLowerLevelSelections w = cl
    obtain ⟨c1, c2, c3⟩ := cl
    cases c1 <;> cases c2 <;> cases c3 <;> rfl
  · rfl

theorem handleDrillDown_lastZ (d : Dispatch) (env : Env) (hz : KeepsLastZ d env)
    (m : Model) (r : Model × List Cmd) (h : Model.handleDrillDown env m = some r) :
    r.1.state.Navigation.LastZPressed = m.state.Navigation.LastZPressed := by
  unfold Model.handleDrillDown at h
  simp only at h
  split at h
  · exact handleOpenResourcesForSelection_lastZ d env hz m r h
  · repeat' split at h
    all_goals first
      | (have h1 := Option.some.inj h
         subst h1
         first
         | rfl
         | (show (Model.drillClear env _ _ _).state.Navigation.LastZPressed = _
            rw [drillClear_lastZ, drillReset_lastZ d env hz, drillAssign_lastZ]))
      | cases h

theorem handleEscape_lastZ (d : Dispatch) (env : Env) (hz : KeepsLastZ d env) (m : Model) :
    (Model.handleEscape d env m).1.state.Navigation.LastZPressed =
      m.state.Navigation.LastZPressed := by
  unfold Model.handleEscape
  simp only
  repeat' split
  all_goals first
    | rfl
    | (show (d.safeChangeView _ _).state.Navigation.LastZPressed = _
       rw [hz.safeChangeView]
       try rfl)

theorem globalKeys_lastZ (d : Dispatch) (env : Env) (hz : KeepsLastZ d env) (now : Int)
    (m : Model) (key : String) :
    ∀ r : Model × List Cmd,
      Model.globalKeys (Model.keyHandlers env d) env now m key = some r →
      r.1.state.Navigation.LastZPressed = m.state.Navigation.LastZPressed ∨
      (key = "Z" ∧ r.1.state.Navigation.LastZPressed = now ∧ r.2 = []) ∨
      (key = "Q" ∧ r.1.state.Navigation.LastZPressed = 0) := by
  unfold Model.globalKeys
  repeat' with_reducible refine ite_some_cases _ _ _ _ (fun _ => ?_) (fun _ => ?_)
  all_goals
    intro r h
    first
    | exact Or.inl (handleToggleSelection_lastZ env m r h)
    | exact Or.inl (handleDrillDown_lastZ d env hz m r h)
    | exact Or.inl (hz.handleEnterSearchMode now m r h)
    | exact Or.inl (hz.handleEnterCommandMode now m r h)
    | exact Or.inl (handleOpenResourcesForSelection_lastZ d env hz m r h)
    | exact Or.inl (handleOpenDiffForSelection_lastZ env m r h)
    | exact Or.inl (handleRollback_lastZ d env hz m r h)
    | exact Or.inl (handleAppDelete_lastZ env m r h)
    | (have h1 := Option.some.inj h
       subst h1
       first
       | exact Or.inl rfl
       | exact Or.inl (handleSyncModal_lastZ env m)
       | exact Or.inl (handleOpenAppK9s_lastZ env m)
       | exact Or.inl (handleResourceDelete_lastZ m)
       | exact Or.inl (handleEscape_lastZ d env hz m)
       | exact Or.inr (Or.inl ⟨‹key = "Z"›, rfl, rfl⟩)
       | exact Or.inr (Or.inr ⟨‹key = "Q"›, rfl⟩))

theorem treeKeys_lastZ (d : Dispatch) (env : Env) (hz : KeepsLastZ d env) (now : Int)
    (m : Model) (key : String) :
    ∀ r : Model × List Cmd,
      Model.treeKeys (Model.keyHandlers env d) env now m key = some r →
      r.1.state.Navigation.LastZPressed = m.state.Navigation.LastZPressed := by
  have hsafe : ∀ (x : Model) (w : View),
      ((Model.keyHandlers env d).safeChangeView x w).state.Navigation.LastZPressed =
        x.state.Navigation.LastZPressed := hz.safeChangeView
  have hcur : ∀ (x : Model) (i : Int),
      ((Model.keyHandlers env d).treeNavSetCursor x i).state.Navigation.LastZPressed =
        x.state.Navigation.LastZPressed := hz.treeNavSetCursor
  have hcount : ∀ (x : Model) (i : Int),
      ((Model.keyHandlers env d).treeNavSetItemCount x i).state.Navigation.LastZPressed =
        x.state.Navigation.LastZPressed := hz.treeNavSetItemCount
  have hheight : ∀ (x : Model) (i : Int),
      ((Model.keyHandlers env d).treeNavSetViewportHeight x i).state.Navigation.LastZPressed =
        x.state.Navigation.LastZPressed := hz.treeNavSetViewportHeight
  unfold Model.treeKeys
  repeat' with_reducible refine ite_some_cases _ _ _ _ (fun _ => ?_) (fun _ => ?_)
  all_goals
    intro r h
    first
    | exact hz.handleEnterSearchMode now m r h
    | exact hz.handleEnterCommandMode now m r h
    | (cases htv : m.treeView <;> simp only [htv] at h <;>
        (repeat' split at h) <;>
        first
        | (have h1 := Option.some.inj h
           subst h1
           first
           | rfl
           | exact handleOpenK9s_lastZ env m
           | exact handleResourceDiff_lastZ m
           | exact handleResourceDelete_lastZ m
           | exact handleResourceSync_lastZ m
           | exact (hsafe _ _).trans rfl
           | exact (hcur _ _).trans rfl
           | exact (hcur _ _).trans ((hheight _ _).trans ((hcount _ _).trans rfl)))
        | cases h)

theorem handleKeyMsg_lastZ (d : Dispatch) (env : Env) (hz : KeepsLastZ d env) (now : Int)
    (m : Model) (key : String) (hmode : m.state.Mode = Mode.Normal) (r : Model × List Cmd)
    (h : Model.handleKeyMsg (Model.keyHandlers env d) env now m key = some r) :
    r.1.state.Navigation.LastZPressed = m.state.Navigation.LastZPressed ∨
    (key = "Z" ∧ r.1.state.Navigation.LastZPressed = now ∧ r.2 = []) ∨
    (key = "Q" ∧ r.1.state.Navigation.LastZPressed = 0) := by
  have hdisp : ∀ (x : Model) (r : Model × List Cmd), x.state.Mode = Mode.Normal →
      Model.dispatchKey (Model.keyHandlers env d) env now x key = some r →
      r.1.state.Navigation.LastZPressed = x.state.Navigation.LastZPressed ∨
      (key = "Z" ∧ r.1.state.Navigation.LastZPressed = now ∧ r.2 = []) ∨
      (key = "Q" ∧ r.1.state.Navigation.LastZPressed = 0) := by
    intro x r hx hr
    unfold Model.dispatchKey at hr
    split at hr
    · exact Or.inl (hz.executeNavigation now x key r hr)
    · rw [hx] at hr
      simp only at hr
      split at hr
      · exact Or.inl (treeKeys_lastZ d env hz now x key r hr)
      · exact globalKeys_lastZ d env hz now x key r hr
  unfold Model.handleKeyMsg at h
  split at h
  · have h1 := Option.some.inj h
    subst h1
    exact Or.inl rfl
  · split at h
    · split at h
      · have h1 := Option.some.inj h
        subst h1
        exact Or.inl rfl
      · exact hdisp (m.setLastEscPressed now) r hmode h
    · exact hdisp m r hmode h

/-- After keystrokes handled in Normal mode, `LastZPressed` is what it was at
the start, 0, or the time of one of the Z keystrokes. -/
theorem runNormal_lastZ (d : Dispatch) (env : Env) (hz : KeepsLastZ d env)
    (pre : List Keystroke) :
    ∀ m0 m : Model, runNormal d env m0 pre = some m →
      m.state.Navigation.LastZPressed = m0.state.Navigation.LastZPressed ∨
      m.state.Navigation.LastZPressed = 0 ∨
      ∃ z ∈ pre, z.key = "Z" ∧ z.time = m.state.Navigation.LastZPressed := by
  induction pre with
  | nil =>
    intro m0 m h
    have h1 : m0 = m := Option.some.inj h
    subst h1
    exact Or.inl rfl
  | cons k ks ih =>
    intro m0 m h
    unfold runNormal at h
    split at h
    · rename_i hmode
      split at h
      · rename_i r hr
        have hstep := handleKeyMsg_lastZ d env hz k.time m0 k.key hmode r hr
        rcases ih r.1 m h with h1 | h1 | ⟨z, hz1, hz2, hz3⟩
        · rcases hstep with h2 | ⟨h2, h3, _⟩ | ⟨_, h3⟩
          · exact Or.inl (h1.trans h2)
          · exact Or.inr (Or.inr ⟨k, List.mem_cons_self _ _, h2, (h1.trans h3).symm⟩)
          · exact Or.inr (Or.inl (h1.trans h3))
        · exact Or.inr (Or.inl h1)
        · exact Or.inr (Or.inr ⟨z, List.mem_cons_of_mem _ hz1, hz2, hz3⟩)
      · cases h
    · cases h

/-- A Z or Q keystroke in Normal mode yields `QuitMsg` only when `LastZPressed`
is positive and less than 500 ms old. -/
theorem handleKeyMsg_quit (d : Dispatch) (env : Env) (now : Int) (m : Model) (key : String)
    (hZ : d.isNavigationKey "Z" = false) (hQ : d.isNavigationKey "Q" = false)
    (hmode : m.state.Mode = Mode.Normal) (hkey : key = "Z" ∨ key = "Q")
    (r : Model × List Cmd)
    (h : Model.handleKeyMsg (Model.keyHandlers env d) env now m key = some r)
    (hq : Cmd.quit ∈ r.2) :
    m.state.Navigation.LastZPressed > 0 ∧
      sub64 now m.state.Navigation.LastZPressed < 500 := by
  by_cases hview : m.state.Navigation.View = View.Tree
  · have hnav : (Model.keyHandlers env d).isNavigationKey key = false := by
      rcases hkey with rfl | rfl
      · exact hZ
      · exact hQ
    obtain ⟨m', h1, _⟩ := handleKeyMsg_tree_default (Model.keyHandlers env d) env now m key hkey
      hmode hview hnav
    rw [h1] at h
    have h2 := Option.some.inj h
    subst h2
    simp at hq
  · by_contra hno
    rcases hkey with rfl | rfl
    · rw [handleKeyMsg_Z (Model.keyHandlers env d) env now m hmode hview hZ, if_neg hno] at h
      have h2 := Option.some.inj h
      subst h2
      simp at hq
    · rw [handleKeyMsg_Q (Model.keyHandlers env d) env now m hmode hview hQ, if_neg hno] at h
      have h2 := Option.some.inj h
      subst h2
      simp at hq

/-- The example handlers and environment leave `LastZPressed` alone. -/
theorem keys_keepsLastZ (items : List Item) : KeepsLastZ Examples.keys (Examples.envOf items) :=
  { executeNavigation := fun _ _ _ _ h => by cases h; rfl,
    handleEnterSearchMode := fun _ _ _ h => by cases h; rfl,
    handleEnterCommandMode := fun _ _ _ h => by cases h; rfl,
    safeChangeView := fun _ _ => rfl,
    treeNavSetCursor := fun _ _ => rfl,
    treeNavSetItemCount := fun _ _ => rfl,
    treeNavSetViewportHeight := fun _ _ => rfl,
    cleanupTreeWatchers := fun _ => rfl,
    treeNavReset := fun _ => rfl,
    SaveNavigationState := fun _ => rfl,
    listNavReset := fun _ => rfl,
    statusSet := fun _ _ => rfl }

/-- C21. The quit chord never fires late.  Take a model whose `LastZPressed` is
0 (no Z received yet), a sequence `pre` of keystrokes each handled by
`handleKeyMsg` in Normal mode, and a further keystroke Z or Q handled in Normal
mode at the clock time `k.time`, an `int64` reading (so below `2^63`).  If
that keystroke produces `QuitMsg`, then
`pre` contains a Z keystroke at a positive clock time less than 500 ms before
`k.time`.  In particular it produces no `QuitMsg` when no Z precedes it (a
first Z, a Q with no preceding Z), nor when every preceding Z is 500 ms old or
more.  The functions in other files of the repository are assumed not to write
`LastZPressed`, and Z and Q not to be navigation keys. -/
theorem chord_never_late (d : Dispatch) (env : Env) (hz : KeepsLastZ d env)
    (hZ : d.isNavigationKey "Z" = false) (hQ : d.isNavigationKey "Q" = false)
    (m0 m : Model) (pre : List Keystroke) (k : Keystroke) (r : Model × List Cmd)
    (h0 : m0.state.Navigation.LastZPressed = 0)
    (hrun : runNormal d env m0 pre = some m) (hmode : m.state.Mode = Mode.Normal)
    (hkey : k.key = "Z" ∨ k.key = "Q") (hk : k.time < 9223372036854775808)
    (hstep : Model.handleKeyMsg (Model.keyHandlers env d) env k.time m k.key = some r) :
    (Cmd.quit ∈ r.2 → ∃ z ∈ pre, z.key = "Z" ∧ 0 < z.time ∧ k.time - z.time < 500) ∧
    ((∀ z ∈ pre, z.key ≠ "Z") → Cmd.quit ∉ r.2) ∧
    ((∀ z ∈ pre, z.key = "Z" → 500 ≤ k.time - z.time) → Cmd.quit ∉ r.2) := by
  have main : Cmd.quit ∈ r.2 →
      ∃ z ∈ pre, z.key = "Z" ∧ 0 < z.time ∧ k.time - z.time < 500 := by
    intro hquit
    obtain ⟨hpos, hrecent⟩ :=
      handleKeyMsg_quit d env k.time m k.key hZ hQ hmode hkey r hstep hquit
    rcases runNormal_lastZ d env hz pre m0 m hrun with h1 | h1 | ⟨z, hz1, hz2, hz3⟩
    · rw [h1, h0] at hpos
      exact absurd hpos (by decide)
    · rw [h1] at hpos
      exact absurd hpos (by decide)
    · rw [← hz3] at hpos hrecent
      refine ⟨z, hz1, hz2, hpos, ?_⟩
      unfold sub64 at hrecent
      omega
  refine ⟨main, ?_, ?_⟩
  · intro hno hquit
    obtain ⟨z, hz1, hz2, _⟩ := main hquit
    exact hno z hz1 hz2
  · intro hold hquit
    obtain ⟨z, hz1, hz2, _, hz4⟩ := main hquit
    have := hold z hz1 hz2
    omega

/-- In the example model, Z at the clock time 1000 and Z again at 1200: the
second Z quits, and the first is the Z received less than 500 ms before it. -/
theorem chord_never_late_witness :
    runNormal Examples.keys Examples.twoAppsEnv Examples.emptyModel [⟨1000, "Z"⟩] =
      some (Examples.emptyModel.setLastZPressed 1000) ∧
    Model.handleKeyMsg (Model.keyHandlers Examples.twoAppsEnv Examples.keys) Examples.twoAppsEnv
      1200 (Examples.emptyModel.setLastZPressed 1000) "Z" =
      some (Examples.emptyModel.setLastZPressed 1000, [Cmd.quit]) ∧
    ∃ z ∈ [(⟨1000, "Z"⟩ : Keystroke)], z.key = "Z" ∧ 0 < z.time ∧ 1200 - z.time < 500 :=
  ⟨by decide, by decide,
    (chord_never_late Examples.keys Examples.twoAppsEnv (keys_keepsLastZ _) rfl rfl
      Examples.emptyModel (Examples.emptyModel.setLastZPressed 1000) [⟨1000, "Z"⟩] ⟨1200, "Z"⟩
      (Examples.emptyModel.setLastZPressed 1000, [Cmd.quit]) rfl (by decide) rfl (Or.inl rfl)
      (by decide) (by decide)).1 (by decide)⟩

end Argonaut

namespace Argonaut

open Model

/-- C35. Error mode exit: on `q` or `esc`, `handleErrorModeKeys` returns the
model unchanged (so the mode stays what it was, Error) with the single command
`QuitMsg` when no application is loaded; when at least one application is
loaded it clears the current error (`CurrentError` and, when there is an error
state, its `Current`), sets the mode to Normal, changes nothing else and
produces no command. -/
theorem handleErrorModeKeys_exit (env : Env) (m : Model) (key : String)
    (hkey : key = "q" ∨ key = "esc") :
    (m.state.Apps.length = 0 →
      handleErrorModeKeys env m key = (m, [Cmd.quit]) ∧
      (m.state.Mode = Mode.Error →
        (handleErrorModeKeys env m key).1.state.Mode = Mode.Error)) ∧
    (m.state.Apps.length ≠ 0 →
      (handleErrorModeKeys env m key).2 = [] ∧
      (handleErrorModeKeys env m key).1.state.Mode = Mode.Normal ∧
      (handleErrorModeKeys env m key).1.state.CurrentError = none ∧
      (∀ e, (handleErrorModeKeys env m key).1.state.ErrorState = some e → e.Current = none) ∧
      (handleErrorModeKeys env m key).1 =
        { m with state := { m.state with
            Mode := Mode.Normal,
            CurrentError := none,
            ErrorState := m.state.ErrorState.map (fun e => { e with Current := none }) } }) := by
  have h0 : ∀ h : m.state.Apps.length = 0,
      handleErrorModeKeys env m key = (m, [Cmd.quit]) := by
    intro h
    unfold handleErrorModeKeys
    rw [if_pos hkey, if_pos h]
  have h1 : ∀ h : m.state.Apps.length ≠ 0,
      handleErrorModeKeys env m key = (m.clearError.setMode Mode.Normal, []) := by
    intro h
    unfold handleErrorModeKeys
    rw [if_pos hkey, if_neg h]
  refine ⟨fun h => ⟨h0 h, fun hm => ?_⟩, fun h => ?_⟩
  · rw [h0 h]
    exact hm
  · rw [h1 h]
    refine ⟨rfl, rfl, rfl, ?_, rfl⟩
    intro e he
    cases hes : m.state.ErrorState with
    | none =>
      have : (m.clearError.setMode Mode.Normal).state.ErrorState = none := by
        show Option.map _ m.state.ErrorState = none
        rw [hes]
        rfl
      rw [this] at he
      cases he
    | some e0 =>
      have : (m.clearError.setMode Mode.Normal).state.ErrorState =
          some { e0 with Current := none } := by
        show Option.map _ m.state.ErrorState = _
        rw [hes]
        rfl
      rw [this] at he
      cases he
      rfl

end Argonaut

namespace Argonaut

open Model

/-- Witness for C35: `q` with no application loaded quits and leaves the Error
mode in place; `esc` with the application `x` loaded clears the error `boom`
and returns to Normal without a command. -/
theorem handleErrorModeKeys_exit_witness :
    handleErrorModeKeys Examples.twoAppsEnv (Examples.inMode Mode.Error) "q" =
      (Examples.inMode Mode.Error, [Cmd.quit]) ∧
    (handleErrorModeKeys Examples.twoAppsEnv Examples.errorLoaded "esc").2 = [] ∧
    (handleErrorModeKeys Examples.twoAppsEnv Examples.errorLoaded "esc").1.state.Mode =
      Mode.Normal ∧
    (handleErrorModeKeys Examples.twoAppsEnv Examples.errorLoaded "esc").1.state.CurrentError =
      none :=
  have h := handleErrorModeKeys_exit Examples.twoAppsEnv Examples.errorLoaded "esc"
    (Or.inr rfl)
  have h1 := h.2 (by decide)
  ⟨((handleErrorModeKeys_exit Examples.twoAppsEnv (Examples.inMode Mode.Error) "q"
      (Or.inl rfl)).1 (by decide)).1, h1.1, h1.2.1, h1.2.2.1⟩

/-- C32. Propagation-policy cycle: in `handleConfirmAppDeleteKeys` and in
`handleConfirmResourceDeleteKeys` the key `p` produces no command and changes
only the propagation policy of the handler, which goes from foreground to
background, from background to orphan, from orphan to foreground and from any
other value to foreground; so the policy after one press is one of the three
valid values, and three presses from a valid value restore the model.  Two
presses of `c` restore the model (the cascade flag is negated each time), and
so do two presses of `f` in the resource delete confirmation. -/
theorem propagation_policy_cycle (env : Env) (m : Model) :
    -- `p` changes the policy only
    ((handleConfirmAppDeleteKeys env m "p").2 = [] ∧
     (handleConfirmAppDeleteKeys env m "p").1 =
        m.setModals { m.state.Modals with
          DeletePropagationPolicy :=
            (handleConfirmAppDeleteKeys env m "p").1.state.Modals.DeletePropagationPolicy } ∧
     (handleConfirmResourceDeleteKeys m "p").2 = [] ∧
     (handleConfirmResourceDeleteKeys m "p").1 =
        m.setModals { m.state.Modals with
          ResourceDeletePropagationPolicy :=
            (handleConfirmResourceDeleteKeys m "p").1.state.Modals.ResourceDeletePropagationPolicy }) ∧
    -- the cycle of the application delete confirmation
    ((m.state.Modals.DeletePropagationPolicy = "foreground" →
        (handleConfirmAppDeleteKeys env m "p").1.state.Modals.DeletePropagationPolicy =
          "background") ∧
     (m.state.Modals.DeletePropagationPolicy = "background" →
        (handleConfirmAppDeleteKeys env m "p").1.state.Modals.DeletePropagationPolicy =
          "orphan") ∧
     (m.state.Modals.DeletePropagationPolicy = "orphan" →
        (handleConfirmAppDeleteKeys env m "p").1.state.Modals.DeletePropagationPolicy =
          "foreground") ∧
     (m.state.Modals.DeletePropagationPolicy ∉ ["foreground", "background", "orphan"] →
        (handleConfirmAppDeleteKeys env m "p").1.state.Modals.DeletePropagationPolicy =
          "foreground")) ∧
    -- the cycle of the resource delete confirmation
    ((m.state.Modals.ResourceDeletePropagationPolicy = "foreground" →
        (handleConfirmResourceDeleteKeys m "p").1.state.Modals.ResourceDeletePropagationPolicy =
          "background") ∧
     (m.state.Modals.ResourceDeletePropagationPolicy = "background" →
        (handleConfirmResourceDeleteKeys m "p").1.state.Modals.ResourceDeletePropagationPolicy =
          "orphan") ∧
     (m.state.Modals.ResourceDeletePropagationPolicy = "orphan" →
        (handleConfirmResourceDeleteKeys m "p").1.state.Modals.ResourceDeletePropagationPolicy =
          "foreground") ∧
     (m.state.Modals.ResourceDeletePropagationPolicy ∉ ["foreground", "background", "orphan"] →
        (handleConfirmResourceDeleteKeys m "p").1.state.Modals.ResourceDeletePropagationPolicy =
          "foreground")) ∧
    -- one press gives a valid value
    ((handleConfirmAppDeleteKeys env m "p").1.state.Modals.DeletePropagationPolicy ∈
        ["foreground", "background", "orphan"] ∧
     (handleConfirmResourceDeleteKeys m "p").1.state.Modals.ResourceDeletePropagationPolicy ∈
        ["foreground", "background", "orphan"]) ∧
    -- three presses from a valid value
    ((m.state.Modals.DeletePropagationPolicy ∈ ["foreground", "background", "orphan"] →
        (handleConfirmAppDeleteKeys env
          (handleConfirmAppDeleteKeys env
            (handleConfirmAppDeleteKeys env m "p").1 "p").1 "p").1 = m) ∧
     (m.state.Modals.ResourceDeletePropagationPolicy ∈ ["foreground", "background", "orphan"] →
        (handleConfirmResourceDeleteKeys
          (handleConfirmResourceDeleteKeys
            (handleConfirmResourceDeleteKeys m "p").1 "p").1 "p").1 = m)) ∧
    -- `c` and `f`
    ((handleConfirmAppDeleteKeys env m "c").2 = [] ∧
     (handleConfirmAppDeleteKeys env m "c").1 =
        m.setModals { m.state.Modals with DeleteCascade := !m.state.Modals.DeleteCascade } ∧
     (handleConfirmAppDeleteKeys env (handleConfirmAppDeleteKeys env m "c").1 "c").1 = m ∧
     (handleConfirmResourceDeleteKeys m "c").2 = [] ∧
     (handleConfirmResourceDeleteKeys m "c").1 =
        m.setModals { m.state.Modals with
          ResourceDeleteCascade := !m.state.Modals.ResourceDeleteCascade } ∧
     (handleConfirmResourceDeleteKeys (handleConfirmResourceDeleteKeys m "c").1 "c").1 = m ∧
     (handleConfirmResourceDeleteKeys m "f").2 = [] ∧
     (handleConfirmResourceDeleteKeys m "f").1 =
        m.setModals { m.state.Modals with
          ResourceDeleteForce := !m.state.Modals.ResourceDeleteForce } ∧
     (handleConfirmResourceDeleteKeys (handleConfirmResourceDeleteKeys m "f").1 "f").1 = m) := by
  have hpa : ∀ m : Model, handleConfirmAppDeleteKeys env m "p" =
      (m.setModals { m.state.Modals with
        DeletePropagationPolicy :=
          nextPropagationPolicy m.state.Modals.DeletePropagationPolicy }, []) := by
    intro m
    simp +decide [handleConfirmAppDeleteKeys]
  have hpr : ∀ m : Model, handleConfirmResourceDeleteKeys m "p" =
      (m.setModals { m.state.Modals with
        ResourceDeletePropagationPolicy :=
          nextPropagationPolicy m.state.Modals.ResourceDeletePropagationPolicy }, []) := by
    intro m
    simp +decide [handleConfirmResourceDeleteKeys]
  have hca : ∀ m : Model, handleConfirmAppDeleteKeys env m "c" =
      (m.setModals { m.state.Modals with DeleteCascade := !m.state.Modals.DeleteCascade },
        []) := by
    intro m
    simp +decide [handleConfirmAppDeleteKeys]
  have hcr : ∀ m : Model, handleConfirmResourceDeleteKeys m "c" =
      (m.setModals { m.state.Modals with
        ResourceDeleteCascade := !m.state.Modals.ResourceDeleteCascade }, []) := by
    intro m
    simp +decide [handleConfirmResourceDeleteKeys]
  have hfr : ∀ m : Model, handleConfirmResourceDeleteKeys m "f" =
      (m.setModals { m.state.Modals with
        ResourceDeleteForce := !m.state.Modals.ResourceDeleteForce }, []) := by
    intro m
    simp +decide [handleConfirmResourceDeleteKeys]
  have hnext : ∀ x : String,
      (x = "foreground" → nextPropagationPolicy x = "background") ∧
      (x = "background" → nextPropagationPolicy x = "orphan") ∧
      (x = "orphan" → nextPropagationPolicy x = "foreground") ∧
      (x ∉ ["foreground", "background", "orphan"] → nextPropagationPolicy x = "foreground") ∧
      nextPropagationPolicy x ∈ ["foreground", "background", "orphan"] ∧
      (x ∈ ["foreground", "background", "orphan"] →
        nextPropagationPolicy (nextPropagationPolicy (nextPropagationPolicy x)) = x) := by
    intro x
    refine ⟨?_, ?_, ?_, ?_, ?_, ?_⟩
    · rintro rfl; decide
    · rintro rfl; decide
    · rintro rfl; decide
    · intro h
      simp only [List.mem_cons, List.mem_singleton, List.mem_nil_iff, or_false, not_or] at h
      unfold nextPropagationPolicy
      rw [if_neg h.1, if_neg h.2.1, if_neg h.2.2]
    · unfold nextPropagationPolicy
      split_ifs <;> decide
    · intro h
      simp only [List.mem_cons, List.mem_singleton, List.mem_nil_iff, or_false] at h
      rcases h with rfl | rfl | rfl <;> decide
  refine ⟨⟨?_, ?_, ?_, ?_⟩, ⟨?_, ?_, ?_, ?_⟩, ⟨?_, ?_, ?_, ?_⟩, ⟨?_, ?_⟩, ⟨?_, ?_⟩,
    ⟨?_, ?_, ?_, ?_, ?_, ?_, ?_, ?_, ?_⟩⟩
  · rw [hpa]
  · rw [hpa]
    rfl
  · rw [hpr]
  · rw [hpr]
    rfl
  · rw [hpa]; exact (hnext _).1
  · rw [hpa]; exact (hnext _).2.1
  · rw [hpa]; exact (hnext _).2.2.1
  · rw [hpa]; exact (hnext _).2.2.2.1
  · rw [hpr]; exact (hnext _).1
  · rw [hpr]; exact (hnext _).2.1
  · rw [hpr]; exact (hnext _).2.2.1
  · rw [hpr]; exact (hnext _).2.2.2.1
  · rw [hpa]; exact (hnext _).2.2.2.2.1
  · rw [hpr]; exact (hnext _).2.2.2.2.1
  · intro h
    have h3 := (hnext _).2.2.2.2.2 h
    rw [hpa, hpa, hpa]
    dsimp only [Model.setModals]
    rw [h3]
  · intro h
    have h3 := (hnext _).2.2.2.2.2 h
    rw [hpr, hpr, hpr]
    dsimp only [Model.setModals]
    rw [h3]
  · rw [hca]
  · rw [hca]
  · rw [hca, hca]
    dsimp only [Model.setModals]
    rw [Bool.not_not]
  · rw [hcr]
  · rw [hcr]
  · rw [hcr, hcr]
    dsimp only [Model.setModals]
    rw [Bool.not_not]
  · rw [hfr]
  · rw [hfr]
  · rw [hfr, hfr]
    dsimp only [Model.setModals]
    rw [Bool.not_not]

/-- The cycle on fixtures: from the policy `orphan` the key `p` gives
`foreground`, and from the unset policy as well. -/
theorem propagation_policy_example :
    ((handleConfirmAppDeleteKeys Examples.twoAppsEnv
        (Examples.appDeleteModal "orphan") "p").1.state.Modals.DeletePropagationPolicy,
     (handleConfirmResourceDeleteKeys
        (Examples.resourceDeleteModal "") "p").1.state.Modals.ResourceDeletePropagationPolicy,
     (handleConfirmResourceDeleteKeys
        (Examples.resourceDeleteModal "orphan") "f").1.state.Modals.ResourceDeleteForce) =
      ("foreground", "foreground", true) := by
  decide

end Argonaut

namespace Argonaut

open Model

/-- C31. Rollback loading guard.  While the rollback state is absent or its
`Loading` flag is set, `handleRollbackModeKeys` on `esc` and on `q` returns to
Normal with `Rollback = nil` and `RollbackAppName = nil` and no command, and on
every key other than its exit keys it returns the model unchanged with no
command.  The keys that `handleKeyMsg` hands to the handler in Rollback mode
are the keys other than `ctrl+c` that the navigation router does not take (an
Escape when it is not debounced, with its time stored first): `ctrl+c`, which
the handler lists with `esc` and `q`, ends in the kill switch of `handleKeyMsg`
and never reaches the handler.  So every key the handler handles other than
`esc` and `q` leaves the model unchanged and produces no command. -/
theorem handleRollbackModeKeys_loading (d : Dispatch) (env : Env) (now : Int) (m : Model)
    (key : String)
    (hmode : m.state.Mode = Mode.Rollback)
    (hload : m.state.Rollback = none ∨
      ∃ rb, m.state.Rollback = some rb ∧ rb.Loading = true) :
    -- the handler on `esc` and `q`
    (key = "esc" ∨ key = "q" →
      handleRollbackModeKeys m key =
        some (((m.setMode Mode.Normal).setModals { m.state.Modals with
          RollbackAppName := none }).setRollback none, []) ∧
      ∃ r, handleRollbackModeKeys m key = some (r, []) ∧
        r.state.Mode = Mode.Normal ∧ r.state.Rollback = none ∧
        r.state.Modals.RollbackAppName = none) ∧
    -- the handler on the other keys
    (key ≠ "esc" → key ≠ "q" → key ≠ "ctrl+c" →
      handleRollbackModeKeys m key = some (m, [])) ∧
    -- the keys that reach the handler
    handleKeyMsg (keyHandlers env d) env now m "ctrl+c" = some (m, [Cmd.quit]) ∧
    (key ≠ "ctrl+c" →
      ¬ (d.isNavigationKey key ∧
          d.supportsNavigation (if key = "esc" then m.setLastEscPressed now else m)) →
      (key = "esc" → ¬ sub64 now m.state.Navigation.LastEscPressed < 100) →
      handleKeyMsg (keyHandlers env d) env now m key =
        handleRollbackModeKeys (if key = "esc" then m.setLastEscPressed now else m) key) ∧
    -- hence every key handed to the handler other than `esc` and `q`
    (key ≠ "ctrl+c" → ¬ (d.isNavigationKey key ∧ d.supportsNavigation m) →
      key ≠ "esc" → key ≠ "q" →
      handleKeyMsg (keyHandlers env d) env now m key = some (m, [])) := by
  have hother : key ≠ "esc" → key ≠ "q" → key ≠ "ctrl+c" →
      handleRollbackModeKeys m key = some (m, []) := by
    intro h1 h2 h3
    unfold handleRollbackModeKeys
    rw [if_neg (by
      rintro (h | h | h)
      · exact h1 h
      · exact h2 h
      · exact h3 h)]
    rcases hload with h | ⟨rb, h, hl⟩
    · rw [h]
    · rw [h]
      simp only [hl, if_true]
  have hexit : key = "esc" ∨ key = "q" →
      handleRollbackModeKeys m key =
        some (((m.setMode Mode.Normal).setModals { m.state.Modals with
          RollbackAppName := none }).setRollback none, []) := by
    intro h
    unfold handleRollbackModeKeys
    rw [if_pos (by
      rcases h with h | h
      · exact Or.inl h
      · exact Or.inr (Or.inl h))]
  have hdisp : key ≠ "ctrl+c" →
      ¬ (d.isNavigationKey key ∧
          d.supportsNavigation (if key = "esc" then m.setLastEscPressed now else m)) →
      (key = "esc" → ¬ sub64 now m.state.Navigation.LastEscPressed < 100) →
      handleKeyMsg (keyHandlers env d) env now m key =
        handleRollbackModeKeys (if key = "esc" then m.setLastEscPressed now else m) key := by
    intro hc hnav hdeb
    unfold handleKeyMsg
    rw [if_neg hc]
    by_cases he : key = "esc"
    · rw [if_pos he] at hnav
      rw [if_pos he, if_neg (hdeb he), if_pos he]
      unfold dispatchKey
      have hn : ¬ ((keyHandlers env d).isNavigationKey key ∧
          (keyHandlers env d).supportsNavigation (m.setLastEscPressed now)) := hnav
      rw [if_neg hn]
      have hm : (m.setLastEscPressed now).state.Mode = Mode.Rollback := hmode
      rw [hm]
      rfl
    · rw [if_neg he] at hnav
      rw [if_neg he, if_neg he]
      unfold dispatchKey
      have hn : ¬ ((keyHandlers env d).isNavigationKey key ∧
          (keyHandlers env d).supportsNavigation m) := hnav
      rw [if_neg hn, hmode]
      rfl
  refine ⟨fun h => ⟨hexit h, _, hexit h, rfl, rfl, rfl⟩, hother, ?_, hdisp, ?_⟩
  · unfold handleKeyMsg
    rw [if_pos rfl]
  · intro hc hnav he hq
    rw [hdisp hc (by rw [if_neg he]; exact hnav) (fun h => absurd h he), if_neg he]
    exact hother he hq hc

/-- Witness for C31: while the rollback of `x` is running, `y` (which would
confirm a rollback) changes nothing and requests nothing, and `q` closes the
modal. -/
theorem handleRollbackModeKeys_loading_witness :
    handleRollbackModeKeys Examples.rollbackLoading "y" = some (Examples.rollbackLoading, []) ∧
    handleKeyMsg (keyHandlers Examples.twoAppsEnv Examples.keys) Examples.twoAppsEnv 1000
      Examples.rollbackLoading "y" = some (Examples.rollbackLoading, []) ∧
    ∃ r, handleRollbackModeKeys Examples.rollbackLoading "q" = some (r, []) ∧
      r.state.Mode = Mode.Normal ∧ r.state.Rollback = none ∧
      r.state.Modals.RollbackAppName = none :=
  have h := handleRollbackModeKeys_loading Examples.keys Examples.twoAppsEnv 1000
    Examples.rollbackLoading "y" rfl (Or.inr ⟨_, rfl, rfl⟩)
  ⟨h.2.1 (by decide) (by decide) (by decide),
    h.2.2.2.2 (by decide) (by decide) (by decide) (by decide),
    ((handleRollbackModeKeys_loading Examples.keys Examples.twoAppsEnv 1000
      Examples.rollbackLoading "q" rfl (Or.inr ⟨_, rfl, rfl⟩)).1 (Or.inr rfl)).2⟩

end Argonaut

namespace Argonaut

open Model

/-- C33. The lookup `findK9sContext(clusterID)`: it fails for `in-cluster`
whatever the kubeconfig, also one holding a context of that name; it fails when
the kubeconfig cannot be loaded; for any other cluster ID its result is the
result of the exact-name lookup `FindContextByName` of the loaded kubeconfig.
With the kubeconfig a set of context names, it succeeds with `c` exactly when
the cluster ID is not `in-cluster`, is one of the names and `c` is the cluster
ID itself: no context other than the one named like the cluster is returned. -/
theorem findK9sContext_exact (env : Env) (names : List String) (current clusterID : String) :
    findK9sContext env "in-cluster" = none ∧
    findK9sContext
      { env with kubeconfigLoad := some (kubeconfigOfNames ("in-cluster" :: names) current) }
      "in-cluster" = none ∧
    (env.kubeconfigLoad = none → findK9sContext env clusterID = none) ∧
    (clusterID ≠ "in-cluster" → ∀ kc, env.kubeconfigLoad = some kc →
      ∀ c, findK9sContext env clusterID = some c ↔ kc.FindContextByName clusterID = some c) ∧
    (∀ c, findK9sContext
        { env with kubeconfigLoad := some (kubeconfigOfNames names current) } clusterID = some c ↔
      clusterID ≠ "in-cluster" ∧ clusterID ∈ names ∧ c = clusterID) := by
  have hin : ∀ e : Env, findK9sContext e "in-cluster" = none := by
    intro e
    unfold findK9sContext
    cases e.kubeconfigLoad with
    | none => rfl
    | some kc => simp
  have hload : ∀ (e : Env) (kc : KubeConfig), e.kubeconfigLoad = some kc →
      clusterID ≠ "in-cluster" → findK9sContext e clusterID = kc.FindContextByName clusterID := by
    intro e kc hk hne
    unfold findK9sContext
    rw [hk]
    simp only [hne, if_false]
  refine ⟨hin env, hin _, ?_, ?_, ?_⟩
  · intro h
    unfold findK9sContext
    rw [h]
  · intro hne kc hk c
    rw [hload env kc hk hne]
  · intro c
    by_cases hne : clusterID = "in-cluster"
    · rw [hne, hin]
      simp
    · rw [hload _ (kubeconfigOfNames names current) rfl hne]
      unfold kubeconfigOfNames
      by_cases hm : clusterID ∈ names
      · simp only [if_pos hm, Option.some.injEq]
        constructor
        · intro h
          exact ⟨hne, hm, h.symm⟩
        · intro h
          exact h.2.2.symm
      · simp only [if_neg hm]
        constructor
        · intro h
          cases h
        · intro h
          exact absurd h.2.1 hm

/-- The lookup on the kubeconfig of `staging`, `prod-east` and `prod-west`:
`prod-east` finds itself, the partial name `prod` and `in-cluster` find
nothing. -/
theorem findK9sContext_example :
    findK9sContext Examples.k9sEnv "prod-east" = some "prod-east" ∧
    findK9sContext Examples.k9sEnv "prod" = none ∧
    findK9sContext Examples.k9sEnv "in-cluster" = none := by
  decide

/-- K in Normal mode in the Apps view, on the application `x` whose cluster ID
`prod-east` is one of the contexts `staging`, `prod-east`, `prod-west`: no
command is produced and the mode becomes K9sContextSelect, with the three
contexts as options. -/
theorem handleOpenAppK9s_counterexample :
    Examples.prodApps.state.Mode = Mode.Normal ∧
    Examples.prodApps.state.Navigation.View = View.Apps ∧
    Examples.k9sEnv.getVisibleItems Examples.prodApps = [Item.app Examples.prodApp] ∧
    Examples.prodApp.ClusterID = some "prod-east" ∧
    Examples.k9sEnv.ListContextNames = some ["staging", "prod-east", "prod-west"] ∧
    findK9sContext Examples.k9sEnv "prod-east" = some "prod-east" ∧
    (handleKeyMsg (keyHandlers Examples.k9sEnv Examples.keys) Examples.k9sEnv 1000
        Examples.prodApps "K").map
      (fun r => (r.1.state.Mode, r.1.k9sContextOptions, r.2)) =
      some (Mode.K9sContextSelect, ["staging", "prod-east", "prod-west"], []) := by
  decide

/-- The key `K` in Normal mode, when the navigation router does not take it:
`handleOpenK9s` in the Tree view, `handleOpenAppK9s` in the Apps view, nothing
elsewhere. -/
theorem handleKeyMsg_K (d : Dispatch) (env : Env) (now : Int) (m : Model)
    (hmode : m.state.Mode = Mode.Normal)
    (hnav : ¬ (d.isNavigationKey "K" ∧ d.supportsNavigation m)) :
    handleKeyMsg (keyHandlers env d) env now m "K" =
      if m.state.Navigation.View = View.Tree then some (handleOpenK9s env m)
      else if m.state.Navigation.View = View.Apps then some (handleOpenAppK9s env m)
      else some (m, []) := by
  unfold handleKeyMsg
  rw [if_neg (by decide), if_neg (by decide)]
  unfold dispatchKey
  have hn : ¬ ((keyHandlers env d).isNavigationKey "K" ∧
      (keyHandlers env d).supportsNavigation m) := hnav
  rw [if_neg hn, hmode]
  simp only
  by_cases hv : m.state.Navigation.View = View.Tree
  · rw [if_pos hv, if_pos hv]
    simp +decide [treeKeys, keyHandlers]
  · rw [if_neg hv, if_neg hv]
    simp +decide [globalKeys, keyHandlers]

/-- The picker of `showK9sContextPicker` with contexts listed. -/
theorem showK9sContextPicker_listed (env : Env) (m : Model) (kind ns name : String)
    (contexts : List String) (hl : env.ListContextNames = some contexts)
    (hne : contexts ≠ []) :
    showK9sContextPicker env m kind ns name =
      ({ m with
        k9sContextOptions := contexts,
        k9sContextSelected := preselectedContext env contexts,
        k9sPendingKind := kind,
        k9sPendingNamespace := ns,
        k9sPendingName := name }.setMode Mode.K9sContextSelect, []) := by
  unfold showK9sContextPicker
  rw [hl]
  have : ¬ contexts.length = 0 := by
    intro h
    exact hne (List.length_eq_zero.mp h)
  simp only [this, if_false]

/-- The fallback of `showK9sContextPicker` with no context listed. -/
theorem showK9sContextPicker_unlisted (env : Env) (m : Model) (kind ns name : String)
    (hl : env.ListContextNames = none ∨ env.ListContextNames = some []) :
    showK9sContextPicker env m kind ns name =
      (m, [Cmd.openK9s { Kind := kind, Namespace := ns, Context := "", Name := name }]) := by
  unfold showK9sContextPicker
  rcases hl with h | h
  · rw [h]
  · rw [h]
    rfl

/-- C34, amended. The k9s launch from the Apps view goes through the context picker.
Pressing `K` in Normal mode in the Apps view on an application runs
`showK9sContextPicker` for the Application resource named like the
application, whatever its cluster ID: when the kubeconfig lists at least one
context, the mode becomes K9sContextSelect with these contexts as the options
and the Application pending, and no command is produced; k9s is launched at
once, with no context, exactly when the contexts cannot be listed or are none.
The launch with the context named like the cluster ID is that of `K` in the
Tree view (`handleOpenK9s`) on a resource that is not an Application. -/
theorem handleOpenAppK9s_picker (d : Dispatch) (env : Env) (now : Int) (m : Model) (app : App)
    (hmode : m.state.Mode = Mode.Normal)
    (hview : m.state.Navigation.View = View.Apps)
    (hnav : ¬ (d.isNavigationKey "K" ∧ d.supportsNavigation m))
    (hidx : 0 ≤ m.state.Navigation.SelectedIdx)
    (hlen : m.state.Navigation.SelectedIdx < (env.getVisibleItems m).length)
    (hitem : (env.getVisibleItems m).getD m.state.Navigation.SelectedIdx.toNat default =
      Item.app app) :
    handleKeyMsg (keyHandlers env d) env now m "K" = some (handleOpenAppK9s env m) ∧
    (∃ ns, handleOpenAppK9s env m = showK9sContextPicker env m "Application" ns app.Name ∧
      ((env.ListContextNames = none ∨ env.ListContextNames = some []) →
        handleOpenAppK9s env m =
          (m, [Cmd.openK9s
            { Kind := "Application", Namespace := ns, Context := "", Name := app.Name }])) ∧
      (∀ contexts, env.ListContextNames = some contexts → contexts ≠ [] →
        (handleOpenAppK9s env m).1.k9sPendingNamespace = ns)) ∧
    (∀ contexts, env.ListContextNames = some contexts → contexts ≠ [] →
      (handleOpenAppK9s env m).2 = [] ∧
      (handleOpenAppK9s env m).1.state.Mode = Mode.K9sContextSelect ∧
      (handleOpenAppK9s env m).1.k9sContextOptions = contexts ∧
      (handleOpenAppK9s env m).1.k9sPendingKind = "Application" ∧
      (handleOpenAppK9s env m).1.k9sPendingName = app.Name) ∧
    (∀ (t : Model) (tv : TreeView) (group kind ns name treeApp clusterID c : String) (a : App),
      t.treeView = some tv → tv.SelectedResource = some (group, kind, ns, name) →
      kind ≠ "Application" → t.state.UI.TreeAppName = some treeApp →
      t.state.Apps.find? (fun x => decide (x.Name = treeApp)) = some a →
      a.ClusterID = some clusterID → findK9sContext env clusterID = some c →
      handleOpenK9s env t =
        (t, [Cmd.openK9s { Kind := kind, Namespace := ns, Context := c, Name := name }])) := by
  have hk : handleOpenAppK9s env m = openK9sForApplicationCR env m app.Name := by
    unfold handleOpenAppK9s
    rw [if_neg (by rw [hview]; exact fun h => h rfl)]
    simp only
    have h0 : ¬ (env.getVisibleItems m).length = 0 := by omega
    rw [if_neg h0, if_neg (by omega), hitem]
  refine ⟨?_, ⟨_, hk, ?_, ?_⟩, ?_, ?_⟩
  · rw [handleKeyMsg_K d env now m hmode hnav, hview]
    rfl
  · intro h
    rw [hk]
    exact showK9sContextPicker_unlisted env m _ _ _ h
  · intro contexts hl hne
    rw [hk]
    unfold openK9sForApplicationCR
    rw [showK9sContextPicker_listed env m _ _ _ contexts hl hne]
    rfl
  · intro contexts hl hne
    rw [hk]
    unfold openK9sForApplicationCR
    rw [showK9sContextPicker_listed env m _ _ _ contexts hl hne]
    exact ⟨rfl, rfl, rfl, rfl, rfl⟩
  · intro t tv group kind ns name treeApp clusterID c a htv hsel hkind htree hfind hcl hctx
    have hd : detectK9sContext env t = some c := by
      unfold detectK9sContext
      rw [htree]
      simp only
      rw [hfind]
      simp only
      rw [hcl]
      exact hctx
    unfold handleOpenK9s
    rw [htv]
    simp only
    rw [hsel]
    simp only
    rw [if_neg hkind, hd]

/-- Witness for C34: `K` on the application `x` of the cluster `prod-east`
opens the picker of the three contexts; in the tree of `x`, `K` on the
Deployment `web` launches k9s with the context `prod-east`. -/
theorem handleOpenAppK9s_picker_witness :
    handleKeyMsg (keyHandlers Examples.k9sEnv Examples.keys) Examples.k9sEnv 1000
      Examples.prodApps "K" = some (handleOpenAppK9s Examples.k9sEnv Examples.prodApps) ∧
    ((handleOpenAppK9s Examples.k9sEnv Examples.prodApps).2 = [] ∧
      (handleOpenAppK9s Examples.k9sEnv Examples.prodApps).1.state.Mode =
        Mode.K9sContextSelect ∧
      (handleOpenAppK9s Examples.k9sEnv Examples.prodApps).1.k9sContextOptions =
        Examples.prodContexts ∧
      (handleOpenAppK9s Examples.k9sEnv Examples.prodApps).1.k9sPendingKind = "Application" ∧
      (handleOpenAppK9s Examples.k9sEnv Examples.prodApps).1.k9sPendingName = "x") ∧
    (handleOpenK9s Examples.k9sEnv Examples.prodTree).2 =
      [Cmd.openK9s
        { Kind := "Deployment", Namespace := "default", Context := "prod-east",
          Name := "web" }] :=
  have h := handleOpenAppK9s_picker Examples.keys Examples.k9sEnv 1000 Examples.prodApps
    Examples.prodApp rfl rfl (by decide) (by decide) (by decide) rfl
  ⟨h.1, h.2.2.1 Examples.prodContexts rfl (by decide), by decide⟩

end Argonaut

namespace Argonaut

open TreeView

/-! ## C38: the line of the cursor -/

theorem lineBreaks_append (s t : String) :
    lineBreaks (s ++ t) = lineBreaks s + lineBreaks t := by
  unfold lineBreaks
  rw [String.data_append, List.count_append]

theorem lineBreaks_empty : lineBreaks "" = 0 := rfl

theorem lineBreaks_newline : lineBreaks "\n" = 1 := by decide

theorem renderRows_append (v : TreeView) (line : Int → Nat → String) (l1 l2 : List Nat) :
    ∀ i : Int, renderRows v line (l1 ++ l2) i =
      renderRows v line l1 i ++ renderRows v line l2 (i + l1.length) := by
  induction l1 with
  | nil =>
    intro i
    simp [renderRows]
  | cons n rest ih =>
    intro i
    rw [List.cons_append, renderRows, renderRows, ih (i + 1)]
    have : i + 1 + (rest.length : Int) = i + ((n :: rest).length : Nat) := by
      rw [List.length_cons]
      push_cast
      ring
    rw [this]
    simp only [String.append_assoc]

/-- Line breaks written for rows that are not the first nor the last: one per
row and one more per node without a parent. -/
theorem renderRows_lineBreaks (v : TreeView) (line : Int → Nat → String)
    (hline : ∀ i n, lineBreaks (line i n) = 0) (l : List Nat) :
    ∀ i : Int, 0 < i → i + l.length ≤ (v.order.length : Int) - 1 →
      lineBreaks (renderRows v line l i) =
        l.length + l.countP (fun p => decide ((v.node p).parent = none)) := by
  induction l with
  | nil =>
    intro i _ _
    rfl
  | cons n rest ih =>
    intro i hi hlen
    rw [List.length_cons] at hlen
    push_cast at hlen
    rw [renderRows, lineBreaks_append, lineBreaks_append, lineBreaks_append, hline,
      ih (i + 1) (by omega) (by omega), if_pos (by omega : i < (v.order.length : Int) - 1),
      lineBreaks_newline, List.countP_cons, List.length_cons]
    by_cases hp : (v.node n).parent = none
    · rw [if_pos ⟨hp, hi⟩, lineBreaks_newline]
      simp only [hp, decide_True, if_true]
      omega
    · rw [if_neg (fun h => hp h.1), lineBreaks_empty]
      simp only [hp, decide_False]
      simp
      omega

/-- Line breaks written for the first `k` rows when there are more. -/
theorem renderRows_take_lineBreaks (v : TreeView) (line : Int → Nat → String)
    (hline : ∀ i n, lineBreaks (line i n) = 0) (k : Nat) (hk : k < v.order.length) :
    lineBreaks (renderRows v line (v.order.take k) 0) =
      k + ((v.order.take k).drop 1).countP (fun p => decide ((v.node p).parent = none)) := by
  cases hl : v.order.take k with
  | nil =>
    have : k = 0 := by
      have h := congrArg List.length hl
      rw [List.length_take, List.length_nil] at h
      rcases Nat.min_eq_zero_iff.mp h with h | h
      · exact h
      · omega
    subst this
    rfl
  | cons n rest =>
    have hlen : rest.length + 1 = k := by
      have := congrArg List.length hl
      rw [List.length_take, List.length_cons] at this
      omega
    rw [renderRows, lineBreaks_append, lineBreaks_append, lineBreaks_append, hline,
      if_neg (by omega), lineBreaks_empty,
      if_pos (by omega : (0 : Int) < (v.order.length : Int) - 1), lineBreaks_newline,
      renderRows_lineBreaks v line hline rest (0 + 1) (by omega) (by omega)]
    simp only [List.drop_succ_cons, List.drop_zero]
    omega

/-- The text of `Render` around the row `k`. -/
theorem Render_split (v : TreeView) (line : Int → Nat → String) (k : Nat)
    (hk : k < v.order.length) :
    v.Render line =
      v.renderedBefore line k ++ line k (v.order.getD k 0) ++ v.renderedAfter line k := by
  unfold Render renderedBefore renderedAfter
  rw [if_neg (by omega)]
  have hsplit : v.order = v.order.take k ++ v.order.getD k 0 :: v.order.drop (k + 1) := by
    rw [List.getD_eq_getElem _ _ hk]
    simp
  have hlen : ((v.order.take k).length : Int) = k := by
    rw [List.length_take]
    omega
  conv_lhs => rw [hsplit, renderRows_append, renderRows, hlen]
  simp only [String.append_assoc, zero_add]

/-- The first visible node is a root. -/
theorem order_head_root (v : TreeView) (ho : OrderCurrent v) (hlen : 0 < v.order.length) :
    v.order.getD 0 0 ∈ v.roots := by
  unfold OrderCurrent walkRoots at ho
  cases hr : v.roots with
  | nil =>
    rw [hr] at ho
    simp only [walkEach, Option.some.injEq] at ho
    rw [← ho] at hlen
    exact absurd hlen (by decide)
  | cons r rs =>
    rw [hr] at ho
    unfold walkEach at ho
    cases hw : walk v (v.heap.length + 1) r with
    | none => rw [hw] at ho; cases ho
    | some a =>
      rw [hw] at ho
      simp only at ho
      cases hrs : walkEach (walk v (v.heap.length + 1)) rs with
      | none => rw [hrs] at ho; cases ho
      | some b =>
        rw [hrs] at ho
        simp only [Option.some.injEq] at ho
        obtain ⟨t, rfl⟩ := walk_head v _ r a hw
        rw [← ho]
        simp

/-- The nodes without a parent at the positions `1..k` are fewer than those of
the whole order when the first node has no parent. -/
theorem countP_take_drop_lt (f : Nat → Bool) (l : List Nat) (k : Nat) (hl : 0 < l.length)
    (h0 : f (l.getD 0 0) = true) :
    ((l.take (k + 1)).drop 1).countP f + 1 ≤ l.countP f := by
  cases l with
  | nil => exact absurd hl (by decide)
  | cons n rest =>
    simp only [List.getD_cons_zero] at h0
    rw [List.take_succ_cons, List.drop_succ_cons, List.drop_zero, List.countP_cons, h0]
    simp only [if_true]
    have : (rest.take k).countP f ≤ rest.countP f :=
      List.Sublist.countP_le _ (List.take_sublist k rest)
    omega

/-- C38. The line of the cursor: in every view reached from `NewTreeView` with
`0 ≤ SelectedIndex() < VisibleCount()`, `SelectedLineIndex()` is
`SelectedIndex()` plus the number of application roots at the visible positions
`1..SelectedIndex()`; the visible application roots are the visible nodes
without a parent, before each of which, the first row apart, `Render` writes
one more line break; `Render` writes the text of the cursor row after a text
that holds `SelectedLineIndex()` line breaks when no row text holds one, so
the cursor row is printed on the 0-based line `SelectedLineIndex()`; and
`SelectedLineIndex() < VisibleLineCount()`. -/
theorem SelectedLineIndex_line (names : List String) (v : TreeView)
    (line : Int → Nat → String) (hreach : Reached names v)
    (h0 : 0 ≤ v.SelectedIndex) (h1 : v.SelectedIndex < v.VisibleCount) :
    v.SelectedLineIndex = v.SelectedIndex +
      (((v.order.take (v.SelectedIndex.toNat + 1)).drop 1).countP
        (fun p => decide (p ∈ v.roots)) : Nat) ∧
    (∀ p ∈ v.order, (v.node p).parent = none ↔ p ∈ v.roots) ∧
    v.Render line =
      v.renderedBefore line v.SelectedIndex.toNat ++
        line v.SelectedIndex (v.orderAt v.SelectedIndex) ++
        v.renderedAfter line v.SelectedIndex.toNat ∧
    ((∀ i n, lineBreaks (line i n) = 0) →
      (lineBreaks (v.renderedBefore line v.SelectedIndex.toNat) : Int) = v.SelectedLineIndex) ∧
    v.SelectedLineIndex < v.VisibleLineCount := by
  have hr := hreach.rooted
  have ho := hreach.viewed.1
  unfold SelectedIndex at h0 h1
  unfold VisibleCount at h1
  have hroot : ∀ p ∈ v.order, (v.node p).parent = none ↔ p ∈ v.roots := by
    intro p hp
    constructor
    · intro hpar
      rcases walkRoots_mem v v.order ho p hp with h | ⟨q, hq⟩
      · exact h
      · exact absurd hpar (hr.childParent q p hq)
    · exact hr.rootParent p
  obtain ⟨k, hk⟩ : ∃ k : Nat, v.selIdx = k := ⟨v.selIdx.toNat, (Int.toNat_of_nonneg h0).symm⟩
  have hkl : k < v.order.length := by omega
  have hcount : ((v.order.take (k + 1)).drop 1).countP (fun p => decide (p ∈ v.roots)) =
      ((v.order.take (k + 1)).drop 1).countP (fun p => decide ((v.node p).parent = none)) := by
    apply List.countP_congr
    intro p hp
    have hp' : p ∈ v.order := List.mem_of_mem_take (List.mem_of_mem_drop hp)
    simp only [decide_eq_true_eq]
    exact (hroot p hp').symm
  have hsli : v.SelectedLineIndex = (k : Int) +
      (((v.order.take (k + 1)).drop 1).countP
        (fun p => decide ((v.node p).parent = none)) : Nat) := by
    unfold SelectedLineIndex
    by_cases hz : k = 0
    · subst hz
      rw [if_pos (Or.inl (by omega)), if_neg (by omega), hk]
      have : ((v.order.take (0 + 1)).drop 1) = [] := by
        cases v.order <;> rfl
      rw [this]
      simp only [List.countP_nil]
      omega
    · rw [if_neg (by omega), hk, Int.toNat_ofNat]
  have hhead : (v.node (v.order.getD 0 0)).parent = none :=
    hr.rootParent _ (order_head_root v ho (by omega))
  have hlt := countP_take_drop_lt (fun p => decide ((v.node p).parent = none)) v.order k
    (by omega) (decide_eq_true hhead)
  unfold SelectedIndex
  rw [hk, Int.toNat_ofNat, hcount]
  refine ⟨hsli, hroot, ?_, ?_, ?_⟩
  · unfold orderAt
    rw [Int.toNat_ofNat]
    exact Render_split v line k hkl
  · intro hline
    rw [hsli]
    unfold renderedBefore
    rw [lineBreaks_append, renderRows_take_lineBreaks v line hline k hkl]
    by_cases hz : k = 0
    · subst hz
      rw [if_neg (by simp), lineBreaks_empty]
      have : ((v.order.take (0 + 1)).drop 1) = [] := by
        cases v.order <;> rfl
      rw [this]
      rfl
    · have htake : (v.order.take (k + 1)).drop 1 =
          (v.order.take k).drop 1 ++ [v.order.getD k 0] := by
        rw [List.take_succ, List.getD_eq_getElem _ _ hkl, List.getElem?_eq_getElem hkl]
        simp only [Option.toList]
        rw [List.drop_append_of_le_length]
        rw [List.length_take]
        omega
      rw [htake, List.countP_append]
      by_cases hp : (v.node (v.order.getD k 0)).parent = none
      · rw [if_pos ⟨hp, by omega⟩, lineBreaks_newline]
        simp only [List.countP_cons, List.countP_nil, hp, decide_True, if_true]
        push_cast
        omega
      · rw [if_neg (fun h => hp h.1), lineBreaks_empty]
        simp only [List.countP_cons, List.countP_nil, hp, decide_False]
        push_cast
        simp
  · rw [hsli]
    unfold VisibleLineCount
    simp only
    have hpos : 0 < v.order.countP (fun p => decide ((v.node p).parent = none)) := by omega
    rw [if_pos (by omega)]
    omega

/-- Witness for C38: with the cursor on the last of the five rows of the view
of `x` and `y`, the cursor row is on line 5 of 6, one blank line above the
root of `y`. -/
theorem SelectedLineIndex_line_witness :
    Examples.cursorOnService.SelectedIndex = 4 ∧
    Examples.cursorOnService.SelectedLineIndex = 5 ∧
    Examples.cursorOnService.VisibleLineCount = 6 ∧
    (lineBreaks (Examples.cursorOnService.renderedBefore (fun _ _ => "*") 4) : Int) =
      Examples.cursorOnService.SelectedLineIndex ∧
    Examples.cursorOnService.Render (fun _ _ => "*") = "*\n*\n*\n\n*\n*" :=
  have h1 : Reached ["y"] Examples.oneAppY :=
    Reached.upsert "y" Examples.snapshotY (Reached.new 80 24) (by decide)
  have h2 : Reached ["x", "y"] Examples.twoApps :=
    Reached.upsert "x" Examples.snapshotX h1 (by decide)
  have h := SelectedLineIndex_line ["x", "y"] Examples.cursorOnService (fun _ _ => "*")
    (Reached.setSelectedIndex 4 h2) (by decide) (by decide)
  ⟨by decide, by decide, by decide, h.2.2.2.1 (fun _ _ => rfl), by decide⟩

end Argonaut

namespace Argonaut

open TreeView

/-! ## C36: `SetResourceStatuses` -/

theorem statusKey_data (g k ns n : String) :
    (statusKey g k ns n).data = g.data ++ '/' :: (k.data ++ '/' :: (ns.data ++ '/' :: n.data)) := by
  simp [statusKey, String.data_append]

/-- The lookup key of `SetResourceStatuses` determines group, kind, namespace
and name when the first three hold no `/`. -/
theorem statusKey_inj (g k ns n g' k' ns' n' : String)
    (hg : NoSlash g) (hk : NoSlash k) (hns : NoSlash ns)
    (hg' : NoSlash g') (hk' : NoSlash k') (hns' : NoSlash ns')
    (h : statusKey g k ns n = statusKey g' k' ns' n') :
    g = g' ∧ k = k' ∧ ns = ns' ∧ n = n' := by
  have hd := congrArg String.data h
  rw [statusKey_data, statusKey_data] at hd
  have h1 := append_sep_inj '/' _ _ _ _ hg hg' hd
  rw [h1] at hd
  have hd2 := List.append_cancel_left hd
  simp only [List.cons.injEq, true_and] at hd2
  have h2 := append_sep_inj '/' _ _ _ _ hk hk' hd2
  rw [h2] at hd2
  have hd3 := List.append_cancel_left hd2
  simp only [List.cons.injEq, true_and] at hd3
  have h3 := append_sep_inj '/' _ _ _ _ hns hns' hd3
  rw [h3] at hd3
  have hd4 := List.append_cancel_left hd3
  simp only [List.cons.injEq, true_and] at hd4
  exact ⟨String.ext h1, String.ext h2, String.ext h3, String.ext hd4⟩

/-- The loop that fills `statusByKey` leaves a key alone when no resource has
it. -/
theorem statusByKey_ne (key : String) (rs : List ResourceStatus) :
    ∀ m : GoMap String, (∀ r ∈ rs, statusKey r.Group r.Kind r.Namespace r.Name ≠ key) →
      mapGet (rs.foldl
        (fun m r => mapSet m (statusKey r.Group r.Kind r.Namespace r.Name) r.Status) m) key =
      mapGet m key := by
  induction rs with
  | nil =>
    intro m _
    rfl
  | cons r rs ih =>
    intro m h
    rw [List.foldl_cons, ih _ (fun r' hr' => h r' (List.mem_cons_of_mem _ hr')),
      mapGet_mapSet_ne _ _ _ _ (Ne.symm (h r (List.mem_cons_self _ _)))]

/-- The loop that fills `statusByKey`: the last resource with a key gives its
status. -/
theorem statusByKey_last (key : String) (pre post : List ResourceStatus) (r : ResourceStatus)
    (hr : statusKey r.Group r.Kind r.Namespace r.Name = key)
    (hpost : ∀ r' ∈ post, statusKey r'.Group r'.Kind r'.Namespace r'.Name ≠ key) :
    mapGet ((pre ++ r :: post).foldl
      (fun m r => mapSet m (statusKey r.Group r.Kind r.Namespace r.Name) r.Status) []) key =
      some r.Status := by
  rw [List.foldl_append, List.foldl_cons, statusByKey_ne key post _ hpost, hr,
    mapGet_mapSet_self]

theorem statusUpdate_idem (m : GoMap String) (n : treeNode) :
    statusUpdate m (statusUpdate m n) = statusUpdate m n := by
  unfold statusUpdate
  cases h : mapGet m (statusKey n.group n.kind n.namespace_ n.name) with
  | none => simp only [h]
  | some s => simp only [h]

theorem setNodeStatus_getD (nodesByUID : GoMap Nat) (m : GoMap String) (h : List treeNode)
    (k : String) (p : Nat) :
    (setNodeStatus nodesByUID m h k).getD p default =
      if mapGet nodesByUID k = some p ∧ p < h.length then statusUpdate m (h.getD p default)
      else h.getD p default := by
  unfold setNodeStatus
  cases hk : mapGet nodesByUID k with
  | none => simp
  | some q =>
    simp only [Option.some.injEq]
    by_cases hqp : q = p
    · subst hqp
      simp only [true_and]
      by_cases hq : q < h.length
      · rw [if_pos hq]
        unfold statusUpdate
        cases hs : mapGet m (statusKey (h.getD q default).group (h.getD q default).kind
            (h.getD q default).namespace_ (h.getD q default).name) with
        | none => rfl
        | some s =>
          simp only
          unfold setStatus
          rw [heapModify_getD_self _ _ _ hq]
      · rw [if_neg hq]
        cases hs : mapGet m (statusKey (h.getD q default).group (h.getD q default).kind
            (h.getD q default).namespace_ (h.getD q default).name) with
        | none => rfl
        | some s =>
          simp only
          unfold setStatus
          rw [heapModify_of_length_le _ _ _ (not_lt.mp hq)]
    · rw [if_neg (fun hh => hqp hh.1)]
      cases hs : mapGet m (statusKey (h.getD q default).group (h.getD q default).kind
          (h.getD q default).namespace_ (h.getD q default).name) with
      | none => rfl
      | some s =>
        simp only
        unfold setStatus
        rw [heapModify_getD_ne _ _ _ _ (Ne.symm hqp)]

theorem setNodeStatus_length (nodesByUID : GoMap Nat) (m : GoMap String) (h : List treeNode)
    (k : String) : (setNodeStatus nodesByUID m h k).length = h.length :=
  (setNodeStatus_links nodesByUID m h k).1

/-- The loop of `SetResourceStatuses` over the keys of the application: the
nodes indexed under one of the keys get the assignment, once. -/
theorem setNodeStatus_foldl (nodesByUID : GoMap Nat) (m : GoMap String) (keys : List String)
    (p : Nat) :
    ∀ h : List treeNode,
      (keys.foldl (setNodeStatus nodesByUID m) h).getD p default =
        if (∃ k ∈ keys, mapGet nodesByUID k = some p) ∧ p < h.length then
          statusUpdate m (h.getD p default)
        else h.getD p default := by
  induction keys with
  | nil =>
    intro h
    simp
  | cons k ks ih =>
    intro h
    rw [List.foldl_cons, ih, setNodeStatus_length, setNodeStatus_getD]
    have hex : (∃ k' ∈ k :: ks, mapGet nodesByUID k' = some p) ↔
        (mapGet nodesByUID k = some p ∨ ∃ k' ∈ ks, mapGet nodesByUID k' = some p) := by
      constructor
      · rintro ⟨k', hk', hkp⟩
        rcases List.mem_cons.1 hk' with rfl | hk'
        · exact Or.inl hkp
        · exact Or.inr ⟨k', hk', hkp⟩
      · rintro (hkp | ⟨k', hk', hkp⟩)
        · exact ⟨k, List.mem_cons_self _ _, hkp⟩
        · exact ⟨k', List.mem_cons_of_mem _ hk', hkp⟩
    by_cases hp : p < h.length
    · by_cases hk : mapGet nodesByUID k = some p
      · by_cases hks : ∃ k' ∈ ks, mapGet nodesByUID k' = some p
        · rw [if_pos ⟨hks, hp⟩, if_pos ⟨hk, hp⟩, if_pos ⟨hex.mpr (Or.inl hk), hp⟩, statusUpdate_idem]
        · rw [if_neg (fun hh => hks hh.1), if_pos ⟨hk, hp⟩, if_pos ⟨hex.mpr (Or.inl hk), hp⟩]
      · by_cases hks : ∃ k' ∈ ks, mapGet nodesByUID k' = some p
        · rw [if_pos ⟨hks, hp⟩, if_neg (fun hh => hk hh.1), if_pos ⟨hex.mpr (Or.inr hks), hp⟩]
        · rw [if_neg (fun hh => hks hh.1), if_neg (fun hh => hk hh.1), if_neg]
          rintro ⟨hh, _⟩
          rcases hex.mp hh with hh | hh
          · exact hk hh
          · exact hks hh
    · rw [if_neg (fun hh => hp hh.2), if_neg (fun hh => hp hh.2), if_neg (fun hh => hp hh.2)]

/-- The nodes indexed for the application after `SetResourceStatuses`. -/
theorem SetResourceStatuses_node_indexed (v : TreeView) (appName : String)
    (resources : List ResourceStatus) (p : Nat) (hi : v.indexedFor appName p)
    (hp : p < v.heap.length) :
    (v.SetResourceStatuses appName resources).node p =
      statusUpdate (resources.foldl
        (fun m r => mapSet m (statusKey r.Group r.Kind r.Namespace r.Name) r.Status) [])
        (v.node p) := by
  unfold indexedFor oldKeys at hi
  cases hk : mapGet v.nodesByApp appName with
  | none =>
    rw [hk] at hi
    obtain ⟨k, hkm, _⟩ := hi
    cases hkm
  | some keys =>
    rw [hk] at hi
    simp only [SetResourceStatuses, hk, node]
    rw [setNodeStatus_foldl, if_pos ⟨hi, hp⟩]

/-- The other nodes after `SetResourceStatuses`. -/
theorem SetResourceStatuses_node_other (v : TreeView) (appName : String)
    (resources : List ResourceStatus) (p : Nat) (hi : ¬ v.indexedFor appName p) :
    (v.SetResourceStatuses appName resources).node p = v.node p := by
  unfold indexedFor oldKeys at hi
  cases hk : mapGet v.nodesByApp appName with
  | none =>
    simp only [SetResourceStatuses, hk]
  | some keys =>
    rw [hk] at hi
    simp only [SetResourceStatuses, hk, node]
    rw [setNodeStatus_foldl, if_neg (fun hh => hi hh.1)]

theorem eq_of_shape {n n' : treeNode} (h : n'.shape = n.shape) :
    n' = { n with status := n'.status } := by
  cases n
  cases n'
  simp only [treeNode.shape, treeNode.mk.injEq] at h ⊢
  obtain ⟨h1, h2, h3, h4, h5, h6, _, h8, h9, h10⟩ := h
  exact ⟨h1, h2, h3, h4, h5, h6, trivial, h8, h9, h10⟩

/-- In the view of the clashing applications `a` and `a::b`, the statuses sent
for `a` reach the Pod `q` of the other application `a::b` (node 2, below the
root of `a::b`), and they do not reach the Pod `p` of `a` (node 0, below the
root of `a`). -/
theorem SetResourceStatuses_counterexample :
    mapGet Examples.clashAfter.rootByApp "a" = some 1 ∧
    mapGet Examples.clashAfter.rootByApp "a::b" = some 3 ∧
    (Examples.clashAfter.node 1).children = [0] ∧
    (Examples.clashAfter.node 3).children = [2] ∧
    ((Examples.clashAfter.node 0).name, (Examples.clashAfter.node 0).status) = ("p", "Synced") ∧
    ((Examples.clashAfter.node 2).name, (Examples.clashAfter.node 2).status) = ("q", "Synced") ∧
    ((Examples.clashAfter.SetResourceStatuses "a"
        [Examples.podStatus "q" "OutOfSync"]).node 2).status = "OutOfSync" ∧
    ((Examples.clashAfter.SetResourceStatuses "a"
        [Examples.podStatus "p" "OutOfSync"]).node 0).status = "Synced" ∧
    SlashFree Examples.clashAfter [Examples.podStatus "q" "OutOfSync"] := by
  decide

/-- C36, amended. `SetResourceStatuses(app, rs)` in every view reached from
`NewTreeView` in which the keys of distinct applications do not clash, when
group, kind, namespace and name of the indexed nodes and of the resources hold
no `/`: every node indexed for `app` whose group, kind, namespace and name are
those of some resource of `rs` gets the status of the last such resource; every
other node indexed for `app`, every node that is not indexed for `app`, and so
every node of every other application, is unchanged; every node keeps every
field but the status, so its health; and nothing but the nodes changes: the
visible order, the cursor, `SelectedUID`, the selection and the expansion flags
are those of before. -/
theorem SetResourceStatuses_spec (names : List String) (v : TreeView) (appName : String)
    (resources : List ResourceStatus) (hreach : Reached names v) (hclash : NoClash names)
    (hslash : SlashFree v resources) :
    v.SetResourceStatuses appName resources =
      { v with heap := (v.SetResourceStatuses appName resources).heap } ∧
    (v.SetResourceStatuses appName resources).heap.length = v.heap.length ∧
    (v.SetResourceStatuses appName resources).order = v.order ∧
    (v.SetResourceStatuses appName resources).SelectedIndex = v.SelectedIndex ∧
    (v.SetResourceStatuses appName resources).SelectedUID = v.SelectedUID ∧
    (v.SetResourceStatuses appName resources).selectedUIDs = v.selectedUIDs ∧
    (v.SetResourceStatuses appName resources).expanded = v.expanded ∧
    (∀ p, (v.SetResourceStatuses appName resources).node p =
      { v.node p with status := ((v.SetResourceStatuses appName resources).node p).status } ∧
      ((v.SetResourceStatuses appName resources).node p).health = (v.node p).health) ∧
    (∀ p, v.indexedFor appName p →
      (∀ pre r post, resources = pre ++ r :: post → SameResource (v.node p) r →
        (∀ r' ∈ post, ¬ SameResource (v.node p) r') →
        (v.SetResourceStatuses appName resources).node p =
          { v.node p with status := r.Status }) ∧
      ((∀ r ∈ resources, ¬ SameResource (v.node p) r) →
        (v.SetResourceStatuses appName resources).node p = v.node p)) ∧
    (∀ p, ¬ v.indexedFor appName p →
      (v.SetResourceStatuses appName resources).node p = v.node p) ∧
    (∀ b p, b ≠ appName → v.isNodeOf b p →
      (v.SetResourceStatuses appName resources).node p = v.node p) := by
  obtain ⟨hp, hh⟩ := SetResourceStatuses_shape v appName resources
  have hs := SetResourceStatuses_sameShape v appName resources
  have hkey : ∀ p, v.indexedFor appName p → ∀ r ∈ resources,
      (statusKey r.Group r.Kind r.Namespace r.Name =
        statusKey (v.node p).group (v.node p).kind (v.node p).namespace_ (v.node p).name ↔
        SameResource (v.node p) r) := by
    intro p hi r hr
    obtain ⟨k, _, hk⟩ := hi
    have hn := hslash.1 _ (mem_of_mapGet _ _ _ hk)
    have hrs := hslash.2 r hr
    constructor
    · intro h
      exact statusKey_inj _ _ _ _ _ _ _ _ hrs.1 hrs.2.1 hrs.2.2.1 hn.1 hn.2.1 hn.2.2.1 h
    · rintro ⟨h1, h2, h3, h4⟩
      rw [h1, h2, h3, h4]
  have hother : ∀ p, ¬ v.indexedFor appName p →
      (v.SetResourceStatuses appName resources).node p = v.node p :=
    fun p hi => SetResourceStatuses_node_other v appName resources p hi
  refine ⟨?_, hs.length, ?_, ?_, ?_, ?_, ?_, ?_, ?_, hother, ?_⟩
  · rw [hh]
  · rw [hh]
  · rw [hh]
    rfl
  · rw [hh]
  · rw [hh]
  · rw [hh]
  · intro p
    have h := eq_of_shape (hs.shape p)
    refine ⟨h, ?_⟩
    rw [h]
  · intro p hi
    have hlt : p < v.heap.length := by
      obtain ⟨k, _, hk⟩ := hi
      exact hreach.closed.index k p hk
    have hnode := SetResourceStatuses_node_indexed v appName resources p hi hlt
    constructor
    · intro pre r post hres hsame hpost
      rw [hnode]
      unfold statusUpdate
      have hrm : r ∈ resources := by
        rw [hres]
        exact List.mem_append_right _ (List.mem_cons_self _ _)
      have hget := statusByKey_last
        (statusKey (v.node p).group (v.node p).kind (v.node p).namespace_ (v.node p).name)
        pre post r ((hkey p hi r hrm).2 hsame)
        (fun r' hr' hk' => hpost r' hr' ((hkey p hi r' (by
          rw [hres]
          exact List.mem_append_right _ (List.mem_cons_of_mem _ hr'))).1 hk'))
      rw [hres, hget]
    · intro hnone
      rw [hnode]
      unfold statusUpdate
      have hget := statusByKey_ne
        (statusKey (v.node p).group (v.node p).kind (v.node p).namespace_ (v.node p).name)
        resources [] (fun r hr hk' => hnone r hr ((hkey p hi r hr).1 hk'))
      rw [hget]
      rfl
  · intro b p hb hnode
    apply hother
    intro hi
    obtain ⟨owner, hown⟩ := hreach.owned hclash
    obtain ⟨k, hk, hkp⟩ := hi
    have h1 : owner p = appName := hown.index appName k p hk hkp
    rcases hnode with ⟨k', hk', hkp'⟩ | hroot
    · exact hb ((hown.index b k' p hk' hkp').symm.trans h1)
    · exact hb ((hown.root b p hroot).symm.trans h1)

/-- Witness for C36: in the view of `y` and `x`, two statuses for the
Deployment `web` sent for `x` leave it with the second; the Service of `y`
(node 0) keeps its status, and the order and the cursor stay. -/
theorem SetResourceStatuses_spec_witness :
    ((Examples.twoApps.SetResourceStatuses "x"
      [Examples.webStatus "OutOfSync", Examples.webStatus "Unknown"]).node 2).status =
        "Unknown" ∧
    (Examples.twoApps.SetResourceStatuses "x"
      [Examples.webStatus "OutOfSync", Examples.webStatus "Unknown"]).node 0 =
        Examples.twoApps.node 0 ∧
    (Examples.twoApps.SetResourceStatuses "x"
      [Examples.webStatus "OutOfSync", Examples.webStatus "Unknown"]).order =
        Examples.twoApps.order :=
  have h1 : Reached ["y"] Examples.oneAppY :=
    Reached.upsert "y" Examples.snapshotY (Reached.new 80 24) (by decide)
  have h2 : Reached ["x", "y"] Examples.twoApps :=
    Reached.upsert "x" Examples.snapshotX h1 (by decide)
  have h := SetResourceStatuses_spec ["x", "y"] Examples.twoApps "x"
    [Examples.webStatus "OutOfSync", Examples.webStatus "Unknown"] h2
    (noClash_of_no_colon _ (by decide)) (by decide)
  ⟨(congrArg treeNode.status
      ((h.2.2.2.2.2.2.2.2.1 2 (by decide)).1 [Examples.webStatus "OutOfSync"]
        (Examples.webStatus "Unknown") [] rfl (by decide) (by decide))).trans rfl,
   h.2.2.2.2.2.2.2.2.2.2 "y" 0 (by decide) (Or.inl (by decide)), h.2.2.1⟩

end Argonaut

namespace Argonaut

open TreeView

/-! ## C37: keys scoped by the application -/

theorem indexFrom_sep (l r : List Char) (hl : ':' ∉ l) :
    ∀ i : Nat, indexFrom [':', ':'] (l ++ ':' :: ':' :: r) i = ((i + l.length : Nat) : Int) := by
  induction l with
  | nil =>
    intro i
    simp [indexFrom]
  | cons c cs ih =>
    intro i
    have hc : c ≠ ':' := fun h => hl (h ▸ List.mem_cons_self _ _)
    have hcs : ':' ∉ cs := fun h => hl (List.mem_cons_of_mem _ h)
    rw [List.cons_append, indexFrom, if_neg, ih hcs (i + 1), List.length_cons]
    · congr 1
      omega
    · simp [List.isPrefixOf, Ne.symm hc]

/-- The application name the source reads off a key is the name the key was
made with, when that name is not empty and holds no colon. -/
theorem appNameOf_makeKey (v : TreeView) (a u : String) (ha : a ≠ "") (hc : ':' ∉ a.data) :
    v.appNameOf (makeKey a u) = a := by
  unfold appNameOf Index
  have hd : (makeKey a u).data = a.data ++ ':' :: ':' :: u.data := makeKey_data a u
  have hsep : ("::" : String).data = [':', ':'] := rfl
  rw [hd, hsep, indexFrom_sep _ _ hc 0]
  have hpos : 0 < a.data.length := by
    rcases Nat.eq_zero_or_pos a.data.length with h | h
    · exact absurd (String.ext (List.length_eq_zero.1 h)) ha
    · exact h
  simp only [zero_add]
  rw [if_pos (by exact_mod_cast hpos)]
  unfold sliceTo
  rw [hd, Int.toNat_ofNat, List.take_left]

theorem below_of_children {v v' : TreeView}
    (hc : ∀ p, (v'.node p).children = (v.node p).children) (r p : Nat) (h : Below v r p) :
    Below v' r p := by
  induction h with
  | self => exact Below.self
  | child _ hcm ih =>
    exact Below.child ih (by rw [hc]; exact hcm)

theorem TreeScoped.scoped_of_sameShape {v v' : TreeView} (hs : SameShape v v')
    (h : TreeScoped v) : TreeScoped v' := by
  intro a r hr p hb
  rw [hs.rootByApp] at hr
  have hb' : Below v r p :=
    below_of_children (fun q => (children_of_shape (hs.shape q)).symm) r p hb
  obtain ⟨u, hu⟩ := h a r hr p hb'
  exact ⟨u, (uid_of_shape (hs.shape p)).trans hu⟩

/-- The nodes below the synthetic root of a call of `UpsertAppTree` are nodes
of the call. -/
theorem below_upsertRoot (v v' : TreeView) (hc : Closed v) (appName : String)
    (tree : ResourceTree) (h : v.UpsertAppTree appName tree = some v') (p : Nat)
    (hb : Below v' (v.heap.length + tree.Nodes.length) p) :
    v.heap.length ≤ p ∧ p ≤ v.heap.length + tree.Nodes.length := by
  induction hb with
  | self => omega
  | @child q c _ hcm ih =>
    rw [node_UpsertAppTree v v' appName tree h] at hcm
    rcases upsertHeap_children_cases v hc appName tree q c hcm with ⟨h1, _⟩ | ⟨h1, _, h3⟩ |
      ⟨_, h2⟩
    · omega
    · have := upsertLinked_children_local v appName tree q c h1 h3
      omega
    · have := upsertFilter_filtered_local v appName tree c h2
      omega

/-- The nodes below a root of before a call of `UpsertAppTree` are nodes of
before, below that root as before. -/
theorem below_old_root (v v' : TreeView) (hc : Closed v) (appName : String)
    (tree : ResourceTree) (h : v.UpsertAppTree appName tree = some v') (r p : Nat)
    (hr : r < v.heap.length) (hb : Below v' r p) :
    p < v.heap.length ∧ Below v r p := by
  induction hb with
  | self => exact ⟨hr, Below.self⟩
  | @child q c _ hcm ih =>
    rw [node_UpsertAppTree v v' appName tree h, upsertHeap_old v appName tree q ih.1] at hcm
    exact ⟨hc.children q ih.1 c hcm, Below.child ih.2 hcm⟩

theorem TreeScoped.scoped_upsert {v v' : TreeView} (hc : Closed v) (hs : TreeScoped v)
    (appName : String) (tree : ResourceTree) (h : v.UpsertAppTree appName tree = some v') :
    TreeScoped v' := by
  intro a r hr p hb
  rw [rootByApp_UpsertAppTree v v' appName tree h] at hr
  by_cases ha : a = appName
  · rw [if_pos ha] at hr
    simp only [Option.some.injEq] at hr
    subst hr
    subst ha
    obtain ⟨h1, h2⟩ := below_upsertRoot v v' hc a tree h p hb
    rw [node_UpsertAppTree v v' a tree h]
    by_cases hp : p = v.heap.length + tree.Nodes.length
    · rw [hp, upsertHeap_root]
      exact ⟨"__app_root__", rfl⟩
    · have hlt : p - v.heap.length < tree.Nodes.length := by omega
      have hi : tree.Nodes[p - v.heap.length]? = some (tree.Nodes[p - v.heap.length]) :=
        List.getElem?_eq_getElem hlt
      have hl := upsertHeap_label v a tree (p - v.heap.length) _ hi
      have hpe : v.heap.length + (p - v.heap.length) = p := by omega
      rw [hpe] at hl
      exact ⟨_, uid_of_label hl⟩
  · rw [if_neg ha] at hr
    have hrl := hc.rootByApp a r hr
    obtain ⟨hp, hb'⟩ := below_old_root v v' hc appName tree h r p hrl hb
    obtain ⟨u, hu⟩ := hs a r hr p hb'
    refine ⟨u, ?_⟩
    rw [node_UpsertAppTree v v' appName tree h, upsertHeap_old v appName tree p hp]
    exact hu

/-- In every reachable view the UIDs in the tree of an application are keys of
that application. -/
theorem Reached.treeScoped {names : List String} {v : TreeView} (h : Reached names v) :
    TreeScoped v := by
  apply Reached.forest_induction _ _ _ _ h
  · intro width height a r hr
    cases hr
  · intro v _ _ a r hr
    cases hr
  · intro v v' appName tree hc hs hu
    exact hs.scoped_upsert hc appName tree hu
  · intro v v' hs hv
    exact hv.scoped_of_sameShape hs

/-- Every visible node is in the tree below a root. -/
theorem order_below (v : TreeView) (ho : OrderCurrent v) :
    ∀ q ∈ v.order, ∃ r ∈ v.roots, Below v r q :=
  walkRoots_closed v (fun q => ∃ r ∈ v.roots, Below v r q)
    (fun _ ⟨r, hr, hb⟩ _ hc => ⟨r, hr, Below.child hb hc⟩)
    (fun r hr => ⟨r, hr, Below.self⟩) v.order ho

theorem orderAt_mem (v : TreeView) (i : Int) (h0 : 0 ≤ i) (h1 : i < v.order.length) :
    v.orderAt i ∈ v.order := by
  unfold orderAt
  have hlt : i.toNat < v.order.length := by omega
  rw [List.getD_eq_getElem _ _ hlt]
  exact List.getElem_mem _

/-- C37. Application-scoped keys, in every view reached from `NewTreeView` by
upserts under application names that are not empty and hold no colon: the keys
of two different applications are different, also with equal raw UIDs; no key
is registered for two applications, every registered key is made from the name
of its application and a UID, and the source reads that name back from it;
an upsert under `a` registers every snapshot entry under its key scoped by
`a`; and every `ResourceSelection` that `GetSelectedResources` returns
describes a node that belongs to one of the applications, indexed for it or in
its tree, and carries the name of that application as `AppName`, no node
belonging to two applications. -/
theorem scoped_keys (names : List String) (v : TreeView) (hreach : Reached names v)
    (hnames : ∀ a ∈ names, a ≠ "" ∧ ':' ∉ a.data) :
    (∀ a ∈ names, ∀ b ∈ names, a ≠ b → ∀ u u', makeKey a u ≠ makeKey b u') ∧
    (∀ a b k, a ≠ b → k ∈ v.oldKeys a → k ∉ v.oldKeys b) ∧
    (∀ a k, k ∈ v.oldKeys a → a ∈ names ∧ (∃ u, k = makeKey a u) ∧ v.appNameOf k = a) ∧
    (∀ a tree v', a ≠ "" → ':' ∉ a.data → v.UpsertAppTree a tree = some v' →
      ∀ nd ∈ tree.Nodes, makeKey a nd.UID ∈ v'.oldKeys a ∧
        v'.appNameOf (makeKey a nd.UID) = a) ∧
    (∀ a b p, v.inApp a p → v.inApp b p → a = b) ∧
    (∀ s ∈ v.GetSelectedResources, ∃ a ∈ names, ∃ p k,
      v.inApp a p ∧ s = v.selectionOf k (v.node p) ∧ s.AppName = a) := by
  have hclash : NoClash names := noClash_of_no_colon names (fun a ha => (hnames a ha).2)
  obtain ⟨owner, hown⟩ := hreach.owned hclash
  have hscoped := hreach.treeScoped
  have hkeys : ∀ a k, k ∈ v.oldKeys a →
      a ∈ names ∧ (∃ u, k = makeKey a u) ∧ v.appNameOf k = a := by
    intro a k hk
    have ha : a ∈ names := hown.apps a (List.ne_nil_of_mem hk)
    obtain ⟨u, hu⟩ := hown.keys a k hk
    refine ⟨ha, ⟨u, hu⟩, ?_⟩
    rw [hu]
    exact appNameOf_makeKey v a u (hnames a ha).1 (hnames a ha).2
  have hbelow : ∀ a r p, mapGet v.rootByApp a = some r → Below v r p → owner p = a := by
    intro a r p hr hb
    induction hb with
    | self => exact hown.root a r hr
    | @child q c _ hcm ih =>
      have hq : q < v.heap.length := by
        by_contra hq
        have hd : v.node q = default := by
          unfold node
          rw [List.getD_eq_default _ _ (not_lt.mp hq)]
        rw [hd] at hcm
        cases hcm
      rw [hown.child q hq c hcm]
      exact ih
  have hin : ∀ a p, v.inApp a p → owner p = a := by
    rintro a p (⟨k, hk, hkp⟩ | ⟨r, hr, hb⟩)
    · exact hown.index a k p hk hkp
    · exact hbelow a r p hr hb
  refine ⟨hclash, ?_, hkeys, ?_, ?_, ?_⟩
  · intro a b k hab hka hkb
    obtain ⟨ha, ⟨u, hu⟩, _⟩ := hkeys a k hka
    obtain ⟨hb, ⟨u', hu'⟩, _⟩ := hkeys b k hkb
    exact hclash a ha b hb hab u u' (hu.symm.trans hu')
  · intro a tree v' ha hc hu nd hnd
    refine ⟨?_, appNameOf_makeKey v' a nd.UID ha hc⟩
    rw [oldKeys_UpsertAppTree v v' a tree hu, if_pos rfl, mem_upsertKeys]
    exact Or.inl ⟨nd, hnd, rfl⟩
  · intro a b p ha hb
    exact (hin a p ha).symm.trans (hin b p hb)
  · intro s hs
    unfold GetSelectedResources at hs
    split at hs
    · rw [List.mem_filterMap] at hs
      obtain ⟨e, _, he⟩ := hs
      unfold selectedEntry at he
      cases hk : mapGet v.nodesByUID e.1 with
      | none =>
        rw [hk] at he
        cases he
      | some p =>
        rw [hk] at he
        simp only [Option.some.injEq] at he
        obtain ⟨a, hka⟩ := hown.indexed e.1 p hk
        obtain ⟨ha, _, happ⟩ := hkeys a e.1 hka
        refine ⟨a, ha, p, e.1, Or.inl ⟨e.1, hka, hk⟩, he.symm, ?_⟩
        rw [← he]
        exact happ
    · split at hs
      · rename_i hsel
        simp only at hs
        split at hs
        · rw [List.mem_singleton] at hs
          have hmem := orderAt_mem v v.selIdx hsel.1 hsel.2
          obtain ⟨r, hr, hb⟩ := order_below v hreach.viewed.1 _ hmem
          obtain ⟨a, har⟩ := hown.rootsFrom r hr
          have ha : a ∈ names := (hown.upserted a).2 (by rw [har]; exact fun h => by cases h)
          obtain ⟨u, hu⟩ := hscoped a r har _ hb
          refine ⟨a, ha, v.orderAt v.selIdx, _, Or.inr ⟨r, har, hb⟩, hs, ?_⟩
          rw [hs]
          show v.appNameOf _ = a
          rw [hu]
          exact appNameOf_makeKey v a u (hnames a ha).1 (hnames a ha).2
        · cases hs
      · cases hs

/-- Witness for C37: in the view of `y` and `x`, whose snapshots both hold the
raw UID `1`, the cursor on the Deployment of `x` gives a selection with the
`AppName` `x`. -/
theorem scoped_keys_witness :
    makeKey "x" "1" ≠ makeKey "y" "1" ∧
    Examples.cursorOnDeployment.GetSelectedResources.map (fun s => (s.AppName, s.Kind, s.Name)) =
      [("x", "Deployment", "web")] ∧
    ∀ s ∈ Examples.cursorOnDeployment.GetSelectedResources, ∃ a ∈ ["x", "y"], ∃ p k,
      Examples.cursorOnDeployment.inApp a p ∧
      s = Examples.cursorOnDeployment.selectionOf k (Examples.cursorOnDeployment.node p) ∧
      s.AppName = a :=
  have h1 : Reached ["y"] Examples.oneAppY :=
    Reached.upsert "y" Examples.snapshotY (Reached.new 80 24) (by decide)
  have h2 : Reached ["x", "y"] Examples.twoApps :=
    Reached.upsert "x" Examples.snapshotX h1 (by decide)
  have h := scoped_keys ["x", "y"] Examples.cursorOnDeployment
    (Reached.setSelectedIndex 1 h2) (by decide)
  ⟨h.1 "x" (by decide) "y" (by decide) (by decide) "1" "1", by decide, h.2.2.2.2.2⟩

end Argonaut

namespace Argonaut

open TreeView

/-! ## C40: collapse, then expand -/

theorem mapSet_restore {ν : Type} (m : GoMap ν) (k : String) (x y : ν)
    (h : mapGet m k = some x) : mapSet (mapSet m k y) k x = m := by
  induction m with
  | nil => simp [mapGet] at h
  | cons e m ih =>
    obtain ⟨k', x'⟩ := e
    by_cases hk : k' = k
    · subst hk
      simp only [mapGet, if_true, Option.some.injEq] at h
      subst h
      simp [mapSet]
    · simp only [mapGet, if_neg hk] at h
      simp only [mapSet, if_neg hk]
      rw [ih h]

theorem mapGet_of_mapGetBool (m : GoMap Bool) (k : String) (h : mapGetBool m k = true) :
    mapGet m k = some true := by
  unfold mapGetBool at h
  cases hm : mapGet m k with
  | none =>
    rw [hm] at h
    cases h
  | some b =>
    rw [hm] at h
    simp only [Option.getD_some] at h
    rw [h]

theorem updateKey_right (v : TreeView) (k : String) (hk : k = "l" ∨ k = "right") :
    v.updateKey k =
      if v.selIdx ≥ 0 ∧ v.selIdx < v.order.length then
        if (v.node (v.orderAt v.selIdx)).children.length > 0 then
          TreeView.rebuildOrder { v with
            expanded := mapSet v.expanded (v.node (v.orderAt v.selIdx)).uid true }
        else some v
      else some v := by
  rcases hk with rfl | rfl <;> rfl

/-- The key `l` on a node without children, or with the cursor out of range,
changes nothing in a view whose `SelectedUID` is current. -/
theorem Update_right_leaf (v : TreeView) (hs : Synced v) (k : String)
    (hk : k = "l" ∨ k = "right")
    (hleaf : 0 ≤ v.selIdx ∧ v.selIdx < v.order.length →
      (v.node (v.orderAt v.selIdx)).children = []) :
    v.Update (Msg.key k) = some v := by
  unfold TreeView.Update
  simp only
  rw [updateKey_right v k hk]
  split
  · rename_i hsel
    rw [hleaf ⟨hsel.1, hsel.2⟩]
    simp only [List.length_nil, gt_iff_lt, lt_self_iff_false, if_false, Option.map_some']
    rw [synced_self v hs]
  · simp only [Option.map_some']
    rw [synced_self v hs]

/-- The key `l` on the node that the key `h` has just collapsed brings the view
back. -/
theorem Update_right_restores (v : TreeView) (ho : OrderCurrent v) (hs : Synced v)
    (hsel : 0 ≤ v.selIdx ∧ v.selIdx < v.order.length)
    (hexp : mapGetBool v.expanded (v.node (v.orderAt v.selIdx)).uid = true ∧
      (v.node (v.orderAt v.selIdx)).children ≠ [])
    (pre post : List Nat) (hpre : (pre.length : Int) = v.selIdx) (k : String)
    (hk : k = "l" ∨ k = "right") :
    ({ v with
        expanded := mapSet v.expanded (v.node (v.orderAt v.selIdx)).uid false,
        order := pre ++ v.orderAt v.selIdx :: post,
        SelectedUID := (v.node (v.orderAt v.selIdx)).uid } : TreeView).Update (Msg.key k) =
      some v := by
  have hat : (pre ++ v.orderAt v.selIdx :: post).getD v.selIdx.toNat 0 =
      v.orderAt v.selIdx := by
    have : v.selIdx.toNat = pre.length := by omega
    rw [this, List.getD_eq_getElem?_getD, List.getElem?_append_right (le_refl _)]
    simp
  have hlen : v.selIdx < ((pre ++ v.orderAt v.selIdx :: post).length : Int) := by
    rw [List.length_append, List.length_cons]
    push_cast
    omega
  unfold TreeView.Update
  simp only
  rw [updateKey_right _ k hk]
  simp only
  rw [if_pos ⟨hsel.1, hlen⟩]
  have hcur : TreeView.orderAt ({ v with
      expanded := mapSet v.expanded (v.node (v.orderAt v.selIdx)).uid false,
      order := pre ++ v.orderAt v.selIdx :: post,
      SelectedUID := (v.node (v.orderAt v.selIdx)).uid } : TreeView) v.selIdx =
      v.orderAt v.selIdx := hat
  rw [hcur]
  have hnode : ∀ p, TreeView.node ({ v with
      expanded := mapSet v.expanded (v.node (v.orderAt v.selIdx)).uid false,
      order := pre ++ v.orderAt v.selIdx :: post,
      SelectedUID := (v.node (v.orderAt v.selIdx)).uid } : TreeView) p = v.node p :=
    fun _ => rfl
  rw [hnode, if_pos (List.length_pos.2 hexp.2),
    mapSet_restore _ _ _ _ (mapGet_of_mapGetBool _ _ hexp.1)]
  have hw : TreeView.walkRoots ({ v with
      expanded := v.expanded,
      order := pre ++ v.orderAt v.selIdx :: post,
      SelectedUID := (v.node (v.orderAt v.selIdx)).uid } : TreeView) = some v.order := by
    exact (@walkRoots_congr v ({ v with
      expanded := v.expanded,
      order := pre ++ v.orderAt v.selIdx :: post,
      SelectedUID := (v.node (v.orderAt v.selIdx)).uid } : TreeView)
      ⟨rfl, fun _ => rfl, rfl, rfl, rfl, rfl⟩ rfl).trans ho
  rw [rebuildOrder_in_range _ v.order hw ⟨hsel.1, hsel.2⟩]
  simp only [Option.map_some', Option.some.injEq]
  have huid : v.SelectedUID = (v.node (v.orderAt v.selIdx)).uid := hs ⟨hsel.1, hsel.2⟩
  have hv : ({ v with
      expanded := v.expanded,
      order := v.order,
      SelectedUID := (v.node (v.order.getD v.selIdx.toNat 0)).uid } : TreeView) = v := by
    show ({ v with SelectedUID := (v.node (v.orderAt v.selIdx)).uid } : TreeView) = v
    rw [← huid]
  exact (congrArg TreeView.syncSelectedUID hv).trans (synced_self v hs)

/-- In the tree of `sharedChild` the ReplicaSet is visible below both
Deployments.  With the cursor on its second occurrence (index 5), which is
expanded and has a child, `h` collapses both occurrences and leaves the cursor
at index 5 on the Service; `l` then changes nothing, so the order, the
`SelectedUID` and the flag of the ReplicaSet are not those of before. -/
theorem collapse_expand_counterexample :
    ((Examples.sharedView.SetSelectedIndex 5).order = [5, 0, 2, 3, 1, 2, 3, 4] ∧
      (Examples.sharedView.SetSelectedIndex 5).SelectedIndex = 5 ∧
      (Examples.sharedView.SetSelectedIndex 5).SelectedUID = "demo::3" ∧
      mapGetBool (Examples.sharedView.SetSelectedIndex 5).expanded "demo::3" = true ∧
      ((Examples.sharedView.SetSelectedIndex 5).node 2).children = [3]) ∧
    (((Examples.sharedView.SetSelectedIndex 5).Update (Msg.key "h")).bind
        (fun v => v.Update (Msg.key "l"))).map
      (fun v => (v.order, v.SelectedIndex, v.SelectedUID, mapGetBool v.expanded "demo::3")) =
      some ([5, 0, 2, 1, 2, 4], 5, "demo::5", false) := by
  decide

/-- C40, amended. Collapse then expand is the identity when the cursor node is
shown once: in every view reached from `NewTreeView` whose cursor is on an
expanded node with at least one child, the UID of which is met once in the
visible order, the key `h` (or `left`) returns a view in which that node is
collapsed, and the key `l` (or `right`) in that view returns the view of
before: the visible order, the cursor index, `SelectedUID`, the expansion flags
and everything else.  The key `l` (or `right`) on a node without children
returns the view unchanged. -/
theorem collapse_expand (names : List String) (v : TreeView) (hreach : Reached names v)
    (hsel : 0 ≤ v.SelectedIndex ∧ v.SelectedIndex < v.VisibleCount) :
    (mapGetBool v.expanded (v.node (v.orderAt v.selIdx)).uid = true →
      (v.node (v.orderAt v.selIdx)).children ≠ [] →
      v.order.countP
        (fun p => decide ((v.node p).uid = (v.node (v.orderAt v.selIdx)).uid)) = 1 →
      ∃ v', v.Update (Msg.key "h") = some v' ∧ v.Update (Msg.key "left") = some v' ∧
        mapGetBool v'.expanded (v.node (v.orderAt v.selIdx)).uid = false ∧
        v'.order ≠ v.order ∧
        v'.Update (Msg.key "l") = some v ∧ v'.Update (Msg.key "right") = some v) ∧
    ((v.node (v.orderAt v.selIdx)).children = [] →
      v.Update (Msg.key "l") = some v ∧ v.Update (Msg.key "right") = some v) := by
  have ho := hreach.viewed.1
  have hs := hreach.viewed.2
  constructor
  · intro hexp hch h1
    obtain ⟨v', hv'⟩ := Update_returns v hreach.shallowed (Msg.key "h")
    obtain ⟨pre, desc, post, hord, hpre, _, hdesc, hv⟩ :=
      Update_left_collapse_unique v v' ho hsel ⟨hexp, hch⟩ h1 hv'
    refine ⟨v', hv', hv', ?_, ?_, ?_, ?_⟩
    · rw [hv]
      show mapGetBool (mapSet v.expanded _ false) _ = false
      unfold mapGetBool
      rw [mapGet_mapSet_self]
      rfl
    · rw [hv, hord]
      show pre ++ v.orderAt v.selIdx :: post ≠ pre ++ v.orderAt v.selIdx :: desc ++ post
      intro h
      have hl := congrArg List.length h
      simp only [List.length_append, List.length_cons] at hl
      have : desc.length = 0 := by omega
      exact hdesc (List.length_eq_zero.1 this)
    · rw [hv]
      exact Update_right_restores v ho hs hsel ⟨hexp, hch⟩ pre post hpre "l" (Or.inl rfl)
    · rw [hv]
      exact Update_right_restores v ho hs hsel ⟨hexp, hch⟩ pre post hpre "right" (Or.inr rfl)
  · intro hleaf
    exact ⟨Update_right_leaf v hs "l" (Or.inl rfl) (fun _ => hleaf),
      Update_right_leaf v hs "right" (Or.inr rfl) (fun _ => hleaf)⟩

/-- Witness for C40: in the view of `y` and `x` with the cursor on the
Deployment of `x`, `h` takes the ReplicaSet out of the order and `l` brings the
view back; with the cursor on the Service of `y`, `l` changes nothing. -/
theorem collapse_expand_witness :
    (∃ v', Examples.cursorOnDeployment.Update (Msg.key "h") = some v' ∧
      v'.order = [4, 2, 1, 0] ∧
      v'.Update (Msg.key "l") = some Examples.cursorOnDeployment) ∧
    Examples.cursorOnService.Update (Msg.key "l") = some Examples.cursorOnService :=
  have h1 : Reached ["y"] Examples.oneAppY :=
    Reached.upsert "y" Examples.snapshotY (Reached.new 80 24) (by decide)
  have h2 : Reached ["x", "y"] Examples.twoApps :=
    Reached.upsert "x" Examples.snapshotX h1 (by decide)
  have h := (collapse_expand ["x", "y"] Examples.cursorOnDeployment
    (Reached.setSelectedIndex 1 h2) (by decide)).1 (by decide) (by decide) (by decide)
  ⟨⟨Examples.get (Examples.cursorOnDeployment.Update (Msg.key "h")), by decide, by decide,
    by
      obtain ⟨v', hv', _, _, _, hl, _⟩ := h
      have : Examples.get (Examples.cursorOnDeployment.Update (Msg.key "h")) = v' := by
        rw [hv']
        rfl
      rw [this]
      exact hl⟩,
   ((collapse_expand ["x", "y"] Examples.cursorOnService
    (Reached.setSelectedIndex 4 h2) (by decide)).2 (by decide)).1⟩

end Argonaut

namespace Argonaut

open TreeView

/-! ## C39: the walk on trees -/

theorem Below.below_trans {v : TreeView} {a b c : Nat} (h1 : Below v a b) (h2 : Below v b c) :
    Below v a c := by
  induction h2 with
  | self => exact h1
  | child _ hc ih => exact Below.child ih hc

theorem Below.cases_last {v : TreeView} {a p : Nat} (h : Below v a p) :
    a = p ∨ ∃ q, Below v a q ∧ p ∈ (v.node q).children := by
  cases h with
  | self => exact Or.inl rfl
  | child hq hc => exact Or.inr ⟨_, hq, hc⟩

theorem Below.cases_first {v : TreeView} {a p : Nat} (h : Below v a p) :
    a = p ∨ ∃ c ∈ (v.node a).children, Below v c p := by
  induction h with
  | self => exact Or.inl rfl
  | @child q c _ hc ih =>
    rcases ih with rfl | ⟨c', hc', hb⟩
    · exact Or.inr ⟨c, hc, Below.self⟩
    · exact Or.inr ⟨c', hc', Below.child hb hc⟩

/-- A set of nodes closed under children holds everything below its nodes. -/
theorem below_closed (v : TreeView) (S : Nat → Prop)
    (hS : ∀ p, S p → ∀ c ∈ (v.node p).children, S c) {a x : Nat} (ha : S a)
    (h : Below v a x) : S x := by
  induction h with
  | self => exact ha
  | child _ hc ih => exact hS _ ih _ hc

/-- Where every child link agrees with the parent pointer of the child, a node
below a node without a parent is not below one of its own children. -/
theorem below_no_cycle (v : TreeView) (S : Nat → Prop)
    (hS : ∀ p, S p → ∀ c ∈ (v.node p).children, S c ∧ (v.node c).parent = some p)
    (t : Nat) (ht : S t) (hpar : (v.node t).parent = none) :
    ∀ q, Below v t q → ∀ c ∈ (v.node q).children, ¬ Below v c q := by
  have hcl : ∀ a x, S a → Below v a x → S x := fun a x ha h =>
    below_closed v S (fun p hp c hc => (hS p hp c hc).1) ha h
  intro q hq
  induction hq with
  | self =>
    intro c hc hb
    rcases hb.cases_last with rfl | ⟨q', hq', hin⟩
    · have := (hS c ht c hc).2
      rw [hpar] at this
      cases this
    · have hq'S : S q' := hcl c q' (hS t ht c hc).1 hq'
      have := (hS q' hq'S t hin).2
      rw [hpar] at this
      cases this
  | @child q x hq hxq ih =>
    intro c hc hb
    have hqS : S q := hcl t q ht hq
    have hxS : S x := (hS q hqS x hxq).1
    have hpx : (v.node x).parent = some q := (hS q hqS x hxq).2
    apply ih x hxq
    rcases hb.cases_last with rfl | ⟨q', hq', hin⟩
    · have := (hS c hxS c hc).2
      rw [hpx] at this
      cases this
      exact Below.self
    · have hq'S : S q' := hcl c q' (hS x hxS c hc).1 hq'
      have := (hS q' hq'S x hin).2
      rw [hpx] at this
      cases this
      exact (Below.child Below.self hc).below_trans hq'

/-- Where every child link agrees with the parent pointer of the child, the
nodes a node is below form a chain. -/
theorem below_chain (v : TreeView) (S : Nat → Prop)
    (hS : ∀ p, S p → ∀ c ∈ (v.node p).children, S c ∧ (v.node c).parent = some p)
    {a x : Nat} (ha : S a) (hax : Below v a x) :
    ∀ b, S b → Below v b x → Below v a b ∨ Below v b a := by
  have hcl : ∀ a x, S a → Below v a x → S x := fun a x ha h =>
    below_closed v S (fun p hp c hc => (hS p hp c hc).1) ha h
  induction hax with
  | self =>
    intro b _ hb
    exact Or.inr hb
  | @child q x hq hxq ih =>
    intro b hbS hb
    rcases hb.cases_last with rfl | ⟨q', hq', hin⟩
    · exact Or.inl (Below.child hq hxq)
    · have h1 := (hS q (hcl a q ha hq) x hxq).2
      have h2 := (hS q' (hcl b q' hbS hq') x hin).2
      rw [h1] at h2
      cases h2
      exact ih b hbS hq'

/-- Two different children of a node of a tree have nothing below both. -/
theorem below_children_disjoint (v : TreeView) (S : Nat → Prop)
    (hS : ∀ p, S p → ∀ c ∈ (v.node p).children, S c ∧ (v.node c).parent = some p)
    (t : Nat) (ht : S t) (hpar : (v.node t).parent = none) (n : Nat) (hn : Below v t n)
    (c1 c2 : Nat) (h1 : c1 ∈ (v.node n).children) (h2 : c2 ∈ (v.node n).children)
    (hne : c1 ≠ c2) (x : Nat) (hx1 : Below v c1 x) (hx2 : Below v c2 x) : False := by
  have hcl : ∀ a x, S a → Below v a x → S x := fun a x ha h =>
    below_closed v S (fun p hp c hc => (hS p hp c hc).1) ha h
  have hnS : S n := hcl t n ht hn
  have key : ∀ a b, a ∈ (v.node n).children → b ∈ (v.node n).children → a ≠ b →
      Below v a b → False := by
    intro a b ha hb hab hbel
    rcases hbel.cases_last with rfl | ⟨q, hq, hin⟩
    · exact hab rfl
    · have hqS : S q := hcl a q (hS n hnS a ha).1 hq
      have h1 := (hS q hqS b hin).2
      rw [(hS n hnS b hb).2] at h1
      cases h1
      exact below_no_cycle v S hS t ht hpar n hn a ha hq
  rcases below_chain v S hS (hS n hnS c1 h1).1 hx1 c2 (hS n hnS c2 h2).1 hx2 with h | h
  · exact key c1 c2 h1 h2 hne h
  · exact key c2 c1 h2 h1 (Ne.symm hne) h

/-- The lists that a loop of walks returns for different nodes are disjoint
when nothing is below two of the nodes. -/
theorem forall₂_pairwise_disjoint (R : Nat → List Nat → Prop) (B : Nat → Nat → Prop)
    (cs : List Nat) (ls : List (List Nat)) (hf : List.Forall₂ R cs ls) (hnd : cs.Nodup)
    (hsub : ∀ c ∈ cs, ∀ lc, R c lc → ∀ x ∈ lc, B c x)
    (hdis : ∀ c1 ∈ cs, ∀ c2 ∈ cs, c1 ≠ c2 → ∀ x, B c1 x → B c2 x → False) :
    List.Pairwise List.Disjoint ls := by
  induction hf with
  | nil => exact List.Pairwise.nil
  | @cons c lc cs ls hc hrest ih =>
    rw [List.nodup_cons] at hnd
    refine List.Pairwise.cons ?_ (ih hnd.2
      (fun c' hc' => hsub c' (List.mem_cons_of_mem _ hc'))
      (fun c1 h1 c2 h2 => hdis c1 (List.mem_cons_of_mem _ h1) c2 (List.mem_cons_of_mem _ h2)))
    intro l' hl' x hx hx'
    obtain ⟨c', hc', hR⟩ := forall₂_mem_right hrest l' hl'
    have hne : c ≠ c' := fun h => hnd.1 (h ▸ hc')
    exact hdis c (List.mem_cons_self _ _) c' (List.mem_cons_of_mem _ hc') hne x
      (hsub c (List.mem_cons_self _ _) lc hc x hx)
      (hsub c' (List.mem_cons_of_mem _ hc') l' hR x hx')

/-- The walk of a tree visits no node twice, and only nodes below its start. -/
theorem walk_nodup (v : TreeView) (S : Nat → Prop)
    (hS : ∀ p, S p → ∀ c ∈ (v.node p).children, S c ∧ (v.node c).parent = some p)
    (hN : ∀ p, S p → (v.node p).children.Nodup)
    (t : Nat) (ht : S t) (hpar : (v.node t).parent = none) (fuel : Nat) :
    ∀ n l, Below v t n → walk v fuel n = some l → l.Nodup ∧ ∀ x ∈ l, Below v n x := by
  have hcl : ∀ a x, S a → Below v a x → S x := fun a x ha h =>
    below_closed v S (fun p hp c hc => (hS p hp c hc).1) ha h
  induction fuel with
  | zero =>
    intro n l _ h
    simp [walk] at h
  | succ fuel ih =>
    intro n l hn h
    rcases walk_eq_some v fuel n l h with ⟨_, rfl⟩ | ⟨_, tl, htl, rfl⟩
    · refine ⟨List.nodup_singleton _, ?_⟩
      intro x hx
      rw [List.mem_singleton.1 hx]
      exact Below.self
    · obtain ⟨ls, hf, rfl⟩ := (walkEach_eq_some _ _ tl).1 htl
      have hnS : S n := hcl t n ht hn
      have hsub : ∀ c ∈ (v.node n).children, ∀ lc, walk v fuel c = some lc →
          lc.Nodup ∧ ∀ x ∈ lc, Below v c x :=
        fun c hc lc hlc => ih c lc (Below.child hn hc) hlc
      have hin : ∀ x ∈ ls.flatten, ∃ c ∈ (v.node n).children, Below v c x := by
        intro x hx
        obtain ⟨lc, hlc, hxl⟩ := List.mem_flatten.1 hx
        obtain ⟨c, hc, hw⟩ := forall₂_mem_right hf lc hlc
        exact ⟨c, hc, (hsub c hc lc hw).2 x hxl⟩
      refine ⟨?_, ?_⟩
      · rw [List.nodup_cons]
        refine ⟨?_, ?_⟩
        · intro hmem
          obtain ⟨c, hc, hb⟩ := hin n hmem
          exact below_no_cycle v S hS t ht hpar n hn c hc hb
        · rw [List.nodup_flatten]
          refine ⟨?_, ?_⟩
          · intro lc hlc
            obtain ⟨c, hc, hw⟩ := forall₂_mem_right hf lc hlc
            exact (hsub c hc lc hw).1
          · exact forall₂_pairwise_disjoint _ (fun c x => Below v c x) _ _ hf (hN n hnS)
              (fun c hc lc hw => (hsub c hc lc hw).2)
              (fun c1 h1 c2 h2 hne x hx1 hx2 =>
                below_children_disjoint v S hS t ht hpar n hn c1 c2 h1 h2 hne x hx1 hx2)
      · intro x hx
        rcases List.mem_cons.1 hx with rfl | hx
        · exact Below.self
        · obtain ⟨c, hc, hb⟩ := hin x hx
          exact (Below.child Below.self hc).below_trans hb

/-- The closure of the forest under child links, with the agreement of the
child links and the parent pointers, in a view without shared children. -/
theorem SingleParented.forest {v : TreeView} (h : SingleParented v) :
    ∀ p, v.inForest p → ∀ c ∈ (v.node p).children,
      v.inForest c ∧ (v.node c).parent = some p := by
  rintro p ⟨r, hr, hb⟩ c hc
  exact ⟨⟨r, hr, Below.child hb hc⟩, (h p ⟨r, hr, hb⟩).2 c hc⟩

theorem roots_nodup (v : TreeView) (ho : Ordered v) : v.roots.Nodup := by
  have hnames : (v.roots.map (fun r => (v.node r).name)).Nodup := by
    unfold List.Nodup
    rw [List.pairwise_map]
    exact List.Pairwise.imp (fun hab => strLt_ne _ _ hab) ho.roots
  exact List.Nodup.of_map _ hnames

/-- In a view without shared children no node is visible twice. -/
theorem order_nodup (v : TreeView) (ho : OrderCurrent v) (hr : Rooted v) (hord : Ordered v)
    (hsp : SingleParented v) : v.order.Nodup := by
  have hS := hsp.forest
  have hN : ∀ p, v.inForest p → (v.node p).children.Nodup := fun p hp => (hsp p hp).1
  have hroot : ∀ r ∈ v.roots, v.inForest r := fun r hrm => ⟨r, hrm, Below.self⟩
  obtain ⟨ls, hf, hl⟩ := (walkEach_eq_some _ _ v.order).1 ho
  rw [hl, List.nodup_flatten]
  refine ⟨?_, ?_⟩
  · intro lr hlr
    obtain ⟨r, hrm, hw⟩ := forall₂_mem_right hf lr hlr
    exact (walk_nodup v v.inForest hS hN r (hroot r hrm) (hr.rootParent r hrm) _ r lr
      Below.self hw).1
  · apply forall₂_pairwise_disjoint _ (fun c x => Below v c x) _ _ hf (roots_nodup v hord)
    · intro r hrm lr hw
      exact (walk_nodup v v.inForest hS hN r (hroot r hrm) (hr.rootParent r hrm) _ r lr
        Below.self hw).2
    · intro r1 h1 r2 h2 hne x hx1 hx2
      have key : ∀ a b, a ∈ v.roots → b ∈ v.roots → a ≠ b → Below v a b → False := by
        intro a b ha hb hab hbel
        rcases hbel.cases_last with rfl | ⟨q, hq, hin⟩
        · exact hab rfl
        · have hqS : v.inForest q := ⟨a, ha, hq⟩
          have h1 := (hS q hqS b hin).2
          rw [hr.rootParent b hb] at h1
          cases h1
      rcases below_chain v v.inForest hS (hroot r1 h1) hx1 r2 (hroot r2 h2) hx2 with h | h
      · exact key r1 r2 h1 h2 hne h
      · exact key r2 r1 h2 h1 (Ne.symm hne) h

end Argonaut

namespace Argonaut

open TreeView

theorem Shown.shown_trans {v : TreeView} {a b c : Nat} (h1 : Shown v a b) (h2 : Shown v b c) :
    Shown v a c := by
  induction h2 with
  | self => exact h1
  | child _ he hc ih => exact Shown.child ih he hc

theorem Shown.toBelow {v : TreeView} {a b : Nat} (h : Shown v a b) : Below v a b := by
  induction h with
  | self => exact Below.self
  | child _ _ hc ih => exact Below.child ih hc

/-- The walk visits the nodes shown from its start. -/
theorem walk_shown (v : TreeView) (fuel : Nat) :
    ∀ n l, walk v fuel n = some l → ∀ p ∈ l, Shown v n p := by
  induction fuel with
  | zero =>
    intro n l h
    simp [walk] at h
  | succ fuel ih =>
    intro n l h p hp
    rcases walk_eq_some v fuel n l h with ⟨_, rfl⟩ | ⟨he, tl, htl, rfl⟩
    · rw [List.mem_singleton.1 hp]
      exact Shown.self
    · rcases List.mem_cons.1 hp with rfl | hp
      · exact Shown.self
      · obtain ⟨c, hc, lc, hlc, hq⟩ := (mem_walkEach _ _ tl htl p).1 hp
        exact (Shown.child Shown.self he hc).shown_trans (ih c lc hlc p hq)

/-- The visible nodes are the nodes shown from a root. -/
theorem order_shown (v : TreeView) (ho : OrderCurrent v) (p : Nat) :
    p ∈ v.order ↔ ∃ r ∈ v.roots, Shown v r p := by
  constructor
  · intro hp
    obtain ⟨r, hr, lr, hlr, hq⟩ := (mem_walkEach _ _ v.order ho p).1 hp
    exact ⟨r, hr, walk_shown v _ r lr hlr p hq⟩
  · rintro ⟨r, hr, hs⟩
    induction hs with
    | self => exact walkRoots_mem_root v v.order ho r hr
    | child _ he hc ih => exact order_children_mem v ho _ ih he _ hc

/-- In a tree the nodes above a shown node are expanded. -/
theorem shown_above (v : TreeView) (S : Nat → Prop)
    (hS : ∀ p, S p → ∀ c ∈ (v.node p).children, S c ∧ (v.node c).parent = some p)
    (r : Nat) (hr : S r) (hpar : (v.node r).parent = none) {p : Nat} (h : Shown v r p) :
    ∀ a, S a → ∀ c ∈ (v.node a).children, Below v c p →
      mapGetBool v.expanded (v.node a).uid = true := by
  have hcl : ∀ a x, S a → Below v a x → S x := fun a x ha h =>
    below_closed v S (fun p hp c hc => (hS p hp c hc).1) ha h
  induction h with
  | self =>
    intro a ha c hc hb
    rcases hb.cases_last with rfl | ⟨q, hq, hin⟩
    · have := (hS a ha c hc).2
      rw [hpar] at this
      cases this
    · have := (hS q (hcl c q (hS a ha c hc).1 hq) r hin).2
      rw [hpar] at this
      cases this
  | @child q x hq he hxq ih =>
    intro a ha c hc hb
    have hqS : S q := hcl r q hr hq.toBelow
    have hpx := (hS q hqS x hxq).2
    rcases hb.cases_last with rfl | ⟨q', hq', hin⟩
    · have := (hS a ha c hc).2
      rw [hpx] at this
      cases this
      exact he
    · have := (hS q' (hcl c q' (hS a ha c hc).1 hq') x hin).2
      rw [hpx] at this
      cases this
      exact ih a ha c hc hq'

/-- A node below `r` all of whose upper nodes are expanded is shown from `r`. -/
theorem shown_of_above (v : TreeView) (r : Nat) {p : Nat} (h : Below v r p) :
    (∀ a, Below v r a → ∀ c ∈ (v.node a).children, Below v c p →
      mapGetBool v.expanded (v.node a).uid = true) → Shown v r p := by
  induction h with
  | self =>
    intro _
    exact Shown.self
  | @child q x hq hxq ih =>
    intro hab
    exact Shown.child
      (ih (fun a ha c hc hb => hab a ha c hc (Below.child hb hxq)))
      (hab q hq x hxq Below.self) hxq

/-- Where every child link agrees with the parent pointer of the child, the
chains of child links from a node without a parent are no longer than the
number of nodes below it. -/
theorem tree_shallow (v : TreeView) (S : Nat → Prop)
    (hS : ∀ p, S p → ∀ c ∈ (v.node p).children, S c ∧ (v.node c).parent = some p)
    (t : Nat) (ht : S t) (hpar : (v.node t).parent = none) (univ : List Nat)
    (huniv : ∀ x, Below v t x → x ∈ univ) :
    Shallow v.heap (univ.length + 1) t := by
  classical
  apply shallow_of_rank v.heap (fun q => Below v t q)
    (fun q => univ.countP (fun x => decide (Below v q x)))
  · intro q hq c hc
    have hc' : c ∈ (v.node q).children := hc
    refine ⟨Below.child hq hc', ?_⟩
    apply countP_lt_of_mem _ _ univ _ q (huniv q hq)
    · exact decide_eq_true Below.self
    · exact decide_eq_false (below_no_cycle v S hS t ht hpar q hq c hc')
    · intro x _ hx
      simp only [decide_eq_true_eq] at hx ⊢
      exact (Below.child Below.self hc').below_trans hx
  · exact Below.self
  · exact Nat.lt_succ_of_le (List.countP_le_length _)

/-- In a view without shared children the parent of a visible node is visible
before it. -/
theorem order_parent_before (v : TreeView) (ho : OrderCurrent v) (hr : Rooted v)
    (hsp : SingleParented v) (pre : List Nat) (x : Nat) (post : List Nat) (par : Nat)
    (hl : v.order = pre ++ x :: post) (hpar : (v.node x).parent = some par) :
    par ∈ pre := by
  rcases order_preorder v ho pre x post hl with hroot | ⟨p, hp, hc⟩
  · rw [hr.rootParent x hroot] at hpar
    cases hpar
  · have hpo : p ∈ v.order := by
      rw [hl]
      exact List.mem_append_left _ hp
    have := (hsp p (order_below v ho p hpo)).2 x hc
    rw [hpar] at this
    cases this
    exact hp

/-- In a view without shared children, a node is visible exactly when it is in
the forest and every node of the forest above it is expanded. -/
theorem order_iff_above (v : TreeView) (ho : OrderCurrent v) (hr : Rooted v)
    (hsp : SingleParented v) (p : Nat) :
    p ∈ v.order ↔ v.inForest p ∧
      ∀ a, v.inForest a → ∀ c ∈ (v.node a).children, Below v c p →
        mapGetBool v.expanded (v.node a).uid = true := by
  rw [order_shown v ho p]
  constructor
  · rintro ⟨r, hrm, hs⟩
    exact ⟨⟨r, hrm, hs.toBelow⟩,
      shown_above v v.inForest hsp.forest r ⟨r, hrm, Below.self⟩ (hr.rootParent r hrm) hs⟩
  · rintro ⟨⟨r, hrm, hb⟩, hab⟩
    exact ⟨r, hrm, shown_of_above v r hb (fun a ha => hab a ⟨r, hrm, ha⟩)⟩

theorem SingleParented.single_of_sameShape {v v' : TreeView} (hs : SameShape v v')
    (h : SingleParented v) : SingleParented v' := by
  rintro p ⟨r, hr, hb⟩
  rw [hs.roots] at hr
  have hb' : Below v r p :=
    below_of_children (fun q => (children_of_shape (hs.shape q)).symm) r p hb
  obtain ⟨h1, h2⟩ := h p ⟨r, hr, hb'⟩
  rw [children_of_shape (hs.shape p)]
  refine ⟨h1, fun c hc => ?_⟩
  rw [parent_of_shape (hs.shape c)]
  exact h2 c hc

end Argonaut

namespace Argonaut

open TreeView

/-! ## C39: `UpsertAppTree` on single-parent snapshots -/

/-- A parent reference is followed by the second pass exactly when it names an
entry of the snapshot. -/
theorem nodesLocal_resolves (v : TreeView) (appName : String) (tree : ResourceTree)
    (u : String) :
    mapGet (v.upsertBuild appName tree).nodesLocal (makeKey appName u) ≠ none ↔
      ∃ nd' ∈ tree.Nodes, nd'.UID = u := by
  constructor
  · intro h
    cases hp : mapGet (v.upsertBuild appName tree).nodesLocal (makeKey appName u) with
    | none => exact absurd hp h
    | some p =>
      obtain ⟨i, nd, hi, _, hkey⟩ :=
        upsertBuild_mem_nodesLocal v appName tree _ p (mem_of_mapGet _ _ _ hp)
      exact ⟨nd, List.getElem?_mem hi, makeKey_inj _ _ _ hkey⟩
  · rintro ⟨nd, hnd, rfl⟩
    exact upsertBuild_nodesLocal_some v appName tree nd hnd

/-- Two keys of `nodesLocal` with the same node are the same key. -/
theorem nodesLocal_key_inj (v : TreeView) (appName : String) (tree : ResourceTree)
    (k k' : String) (p : Nat)
    (h : (k, p) ∈ (v.upsertBuild appName tree).nodesLocal)
    (h' : (k', p) ∈ (v.upsertBuild appName tree).nodesLocal) : k = k' := by
  obtain ⟨i, nd, hi, hp, hkey⟩ := upsertBuild_mem_nodesLocal v appName tree k p h
  obtain ⟨j, nd', hj, hp', hkey'⟩ := upsertBuild_mem_nodesLocal v appName tree k' p h'
  have hij : i = j := by omega
  subst hij
  rw [hi] at hj
  cases hj
  exact hkey.symm.trans hkey'

theorem linkParent_none (appName : String) (nodesLocal : GoMap Nat) (child : Nat)
    (h : List treeNode) (r : ResourceRef)
    (hr : mapGet nodesLocal (makeKey appName r.UID) = none) :
    linkParent appName nodesLocal child h r = h := by
  unfold linkParent
  rw [hr]

theorem foldl_linkParent_none (appName : String) (nodesLocal : GoMap Nat) (child : Nat)
    (refs : List ResourceRef) :
    ∀ h : List treeNode, (∀ r ∈ refs, mapGet nodesLocal (makeKey appName r.UID) = none) →
      refs.foldl (linkParent appName nodesLocal child) h = h := by
  induction refs with
  | nil =>
    intro h _
    rfl
  | cons r rs ih =>
    intro h hr
    rw [List.foldl_cons, linkParent_none appName nodesLocal child h r
      (hr r (List.mem_cons_self _ _))]
    exact ih h (fun r' hr' => hr r' (List.mem_cons_of_mem _ hr'))

/-- One link of the second pass, to a node that has no parent yet. -/
theorem linkParent_agreed (appName : String) (nodesLocal : GoMap Nat) (base : Nat)
    (h : List treeNode) (child : Nat) (r : ResourceRef) (p : Nat)
    (hp : mapGet nodesLocal (makeKey appName r.UID) = some p) (hpb : base ≤ p)
    (hpl : p < h.length) (hcl : child < h.length)
    (hnone : (h.getD child default).parent = none) (ha : Agreed base h) :
    Agreed base (linkParent appName nodesLocal child h r) ∧
    (linkParent appName nodesLocal child h r).length = h.length ∧
    ∀ x, x ≠ child → ((linkParent appName nodesLocal child h r).getD x default).parent =
      (h.getD x default).parent := by
  have hnot : ∀ p0, base ≤ p0 → child ∉ (h.getD p0 default).children := by
    intro p0 hp0 hmem
    have := ha.agree p0 child hp0 hmem
    rw [hnone] at this
    cases this
  have hE : linkParent appName nodesLocal child h r =
      setChildren (setParent h child (some p)) p
        (((setParent h child (some p)).getD p default).children ++ [child]) := by
    unfold linkParent
    rw [hp]
  rw [hE]
  have hl1 : (setParent h child (some p)).length = h.length := setParent_length _ _ _
  have hch : ∀ q, ((setChildren (setParent h child (some p)) p
      (((setParent h child (some p)).getD p default).children ++ [child])).getD q
        default).children =
      if q = p then (h.getD p default).children ++ [child] else (h.getD q default).children := by
    intro q
    rw [setChildren_children, setParent_children]
    by_cases hq : q = p
    · rw [if_pos ⟨hq, by rw [hl1]; exact hpl⟩, if_pos hq]
    · rw [if_neg (fun hh => hq hh.1), if_neg hq, setParent_children]
  have hpa : ∀ q, ((setChildren (setParent h child (some p)) p
      (((setParent h child (some p)).getD p default).children ++ [child])).getD q
        default).parent =
      if q = child then some p else (h.getD q default).parent := by
    intro q
    rw [setChildren_parent, setParent_parent]
    by_cases hq : q = child
    · rw [if_pos ⟨hq, hcl⟩, if_pos hq]
    · rw [if_neg (fun hh => hq hh.1), if_neg hq]
  refine ⟨⟨?_, ?_⟩, ?_, ?_⟩
  · intro p0 c hp0 hc
    rw [hch] at hc
    rw [hpa]
    by_cases hq : p0 = p
    · rw [if_pos hq] at hc
      rcases List.mem_append.1 hc with hc | hc
      · have hne : c ≠ child := fun e => hnot p hpb (e ▸ hc)
        rw [if_neg hne, hq]
        exact ha.agree p c hpb hc
      · rw [List.mem_singleton.1 hc, if_pos rfl, hq]
    · rw [if_neg hq] at hc
      have hne : c ≠ child := fun e => hnot p0 hp0 (e ▸ hc)
      rw [if_neg hne]
      exact ha.agree p0 c hp0 hc
  · intro p0 hp0
    rw [hch]
    by_cases hq : p0 = p
    · rw [if_pos hq]
      have := List.Nodup.concat (hnot p hpb) (ha.nodup p hpb)
      rwa [List.concat_eq_append] at this
    · rw [if_neg hq]
      exact ha.nodup p0 hp0
  · rw [setChildren_length, hl1]
  · intro x hx
    rw [hpa, if_neg hx]

/-- The links of one snapshot entry with at most one parent reference into the
snapshot, to a node that has no parent yet. -/
theorem foldl_linkParent_agreed (appName : String) (nodesLocal : GoMap Nat) (base N : Nat)
    (hloc : ∀ k p, mapGet nodesLocal k = some p → base ≤ p ∧ p < N) (child : Nat)
    (hcl : child < N) (refs : List ResourceRef) :
    ∀ h : List treeNode, h.length = N →
      (refs.filter
        (fun r => decide (mapGet nodesLocal (makeKey appName r.UID) ≠ none))).length ≤ 1 →
      (h.getD child default).parent = none → Agreed base h →
      Agreed base (refs.foldl (linkParent appName nodesLocal child) h) ∧
      (refs.foldl (linkParent appName nodesLocal child) h).length = N ∧
      ∀ x, x ≠ child →
        ((refs.foldl (linkParent appName nodesLocal child) h).getD x default).parent =
          (h.getD x default).parent := by
  induction refs with
  | nil =>
    intro h hN _ _ ha
    exact ⟨ha, hN, fun _ _ => rfl⟩
  | cons r rs ih =>
    intro h hN hlen hnone ha
    rw [List.foldl_cons]
    cases hp : mapGet nodesLocal (makeKey appName r.UID) with
    | none =>
      rw [linkParent_none appName nodesLocal child h r hp]
      apply ih h hN _ hnone ha
      rw [List.filter_cons_of_neg (by simp [hp])] at hlen
      exact hlen
    | some p =>
      rw [List.filter_cons_of_pos (by simp [hp]), List.length_cons] at hlen
      have hnil : rs.filter
          (fun r => decide (mapGet nodesLocal (makeKey appName r.UID) ≠ none)) = [] :=
        List.length_eq_zero.1 (by omega)
      have hrs : ∀ r' ∈ rs, mapGet nodesLocal (makeKey appName r'.UID) = none := by
        intro r' hr'
        by_contra hne
        have : r' ∈ rs.filter
            (fun r => decide (mapGet nodesLocal (makeKey appName r.UID) ≠ none)) :=
          List.mem_filter.2 ⟨hr', decide_eq_true hne⟩
        rw [hnil] at this
        cases this
      rw [foldl_linkParent_none appName nodesLocal child rs _ hrs]
      obtain ⟨hpb, hpl⟩ := hloc _ _ hp
      obtain ⟨h1, h2, h3⟩ := linkParent_agreed appName nodesLocal base h child r p hp hpb
        (by omega) (by omega) hnone ha
      exact ⟨h1, h2.trans hN, h3⟩

/-- The second pass on a single-parent snapshot, from the entries still to be
visited. -/
theorem foldl_linkNode_agreed (v : TreeView) (appName : String) (tree : ResourceTree)
    (hsp : SingleParent tree) (pending : List ResourceNode) :
    ∀ h : List treeNode, (∀ nd ∈ pending, nd ∈ tree.Nodes) →
      (pending.map (fun (nd : ResourceNode) => nd.UID)).Nodup →
      h.length = (v.upsertBuild appName tree).heap.length →
      Agreed v.heap.length h →
      (∀ nd ∈ pending, ∀ c,
        mapGet (v.upsertBuild appName tree).nodesLocal (makeKey appName nd.UID) = some c →
        (h.getD c default).parent = none) →
      Agreed v.heap.length
        (pending.foldl (linkNode appName (v.upsertBuild appName tree).nodesLocal) h) := by
  induction pending with
  | nil =>
    intro h _ _ _ ha _
    exact ha
  | cons nd rest ih =>
    intro h hsub hnd hlen ha hpend
    rw [List.foldl_cons]
    rw [List.map_cons, List.nodup_cons] at hnd
    have hsub' : ∀ nd' ∈ rest, nd' ∈ tree.Nodes :=
      fun nd' h' => hsub nd' (List.mem_cons_of_mem _ h')
    cases hc : mapGet (v.upsertBuild appName tree).nodesLocal (makeKey appName nd.UID) with
    | none =>
      have hE : linkNode appName (v.upsertBuild appName tree).nodesLocal h nd = h := by
        unfold linkNode
        rw [hc]
      rw [hE]
      exact ih h hsub' hnd.2 hlen ha (fun nd' h' => hpend nd' (List.mem_cons_of_mem _ h'))
    | some child =>
      have hE : linkNode appName (v.upsertBuild appName tree).nodesLocal h nd =
          nd.ParentRefs.foldl
            (linkParent appName (v.upsertBuild appName tree).nodesLocal child) h := by
        unfold linkNode
        rw [hc]
      rw [hE]
      have hfilter : (nd.ParentRefs.filter (fun r => decide
          (mapGet (v.upsertBuild appName tree).nodesLocal (makeKey appName r.UID) ≠
            none))).length ≤ 1 := by
        have := hsp.2 nd (hsub nd (List.mem_cons_self _ _))
        rw [List.filter_congr (q := fun r => decide (∃ nd' ∈ tree.Nodes, nd'.UID = r.UID))]
        · exact this
        · intro r _
          exact decide_eq_decide.2 (nodesLocal_resolves v appName tree r.UID)
      obtain ⟨h1, h2, h3⟩ := foldl_linkParent_agreed appName
        (v.upsertBuild appName tree).nodesLocal v.heap.length
        (v.upsertBuild appName tree).heap.length (upsertBuild_local_bounds v appName tree)
        child (upsertBuild_local_bounds v appName tree _ _ hc).2 nd.ParentRefs h hlen hfilter
        (hpend nd (List.mem_cons_self _ _) child hc) ha
      apply ih _ hsub' hnd.2 h2 h1
      intro nd' hnd' c' hc'
      have hne : c' ≠ child := by
        rintro rfl
        have hk := nodesLocal_key_inj v appName tree _ _ c' (mem_of_mapGet _ _ _ hc')
          (mem_of_mapGet _ _ _ hc)
        have hu : nd'.UID = nd.UID := makeKey_inj _ _ _ hk
        exact hnd.1 (List.mem_map.2 ⟨nd', hnd', hu⟩)
      rw [h3 c' hne]
      exact hpend nd' (List.mem_cons_of_mem _ hnd') c' hc'

/-- After the second pass on a single-parent snapshot every child link among
the nodes of the call agrees with the parent pointer of the child, and no
children list holds a node twice. -/
theorem upsertLinked_agreed (v : TreeView) (appName : String) (tree : ResourceTree)
    (hsp : SingleParent tree) : Agreed v.heap.length (v.upsertLinked appName tree) := by
  have hnew : ∀ p, v.heap.length ≤ p →
      ((v.upsertBuild appName tree).heap.getD p default).children = [] ∧
      ((v.upsertBuild appName tree).heap.getD p default).parent = none := by
    intro p hp
    by_cases hlt : p < v.heap.length + tree.Nodes.length
    · obtain ⟨i, rfl⟩ : ∃ i, p = v.heap.length + i := ⟨p - v.heap.length, by omega⟩
      have hi : i < tree.Nodes.length := by omega
      rw [upsertBuild_getD_new v appName tree i tree.Nodes[i] (List.getElem?_eq_getElem hi)]
      exact ⟨rfl, rfl⟩
    · have : (v.upsertBuild appName tree).heap.length ≤ p := by
        rw [upsertBuild_heap_length]; omega
      rw [List.getD_eq_default _ _ this]
      exact ⟨rfl, rfl⟩
  unfold upsertLinked
  apply foldl_linkNode_agreed v appName tree hsp tree.Nodes _ (fun _ h => h) hsp.1 rfl
  · refine ⟨?_, ?_⟩
    · intro p c hp hc
      rw [(hnew p hp).1] at hc
      cases hc
    · intro p hp
      rw [(hnew p hp).1]
      exact List.nodup_nil
  · intro nd _ c hc
    exact (hnew c (upsertBuild_local_bounds v appName tree _ _ hc).1).2

end Argonaut

namespace Argonaut

open TreeView

/-! ### The roots of a single-parent snapshot -/

theorem foldl_setParent_frame (x : Option Nat) (cs : List Nat) :
    ∀ (h : List treeNode) (q : Nat),
      ((cs.foldl (fun h c => setParent h c x) h).getD q default).children =
        (h.getD q default).children ∧
      ((cs.foldl (fun h c => setParent h c x) h).getD q default).label =
        (h.getD q default).label := by
  induction cs with
  | nil =>
    intro h q
    exact ⟨rfl, rfl⟩
  | cons c cs ih =>
    intro h q
    rw [List.foldl_cons]
    obtain ⟨h1, h2⟩ := ih (setParent h c x) q
    exact ⟨h1.trans (setParent_children h c x q), h2.trans (setParent_label h c x q)⟩

/-- The slice `filtered` after the filter loop: what the loop appends for each
root, in the order of the roots. -/
theorem foldl_filterRoot_filtered (appName : String) (h2 : List treeNode) (l : List Nat) :
    ∀ f : Filter,
      (∀ q, (f.heap.getD q default).children = (h2.getD q default).children ∧
        (f.heap.getD q default).label = (h2.getD q default).label) →
      (l.foldl (filterRoot appName) f).filtered = f.filtered ++ l.flatMap (promoted appName h2) := by
  induction l with
  | nil =>
    intro f _
    simp
  | cons p ps ih =>
    intro f hf
    rw [List.foldl_cons, List.flatMap_cons]
    have hk : (f.heap.getD p default).kind = (h2.getD p default).kind :=
      kind_of_label (hf p).2
    have hn : (f.heap.getD p default).name = (h2.getD p default).name :=
      name_of_label (hf p).2
    by_cases happ : (h2.getD p default).kind = "Application" ∧
        (h2.getD p default).name = appName
    · have hE : filterRoot appName f p =
          { heap := (f.heap.getD p default).children.foldl (fun h c => setParent h c none)
              f.heap,
            nodesByUID := mapDelete f.nodesByUID (f.heap.getD p default).uid,
            filtered := f.filtered ++ (f.heap.getD p default).children } := by
        unfold filterRoot
        simp only
        rw [if_pos (by rw [hk, hn]; exact happ)]
      rw [hE, ih]
      · simp only
        unfold promoted
        rw [if_pos happ, (hf p).1, List.append_assoc]
      · intro q
        simp only
        obtain ⟨h1, h2'⟩ := foldl_setParent_frame none (f.heap.getD p default).children f.heap q
        exact ⟨h1.trans (hf q).1, h2'.trans (hf q).2⟩
    · have hE : filterRoot appName f p = { f with filtered := f.filtered ++ [p] } := by
        unfold filterRoot
        simp only
        rw [if_neg (by rw [hk, hn]; exact happ)]
      rw [hE, ih]
      · simp only
        unfold promoted
        rw [if_neg happ, List.append_assoc]
      · exact hf

theorem upsertFilter_filtered_eq (v : TreeView) (appName : String) (tree : ResourceTree) :
    (v.upsertFilter appName tree).filtered =
      (v.upsertTempRoots appName tree).flatMap (promoted appName (v.upsertLinked appName tree)) := by
  unfold upsertFilter
  rw [foldl_filterRoot_filtered appName (v.upsertLinked appName tree)]
  · rfl
  · intro q
    exact ⟨rfl, rfl⟩

theorem upsertTempRoots_nodup (v : TreeView) (appName : String) (tree : ResourceTree) :
    (v.upsertTempRoots appName tree).Nodup := by
  unfold upsertTempRoots
  apply List.Nodup.filter
  apply List.Nodup.map_on
  · rintro ⟨k, p⟩ hx ⟨k', p'⟩ hy hxy
    simp only at hxy
    subst hxy
    rw [nodesLocal_key_inj v appName tree k k' p hx hy]
  · exact List.Nodup.of_map _ (upsertBuild_nodesLocal_nodup v appName tree)

/-- On a single-parent snapshot no node is a root twice. -/
theorem upsertFilter_filtered_nodup (v : TreeView) (appName : String) (tree : ResourceTree)
    (hsp : SingleParent tree) : (v.upsertFilter appName tree).filtered.Nodup := by
  have ha := upsertLinked_agreed v appName tree hsp
  have hbase : ∀ p ∈ v.upsertTempRoots appName tree, v.heap.length ≤ p := by
    intro p hp
    obtain ⟨⟨k, hk⟩, _⟩ := (mem_upsertTempRoots v appName tree p).1 hp
    exact (upsertBuild_local_range v appName tree k p hk).1
  have hnone : ∀ p ∈ v.upsertTempRoots appName tree,
      ((v.upsertLinked appName tree).getD p default).parent = none :=
    fun p hp => ((mem_upsertTempRoots v appName tree p).1 hp).2
  rw [upsertFilter_filtered_eq, List.nodup_flatMap]
  refine ⟨?_, ?_⟩
  · intro p hp
    unfold promoted
    split
    · exact ha.nodup p (hbase p hp)
    · exact List.nodup_singleton _
  · apply (upsertTempRoots_nodup v appName tree).pairwise_of_forall_ne
    intro a hai b hbi hab
    show List.Disjoint (promoted appName _ a) (promoted appName _ b)
    intro x hxa hxb
    unfold promoted at hxa hxb
    split at hxa
    · have h1 := ha.agree a x (hbase a hai) hxa
      split at hxb
      · have h2 := ha.agree b x (hbase b hbi) hxb
        rw [h1] at h2
        cases h2
        exact hab rfl
      · rw [List.mem_singleton.1 hxb, hnone b hbi] at h1
        cases h1
    · rw [List.mem_singleton.1 hxa] at hxb
      split at hxb
      · have h2 := ha.agree b a (hbase b hbi) hxb
        rw [hnone a hai] at h2
        cases h2
      · exact hab (List.mem_singleton.1 hxb)

/-! ### Sorting keeps the children -/

theorem sortChildren_perm (h : List treeNode) (kp : String × Nat) (q : Nat) :
    List.Perm ((sortChildren h kp).getD q default).children (h.getD q default).children := by
  unfold sortChildren
  split
  · rw [setChildren_children]
    split
    · rename_i hq
      rw [hq.1]
      exact List.perm_insertionSort _ _
    · exact List.Perm.refl _
  · exact List.Perm.refl _

theorem upsertSorted_children_perm (v : TreeView) (appName : String) (tree : ResourceTree)
    (q : Nat) :
    List.Perm ((v.upsertSorted appName tree).getD q default).children
      ((v.upsertLinked appName tree).getD q default).children := by
  rw [← (upsertFilter_inv v appName tree).children q]
  unfold upsertSorted
  apply foldl_inv (fun h : List treeNode => List.Perm (h.getD q default).children
    ((v.upsertFilter appName tree).heap.getD q default).children) _ _ _ (List.Perm.refl _)
  intro s kp _ hs
  exact (sortChildren_perm s kp q).trans hs

end Argonaut

namespace Argonaut

open TreeView

/-! ### The tree below the new root -/

/-- The nodes below the root a call of `UpsertAppTree` allocates are cells of
the call, in every view over the heap of the call. -/
theorem below_upsertHeap (v w : TreeView) (hc : Closed v) (appName : String)
    (tree : ResourceTree)
    (hw : ∀ p, w.node p = (v.upsertHeap appName tree).getD p default) (p : Nat)
    (hb : Below w (v.heap.length + tree.Nodes.length) p) :
    v.heap.length ≤ p ∧ p ≤ v.heap.length + tree.Nodes.length := by
  induction hb with
  | self => omega
  | @child q c _ hcm ih =>
    rw [hw] at hcm
    rcases upsertHeap_children_cases v hc appName tree q c hcm with ⟨h1, _⟩ | ⟨h1, _, h3⟩ |
      ⟨_, h2⟩
    · omega
    · have := upsertLinked_children_local v appName tree q c h1 h3
      omega
    · have := upsertFilter_filtered_local v appName tree c h2
      omega

/-- A top-level Application node the filter drops is not below the new root. -/
theorem dropped_not_below (v w : TreeView) (hc : Closed v) (appName : String)
    (tree : ResourceTree) (hsp : SingleParent tree)
    (hw : ∀ p, w.node p = (v.upsertHeap appName tree).getD p default) (p : Nat)
    (hp : p ∈ v.upsertTempRoots appName tree)
    (happ : isAppNode appName (v.upsertLinked appName tree) p) :
    ¬ Below w (v.heap.length + tree.Nodes.length) p := by
  intro hb
  have ha := upsertLinked_agreed v appName tree hsp
  have hnone : ((v.upsertLinked appName tree).getD p default).parent = none :=
    ((mem_upsertTempRoots v appName tree p).1 hp).2
  have hlocal : ∀ q ∈ v.upsertTempRoots appName tree, v.heap.length ≤ q := by
    intro q hq
    obtain ⟨⟨k, hk⟩, _⟩ := (mem_upsertTempRoots v appName tree q).1 hq
    exact (upsertBuild_local_range v appName tree k q hk).1
  have hfil : p ∉ (v.upsertFilter appName tree).filtered := by
    intro hf
    rcases (upsertFilter_inv v appName tree).filtered p hf with ⟨_, h2⟩ | ⟨q, hq, _, h3⟩
    · exact h2 happ
    · have := ha.agree q p (hlocal q hq) h3
      rw [hnone] at this
      cases this
  rcases hb.cases_last with h | ⟨q, hq, hcm⟩
  · have := (upsertBuild_local_range v appName tree _ p
      ((mem_upsertTempRoots v appName tree p).1 hp).1.choose_spec).2
    omega
  · rw [hw] at hcm
    rcases upsertHeap_children_cases v hc appName tree q p hcm with ⟨h1, _⟩ | ⟨h1, _, h3⟩ |
      ⟨_, h2⟩
    · have := hlocal p hp
      have := (below_upsertHeap v w hc appName tree hw q hq).1
      omega
    · have := ha.agree q p h1 h3
      rw [hnone] at this
      cases this
    · exact hfil h2

/-- On a single-parent snapshot, below the new root every children list is
free of repetitions and every child points back to its parent. -/
theorem upsertHeap_single (v w : TreeView) (hc : Closed v) (appName : String)
    (tree : ResourceTree) (hsp : SingleParent tree)
    (hw : ∀ p, w.node p = (v.upsertHeap appName tree).getD p default) (p : Nat)
    (hb : Below w (v.heap.length + tree.Nodes.length) p) :
    (w.node p).children.Nodup ∧ ∀ c ∈ (w.node p).children, (w.node c).parent = some p := by
  have ha := upsertLinked_agreed v appName tree hsp
  obtain ⟨hp0, hp1⟩ := below_upsertHeap v w hc appName tree hw p hb
  by_cases hp : p = v.heap.length + tree.Nodes.length
  · subst hp
    have hch : (w.node (v.heap.length + tree.Nodes.length)).children =
        v.upsertSortedRoots appName tree := by
      rw [hw, upsertHeap_root]
      rfl
    rw [hch]
    refine ⟨?_, ?_⟩
    · unfold upsertSortedRoots sortNodes
      exact (List.perm_insertionSort _ _).nodup_iff.2
        (upsertFilter_filtered_nodup v appName tree hsp)
    · intro c hcm
      rw [hw]
      exact upsertHeap_parent_of_root v appName tree c hcm
  · have hlt : p < v.heap.length + tree.Nodes.length := by omega
    refine ⟨?_, ?_⟩
    · rw [hw, upsertHeap_children_eq v appName tree p hlt]
      exact (upsertSorted_children_perm v appName tree p).nodup_iff.2 (ha.nodup p hp0)
    · intro c hcm
      rw [hw] at hcm
      have hcl := (upsertHeap_children v appName tree p c hlt).1 hcm
      have hpar := ha.agree p c hp0 hcl
      obtain ⟨_, hc1, _⟩ := upsertLinked_children_local v appName tree p c hp0 hcl
      have hns : c ∉ v.upsertSortedRoots appName tree := by
        intro hs
        have hf := (mem_upsertSortedRoots v appName tree c).1 hs
        rcases (upsertFilter_inv v appName tree).filtered c hf with ⟨h1, _⟩ | ⟨q, hq, hqa, h3⟩
        · have := ((mem_upsertTempRoots v appName tree c).1 h1).2
          rw [hpar] at this
          cases this
        · have hq0 : v.heap.length ≤ q := by
            obtain ⟨⟨k, hk⟩, _⟩ := (mem_upsertTempRoots v appName tree q).1 hq
            exact (upsertBuild_local_range v appName tree k q hk).1
          have := ha.agree q c hq0 h3
          rw [hpar] at this
          cases this
          exact dropped_not_below v w hc appName tree hsp hw p hq hqa hb
      rw [hw, upsertHeap_parent_eq v appName tree c hc1 hns]
      rcases upsertFilter_parent v appName tree c with h | h
      · exact absurd ((mem_upsertSortedRoots v appName tree c).2 h) hns
      · rw [h]
        exact hpar

/-! ### Termination and preservation -/

/-- `UpsertAppTree` returns on every single-parent snapshot, cyclic or not:
the nodes of a parent cycle are not below the root. -/
theorem UpsertAppTree_returns_single (v : TreeView) (hc : Closed v) (hs : Shallowed v)
    (appName : String) (tree : ResourceTree) (hsp : SingleParent tree) :
    ∃ v', v.UpsertAppTree appName tree = some v' := by
  apply rebuildOrder_returns
  intro r hr
  show Shallow (v.upsertHeap appName tree) ((v.upsertHeap appName tree).length + 1) r
  rcases (mem_upsertCore_roots v appName tree r).1 hr with hr | hr
  · exact upsertCore_shallow_old v hc hs appName tree r hr
  · rw [hr]
    have hw : ∀ p, (v.upsertCore appName tree).node p =
        (v.upsertHeap appName tree).getD p default := fun _ => rfl
    have h := tree_shallow (v.upsertCore appName tree)
      (fun p => Below (v.upsertCore appName tree) (v.heap.length + tree.Nodes.length) p)
      (fun p hp c hcm => ⟨Below.child hp hcm,
        (upsertHeap_single v _ hc appName tree hsp hw p hp).2 c hcm⟩)
      (v.heap.length + tree.Nodes.length) Below.self
      (upsertHeap_root_parent v appName tree)
      (List.range' v.heap.length (tree.Nodes.length + 1))
      (fun x hx => by
        have := below_upsertHeap v _ hc appName tree hw x hx
        rw [List.mem_range'_1]
        omega)
    apply h.mono
    rw [List.length_range', upsertHeap_length]
    omega

/-- After `UpsertAppTree` on a single-parent snapshot no node of the forest is
the child of two nodes, when none was before. -/
theorem UpsertAppTree_single (v v' : TreeView) (hc : Closed v) (hsingle : SingleParented v)
    (appName : String) (tree : ResourceTree) (hsp : SingleParent tree)
    (h : v.UpsertAppTree appName tree = some v') : SingleParented v' := by
  intro p hp
  obtain ⟨r, hr, hb⟩ := hp
  have hw := node_UpsertAppTree v v' appName tree h
  rcases (mem_UpsertAppTree_roots v v' appName tree h r).1 hr with hr | hr
  · have hrv := removeApp_roots_subset v appName r hr
    obtain ⟨hpl, hbv⟩ := below_old_root v v' hc appName tree h r p (hc.roots r hrv) hb
    obtain ⟨h1, h2⟩ := hsingle p ⟨r, hrv, hbv⟩
    have hnode : v'.node p = v.node p := by
      rw [hw, upsertHeap_old v appName tree p hpl]
      rfl
    rw [hnode]
    refine ⟨h1, ?_⟩
    intro c hcm
    rw [hw, upsertHeap_old v appName tree c (hc.children p hpl c hcm)]
    exact h2 c hcm
  · subst hr
    exact upsertHeap_single v v' hc appName tree hsp hw p hb

theorem SingleParented.single_reset (v : TreeView) : SingleParented v.resetData := by
  intro p hp
  obtain ⟨r, hr, _⟩ := hp
  cases hr

theorem SingleParented.single_new (width height : Int) :
    SingleParented (NewTreeView width height) := by
  intro p hp
  obtain ⟨r, hr, _⟩ := hp
  cases hr

end Argonaut

namespace Argonaut

open TreeView

theorem TreeOrder.of_single {names : List String} {v : TreeView} (hreach : Reached names v)
    (hsingle : SingleParented v) : TreeOrder v :=
  ⟨order_nodup v hreach.viewed.1 hreach.rooted hreach.ordered hsingle,
   order_parent_before v hreach.viewed.1 hreach.rooted hsingle,
   order_iff_above v hreach.viewed.1 hreach.rooted hsingle⟩

/-- The literal C39 fails on two snapshots upserted as `demo` into a new view.
In the first, two entries share the UID `3` and each entry has one parent
reference: the Pod allocated last sits under both Deployments and is met twice
in the visible order.  In the second, with distinct UIDs and at most one
parent reference per entry, the Application entry `demo` has no parent, hence
no ancestor, and is not visible. -/
theorem rebuildOrder_single_parent_counterexample :
    ((∀ nd ∈ Examples.repeatedUID.Nodes,
        (nd.ParentRefs.filter (fun r =>
          decide (∃ nd' ∈ Examples.repeatedUID.Nodes, nd'.UID = r.UID))).length ≤ 1) ∧
      (UpsertAppTree (NewTreeView 80 24) "demo" Examples.repeatedUID).map
          (fun v => (v.order, (v.node 3).uid, (v.node 0).children, (v.node 1).children)) =
        some ([4, 0, 3, 1, 3], "demo::3", [3], [3])) ∧
    (SingleParent Examples.withApplicationCR ∧
      (UpsertAppTree (NewTreeView 80 24) "demo" Examples.withApplicationCR).map
          (fun v => (v.order, (v.node 0).kind, (v.node 0).name, (v.node 0).parent)) =
        some ([2, 1], "Application", "demo", none)) := by
  decide

/-- C39, amended. The visible-order walk is total and duplicate-free on
single-parent snapshots with distinct UIDs.  Let `v` be a view reached from
`NewTreeView` in which no node below a root is listed twice as a child and
every child below a root points back to its parent (`SingleParented`; it holds
in `NewTreeView`).  Then `rebuildOrder` returns on `v`, and the visible order
of `v` is that of a forest (`TreeOrder`): no node is met twice, every visible
node with a parent comes after that parent, and a node is visible exactly when
it is below a root and every node above it is expanded.  For every snapshot
whose UIDs are distinct and in which each entry has at most one parent
reference that resolves within the snapshot (`SingleParent`), with or without
a cycle among those references, `UpsertAppTree` and `SetData` return a view
with the same three properties in which `SingleParented` holds again; so does
`Update` on every message. -/
theorem rebuildOrder_single_parent (names : List String) (v : TreeView)
    (hreach : Reached names v) (hsingle : SingleParented v) :
    (∃ w, v.rebuildOrder = some w) ∧ TreeOrder v ∧
    (∀ appName tree, SingleParent tree →
      ∃ v', v.UpsertAppTree appName tree = some v' ∧ SingleParented v' ∧ TreeOrder v') ∧
    (∀ tree, SingleParent tree →
      ∃ v', v.SetData tree = some v' ∧ SingleParented v' ∧ TreeOrder v') ∧
    (∀ msg, ∃ v', v.Update msg = some v' ∧ SingleParented v' ∧ TreeOrder v') := by
  refine ⟨rebuildOrder_returns v hreach.shallowed, TreeOrder.of_single hreach hsingle, ?_, ?_,
    ?_⟩
  · intro appName tree hsp
    obtain ⟨v', hv'⟩ :=
      UpsertAppTree_returns_single v hreach.closed hreach.shallowed appName tree hsp
    have hs' := UpsertAppTree_single v v' hreach.closed hsingle appName tree hsp hv'
    exact ⟨v', hv', hs', TreeOrder.of_single (Reached.upsert appName tree hreach hv') hs'⟩
  · intro tree hsp
    obtain ⟨v', hv'⟩ := UpsertAppTree_returns_single v.resetData hreach.closed.closed_reset
      (Shallowed.shallowed_reset v) v.appName tree hsp
    have hs' := UpsertAppTree_single v.resetData v' hreach.closed.closed_reset
      (SingleParented.single_reset v) v.appName tree hsp hv'
    exact ⟨v', hv', hs', TreeOrder.of_single (Reached.setData tree hreach hv') hs'⟩
  · intro msg
    obtain ⟨v', hv'⟩ := Update_returns v hreach.shallowed msg
    have hs' := SingleParented.single_of_sameShape (Update_sameForest v v' msg hv').sameShape
      hsingle
    exact ⟨v', hv', hs', TreeOrder.of_single (Reached.update msg hreach hv') hs'⟩

/-- Witness for C39: the snapshot `cycleBeside`, in which two Pods name each
other as parent, upserted as `demo` into a new view.  The call returns, the two
Pods (cells 2 and 3) are outside the visible order `[4, 0, 1]`, and the order
is that of a forest. -/
theorem rebuildOrder_single_parent_witness :
    SingleParent Examples.cycleBeside ∧
    ∃ v', (NewTreeView 80 24).UpsertAppTree "demo" Examples.cycleBeside = some v' ∧
      v'.order = [4, 0, 1] ∧ SingleParented v' ∧ TreeOrder v' :=
  have h := (rebuildOrder_single_parent [] (NewTreeView 80 24) (Reached.new 80 24)
    (SingleParented.single_new 80 24)).2.2.1 "demo" Examples.cycleBeside (by decide)
  ⟨by decide, by
    obtain ⟨v', hv', h1, h2⟩ := h
    refine ⟨v', hv', ?_, h1, h2⟩
    have he : (UpsertAppTree (NewTreeView 80 24) "demo" Examples.cycleBeside).map
        (fun v => v.order) = some [4, 0, 1] := by decide
    rw [hv'] at he
    exact Option.some.inj he⟩

end Argonaut

namespace Argonaut

open TreeView

/-! ## Lower-casing beyond ASCII -/

/-- The lower-casing of `strings.ToLower` beyond ASCII: the dotted capital I
(U+0130) becomes `i`, the Kelvin sign (U+212A) becomes `k`, a capital E acute
becomes the small one, and letters without a lower-case form stay.  So the Pod
of `dottedView`, whose health is `MISSING` written with U+0130, is Missing:
`ToggleSelection` on it returns false and selects nothing, and
`handleResourceDelete` leaves the mode as it is; and the query `ecole` written
with a small e acute matches the ConfigMap named with the capital one. -/
theorem unicode_lower_examples :
    ToLower "M\u0130SSING" = "missing" ∧ ToLower "\u212a8S" = "k8s" ∧
    ToLower "\u00c9cole" = "\u00e9cole" ∧ ToLower "stra\u00dfe" = "stra\u00dfe" ∧
    (Examples.dottedView.order, Examples.dottedView.SelectedIndex) = ([2, 1, 0], 2) ∧
    (Examples.dottedView.node 0).health = "M\u0130SSING" ∧
    Examples.dottedView.CurrentResourceIsMissing = true ∧
    Examples.dottedView.ToggleSelection.2 = false ∧
    Examples.dottedView.ToggleSelection.1.selectedUIDs = [] ∧
    (Examples.treeModel Examples.dottedView).handleResourceDelete.1.state.Mode = Mode.Normal ∧
    (Examples.dottedView.SetFilter "\u00e9cole").matchIndices = [1] := by
  decide

end Argonaut
